import Mathlib

/-!
# oncefs: a shallow embedding of the storage engine and its table library

The development follows the C sources file by file:

* `lib/array.c`  : sorted arrays with comparator-bound binary search,
* `lib/table.c`  : a row store with sorted indexes of row positions,
* `lib/io.c`     : block input and output over a container,
* `oncefs.c`     : the filesystem engine (nodes and blocks tables, replay).

Conventions of the embedding.

* C return codes are kept as integers: `0` or a negated errno value.  A
  function with an out-parameter returns the pair of its return code and
  the value left in the out-parameter.
* `char` fields (`type`, `operation`) are signed bytes, modelled by `Int`.
* `uint32_t` and `uint16_t` narrowings are written `% 2^32` and `% 2^16`.
  The 64-bit counters (`next_seq_id`, `next_block_id`, `next_node_id`,
  offsets, times) are unbounded naturals: wrapping them needs 2^64 steps.
* C strings are lists of characters (one `Char` stands for one byte).
* Behaviour the C standard leaves undefined (a read of an uninitialised
  object that decides a result) is the result `none`.
* The container keeps the struct images written with `io_write2` and
  `io_write3` as values: the byte layout of the structs is not modelled,
  only their sizes (x86-64 System V: the structs are not packed).
* Results of `time(NULL)` and `random()` are inputs of the operation.
-/

namespace OnceFS

/-! ## errno values (Linux) -/

abbrev ENOENT : Int := 2
abbrev ENOMEM : Int := 12
abbrev EEXIST : Int := 17
abbrev EINVAL : Int := 22
abbrev ENOSPC : Int := 28
abbrev ENOSYS : Int := 38
abbrev EOVERFLOW : Int := 75

/-! ## C library functions used by the sources -/

/-- C library `strcmp`, reduced to its sign: `-1`, `0` or `1`. -/
def strcmp : List Char → List Char → Int
  | [], [] => 0
  | [], _ :: _ => -1
  | _ :: _, [] => 1
  | a :: as, b :: bs =>
    if a.toNat < b.toNat then -1
    else if b.toNat < a.toNat then 1
    else strcmp as bs

/-- All tokens the loop `strtok_r(str, "/", &saveptr)`, `strtok_r(NULL, "/",
&saveptr)`, ... yields: the maximal runs of characters other than `/`, in
order.  `cur` holds the characters of the token being read, last first. -/
def strtok_all : List Char → List Char → List (List Char)
  | cur, [] => if cur = [] then [] else [cur.reverse]
  | cur, c :: cs =>
    if c = '/' then
      (if cur = [] then strtok_all [] cs else cur.reverse :: strtok_all [] cs)
    else strtok_all (c :: cur) cs

/-- Tokens of a path. -/
def path_tokens (path : List Char) : List (List Char) :=
  strtok_all [] path

/-- Drop the trailing `/` characters of a string. -/
def strip_slashes (s : List Char) : List Char :=
  (s.reverse.dropWhile (fun c => c = '/')).reverse

/-- The characters after the last `/` of a string (the whole string when it
has none). -/
def after_last_slash (s : List Char) : List Char :=
  (s.reverse.takeWhile (fun c => c ≠ '/')).reverse

/-- The characters before the last `/` of a string that has one. -/
def before_last_slash (s : List Char) : List Char :=
  ((s.reverse.dropWhile (fun c => c ≠ '/')).drop 1).reverse

/-- C library `basename` of `libgen.h` (the POSIX version): the last
component of the path, trailing slashes removed; `"/"` for a path of
slashes only and `"."` for the empty path. -/
def basename (path : List Char) : List Char :=
  if path = [] then ['.']
  else if strip_slashes path = [] then ['/']
  else after_last_slash (strip_slashes path)

/-- C library `dirname` of `libgen.h` (glibc): the path up to, not
including, the last component; `"."` when the path has no directory part,
`"/"` when the directory part is the root (and `"//"` when the path begins
with exactly two slashes that are followed by at most one component). -/
def dirname (path : List Char) : List Char :=
  let all_slashes_case : List Char :=
    if path.length = 2 then ['/', '/'] else ['/']
  if ¬ ('/' ∈ path) then ['.']
  else if strip_slashes path = [] then all_slashes_case
  else
    let p := strip_slashes path
    if ¬ ('/' ∈ p) then ['.']
    else
      let d := strip_slashes (before_last_slash p)
      if d = [] then
        (if (before_last_slash p).length = 1 then ['/', '/'] else ['/'])
      else d

/-- C library `strncpy(dest, src, n)` into a buffer that is then read as a
string: the first `n` characters of `src`. -/
def strncpy (src : List Char) (n : Nat) : List Char := src.take n

/-- The value of a `long` stored into a `char` (a signed byte). -/
def to_char (x : Nat) : Int := ((x % 256 + 128) % 256 : Nat) - 128

/-! ## lib/array.c -/

/-- An `array_t` on which `array_sort` has been called: the entries and the
stored comparator.  `ε` is the type of an entry as stored, `β` the type the
comparator sees.  An array without reference has `ε = β`; an array in
reference mode stores positions (`ε = Nat`) into the referenced array. -/
structure array_t (ε β : Type) where
  entries : List ε
  comparator : β → β → Int

/-- `array_len`. -/
def array_len {ε β : Type} (array : array_t ε β) : Nat := array.entries.length

/-- `array_dereference` for an array in reference mode: the row at the
stored position of the referenced array (`reference->entries[*index]`). -/
def array_dereference {ρ : Type} [Inhabited ρ] (reference : List ρ) (index : Nat) : ρ :=
  reference.getD index default

/-- libc `qsort` with the comparator of `array_sort`: a sort of the entries
under the comparator applied to the dereferenced entries (insertion sort). -/
def qsort {ε β : Type} (deref : ε → β) (cmp : β → β → Int) (xs : List ε) : List ε :=
  xs.insertionSort (fun a b => cmp (deref a) (deref b) ≤ 0)

/-- `array_sort(array, NULL)`: sort again under the stored comparator. -/
def array_sort {ε β : Type} (deref : ε → β) (array : array_t ε β) : array_t ε β :=
  { array with entries := qsort deref array.comparator array.entries }

/-- The binary search loop of `array_sorted_insert`: `r mid` is the
comparison of the new entry with the entry at `mid`.  The result is `dest`. -/
def sorted_insert_loop (r : Nat → Int) : Nat → Nat → Nat → Nat
  | 0, low, _ => low
  | fuel + 1, low, high =>
    if low < high then
      if r (low + (high - low) / 2) < 0 then
        sorted_insert_loop r fuel low (low + (high - low) / 2)
      else if r (low + (high - low) / 2) > 0 then
        sorted_insert_loop r fuel (low + (high - low) / 2 + 1) high
      else low + (high - low) / 2
    else low

/-- `array_sorted_insert`: the entry is placed at the position the binary
search ends on and the tail is shifted by one. -/
def array_sorted_insert {ε β : Type} [Inhabited ε] (deref : ε → β)
    (array : array_t ε β) (entry : ε) : array_t ε β :=
  let dest := sorted_insert_loop
    (fun mid => array.comparator (deref entry) (deref (array.entries.getD mid default)))
    array.entries.length 0 array.entries.length
  { array with entries := array.entries.take dest ++ entry :: array.entries.drop dest }

/-- The loop of `_array_sorted_find_index`: `r mid` is the value of the
filter at `mid`.  The result is `(high, is_valid)`. -/
def find_index_loop (r : Nat → Int) : Nat → Nat → Nat → Bool → Nat × Bool
  | 0, _, high, is_valid => (high, is_valid)
  | fuel + 1, low, high, is_valid =>
    if low < high then
      if r (low + (high - low) / 2) = 0 then
        find_index_loop r fuel low (low + (high - low) / 2) true
      else if r (low + (high - low) / 2) < 0 then
        find_index_loop r fuel low (low + (high - low) / 2) false
      else find_index_loop r fuel (low + (high - low) / 2 + 1) high is_valid
    else (high, is_valid)

/-- The value `r` of the filter at position `mid` in the loop of
`_array_sorted_find_index`; with `reverse` the array is read from its end
and the value negated.  A NULL filter is the stored comparator. -/
def find_index_probe {ε β : Type} [Inhabited ε] (deref : ε → β) (array : array_t ε β)
    (filter : Option (β → β → Int)) (key : β) (reverse : Bool) (mid : Nat) : Int :=
  if reverse then
    - (filter.getD array.comparator) key
        (deref (array.entries.getD (array.entries.length - 1 - mid) default))
  else (filter.getD array.comparator) key (deref (array.entries.getD mid default))

/-- The loop of `_array_sorted_find_index` run on an array: `(high,
is_valid)` at its end. -/
def find_index_search {ε β : Type} [Inhabited ε] (deref : ε → β) (array : array_t ε β)
    (filter : Option (β → β → Int)) (key : β) (reverse : Bool) : Nat × Bool :=
  find_index_loop (find_index_probe deref array filter key reverse)
    array.entries.length 0 array.entries.length false

/-- `_array_sorted_find_index`: return code and index. -/
def _array_sorted_find_index {ε β : Type} [Inhabited ε] (deref : ε → β)
    (array : array_t ε β) (filter : Option (β → β → Int)) (key : β)
    (reverse : Bool) : Int × Nat :=
  if ¬ (find_index_search deref array filter key reverse).2 = true then (-ENOENT, 0)
  else (0, if reverse then
             array.entries.length - 1 - (find_index_search deref array filter key reverse).1
           else (find_index_search deref array filter key reverse).1)

/-- `_array_sorted_find_value`: return code and the entry found. -/
def _array_sorted_find_value {ε β : Type} [Inhabited ε] (deref : ε → β)
    (array : array_t ε β) (filter : Option (β → β → Int)) (key : β)
    (reverse : Bool) : Int × ε :=
  let r := _array_sorted_find_index deref array filter key reverse
  if r.1 ≠ 0 then (r.1, default)
  else (0, array.entries.getD r.2 default)

/-- `array_sorted_first`. -/
def array_sorted_first {ε β : Type} [Inhabited ε] (deref : ε → β)
    (array : array_t ε β) (filter : Option (β → β → Int)) (key : β) : Int × ε :=
  _array_sorted_find_value deref array filter key false

/-- `array_sorted_last`. -/
def array_sorted_last {ε β : Type} [Inhabited ε] (deref : ε → β)
    (array : array_t ε β) (filter : Option (β → β → Int)) (key : β) : Int × ε :=
  _array_sorted_find_value deref array filter key true

/-- `array_sorted_each`: return code and the entries the callback is invoked
on, in order (`first`, ..., `last`). -/
def array_sorted_each {ε β : Type} [Inhabited ε] (deref : ε → β)
    (array : array_t ε β) (filter : Option (β → β → Int)) (key : β) : Int × List ε :=
  let first := _array_sorted_find_index deref array filter key false
  if first.1 ≠ 0 then (first.1, [])
  else
    let last := _array_sorted_find_index deref array filter key true
    if last.1 ≠ 0 then (last.1, [])
    else (0, (List.range (last.2 + 1 - first.2)).map
               (fun i => array.entries.getD (first.2 + i) default))

/-- `array_delete`: the entries on which the filter is not `0`, in order. -/
def array_delete {ε : Type} (filter : ε → Int) (entries : List ε) : List ε :=
  entries.filter (fun e => filter e ≠ 0)

/-- `_cmp_size` of `table.c`. -/
def _cmp_size (a b : Nat) : Int :=
  if a < b then -1 else if a > b then 1 else 0

/-! ## lib/table.c -/

/-- A `table_t`: the row store and the indexes, each a sorted array of row
positions whose comparator is applied to the rows the positions refer to.
Index `0` is the primary index. -/
structure table_t (ρ : Type) where
  rows : List ρ
  indexes : List (array_t Nat ρ)

instance {ρ : Type} : Inhabited (array_t Nat ρ) := ⟨{ entries := [], comparator := fun _ _ => 0 }⟩

/-- `table_init`: no row and the primary index. -/
def table_init {ρ : Type} (comparator : ρ → ρ → Int) : table_t ρ :=
  { rows := [], indexes := [{ entries := [], comparator := comparator }] }

/-- `table_add_index`: refused once the table holds a row. -/
def table_add_index {ρ : Type} (table : table_t ρ) (comparator : ρ → ρ → Int) :
    Int × table_t ρ :=
  if table.rows.length > 0 then (-EINVAL, table)
  else (0, { table with indexes := table.indexes ++ [{ entries := [], comparator := comparator }] })

/-- `array_get(&table->indexes, table_index_id, &index)`. -/
def table_index {ρ : Type} (table : table_t ρ) (table_index_id : Nat) : array_t Nat ρ :=
  table.indexes.getD table_index_id default

/-- `_table_insert`.  A match on the primary index is either an error
(`replace = false`) or overwritten in place, after which every index is
sorted again; without a match the row is appended and its position inserted
into every index.  (Allocation failure of `array_append` is not modelled.) -/
def _table_insert {ρ : Type} [Inhabited ρ] (table : table_t ρ) (row : ρ) (replace : Bool) :
    Int × table_t ρ :=
  let index := table_index table 0
  let r := array_sorted_first (array_dereference table.rows) index (some index.comparator) row
  if r.1 = -ENOENT then
    (0, { rows := table.rows ++ [row],
          indexes := table.indexes.map (fun ix =>
            array_sorted_insert (array_dereference (table.rows ++ [row])) ix table.rows.length) })
  else if r.1 ≠ 0 then (r.1, table)
  else if ¬ replace then (-EEXIST, table)
  else
    (0, { rows := table.rows.set r.2 row,
          indexes := table.indexes.map (fun ix =>
            array_sort (array_dereference (table.rows.set r.2 row)) ix) })

/-- `table_insert`. -/
def table_insert {ρ : Type} [Inhabited ρ] (table : table_t ρ) (row : ρ) : Int × table_t ρ :=
  _table_insert table row false

/-- `table_insert_or_replace`. -/
def table_insert_or_replace {ρ : Type} [Inhabited ρ] (table : table_t ρ) (row : ρ) :
    Int × table_t ρ :=
  _table_insert table row true

/-- `table_query_first`: return code and the row found. -/
def table_query_first {ρ : Type} [Inhabited ρ] (table : table_t ρ) (key : ρ)
    (table_index_id : Nat) (filter : Option (ρ → ρ → Int)) : Int × ρ :=
  let r := array_sorted_first (array_dereference table.rows) (table_index table table_index_id)
    filter key
  if r.1 ≠ 0 then (r.1, default) else (0, array_dereference table.rows r.2)

/-- `table_query_last`: return code and the row found. -/
def table_query_last {ρ : Type} [Inhabited ρ] (table : table_t ρ) (key : ρ)
    (table_index_id : Nat) (filter : Option (ρ → ρ → Int)) : Int × ρ :=
  if table_index_id ≥ table.indexes.length then (-EINVAL, default)
  else
    let r := array_sorted_last (array_dereference table.rows) (table_index table table_index_id)
      filter key
    if r.1 ≠ 0 then (r.1, default) else (0, array_dereference table.rows r.2)

/-- The row positions `table_query_all`, `table_query_update` and
`table_query_delete` visit through the named index. -/
def table_query_ids {ρ : Type} [Inhabited ρ] (table : table_t ρ) (key : ρ)
    (table_index_id : Nat) (comparator : Option (ρ → ρ → Int)) : Int × List Nat :=
  if table_index_id ≥ table.indexes.length then (-EINVAL, [])
  else array_sorted_each (array_dereference table.rows) (table_index table table_index_id)
    comparator key

/-- `table_query_all`: return code and the rows the callback is invoked on. -/
def table_query_all {ρ : Type} [Inhabited ρ] (table : table_t ρ) (key : ρ)
    (table_index_id : Nat) (comparator : Option (ρ → ρ → Int)) : Int × List ρ :=
  let r := table_query_ids table key table_index_id comparator
  if r.1 ≠ 0 then (r.1, []) else (0, r.2.map (array_dereference table.rows))

/-- `table_query_count`: return code and count; no match counts `0`. -/
def table_query_count {ρ : Type} [Inhabited ρ] (table : table_t ρ) (key : ρ)
    (table_index_id : Nat) (comparator : Option (ρ → ρ → Int)) : Int × Nat :=
  let r := table_query_ids table key table_index_id comparator
  if r.1 ≠ 0 ∧ r.1 ≠ -ENOENT then (r.1, 0) else (0, r.2.length)

/-- `table_query_update`: the mutator is applied in place to each row
visited, then every index is sorted again. -/
def table_query_update {ρ : Type} [Inhabited ρ] (table : table_t ρ) (key : ρ)
    (table_index_id : Nat) (comparator : Option (ρ → ρ → Int)) (mutator : ρ → ρ) :
    Int × table_t ρ :=
  let r := table_query_ids table key table_index_id comparator
  if r.1 ≠ 0 ∧ r.1 ≠ -ENOENT then (r.1, table)
  else
    let rows := r.2.foldl (fun rows row_id => rows.set row_id (mutator (array_dereference rows row_id)))
      table.rows
    (0, { rows := rows,
          indexes := table.indexes.map (fun ix => array_sort (array_dereference rows) ix) })

/-- `table_query_delete`: the positions visited are collected in a sorted
array and compacted out of every index; the rows stay where they are. -/
def table_query_delete {ρ : Type} [Inhabited ρ] (table : table_t ρ) (key : ρ)
    (table_index_id : Nat) (comparator : Option (ρ → ρ → Int)) : Int × table_t ρ :=
  let r := table_query_ids table key table_index_id comparator
  if r.1 ≠ 0 then (r.1, table)
  else
    let row_ids : array_t Nat Nat :=
      r.2.foldl (fun a row_id => array_sorted_insert id a row_id)
        { entries := [], comparator := _cmp_size }
    let _filter : Nat → Int :=
      fun row_id => (array_sorted_first id row_ids (some _cmp_size) row_id).1
    (0, { rows := table.rows,
          indexes := table.indexes.map (fun ix =>
            { entries := array_delete _filter ix.entries, comparator := ix.comparator }) })

/-- `table_query_order_by`: the rows of `table_query_all`, inserted one by
one into an array sorted by `order_by`, in the order of that array. -/
def table_query_order_by {ρ : Type} [Inhabited ρ] (table : table_t ρ) (key : ρ)
    (table_index_id : Nat) (comparator : Option (ρ → ρ → Int)) (order_by : ρ → ρ → Int) :
    Int × List ρ :=
  let r := table_query_all table key table_index_id comparator
  if r.1 ≠ 0 then (r.1, [])
  else (0, (r.2.foldl (fun a row => array_sorted_insert id a row)
              ({ entries := [], comparator := order_by } : array_t ρ ρ)).entries)

/-- `table_to_array_by_index` and `table_dump_by_index`: the rows in the
order of the named index. -/
def table_to_array_by_index {ρ : Type} [Inhabited ρ] (table : table_t ρ)
    (table_index_id : Nat) : List ρ :=
  (table_index table table_index_id).entries.map (array_dereference table.rows)

/-! ## oncefs.h: the data model -/

abbrev ONCEFS_NAME_MAX_SIZE : Nat := 256

abbrev TABLE_INDEX_PRIMARY : Nat := 0
abbrev TABLE_INDEX_LOOKUP : Nat := 1

abbrev NODE_TYPE_DIR : Int := 1
abbrev NODE_TYPE_FILE : Int := 2
abbrev NODE_TYPE_LINK : Int := 3
abbrev NODE_TYPE_LINK_PAYLOAD : Int := 4

abbrev BLOCK_OPERATION_FREE : Int := 0
abbrev BLOCK_OPERATION_NODE : Int := 1
abbrev BLOCK_OPERATION_DATA : Int := 2
abbrev BLOCK_OPERATION_TRUNCATE : Int := 3
abbrev BLOCK_OPERATION_DELETE : Int := 4
abbrev BLOCK_OPERATION_MOVE : Int := 5
abbrev BLOCK_OPERATION_LAST : Int := 8

/-- `oncefs_tag_t`. -/
structure oncefs_tag_t where
  seq : Nat
  operation : Int
deriving DecidableEq, Repr, Inhabited

/-- `oncefs_node_t`. -/
structure oncefs_node_t where
  node : Nat
  parent : Nat
  type : Int
  last_access : Nat
  last_modification : Nat
  mode : Nat
  name : List Char
deriving DecidableEq, Repr, Inhabited

/-- `oncefs_data_t`. -/
structure oncefs_data_t where
  node : Nat
  fill : Nat
  offset : Nat
deriving DecidableEq, Repr, Inhabited

/-- `oncefs_block_t`. -/
structure oncefs_block_t where
  block : Nat
  tag : oncefs_tag_t
  data : oncefs_data_t
deriving DecidableEq, Repr, Inhabited

/-- `oncefs_tagged_block_t`. -/
structure oncefs_tagged_block_t where
  block : Nat
  tag : oncefs_tag_t
deriving DecidableEq, Repr, Inhabited

/-- `sizeof(oncefs_tag_t)`. -/
abbrev SIZEOF_TAG : Int := 16
/-- `sizeof(oncefs_data_t)`. -/
abbrev SIZEOF_DATA : Int := 16
/-- `sizeof(oncefs_node_t)`. -/
abbrev SIZEOF_NODE : Int := 296
/-- `sizeof(oncefs_tagged_block_t)`. -/
abbrev SIZEOF_TAGGED_BLOCK : Int := 24
/-- `ONCEFS_OVERHEAD_SIZE`. -/
abbrev ONCEFS_OVERHEAD_SIZE : Int := SIZEOF_TAG + SIZEOF_DATA

/-! ## lib/io.c, as the engine uses it -/

/-- What a block of the container holds after its tag: bytes the engine has
not written (`unknown`), the image of a node record, or the image of a data
header followed by payload bytes. -/
inductive body_t where
  | unknown : body_t
  | node : oncefs_node_t → body_t
  | data : oncefs_data_t → List Nat → body_t
deriving DecidableEq, Repr, Inhabited

/-- One block of the container. -/
structure disk_block_t where
  tag : oncefs_tag_t
  body : body_t
deriving DecidableEq, Repr, Inhabited

/-- `io_t`: the block size, the last valid block and the container, block `0`
first. -/
structure io_t where
  block_size : Int
  last_valid_block : Nat
  buffer : List disk_block_t
deriving DecidableEq, Repr, Inhabited

/-- `io_block_first`. -/
def io_block_first (_io : io_t) : Nat := 1

/-- `io_block_last`. -/
def io_block_last (io : io_t) : Nat := io.last_valid_block

/-- `io_block_size`. -/
def io_block_size (io : io_t) : Int := io.block_size

/-- The checks at the head of `io_write3` and `io_read3` for a transfer of
`size` bytes in all. -/
def io_check (io : io_t) (block : Nat) (size : Int) : Int :=
  if block > io.last_valid_block then -EOVERFLOW
  else if size > io.block_size then -EINVAL
  else 0

/-- `io_write(io, block, &tag, sizeof(tag))`: the tag alone is overwritten. -/
def io_write_tag (io : io_t) (block : Nat) (tag : oncefs_tag_t) : Int × io_t :=
  if io_check io block SIZEOF_TAG ≠ 0 then (io_check io block SIZEOF_TAG, io)
  else
    let image : disk_block_t := { tag := tag, body := (io.buffer.getD block default).body }
    (0, { io with buffer := io.buffer.set block image })

/-- `io_write2(io, block, &tag, sizeof(tag), &node, sizeof(node))`. -/
def io_write_node (io : io_t) (block : Nat) (tag : oncefs_tag_t) (node : oncefs_node_t) :
    Int × io_t :=
  if io_check io block (SIZEOF_TAG + SIZEOF_NODE) ≠ 0 then
    (io_check io block (SIZEOF_TAG + SIZEOF_NODE), io)
  else
    let image : disk_block_t := { tag := tag, body := body_t.node node }
    (0, { io with buffer := io.buffer.set block image })

/-- `io_write3(io, block, &tag, sizeof(tag), &data, sizeof(data), bytes,
amount)`; with no bytes it is the `io_write2` of a tag and a data header. -/
def io_write_data (io : io_t) (block : Nat) (tag : oncefs_tag_t) (data : oncefs_data_t)
    (bytes : List Nat) : Int × io_t :=
  if io_check io block (SIZEOF_TAG + SIZEOF_DATA + bytes.length) ≠ 0 then
    (io_check io block (SIZEOF_TAG + SIZEOF_DATA + bytes.length), io)
  else
    let image : disk_block_t := { tag := tag, body := body_t.data data bytes }
    (0, { io with buffer := io.buffer.set block image })

/-- `io_read(io, block, &tag, size)`: return code and the tag read. -/
def io_read_tag (io : io_t) (block : Nat) (size : Int) : Int × oncefs_tag_t :=
  if io_check io block size ≠ 0 then (io_check io block size, default)
  else (0, (io.buffer.getD block default).tag)

/-! ## oncefs.c: comparators and the engine state -/

/-- `_oncefs_node_cmp_primary`: by `(node, type)`. -/
def _oncefs_node_cmp_primary (a b : oncefs_node_t) : Int :=
  if a.node < b.node then -1
  else if a.node > b.node then 1
  else if a.type < b.type then -1
  else if a.type > b.type then 1
  else 0

/-- `_oncefs_node_cmp_lookup`: by `(parent, name)`. -/
def _oncefs_node_cmp_lookup (a b : oncefs_node_t) : Int :=
  if a.parent < b.parent then -1
  else if a.parent > b.parent then 1
  else strcmp a.name b.name

/-- `_oncefs_block_cmp_primary`: by `block`. -/
def _oncefs_block_cmp_primary (a b : oncefs_block_t) : Int :=
  if a.block < b.block then -1
  else if a.block > b.block then 1
  else 0

/-- `_oncefs_block_cmp_lookup_fuzzy`: by `(operation, node)`. -/
def _oncefs_block_cmp_lookup_fuzzy (a b : oncefs_block_t) : Int :=
  if a.tag.operation < b.tag.operation then -1
  else if a.tag.operation > b.tag.operation then 1
  else if a.data.node < b.data.node then -1
  else if a.data.node > b.data.node then 1
  else 0

/-- `_oncefs_block_cmp_lookup`: by `(operation, node, offset, fill, block)`. -/
def _oncefs_block_cmp_lookup (a b : oncefs_block_t) : Int :=
  if _oncefs_block_cmp_lookup_fuzzy a b ≠ 0 then _oncefs_block_cmp_lookup_fuzzy a b
  else if a.data.offset < b.data.offset then -1
  else if a.data.offset > b.data.offset then 1
  else if a.data.fill < b.data.fill then -1
  else if a.data.fill > b.data.fill then 1
  else if a.block < b.block then -1
  else if a.block > b.block then 1
  else 0

/-- The nested `_filter` of `_oncefs_block_reuse` and `oncefs_get_status`: by
`operation`. -/
def _filter_operation (k o : oncefs_block_t) : Int :=
  if k.tag.operation < o.tag.operation then -1
  else if k.tag.operation > o.tag.operation then 1
  else 0

/-- `oncefs_t`.  `io` is `none` for the NULL pointer of `oncefs_init_default`;
otherwise it is the container the engine reads and writes. -/
structure oncefs_t where
  next_node_id : Nat
  first_block_id : Nat
  last_block_id : Nat
  next_block_id : Nat
  next_seq_id : Nat
  time : Nat
  nodes : table_t oncefs_node_t
  blocks : table_t oncefs_block_t
  io : Option io_t
  payload_size : Int
  block_size : Int

/-! ## oncefs.c: block allocation -/

/-- `_oncefs_block_reuse`: return code and the block id chosen.  A FREE
block first, then a DELETE block, then (for `node >= 1`) a NODE block of the
same node. -/
def _oncefs_block_reuse (ofs : oncefs_t) (node : Nat) : Int × Nat :=
  let key_free : oncefs_block_t :=
    { block := 0, tag := { seq := 0, operation := BLOCK_OPERATION_FREE }, data := default }
  let key_delete : oncefs_block_t :=
    { block := 0, tag := { seq := 0, operation := BLOCK_OPERATION_DELETE }, data := default }
  let key_node : oncefs_block_t :=
    { block := 0, tag := { seq := 0, operation := BLOCK_OPERATION_NODE },
      data := { node := node, fill := 0, offset := 0 } }
  let r_free := table_query_first ofs.blocks key_free TABLE_INDEX_LOOKUP (some _filter_operation)
  if r_free.1 = 0 then (0, r_free.2.block)
  else
    let r_delete :=
      table_query_first ofs.blocks key_delete TABLE_INDEX_LOOKUP (some _filter_operation)
    if r_delete.1 = 0 then (0, r_delete.2.block)
    else if node < 1 then (-ENOSPC, 0)
    else
      let r_node := table_query_first ofs.blocks key_node TABLE_INDEX_LOOKUP
        (some _oncefs_block_cmp_lookup_fuzzy)
      if r_node.1 = 0 then (0, r_node.2.block)
      else (-ENOSPC, 0)

/-- `_oncefs_init_block`: the block record, and the engine with
`next_node_id` raised above `node`; `node + 1` is `uint32_t` arithmetic. -/
def _oncefs_init_block (ofs : oncefs_t) (block_id : Nat) (tag : oncefs_tag_t) (node : Nat)
    (size : Nat) (offset : Nat) : oncefs_t × oncefs_block_t :=
  ((if node ≥ ofs.next_node_id then { ofs with next_node_id := (node + 1) % 2 ^ 32 } else ofs),
   { block := block_id, tag := tag, data := { node := node, fill := size, offset := offset } })

/-- The part of `_oncefs_create_block` after the block id is chosen: the tag
takes `next_seq_id`, which is incremented, the record is initialised (the
`uint16_t size` narrowed) and inserted into the blocks table or replaces the
record of the same block id.  `next_seq_id + 1` is a sum of natural numbers:
it is the value of the 64-bit counter of the source for `next_seq_id` below
`2 ^ 64 - 1`, where the counter of the source would wrap to `0`. -/
def create_block_tail (ofs : oncefs_t) (block_id : Nat) (operation : Int) (node : Nat)
    (size : Nat) (offset : Nat) : Int × oncefs_t × oncefs_block_t :=
  let tag : oncefs_tag_t := { seq := ofs.next_seq_id, operation := operation }
  let ib := _oncefs_init_block { ofs with next_seq_id := ofs.next_seq_id + 1 } block_id tag
    node (size % 2 ^ 16) offset
  let ins := table_insert_or_replace ib.1.blocks ib.2
  (ins.1, { ib.1 with blocks := ins.2 }, ib.2)

/-- `_oncefs_create_block`: return code, engine and the block record.  The
block id (a `uint32_t`) is `next_block_id`, which is incremented, as long as
it has not passed `last_block_id`; otherwise it is the one
`_oncefs_block_reuse` finds. -/
def _oncefs_create_block (ofs : oncefs_t) (operation : Int) (node : Nat) (size : Nat)
    (offset : Nat) : Int × oncefs_t × oncefs_block_t :=
  if ofs.next_block_id ≤ ofs.last_block_id then
    create_block_tail { ofs with next_block_id := ofs.next_block_id + 1 }
      (ofs.next_block_id % 2 ^ 32) operation node size offset
  else if (_oncefs_block_reuse ofs node).1 ≠ 0 then
    ((_oncefs_block_reuse ofs node).1, ofs, default)
  else create_block_tail ofs (_oncefs_block_reuse ofs node).2 operation node size offset

/-- `_oncefs_load_block_data`. -/
def _oncefs_load_block_data (ofs : oncefs_t) (tagged_block : oncefs_tagged_block_t)
    (data : oncefs_data_t) : Int × oncefs_t :=
  let ib := _oncefs_init_block ofs tagged_block.block tagged_block.tag data.node data.fill
    data.offset
  let ins := table_insert_or_replace ib.1.blocks ib.2
  (ins.1, { ib.1 with blocks := ins.2 })

/-- `_oncefs_load_block_node`. -/
def _oncefs_load_block_node (ofs : oncefs_t) (tagged_block : oncefs_tagged_block_t)
    (node : oncefs_node_t) : Int × oncefs_t :=
  let ib := _oncefs_init_block ofs tagged_block.block tagged_block.tag node.node 0 0
  let ins := table_insert_or_replace ib.1.blocks ib.2
  (ins.1, { ib.1 with blocks := ins.2 })

/-- `_oncefs_reserve_node_id`: the id (narrowed to `uint32_t`) and the engine
with the counter incremented. -/
def _oncefs_reserve_node_id (ofs : oncefs_t) : Nat × oncefs_t :=
  (ofs.next_node_id % 2 ^ 32, { ofs with next_node_id := ofs.next_node_id + 1 })

/-! ## oncefs.c: path resolution and node creation -/

/-- The `while (name != NULL)` loop of `_oncefs_resolve_node` over the tokens
still to come; `parent` and `type` are `key.parent` and `key.type`, `tmp` the
row found last.  The result is `r` and `tmp`. -/
def resolve_loop (ofs : oncefs_t) :
    List (List Char) → Nat → Int → oncefs_node_t → Int × oncefs_node_t
  | [], _, _, tmp => (0, tmp)
  | name :: rest, parent, type, tmp =>
    if type ≠ NODE_TYPE_DIR then (-EINVAL, tmp)
    else if name.length > ONCEFS_NAME_MAX_SIZE then (-EINVAL, tmp)
    else
      let key : oncefs_node_t :=
        { node := 0, parent := parent, type := type, last_access := 0,
          last_modification := 0, mode := 0, name := name }
      let r := table_query_first ofs.nodes key TABLE_INDEX_LOOKUP none
      if r.1 ≠ 0 then (r.1, tmp)
      else resolve_loop ofs rest r.2.node r.2.type r.2

/-- The node `_oncefs_resolve_node` fills in for `"/"`: only `node`, the two
times and `type` are assigned; the other fields, left as the caller had
them, are written `0` here and must not be relied on. -/
def root_node (ofs : oncefs_t) : oncefs_node_t :=
  { node := 0, parent := 0, type := NODE_TYPE_DIR, last_access := ofs.time,
    last_modification := ofs.time, mode := 0, name := [] }

/-- `_oncefs_resolve_node`: return code and node.  A path other than `"/"`
without any token returns the uninitialised `r`: `none`. -/
def _oncefs_resolve_node (ofs : oncefs_t) (path : List Char) :
    Option (Int × oncefs_node_t) :=
  if path = ['/'] then some (0, root_node ofs)
  else if path_tokens path = [] then none
  else some (resolve_loop ofs (path_tokens path) 0 NODE_TYPE_DIR default)

/-- `_oncefs_init_node`: return code, engine (a node id is reserved on
success) and the node.  `now` holds the results of the two calls of
`time(NULL)`.  The existence check calls `_oncefs_resolve_node(ofs, path,
NULL)`, whose branch for `"/"` writes through `result`: for the path `"/"`
the call writes through the null pointer, `none`.  A name of 256 bytes or
more leaves `result->name` without terminator: `none`. -/
def _oncefs_init_node (ofs : oncefs_t) (path : List Char) (type : Int) (now : Nat × Nat) :
    Option (Int × oncefs_t × oncefs_node_t) :=
  if path = ['/'] then none
  else
    match _oncefs_resolve_node ofs path with
    | none => none
    | some r =>
      if r.1 = 0 then some (-EEXIST, ofs, default)
      else if r.1 ≠ -ENOENT then some (r.1, ofs, default)
      else
        match _oncefs_resolve_node ofs (dirname path) with
        | none => none
        | some parent =>
          if parent.1 ≠ 0 then some (parent.1, ofs, default)
          else if parent.2.type ≠ NODE_TYPE_DIR then some (-EINVAL, ofs, default)
          else if (basename path).length ≥ ONCEFS_NAME_MAX_SIZE then none
          else
            some (0, (_oncefs_reserve_node_id ofs).2,
              { node := (_oncefs_reserve_node_id ofs).1, parent := parent.2.node, type := type,
                last_access := now.1, last_modification := now.2, mode := 0,
                name := strncpy (basename path) ONCEFS_NAME_MAX_SIZE })

/-- The tail shared by `oncefs_set_file`, `oncefs_set_dir` and
`oncefs_set_time`: `_oncefs_create_blockn(ofs, &block, BLOCK_OPERATION_NODE,
entry.node)` and the `io_write2` of tag and entry. -/
def write_node_block (ofs : oncefs_t) (operation : Int) (entry : oncefs_node_t) :
    Int × oncefs_t :=
  let cb := _oncefs_create_block ofs operation entry.node 0 0
  if cb.1 ≠ 0 then (cb.1, cb.2.1)
  else
    match cb.2.1.io with
    | none => (0, cb.2.1)
    | some io =>
      let w := io_write_node io cb.2.2.block cb.2.2.tag entry
      if w.1 ≠ 0 then (w.1, { cb.2.1 with io := some w.2 })
      else (0, { cb.2.1 with io := some w.2 })

/-- The body shared by `oncefs_set_file` and `oncefs_set_dir`. -/
def set_node (ofs : oncefs_t) (path : List Char) (type : Int) (now : Nat × Nat) :
    Option (Int × oncefs_t) :=
  match _oncefs_init_node ofs path type now with
  | none => none
  | some r =>
    if r.1 ≠ 0 then some (r.1, r.2.1)
    else
      let ins := table_insert_or_replace r.2.1.nodes r.2.2
      if ins.1 ≠ 0 then some (ins.1, { r.2.1 with nodes := ins.2 })
      else some (write_node_block { r.2.1 with nodes := ins.2 } BLOCK_OPERATION_NODE r.2.2)

/-- `oncefs_set_file`. -/
def oncefs_set_file (ofs : oncefs_t) (path : List Char) (now : Nat × Nat) :
    Option (Int × oncefs_t) :=
  set_node ofs path NODE_TYPE_FILE now

/-- `oncefs_set_dir`. -/
def oncefs_set_dir (ofs : oncefs_t) (path : List Char) (now : Nat × Nat) :
    Option (Int × oncefs_t) :=
  set_node ofs path NODE_TYPE_DIR now

/-- `oncefs_set_link(ofs, from, to)`; `src` and `target` stand for `from` and
`to`. -/
def oncefs_set_link (ofs : oncefs_t) (src : List Char) (target : List Char)
    (now : Nat × Nat) :
    Option (Int × oncefs_t) :=
  if target.length > ONCEFS_NAME_MAX_SIZE then some (-EINVAL, ofs)
  else
    match _oncefs_init_node ofs src NODE_TYPE_LINK now with
    | none => none
    | some r =>
      if r.1 ≠ 0 then some (r.1, r.2.1)
      else
        let ins := table_insert_or_replace r.2.1.nodes r.2.2
        if ins.1 ≠ 0 then some (ins.1, { r.2.1 with nodes := ins.2 })
        else
          let entry_payload : oncefs_node_t :=
            { node := r.2.2.node, parent := r.2.2.node, type := NODE_TYPE_LINK_PAYLOAD,
              last_access := 0, last_modification := 0, mode := 0,
              name := strncpy target ONCEFS_NAME_MAX_SIZE }
          let ins2 := table_insert_or_replace ins.2 entry_payload
          if ins2.1 ≠ 0 then some (ins2.1, { r.2.1 with nodes := ins2.2 })
          else
            let w1 := write_node_block { r.2.1 with nodes := ins2.2 } BLOCK_OPERATION_NODE r.2.2
            if w1.1 ≠ 0 then some w1
            else some (write_node_block w1.2 BLOCK_OPERATION_NODE entry_payload)

/-- `oncefs_set_time`.  On `"/"` with a new modification time the row
inserted has an uninitialised parent and name: `none`. -/
def oncefs_set_time (ofs : oncefs_t) (path : List Char) (last_access : Nat)
    (last_modification : Nat) : Option (Int × oncefs_t) :=
  match _oncefs_resolve_node ofs path with
  | none => none
  | some r =>
    if r.1 ≠ 0 then some (r.1, ofs)
    else if last_modification = r.2.last_modification then some (0, ofs)
    else if path = ['/'] then none
    else
      let node : oncefs_node_t :=
        { r.2 with last_access := last_access, last_modification := last_modification }
      let ins := table_insert_or_replace ofs.nodes node
      if ins.1 ≠ 0 then some (ins.1, { ofs with nodes := ins.2 })
      else some (write_node_block { ofs with nodes := ins.2 } BLOCK_OPERATION_NODE node)

/-! ## oncefs.c: status, data -/

/-- `oncefs_status_t`. -/
structure oncefs_status_t where
  block_size : Int
  total_blocks : Nat
  free_blocks : Nat
  name_max_size : Nat
deriving DecidableEq, Repr, Inhabited

/-- `oncefs_get_status`; the `size_t` arithmetic is modulo `2^64`. -/
def oncefs_get_status (ofs : oncefs_t) : Int × oncefs_status_t :=
  let key_free : oncefs_block_t :=
    { block := 0, tag := { seq := 0, operation := BLOCK_OPERATION_FREE }, data := default }
  let key_delete : oncefs_block_t :=
    { block := 0, tag := { seq := 0, operation := BLOCK_OPERATION_DELETE }, data := default }
  let unused_blocks := (ofs.last_block_id + 2 ^ 64 - ofs.next_block_id % 2 ^ 64 + 1) % 2 ^ 64
  let free_blocks :=
    table_query_count ofs.blocks key_free TABLE_INDEX_LOOKUP (some _filter_operation)
  let delete_blocks :=
    table_query_count ofs.blocks key_delete TABLE_INDEX_LOOKUP (some _filter_operation)
  if free_blocks.1 ≠ 0 ∧ free_blocks.1 ≠ -ENOENT then (free_blocks.1, default)
  else if delete_blocks.1 ≠ 0 ∧ delete_blocks.1 ≠ -ENOENT then (delete_blocks.1, default)
  else
    (0, { block_size := ofs.block_size,
          total_blocks :=
            (ofs.last_block_id + 2 ^ 64 - ofs.first_block_id % 2 ^ 64 + 1) % 2 ^ 64,
          free_blocks := (unused_blocks + free_blocks.2 + delete_blocks.2) % 2 ^ 64,
          name_max_size := ONCEFS_NAME_MAX_SIZE })

/-- The `while (written < size)` loop of `oncefs_set_data`, for a positive
payload size; `fuel` bounds the number of rounds (`size` suffices).
`offset + written` is a sum of natural numbers: it is the `uint64_t` sum of
the source as long as `offset + size` does not exceed `2 ^ 64`. -/
def set_data_loop (node : Nat) (data : List Nat) (size : Nat) (offset : Nat) :
    Nat → oncefs_t → Nat → Int × oncefs_t
  | 0, ofs, _ => (0, ofs)
  | fuel + 1, ofs, written =>
    if written < size then
      let amount : Nat :=
        if (size - written : Int) > ofs.payload_size then ofs.payload_size.toNat
        else size - written
      let cb := _oncefs_create_block ofs BLOCK_OPERATION_DATA node amount (offset + written)
      if cb.1 ≠ 0 then (cb.1, cb.2.1)
      else
        let data_entry : oncefs_data_t :=
          { node := node, fill := amount % 2 ^ 16, offset := offset + written }
        match cb.2.1.io with
        | none => set_data_loop node data size offset fuel cb.2.1 (written + amount)
        | some io =>
          let w := io_write_data io cb.2.2.block cb.2.2.tag data_entry
            ((data.drop written).take amount)
          if w.1 ≠ 0 then (w.1, { cb.2.1 with io := some w.2 })
          else set_data_loop node data size offset fuel { cb.2.1 with io := some w.2 }
                 (written + amount)
    else (0, ofs)

/-- `oncefs_set_data`.  `data` is the caller's buffer, of which `size` bytes
are written: a buffer shorter than `size` is read out of bounds, `none`.
With a payload size of `0` the loop of the source allocates DATA blocks of
fill `0` without advancing, until the allocation fails; this run is not
followed here, and neither is a negative payload size: `none`. -/
def oncefs_set_data (ofs : oncefs_t) (node : Nat) (data : List Nat) (size : Nat)
    (offset : Nat) : Option (Int × oncefs_t) :=
  if size > data.length then none
  else if size > 0 ∧ ofs.payload_size ≤ 0 then none
  else some (set_data_loop node data size offset size ofs 0)

/-- The nested `_filter` of `_oncefs_get_data`.  The window `fill +
payload_size` is an `int` of the source, and the two sums with an offset are
`uint64_t` sums there; here they are sums of integers, the same values as
long as both offsets with the window added stay below `2 ^ 64` and the
payload size is not negative. -/
def _filter_get_data (payload_size : Int) (k o : oncefs_block_t) : Int :=
  if _oncefs_block_cmp_lookup_fuzzy k o ≠ 0 then _oncefs_block_cmp_lookup_fuzzy k o
  else if (k.data.offset : Int) + ((k.data.fill : Int) + payload_size) < o.data.offset then -1
  else if (k.data.offset : Int) > o.data.offset + ((k.data.fill : Int) + payload_size) then 1
  else 0

/-- The nested `_order_by` of `_oncefs_get_data`: by `seq`. -/
def _order_by_seq (a b : oncefs_block_t) : Int :=
  if a.tag.seq < b.tag.seq then -1
  else if a.tag.seq > b.tag.seq then 1
  else 0

/-- The nested `_callback` of `_oncefs_get_data` on one block: `st` is the
destination buffer and `fill`.  Reading through a NULL `io`, or from a block
whose payload on the container does not hold the bytes asked for, is
`none`.  The bounds `tgt_start`, `tgt_end`, `src_start` and `src_end` are
`off_t` values of the source and `skip`, `seek` and `amount` are `int`; here
they are natural numbers, the same values as long as the four bounds stay
below `2 ^ 63` and the three differences below `2 ^ 31`. -/
def get_data_callback (io : Option io_t) (tgt_start tgt_end : Nat) (st : List Nat × Nat)
    (result : oncefs_block_t) : Option (List Nat × Nat) :=
  let src_start := result.data.offset
  let src_end := src_start + result.data.fill
  if src_start > tgt_end ∨ src_end < tgt_start then some st
  else
    let skip := if src_start < tgt_start then tgt_start - src_start else 0
    let seek := if src_start > tgt_start then src_start - tgt_start else 0
    let src_start1 := if src_start < tgt_start then tgt_start else src_start
    let src_end1 := if src_end > tgt_end then tgt_end else src_end
    if (src_end1 : Int) - src_start1 ≤ 0 then some st
    else
      let amount := src_end1 - src_start1
      match io with
      | none => none
      | some io =>
        if io_check io result.block (SIZEOF_TAG + (SIZEOF_DATA + skip) + amount) ≠ 0 then
          some st
        else
          match (io.buffer.getD result.block default).body with
          | body_t.data _ bytes =>
            if skip + amount ≤ bytes.length then
              some (st.1.take seek ++ (bytes.drop skip).take amount
                      ++ st.1.drop (seek + amount),
                    if skip + amount > st.2 then skip + amount else st.2)
            else none
          | _ => none

/-- `_oncefs_get_data`: return value and destination buffer. -/
def _oncefs_get_data (ofs : oncefs_t) (node : Nat) (data : List Nat) (size : Nat)
    (offset : Nat) : Option (Int × List Nat) :=
  let key : oncefs_block_t :=
    { block := 0, tag := { seq := 0, operation := BLOCK_OPERATION_DATA },
      data := { node := node, fill := size, offset := offset } }
  let r := table_query_order_by ofs.blocks key TABLE_INDEX_LOOKUP
    (some (_filter_get_data ofs.payload_size)) _order_by_seq
  if r.1 ≠ 0 then some (r.1, data)
  else
    match r.2.foldl
        (fun st result =>
          st.bind (fun s => get_data_callback ofs.io offset (offset + size) s result))
        (some (data, (0 : Nat))) with
    | none => none
    | some st => some ((st.2 : Int), st.1)

/-- The `while (total < size)` loop of `oncefs_get_data`; `fuel` bounds the
number of rounds (`size` suffices: a round that reads nothing ends the
loop).  `offset + total` is a sum of natural numbers: it is the `uint64_t`
sum of the source as long as `offset + size` does not exceed `2 ^ 64`. -/
def get_data_loop (ofs : oncefs_t) (node : Nat) (size : Nat) (offset : Nat) :
    Nat → List Nat → Nat → Option (Int × List Nat)
  | 0, data, total => some ((total : Int), data)
  | fuel + 1, data, total =>
    if total < size then
      let limit : Nat :=
        if (size - total : Int) > ofs.payload_size then ofs.payload_size.toNat
        else size - total
      match _oncefs_get_data ofs node (data.drop total) (limit % 2 ^ 16) (offset + total) with
      | none => none
      | some rd =>
        if rd.1 = -ENOENT ∨ rd.1 = 0 then some ((total : Int), data.take total ++ rd.2)
        else if rd.1 < 0 then some (rd.1, data.take total ++ rd.2)
        else get_data_loop ofs node size offset fuel (data.take total ++ rd.2) (total + rd.1.toNat)
    else some ((total : Int), data)

/-- `oncefs_get_data`: return value and the destination buffer, whose first
`size` bytes are the caller's. -/
def oncefs_get_data (ofs : oncefs_t) (node : Nat) (data : List Nat) (size : Nat)
    (offset : Nat) : Option (Int × List Nat) :=
  if size > data.length then none
  else get_data_loop ofs node size offset size data 0

/-! ## oncefs.c: move, delete, truncate -/

/-- `_oncefs_move_node`: refused when a row with the new `(parent, name)`
exists; otherwise the row is inserted or replaced. -/
def _oncefs_move_node (ofs : oncefs_t) (node : oncefs_node_t) : Int × oncefs_t :=
  let r := table_query_first ofs.nodes node TABLE_INDEX_LOOKUP none
  if r.1 = 0 then
    (if r.2.type = NODE_TYPE_FILE then (-EEXIST, ofs) else (-EINVAL, ofs))
  else
    let ins := table_insert_or_replace ofs.nodes node
    (ins.1, { ofs with nodes := ins.2 })

/-- The nested `_filter0` of `_oncefs_del_node` (also the `_filter` of
`oncefs_get_dir`): the key's `node` against a row's `parent`. -/
def _filter_children (k o : oncefs_node_t) : Int :=
  if k.node < o.parent then -1
  else if k.node > o.parent then 1
  else 0

/-- The nested `_filter` of `_oncefs_del_node`: by `node`. -/
def _filter_node (k o : oncefs_node_t) : Int :=
  if k.node < o.node then -1
  else if k.node > o.node then 1
  else 0

/-- The nested `_mutator2` of `_oncefs_del_node` and `_oncefs_del_data`. -/
def _mutator_free (block : oncefs_block_t) : oncefs_block_t :=
  { block with tag := { block.tag with operation := BLOCK_OPERATION_FREE } }

/-- The loop `for (i = 1; i < BLOCK_OPERATION_LAST; i++)` of
`_oncefs_del_node` over the operations still to come. -/
def free_blocks_loop (node : Nat) : List Int → table_t oncefs_block_t →
    Int × table_t oncefs_block_t
  | [], blocks => (0, blocks)
  | i :: rest, blocks =>
    let key : oncefs_block_t :=
      { block := 0, tag := { seq := 0, operation := i },
        data := { node := node, fill := 0, offset := 0 } }
    let r := table_query_update blocks key TABLE_INDEX_LOOKUP
      (some _oncefs_block_cmp_lookup_fuzzy) _mutator_free
    if r.1 ≠ 0 ∧ r.1 ≠ -ENOENT then (r.1, r.2)
    else free_blocks_loop node rest r.2

/-- `_oncefs_del_node`. -/
def _oncefs_del_node (ofs : oncefs_t) (node : oncefs_node_t) (check_for_children : Int) :
    Int × oncefs_t :=
  if check_for_children = 1 ∧ node.type = NODE_TYPE_DIR ∧
      (table_query_first ofs.nodes node TABLE_INDEX_LOOKUP (some _filter_children)).1 = 0 then
    (-EINVAL, ofs)
  else
    let del := table_query_delete ofs.nodes node TABLE_INDEX_PRIMARY (some _filter_node)
    if del.1 ≠ 0 ∧ del.1 ≠ -ENOENT then (del.1, { ofs with nodes := del.2 })
    else
      let upd := free_blocks_loop node.node [1, 2, 3, 4, 5, 6, 7] ofs.blocks
      (upd.1, { ofs with nodes := del.2, blocks := upd.2 })

/-- `oncefs_del_node`. -/
def oncefs_del_node (ofs : oncefs_t) (path : List Char) : Option (Int × oncefs_t) :=
  match _oncefs_resolve_node ofs path with
  | none => none
  | some r =>
    if r.1 ≠ 0 then some (r.1, ofs)
    else
      let del := _oncefs_del_node ofs r.2 1
      if del.1 ≠ 0 then some del
      else some (write_node_block del.2 BLOCK_OPERATION_DELETE r.2)

/-- `oncefs_move_node(ofs, from, to)`; `src` and `dst` stand for `from` and
`to`.  Moving `"/"`, whose `mode` is uninitialised, and a new name of 256
bytes or more, which leaves `result.name` without terminator, are `none`. -/
def oncefs_move_node (ofs : oncefs_t) (src : List Char) (dst : List Char) :
    Option (Int × oncefs_t) :=
  match _oncefs_resolve_node ofs src with
  | none => none
  | some r =>
    if r.1 ≠ 0 then some (r.1, ofs)
    else
      match _oncefs_resolve_node ofs (dirname dst) with
      | none => none
      | some parent =>
        if parent.1 ≠ 0 then some (parent.1, ofs)
        else if parent.2.type ≠ NODE_TYPE_DIR then some (-EINVAL, ofs)
        else if (basename dst).length ≥ ONCEFS_NAME_MAX_SIZE then none
        else if src = ['/'] then none
        else
          let result : oncefs_node_t :=
            { r.2 with parent := parent.2.node,
                       name := strncpy (basename dst) ONCEFS_NAME_MAX_SIZE }
          let mv := _oncefs_move_node ofs result
          if mv.1 = -EEXIST then
            match oncefs_del_node mv.2 dst with
            | none => none
            | some del =>
              if del.1 ≠ 0 then some del
              else
                let mv2 := _oncefs_move_node del.2 result
                if mv2.1 ≠ 0 then some mv2
                else some (write_node_block mv2.2 BLOCK_OPERATION_MOVE result)
          else if mv.1 ≠ 0 then some mv
          else some (write_node_block mv.2 BLOCK_OPERATION_MOVE result)

/-- The nested `_filter` of `_oncefs_del_data`.  `o.data.offset +
payload_size` is a `uint64_t` sum of the source; here it is a sum of
integers, the same value as long as it stays below `2 ^ 64` and the payload
size is not negative. -/
def _filter_del_data (payload_size : Int) (k o : oncefs_block_t) : Int :=
  if _oncefs_block_cmp_lookup_fuzzy k o ≠ 0 then _oncefs_block_cmp_lookup_fuzzy k o
  else if (k.data.offset : Int) > o.data.offset + payload_size then 1
  else 0

/-- The nested `_mutator` of `_oncefs_del_data`.  `start` and `end` are
`off_t` values of the source; here they are natural numbers, the same values
as long as `offset + fill` stays below `2 ^ 63`. -/
def _mutator_truncate (new_size : Nat) (block : oncefs_block_t) : oncefs_block_t :=
  if block.data.offset ≥ new_size then
    { block with tag := { block.tag with operation := BLOCK_OPERATION_FREE } }
  else
    { block with data := { block.data with
        fill := ((if block.data.offset + block.data.fill > new_size then new_size
                  else block.data.offset + block.data.fill) - block.data.offset) % 2 ^ 16 } }

/-- `_oncefs_del_data`. -/
def _oncefs_del_data (ofs : oncefs_t) (node : Nat) (new_size : Nat) : Int × oncefs_t :=
  let key : oncefs_block_t :=
    { block := 0, tag := { seq := 0, operation := BLOCK_OPERATION_DATA },
      data := { node := node, fill := 0, offset := new_size } }
  let key2 : oncefs_block_t :=
    { block := 0, tag := { seq := 0, operation := BLOCK_OPERATION_TRUNCATE },
      data := { node := node, fill := 0, offset := new_size } }
  let upd := table_query_update ofs.blocks key TABLE_INDEX_LOOKUP
    (some (_filter_del_data ofs.payload_size)) (_mutator_truncate new_size)
  if upd.1 ≠ 0 ∧ upd.1 ≠ -ENOENT then (upd.1, { ofs with blocks := upd.2 })
  else
    let upd2 := table_query_update upd.2 key2 TABLE_INDEX_LOOKUP
      (some _oncefs_block_cmp_lookup_fuzzy) _mutator_free
    if upd2.1 ≠ 0 ∧ upd2.1 ≠ -ENOENT then (upd2.1, { ofs with blocks := upd2.2 })
    else (0, { ofs with blocks := upd2.2 })

/-- `oncefs_del_data`. -/
def oncefs_del_data (ofs : oncefs_t) (node : Nat) (new_size : Nat) : Int × oncefs_t :=
  let key : oncefs_node_t :=
    { node := node, parent := 0, type := NODE_TYPE_FILE, last_access := 0,
      last_modification := 0, mode := 0, name := [] }
  let r := table_query_first ofs.nodes key TABLE_INDEX_PRIMARY none
  if r.1 ≠ 0 then (r.1, ofs)
  else
    let dd := _oncefs_del_data ofs r.2.node new_size
    if dd.1 ≠ 0 then dd
    else
      let cb := _oncefs_create_block dd.2 BLOCK_OPERATION_TRUNCATE r.2.node 0 new_size
      if cb.1 ≠ 0 then (cb.1, cb.2.1)
      else
        match cb.2.1.io with
        | none => (0, cb.2.1)
        | some io =>
          let w := io_write_data io cb.2.2.block cb.2.2.tag cb.2.2.data []
          if w.1 ≠ 0 then (w.1, { cb.2.1 with io := some w.2 })
          else (0, { cb.2.1 with io := some w.2 })

/-! ## oncefs.c: format, replay, initialisation, dump -/

/-- The loop `do { tag.operation = random(); } while (tag.operation <=
BLOCK_OPERATION_LAST)` over the results `random()` is going to return:
the operation accepted and the results left.  `none` when every result at
hand is refused. -/
def draw_operation : List Nat → Option (Int × List Nat)
  | [] => none
  | x :: xs => if to_char x ≤ BLOCK_OPERATION_LAST then draw_operation xs
               else some (to_char x, xs)

/-- The `for` loop of `_oncefs_format` over the block ids still to come. -/
def format_loop : List Nat → io_t → List Nat → Option (Int × io_t)
  | [], io, _ => some (0, io)
  | _ :: _, _, [] => none
  | i :: rest, io, seq :: rnd =>
    match draw_operation rnd with
    | none => none
    | some d =>
      if (io_write_tag io i { seq := seq, operation := d.1 }).1 ≠ 0 then
        some (io_write_tag io i { seq := seq, operation := d.1 })
      else format_loop rest (io_write_tag io i { seq := seq, operation := d.1 }).2 d.2

/-- `_oncefs_format`: the tag of every block from the first to the last
valid one is overwritten with a random `seq` and a random operation above
`BLOCK_OPERATION_LAST`.  `rnd` lists the results of `random()`. -/
def _oncefs_format (io : io_t) (rnd : List Nat) : Option (Int × io_t) :=
  format_loop (List.range' (io_block_first io) (io_block_last io + 1 - io_block_first io))
    io rnd

/-- The first loop of `_oncefs_load` over the block ids still to come: the
tags read, up to the first operation at or above `BLOCK_OPERATION_LAST`.
(`cursor->block` is a `uint32_t`; the container is taken to have fewer than
`2^32 - 1` blocks, so that neither `cursor->block = i` here nor
`cursor->block + 1` in `load_advance` wraps.) -/
def load_scan (io : io_t) : List Nat → Int × List oncefs_tagged_block_t
  | [] => (0, [])
  | i :: rest =>
    if (io_read_tag io i SIZEOF_TAGGED_BLOCK).1 ≠ 0 then
      ((io_read_tag io i SIZEOF_TAGGED_BLOCK).1, [])
    else if (io_read_tag io i SIZEOF_TAGGED_BLOCK).2.operation ≥ BLOCK_OPERATION_LAST then
      (0, [])
    else
      ((load_scan io rest).1,
        { block := i, tag := (io_read_tag io i SIZEOF_TAGGED_BLOCK).2 } :: (load_scan io rest).2)

/-- The comparator `cmp` of `_oncefs_load`: by `seq`. -/
def _cmp_tag_seq (a b : oncefs_tagged_block_t) : Int :=
  if a.tag.seq < b.tag.seq then -1
  else if a.tag.seq > b.tag.seq then 1
  else 0

/-- The cursor update closing one round of the second loop of
`_oncefs_load`.  `cursor.block + 1` is a sum of natural numbers: it is the
`uint32_t` sum of the source for block ids below `2 ^ 32 - 1`. -/
def load_advance (ofs : oncefs_t) (cursor : oncefs_tagged_block_t) : oncefs_t :=
  if cursor.block ≥ ofs.next_block_id then { ofs with next_block_id := cursor.block + 1 }
  else ofs

/-- One round of the second loop of `_oncefs_load`, on the block `cursor`.
Reading a data header where a node record was written (or the reverse, or
bytes the engine never wrote), and using the data header left by a failed
`io_read2`, whose return code the DATA and TRUNCATE branches drop, is
`none`. -/
def load_step (ofs : oncefs_t) (io : io_t) (cursor : oncefs_tagged_block_t) :
    Option (Int × oncefs_t) :=
  let image : disk_block_t := io.buffer.getD cursor.block default
  let tagged : oncefs_tagged_block_t := { block := cursor.block, tag := image.tag }
  let read_data := io_check io cursor.block (SIZEOF_TAG + SIZEOF_DATA)
  let read_node := io_check io cursor.block (SIZEOF_TAG + SIZEOF_NODE)
  if cursor.tag.operation = BLOCK_OPERATION_DATA then
    if read_data ≠ 0 then none
    else
      match image.body with
      | body_t.data data_entry _ =>
        let r := _oncefs_load_block_data ofs tagged data_entry
        if r.1 ≠ 0 then some r else some (0, load_advance r.2 tagged)
      | _ => none
  else if cursor.tag.operation = BLOCK_OPERATION_NODE then
    if read_node ≠ 0 then some (read_node, ofs)
    else
      match image.body with
      | body_t.node node_entry =>
        let ins := table_insert_or_replace ofs.nodes node_entry
        if ins.1 ≠ 0 then some (ins.1, { ofs with nodes := ins.2 })
        else
          let r := _oncefs_load_block_node { ofs with nodes := ins.2 } tagged node_entry
          if r.1 ≠ 0 then some r else some (0, load_advance r.2 tagged)
      | _ => none
  else if cursor.tag.operation = BLOCK_OPERATION_MOVE then
    if read_node ≠ 0 then some (read_node, ofs)
    else
      match image.body with
      | body_t.node node_entry =>
        let mv := _oncefs_move_node ofs node_entry
        if mv.1 ≠ 0 then some mv
        else
          let r := _oncefs_load_block_node mv.2 tagged node_entry
          if r.1 ≠ 0 then some r else some (0, load_advance r.2 tagged)
      | _ => none
  else if cursor.tag.operation = BLOCK_OPERATION_DELETE then
    if read_node ≠ 0 then some (read_node, ofs)
    else
      match image.body with
      | body_t.node node_entry =>
        let del := _oncefs_del_node ofs node_entry 0
        if del.1 ≠ 0 ∧ del.1 ≠ -ENOENT then some del
        else
          let r := _oncefs_load_block_node del.2 tagged node_entry
          if r.1 ≠ 0 then some r else some (0, load_advance r.2 tagged)
      | _ => none
  else if cursor.tag.operation = BLOCK_OPERATION_TRUNCATE then
    if read_data ≠ 0 then none
    else
      match image.body with
      | body_t.data data_entry _ =>
        let dd := _oncefs_del_data ofs data_entry.node data_entry.offset
        if dd.1 ≠ 0 then some dd
        else
          let r := _oncefs_load_block_data dd.2 tagged data_entry
          if r.1 ≠ 0 then some r else some (0, load_advance r.2 tagged)
      | _ => none
  else some (-ENOSYS, ofs)

/-- The second loop of `_oncefs_load` over the sorted tags still to come. -/
def load_loop (io : io_t) : List oncefs_tagged_block_t → oncefs_t → Option (Int × oncefs_t)
  | [], ofs => some (0, ofs)
  | cursor :: rest, ofs =>
    match load_step ofs io cursor with
    | none => none
    | some r => if r.1 ≠ 0 then some r else load_loop io rest r.2

/-- `_oncefs_load`: scan the tags, sort them by `seq` (libc `qsort`; tags of
equal `seq` keep their order here), replay them, and set `next_seq_id` after
the last.  `last.tag.seq + 1` is a sum of natural numbers: it is the
`uint64_t` sum of the source for a last `seq` below `2 ^ 64 - 1`; for the
`seq` `2 ^ 64 - 1` the source sets `next_seq_id` to `0`. -/
def _oncefs_load (ofs : oncefs_t) (io : io_t) : Option (Int × oncefs_t) :=
  let scan := load_scan io
    (List.range' (io_block_first io) (io_block_last io + 1 - io_block_first io))
  if scan.1 ≠ 0 then some (scan.1, ofs)
  else
    let tags := qsort id _cmp_tag_seq scan.2
    match load_loop io tags ofs with
    | none => none
    | some r =>
      if r.1 ≠ 0 then some r
      else
        match tags.getLast? with
        | none => some (0, r.2)
        | some last => some (0, { r.2 with next_seq_id := last.tag.seq + 1 })

/-- The engine `oncefs_init` has set up before it formats or loads. -/
def oncefs_init_state (io : Option io_t) : oncefs_t :=
  let block_size : Int := match io with
    | some dev => io_block_size dev
    | none => 64
  { next_node_id := 1,
    next_seq_id := 1,
    io := io,
    last_block_id := (match io with
      | some dev => io_block_last dev
      | none => 2 ^ 64 - 2),
    first_block_id := (match io with
      | some dev => io_block_first dev
      | none => 1),
    block_size := block_size,
    next_block_id := (match io with
      | some dev => io_block_first dev
      | none => 1),
    payload_size := block_size - SIZEOF_TAG - SIZEOF_DATA,
    nodes := (table_add_index (table_init _oncefs_node_cmp_primary) _oncefs_node_cmp_lookup).2,
    blocks := (table_add_index (table_init _oncefs_block_cmp_primary) _oncefs_block_cmp_lookup).2,
    time := 0 }

/-- `oncefs_init(ofs, io, format)`: return code and engine.  `now` is the
result of `time(NULL)`, `rnd` the results of `random()`. -/
def oncefs_init (io : Option io_t) (format : Int) (now : Nat) (rnd : List Nat) :
    Option (Int × oncefs_t) :=
  let ofs := oncefs_init_state io
  if ofs.payload_size < 0 then some (-EINVAL, ofs)
  else
    match io with
    | none => some (0, { ofs with time := now })
    | some dev =>
      if format = 1 then
        match _oncefs_format dev rnd with
        | none => none
        | some f =>
          if f.1 ≠ 0 then some (f.1, { ofs with io := some f.2 })
          else some (0, { ofs with io := some f.2, time := now })
      else
        match _oncefs_load ofs dev with
        | none => none
        | some r => if r.1 ≠ 0 then some r else some (0, { r.2 with time := now })

/-- `oncefs_init_default`. -/
def oncefs_init_default (now : Nat) : oncefs_t :=
  { oncefs_init_state none with time := now }

/-- What `oncefs_dumps` prints: the counters, the sizes, the free-block count
of `oncefs_get_status` when it succeeds, and the two tables in the order of
their lookup index. -/
structure oncefs_dump_t where
  next_node_id : Nat
  next_seq_id : Nat
  block_size : Int
  payload_size : Int
  first_block_id : Nat
  next_block_id : Nat
  last_block_id : Nat
  total_blocks : Nat
  free_blocks : Option Nat
  nodes : List oncefs_node_t
  blocks : List oncefs_block_t
deriving DecidableEq, Repr

/-- `oncefs_dumps`. -/
def oncefs_dumps (ofs : oncefs_t) : oncefs_dump_t :=
  { next_node_id := ofs.next_node_id,
    next_seq_id := ofs.next_seq_id,
    block_size := ofs.block_size,
    payload_size := ofs.payload_size,
    first_block_id := ofs.first_block_id,
    next_block_id := ofs.next_block_id,
    last_block_id := ofs.last_block_id,
    total_blocks := (ofs.last_block_id + 2 ^ 64 - ofs.first_block_id % 2 ^ 64 + 1) % 2 ^ 64,
    free_blocks :=
      if (oncefs_get_status ofs).1 = 0 then some (oncefs_get_status ofs).2.free_blocks
      else none,
    nodes := table_to_array_by_index ofs.nodes TABLE_INDEX_LOOKUP,
    blocks := table_to_array_by_index ofs.blocks TABLE_INDEX_LOOKUP }

/-! ## Sequences of operations -/

/-- One call of a filesystem operation, with its arguments. -/
inductive op_t where
  | set_file (path : List Char) (now : Nat × Nat) : op_t
  | set_dir (path : List Char) (now : Nat × Nat) : op_t
  | set_link (src : List Char) (target : List Char) (now : Nat × Nat) : op_t
  | set_time (path : List Char) (last_access : Nat) (last_modification : Nat) : op_t
  | set_data (node : Nat) (data : List Nat) (size : Nat) (offset : Nat) : op_t
  | move_node (src : List Char) (dst : List Char) : op_t
  | del_node (path : List Char) : op_t
  | del_data (node : Nat) (new_size : Nat) : op_t

/-- The call `op` on the engine `ofs`: return code and engine afterwards. -/
def apply_op (ofs : oncefs_t) : op_t → Option (Int × oncefs_t)
  | op_t.set_file path now => oncefs_set_file ofs path now
  | op_t.set_dir path now => oncefs_set_dir ofs path now
  | op_t.set_link src target now => oncefs_set_link ofs src target now
  | op_t.set_time path a m => oncefs_set_time ofs path a m
  | op_t.set_data node data size offset => oncefs_set_data ofs node data size offset
  | op_t.move_node src dst => oncefs_move_node ofs src dst
  | op_t.del_node path => oncefs_del_node ofs path
  | op_t.del_data node new_size => some (oncefs_del_data ofs node new_size)

/-- The calls of `ops` one after the other, failing calls included: the
return codes and the engine afterwards. -/
def run_ops : List op_t → oncefs_t → Option (List Int × oncefs_t)
  | [], ofs => some ([], ofs)
  | op :: rest, ofs =>
    match apply_op ofs op with
    | none => none
    | some r =>
      match run_ops rest r.2 with
      | none => none
      | some rs => some (r.1 :: rs.1, rs.2)

/-- Tear the engine down and initialise it again from its container,
without format (`oncefs_free`, then `oncefs_init(ofs, io, 0)`). -/
def remount (ofs : oncefs_t) (now : Nat) : Option (Int × oncefs_t) :=
  oncefs_init ofs.io 0 now []

/-- An in-memory container as `io_init` hands it over: `max_num_blocks`
blocks whose bytes nobody has written.  The tags are given the value
`(0, 0)` here. -/
def io_init_memory (block_size : Int) (max_num_blocks : Nat) : io_t :=
  { block_size := block_size,
    last_valid_block := max_num_blocks - 1,
    buffer := List.replicate max_num_blocks
      { tag := { seq := 0, operation := 0 }, body := body_t.unknown } }

/-- Results of `random()` under which `_oncefs_format` gives every tag the
sequence number `7` and the operation `9`. -/
def format_draws (num_blocks : Nat) : List Nat :=
  (List.replicate num_blocks [7, 9]).flatten

/-- The engine on a freshly formatted in-memory container. -/
def oncefs_init_memory (block_size : Int) (max_num_blocks : Nat) (now : Nat) :
    Option (Int × oncefs_t) :=
  oncefs_init (some (io_init_memory block_size max_num_blocks)) 1 now
    (format_draws max_num_blocks)

/-- The rows the lookup index of a block table refers to. -/
def live_blocks (ofs : oncefs_t) : List oncefs_block_t :=
  table_to_array_by_index ofs.blocks TABLE_INDEX_LOOKUP

/-- The rows the lookup index of the nodes table refers to. -/
def live_nodes (ofs : oncefs_t) : List oncefs_node_t :=
  table_to_array_by_index ofs.nodes TABLE_INDEX_LOOKUP

/-- The container is full: no unused block is left at the tail. -/
def container_full (ofs : oncefs_t) : Prop :=
  ofs.next_block_id = ofs.last_block_id + 1

instance (ofs : oncefs_t) : Decidable (container_full ofs) := by
  unfold container_full; infer_instance

/-- No block record is FREE or DELETE. -/
def no_free_or_delete (ofs : oncefs_t) : Prop :=
  ∀ b ∈ live_blocks ofs,
    b.tag.operation ≠ BLOCK_OPERATION_FREE ∧ b.tag.operation ≠ BLOCK_OPERATION_DELETE

instance (ofs : oncefs_t) : Decidable (no_free_or_delete ofs) := by
  unfold no_free_or_delete; infer_instance

/-! ## Scenario of claim C4 -/

/-- Scenario "reuse after delete": a container with two usable blocks,
`/foo` and `/bar` created, then `set_file("/baz")`, `del_node("/foo")`,
`set_file("/baz")`. -/
def c4_setup : List op_t :=
  [op_t.set_file "/foo".toList (10, 10), op_t.set_file "/bar".toList (11, 11)]

/-- The three calls of the scenario "reuse after delete". -/
def c4_calls : List op_t :=
  [op_t.set_file "/baz".toList (12, 12), op_t.del_node "/foo".toList,
   op_t.set_file "/baz".toList (13, 13)]

/-- The engine holding `/foo` and `/bar` on a full container. -/
def c4_engine : Option oncefs_t :=
  match oncefs_init_memory 512 3 5 with
  | none => none
  | some r =>
    match run_ops c4_setup r.2 with
    | none => none
    | some rs => some rs.2

/-! ## The logical file of claim C2 -/

/-- One call `set_data(node, data, size, offset)` seen as a write to the
logical file of the node. -/
structure write_t where
  data : List Nat
  size : Nat
  offset : Nat
deriving DecidableEq, Repr

/-- The sparse logical file after one more write: the bytes of the write
shadow what was there. -/
def sparse_write (file : Nat → Option Nat) (w : write_t) : Nat → Option Nat :=
  fun pos =>
    if w.offset ≤ pos ∧ pos < w.offset + w.size then some (w.data.getD (pos - w.offset) 0)
    else file pos

/-- The logical file obtained by applying the writes in call order to an
initially empty sparse file. -/
def logical_file (ws : List write_t) : Nat → Option Nat :=
  ws.foldl sparse_write (fun _ => none)

/-- The calls `set_data(node, ...)` of a list of writes. -/
def write_ops (node : Nat) (ws : List write_t) : List op_t :=
  ws.map (fun w => op_t.set_data node w.data w.size w.offset)

/-- The bytes of a string. -/
def bytes_of (s : String) : List Nat := s.toList.map Char.toNat

/-- The five writes of the overlay scenario. -/
def overlay_writes : List write_t :=
  [{ data := bytes_of "xxxxxxxxxxxxxxxx", size := 16, offset := 0 },
   { data := bytes_of "aaaaaaaaaaaaa", size := 12, offset := 2 },
   { data := bytes_of "ddd", size := 3, offset := 11 },
   { data := bytes_of "cccccc", size := 6, offset := 5 },
   { data := bytes_of "bbb", size := 3, offset := 5 }]

/-- Two writes with a hole of 18 bytes between them. -/
def hole_writes : List write_t :=
  [{ data := bytes_of "ab", size := 2, offset := 0 },
   { data := bytes_of "cd", size := 2, offset := 20 }]

/-! ## Scenarios of claims C1, C3, C5, C7, C10 -/

/-- Scenario of C1 and C7: on a container with one usable block, create
`/foo` and write one byte to it.  The write takes over the NODE block. -/
def takeover_calls : List op_t :=
  [op_t.set_file "/foo".toList (10, 10), op_t.set_data 1 (bytes_of "x") 1 0]

/-- Scenario of C3: a directory named `.` in the root, a file `a` in it,
and a create of the relative path `a`. -/
def c3_calls : List op_t :=
  [op_t.set_dir "/.".toList (10, 10), op_t.set_file "/./a".toList (11, 11),
   op_t.set_file "a".toList (12, 12)]

/-- No two rows the lookup index of the nodes table refers to have the same
`(parent, name)`. -/
def unique_names (ofs : oncefs_t) : Prop :=
  (live_nodes ofs).Pairwise (fun a b => ¬ (a.parent = b.parent ∧ a.name = b.name))

instance (ofs : oncefs_t) : Decidable (unique_names ofs) := by
  unfold unique_names; infer_instance

/-- Scenario of C5: a container with two usable blocks holding the empty
directory `/d` and the file `/f`. -/
def c5_setup : List op_t :=
  [op_t.set_dir "/d".toList (10, 10), op_t.set_file "/f".toList (11, 11)]

/-- The state after a run from a freshly formatted in-memory container. -/
def state_after (block_size : Int) (max_num_blocks : Nat) (ops : List op_t) :
    Option oncefs_t :=
  match oncefs_init_memory block_size max_num_blocks 5 with
  | none => none
  | some r =>
    match run_ops ops r.2 with
    | none => none
    | some rs => some rs.2


/-! ## Path resolution, segment by segment (claim C9) -/

/-- The lookup of one segment in `_oncefs_resolve_node`: the first row of the
lookup index whose `(parent, name)` is that of the key.  At the time of the
lookup `key.type` is `NODE_TYPE_DIR`. -/
def lookup_segment (ofs : oncefs_t) (parent : Nat) (name : List Char) : Int × oncefs_node_t :=
  table_query_first ofs.nodes
    { node := 0, parent := parent, type := NODE_TYPE_DIR, last_access := 0,
      last_modification := 0, mode := 0, name := name }
    TABLE_INDEX_LOOKUP none

/-- The node reached from `prev` along `segs` when every segment is at most
256 bytes long, follows a DIR and is found by its lookup; `none` as soon as
one segment fails. -/
def walk_segments (ofs : oncefs_t) : List (List Char) → oncefs_node_t → Option oncefs_node_t
  | [], prev => some prev
  | seg :: rest, prev =>
    if prev.type = NODE_TYPE_DIR ∧ seg.length ≤ ONCEFS_NAME_MAX_SIZE ∧
        (lookup_segment ofs prev.node seg).1 = 0 then
      walk_segments ofs rest (lookup_segment ofs prev.node seg).2
    else none

/-- The engine a run ends in (the default engine when the run is not
defined). -/
def state_of (run : Option (List Int × oncefs_t)) : oncefs_t :=
  match run with
  | some r => r.2
  | none => oncefs_init_default 0

/-- The default engine holding the directory `/foo` and the file
`/foo/bar`. -/
def c9_engine : oncefs_t :=
  state_of (run_ops [op_t.set_dir "/foo".toList (1, 1), op_t.set_file "/foo/bar".toList (2, 2)]
    (oncefs_init_default 5))

/-! ## The primitive state changes of the operations -/

/-- A relation between engine states that holds across every primitive
change the operations make to the two tables, and is reflexive and
transitive. -/
structure table_step_closed (R : oncefs_t → oncefs_t → Prop) : Prop where
  refl : ∀ s, R s s
  trans : ∀ a b c, R a b → R b c → R a c
  nodes_insert : ∀ (s : oncefs_t) (row : oncefs_node_t),
    R s { s with nodes := (table_insert_or_replace s.nodes row).2 }
  nodes_delete : ∀ (s : oncefs_t) (key : oncefs_node_t),
    R s { s with nodes :=
      (table_query_delete s.nodes key TABLE_INDEX_PRIMARY (some _filter_node)).2 }
  blocks_free : ∀ (s : oncefs_t) (key : oncefs_block_t),
    R s { s with blocks := (table_query_update s.blocks key TABLE_INDEX_LOOKUP
      (some _oncefs_block_cmp_lookup_fuzzy) _mutator_free).2 }
  blocks_truncate : ∀ (s : oncefs_t) (key : oncefs_block_t) (new_size : Nat),
    R s { s with blocks := (table_query_update s.blocks key TABLE_INDEX_LOOKUP
      (some (_filter_del_data s.payload_size)) (_mutator_truncate new_size)).2 }

/-- A relation between engine states that holds across every primitive
state change the filesystem operations are made of. -/
structure step_closed (R : oncefs_t → oncefs_t → Prop) extends table_step_closed R : Prop where
  create_block : ∀ (s : oncefs_t) (operation : Int) (node size offset : Nat),
    R s (_oncefs_create_block s operation node size offset).2.1
  set_io : ∀ (s : oncefs_t) (dev : io_t) (buffer : List disk_block_t), s.io = some dev →
    R s { s with io := some { dev with buffer := buffer } }
  reserve : ∀ (s : oncefs_t), R s (_oncefs_reserve_node_id s).2

/-- The engine states reachable from an initialisation (default, with
format, or by replay of a container) by calls of the filesystem
operations, successful or not. -/
inductive reachable : oncefs_t → Prop where
  | init (io : Option io_t) (format : Int) (now : Nat) (rnd : List Nat) (ofs : oncefs_t) :
      oncefs_init io format now rnd = some (0, ofs) → reachable ofs
  | call (ofs : oncefs_t) (op : op_t) (rc : Int) (ofs1 : oncefs_t) :
      reachable ofs → apply_op ofs op = some (rc, ofs1) → reachable ofs1

/-- `ofs1` comes after `ofs` within one mount: it is reached from `ofs` by
primitive state changes of the operations, in particular by calls of
`_oncefs_create_block` and by whole filesystem operations, in any number and
order.  (The least reflexive and transitive relation containing the
primitive state changes.) -/
def later_state (ofs ofs1 : oncefs_t) : Prop :=
  ∀ R : oncefs_t → oncefs_t → Prop, step_closed R → R ofs ofs1

/-! ## Well-formed tables -/

/-- A comparator that orders its arguments as a total preorder: the sign of
`cmp a b` says whether `a` comes before (`< 0`), with (`= 0`) or after
(`> 0`) `b`. -/
structure cmp_order {ρ : Type} (cmp : ρ → ρ → Int) : Prop where
  refl : ∀ a, cmp a a = 0
  flip : ∀ a b, 0 ≤ cmp a b → cmp b a ≤ 0
  le_trans : ∀ a b c, cmp a b ≤ 0 → cmp b c ≤ 0 → cmp a c ≤ 0
  lt_trans_le : ∀ a b c, cmp a b < 0 → cmp b c ≤ 0 → cmp a c < 0
  le_trans_lt : ∀ a b c, cmp a b ≤ 0 → cmp b c < 0 → cmp a c < 0

/-- A filter `f` (the filter of a query with its key applied) that is
monotone along the order of `cmp`: its sign does not increase from a row to
a row that comes after it. -/
def filter_mono {ρ : Type} (cmp : ρ → ρ → Int) (f : ρ → Int) : Prop :=
  ∀ a b, cmp a b ≤ 0 → (f a ≤ 0 → f b ≤ 0) ∧ (f a < 0 → f b < 0)

/-- The rows an index refers to, in the order of the index. -/
def index_rows {ρ : Type} [Inhabited ρ] (rows : List ρ) (ix : array_t Nat ρ) : List ρ :=
  ix.entries.map (array_dereference rows)

/-- An index over a row store is well formed: its entries are positions of
the row store, no position occurs twice, and the rows are in the order of
the comparator of the index. -/
def index_wf {ρ : Type} [Inhabited ρ] (rows : List ρ) (ix : array_t Nat ρ) : Prop :=
  (∀ i ∈ ix.entries, i < rows.length) ∧ ix.entries.Nodup ∧
  (index_rows rows ix).Pairwise (fun a b => ix.comparator a b ≤ 0)

/-- A table is well formed: every index is, every index refers to the same
positions as the primary index, and no two rows of the primary index are
equal under its comparator. -/
def table_wf {ρ : Type} [Inhabited ρ] (table : table_t ρ) : Prop :=
  (∀ ix ∈ table.indexes, index_wf table.rows ix) ∧
  (∀ ix ∈ table.indexes, ∀ i, i ∈ ix.entries ↔ i ∈ (table_index table 0).entries) ∧
  (index_rows table.rows (table_index table 0)).Pairwise
    (fun a b => (table_index table 0).comparator a b ≠ 0)

/-- The blocks table of an engine is well formed and has the two indexes
`oncefs_init` gives it. -/
def blocks_wf (ofs : oncefs_t) : Prop :=
  ofs.blocks.indexes.map (fun ix => ix.comparator)
    = [_oncefs_block_cmp_primary, _oncefs_block_cmp_lookup] ∧
  table_wf ofs.blocks

/-- The nodes table of an engine is well formed and has the two indexes
`oncefs_init` gives it. -/
def nodes_wf (ofs : oncefs_t) : Prop :=
  ofs.nodes.indexes.map (fun ix => ix.comparator)
    = [_oncefs_node_cmp_primary, _oncefs_node_cmp_lookup] ∧
  table_wf ofs.nodes

/-- The block records respect the counters: `next_block_id` has not passed
`last_block_id + 1`, and every record has a block id below
`next_block_id`. -/
def blocks_bounded (ofs : oncefs_t) : Prop :=
  ofs.next_block_id ≤ ofs.last_block_id + 1 ∧
  ∀ b ∈ ofs.blocks.rows, b.block < ofs.next_block_id

/-- The engine agrees with its container on the block size and on the last
valid block. -/
def io_consistent (ofs : oncefs_t) : Prop :=
  ∀ dev, ofs.io = some dev →
    dev.last_valid_block = ofs.last_block_id ∧ dev.block_size = ofs.block_size

/-- The invariant of the engine state: both tables are well formed, the
block records respect the counters, and the engine agrees with its
container. -/
def engine_wf (ofs : oncefs_t) : Prop :=
  blocks_wf ofs ∧ nodes_wf ofs ∧ blocks_bounded ofs ∧ io_consistent ofs

/-- A relation between engine states that holds across every primitive
state change of the replay of a container whose last valid block is `L`. -/
structure load_closed (L : Nat) (R : oncefs_t → oncefs_t → Prop)
    extends table_step_closed R : Prop where
  load_block : ∀ (s : oncefs_t) (tagged : oncefs_tagged_block_t) (data : oncefs_data_t),
    tagged.block ≤ L → R s (load_advance (_oncefs_load_block_data s tagged data).2 tagged)

/-- The engine after a run from a freshly formatted in-memory container
(the default engine when the run is undefined). -/
def engine_after (block_size : Int) (max_num_blocks : Nat) (ops : List op_t) : oncefs_t :=
  match state_after block_size max_num_blocks ops with
  | some ofs => ofs
  | none => oncefs_init_default 0

/-- Scenario of C6: on a container with two usable blocks, `/foo` is
created, one byte is written to it, and it is deleted.  Afterwards the
container is full, block `1` holds the DELETE record and block `2` is
FREE. -/
def c6_engine : oncefs_t :=
  engine_after 512 3
    [op_t.set_file "/foo".toList (10, 10), op_t.set_data 1 (bytes_of "x") 1 0,
     op_t.del_node "/foo".toList]

/-- The path does not exist yet and lies directly under an existing
directory: it resolves to NOT_FOUND, its `dirname` resolves to a DIR, and
its `basename` fits into a name. -/
def fresh_path (ofs : oncefs_t) (path : List Char) : Prop :=
  (_oncefs_resolve_node ofs path).map (fun r => r.1) = some (-ENOENT) ∧
  (_oncefs_resolve_node ofs (dirname path)).map (fun r => (r.1, r.2.type))
    = some (0, NODE_TYPE_DIR) ∧
  (basename path).length < ONCEFS_NAME_MAX_SIZE

instance (ofs : oncefs_t) (path : List Char) : Decidable (fresh_path ofs path) := by
  unfold fresh_path; infer_instance

/-! ## Replay (claim C1) -/

/-- The part of the engine state the replay computes: everything but the
container handle, the time and `next_seq_id`, which `_oncefs_load` sets at
its end. -/
def core (ofs : oncefs_t) : oncefs_t :=
  { ofs with io := none, time := 0, next_seq_id := 0 }

/-- The tags of the blocks `1`, ..., `next_block_id - 1` of the container, in
this order. -/
def log_tags (dev : io_t) (next_block_id : Nat) : List oncefs_tagged_block_t :=
  (List.range' 1 (next_block_id - 1)).map
    (fun i => { block := i, tag := (dev.buffer.getD i default).tag })

/-- The engine has room: an unused block is left at the tail of the
container, and the node ids have not reached `2^32`. -/
def has_room (ofs : oncefs_t) : Prop :=
  ofs.next_block_id ≤ ofs.last_block_id ∧ ofs.next_node_id < 2 ^ 32

instance (ofs : oncefs_t) : Decidable (has_room ofs) := by
  unfold has_room; infer_instance

/-- The run of `ops` from `ofs` is defined and leaves room after every
call. -/
def run_fits : List op_t → oncefs_t → Prop
  | [], _ => True
  | op :: rest, ofs =>
    match apply_op ofs op with
    | none => False
    | some r => has_room r.2 ∧ run_fits rest r.2

/-- The engine is the replay of its container: the container holds the
blocks `1`, ..., `next_block_id - 1` written in this order with the sequence
numbers `1`, `2`, ..., the blocks behind them are as formatted, and the
replay loop over the blocks written, from the initial state, ends in the
state of the engine. -/
structure replay_inv (block_size : Int) (L : Nat) (ofs : oncefs_t) (dev : io_t) : Prop where
  io : ofs.io = some dev
  dev_block_size : dev.block_size = block_size
  dev_last : dev.last_valid_block = L
  dev_length : ∀ i, 1 ≤ i → i ≤ L → i < dev.buffer.length
  written : ∀ i, 1 ≤ i → i < ofs.next_block_id →
    (dev.buffer.getD i default).tag.seq = i ∧
    (dev.buffer.getD i default).tag.operation < BLOCK_OPERATION_LAST
  formatted : ∀ i, ofs.next_block_id ≤ i → i ≤ L →
    (dev.buffer.getD i default).tag.operation ≥ BLOCK_OPERATION_LAST
  replay : load_loop dev (log_tags dev ofs.next_block_id) (core (oncefs_init_state (some dev)))
    = some (0, core ofs)
  next_seq : ofs.next_seq_id = ofs.next_block_id
  next_block : 1 ≤ ofs.next_block_id
  wf : engine_wf ofs

/-- The check `run_fits` stands for, as a computation. -/
def run_fits_check : List op_t → oncefs_t → Bool
  | [], _ => true
  | op :: rest, ofs =>
    match apply_op ofs op with
    | none => false
    | some r => decide (has_room r.2) && run_fits_check rest r.2

/-- Scenario of C1: a file is created, written to, renamed, truncated and
deleted, and a directory is created. -/
def c1_calls : List op_t :=
  [op_t.set_file "/foo".toList (10, 10), op_t.set_data 1 (bytes_of "xyz") 3 0,
   op_t.move_node "/foo".toList "/bar".toList, op_t.del_data 1 1,
   op_t.set_dir "/d".toList (11, 11), op_t.del_node "/bar".toList]

/-! ## oncefs.c: get_node, get_dir, get_link -/

/-- `oncefs_stat_t` as `oncefs_get_node` fills it in; the field `time` is
not assigned and left out. -/
structure oncefs_stat_t where
  node : Nat
  is_dir : Int
  is_file : Int
  is_link : Int
  size : Nat
  mode : Nat
  last_access : Nat
  last_modification : Nat
deriving DecidableEq, Repr

/-- `oncefs_get_node`: return code and the stat.  The key of the query has
`tag.operation` and `data.node` assigned; the filter reads nothing else.
The size is `uint64_t` arithmetic. -/
def oncefs_get_node (ofs : oncefs_t) (path : List Char) : Option (Int × oncefs_stat_t) :=
  match _oncefs_resolve_node ofs path with
  | none => none
  | some r =>
    if r.1 ≠ 0 then
      some (r.1, { node := 0, is_dir := 0, is_file := 0, is_link := 0, size := 0, mode := 0,
                   last_access := 0, last_modification := 0 })
    else
      let is_file : Int := if r.2.type = NODE_TYPE_FILE then 1 else 0
      let key : oncefs_block_t :=
        { block := 0, tag := { seq := 0, operation := BLOCK_OPERATION_DATA },
          data := { node := r.2.node, fill := 0, offset := 0 } }
      let q := table_query_last ofs.blocks key TABLE_INDEX_LOOKUP
        (some _oncefs_block_cmp_lookup_fuzzy)
      some (0,
        { node := r.2.node,
          is_dir := if r.2.type = NODE_TYPE_DIR then 1 else 0,
          is_file := is_file,
          is_link := if r.2.type = NODE_TYPE_LINK then 1 else 0,
          size := if is_file = 1 ∧ q.1 = 0 then (q.2.data.offset + q.2.data.fill) % 2 ^ 64 else 0,
          mode := r.2.mode,
          last_access := r.2.last_access,
          last_modification := r.2.last_modification })

/-- `oncefs_get_dir`: return code and the nodes the callback is invoked on,
in order.  What the callback returns is dropped. -/
def oncefs_get_dir (ofs : oncefs_t) (path : List Char) :
    Option (Int × List oncefs_node_t) :=
  match _oncefs_resolve_node ofs path with
  | none => none
  | some r =>
    if r.1 ≠ 0 then some (r.1, [])
    else
      let q := table_query_all ofs.nodes r.2 TABLE_INDEX_LOOKUP (some _filter_children)
      if q.1 ≠ 0 ∧ q.1 ≠ -ENOENT then some (q.1, q.2)
      else some (0, q.2)

/-- `oncefs_get_link`: return code and `result`, which holds the node the
path resolves to when the call fails after the path has resolved. -/
def oncefs_get_link (ofs : oncefs_t) (path : List Char) : Option (Int × oncefs_node_t) :=
  match _oncefs_resolve_node ofs path with
  | none => none
  | some r =>
    if r.1 ≠ 0 then some r
    else if r.2.type ≠ NODE_TYPE_LINK then some (-EINVAL, r.2)
    else
      let key : oncefs_node_t :=
        { node := r.2.node, parent := r.2.node, type := NODE_TYPE_LINK_PAYLOAD,
          last_access := 0, last_modification := 0, mode := 0, name := [] }
      let q := table_query_first ofs.nodes key TABLE_INDEX_PRIMARY none
      if q.1 ≠ 0 then some (q.1, r.2) else some (0, q.2)

/-! ## Scenarios of claims C11 to C20 -/

/-- Scenario of C13: `/foo` is created and `"abcdefgh"` is written to it
sequentially, one byte and then seven. -/
def c13_setup : List op_t :=
  [op_t.set_file "/foo".toList (10, 10), op_t.set_data 1 (bytes_of "a") 1 0,
   op_t.set_data 1 (bytes_of "bcdefgh") 7 1]

/-- Scenario of C15: `/foo` is created, ten bytes are written at offset `0`
and then one byte at offset `5`. -/
def c15_setup : List op_t :=
  [op_t.set_file "/foo".toList (10, 10), op_t.set_data 1 (bytes_of "0123456789") 10 0,
   op_t.set_data 1 (bytes_of "x") 1 5]

/-- Scenario of C12: `/foo` is created and three bytes are written to it. -/
def c12_setup : List op_t :=
  [op_t.set_file "/foo".toList (10, 10), op_t.set_data 1 (bytes_of "abc") 3 0]

/-- The largest `offset + fill` over the DATA blocks of a node (`0` when it
has none). -/
def logical_length (ofs : oncefs_t) (node : Nat) : Nat :=
  (((live_blocks ofs).filter
      (fun b => b.tag.operation = BLOCK_OPERATION_DATA ∧ b.data.node = node)).map
    (fun b => b.data.offset + b.data.fill)).foldl max 0

/-- Scenario of C18: the file `/foo` exists. -/
def c18_setup : List op_t := [op_t.set_file "/foo".toList (10, 10)]

/-- Scenario of C19: the directory `/foo` and the file `/baz`. -/
def c19_setup : List op_t :=
  [op_t.set_dir "/foo".toList (10, 10), op_t.set_file "/baz".toList (11, 11)]

/-- The record of a block after `_oncefs_del_node` has freed the blocks of
`node`: a record of the node whose operation is neither FREE nor at or above
`BLOCK_OPERATION_LAST` is FREE, every other record is as it was. -/
def free_node (node : Nat) (b : oncefs_block_t) : oncefs_block_t :=
  if b.data.node = node ∧ 1 ≤ b.tag.operation ∧ b.tag.operation < BLOCK_OPERATION_LAST then
    _mutator_free b
  else b

/-- The rows the primary index of the nodes table refers to. -/
def primary_nodes (ofs : oncefs_t) : List oncefs_node_t :=
  table_to_array_by_index ofs.nodes TABLE_INDEX_PRIMARY

/-- Scenario of C16: the file `/foo`, the directory `/bar` with the file
`/bar/bork`, and the link `/baz`. -/
def c16_setup : List op_t :=
  [op_t.set_file "/foo".toList (10, 10), op_t.set_dir "/bar".toList (11, 11),
   op_t.set_file "/bar/bork".toList (12, 12),
   op_t.set_link "/baz".toList "/foo".toList (13, 13)]

/-- Scenario of C11: the file `/foo` holding three bytes, and the link
`/l`. -/
def c11_setup : List op_t :=
  [op_t.set_file "/foo".toList (10, 10), op_t.set_data 1 (bytes_of "abc") 3 0,
   op_t.set_link "/l".toList "/foo".toList (11, 11)]

/-- The record of a block after `del_data(node, new_size)` has gone over the
blocks there were: a DATA block of the node at or behind `new_size` is FREE,
a DATA block of the node before `new_size` keeps the bytes before
`new_size`, a TRUNCATE block of the node is FREE, every other record is as
it was. -/
def truncated (node new_size : Nat) (b : oncefs_block_t) : oncefs_block_t :=
  if b.data.node = node ∧ b.tag.operation = BLOCK_OPERATION_DATA then
    if b.data.offset ≥ new_size then _mutator_free b
    else { b with data := { b.data with fill := min b.data.fill (new_size - b.data.offset) } }
  else if b.data.node = node ∧ b.tag.operation = BLOCK_OPERATION_TRUNCATE then _mutator_free b
  else b

/-- The rows the lookups of a walk find, in order, as far as the walk gets. -/
def walk_rows (ofs : oncefs_t) : List (List Char) → oncefs_node_t → List oncefs_node_t
  | [], _ => []
  | seg :: rest, prev =>
    if prev.type = NODE_TYPE_DIR ∧ seg.length ≤ ONCEFS_NAME_MAX_SIZE ∧
        (lookup_segment ofs prev.node seg).1 = 0 then
      (lookup_segment ofs prev.node seg).2 ::
        walk_rows ofs rest (lookup_segment ofs prev.node seg).2
    else []

/-- Scenario of C10: the directory `/d` with the file `/d/foo` holding three
bytes, and the file `/bar` holding one byte. -/
def c10_setup : List op_t :=
  [op_t.set_dir "/d".toList (10, 10), op_t.set_file "/d/foo".toList (11, 11),
   op_t.set_data 2 (bytes_of "abc") 3 0, op_t.set_file "/bar".toList (12, 12),
   op_t.set_data 3 (bytes_of "x") 1 0]

/-! ## The DATA blocks of a node and the logical file (claim C2) -/

/-- The payload bytes a container holds in the block of a record (none when
the block holds no data record). -/
def block_bytes (dev : io_t) (b : oncefs_block_t) : List Nat :=
  match (dev.buffer.getD b.block default).body with
  | body_t.data _ bytes => bytes
  | _ => []

/-- A DATA block seen as a write to the logical file of its node: the bytes
of its payload at its offset. -/
def block_write (dev : io_t) (b : oncefs_block_t) : write_t :=
  { data := block_bytes dev b, size := b.data.fill, offset := b.data.offset }

/-- The list `bl` holds the live DATA blocks of the node `n`, by rising
sequence number, and the container `dev` of the engine holds their payloads:
as many bytes as the `fill` of the record, which is at most the payload
size. -/
structure data_inv (ofs : oncefs_t) (dev : io_t) (n : Nat) (bl : List oncefs_block_t) :
    Prop where
  io : ofs.io = some dev
  len : dev.last_valid_block < dev.buffer.length
  mem : ∀ b, b ∈ bl ↔
    (b ∈ live_blocks ofs ∧ b.tag.operation = BLOCK_OPERATION_DATA ∧ b.data.node = n)
  seq : bl.Pairwise (fun a b => a.tag.seq < b.tag.seq)
  stored : ∀ b ∈ bl, (block_bytes dev b).length = b.data.fill ∧
    (∃ d, (dev.buffer.getD b.block default).body = body_t.data d (block_bytes dev b)) ∧
    (b.data.fill : Int) ≤ ofs.payload_size ∧ b.tag.seq < ofs.next_seq_id

/-! ## lib/io.c, byte by byte, for an in-memory container (claims C29, C30) -/

/-- `io_t` of a container opened on `":memory:"` (`fh` is `-1`): the block
size, the last valid block and the bytes of `buffer`. -/
structure io_mem_t where
  block_size : Int
  last_valid_block : Nat
  buffer : List Nat
deriving DecidableEq, Repr, Inhabited

/-- `io_init` with the path `":memory:"`: return code and container.  The
container is `max_num_blocks * block_size` bytes long (`size_t` arithmetic);
`memory` gives the bytes `malloc` hands over, which the C standard leaves
indeterminate.  (Failure of `malloc` is not modelled.) -/
def io_init (block_size : Int) (max_num_blocks : Nat) (memory : Nat → Nat) : Int × io_mem_t :=
  if block_size ≤ 0 then (-EINVAL, default)
  else if max_num_blocks ≤ 0 then (-EINVAL, default)
  else
    (0, { block_size := block_size,
          last_valid_block := max_num_blocks - 1,
          buffer := (List.range ((max_num_blocks * block_size.toNat) % 2 ^ 64)).map memory })

/-- The value is one an `int` holds. -/
def int_range (x : Int) : Prop := -(2 ^ 31) ≤ x ∧ x < 2 ^ 31

instance (x : Int) : Decidable (int_range x) := by
  unfold int_range; infer_instance

/-- The bytes `if (data != NULL) { memcpy(buffer + ..., data, size); }` puts
into the local buffer of `io_write3`, for a size that is not negative.
`data` is `none` for NULL, otherwise the bytes the pointer refers to.  A
source shorter than `size` is read out of bounds and a NULL source of a
positive size leaves that part of the local buffer uninitialised: both are
`none`. -/
def io_segment (data : Option (List Nat)) (size : Int) : Option (List Nat) :=
  match data with
  | none => if size = 0 then some [] else none
  | some bytes => if size.toNat ≤ bytes.length then some (bytes.take size.toNat) else none

/-- `io_write3` on an in-memory container: return code and container.  The
sum `size + size2 + size3` is `int` arithmetic, `start` is `size_t`
arithmetic.  An overflow of the sum, a negative size, a source that does not
hold its size and a copy that leaves `io->buffer` are `none`. -/
def io_write3 (io : io_mem_t) (block : Nat) (data : Option (List Nat)) (size : Int)
    (data2 : Option (List Nat)) (size2 : Int) (data3 : Option (List Nat)) (size3 : Int) :
    Option (Int × io_mem_t) :=
  if block > io.last_valid_block then some (-EOVERFLOW, io)
  else if ¬ (int_range (size + size2) ∧ int_range (size + size2 + size3)) then none
  else if size + size2 + size3 > io.block_size then some (-EINVAL, io)
  else if size < 0 ∨ size2 < 0 ∨ size3 < 0 then none
  else
    let start := (block * io.block_size.toNat) % 2 ^ 64
    match io_segment data size, io_segment data2 size2, io_segment data3 size3 with
    | some seg, some seg2, some seg3 =>
      if start + (seg ++ seg2 ++ seg3).length > io.buffer.length then none
      else
        some (0, { io with buffer := io.buffer.take start ++ (seg ++ seg2 ++ seg3)
                     ++ io.buffer.drop (start + (seg ++ seg2 ++ seg3).length) })
    | _, _, _ => none

/-- `io_write2`. -/
def io_write2 (io : io_mem_t) (block : Nat) (data : Option (List Nat)) (size : Int)
    (data2 : Option (List Nat)) (size2 : Int) : Option (Int × io_mem_t) :=
  io_write3 io block data size data2 size2 none 0

/-- `io_write`. -/
def io_write (io : io_mem_t) (block : Nat) (data : Option (List Nat)) (size : Int) :
    Option (Int × io_mem_t) :=
  io_write2 io block data size none 0

/-- The destination after `if (data != NULL) { memcpy(data, buffer + ...,
size); }` of `io_read3`: its first bytes are the bytes read.  `data` is
`none` for NULL, otherwise the bytes of the destination.  A destination
shorter than the bytes read is written out of bounds: `none`. -/
def io_fill (data : Option (List Nat)) (bytes : List Nat) : Option (Option (List Nat)) :=
  match data with
  | none => some none
  | some dest =>
    if bytes.length ≤ dest.length then some (some (bytes ++ dest.drop bytes.length)) else none

/-- `io_read3` on an in-memory container: return code and the three
destinations.  An overflow of the sum of the sizes, a negative size, a copy
that leaves `io->buffer` and a destination that does not hold its size are
`none`. -/
def io_read3 (io : io_mem_t) (block : Nat) (data : Option (List Nat)) (size : Int)
    (data2 : Option (List Nat)) (size2 : Int) (data3 : Option (List Nat)) (size3 : Int) :
    Option (Int × Option (List Nat) × Option (List Nat) × Option (List Nat)) :=
  if block > io.last_valid_block then some (-EOVERFLOW, data, data2, data3)
  else if ¬ (int_range (size + size2) ∧ int_range (size + size2 + size3)) then none
  else if size + size2 + size3 > io.block_size then some (-EINVAL, data, data2, data3)
  else if size < 0 ∨ size2 < 0 ∨ size3 < 0 then none
  else
    let start := (block * io.block_size.toNat) % 2 ^ 64
    let total := size.toNat + size2.toNat + size3.toNat
    if start + total > io.buffer.length then none
    else
      let buffer := (io.buffer.drop start).take total
      match io_fill data (buffer.take size.toNat),
          io_fill data2 ((buffer.drop size.toNat).take size2.toNat),
          io_fill data3 ((buffer.drop (size.toNat + size2.toNat)).take size3.toNat) with
      | some r, some r2, some r3 => some (0, r, r2, r3)
      | _, _, _ => none

/-- `io_read2`. -/
def io_read2 (io : io_mem_t) (block : Nat) (data : Option (List Nat)) (size : Int)
    (data2 : Option (List Nat)) (size2 : Int) :
    Option (Int × Option (List Nat) × Option (List Nat) × Option (List Nat)) :=
  io_read3 io block data size data2 size2 none 0

/-- `io_read`. -/
def io_read (io : io_mem_t) (block : Nat) (data : Option (List Nat)) (size : Int) :
    Option (Int × Option (List Nat) × Option (List Nat) × Option (List Nat)) :=
  io_read2 io block data size none 0

/-- An in-memory container as `io_init` sets it up: a positive block size
that an `int` holds, and a buffer of `(last_valid_block + 1) * block_size`
bytes, fewer than `2^64`. -/
def io_mem_wf (io : io_mem_t) : Prop :=
  0 < io.block_size ∧ io.block_size < 2 ^ 31 ∧
  io.buffer.length = (io.last_valid_block + 1) * io.block_size.toNat ∧
  io.buffer.length < 2 ^ 64

instance (io : io_mem_t) : Decidable (io_mem_wf io) := by
  unfold io_mem_wf; infer_instance

/-- The container of the test `_do_test_io`: ten blocks of 16 bytes, the
bytes `malloc` handed over taken to be `0`. -/
def test_io : io_mem_t := (io_init 16 10 (fun _ => 0)).2

/-- Scenario of C25: a file, a directory and a link are created and the file
is deleted. -/
def c25_setup : List op_t :=
  [op_t.set_file "/foo".toList (10, 10), op_t.set_dir "/bar".toList (11, 11),
   op_t.set_link "/baz".toList "foo".toList (12, 12), op_t.del_node "/foo".toList]

/-- The results of `random()` that `_oncefs_format` accepts as an
operation: those above `BLOCK_OPERATION_LAST` as a `char`. -/
def accepted_draws (rnd : List Nat) : List Nat :=
  rnd.filter (fun x => decide (to_char x > BLOCK_OPERATION_LAST))

/-- Scenario of C27: a container of four blocks of 512 bytes that holds the
file `/foo` and three bytes of it. -/
def c27_container : io_t :=
  (engine_after 512 4 c12_setup).io.getD (io_init_memory 512 4)

/-- Scenario of C28: on a container of eight blocks of 512 bytes that holds
the directory `/d` and the file `/f`, the file `/foo` (node `3`) is created,
written to, truncated and deleted.  Block `5` holds the TRUNCATE record and
block `6` the DELETE record of node `3`. -/
def c28_calls : List op_t :=
  c5_setup ++
    [op_t.set_file "/foo".toList (12, 12), op_t.set_data 3 (bytes_of "abc") 3 0,
     op_t.del_data 3 1, op_t.del_node "/foo".toList]

/-- The container of the scenario of C28. -/
def c28_container : io_t :=
  (engine_after 512 8 c28_calls).io.getD (io_init_memory 512 8)

/-- The test `_test_oncefs_load_del_node_partial`: `/foo` and `/bar` are
created, `next_block_id` is forced to `1` so that the NODE block of `/foo` is
overwritten by that of `/baz`, `next_block_id` is set to `3` again, and
`/foo` is deleted. -/
def load_del_node_partial : oncefs_t :=
  state_of (run_ops [op_t.del_node "/foo".toList]
    { state_of (run_ops [op_t.set_file "/baz".toList (12, 12)]
        { engine_after 512 8
            [op_t.set_file "/foo".toList (10, 10), op_t.set_file "/bar".toList (11, 11)]
          with next_block_id := 1 })
      with next_block_id := 3 })

/-- The test `_test_oncefs_load_del_data_missing`: `/foo` is created and
written to, `next_block_id` is forced to `1` so that the TRUNCATE block of
`del_data(1, 5)` overwrites the NODE block of `/foo`. -/
def load_del_data_missing : oncefs_t :=
  (oncefs_del_data
    { engine_after 512 8
        [op_t.set_file "/foo".toList (10, 10),
         op_t.set_data 1 (bytes_of "Hello world!") 12 0]
      with next_block_id := 1 } 1 5).2

/-- Scenario of C22 (the test `_test_oncefs_del_data_rare`): `/foo` holds 12
bytes and `/bar` holds the 16 bytes of `"bork bork bork!"` with its
terminator, both at offset `0`. -/
def c22_setup : List op_t :=
  [op_t.set_file "/foo".toList (10, 10), op_t.set_data 1 (bytes_of "Hello world!") 12 0,
   op_t.set_file "/bar".toList (11, 11),
   op_t.set_data 2 (bytes_of "bork bork bork!" ++ [0]) 16 0]

/-- Scenario of C24 (the test `_test_oncefs_set_time`): the files `/foo` and
`/bar`. -/
def c24_setup : List op_t :=
  [op_t.set_file "/foo".toList (10, 10), op_t.set_file "/bar".toList (11, 11)]

/-- Scenario of C23: the file `/foo`. -/
def c23_setup : List op_t := [op_t.set_file "/foo".toList (10, 10)]

/-- The tags `_oncefs_load` collects from the container in its first loop:
the blocks it replays. -/
def replayed_tags (io : io_t) : List oncefs_tagged_block_t :=
  (load_scan io (List.range' (io_block_first io) (io_block_last io + 1 - io_block_first io))).2

/-- The node id the block `block` of the container carries: that of its node
record or of its data header. -/
def carried_node (io : io_t) (block : Nat) : Nat :=
  match (io.buffer.getD block default).body with
  | body_t.node entry => entry.node
  | body_t.data data _ => data.node
  | body_t.unknown => 0

/-- Scenario of C26 (the test `_test_oncefs_load_state`): the file `/foo`,
the directory `/bar` and the link `/baz` to `../link`. -/
def c26_setup : List op_t :=
  [op_t.set_file "/foo".toList (10, 10), op_t.set_dir "/bar".toList (11, 11),
   op_t.set_link "/baz".toList "../link".toList (12, 12)]

/-- The container of the scenario of C26. -/
def c26_container : io_t :=
  (engine_after 512 8 c26_setup).io.getD (io_init_memory 512 8)

/-- One byte written to the node id `2 ^ 32 - 1`. -/
def c26_wrap : List op_t := [op_t.set_data 4294967295 (bytes_of "x") 1 0]

/-- Scenario of C35: four entries ordered by their first component, two of
them with the first component `2`. -/
def c35_array : array_t (Nat × Nat) (Nat × Nat) :=
  { entries := [(1, 0), (2, 1), (2, 2), (3, 3)], comparator := fun a b => _cmp_size a.1 b.1 }

/-- Scenario of C36: three entries that are equal under the comparator, which
reads the first component only. -/
def c36_array : array_t (Nat × Nat) (Nat × Nat) :=
  { entries := [(1, 10), (1, 11), (1, 12)], comparator := fun a b => _cmp_size a.1 b.1 }

/-- The tables reachable from `table_init` and `table_add_index`, with
comparators that are orders, by `table_insert`, `table_insert_or_replace`,
`table_query_update` and `table_query_delete` with any row, key, index id,
filter and mutator, whatever the calls return. -/
inductive table_reachable {ρ : Type} [Inhabited ρ] : table_t ρ → Prop where
  | init (comparator : ρ → ρ → Int) :
      cmp_order comparator → table_reachable (table_init comparator)
  | add_index (table : table_t ρ) (comparator : ρ → ρ → Int) :
      table_reachable table → cmp_order comparator →
      table_reachable (table_add_index table comparator).2
  | insert (table : table_t ρ) (row : ρ) :
      table_reachable table → table_reachable (table_insert table row).2
  | insert_or_replace (table : table_t ρ) (row : ρ) :
      table_reachable table → table_reachable (table_insert_or_replace table row).2
  | query_update (table : table_t ρ) (key : ρ) (table_index_id : Nat)
      (comparator : Option (ρ → ρ → Int)) (mutator : ρ → ρ) :
      table_reachable table →
      table_reachable (table_query_update table key table_index_id comparator mutator).2
  | query_delete (table : table_t ρ) (key : ρ) (table_index_id : Nat)
      (comparator : Option (ρ → ρ → Int)) :
      table_reachable table →
      table_reachable (table_query_delete table key table_index_id comparator).2

/-- The index invariant of a table: every index holds positions of the row
store, none of them twice, in the order of its comparator applied to the
rows, and every index holds the positions the primary index holds. -/
def table_index_inv {ρ : Type} [Inhabited ρ] (table : table_t ρ) : Prop :=
  (∀ ix ∈ table.indexes, index_wf table.rows ix) ∧
  (∀ ix ∈ table.indexes, ∀ i, i ∈ ix.entries ↔ i ∈ (table_index table 0).entries)

/-- Scenario of C40: a table of pairs with the primary index on the first
component and a second index on the second component; `(1, 30)`, `(2, 20)`
and `(3, 10)` are inserted, `(2, 20)` is replaced by `(2, 5)`, every row is
updated by a mutator that changes both components, and the rows with the
first component `13` are deleted. -/
def c40_table : table_t (Nat × Nat) :=
  (table_query_delete
    (table_query_update
      (table_insert_or_replace
        (table_insert
          (table_insert
            (table_insert
              (table_add_index (table_init (fun a b => _cmp_size a.1 b.1))
                (fun a b => _cmp_size a.2 b.2)).2
              (1, 30)).2
            (2, 20)).2
          (3, 10)).2
        (2, 5)).2
      (0, 0) 0 (some (fun _ _ => 0)) (fun r => (r.1 + 10, 40 - r.2))).2
    (13, 0) 0 none).2

/-- Scenario of C31: a table of pairs with the primary index on the first
component and a second index on the second component, holding `(1, 30)`,
`(2, 20)` and `(3, 10)`. -/
def c31_table : table_t (Nat × Nat) :=
  (table_insert_or_replace
    (table_insert_or_replace
      (table_insert_or_replace
        (table_add_index (table_init (fun a b => _cmp_size a.1 b.1))
          (fun a b => _cmp_size a.2 b.2)).2
        (1, 30)).2
      (2, 20)).2
    (3, 10)).2

/-- The container `dev` with the operation code of the tag of `block`
replaced by `operation`. -/
def retag (dev : io_t) (block : Nat) (operation : Int) : io_t :=
  { dev with buffer := (dev.buffer.set block
      { tag := { seq := (dev.buffer.getD block default).tag.seq, operation := operation },
        body := (dev.buffer.getD block default).body }) }

/-- Scenario of C34: the container of eight blocks of 512 bytes after the
files `/foo`, `/bar` and `/baz` have been created: blocks `1` to `3` hold
their NODE records. -/
def c34_container : io_t :=
  (engine_after 512 8 [op_t.set_file "/foo".toList (10, 10),
    op_t.set_file "/bar".toList (11, 11),
    op_t.set_file "/baz".toList (12, 12)]).io.getD (io_init_memory 512 8)

/-- Scenario of C33: the container after the file `/foo` has been created
and renamed onto itself: block `1` holds its NODE record, block `2` the
DELETE record and block `3` the MOVE record of node `1`. -/
def c33_container : io_t :=
  (engine_after 512 8 [op_t.set_file "/foo".toList (10, 10),
    op_t.move_node "/foo".toList "/foo".toList]).io.getD (io_init_memory 512 8)

/-- Scenario of C37: a container with one usable block, which holds the NODE
block of the directory `/d`. -/
def c37_setup : List op_t :=
  [op_t.set_dir "/d".toList (10, 10)]

/-- Scenario of C39: the directory `/d` with the file `/d/f`. -/
def c39_setup : List op_t :=
  [op_t.set_dir "/d".toList (10, 10), op_t.set_file "/d/f".toList (11, 11)]

/-- Scenario of C39 on a full container: a container with one usable block;
the directory `/d` is created and renamed to `/e`, whose MOVE block takes
over the NODE block of the directory. -/
def c39_full : List op_t :=
  [op_t.set_dir "/d".toList (10, 10), op_t.move_node "/d".toList "/e".toList]

/-- Scenario of C38: the file `/foo` holding five bytes. -/
def c38_setup : List op_t :=
  [op_t.set_file "/foo".toList (10, 10), op_t.set_data 1 (bytes_of "Hello") 5 0]

end OnceFS

/-! # Theorems -/

namespace OnceFS

set_option maxRecDepth 100000

/-- An optional pair is `some` of its components. -/
theorem option_pair_eq_some {α β : Type} (x : Option (α × β)) (h : x.isSome = true) (a : α)
    (ha : (x.get h).1 = a) : x = some (a, (x.get h).2) := by
  cases x with
  | none => simp at h
  | some v => cases v; simp_all


/-- C4 (reuse after delete, as one run).  On the engine holding `/foo` and
`/bar` whose container is full and has no FREE or DELETE block, the run
`set_file("/baz")`, `del_node("/foo")`, `set_file("/baz")` returns
NO_SPACE, OK and then EXISTS: the failed first create has left the row of
`/baz` in the nodes table, so the create after the delete does not return
OK. -/
theorem c4_create_after_delete_returns_exists :
    ∃ ofs, c4_engine = some ofs ∧ container_full ofs ∧ no_free_or_delete ofs ∧
      (run_ops c4_calls ofs).map (fun r => r.1) = some [-ENOSPC, 0, -EEXIST] := by
  refine ⟨(c4_engine).get (by decide), by simp, by decide, by decide, by decide⟩

/-- Evaluation backing C3 (uniqueness): after `set_dir("/.")`,
`set_file("/./a")` and `set_file("a")`, all three returning OK on the
default engine, two rows of the lookup index have the same `(parent,
name)`. -/
theorem c3_relative_path_duplicates_name :
    ∃ ofs, run_ops c3_calls (oncefs_init_default 5) = some ([0, 0, 0], ofs) ∧
      ¬ unique_names ofs := by
  exact ⟨((run_ops c3_calls (oncefs_init_default 5)).get (by decide)).2,
    option_pair_eq_some _ (by decide) _ (by decide), by decide⟩

/-- Counterexample to C7: on a full container without FREE or DELETE block,
node `1` owns a DATA block, and allocating a block for node `1` returns
NO_SPACE. -/
theorem c7_counterexample :
    ∃ ofs, state_after 512 2 [op_t.set_data 1 (bytes_of "x") 1 0] = some ofs ∧
      container_full ofs ∧ no_free_or_delete ofs ∧
      (∃ b ∈ live_blocks ofs, b.data.node = 1 ∧ b.tag.operation = BLOCK_OPERATION_DATA) ∧
      (_oncefs_create_block ofs BLOCK_OPERATION_DATA 1 1 1).1 = -ENOSPC := by
  refine ⟨(state_after 512 2 [op_t.set_data 1 (bytes_of "x") 1 0]).get (by decide),
    by simp, by decide, by decide, by decide, by decide⟩

/-- Counterexample to C1: on a freshly formatted container with one usable
block, `set_file("/foo")` and `set_data(1, "x", 1, 0)` both return OK, and
the dump after re-initialising from the container differs from the dump
before (the write has taken over the NODE block of `/foo`). -/
theorem c1_counterexample :
    ∃ s0 ofs ofs2, oncefs_init_memory 512 2 5 = some (0, s0) ∧
      run_ops takeover_calls s0 = some ([0, 0], ofs) ∧
      remount ofs 6 = some (0, ofs2) ∧
      oncefs_dumps ofs2 ≠ oncefs_dumps ofs := by
  refine ⟨((oncefs_init_memory 512 2 5).get (by decide)).2,
    ((run_ops takeover_calls ((oncefs_init_memory 512 2 5).get (by decide)).2).get
      (by decide)).2,
    ((remount ((run_ops takeover_calls ((oncefs_init_memory 512 2 5).get (by decide)).2).get
      (by decide)).2 6).get (by decide)).2,
    option_pair_eq_some _ (by decide) _ (by decide),
    option_pair_eq_some _ (by decide) _ (by decide),
    option_pair_eq_some _ (by decide) _ (by decide), by decide⟩

/-- Counterexample to C2: after `"ab"` at offset 0 and `"cd"` at offset 20
(payload size 8), reading 22 bytes at offset 0 stops after two bytes and
leaves byte 20 of the buffer as it was, although the logical file holds
`c` there. -/
theorem c2_counterexample :
    ∃ ofs rd, state_after 40 10 (write_ops 1 hole_writes) = some ofs ∧
      oncefs_get_data ofs 1 (List.replicate 22 0) 22 0 = some rd ∧
      logical_file hole_writes 20 = some 99 ∧ rd.2.getD 20 0 ≠ 99 := by
  refine ⟨(state_after 40 10 (write_ops 1 hole_writes)).get (by decide),
    (oncefs_get_data ((state_after 40 10 (write_ops 1 hole_writes)).get (by decide)) 1
      (List.replicate 22 0) 22 0).get (by decide), by simp, by simp, by decide, by decide⟩

/-- Counterexample to C5: on a full container without FREE or DELETE block
that holds the empty directory `/d`, `set_file("/d/x")` returns NO_SPACE;
after the successful `del_node("/d")` the same create returns NOT_FOUND,
not OK. -/
theorem c5_counterexample :
    ∃ ofs ofs1, state_after 512 3 c5_setup = some ofs ∧
      container_full ofs ∧ no_free_or_delete ofs ∧
      (oncefs_set_file ofs "/d/x".toList (12, 12)).map (fun r => r.1) = some (-ENOSPC) ∧
      oncefs_del_node ofs "/d".toList = some (0, ofs1) ∧
      (oncefs_set_file ofs1 "/d/x".toList (12, 12)).map (fun r => r.1) = some (-ENOENT) := by
  refine ⟨(state_after 512 3 c5_setup).get (by decide),
    ((oncefs_del_node ((state_after 512 3 c5_setup).get (by decide)) "/d".toList).get
      (by decide)).2, by simp, by decide, by decide, by decide,
    option_pair_eq_some _ (by decide) _ (by decide), by decide⟩

/-- Counterexample to C10: on a container with one usable block whose NODE
block has been taken over by a write, `/foo` exists, `/bar` is absent and
its parent is the root, and `move_node("/foo", "/bar")` returns NO_SPACE. -/
theorem c10_counterexample :
    ∃ ofs, state_after 512 2 takeover_calls = some ofs ∧
      (_oncefs_resolve_node ofs "/foo".toList).map (fun r => r.1) = some 0 ∧
      (_oncefs_resolve_node ofs "/bar".toList).map (fun r => r.1) = some (-ENOENT) ∧
      (_oncefs_resolve_node ofs (dirname "/bar".toList)).map (fun r => (r.1, r.2.type))
        = some (0, NODE_TYPE_DIR) ∧
      (oncefs_move_node ofs "/foo".toList "/bar".toList).map (fun r => r.1)
        = some (-ENOSPC) := by
  refine ⟨(state_after 512 2 takeover_calls).get (by decide),
    by simp, by decide, by decide, by decide, by decide⟩

/-- `_array_sorted_find_index` returns `0` or `-ENOENT`. -/
theorem find_index_rc {ε β : Type} [Inhabited ε] (deref : ε → β) (array : array_t ε β)
    (filter : Option (β → β → Int)) (key : β) (reverse : Bool) :
    (_array_sorted_find_index deref array filter key reverse).1 = 0 ∨
    (_array_sorted_find_index deref array filter key reverse).1 = -ENOENT := by
  unfold _array_sorted_find_index
  by_cases h : (find_index_search deref array filter key reverse).2 = true
  · simp [h]
  · simp [h]

/-- `table_query_first` returns `0` or `-ENOENT`. -/
theorem table_query_first_rc {ρ : Type} [Inhabited ρ] (table : table_t ρ) (key : ρ)
    (table_index_id : Nat) (filter : Option (ρ → ρ → Int)) :
    (table_query_first table key table_index_id filter).1 = 0 ∨
    (table_query_first table key table_index_id filter).1 = -ENOENT := by
  unfold table_query_first array_sorted_first _array_sorted_find_value
  dsimp only
  rcases find_index_rc (array_dereference table.rows) (table_index table table_index_id)
    filter key false with h | h
  · simp [h]
  · simp [h]

/-- The loop of `_oncefs_resolve_node` after segments that all succeed. -/
theorem resolve_loop_walk (ofs : oncefs_t) (rest : List (List Char)) :
    ∀ (pre : List (List Char)) (prev0 prev tmp : oncefs_node_t),
      walk_segments ofs pre prev0 = some prev →
      resolve_loop ofs (pre ++ rest) prev0.node prev0.type tmp
        = resolve_loop ofs rest prev.node prev.type (if pre = [] then tmp else prev) := by
  intro pre
  induction pre with
  | nil =>
    intro prev0 prev tmp h
    simp [walk_segments] at h
    subst h
    simp
  | cons seg pre ih =>
    intro prev0 prev tmp h
    simp only [walk_segments] at h
    split at h
    · rename_i hc
      obtain ⟨hdir, hlen, hrc⟩ := hc
      have h2 := ih (lookup_segment ofs prev0.node seg).2 prev
        (lookup_segment ofs prev0.node seg).2 h
      have hlen' : ¬ seg.length > ONCEFS_NAME_MAX_SIZE := by omega
      have hrc' : (table_query_first ofs.nodes
          { node := 0, parent := prev0.node, type := prev0.type, last_access := 0,
            last_modification := 0, mode := 0, name := seg } TABLE_INDEX_LOOKUP none)
          = lookup_segment ofs prev0.node seg := by
        rw [hdir]; rfl
      rw [List.cons_append, resolve_loop]
      simp only [hdir, ne_eq, not_true_eq_false, if_false, hlen']
      rw [hdir] at hrc'
      rw [hrc']
      simp only [hrc, not_true_eq_false, if_false]
      rw [h2]
      by_cases hp : pre = []
      · subst hp
        simp [walk_segments] at h
        subst h
        simp
      · simp [hp]
    · simp at h

/-- C9 (path resolution).  `"/"` resolves to a synthetic node with node id
`0` and type DIR.  For any other path, let `seg` be a token of the path such
that all tokens before it are found by their lookup `(parent id of the
previous node, name)`, each following a DIR and at most 256 bytes long, and
let `prev` be the node reached before `seg` (the root for the first token).
Then: if `seg` is the last token, follows a DIR, is at most 256 bytes long
and is found, the result is OK with the node of `seg`; if `seg` follows a
DIR, is at most 256 bytes long and is not found, the result is NOT_FOUND; if
`seg` follows a node that is not a DIR or is longer than 256 bytes, the
result is INVALID. -/
theorem c9_path_resolution (ofs : oncefs_t) :
    (∃ n, _oncefs_resolve_node ofs ['/'] = some (0, n) ∧ n.node = 0 ∧
      n.type = NODE_TYPE_DIR) ∧
    (∀ (path : List Char) (pre : List (List Char)) (seg : List Char)
        (post : List (List Char)) (prev : oncefs_node_t),
      path ≠ ['/'] → path_tokens path = pre ++ seg :: post →
      walk_segments ofs pre (root_node ofs) = some prev →
      ((prev.type = NODE_TYPE_DIR ∧ seg.length ≤ 256 ∧
          (lookup_segment ofs prev.node seg).1 = 0 ∧ post = [] →
        _oncefs_resolve_node ofs path = some (0, (lookup_segment ofs prev.node seg).2)) ∧
       (prev.type = NODE_TYPE_DIR ∧ seg.length ≤ 256 ∧
          (lookup_segment ofs prev.node seg).1 ≠ 0 →
        (_oncefs_resolve_node ofs path).map (fun r => r.1) = some (-ENOENT)) ∧
       (prev.type ≠ NODE_TYPE_DIR ∨ 256 < seg.length →
        (_oncefs_resolve_node ofs path).map (fun r => r.1) = some (-EINVAL)))) := by
  refine ⟨⟨root_node ofs, by simp [_oncefs_resolve_node], rfl, rfl⟩, ?_⟩
  intro path pre seg post prev hroot htok hwalk
  have hne : path_tokens path ≠ [] := by rw [htok]; simp
  have hres : _oncefs_resolve_node ofs path
      = some (resolve_loop ofs (seg :: post) prev.node prev.type
          (if pre = [] then default else prev)) := by
    unfold _oncefs_resolve_node
    simp only [hroot, if_false, hne, htok]
    have := resolve_loop_walk ofs (seg :: post) pre (root_node ofs) prev default hwalk
    simp only [root_node] at this
    rw [this, if_neg (by simp)]
  have hkey : ∀ (type : Int), type = NODE_TYPE_DIR →
      table_query_first ofs.nodes
        { node := 0, parent := prev.node, type := type, last_access := 0,
          last_modification := 0, mode := 0, name := seg } TABLE_INDEX_LOOKUP none
        = lookup_segment ofs prev.node seg := by
    intro type ht; subst ht; rfl
  refine ⟨?_, ?_, ?_⟩
  · rintro ⟨hdir, hlen, hrc, hpost⟩
    subst hpost
    rw [hres, resolve_loop]
    have hlen' : ¬ seg.length > ONCEFS_NAME_MAX_SIZE := by
      simp only [ONCEFS_NAME_MAX_SIZE]; omega
    simp only [hdir, ne_eq, not_true_eq_false, if_false, hlen']
    rw [hkey _ rfl]
    simp [hrc, resolve_loop]
  · rintro ⟨hdir, hlen, hrc⟩
    rw [hres, resolve_loop]
    have hlen' : ¬ seg.length > ONCEFS_NAME_MAX_SIZE := by
      simp only [ONCEFS_NAME_MAX_SIZE]; omega
    simp only [hdir, ne_eq, not_true_eq_false, if_false, hlen']
    rw [hkey _ rfl]
    have hrc2 : (lookup_segment ofs prev.node seg).1 = -ENOENT := by
      rcases table_query_first_rc ofs.nodes
        { node := 0, parent := prev.node, type := NODE_TYPE_DIR, last_access := 0,
          last_modification := 0, mode := 0, name := seg } TABLE_INDEX_LOOKUP none with h | h
      · exact absurd h hrc
      · exact h
    simp [hrc, hrc2]
  · intro h
    rw [hres, resolve_loop]
    by_cases hdir : prev.type = NODE_TYPE_DIR
    · have hlen : seg.length > ONCEFS_NAME_MAX_SIZE := by
        rcases h with h | h
        · exact absurd hdir h
        · simpa [ONCEFS_NAME_MAX_SIZE] using h
      simp [hdir, hlen]
    · simp [hdir]

/-- Witness of C9 on the default engine holding the directory `/foo` and the
file `/foo/bar`: `/foo/bar` resolves to node `2`, `/foo/baz` is NOT_FOUND and
`/foo/bar/x` is INVALID. -/
theorem c9_path_resolution_witness :
    (_oncefs_resolve_node c9_engine "/foo/bar".toList).map (fun r => (r.1, r.2.node))
      = some (0, 2) ∧
    (_oncefs_resolve_node c9_engine "/foo/baz".toList).map (fun r => r.1) = some (-ENOENT) ∧
    (_oncefs_resolve_node c9_engine "/foo/bar/x".toList).map (fun r => r.1)
      = some (-EINVAL) := by
  refine ⟨?_, ?_, ?_⟩
  · have h := ((c9_path_resolution c9_engine).2
      "/foo/bar".toList ["foo".toList] "bar".toList []
      ((walk_segments c9_engine ["foo".toList] (root_node c9_engine)).get (by decide))
      (by decide) (by decide) (by simp)).1 (by decide)
    rw [h]; decide
  · exact ((c9_path_resolution c9_engine).2
      "/foo/baz".toList ["foo".toList] "baz".toList []
      ((walk_segments c9_engine ["foo".toList] (root_node c9_engine)).get (by decide))
      (by decide) (by decide) (by simp)).2.1 (by decide)
  · exact ((c9_path_resolution c9_engine).2
      "/foo/bar/x".toList ["foo".toList, "bar".toList] "x".toList []
      ((walk_segments c9_engine ["foo".toList, "bar".toList] (root_node c9_engine)).get
        (by decide))
      (by decide) (by decide) (by simp)).2.2 (by decide)

/-- `io_write2` of a tag and a node changes the container alone. -/
theorem io_write_node_buffer (io : io_t) (block : Nat) (tag : oncefs_tag_t)
    (node : oncefs_node_t) :
    (io_write_node io block tag node).2
      = { io with buffer := (io_write_node io block tag node).2.buffer } := by
  unfold io_write_node
  split <;> rfl

/-- `io_write3` of a tag, a data header and bytes changes the container
alone. -/
theorem io_write_data_buffer (io : io_t) (block : Nat) (tag : oncefs_tag_t)
    (data : oncefs_data_t) (bytes : List Nat) :
    (io_write_data io block tag data bytes).2
      = { io with buffer := (io_write_data io block tag data bytes).2.buffer } := by
  unfold io_write_data
  split <;> rfl

/-- `write_node_block` is made of primitive state changes. -/
theorem write_node_block_closed (R : oncefs_t → oncefs_t → Prop) (hR : step_closed R)
    (s : oncefs_t) (operation : Int) (entry : oncefs_node_t) :
    R s (write_node_block s operation entry).2 := by
  unfold write_node_block
  have hcb := hR.create_block s operation entry.node 0 0
  dsimp only
  split
  · exact hcb
  · split
    · exact hcb
    · rename_i io hio
      split
      · rw [io_write_node_buffer]
        exact hR.trans _ _ _ hcb (hR.set_io _ _ _ hio)
      · rw [io_write_node_buffer]
        exact hR.trans _ _ _ hcb (hR.set_io _ _ _ hio)

/-- `_oncefs_init_node` is made of primitive state changes. -/
theorem init_node_closed (R : oncefs_t → oncefs_t → Prop) (hR : step_closed R)
    (s : oncefs_t) (path : List Char) (type : Int) (now : Nat × Nat)
    (r : Int × oncefs_t × oncefs_node_t) (h : _oncefs_init_node s path type now = some r) :
    R s r.2.1 := by
  unfold _oncefs_init_node at h
  split at h
  · simp at h
  · split at h
    · simp at h
    · split at h
      · simp at h; subst h; exact hR.refl _
      · split at h
        · simp at h; subst h; exact hR.refl _
        · split at h
          · simp at h
          · split at h
            · simp at h; subst h; exact hR.refl _
            · split at h
              · simp at h; subst h; exact hR.refl _
              · split at h
                · simp at h
                · simp at h; subst h; exact hR.reserve _

/-- `set_node` (`oncefs_set_file`, `oncefs_set_dir`) is made of primitive
state changes. -/
theorem set_node_closed (R : oncefs_t → oncefs_t → Prop) (hR : step_closed R)
    (s : oncefs_t) (path : List Char) (type : Int) (now : Nat × Nat)
    (r : Int × oncefs_t) (h : set_node s path type now = some r) : R s r.2 := by
  unfold set_node at h
  split at h
  · simp at h
  · rename_i r0 h0
    have h1 := init_node_closed R hR s path type now r0 h0
    split at h
    · simp at h; subst h; exact h1
    · dsimp only at h
      split at h
      · simp at h; subst h
        exact hR.trans _ _ _ h1 (hR.nodes_insert _ _)
      · simp at h; subst h
        exact hR.trans _ _ _ h1 (hR.trans _ _ _ (hR.nodes_insert _ _)
          (write_node_block_closed R hR _ _ _))

/-- `oncefs_set_link` is made of primitive state changes. -/
theorem set_link_closed (R : oncefs_t → oncefs_t → Prop) (hR : step_closed R)
    (s : oncefs_t) (src target : List Char) (now : Nat × Nat)
    (r : Int × oncefs_t) (h : oncefs_set_link s src target now = some r) : R s r.2 := by
  unfold oncefs_set_link at h
  split at h
  · simp at h; subst h; exact hR.refl _
  · split at h
    · simp at h
    · rename_i r0 h0
      have h1 := init_node_closed R hR s src NODE_TYPE_LINK now r0 h0
      split at h
      · simp at h; subst h; exact h1
      · dsimp only at h
        have h2 : R s { r0.2.1 with nodes := (table_insert_or_replace r0.2.1.nodes r0.2.2).2 } :=
          hR.trans _ _ _ h1 (hR.nodes_insert _ _)
        split at h
        · simp at h; subst h; exact h2
        · have h3 := hR.nodes_insert
            { r0.2.1 with nodes := (table_insert_or_replace r0.2.1.nodes r0.2.2).2 }
            { node := r0.2.2.node, parent := r0.2.2.node, type := NODE_TYPE_LINK_PAYLOAD,
              last_access := 0, last_modification := 0, mode := 0,
              name := strncpy target ONCEFS_NAME_MAX_SIZE }
          dsimp only at h3
          have h4 := hR.trans _ _ _ h2 h3
          split at h
          · simp at h; subst h; exact h4
          · split at h
            · simp at h; subst h
              exact hR.trans _ _ _ h4 (write_node_block_closed R hR _ _ _)
            · simp at h; subst h
              exact hR.trans _ _ _ h4 (hR.trans _ _ _ (write_node_block_closed R hR _ _ _)
                (write_node_block_closed R hR _ _ _))

/-- `oncefs_set_time` is made of primitive state changes. -/
theorem set_time_closed (R : oncefs_t → oncefs_t → Prop) (hR : step_closed R)
    (s : oncefs_t) (path : List Char) (a m : Nat)
    (r : Int × oncefs_t) (h : oncefs_set_time s path a m = some r) : R s r.2 := by
  unfold oncefs_set_time at h
  split at h
  · simp at h
  · split at h
    · simp at h; subst h; exact hR.refl _
    · split at h
      · simp at h; subst h; exact hR.refl _
      · split at h
        · simp at h
        · dsimp only at h
          split at h
          · simp at h; subst h; exact hR.nodes_insert _ _
          · simp at h; subst h
            exact hR.trans _ _ _ (hR.nodes_insert _ _) (write_node_block_closed R hR _ _ _)

/-- The loop of `oncefs_set_data` is made of primitive state changes. -/
theorem set_data_loop_closed (R : oncefs_t → oncefs_t → Prop) (hR : step_closed R)
    (node : Nat) (data : List Nat) (size offset : Nat) :
    ∀ (fuel : Nat) (s : oncefs_t) (written : Nat),
      R s (set_data_loop node data size offset fuel s written).2 := by
  intro fuel
  induction fuel with
  | zero => intro s written; simp [set_data_loop]; exact hR.refl _
  | succ fuel ih =>
    intro s written
    unfold set_data_loop
    split
    · dsimp only
      generalize (if (size - written : Int) > s.payload_size then s.payload_size.toNat
          else size - written) = amount
      have hcb := hR.create_block s BLOCK_OPERATION_DATA node amount (offset + written)
      split
      · exact hcb
      · split
        · exact hR.trans _ _ _ hcb (ih _ _)
        · rename_i io hio
          split
          · rw [io_write_data_buffer]
            exact hR.trans _ _ _ hcb (hR.set_io _ _ _ hio)
          · rw [io_write_data_buffer]
            exact hR.trans _ _ _ hcb (hR.trans _ _ _ (hR.set_io _ _ _ hio) (ih _ _))
    · exact hR.refl _

/-- `_oncefs_move_node` is made of primitive state changes. -/
theorem move_node_helper_closed (R : oncefs_t → oncefs_t → Prop)
    (hR : table_step_closed R)
    (s : oncefs_t) (node : oncefs_node_t) : R s (_oncefs_move_node s node).2 := by
  unfold _oncefs_move_node
  dsimp only
  split
  · split
    · exact hR.refl _
    · exact hR.refl _
  · exact hR.nodes_insert _ _

/-- The loop of `_oncefs_del_node` over the operations is made of primitive
state changes. -/
theorem free_blocks_loop_closed (R : oncefs_t → oncefs_t → Prop)
    (hR : table_step_closed R)
    (node : Nat) : ∀ (ops : List Int) (s : oncefs_t),
      R s { s with blocks := (free_blocks_loop node ops s.blocks).2 } := by
  intro ops
  induction ops with
  | nil => intro s; simp [free_blocks_loop]; exact hR.refl _
  | cons i rest ih =>
    intro s
    unfold free_blocks_loop
    dsimp only
    have h1 := hR.blocks_free s
      { block := 0, tag := { seq := 0, operation := i },
        data := { node := node, fill := 0, offset := 0 } }
    split
    · exact h1
    · have h2 := ih { s with blocks := (table_query_update s.blocks
        { block := 0, tag := { seq := 0, operation := i },
          data := { node := node, fill := 0, offset := 0 } } TABLE_INDEX_LOOKUP
        (some _oncefs_block_cmp_lookup_fuzzy) _mutator_free).2 }
      exact hR.trans _ _ _ h1 h2

/-- `_oncefs_del_node` is made of primitive state changes. -/
theorem del_node_helper_closed (R : oncefs_t → oncefs_t → Prop)
    (hR : table_step_closed R)
    (s : oncefs_t) (node : oncefs_node_t) (check : Int) :
    R s (_oncefs_del_node s node check).2 := by
  unfold _oncefs_del_node
  split
  · exact hR.refl _
  · dsimp only
    have h1 := hR.nodes_delete s node
    split
    · exact h1
    · have h2 := free_blocks_loop_closed R hR node.node [1, 2, 3, 4, 5, 6, 7]
        { s with nodes :=
          (table_query_delete s.nodes node TABLE_INDEX_PRIMARY (some _filter_node)).2 }
      exact hR.trans _ _ _ h1 h2

/-- `oncefs_del_node` is made of primitive state changes. -/
theorem del_node_closed (R : oncefs_t → oncefs_t → Prop) (hR : step_closed R)
    (s : oncefs_t) (path : List Char)
    (r : Int × oncefs_t) (h : oncefs_del_node s path = some r) : R s r.2 := by
  unfold oncefs_del_node at h
  split at h
  · simp at h
  · split at h
    · simp at h; subst h; exact hR.refl _
    · dsimp only at h
      split at h
      · simp at h; subst h; exact del_node_helper_closed R hR.totable_step_closed _ _ _
      · simp at h; subst h
        exact hR.trans _ _ _ (del_node_helper_closed R hR.totable_step_closed _ _ _)
          (write_node_block_closed R hR _ _ _)

/-- `oncefs_move_node` is made of primitive state changes. -/
theorem move_node_closed (R : oncefs_t → oncefs_t → Prop) (hR : step_closed R)
    (s : oncefs_t) (src dst : List Char)
    (r : Int × oncefs_t) (h : oncefs_move_node s src dst = some r) : R s r.2 := by
  unfold oncefs_move_node at h
  cases h0 : _oncefs_resolve_node s src with
  | none => simp [h0] at h
  | some r0 =>
    simp only [h0] at h
    split at h
    · simp at h; subst h; exact hR.refl _
    · cases hp : _oncefs_resolve_node s (dirname dst) with
      | none => simp [hp] at h
      | some parent =>
        simp only [hp] at h
        split at h
        · simp at h; subst h; exact hR.refl _
        · split at h
          · simp at h; subst h; exact hR.refl _
          · split at h
            · simp at h
            · split at h
              · simp at h
              · have hmv := move_node_helper_closed R hR.totable_step_closed s
                  { r0.2 with parent := parent.2.node,
                              name := strncpy (basename dst) ONCEFS_NAME_MAX_SIZE }
                split at h
                · split at h
                  · simp at h
                  · rename_i del hdel
                    have hd := del_node_closed R hR _ _ _ hdel
                    have h2 := hR.trans _ _ _ hmv hd
                    split at h
                    · simp at h; subst h; exact h2
                    · split at h
                      · simp at h; subst h
                        exact hR.trans _ _ _ h2 (move_node_helper_closed R hR.totable_step_closed _ _)
                      · simp at h; subst h
                        exact hR.trans _ _ _ h2 (hR.trans _ _ _
                          (move_node_helper_closed R hR.totable_step_closed _ _)
                          (write_node_block_closed R hR _ _ _))
                · split at h
                  · simp at h; subst h; exact hmv
                  · simp at h; subst h
                    exact hR.trans _ _ _ hmv (write_node_block_closed R hR _ _ _)

/-- `_oncefs_del_data` is made of primitive state changes. -/
theorem del_data_helper_closed (R : oncefs_t → oncefs_t → Prop)
    (hR : table_step_closed R)
    (s : oncefs_t) (node new_size : Nat) : R s (_oncefs_del_data s node new_size).2 := by
  unfold _oncefs_del_data
  dsimp only
  have h1 := hR.blocks_truncate s
    { block := 0, tag := { seq := 0, operation := BLOCK_OPERATION_DATA },
      data := { node := node, fill := 0, offset := new_size } } new_size
  have h2 := hR.blocks_free { s with blocks := (table_query_update s.blocks
      { block := 0, tag := { seq := 0, operation := BLOCK_OPERATION_DATA },
        data := { node := node, fill := 0, offset := new_size } } TABLE_INDEX_LOOKUP
      (some (_filter_del_data s.payload_size)) (_mutator_truncate new_size)).2 }
    { block := 0, tag := { seq := 0, operation := BLOCK_OPERATION_TRUNCATE },
      data := { node := node, fill := 0, offset := new_size } }
  dsimp only at h2
  split
  · exact h1
  · split
    · exact hR.trans _ _ _ h1 h2
    · exact hR.trans _ _ _ h1 h2

/-- `oncefs_del_data` is made of primitive state changes. -/
theorem del_data_closed (R : oncefs_t → oncefs_t → Prop) (hR : step_closed R)
    (s : oncefs_t) (node new_size : Nat) : R s (oncefs_del_data s node new_size).2 := by
  unfold oncefs_del_data
  dsimp only
  split
  · exact hR.refl _
  · have h1 := del_data_helper_closed R hR.totable_step_closed s
      (table_query_first s.nodes
        { node := node, parent := 0, type := NODE_TYPE_FILE, last_access := 0,
          last_modification := 0, mode := 0, name := [] } TABLE_INDEX_PRIMARY none).2.node
      new_size
    split
    · exact h1
    · have h2 := hR.trans _ _ _ h1 (hR.create_block _ BLOCK_OPERATION_TRUNCATE
        (table_query_first s.nodes
          { node := node, parent := 0, type := NODE_TYPE_FILE, last_access := 0,
            last_modification := 0, mode := 0, name := [] } TABLE_INDEX_PRIMARY none).2.node
        0 new_size)
      split
      · exact h2
      · split
        · exact h2
        · rename_i io hio
          split
          · rw [io_write_data_buffer]
            exact hR.trans _ _ _ h2 (hR.set_io _ _ _ hio)
          · rw [io_write_data_buffer]
            exact hR.trans _ _ _ h2 (hR.set_io _ _ _ hio)

/-- Every call of a filesystem operation is made of primitive state
changes. -/
theorem apply_op_closed (R : oncefs_t → oncefs_t → Prop) (hR : step_closed R)
    (s : oncefs_t) (op : op_t) (r : Int × oncefs_t) (h : apply_op s op = some r) :
    R s r.2 := by
  cases op with
  | set_file path now => exact set_node_closed R hR s path _ now r h
  | set_dir path now => exact set_node_closed R hR s path _ now r h
  | set_link src target now => exact set_link_closed R hR s src target now r h
  | set_time path a m => exact set_time_closed R hR s path a m r h
  | set_data node data size offset =>
    simp only [apply_op, oncefs_set_data] at h
    split at h
    · simp at h
    · split at h
      · simp at h
      · simp at h; subst h; exact set_data_loop_closed R hR _ _ _ _ _ _ _
  | move_node src dst => exact move_node_closed R hR s src dst r h
  | del_node path => exact del_node_closed R hR s path r h
  | del_data node new_size =>
    simp only [apply_op] at h
    simp at h; subst h; exact del_data_closed R hR s node new_size

/-- The rows after `_table_insert` are the old rows and the row given. -/
theorem table_insert_rows {ρ : Type} [Inhabited ρ] (table : table_t ρ) (row : ρ)
    (replace : Bool) (x : ρ) (hx : x ∈ (_table_insert table row replace).2.rows) :
    x ∈ table.rows ∨ x = row := by
  unfold _table_insert at hx
  dsimp only at hx
  split at hx
  · simp at hx; exact hx
  · split at hx
    · exact Or.inl hx
    · split at hx
      · exact Or.inl hx
      · dsimp only at hx
        rcases List.mem_or_eq_of_mem_set hx with h | h
        · exact Or.inl h
        · exact Or.inr h

/-- A property of all rows that the mutator keeps holds for all rows after
the in-place updates of `table_query_update`. -/
theorem update_fold_rows {ρ : Type} [Inhabited ρ] (P : ρ → Prop) (mutator : ρ → ρ)
    (hm : ∀ x, P x → P (mutator x)) :
    ∀ (ids : List Nat) (rows : List ρ), (∀ x ∈ rows, P x) →
      ∀ x ∈ ids.foldl (fun rows row_id =>
        rows.set row_id (mutator (array_dereference rows row_id))) rows, P x := by
  intro ids
  induction ids with
  | nil => intro rows h; simpa using h
  | cons i ids ih =>
    intro rows h
    simp only [List.foldl_cons]
    apply ih
    intro x hx
    by_cases hi : i < rows.length
    · rcases List.mem_or_eq_of_mem_set hx with h1 | h1
      · exact h x h1
      · subst h1
        apply hm
        apply h
        unfold array_dereference
        rw [List.getD_eq_getElem _ _ hi]
        exact List.getElem_mem hi
    · rw [List.set_eq_of_length_le (by omega)] at hx
      exact h x hx

/-- A property of all rows that the mutator keeps holds for all rows after
`table_query_update`. -/
theorem table_query_update_rows {ρ : Type} [Inhabited ρ] (P : ρ → Prop) (mutator : ρ → ρ)
    (hm : ∀ x, P x → P (mutator x)) (table : table_t ρ) (key : ρ) (table_index_id : Nat)
    (comparator : Option (ρ → ρ → Int)) (h : ∀ x ∈ table.rows, P x) :
    ∀ x ∈ (table_query_update table key table_index_id comparator mutator).2.rows, P x := by
  unfold table_query_update
  dsimp only
  split
  · exact h
  · exact update_fold_rows P mutator hm _ _ h

/-- The engine `_oncefs_init_block` returns. -/
theorem init_block_state (ofs : oncefs_t) (block_id : Nat) (tag : oncefs_tag_t)
    (node size offset : Nat) :
    (_oncefs_init_block ofs block_id tag node size offset).1
      = { ofs with next_node_id :=
            if node ≥ ofs.next_node_id then (node + 1) % 2 ^ 32 else ofs.next_node_id } := by
  unfold _oncefs_init_block
  dsimp only
  split <;> rfl

/-- The record `_oncefs_init_block` returns. -/
theorem init_block_record (ofs : oncefs_t) (block_id : Nat) (tag : oncefs_tag_t)
    (node size offset : Nat) :
    (_oncefs_init_block ofs block_id tag node size offset).2
      = { block := block_id, tag := tag,
          data := { node := node, fill := size, offset := offset } } := rfl

/-- The record `create_block_tail` returns. -/
theorem create_block_tail_record (ofs : oncefs_t) (block_id : Nat) (operation : Int)
    (node size offset : Nat) :
    (create_block_tail ofs block_id operation node size offset).2.2
      = { block := block_id, tag := { seq := ofs.next_seq_id, operation := operation },
          data := { node := node, fill := size % 2 ^ 16, offset := offset } } := rfl

/-- The engine `create_block_tail` returns. -/
theorem create_block_tail_state (ofs : oncefs_t) (block_id : Nat) (operation : Int)
    (node size offset : Nat) :
    (create_block_tail ofs block_id operation node size offset).2.1
      = { ofs with
          next_seq_id := ofs.next_seq_id + 1,
          next_node_id := if node ≥ ofs.next_node_id then (node + 1) % 2 ^ 32 else ofs.next_node_id,
          blocks := (table_insert_or_replace ofs.blocks
            { block := block_id, tag := { seq := ofs.next_seq_id, operation := operation },
              data := { node := node, fill := size % 2 ^ 16, offset := offset } }).2 } := by
  unfold create_block_tail
  dsimp only
  rw [init_block_state]
  rfl

/-- `load_advance` leaves the blocks table alone. -/
theorem load_advance_blocks (ofs : oncefs_t) (cursor : oncefs_tagged_block_t) :
    (load_advance ofs cursor).blocks = ofs.blocks := by
  unfold load_advance; split <;> rfl

/-- The comparator of `_oncefs_load` orders tags by `seq`. -/
theorem cmp_tag_seq_le (a b : oncefs_tagged_block_t) :
    _cmp_tag_seq a b ≤ 0 ↔ a.tag.seq ≤ b.tag.seq := by
  unfold _cmp_tag_seq
  split
  · simp; omega
  · split
    · simp; omega
    · simp; omega

/-- After the sort of `_oncefs_load` no tag has a `seq` above that of the
last tag. -/
theorem qsort_tags_le_last (tags : List oncefs_tagged_block_t) (last : oncefs_tagged_block_t)
    (h : (qsort id _cmp_tag_seq tags).getLast? = some last) :
    ∀ c ∈ qsort id _cmp_tag_seq tags, c.tag.seq ≤ last.tag.seq := by
  haveI : IsTotal oncefs_tagged_block_t (fun a b => _cmp_tag_seq (id a) (id b) ≤ 0) :=
    ⟨fun a b => by simp only [id, cmp_tag_seq_le]; omega⟩
  haveI : IsTrans oncefs_tagged_block_t (fun a b => _cmp_tag_seq (id a) (id b) ≤ 0) :=
    ⟨fun a b c => by simp only [id, cmp_tag_seq_le]; omega⟩
  have hs : List.Sorted (fun a b => _cmp_tag_seq (id a) (id b) ≤ 0)
      (qsort id _cmp_tag_seq tags) := by
    unfold qsort
    exact List.sorted_insertionSort _ _
  have hl := List.dropLast_append_getLast? last (by rw [h]; simp)
  intro c hc
  rw [← hl] at hc hs
  rw [List.mem_append] at hc
  rcases hc with hc | hc
  · have := (List.pairwise_append.mp hs).2.2 c hc last (by simp)
    simpa only [id, cmp_tag_seq_le] using this
  · simp at hc; subst hc; exact le_refl _

/-- The state after a call of a filesystem operation comes later. -/
theorem later_state_call (ofs : oncefs_t) (op : op_t) (r : Int × oncefs_t)
    (h : apply_op ofs op = some r) : later_state ofs r.2 :=
  fun R hR => apply_op_closed R hR ofs op r h

/-- The state after a run of filesystem operations comes later. -/
theorem later_state_run : ∀ (ops : List op_t) (ofs : oncefs_t) (r : List Int × oncefs_t),
    run_ops ops ofs = some r → later_state ofs r.2 := by
  intro ops
  induction ops with
  | nil =>
    intro ofs r h
    simp [run_ops] at h; subst h
    exact fun R hR => hR.refl _
  | cons op rest ih =>
    intro ofs r h
    unfold run_ops at h
    cases h1 : apply_op ofs op with
    | none => rw [h1] at h; cases h
    | some r1 =>
      rw [h1] at h
      dsimp only at h
      cases h2 : run_ops rest r1.2 with
      | none => rw [h2] at h; cases h
      | some rs =>
        rw [h2] at h
        cases h
        exact fun R hR => hR.trans _ _ _ (later_state_call ofs op r1 h1 R hR) (ih r1.2 rs h2 R hR)

/-- The loop of `_array_sorted_find_index` on a probe whose sign does not
increase: it ends on the first position where the probe is not positive, and
reports whether the probe is `0` there. -/
theorem find_index_loop_spec (r : Nat → Int) (n : Nat)
    (hmono : ∀ i j, i ≤ j → j < n → (r i ≤ 0 → r j ≤ 0) ∧ (r i < 0 → r j < 0)) :
    ∀ (fuel low high : Nat) (v : Bool), high - low ≤ fuel → low ≤ high → high ≤ n →
      (∀ i, i < low → 0 < r i) → (∀ i, high ≤ i → i < n → r i ≤ 0) →
      (v = true ↔ (high < n ∧ r high = 0)) →
      (find_index_loop r fuel low high v).1 ≤ n ∧
      (∀ i, i < (find_index_loop r fuel low high v).1 → 0 < r i) ∧
      (∀ i, (find_index_loop r fuel low high v).1 ≤ i → i < n → r i ≤ 0) ∧
      ((find_index_loop r fuel low high v).2 = true ↔
        ((find_index_loop r fuel low high v).1 < n ∧
          r (find_index_loop r fuel low high v).1 = 0)) := by
  intro fuel
  induction fuel with
  | zero =>
    intro low high v hf hle hn hlow hhigh hv
    simp only [find_index_loop]
    exact ⟨hn, fun i hi => hlow i (by omega), hhigh, hv⟩
  | succ fuel ih =>
    intro low high v hf hle hn hlow hhigh hv
    unfold find_index_loop
    by_cases hlt : low < high
    · simp only [hlt, if_true]
      have hmid1 : low ≤ low + (high - low) / 2 := by omega
      have hmid2 : low + (high - low) / 2 < high := by omega
      by_cases h0 : r (low + (high - low) / 2) = 0
      · simp only [h0, if_true]
        apply ih
        · omega
        · omega
        · omega
        · exact hlow
        · intro i hi hin
          exact (hmono _ i hi hin).1 (by omega)
        · simp [h0]; omega
      · simp only [h0, if_false]
        by_cases hneg : r (low + (high - low) / 2) < 0
        · simp only [hneg, if_true]
          apply ih
          · omega
          · omega
          · omega
          · exact hlow
          · intro i hi hin
            exact (hmono _ i hi hin).1 (by omega)
          · simp [h0]
        · simp only [hneg, if_false]
          apply ih
          · omega
          · omega
          · omega
          · intro i hi
            by_contra hc
            have := (hmono i _ (by omega) (by omega : low + (high - low) / 2 < n)).1 (by omega)
            omega
          · exact hhigh
          · exact hv
    · simp only [hlt, if_false]
      have : low = high := by omega
      subst this
      exact ⟨hn, hlow, hhigh, hv⟩

/-- The loop of `_array_sorted_find_index` on any probe: when it reports a
match, the probe is `0` at the position it ends on. -/
theorem find_index_loop_sound (r : Nat → Int) (n : Nat) :
    ∀ (fuel low high : Nat) (v : Bool), low ≤ high → high ≤ n →
      (v = true → (high < n ∧ r high = 0)) →
      (find_index_loop r fuel low high v).2 = true →
        ((find_index_loop r fuel low high v).1 < n ∧
          r (find_index_loop r fuel low high v).1 = 0) := by
  intro fuel
  induction fuel with
  | zero =>
    intro low high v _ _ hv
    simp only [find_index_loop]
    exact hv
  | succ fuel ih =>
    intro low high v hle hn hv
    unfold find_index_loop
    by_cases hlt : low < high
    · simp only [hlt, if_true]
      by_cases h0 : r (low + (high - low) / 2) = 0
      · simp only [h0, if_true]
        apply ih
        · omega
        · omega
        · intro _; exact ⟨by omega, h0⟩
      · simp only [h0, if_false]
        by_cases hneg : r (low + (high - low) / 2) < 0
        · simp only [hneg, if_true]
          apply ih
          · omega
          · omega
          · intro h; cases h
        · simp only [hneg, if_false]
          apply ih
          · omega
          · omega
          · exact hv
    · simp only [hlt, if_false]
      exact hv

/-- Along entries sorted under `cmp`, the probe of a forward search with a
monotone filter does not increase in sign. -/
theorem probe_mono_forward {ε β : Type} [Inhabited ε] (deref : ε → β) (array : array_t ε β)
    (cmp : β → β → Int) (f : β → β → Int) (key : β)
    (hs : (array.entries.map deref).Pairwise (fun a b => cmp a b ≤ 0))
    (hf : filter_mono cmp (f key)) :
    ∀ i j, i ≤ j → j < array.entries.length →
      (find_index_probe deref array (some f) key false i ≤ 0 →
        find_index_probe deref array (some f) key false j ≤ 0) ∧
      (find_index_probe deref array (some f) key false i < 0 →
        find_index_probe deref array (some f) key false j < 0) := by
  intro i j hij hj
  simp only [find_index_probe, Option.getD_some, Bool.false_eq_true, if_false]
  rcases Nat.eq_or_lt_of_le hij with h | h
  · subst h; exact ⟨id, id⟩
  · have hi : i < array.entries.length := by omega
    rw [List.getD_eq_getElem _ _ hi, List.getD_eq_getElem _ _ hj]
    have := List.pairwise_iff_getElem.mp hs i j (by simpa using hi) (by simpa using hj) h
    simp only [List.getElem_map] at this
    exact hf _ _ this

/-- Along entries sorted under `cmp`, the probe of a reverse search with a
monotone filter does not increase in sign. -/
theorem probe_mono_reverse {ε β : Type} [Inhabited ε] (deref : ε → β) (array : array_t ε β)
    (cmp : β → β → Int) (f : β → β → Int) (key : β)
    (hs : (array.entries.map deref).Pairwise (fun a b => cmp a b ≤ 0))
    (hf : filter_mono cmp (f key)) :
    ∀ i j, i ≤ j → j < array.entries.length →
      (find_index_probe deref array (some f) key true i ≤ 0 →
        find_index_probe deref array (some f) key true j ≤ 0) ∧
      (find_index_probe deref array (some f) key true i < 0 →
        find_index_probe deref array (some f) key true j < 0) := by
  intro i j hij hj
  simp only [find_index_probe, Option.getD_some, if_true]
  rcases Nat.eq_or_lt_of_le hij with h | h
  · subst h; exact ⟨id, id⟩
  · have hi : array.entries.length - 1 - i < array.entries.length := by omega
    have hj2 : array.entries.length - 1 - j < array.entries.length := by omega
    rw [List.getD_eq_getElem _ _ hi, List.getD_eq_getElem _ _ hj2]
    have := List.pairwise_iff_getElem.mp hs (array.entries.length - 1 - j)
      (array.entries.length - 1 - i) (by simpa using hj2) (by simpa using hi) (by omega)
    simp only [List.getElem_map] at this
    have h2 := hf _ _ this
    constructor
    · intro h3
      by_contra h4
      have := h2.2 (by omega)
      omega
    · intro h3
      by_contra h4
      have := h2.1 (by omega)
      omega

/-- The probe of a forward search at a position of the array. -/
theorem probe_forward_eq {ε β : Type} [Inhabited ε] (deref : ε → β) (array : array_t ε β)
    (f : β → β → Int) (key : β) (i : Nat) (h : i < array.entries.length) :
    find_index_probe deref array (some f) key false i
      = f key (deref (array.entries.get ⟨i, h⟩)) := by
  simp only [find_index_probe, Option.getD_some, Bool.false_eq_true, if_false]
  rw [List.getD_eq_getElem _ _ h]; rfl

/-- The probe of a reverse search at a position of the array. -/
theorem probe_reverse_eq {ε β : Type} [Inhabited ε] (deref : ε → β) (array : array_t ε β)
    (f : β → β → Int) (key : β) (i : Nat) (h : array.entries.length - 1 - i < array.entries.length) :
    find_index_probe deref array (some f) key true i
      = - f key (deref (array.entries.get ⟨array.entries.length - 1 - i, h⟩)) := by
  simp only [find_index_probe, Option.getD_some, if_true]
  rw [List.getD_eq_getElem _ _ h]; rfl

/-- The search loop on an array: a reported match is a position where the
probe is `0`. -/
theorem find_index_search_sound {ε β : Type} [Inhabited ε] (deref : ε → β)
    (array : array_t ε β) (f : β → β → Int) (key : β) (reverse : Bool)
    (hv : (find_index_search deref array (some f) key reverse).2 = true) :
    (find_index_search deref array (some f) key reverse).1 < array.entries.length ∧
    find_index_probe deref array (some f) key reverse
      (find_index_search deref array (some f) key reverse).1 = 0 :=
  find_index_loop_sound (find_index_probe deref array (some f) key reverse)
    array.entries.length array.entries.length 0 array.entries.length false (by omega)
    (by omega) (by intro h; cases h) hv

/-- The search loop on an array whose probe does not increase in sign. -/
theorem find_index_search_spec {ε β : Type} [Inhabited ε] (deref : ε → β)
    (array : array_t ε β) (f : β → β → Int) (key : β) (reverse : Bool)
    (hmono : ∀ i j, i ≤ j → j < array.entries.length →
      (find_index_probe deref array (some f) key reverse i ≤ 0 →
        find_index_probe deref array (some f) key reverse j ≤ 0) ∧
      (find_index_probe deref array (some f) key reverse i < 0 →
        find_index_probe deref array (some f) key reverse j < 0)) :
    (find_index_search deref array (some f) key reverse).1 ≤ array.entries.length ∧
    (∀ i, i < (find_index_search deref array (some f) key reverse).1 →
      0 < find_index_probe deref array (some f) key reverse i) ∧
    (∀ i, (find_index_search deref array (some f) key reverse).1 ≤ i →
      i < array.entries.length → find_index_probe deref array (some f) key reverse i ≤ 0) ∧
    ((find_index_search deref array (some f) key reverse).2 = true ↔
      ((find_index_search deref array (some f) key reverse).1 < array.entries.length ∧
        find_index_probe deref array (some f) key reverse
          (find_index_search deref array (some f) key reverse).1 = 0)) :=
  find_index_loop_spec (find_index_probe deref array (some f) key reverse)
    array.entries.length hmono
    array.entries.length 0 array.entries.length false (by omega) (by omega) (by omega)
    (by intro i hi; omega) (by intro i h1 h2; omega) (by simp)

/-- `_array_sorted_find_index` returns `0` or `-ENOENT`; with `0` the index
is a position of the array at which the filter is `0`. -/
theorem find_index_sound {ε β : Type} [Inhabited ε] (deref : ε → β) (array : array_t ε β)
    (f : β → β → Int) (key : β) (reverse : Bool) :
    ((_array_sorted_find_index deref array (some f) key reverse).1 = 0 ∨
      (_array_sorted_find_index deref array (some f) key reverse).1 = -ENOENT) ∧
    ((_array_sorted_find_index deref array (some f) key reverse).1 = 0 →
      ∃ h : (_array_sorted_find_index deref array (some f) key reverse).2 < array.entries.length,
        f key (deref (array.entries.get
          ⟨(_array_sorted_find_index deref array (some f) key reverse).2, h⟩)) = 0) := by
  unfold _array_sorted_find_index
  by_cases hv : (find_index_search deref array (some f) key reverse).2 = true
  · rw [if_neg (by simpa using hv)]
    refine ⟨Or.inl rfl, fun _ => ?_⟩
    obtain ⟨h1, h2⟩ := find_index_search_sound deref array f key reverse hv
    cases reverse with
    | false =>
      simp only [Bool.false_eq_true, if_false]
      refine ⟨h1, ?_⟩
      rw [probe_forward_eq deref array f key _ h1] at h2
      exact h2
    | true =>
      simp only [if_true]
      have h3 : array.entries.length - 1 -
          (find_index_search deref array (some f) key true).1 < array.entries.length := by omega
      refine ⟨h3, ?_⟩
      rw [probe_reverse_eq deref array f key _ h3] at h2
      simpa using h2
  · rw [if_pos (by simpa using hv)]
    exact ⟨Or.inr rfl, fun h => by simp at h⟩

/-- The forward search on entries sorted under `cmp`, with a monotone
filter: it succeeds exactly when the filter is `0` on some entry, and then
the index is the first such position. -/
theorem find_index_first {ε β : Type} [Inhabited ε] (deref : ε → β) (array : array_t ε β)
    (cmp : β → β → Int) (f : β → β → Int) (key : β)
    (hs : (array.entries.map deref).Pairwise (fun a b => cmp a b ≤ 0))
    (hf : filter_mono cmp (f key)) :
    ((_array_sorted_find_index deref array (some f) key false).1 = 0 ↔
      ∃ e ∈ array.entries, f key (deref e) = 0) ∧
    ((_array_sorted_find_index deref array (some f) key false).1 = 0 →
      (∀ i (h : i < array.entries.length),
        i < (_array_sorted_find_index deref array (some f) key false).2 →
          0 < f key (deref (array.entries.get ⟨i, h⟩))) ∧
      (∀ i (h : i < array.entries.length),
        (_array_sorted_find_index deref array (some f) key false).2 ≤ i →
          f key (deref (array.entries.get ⟨i, h⟩)) ≤ 0)) := by
  obtain ⟨h1, h2, h3, h4⟩ := find_index_search_spec deref array f key false
    (probe_mono_forward deref array cmp f key hs hf)
  have hprobe := probe_forward_eq deref array f key
  unfold _array_sorted_find_index
  by_cases hv : (find_index_search deref array (some f) key false).2 = true
  · rw [if_neg (by simpa using hv)]
    simp only [Bool.false_eq_true, if_false, true_iff, forall_true_left]
    obtain ⟨h5, h6⟩ := h4.mp hv
    refine ⟨⟨array.entries.get ⟨_, h5⟩, List.get_mem _ _ _, ?_⟩, ?_, ?_⟩
    · rw [← hprobe _ h5]; exact h6
    · intro i h hi; rw [← hprobe i h]; exact h2 i hi
    · intro i h hi; rw [← hprobe i h]; exact h3 i hi h
  · rw [if_pos (by simpa using hv)]
    constructor
    · constructor
      · intro h; simp at h
      · rintro ⟨e, he, hfe⟩
        exfalso
        obtain ⟨i, hi, rfl⟩ := List.getElem_of_mem he
        have hp := hprobe i hi
        simp only [List.get_eq_getElem] at hp
        rw [hfe] at hp
        by_cases hlt : i < (find_index_search deref array (some f) key false).1
        · have := h2 i hlt; omega
        · have h7 : (find_index_search deref array (some f) key false).1 < array.entries.length := by
            omega
          have h8 := h3 _ (le_refl _) h7
          rcases Nat.eq_or_lt_of_le (Nat.le_of_not_lt hlt) with h9 | h9
          · exact hv (h4.mpr ⟨h7, by rw [h9]; exact hp⟩)
          · have := (probe_mono_forward deref array cmp f key hs hf _ i (Nat.le_of_lt h9) hi)
            by_cases h10 : find_index_probe deref array (some f) key false
                (find_index_search deref array (some f) key false).1 = 0
            · exact hv (h4.mpr ⟨h7, h10⟩)
            · have := this.2 (by omega)
              omega
    · intro h; simp at h

/-! ## The comparators are orders -/

theorem strcmp_refl : ∀ a : List Char, strcmp a a = 0
  | [] => rfl
  | a :: as => by
    unfold strcmp
    simp only [lt_self_iff_false, if_false]
    exact strcmp_refl as

theorem strcmp_range : ∀ a b : List Char, strcmp a b = -1 ∨ strcmp a b = 0 ∨ strcmp a b = 1
  | [], [] => by simp [strcmp]
  | [], _ :: _ => by simp [strcmp]
  | _ :: _, [] => by simp [strcmp]
  | a :: as, b :: bs => by
    unfold strcmp
    split
    · simp
    · split
      · simp
      · exact strcmp_range as bs

theorem strcmp_flip : ∀ a b : List Char, strcmp b a = - strcmp a b
  | [], [] => by simp [strcmp]
  | [], _ :: _ => by simp [strcmp]
  | _ :: _, [] => by simp [strcmp]
  | a :: as, b :: bs => by
    unfold strcmp
    by_cases h1 : a.toNat < b.toNat
    · have h2 : ¬ b.toNat < a.toNat := by omega
      simp [h1, h2]
    · by_cases h2 : b.toNat < a.toNat
      · simp [h1, h2]
      · simp only [h1, h2, if_false]
        exact strcmp_flip as bs

theorem strcmp_eq_zero : ∀ a b : List Char, strcmp a b = 0 → a = b
  | [], [], _ => rfl
  | [], _ :: _, h => by simp [strcmp] at h
  | _ :: _, [], h => by simp [strcmp] at h
  | a :: as, b :: bs, h => by
    unfold strcmp at h
    by_cases h1 : a.toNat < b.toNat
    · simp [h1] at h
    · by_cases h2 : b.toNat < a.toNat
      · simp [h1, h2] at h
      · simp only [h1, h2, if_false] at h
        have := strcmp_eq_zero as bs h
        have hab : a = b := Char.ext (UInt32.ext (by
          have : a.toNat = b.toNat := by omega
          exact this))
        rw [this, hab]

theorem strcmp_le_trans : ∀ a b c : List Char, strcmp a b ≤ 0 → strcmp b c ≤ 0 →
    strcmp a c ≤ 0 ∧ (strcmp a b < 0 ∨ strcmp b c < 0 → strcmp a c < 0)
  | [], [], c, _, h2 => ⟨h2, fun h => by rcases h with h | h; simp [strcmp] at h; exact h⟩
  | [], _ :: _, [], _, h2 => by simp [strcmp] at h2
  | [], _ :: _, _ :: _, _, _ => by simp [strcmp]
  | _ :: _, [], _, h1, _ => by simp [strcmp] at h1
  | _ :: _, _ :: _, [], _, h2 => by simp [strcmp] at h2
  | a :: as, b :: bs, c :: cs, h1, h2 => by
    unfold strcmp at h1 h2 ⊢
    by_cases hab : a.toNat < b.toNat
    · by_cases hbc : b.toNat < c.toNat
      · have : a.toNat < c.toNat := by omega
        simp [this]
      · by_cases hcb : c.toNat < b.toNat
        · simp [hbc, hcb] at h2
        · have : a.toNat < c.toNat := by omega
          simp [this]
    · by_cases hba : b.toNat < a.toNat
      · simp [hab, hba] at h1
      · simp only [hab, hba, if_false] at h1
        by_cases hbc : b.toNat < c.toNat
        · have : a.toNat < c.toNat := by omega
          simp [this]
        · by_cases hcb : c.toNat < b.toNat
          · simp [hbc, hcb] at h2
          · simp only [hbc, hcb, if_false] at h2
            have e1 : ¬ a.toNat < c.toNat := by omega
            have e2 : ¬ c.toNat < a.toNat := by omega
            simp only [hab, hba, hbc, hcb, e1, e2, if_false]
            exact strcmp_le_trans as bs cs h1 h2

/-- A comparator is an order as soon as it is reflexive, antisymmetric in
sign, and transitive with strictness. -/
theorem cmp_order_of {ρ : Type} (cmp : ρ → ρ → Int)
    (hrefl : ∀ a, cmp a a = 0)
    (hflip : ∀ a b, 0 ≤ cmp a b → cmp b a ≤ 0)
    (htrans : ∀ a b c, cmp a b ≤ 0 → cmp b c ≤ 0 →
      cmp a c ≤ 0 ∧ (cmp a b < 0 ∨ cmp b c < 0 → cmp a c < 0)) : cmp_order cmp :=
  { refl := hrefl, flip := hflip,
    le_trans := fun a b c h1 h2 => (htrans a b c h1 h2).1,
    lt_trans_le := fun a b c h1 h2 => (htrans a b c (le_of_lt h1) h2).2 (Or.inl h1),
    le_trans_lt := fun a b c h1 h2 => (htrans a b c h1 (le_of_lt h2)).2 (Or.inr h2) }

theorem cmp_order.symm0 {ρ : Type} {cmp : ρ → ρ → Int} (h : cmp_order cmp) (a b : ρ)
    (h0 : cmp a b = 0) : cmp b a = 0 := by
  have h1 := h.flip a b (by omega)
  by_contra h2
  have h3 := h.le_trans_lt a b a (by omega) (by omega)
  have := h.refl a
  omega

theorem cmp_order.congr_left {ρ : Type} {cmp : ρ → ρ → Int} (h : cmp_order cmp) (a b x : ρ)
    (h0 : cmp a b = 0) : (cmp a x ≤ 0 ↔ cmp b x ≤ 0) ∧ (cmp a x < 0 ↔ cmp b x < 0) := by
  have h1 := h.symm0 a b h0
  exact ⟨⟨fun h2 => h.le_trans b a x (by omega) h2, fun h2 => h.le_trans a b x (by omega) h2⟩,
    ⟨fun h2 => h.le_trans_lt b a x (by omega) h2, fun h2 => h.le_trans_lt a b x (by omega) h2⟩⟩

theorem cmp_order.congr_right {ρ : Type} {cmp : ρ → ρ → Int} (h : cmp_order cmp) (a b x : ρ)
    (h0 : cmp a b = 0) : (cmp x a ≤ 0 ↔ cmp x b ≤ 0) ∧ (cmp x a < 0 ↔ cmp x b < 0) := by
  have h1 := h.symm0 a b h0
  exact ⟨⟨fun h2 => h.le_trans x a b h2 (by omega), fun h2 => h.le_trans x b a h2 (by omega)⟩,
    ⟨fun h2 => h.lt_trans_le x a b h2 (by omega), fun h2 => h.lt_trans_le x b a h2 (by omega)⟩⟩

/-- Rows equal under an order compare alike with any third row. -/
theorem cmp_order.eq_zero_congr {ρ : Type} {cmp : ρ → ρ → Int} (h : cmp_order cmp) (a b x : ρ)
    (h0 : cmp a b = 0) : (cmp a x = 0 ↔ cmp b x = 0) := by
  have hl := h.congr_left a b x h0
  have hr := h.congr_right a b x h0
  constructor
  · intro h1
    have h2 := h.symm0 a x h1
    have h3 : cmp x b ≤ 0 := hr.1.mp (by omega)
    have h4 : cmp b x ≤ 0 := hl.1.mp (by omega)
    by_contra h5
    have h6 : cmp b x < 0 := by omega
    have := hl.2.mpr h6
    omega
  · intro h1
    have h2 := h.symm0 b x h1
    have h4 : cmp a x ≤ 0 := hl.1.mpr (by omega)
    by_contra h5
    have h6 : cmp a x < 0 := by omega
    have := hl.2.mp h6
    omega

theorem block_cmp_primary_order : cmp_order _oncefs_block_cmp_primary := by
  apply cmp_order_of
  · intro a; simp [_oncefs_block_cmp_primary]
  · intro a b; simp only [_oncefs_block_cmp_primary]; split_ifs <;> omega
  · intro a b c; simp only [_oncefs_block_cmp_primary]; split_ifs <;> omega

theorem block_cmp_fuzzy_order : cmp_order _oncefs_block_cmp_lookup_fuzzy := by
  apply cmp_order_of
  · intro a; simp [_oncefs_block_cmp_lookup_fuzzy]
  · intro a b; simp only [_oncefs_block_cmp_lookup_fuzzy]; split_ifs <;> omega
  · intro a b c; simp only [_oncefs_block_cmp_lookup_fuzzy]; split_ifs <;> omega

theorem node_cmp_primary_order : cmp_order _oncefs_node_cmp_primary := by
  apply cmp_order_of
  · intro a; simp [_oncefs_node_cmp_primary]
  · intro a b; simp only [_oncefs_node_cmp_primary]; split_ifs <;> omega
  · intro a b c; simp only [_oncefs_node_cmp_primary]; split_ifs <;> omega

theorem node_cmp_lookup_order : cmp_order _oncefs_node_cmp_lookup := by
  apply cmp_order_of
  · intro a; simp [_oncefs_node_cmp_lookup, strcmp_refl]
  · intro a b
    have := strcmp_flip a.name b.name
    simp only [_oncefs_node_cmp_lookup]; split_ifs <;> omega
  · intro a b c
    have h := strcmp_le_trans a.name b.name c.name
    simp only [_oncefs_node_cmp_lookup]
    split_ifs <;> omega

/-- The lexicographic combination of two orders is an order. -/
theorem cmp_order_lex {ρ : Type} (c1 c2 : ρ → ρ → Int) (h1 : cmp_order c1) (h2 : cmp_order c2) :
    cmp_order (fun a b => if c1 a b ≠ 0 then c1 a b else c2 a b) := by
  apply cmp_order_of
  · intro a; simp [h1.refl a, h2.refl a]
  · intro a b
    dsimp only
    by_cases e : c1 a b = 0
    · have e2 := h1.symm0 a b e
      rw [if_neg (by simpa using e), if_neg (by simpa using e2)]
      exact h2.flip a b
    · have e2 : c1 b a ≠ 0 := fun h => e (h1.symm0 b a h)
      rw [if_pos e, if_pos e2]
      exact h1.flip a b
  · intro a b c
    dsimp only
    by_cases e : c1 a b = 0
    · rw [if_neg (by simpa using e)]
      by_cases e2 : c1 b c = 0
      · have e3 : c1 a c = 0 := (h1.eq_zero_congr a b c e).mpr e2
        rw [if_neg (by simpa using e2), if_neg (by simpa using e3)]
        intro p q
        exact ⟨h2.le_trans a b c p q, fun h => by
          rcases h with h | h
          · exact h2.lt_trans_le a b c h q
          · exact h2.le_trans_lt a b c p h⟩
      · rw [if_pos e2]
        intro _ q
        have q2 : c1 b c < 0 := by omega
        have e3 := h1.le_trans_lt a b c (by omega) q2
        rw [if_pos (by omega)]
        exact ⟨by omega, fun _ => e3⟩
    · rw [if_pos e]
      intro p
      have p2 : c1 a b < 0 := by omega
      by_cases e2 : c1 b c = 0
      · rw [if_neg (by simpa using e2)]
        intro _
        have e3 := h1.lt_trans_le a b c p2 (by omega)
        rw [if_pos (by omega)]
        exact ⟨by omega, fun _ => e3⟩
      · rw [if_pos e2]
        intro q
        have e3 := h1.lt_trans_le a b c p2 q
        rw [if_pos (by omega)]
        exact ⟨by omega, fun _ => e3⟩

/-- The comparison of one numeric field is an order. -/
theorem cmp_order_key {ρ : Type} (k : ρ → Nat) :
    cmp_order (fun a b : ρ => if k a < k b then (-1 : Int) else if k a > k b then 1 else 0) := by
  apply cmp_order_of
  · intro a; simp
  · intro a b; dsimp only; split_ifs <;> omega
  · intro a b c; dsimp only; split_ifs <;> omega

theorem block_cmp_lookup_eq (a b : oncefs_block_t) :
    _oncefs_block_cmp_lookup a b =
      (if _oncefs_block_cmp_lookup_fuzzy a b ≠ 0 then _oncefs_block_cmp_lookup_fuzzy a b
       else
        (if (if a.data.offset < b.data.offset then (-1 : Int)
              else if a.data.offset > b.data.offset then 1 else 0) ≠ 0
         then (if a.data.offset < b.data.offset then (-1 : Int)
              else if a.data.offset > b.data.offset then 1 else 0)
         else
          (if (if a.data.fill < b.data.fill then (-1 : Int)
                else if a.data.fill > b.data.fill then 1 else 0) ≠ 0
           then (if a.data.fill < b.data.fill then (-1 : Int)
                else if a.data.fill > b.data.fill then 1 else 0)
           else (if a.block < b.block then (-1 : Int)
                else if a.block > b.block then 1 else 0)))) := by
  unfold _oncefs_block_cmp_lookup
  by_cases h : _oncefs_block_cmp_lookup_fuzzy a b ≠ 0
  · rw [if_pos h, if_pos h]
  · rw [if_neg h, if_neg h]
    split_ifs <;> first | rfl | omega

theorem block_cmp_lookup_order : cmp_order _oncefs_block_cmp_lookup := by
  have h := cmp_order_lex _ _ block_cmp_fuzzy_order
    (cmp_order_lex _ _ (cmp_order_key (fun b : oncefs_block_t => b.data.offset))
      (cmp_order_lex _ _ (cmp_order_key (fun b : oncefs_block_t => b.data.fill))
        (cmp_order_key (fun b : oncefs_block_t => b.block))))
  have e : _oncefs_block_cmp_lookup = _ := funext (fun a => funext (fun b =>
    block_cmp_lookup_eq a b))
  rw [e]
  exact h

/-- An order is a monotone filter of itself, whatever the key. -/
theorem filter_mono_self {ρ : Type} (cmp : ρ → ρ → Int) (h : cmp_order cmp) (key : ρ) :
    filter_mono cmp (cmp key) :=
  fun a b hab => ⟨fun h1 => h.le_trans key a b h1 hab, fun h1 => h.lt_trans_le key a b h1 hab⟩

theorem block_lookup_le_fuzzy (a b : oncefs_block_t) (h : _oncefs_block_cmp_lookup a b ≤ 0) :
    _oncefs_block_cmp_lookup_fuzzy a b ≤ 0 := by
  unfold _oncefs_block_cmp_lookup at h
  by_cases e : _oncefs_block_cmp_lookup_fuzzy a b ≠ 0
  · rw [if_pos e] at h; exact h
  · have : _oncefs_block_cmp_lookup_fuzzy a b = 0 := by simpa using e
    omega

theorem filter_mono_fuzzy (key : oncefs_block_t) :
    filter_mono _oncefs_block_cmp_lookup (_oncefs_block_cmp_lookup_fuzzy key) :=
  fun a b hab => filter_mono_self _ block_cmp_fuzzy_order key a b (block_lookup_le_fuzzy a b hab)

theorem filter_mono_operation (key : oncefs_block_t) :
    filter_mono _oncefs_block_cmp_lookup (_filter_operation key) := by
  intro a b hab
  have h := block_lookup_le_fuzzy a b hab
  revert h
  simp only [_oncefs_block_cmp_lookup_fuzzy, _filter_operation]
  split_ifs <;> omega

theorem filter_mono_children (key : oncefs_node_t) :
    filter_mono _oncefs_node_cmp_lookup (_filter_children key) := by
  intro a b
  have := strcmp_range a.name b.name
  simp only [_oncefs_node_cmp_lookup, _filter_children]
  split_ifs <;> omega

theorem filter_mono_node (key : oncefs_node_t) :
    filter_mono _oncefs_node_cmp_primary (_filter_node key) := by
  intro a b
  simp only [_oncefs_node_cmp_primary, _filter_node]
  split_ifs <;> omega

/-! ## lib/array.c: sorting and sorted insertion -/

/-- The sort of `array_sort` keeps the entries. -/
theorem qsort_perm {ε β : Type} (deref : ε → β) (cmp : β → β → Int) (xs : List ε) :
    (qsort deref cmp xs).Perm xs :=
  List.perm_insertionSort _ xs

/-- The sort of `array_sort` under an order leaves the entries in that
order. -/
theorem qsort_sorted {ε β : Type} (deref : ε → β) (cmp : β → β → Int) (h : cmp_order cmp)
    (xs : List ε) : ((qsort deref cmp xs).map deref).Pairwise (fun a b => cmp a b ≤ 0) := by
  rw [List.pairwise_map]
  haveI : IsTotal ε (fun a b => cmp (deref a) (deref b) ≤ 0) :=
    ⟨fun a b => by
      by_cases h1 : cmp (deref a) (deref b) ≤ 0
      · exact Or.inl h1
      · exact Or.inr (h.flip _ _ (by omega))⟩
  haveI : IsTrans ε (fun a b => cmp (deref a) (deref b) ≤ 0) :=
    ⟨fun a b c h1 h2 => h.le_trans _ _ _ h1 h2⟩
  exact List.sorted_insertionSort _ xs

/-- The binary search of `array_sorted_insert` on a probe whose sign does
not increase: before the position it ends on the probe is not negative,
from there on it is not positive. -/
theorem sorted_insert_loop_spec (r : Nat → Int) (n : Nat)
    (hmono : ∀ i j, i ≤ j → j < n → (r i ≤ 0 → r j ≤ 0) ∧ (r i < 0 → r j < 0)) :
    ∀ (fuel low high : Nat), high - low ≤ fuel → low ≤ high → high ≤ n →
      (∀ i, i < low → 0 < r i) → (∀ i, high ≤ i → i < n → r i < 0) →
      sorted_insert_loop r fuel low high ≤ n ∧
      (∀ i, i < sorted_insert_loop r fuel low high → 0 ≤ r i) ∧
      (∀ i, sorted_insert_loop r fuel low high ≤ i → i < n → r i ≤ 0) := by
  intro fuel
  induction fuel with
  | zero =>
    intro low high hf hle hn hlow hhigh
    simp only [sorted_insert_loop]
    exact ⟨by omega, fun i hi => le_of_lt (hlow i hi),
      fun i hi hin => le_of_lt (hhigh i (by omega) hin)⟩
  | succ fuel ih =>
    intro low high hf hle hn hlow hhigh
    unfold sorted_insert_loop
    by_cases hlt : low < high
    · simp only [hlt, if_true]
      have hmid2 : low + (high - low) / 2 < high := by omega
      by_cases hneg : r (low + (high - low) / 2) < 0
      · simp only [hneg, if_true]
        apply ih
        · omega
        · omega
        · omega
        · exact hlow
        · intro i hi hin
          exact (hmono _ i hi hin).2 hneg
      · simp only [hneg, if_false]
        by_cases hpos : r (low + (high - low) / 2) > 0
        · simp only [hpos, if_true]
          apply ih
          · omega
          · omega
          · omega
          · intro i hi
            by_contra hc
            have := (hmono i _ (by omega) (by omega : low + (high - low) / 2 < n)).1 (by omega)
            omega
          · exact hhigh
        · simp only [hpos, if_false]
          refine ⟨by omega, ?_, ?_⟩
          · intro i hi
            by_contra hc
            have := (hmono i _ (by omega) (by omega : low + (high - low) / 2 < n)).2 (by omega)
            omega
          · intro i hi hin
            exact (hmono _ i hi hin).1 (by omega)
    · simp only [hlt, if_false]
      exact ⟨by omega, fun i hi => le_of_lt (hlow i hi),
        fun i hi hin => le_of_lt (hhigh i (by omega) hin)⟩

/-- `array_sorted_insert` keeps the entries and adds the new one. -/
theorem array_sorted_insert_perm {ε β : Type} [Inhabited ε] (deref : ε → β)
    (array : array_t ε β) (entry : ε) :
    (array_sorted_insert deref array entry).entries.Perm (entry :: array.entries) := by
  unfold array_sorted_insert
  dsimp only
  refine List.perm_middle.trans ?_
  rw [List.take_append_drop]

/-- `array_sorted_insert` keeps the comparator. -/
theorem array_sorted_insert_comparator {ε β : Type} [Inhabited ε] (deref : ε → β)
    (array : array_t ε β) (entry : ε) :
    (array_sorted_insert deref array entry).comparator = array.comparator := rfl

/-- `array_sorted_insert` into entries in the order of the comparator
leaves them in that order. -/
theorem array_sorted_insert_sorted {ε β : Type} [Inhabited ε] (deref : ε → β)
    (array : array_t ε β) (entry : ε) (h : cmp_order array.comparator)
    (hs : (array.entries.map deref).Pairwise (fun a b => array.comparator a b ≤ 0)) :
    ((array_sorted_insert deref array entry).entries.map deref).Pairwise
      (fun a b => array.comparator a b ≤ 0) := by
  have hmono := probe_mono_forward deref array array.comparator array.comparator (deref entry)
    hs (filter_mono_self _ h _)
  have hspec := sorted_insert_loop_spec
    (find_index_probe deref array (some array.comparator) (deref entry) false)
    array.entries.length hmono array.entries.length 0 array.entries.length (by omega)
    (by omega) (by omega) (by intro i hi; omega) (by intro i h1 h2; omega)
  have hd : sorted_insert_loop
      (fun mid => array.comparator (deref entry) (deref (array.entries.getD mid default)))
      array.entries.length 0 array.entries.length
      = sorted_insert_loop
        (find_index_probe deref array (some array.comparator) (deref entry) false)
        array.entries.length 0 array.entries.length := rfl
  unfold array_sorted_insert
  dsimp only
  rw [hd]
  generalize sorted_insert_loop
        (find_index_probe deref array (some array.comparator) (deref entry) false)
        array.entries.length 0 array.entries.length = d at hspec
  obtain ⟨h1, h2, h3⟩ := hspec
  have hprobe : ∀ i (hi : i < array.entries.length),
      find_index_probe deref array (some array.comparator) (deref entry) false i
        = array.comparator (deref entry) (deref (array.entries.get ⟨i, hi⟩)) := by
    intro i hi
    simp only [find_index_probe, Option.getD_some, Bool.false_eq_true, if_false]
    rw [List.getD_eq_getElem _ _ hi]; rfl
  rw [← List.take_append_drop d array.entries, List.map_append, List.pairwise_append] at hs
  obtain ⟨hs1, hs2, hs3⟩ := hs
  rw [List.map_append, List.map_cons, List.pairwise_append, List.pairwise_cons]
  refine ⟨hs1, ⟨?_, hs2⟩, ?_⟩
  · intro b hb
    rw [List.mem_map] at hb
    obtain ⟨e, he, rfl⟩ := hb
    obtain ⟨k, hk, rfl⟩ := List.getElem_of_mem he
    rw [List.getElem_drop]
    have hk2 : d + k < array.entries.length := by
      rw [List.length_drop] at hk; omega
    have := h3 (d + k) (by omega) hk2
    rw [hprobe _ hk2] at this
    exact this
  · intro a ha b hb
    rw [List.mem_cons] at hb
    rcases hb with hb | hb
    · subst hb
      rw [List.mem_map] at ha
      obtain ⟨e, he, rfl⟩ := ha
      obtain ⟨k, hk, rfl⟩ := List.getElem_of_mem he
      rw [List.getElem_take]
      have hk2 : k < d := by
        rw [List.length_take] at hk; omega
      have hk3 : k < array.entries.length := by omega
      have := h2 k hk2
      rw [hprobe _ hk3] at this
      exact h.flip _ _ this
    · exact hs3 a ha b hb

/-! ## lib/table.c: queries -/

/-- A query without filter uses the comparator of the index. -/
theorem table_query_first_none {ρ : Type} [Inhabited ρ] (table : table_t ρ) (key : ρ)
    (k : Nat) :
    table_query_first table key k none
      = table_query_first table key k (some (table_index table k).comparator) := rfl

/-- `array_sorted_first` returns `0` or `-ENOENT`; with `0` the entry is one
of the array on which the filter is `0`. -/
theorem array_sorted_first_sound {ε β : Type} [Inhabited ε] (deref : ε → β)
    (array : array_t ε β) (f : β → β → Int) (key : β) :
    ((array_sorted_first deref array (some f) key).1 = 0 ∨
      (array_sorted_first deref array (some f) key).1 = -ENOENT) ∧
    ((array_sorted_first deref array (some f) key).1 = 0 →
      (array_sorted_first deref array (some f) key).2 ∈ array.entries ∧
      f key (deref (array_sorted_first deref array (some f) key).2) = 0) := by
  have h := find_index_sound deref array f key false
  unfold array_sorted_first _array_sorted_find_value
  dsimp only
  by_cases h0 : (_array_sorted_find_index deref array (some f) key false).1 = 0
  · rw [if_neg (by simpa using h0)]
    obtain ⟨hlt, hf⟩ := h.2 h0
    refine ⟨Or.inl rfl, fun _ => ?_⟩
    dsimp only
    rw [List.getD_eq_getElem _ _ hlt]
    exact ⟨List.getElem_mem _, hf⟩
  · rw [if_pos h0]
    rcases h.1 with h1 | h1
    · exact absurd h1 h0
    · exact ⟨Or.inr h1, fun h2 => absurd h2 h0⟩

/-- `array_sorted_first` on entries in the order of `cmp`, with a monotone
filter, succeeds exactly when the filter is `0` on some entry. -/
theorem array_sorted_first_iff {ε β : Type} [Inhabited ε] (deref : ε → β)
    (array : array_t ε β) (cmp : β → β → Int) (f : β → β → Int) (key : β)
    (hs : (array.entries.map deref).Pairwise (fun a b => cmp a b ≤ 0))
    (hf : filter_mono cmp (f key)) :
    (array_sorted_first deref array (some f) key).1 = 0 ↔
      ∃ e ∈ array.entries, f key (deref e) = 0 := by
  have h := (find_index_first deref array cmp f key hs hf).1
  unfold array_sorted_first _array_sorted_find_value
  dsimp only
  by_cases h0 : (_array_sorted_find_index deref array (some f) key false).1 = 0
  · rw [if_neg (by simpa using h0)]
    exact ⟨fun _ => h.mp h0, fun _ => rfl⟩
  · rw [if_pos h0]
    exact ⟨fun h1 => absurd h1 h0, fun h1 => absurd (h.mpr h1) h0⟩

/-- `table_query_first` returns `0` or `-ENOENT`; with `0` the row is one
the index refers to, and the filter is `0` on it. -/
theorem table_query_first_sound {ρ : Type} [Inhabited ρ] (table : table_t ρ) (key : ρ)
    (k : Nat) (f : ρ → ρ → Int) :
    ((table_query_first table key k (some f)).1 = 0 ∨
      (table_query_first table key k (some f)).1 = -ENOENT) ∧
    ((table_query_first table key k (some f)).1 = 0 →
      (table_query_first table key k (some f)).2 ∈ index_rows table.rows (table_index table k) ∧
      f key (table_query_first table key k (some f)).2 = 0) := by
  have h := array_sorted_first_sound (array_dereference table.rows) (table_index table k) f key
  unfold table_query_first
  dsimp only
  by_cases h0 : (array_sorted_first (array_dereference table.rows) (table_index table k)
      (some f) key).1 = 0
  · rw [if_neg (by simpa using h0)]
    refine ⟨Or.inl rfl, fun _ => ?_⟩
    dsimp only
    obtain ⟨h1, h2⟩ := h.2 h0
    exact ⟨List.mem_map_of_mem _ h1, h2⟩
  · rw [if_pos h0]
    rcases h.1 with h1 | h1
    · exact absurd h1 h0
    · exact ⟨Or.inr h1, fun h2 => absurd h2 h0⟩

/-- `table_query_first` through an index whose rows are in the order of
`cmp`, with a monotone filter, succeeds exactly when the filter is `0` on
some row of the index. -/
theorem table_query_first_iff {ρ : Type} [Inhabited ρ] (table : table_t ρ) (key : ρ)
    (k : Nat) (cmp : ρ → ρ → Int) (f : ρ → ρ → Int)
    (hs : (index_rows table.rows (table_index table k)).Pairwise (fun a b => cmp a b ≤ 0))
    (hf : filter_mono cmp (f key)) :
    (table_query_first table key k (some f)).1 = 0 ↔
      ∃ b ∈ index_rows table.rows (table_index table k), f key b = 0 := by
  have h := array_sorted_first_iff (array_dereference table.rows) (table_index table k) cmp f
    key hs hf
  have e : (table_query_first table key k (some f)).1 = 0 ↔
      (array_sorted_first (array_dereference table.rows) (table_index table k)
        (some f) key).1 = 0 := by
    unfold table_query_first
    dsimp only
    by_cases h0 : (array_sorted_first (array_dereference table.rows) (table_index table k)
        (some f) key).1 = 0
    · rw [if_neg (by simpa using h0)]; exact ⟨fun _ => h0, fun _ => rfl⟩
    · rw [if_pos h0]
  rw [e, h]
  unfold index_rows
  constructor
  · rintro ⟨e, he, hfe⟩
    exact ⟨_, List.mem_map_of_mem _ he, hfe⟩
  · rintro ⟨b, hb, hfb⟩
    rw [List.mem_map] at hb
    obtain ⟨e, he, rfl⟩ := hb
    exact ⟨e, he, hfb⟩

/-! ## lib/table.c: well-formed tables -/

theorem array_dereference_append_left {ρ : Type} [Inhabited ρ] (rows : List ρ) (row : ρ)
    (i : Nat) (h : i < rows.length) :
    array_dereference (rows ++ [row]) i = array_dereference rows i := by
  unfold array_dereference
  rw [List.getD_eq_getElem _ _ h, List.getD_eq_getElem _ _ (by simp; omega),
    List.getElem_append_left]

theorem array_dereference_append_right {ρ : Type} [Inhabited ρ] (rows : List ρ) (row : ρ) :
    array_dereference (rows ++ [row]) rows.length = row := by
  unfold array_dereference
  rw [List.getD_eq_getElem _ _ (by simp)]
  simp

theorem array_dereference_set_ne {ρ : Type} [Inhabited ρ] (rows : List ρ) (row : ρ)
    (p i : Nat) (h : i ≠ p) :
    array_dereference (rows.set p row) i = array_dereference rows i := by
  unfold array_dereference
  simp only [List.getD_eq_getElem?_getD]
  rw [List.getElem?_set_ne (Ne.symm h)]

theorem array_dereference_set_eq {ρ : Type} [Inhabited ρ] (rows : List ρ) (row : ρ)
    (p : Nat) (h : p < rows.length) :
    array_dereference (rows.set p row) p = row := by
  unfold array_dereference
  rw [List.getD_eq_getElem _ _ (by simpa using h)]
  simp

theorem table_index_map {ρ : Type} (rows rows1 : List ρ) (indexes : List (array_t Nat ρ))
    (g : array_t Nat ρ → array_t Nat ρ) (k : Nat) (h : k < indexes.length) :
    table_index { rows := rows1, indexes := indexes.map g } k
      = g (table_index { rows := rows, indexes := indexes } k) := by
  unfold table_index
  dsimp only
  rw [List.getD_eq_getElem _ _ (by simpa using h), List.getD_eq_getElem _ _ h]
  simp

theorem table_index_mem {ρ : Type} (table : table_t ρ) (k : Nat) (h : k < table.indexes.length) :
    table_index table k ∈ table.indexes := by
  unfold table_index
  rw [List.getD_eq_getElem _ _ h]
  exact List.getElem_mem _

/-- Equality under an order is transitive. -/
theorem cmp_order.eq_zero_trans {ρ : Type} {cmp : ρ → ρ → Int} (h : cmp_order cmp) (a b c : ρ)
    (h1 : cmp a b = 0) (h2 : cmp b c = 0) : cmp a c = 0 :=
  (h.eq_zero_congr a b c h1).mpr h2

/-- Distinctness under an order carries over to a row store whose rows are
equal under the order to the rows they replace. -/
theorem distinct_of_key_eq {ρ : Type} [Inhabited ρ] (cmp : ρ → ρ → Int) (h : cmp_order cmp)
    (rows rows1 : List ρ) (entries : List Nat)
    (hkey : ∀ i, cmp (array_dereference rows1 i) (array_dereference rows i) = 0)
    (hd : (entries.map (array_dereference rows)).Pairwise (fun a b => cmp a b ≠ 0)) :
    (entries.map (array_dereference rows1)).Pairwise (fun a b => cmp a b ≠ 0) := by
  rw [List.pairwise_map] at hd ⊢
  refine hd.imp ?_
  intro i j hij hc
  apply hij
  have h1 : cmp (array_dereference rows i) (array_dereference rows1 j) = 0 :=
    (h.eq_zero_congr _ _ _ (hkey i)).mp hc
  have h2 := h.symm0 _ _ h1
  have h3 : cmp (array_dereference rows j) (array_dereference rows i) = 0 :=
    (h.eq_zero_congr _ _ _ (hkey j)).mp h2
  exact h.symm0 _ _ h3

/-- A table stays well formed when rows are replaced by rows equal to them
under the primary comparator and every index is sorted again. -/
theorem resort_wf {ρ : Type} [Inhabited ρ] (table : table_t ρ) (rows1 : List ρ)
    (hwf : table_wf table) (hcmp : ∀ ix ∈ table.indexes, cmp_order ix.comparator)
    (hpos : 0 < table.indexes.length) (hlen : rows1.length = table.rows.length)
    (hkey : ∀ i, (table_index table 0).comparator (array_dereference rows1 i)
      (array_dereference table.rows i) = 0) :
    table_wf (table_t.mk rows1
      (table.indexes.map (fun ix => array_sort (array_dereference rows1) ix))) := by
  obtain ⟨hw1, hw2, hw3⟩ := hwf
  have h0 : table_index (table_t.mk rows1
      (table.indexes.map (fun ix => array_sort (array_dereference rows1) ix))) 0
      = array_sort (array_dereference rows1) (table_index table 0) :=
    table_index_map table.rows rows1 table.indexes _ 0 hpos
  have hc0 := hcmp _ (table_index_mem table 0 hpos)
  refine ⟨?_, ?_, ?_⟩
  · intro ix1 hix1
    rw [List.mem_map] at hix1
    obtain ⟨ix, hix, rfl⟩ := hix1
    obtain ⟨ha, hb, _⟩ := hw1 ix hix
    have hp := qsort_perm (array_dereference rows1) ix.comparator ix.entries
    refine ⟨?_, ?_, ?_⟩
    · intro i hi
      have := ha i (hp.mem_iff.mp hi)
      change i < rows1.length
      omega
    · exact hp.nodup_iff.mpr hb
    · exact qsort_sorted (array_dereference rows1) ix.comparator (hcmp ix hix) ix.entries
  · intro ix1 hix1 i
    rw [List.mem_map] at hix1
    obtain ⟨ix, hix, rfl⟩ := hix1
    rw [h0]
    have hp := qsort_perm (array_dereference rows1) ix.comparator ix.entries
    have hp0 := qsort_perm (array_dereference rows1) (table_index table 0).comparator
      (table_index table 0).entries
    exact (hp.mem_iff).trans ((hw2 ix hix i).trans hp0.mem_iff.symm)
  · rw [h0]
    have hp0 := qsort_perm (array_dereference rows1) (table_index table 0).comparator
      (table_index table 0).entries
    have hd := distinct_of_key_eq _ hc0 table.rows rows1 (table_index table 0).entries hkey hw3
    have hsymm : ∀ {x y : ρ}, (table_index table 0).comparator x y ≠ 0 →
        (table_index table 0).comparator y x ≠ 0 :=
      fun hxy hyx => hxy (hc0.symm0 _ _ hyx)
    exact ((hp0.map (array_dereference rows1)).pairwise_iff hsymm).mpr hd

/-- The rows of `table_query_update` after the mutator has been applied:
as many as before, each equal under `cmp` to the row it replaces when the
mutator keeps rows equal under `cmp`. -/
theorem update_fold_key {ρ : Type} [Inhabited ρ] (cmp : ρ → ρ → Int) (h : cmp_order cmp)
    (m : ρ → ρ) (hm : ∀ a, cmp (m a) a = 0) :
    ∀ (ids : List Nat) (rows : List ρ),
      (ids.foldl (fun rows row_id => rows.set row_id (m (array_dereference rows row_id)))
        rows).length = rows.length ∧
      ∀ i, cmp (array_dereference (ids.foldl
        (fun rows row_id => rows.set row_id (m (array_dereference rows row_id))) rows) i)
        (array_dereference rows i) = 0 := by
  intro ids
  induction ids with
  | nil => intro rows; exact ⟨rfl, fun i => h.refl _⟩
  | cons p rest ih =>
    intro rows
    simp only [List.foldl_cons]
    obtain ⟨h1, h2⟩ := ih (rows.set p (m (array_dereference rows p)))
    refine ⟨by rw [h1]; simp, fun i => ?_⟩
    refine h.eq_zero_trans _ _ _ (h2 i) ?_
    by_cases hi : i = p
    · subst hi
      by_cases hlt : i < rows.length
      · rw [array_dereference_set_eq _ _ _ hlt]; exact hm _
      · rw [List.set_eq_of_length_le (by omega)]; exact h.refl _
    · rw [array_dereference_set_ne _ _ _ _ hi]; exact h.refl _

/-- `table_query_update` keeps a table well formed when the mutator keeps
rows equal under the primary comparator. -/
theorem table_query_update_wf {ρ : Type} [Inhabited ρ] (table : table_t ρ) (key : ρ) (k : Nat)
    (f : Option (ρ → ρ → Int)) (m : ρ → ρ)
    (hwf : table_wf table) (hcmp : ∀ ix ∈ table.indexes, cmp_order ix.comparator)
    (hpos : 0 < table.indexes.length)
    (hm : ∀ a, (table_index table 0).comparator (m a) a = 0) :
    table_wf (table_query_update table key k f m).2 := by
  unfold table_query_update
  dsimp only
  split
  · exact hwf
  · have hc0 := hcmp _ (table_index_mem table 0 hpos)
    obtain ⟨h1, h2⟩ := update_fold_key _ hc0 m hm (table_query_ids table key k f).2 table.rows
    exact resort_wf table _ hwf hcmp hpos h1 h2

/-- `table_query_update` keeps the comparators of the indexes. -/
theorem table_query_update_comparators {ρ : Type} [Inhabited ρ] (table : table_t ρ) (key : ρ)
    (k : Nat) (f : Option (ρ → ρ → Int)) (m : ρ → ρ) :
    (table_query_update table key k f m).2.indexes.map (fun ix => ix.comparator)
      = table.indexes.map (fun ix => ix.comparator) := by
  unfold table_query_update
  dsimp only
  split
  · rfl
  · simp only [List.map_map]
    apply List.map_congr_left
    intro ix _
    rfl

/-- `_table_insert` keeps the comparators of the indexes. -/
theorem table_insert_comparators {ρ : Type} [Inhabited ρ] (table : table_t ρ) (row : ρ)
    (replace : Bool) :
    (_table_insert table row replace).2.indexes.map (fun ix => ix.comparator)
      = table.indexes.map (fun ix => ix.comparator) := by
  unfold _table_insert
  dsimp only
  split
  · simp only [List.map_map]
    apply List.map_congr_left
    intro ix _
    rfl
  · split
    · rfl
    · split
      · rfl
      · simp only [List.map_map]
        apply List.map_congr_left
        intro ix _
        rfl

/-- The search of `_table_insert` through the primary index of a well-formed
table fails exactly when no row of the table is equal to the new one under
the primary comparator. -/
theorem table_insert_search {ρ : Type} [Inhabited ρ] (table : table_t ρ) (row : ρ)
    (hwf : table_wf table) (hcmp : ∀ ix ∈ table.indexes, cmp_order ix.comparator)
    (hpos : 0 < table.indexes.length) :
    ((array_sorted_first (array_dereference table.rows) (table_index table 0)
        (some (table_index table 0).comparator) row).1 = -ENOENT ↔
      ∀ b ∈ index_rows table.rows (table_index table 0),
        (table_index table 0).comparator row b ≠ 0) := by
  have hm0 := table_index_mem table 0 hpos
  have hiff := array_sorted_first_iff (array_dereference table.rows) (table_index table 0)
    (table_index table 0).comparator (table_index table 0).comparator row
    (hwf.1 _ hm0).2.2 (filter_mono_self _ (hcmp _ hm0) row)
  have hs := (array_sorted_first_sound (array_dereference table.rows) (table_index table 0)
    (table_index table 0).comparator row).1
  constructor
  · intro h b hb hc
    rw [index_rows, List.mem_map] at hb
    obtain ⟨e, he, rfl⟩ := hb
    have := hiff.mpr ⟨e, he, hc⟩
    rw [this] at h
    simp at h
  · intro h
    rcases hs with h0 | h0
    · obtain ⟨e, he, hc⟩ := hiff.mp h0
      exact absurd hc (h _ (List.mem_map_of_mem _ he))
    · exact h0

/-- `table_insert_or_replace` returns `0`. -/
theorem table_insert_or_replace_rc {ρ : Type} [Inhabited ρ] (table : table_t ρ) (row : ρ) :
    (table_insert_or_replace table row).1 = 0 := by
  have hs := (array_sorted_first_sound (array_dereference table.rows) (table_index table 0)
    (table_index table 0).comparator row).1
  unfold table_insert_or_replace _table_insert
  dsimp only
  split
  · rfl
  · rename_i h1
    split
    · rename_i h2
      rcases hs with h | h
      · exact absurd h h2
      · exact absurd h h1
    · simp

/-- The new branch of `_table_insert` keeps a table well formed. -/
theorem table_insert_new_wf {ρ : Type} [Inhabited ρ] (table : table_t ρ) (row : ρ)
    (hwf : table_wf table) (hcmp : ∀ ix ∈ table.indexes, cmp_order ix.comparator)
    (hpos : 0 < table.indexes.length)
    (hnew : ∀ b ∈ index_rows table.rows (table_index table 0),
      (table_index table 0).comparator row b ≠ 0) :
    table_wf (table_t.mk (table.rows ++ [row])
      (table.indexes.map (fun ix =>
        array_sorted_insert (array_dereference (table.rows ++ [row])) ix table.rows.length))) := by
  obtain ⟨hw1, hw2, hw3⟩ := hwf
  have h0 : table_index (table_t.mk (table.rows ++ [row])
      (table.indexes.map (fun ix =>
        array_sorted_insert (array_dereference (table.rows ++ [row])) ix table.rows.length))) 0
      = array_sorted_insert (array_dereference (table.rows ++ [row])) (table_index table 0)
          table.rows.length :=
    table_index_map table.rows _ table.indexes _ 0 hpos
  have hm0 := table_index_mem table 0 hpos
  have hc0 := hcmp _ hm0
  have hmapeq : ∀ ix ∈ table.indexes,
      ix.entries.map (array_dereference (table.rows ++ [row]))
        = ix.entries.map (array_dereference table.rows) := by
    intro ix hix
    apply List.map_congr_left
    intro i hi
    exact array_dereference_append_left _ _ _ ((hw1 ix hix).1 i hi)
  refine ⟨?_, ?_, ?_⟩
  · intro ix1 hix1
    rw [List.mem_map] at hix1
    obtain ⟨ix, hix, rfl⟩ := hix1
    obtain ⟨ha, hb, hc⟩ := hw1 ix hix
    have hp := array_sorted_insert_perm (array_dereference (table.rows ++ [row])) ix
      table.rows.length
    refine ⟨?_, ?_, ?_⟩
    · intro i hi
      have := hp.mem_iff.mp hi
      rw [List.mem_cons] at this
      change i < (table.rows ++ [row]).length
      rw [List.length_append]
      rcases this with h | h
      · subst h; simp
      · have := ha i h; simp; omega
    · refine hp.nodup_iff.mpr (List.nodup_cons.mpr ⟨?_, hb⟩)
      intro hmem
      have := ha _ hmem
      omega
    · refine array_sorted_insert_sorted (array_dereference (table.rows ++ [row])) ix
        table.rows.length (hcmp ix hix) ?_
      rw [hmapeq ix hix]
      exact hc
  · intro ix1 hix1 i
    rw [List.mem_map] at hix1
    obtain ⟨ix, hix, rfl⟩ := hix1
    rw [h0]
    have hp := array_sorted_insert_perm (array_dereference (table.rows ++ [row])) ix
      table.rows.length
    have hp0 := array_sorted_insert_perm (array_dereference (table.rows ++ [row]))
      (table_index table 0) table.rows.length
    rw [hp.mem_iff, hp0.mem_iff, List.mem_cons, List.mem_cons, hw2 ix hix i]
  · rw [h0]
    have hp0 := array_sorted_insert_perm (array_dereference (table.rows ++ [row]))
      (table_index table 0) table.rows.length
    have hsymm : ∀ {x y : ρ}, (table_index table 0).comparator x y ≠ 0 →
        (table_index table 0).comparator y x ≠ 0 :=
      fun hxy hyx => hxy (hc0.symm0 _ _ hyx)
    refine ((hp0.map (array_dereference (table.rows ++ [row]))).pairwise_iff hsymm).mpr ?_
    rw [List.map_cons, array_dereference_append_right, hmapeq _ hm0, List.pairwise_cons]
    exact ⟨hnew, hw3⟩

/-- `_table_insert` keeps a table well formed. -/
theorem table_insert_wf {ρ : Type} [Inhabited ρ] (table : table_t ρ) (row : ρ) (replace : Bool)
    (hwf : table_wf table) (hcmp : ∀ ix ∈ table.indexes, cmp_order ix.comparator)
    (hpos : 0 < table.indexes.length) :
    table_wf (_table_insert table row replace).2 := by
  have hsearch := table_insert_search table row hwf hcmp hpos
  have hs := (array_sorted_first_sound (array_dereference table.rows) (table_index table 0)
    (table_index table 0).comparator row)
  have hc0 := hcmp _ (table_index_mem table 0 hpos)
  unfold _table_insert
  dsimp only
  split
  · rename_i h1
    exact table_insert_new_wf table row hwf hcmp hpos (hsearch.mp h1)
  · split
    · exact hwf
    · rename_i h1 h2
      split
      · exact hwf
      · have h3 : (array_sorted_first (array_dereference table.rows) (table_index table 0)
            (some (table_index table 0).comparator) row).1 = 0 := by simpa using h2
        refine resort_wf table _ hwf hcmp hpos (by simp) ?_
        intro i
        by_cases hi : i = (array_sorted_first (array_dereference table.rows)
            (table_index table 0) (some (table_index table 0).comparator) row).2
        · by_cases hlt : i < table.rows.length
          · rw [← hi, array_dereference_set_eq _ _ _ hlt, hi]
            exact (hs.2 h3).2
          · rw [List.set_eq_of_length_le (by omega)]; exact hc0.refl _
        · rw [array_dereference_set_ne _ _ _ _ hi]; exact hc0.refl _

/-- The rows a well-formed table refers to after `table_insert_or_replace`,
through any of its indexes: the new row, and the old rows not equal to it
under the primary comparator. -/
theorem table_insert_or_replace_mem {ρ : Type} [Inhabited ρ] (table : table_t ρ) (row : ρ)
    (hwf : table_wf table) (hcmp : ∀ ix ∈ table.indexes, cmp_order ix.comparator)
    (k : Nat) (hk : k < table.indexes.length) (b : ρ) :
    b ∈ index_rows (table_insert_or_replace table row).2.rows
        (table_index (table_insert_or_replace table row).2 k) ↔
      (b = row ∨ (b ∈ index_rows table.rows (table_index table k) ∧
        (table_index table 0).comparator row b ≠ 0)) := by
  have hpos : 0 < table.indexes.length := by omega
  have hsearch := table_insert_search table row hwf hcmp hpos
  have hs := (array_sorted_first_sound (array_dereference table.rows) (table_index table 0)
    (table_index table 0).comparator row)
  have hm0 := table_index_mem table 0 hpos
  have hmk := table_index_mem table k hk
  have hc0 := hcmp _ hm0
  obtain ⟨hw1, hw2, hw3⟩ := hwf
  unfold table_insert_or_replace _table_insert
  dsimp only
  split
  · rename_i h1
    have hnew := hsearch.mp h1
    rw [table_index_map table.rows _ table.indexes _ k hk]
    have hp := array_sorted_insert_perm (array_dereference (table.rows ++ [row]))
      (table_index table k) table.rows.length
    unfold index_rows
    rw [(hp.map _).mem_iff, List.map_cons, array_dereference_append_right, List.mem_cons]
    have hmapeq : (table_index table k).entries.map (array_dereference (table.rows ++ [row]))
        = (table_index table k).entries.map (array_dereference table.rows) := by
      apply List.map_congr_left
      intro i hi
      exact array_dereference_append_left _ _ _ ((hw1 _ hmk).1 i hi)
    rw [hmapeq]
    constructor
    · rintro (h | h)
      · exact Or.inl h
      · refine Or.inr ⟨h, ?_⟩
        apply hnew
        rw [List.mem_map] at h
        obtain ⟨i, hi, rfl⟩ := h
        exact List.mem_map_of_mem _ ((hw2 _ hmk i).mp hi)
    · rintro (h | h)
      · exact Or.inl h
      · exact Or.inr h.1
  · rename_i h1
    split
    · rename_i h2
      rcases hs.1 with h | h
      · exact absurd h h2
      · exact absurd h h1
    · rename_i h2
      have h3 : (array_sorted_first (array_dereference table.rows) (table_index table 0)
          (some (table_index table 0).comparator) row).1 = 0 := by simpa using h2
      simp only [Bool.not_true, Bool.false_eq_true, if_false]
      obtain ⟨hp1, hp2⟩ := hs.2 h3
      generalize (array_sorted_first (array_dereference table.rows) (table_index table 0)
          (some (table_index table 0).comparator) row).2 = p at hp1 hp2
      have hplt : p < table.rows.length := (hw1 _ hm0).1 p hp1
      rw [if_neg (by simp)]
      dsimp only
      rw [table_index_map table.rows _ table.indexes _ k hk]
      have hp := qsort_perm (array_dereference (table.rows.set p row))
        (table_index table k).comparator (table_index table k).entries
      unfold index_rows
      change b ∈ List.map (array_dereference (table.rows.set p row))
        (qsort (array_dereference (table.rows.set p row)) (table_index table k).comparator
          (table_index table k).entries) ↔ _
      rw [(hp.map _).mem_iff, List.mem_map]
      have hdist : ∀ i ∈ (table_index table 0).entries, i ≠ p →
          (table_index table 0).comparator row (array_dereference table.rows i) ≠ 0 := by
        intro i hi hne hc
        have h4 : (table_index table 0).comparator (array_dereference table.rows p)
            (array_dereference table.rows i) = 0 :=
          (hc0.eq_zero_congr _ _ _ hp2).mp hc
        have hw3' := hw3
        unfold index_rows at hw3'
        rw [List.pairwise_map] at hw3'
        have hnd := (hw1 _ hm0).2.1
        have := (hw3'.and hnd).forall (R := fun a b =>
          (table_index table 0).comparator (array_dereference table.rows a)
            (array_dereference table.rows b) ≠ 0 ∧ a ≠ b)
          (fun a b hab => ⟨fun hh => hab.1 (hc0.symm0 _ _ hh), fun hh => hab.2 hh.symm⟩)
          hp1 hi (Ne.symm hne)
        exact this.1 h4
      constructor
      · rintro ⟨i, hi, rfl⟩
        by_cases hip : i = p
        · subst hip
          exact Or.inl (array_dereference_set_eq _ _ _ hplt)
        · rw [array_dereference_set_ne _ _ _ _ hip]
          exact Or.inr ⟨List.mem_map_of_mem _ hi, hdist i ((hw2 _ hmk i).mp hi) hip⟩
      · rintro (h | ⟨h, hne⟩)
        · subst h
          exact ⟨p, (hw2 _ hmk p).mpr hp1, array_dereference_set_eq _ _ _ hplt⟩
        · rw [List.mem_map] at h
          obtain ⟨i, hi, rfl⟩ := h
          have hip : i ≠ p := by
            intro hip
            subst hip
            exact hne hp2
          exact ⟨i, hi, array_dereference_set_ne _ _ _ _ hip⟩

/-! ## The blocks table of an engine -/

/-- A table with two indexes: what its comparators are. -/
theorem table_two_indexes {ρ : Type} (table : table_t ρ) (c0 c1 : ρ → ρ → Int)
    (h : table.indexes.map (fun ix => ix.comparator) = [c0, c1]) :
    table.indexes.length = 2 ∧ (table_index table 0).comparator = c0 ∧
    (table_index table 1).comparator = c1 ∧
    ∀ ix ∈ table.indexes, ix.comparator = c0 ∨ ix.comparator = c1 := by
  unfold table_index
  match hidx : table.indexes, h with
  | [], h => simp at h
  | [_], h => simp at h
  | [a, b], h =>
    simp only [List.map_cons, List.map_nil, List.cons.injEq, and_true] at h
    refine ⟨rfl, h.1, h.2, ?_⟩
    intro ix hix
    simp only [List.mem_cons, List.mem_singleton, List.not_mem_nil, or_false] at hix
    rcases hix with rfl | rfl
    · exact Or.inl h.1
    · exact Or.inr h.2
  | _ :: _ :: _ :: _, h => simp at h

/-- The comparators of a well-formed blocks table. -/
theorem blocks_wf_indexes (ofs : oncefs_t) (h : blocks_wf ofs) :
    ofs.blocks.indexes.length = 2 ∧
    (table_index ofs.blocks 0).comparator = _oncefs_block_cmp_primary ∧
    (table_index ofs.blocks 1).comparator = _oncefs_block_cmp_lookup ∧
    ∀ ix ∈ ofs.blocks.indexes, cmp_order ix.comparator := by
  obtain ⟨h1, h2, h3, h4⟩ := table_two_indexes ofs.blocks _ _ h.1
  refine ⟨h1, h2, h3, ?_⟩
  intro ix hix
  rcases h4 ix hix with e | e
  · rw [e]; exact block_cmp_primary_order
  · rw [e]; exact block_cmp_lookup_order

/-- The live blocks are the rows of the lookup index. -/
theorem live_blocks_eq (ofs : oncefs_t) :
    live_blocks ofs = index_rows ofs.blocks.rows (table_index ofs.blocks 1) := rfl

/-- The live blocks of a well-formed blocks table are in the order of
`_oncefs_block_cmp_lookup`. -/
theorem live_blocks_sorted (ofs : oncefs_t) (h : blocks_wf ofs) :
    (live_blocks ofs).Pairwise (fun a b => _oncefs_block_cmp_lookup a b ≤ 0) := by
  obtain ⟨h1, _, h3, _⟩ := blocks_wf_indexes ofs h
  have := (h.2.1 _ (table_index_mem ofs.blocks 1 (by omega))).2.2
  rw [h3] at this
  exact this

/-- The rows of the two indexes of a well-formed table are the same up to
order. -/
theorem index_rows_perm {ρ : Type} [Inhabited ρ] (table : table_t ρ) (hwf : table_wf table)
    (k : Nat) (hk : k < table.indexes.length) :
    (index_rows table.rows (table_index table k)).Perm
      (index_rows table.rows (table_index table 0)) := by
  have hpos : 0 < table.indexes.length := by omega
  have hmk := table_index_mem table k hk
  have hm0 := table_index_mem table 0 hpos
  unfold index_rows
  apply List.Perm.map
  exact (List.perm_ext_iff_of_nodup (hwf.1 _ hmk).2.1 (hwf.1 _ hm0).2.1).mpr (hwf.2.1 _ hmk)

/-- No two live blocks of a well-formed blocks table have the same block
id. -/
theorem live_blocks_unique (ofs : oncefs_t) (h : blocks_wf ofs) :
    (live_blocks ofs).Pairwise (fun a b => a.block ≠ b.block) := by
  obtain ⟨h1, h2, _, _⟩ := blocks_wf_indexes ofs h
  have hp := index_rows_perm ofs.blocks h.2 1 (by omega)
  have h3 := h.2.2.2
  rw [h2] at h3
  have h4 : (index_rows ofs.blocks.rows (table_index ofs.blocks 0)).Pairwise
      (fun a b => a.block ≠ b.block) := by
    refine h3.imp ?_
    intro a b hab hc
    apply hab
    simp [_oncefs_block_cmp_primary, hc]
  rw [live_blocks_eq]
  exact (hp.pairwise_iff (fun hxy hyx => hxy hyx.symm)).mpr h4

theorem filter_operation_eq_zero (k o : oncefs_block_t) :
    _filter_operation k o = 0 ↔ o.tag.operation = k.tag.operation := by
  unfold _filter_operation
  constructor
  · intro hh; split_ifs at hh <;> omega
  · intro hh; split_ifs <;> omega

theorem fuzzy_eq_zero (k o : oncefs_block_t) :
    _oncefs_block_cmp_lookup_fuzzy k o = 0 ↔
      (o.tag.operation = k.tag.operation ∧ o.data.node = k.data.node) := by
  unfold _oncefs_block_cmp_lookup_fuzzy
  constructor
  · intro hh; split_ifs at hh <;> omega
  · intro hh; split_ifs <;> omega

theorem block_primary_eq_zero (k o : oncefs_block_t) :
    _oncefs_block_cmp_primary k o = 0 ↔ o.block = k.block := by
  unfold _oncefs_block_cmp_primary
  constructor
  · intro hh; split_ifs at hh <;> omega
  · intro hh; split_ifs <;> omega

/-- The query by operation through the lookup index of a well-formed blocks
table succeeds exactly when a live block has the operation, and then
returns such a block. -/
theorem query_operation_spec (ofs : oncefs_t) (h : blocks_wf ofs) (key : oncefs_block_t) :
    ((table_query_first ofs.blocks key TABLE_INDEX_LOOKUP (some _filter_operation)).1 = 0 ↔
      ∃ b ∈ live_blocks ofs, b.tag.operation = key.tag.operation) ∧
    ((table_query_first ofs.blocks key TABLE_INDEX_LOOKUP (some _filter_operation)).1 = 0 →
      (table_query_first ofs.blocks key TABLE_INDEX_LOOKUP (some _filter_operation)).2
          ∈ live_blocks ofs ∧
      (table_query_first ofs.blocks key TABLE_INDEX_LOOKUP
        (some _filter_operation)).2.tag.operation = key.tag.operation) := by
  have hiff := table_query_first_iff ofs.blocks key 1 _oncefs_block_cmp_lookup _filter_operation
    (live_blocks_sorted ofs h) (filter_mono_operation key)
  have hs := (table_query_first_sound ofs.blocks key 1 _filter_operation).2
  constructor
  · rw [show TABLE_INDEX_LOOKUP = 1 from rfl, hiff]
    constructor
    · rintro ⟨b, hb, hf⟩
      exact ⟨b, hb, (filter_operation_eq_zero key b).mp hf⟩
    · rintro ⟨b, hb, hf⟩
      exact ⟨b, hb, (filter_operation_eq_zero key b).mpr hf⟩
  · intro h0
    obtain ⟨h1, h2⟩ := hs h0
    exact ⟨h1, (filter_operation_eq_zero key _).mp h2⟩

/-- The query by `(operation, node)` through the lookup index of a
well-formed blocks table succeeds exactly when a live block has that
operation and node, and then returns such a block. -/
theorem query_fuzzy_spec (ofs : oncefs_t) (h : blocks_wf ofs) (key : oncefs_block_t) :
    ((table_query_first ofs.blocks key TABLE_INDEX_LOOKUP
        (some _oncefs_block_cmp_lookup_fuzzy)).1 = 0 ↔
      ∃ b ∈ live_blocks ofs, b.tag.operation = key.tag.operation ∧
        b.data.node = key.data.node) ∧
    ((table_query_first ofs.blocks key TABLE_INDEX_LOOKUP
        (some _oncefs_block_cmp_lookup_fuzzy)).1 = 0 →
      (table_query_first ofs.blocks key TABLE_INDEX_LOOKUP
          (some _oncefs_block_cmp_lookup_fuzzy)).2 ∈ live_blocks ofs ∧
      (table_query_first ofs.blocks key TABLE_INDEX_LOOKUP
        (some _oncefs_block_cmp_lookup_fuzzy)).2.tag.operation = key.tag.operation ∧
      (table_query_first ofs.blocks key TABLE_INDEX_LOOKUP
        (some _oncefs_block_cmp_lookup_fuzzy)).2.data.node = key.data.node) := by
  have hiff := table_query_first_iff ofs.blocks key 1 _oncefs_block_cmp_lookup
    _oncefs_block_cmp_lookup_fuzzy (live_blocks_sorted ofs h) (filter_mono_fuzzy key)
  have hs := (table_query_first_sound ofs.blocks key 1 _oncefs_block_cmp_lookup_fuzzy).2
  constructor
  · rw [show TABLE_INDEX_LOOKUP = 1 from rfl, hiff]
    constructor
    · rintro ⟨b, hb, hf⟩
      exact ⟨b, hb, (fuzzy_eq_zero key b).mp hf⟩
    · rintro ⟨b, hb, hf⟩
      exact ⟨b, hb, (fuzzy_eq_zero key b).mpr hf⟩
  · intro h0
    obtain ⟨h1, h2⟩ := hs h0
    exact ⟨h1, (fuzzy_eq_zero key _).mp h2⟩

/-- `_oncefs_block_reuse` on a well-formed blocks table: a FREE block when
there is one; else a DELETE block when there is one; else, for `node >= 1`,
a NODE block of the node when there is one; else NO_SPACE. -/
theorem block_reuse_spec (ofs : oncefs_t) (h : blocks_wf ofs) (node : Nat) :
    ((∃ b ∈ live_blocks ofs, b.tag.operation = BLOCK_OPERATION_FREE) →
      (_oncefs_block_reuse ofs node).1 = 0 ∧
      ∃ b ∈ live_blocks ofs, b.tag.operation = BLOCK_OPERATION_FREE ∧
        (_oncefs_block_reuse ofs node).2 = b.block) ∧
    ((¬ ∃ b ∈ live_blocks ofs, b.tag.operation = BLOCK_OPERATION_FREE) →
      (∃ b ∈ live_blocks ofs, b.tag.operation = BLOCK_OPERATION_DELETE) →
      (_oncefs_block_reuse ofs node).1 = 0 ∧
      ∃ b ∈ live_blocks ofs, b.tag.operation = BLOCK_OPERATION_DELETE ∧
        (_oncefs_block_reuse ofs node).2 = b.block) ∧
    ((¬ ∃ b ∈ live_blocks ofs, b.tag.operation = BLOCK_OPERATION_FREE) →
      (¬ ∃ b ∈ live_blocks ofs, b.tag.operation = BLOCK_OPERATION_DELETE) →
      1 ≤ node →
      (∃ b ∈ live_blocks ofs, b.tag.operation = BLOCK_OPERATION_NODE ∧ b.data.node = node) →
      (_oncefs_block_reuse ofs node).1 = 0 ∧
      ∃ b ∈ live_blocks ofs, b.tag.operation = BLOCK_OPERATION_NODE ∧ b.data.node = node ∧
        (_oncefs_block_reuse ofs node).2 = b.block) ∧
    ((¬ ∃ b ∈ live_blocks ofs, b.tag.operation = BLOCK_OPERATION_FREE) →
      (¬ ∃ b ∈ live_blocks ofs, b.tag.operation = BLOCK_OPERATION_DELETE) →
      (node < 1 ∨ ¬ ∃ b ∈ live_blocks ofs,
        b.tag.operation = BLOCK_OPERATION_NODE ∧ b.data.node = node) →
      (_oncefs_block_reuse ofs node).1 = -ENOSPC) := by
  have hf := query_operation_spec ofs h
    { block := 0, tag := { seq := 0, operation := BLOCK_OPERATION_FREE }, data := default }
  have hd := query_operation_spec ofs h
    { block := 0, tag := { seq := 0, operation := BLOCK_OPERATION_DELETE }, data := default }
  have hn := query_fuzzy_spec ofs h
    { block := 0, tag := { seq := 0, operation := BLOCK_OPERATION_NODE },
      data := { node := node, fill := 0, offset := 0 } }
  dsimp only at hf hd hn
  unfold _oncefs_block_reuse
  dsimp only
  refine ⟨?_, ?_, ?_, ?_⟩
  · intro hex
    have h0 := hf.1.mpr hex
    rw [if_pos h0]
    obtain ⟨h1, h2⟩ := hf.2 h0
    exact ⟨rfl, _, h1, h2, rfl⟩
  · intro hnf hex
    have h0 : ¬ _ := fun hh => hnf (hf.1.mp hh)
    rw [if_neg h0]
    have h1 := hd.1.mpr hex
    rw [if_pos h1]
    obtain ⟨h2, h3⟩ := hd.2 h1
    exact ⟨rfl, _, h2, h3, rfl⟩
  · intro hnf hnd hnode hex
    have h0 : ¬ _ := fun hh => hnf (hf.1.mp hh)
    have h1 : ¬ _ := fun hh => hnd (hd.1.mp hh)
    rw [if_neg h0, if_neg h1, if_neg (by omega)]
    have h2 := hn.1.mpr hex
    rw [if_pos h2]
    obtain ⟨h3, h4, h5⟩ := hn.2 h2
    exact ⟨rfl, _, h3, h4, h5, rfl⟩
  · intro hnf hnd hno
    have h0 : ¬ _ := fun hh => hnf (hf.1.mp hh)
    have h1 : ¬ _ := fun hh => hnd (hd.1.mp hh)
    rw [if_neg h0, if_neg h1]
    rcases hno with hlt | hno
    · rw [if_pos hlt]
    · by_cases hlt : node < 1
      · rw [if_pos hlt]
      · rw [if_neg hlt]
        have h2 : ¬ _ := fun hh => hno (hn.1.mp hh)
        rw [if_neg h2]

/-! ## The invariant of the engine state -/

/-- Compacting the same positions out of every index keeps a table well
formed. -/
theorem filter_indexes_wf {ρ : Type} [Inhabited ρ] (table : table_t ρ) (p : Nat → Bool)
    (hwf : table_wf table) :
    table_wf (table_t.mk table.rows
      (table.indexes.map (fun ix => array_t.mk (ix.entries.filter p) ix.comparator))) := by
  obtain ⟨hw1, hw2, hw3⟩ := hwf
  have h0 : table_index (table_t.mk table.rows
      (table.indexes.map (fun ix => array_t.mk (ix.entries.filter p) ix.comparator))) 0
      = array_t.mk ((table_index table 0).entries.filter p) (table_index table 0).comparator := by
    by_cases hpos : 0 < table.indexes.length
    · exact table_index_map table.rows _ table.indexes _ 0 hpos
    · have hnil : table.indexes = [] := by
        cases hl : table.indexes with
        | nil => rfl
        | cons a l => rw [hl] at hpos; simp at hpos
      unfold table_index
      rw [hnil]
      rfl
  refine ⟨?_, ?_, ?_⟩
  · intro ix1 hix1
    rw [List.mem_map] at hix1
    obtain ⟨ix, hix, rfl⟩ := hix1
    obtain ⟨ha, hb, hc⟩ := hw1 ix hix
    refine ⟨?_, ?_, ?_⟩
    · intro i hi
      exact ha i (List.mem_filter.mp hi).1
    · exact hb.filter _
    · exact hc.sublist ((List.filter_sublist _).map _)
  · intro ix1 hix1 i
    rw [List.mem_map] at hix1
    obtain ⟨ix, hix, rfl⟩ := hix1
    rw [h0]
    simp only [List.mem_filter]
    rw [hw2 ix hix i]
  · rw [h0]
    exact hw3.sublist ((List.filter_sublist _).map _)

/-- `table_query_delete` keeps a table well formed. -/
theorem table_query_delete_wf {ρ : Type} [Inhabited ρ] (table : table_t ρ) (key : ρ) (k : Nat)
    (f : Option (ρ → ρ → Int)) (hwf : table_wf table) :
    table_wf (table_query_delete table key k f).2 := by
  unfold table_query_delete
  dsimp only
  split
  · exact hwf
  · exact filter_indexes_wf table _ hwf

/-- `table_query_delete` keeps the comparators of the indexes. -/
theorem table_query_delete_comparators {ρ : Type} [Inhabited ρ] (table : table_t ρ) (key : ρ)
    (k : Nat) (f : Option (ρ → ρ → Int)) :
    (table_query_delete table key k f).2.indexes.map (fun ix => ix.comparator)
      = table.indexes.map (fun ix => ix.comparator) := by
  unfold table_query_delete
  dsimp only
  split
  · rfl
  · simp only [List.map_map]
    apply List.map_congr_left
    intro ix _
    rfl

/-- The comparators of a well-formed nodes table. -/
theorem nodes_wf_indexes (ofs : oncefs_t) (h : nodes_wf ofs) :
    ofs.nodes.indexes.length = 2 ∧
    (table_index ofs.nodes 0).comparator = _oncefs_node_cmp_primary ∧
    (table_index ofs.nodes 1).comparator = _oncefs_node_cmp_lookup ∧
    ∀ ix ∈ ofs.nodes.indexes, cmp_order ix.comparator := by
  obtain ⟨h1, h2, h3, h4⟩ := table_two_indexes ofs.nodes _ _ h.1
  refine ⟨h1, h2, h3, ?_⟩
  intro ix hix
  rcases h4 ix hix with e | e
  · rw [e]; exact node_cmp_primary_order
  · rw [e]; exact node_cmp_lookup_order

/-- The live blocks of a well-formed blocks table are rows of its row
store. -/
theorem live_blocks_subset (ofs : oncefs_t) (h : blocks_wf ofs) :
    ∀ b ∈ live_blocks ofs, b ∈ ofs.blocks.rows := by
  intro b hb
  obtain ⟨h1, _, _, _⟩ := blocks_wf_indexes ofs h
  have hin := (h.2.1 _ (table_index_mem ofs.blocks 1 (by omega))).1
  rw [live_blocks_eq, index_rows, List.mem_map] at hb
  obtain ⟨i, hi, rfl⟩ := hb
  unfold array_dereference
  rw [List.getD_eq_getElem _ _ (hin i hi)]
  exact List.getElem_mem _

/-- The block `_oncefs_block_reuse` picks is a live block. -/
theorem block_reuse_sound (ofs : oncefs_t) (node : Nat)
    (h : (_oncefs_block_reuse ofs node).1 = 0) :
    ∃ b ∈ live_blocks ofs, (_oncefs_block_reuse ofs node).2 = b.block := by
  unfold _oncefs_block_reuse at h ⊢
  dsimp only at h ⊢
  split
  · rename_i h1
    exact ⟨_, ((table_query_first_sound _ _ _ _).2 h1).1, rfl⟩
  · split
    · rename_i h1
      exact ⟨_, ((table_query_first_sound _ _ _ _).2 h1).1, rfl⟩
    · split
      · rename_i h1 h2 h3
        rw [if_neg h1, if_neg h2, if_pos h3] at h
        simp at h
      · split
        · rename_i h1
          exact ⟨_, ((table_query_first_sound _ _ _ _).2 h1).1, rfl⟩
        · rename_i h1 h2 h3 h4
          rw [if_neg h1, if_neg h2, if_neg h3, if_neg h4] at h
          simp at h

theorem mutator_free_primary (a : oncefs_block_t) :
    _oncefs_block_cmp_primary (_mutator_free a) a = 0 := by
  simp [_oncefs_block_cmp_primary, _mutator_free]

theorem mutator_truncate_primary (new_size : Nat) (a : oncefs_block_t) :
    _oncefs_block_cmp_primary (_mutator_truncate new_size a) a = 0 := by
  unfold _mutator_truncate
  split <;> simp [_oncefs_block_cmp_primary]

/-- `table_insert_or_replace` into the blocks table keeps it well formed. -/
theorem blocks_wf_insert (ofs ofs1 : oncefs_t) (row : oncefs_block_t) (h : blocks_wf ofs)
    (hb : ofs1.blocks = (table_insert_or_replace ofs.blocks row).2) : blocks_wf ofs1 := by
  obtain ⟨h1, _, _, h4⟩ := blocks_wf_indexes ofs h
  unfold blocks_wf
  rw [hb]
  exact ⟨(table_insert_comparators _ _ _).trans h.1,
    table_insert_wf _ _ _ h.2 h4 (by omega)⟩

/-- `table_insert_or_replace` into the nodes table keeps it well formed. -/
theorem nodes_wf_insert (ofs ofs1 : oncefs_t) (row : oncefs_node_t) (h : nodes_wf ofs)
    (hb : ofs1.nodes = (table_insert_or_replace ofs.nodes row).2) : nodes_wf ofs1 := by
  obtain ⟨h1, _, _, h4⟩ := nodes_wf_indexes ofs h
  unfold nodes_wf
  rw [hb]
  exact ⟨(table_insert_comparators _ _ _).trans h.1,
    table_insert_wf _ _ _ h.2 h4 (by omega)⟩

/-- `table_query_update` of the blocks table with a mutator that keeps the
block id keeps it well formed. -/
theorem blocks_wf_update (ofs ofs1 : oncefs_t) (key : oncefs_block_t) (k : Nat)
    (f : Option (oncefs_block_t → oncefs_block_t → Int)) (m : oncefs_block_t → oncefs_block_t)
    (hm : ∀ a, _oncefs_block_cmp_primary (m a) a = 0) (h : blocks_wf ofs)
    (hb : ofs1.blocks = (table_query_update ofs.blocks key k f m).2) : blocks_wf ofs1 := by
  obtain ⟨h1, h2, _, h4⟩ := blocks_wf_indexes ofs h
  unfold blocks_wf
  rw [hb]
  exact ⟨(table_query_update_comparators _ _ _ _ _).trans h.1,
    table_query_update_wf _ _ _ _ _ h.2 h4 (by omega) (by rw [h2]; exact hm)⟩

/-- The engine invariant holds after `create_block_tail` with a block id
below `next_block_id`. -/
theorem create_block_tail_wf (ofs : oncefs_t) (block_id : Nat) (operation : Int)
    (node size offset : Nat) (h : engine_wf ofs) (hid : block_id < ofs.next_block_id) :
    engine_wf (create_block_tail ofs block_id operation node size offset).2.1 := by
  obtain ⟨hb, hn, hbd, hio⟩ := h
  rw [create_block_tail_state]
  refine ⟨blocks_wf_insert ofs _ _ hb rfl, hn, ⟨hbd.1, ?_⟩, hio⟩
  intro b hbm
  dsimp only at hbm ⊢
  rcases table_insert_rows _ _ _ _ hbm with h1 | h1
  · exact hbd.2 b h1
  · subst h1
    exact hid

/-- The engine invariant holds across every primitive state change of the
operations. -/
theorem engine_wf_step_closed : step_closed (fun s s1 => engine_wf s → engine_wf s1) := by
  refine { refl := ?_, trans := ?_, nodes_insert := ?_, nodes_delete := ?_, blocks_free := ?_,
           blocks_truncate := ?_, create_block := ?_, set_io := ?_, reserve := ?_ }
  · intro s h; exact h
  · intro a b c hab hbc h; exact hbc (hab h)
  · intro s row h
    exact ⟨h.1, nodes_wf_insert s _ row h.2.1 rfl, h.2.2.1, h.2.2.2⟩
  · intro s key h
    refine ⟨h.1, ?_, h.2.2.1, h.2.2.2⟩
    exact ⟨(table_query_delete_comparators _ _ _ _).trans h.2.1.1,
      table_query_delete_wf _ _ _ _ h.2.1.2⟩
  · intro s key h
    refine ⟨blocks_wf_update s _ key _ _ _ mutator_free_primary h.1 rfl, h.2.1, ⟨h.2.2.1.1, ?_⟩,
      h.2.2.2⟩
    exact table_query_update_rows
      (fun b => b.block < s.next_block_id) _mutator_free
      (fun x hx => by simpa [_mutator_free] using hx) _ _ _ _ h.2.2.1.2
  · intro s key new_size h
    refine ⟨blocks_wf_update s _ key _ _ _ (mutator_truncate_primary new_size) h.1 rfl, h.2.1,
      ⟨h.2.2.1.1, ?_⟩, h.2.2.2⟩
    exact table_query_update_rows
      (fun b => b.block < s.next_block_id)
      (_mutator_truncate new_size)
      (fun x hx => by unfold _mutator_truncate; split <;> simpa using hx) _ _ _ _ h.2.2.1.2
  · intro s operation node size offset h
    unfold _oncefs_create_block
    split
    · rename_i hlt
      apply create_block_tail_wf
      · refine ⟨h.1, h.2.1, ⟨?_, ?_⟩, h.2.2.2⟩
        · show s.next_block_id + 1 ≤ s.last_block_id + 1
          omega
        · intro b hb
          exact Nat.lt_succ_of_lt (h.2.2.1.2 b hb)
      · show s.next_block_id % 2 ^ 32 < s.next_block_id + 1
        have := Nat.mod_le s.next_block_id (2 ^ 32)
        omega
    · split
      · exact h
      · rename_i h1 h2
        apply create_block_tail_wf _ _ _ _ _ _ h
        obtain ⟨b, hb, hbe⟩ := block_reuse_sound s node (by simpa using h2)
        rw [hbe]
        exact h.2.2.1.2 b (live_blocks_subset s h.1 b hb)
  · intro s dev buffer hio h
    refine ⟨h.1, h.2.1, h.2.2.1, ?_⟩
    intro dev1 hd1
    have hd2 : dev1 = { dev with buffer := buffer } := by
      have : some { dev with buffer := buffer } = some dev1 := hd1
      exact (Option.some.inj this).symm
    subst hd2
    exact h.2.2.2 dev hio
  · intro s h
    exact ⟨h.1, h.2.1, h.2.2.1, h.2.2.2⟩

/-! ## The replay is made of primitive state changes -/

/-- `_oncefs_load_block_data` returns `0`. -/
theorem load_block_data_rc (ofs : oncefs_t) (tagged : oncefs_tagged_block_t)
    (data : oncefs_data_t) : (_oncefs_load_block_data ofs tagged data).1 = 0 :=
  table_insert_or_replace_rc _ _

/-- `_oncefs_load_block_node` is `_oncefs_load_block_data` with an empty data
header of the node. -/
theorem load_block_node_eq (ofs : oncefs_t) (tagged : oncefs_tagged_block_t)
    (node : oncefs_node_t) :
    _oncefs_load_block_node ofs tagged node
      = _oncefs_load_block_data ofs tagged { node := node.node, fill := 0, offset := 0 } := rfl

/-- One round of the replay is made of primitive state changes. -/
theorem load_step_closed (L : Nat) (R : oncefs_t → oncefs_t → Prop) (hR : load_closed L R)
    (ofs : oncefs_t) (io : io_t) (cursor : oncefs_tagged_block_t) (hc : cursor.block ≤ L)
    (r : Int × oncefs_t) (hr : load_step ofs io cursor = some r) : R ofs r.2 := by
  have hT := hR.totable_step_closed
  have hblock : ∀ (s : oncefs_t) (data : oncefs_data_t) (r : Int × oncefs_t), R ofs s →
      (if (_oncefs_load_block_data s
            { block := cursor.block, tag := (io.buffer.getD cursor.block default).tag } data).1 ≠ 0
        then some (_oncefs_load_block_data s
            { block := cursor.block, tag := (io.buffer.getD cursor.block default).tag } data)
        else some (0, load_advance (_oncefs_load_block_data s
            { block := cursor.block, tag := (io.buffer.getD cursor.block default).tag } data).2
            { block := cursor.block, tag := (io.buffer.getD cursor.block default).tag }))
        = some r → R ofs r.2 := by
    intro s data r hs h
    rw [if_neg (by rw [load_block_data_rc]; simp)] at h
    cases h
    exact hR.trans _ _ _ hs (hR.load_block s _ data hc)
  unfold load_step at hr
  dsimp only at hr
  split at hr
  · split at hr
    · cases hr
    · split at hr
      · rename_i data_entry bytes hbody
        exact hblock ofs data_entry r (hR.refl _) hr
      · cases hr
  · split at hr
    · split at hr
      · cases hr; exact hR.refl _
      · split at hr
        · rename_i node_entry hbody
          split at hr
          · cases hr; exact hR.nodes_insert _ _
          · rw [load_block_node_eq] at hr
            exact hblock _ _ r (hR.nodes_insert _ _) hr
        · cases hr
    · split at hr
      · split at hr
        · cases hr; exact hR.refl _
        · split at hr
          · rename_i node_entry hbody
            have h0 := move_node_helper_closed _ hT ofs node_entry
            split at hr
            · cases hr; exact h0
            · rw [load_block_node_eq] at hr
              exact hblock _ _ r h0 hr
          · cases hr
      · split at hr
        · split at hr
          · cases hr; exact hR.refl _
          · split at hr
            · rename_i node_entry hbody
              have h0 := del_node_helper_closed _ hT ofs node_entry 0
              split at hr
              · cases hr; exact h0
              · rw [load_block_node_eq] at hr
                exact hblock _ _ r h0 hr
            · cases hr
        · split at hr
          · split at hr
            · cases hr
            · split at hr
              · rename_i data_entry bytes hbody
                have h0 := del_data_helper_closed _ hT ofs data_entry.node data_entry.offset
                split at hr
                · cases hr; exact h0
                · exact hblock _ _ r h0 hr
              · cases hr
          · cases hr; exact hR.refl _

/-- The replay loop is made of primitive state changes. -/
theorem load_loop_closed (L : Nat) (R : oncefs_t → oncefs_t → Prop) (hR : load_closed L R)
    (io : io_t) :
    ∀ (tags : List oncefs_tagged_block_t) (ofs : oncefs_t), (∀ c ∈ tags, c.block ≤ L) →
      ∀ r, load_loop io tags ofs = some r → R ofs r.2 := by
  intro tags
  induction tags with
  | nil =>
    intro ofs _ r hr
    simp [load_loop] at hr; subst hr; exact hR.refl _
  | cons c rest ih =>
    intro ofs hc r hr
    unfold load_loop at hr
    split at hr
    · simp at hr
    · rename_i r1 h1
      have hstep := load_step_closed L R hR ofs io c (hc c (List.mem_cons_self _ _)) r1 h1
      split at hr
      · simp at hr; subst hr; exact hstep
      · exact hR.trans _ _ _ hstep
          (ih r1.2 (fun c2 hc2 => hc c2 (List.mem_cons_of_mem _ hc2)) r hr)

/-- The tags `load_scan` collects carry block ids it was given. -/
theorem load_scan_blocks (io : io_t) : ∀ (ids : List Nat),
    ∀ c ∈ (load_scan io ids).2, c.block ∈ ids := by
  intro ids
  induction ids with
  | nil => intro c hc; simp [load_scan] at hc
  | cons i rest ih =>
    intro c hc
    unfold load_scan at hc
    split at hc
    · simp at hc
    · split at hc
      · simp at hc
      · simp only [List.mem_cons] at hc ⊢
        rcases hc with h | h
        · subst h; exact Or.inl rfl
        · exact Or.inr (ih c h)

/-- The engine invariant holds across every primitive state change of the
replay, and `last_block_id` stays what it is. -/
theorem engine_wf_load_closed (L : Nat) :
    load_closed L (fun s s1 => s.last_block_id = L → engine_wf s →
      (s1.last_block_id = L ∧ engine_wf s1)) := by
  have hS := engine_wf_step_closed
  refine { refl := ?_, trans := ?_, nodes_insert := ?_, nodes_delete := ?_, blocks_free := ?_,
           blocks_truncate := ?_, load_block := ?_ }
  · intro s hl h; exact ⟨hl, h⟩
  · intro a b c hab hbc hl h
    obtain ⟨h1, h2⟩ := hab hl h
    exact hbc h1 h2
  · intro s row hl h; exact ⟨hl, hS.nodes_insert s row h⟩
  · intro s key hl h; exact ⟨hl, hS.nodes_delete s key h⟩
  · intro s key hl h; exact ⟨hl, hS.blocks_free s key h⟩
  · intro s key new_size hl h; exact ⟨hl, hS.blocks_truncate s key new_size h⟩
  · intro s tagged data hc hl h
    obtain ⟨hb, hn, hbd, hio⟩ := h
    have hst : (_oncefs_load_block_data s tagged data).2
        = { s with
            next_node_id := if data.node ≥ s.next_node_id then (data.node + 1) % 2 ^ 32 else s.next_node_id,
            blocks := (table_insert_or_replace s.blocks
              { block := tagged.block, tag := tagged.tag,
                data := { node := data.node, fill := data.fill, offset := data.offset } }).2 } := by
      unfold _oncefs_load_block_data
      dsimp only
      rw [init_block_state]
      rfl
    rw [hst]
    unfold load_advance
    dsimp only
    split
    · refine ⟨hl, blocks_wf_insert s _ _ hb rfl, hn, ⟨?_, ?_⟩, hio⟩
      · show tagged.block + 1 ≤ s.last_block_id + 1
        omega
      · intro b hbm
        dsimp only at hbm ⊢
        rcases table_insert_rows _ _ _ _ hbm with h1 | h1
        · have := hbd.2 b h1
          omega
        · subst h1
          dsimp only
          omega
    · refine ⟨hl, blocks_wf_insert s _ _ hb rfl, hn, ⟨hbd.1, ?_⟩, hio⟩
      intro b hbm
      dsimp only at hbm ⊢
      rcases table_insert_rows _ _ _ _ hbm with h1 | h1
      · exact hbd.2 b h1
      · subst h1
        dsimp only
        omega

/-- The engine `oncefs_init` sets up satisfies the invariant. -/
theorem init_state_wf (io : Option io_t) : engine_wf (oncefs_init_state io) := by
  have hb : (oncefs_init_state io).blocks
      = table_t.mk [] [array_t.mk [] _oncefs_block_cmp_primary,
          array_t.mk [] _oncefs_block_cmp_lookup] := by
    simp [oncefs_init_state, table_add_index, table_init]
  have hn : (oncefs_init_state io).nodes
      = table_t.mk [] [array_t.mk [] _oncefs_node_cmp_primary,
          array_t.mk [] _oncefs_node_cmp_lookup] := by
    simp [oncefs_init_state, table_add_index, table_init]
  refine ⟨⟨by rw [hb]; rfl, ?_⟩, ⟨by rw [hn]; rfl, ?_⟩, ⟨?_, ?_⟩, ?_⟩
  · rw [hb]
    refine ⟨?_, ?_, ?_⟩
    · intro ix hix
      simp only [List.mem_cons, List.mem_singleton, List.not_mem_nil, or_false] at hix
      rcases hix with rfl | rfl <;> simp [index_wf, index_rows]
    · intro ix hix i
      simp only [List.mem_cons, List.mem_singleton, List.not_mem_nil, or_false] at hix
      rcases hix with rfl | rfl <;> simp [table_index]
    · simp [index_rows, table_index]
  · rw [hn]
    refine ⟨?_, ?_, ?_⟩
    · intro ix hix
      simp only [List.mem_cons, List.mem_singleton, List.not_mem_nil, or_false] at hix
      rcases hix with rfl | rfl <;> simp [index_wf, index_rows]
    · intro ix hix i
      simp only [List.mem_cons, List.mem_singleton, List.not_mem_nil, or_false] at hix
      rcases hix with rfl | rfl <;> simp [table_index]
    · simp [index_rows, table_index]
  · cases io with
    | none => simp [oncefs_init_state]
    | some dev => simp [oncefs_init_state, io_block_first, io_block_last]
  · rw [hb]; simp
  · intro dev hdev
    cases io with
    | none => simp [oncefs_init_state] at hdev
    | some dev0 =>
      have : dev0 = dev := by simpa [oncefs_init_state] using hdev
      subst this
      simp [oncefs_init_state, io_block_last, io_block_size]

/-- `io_write` of a tag keeps the block size and the last valid block of the
container. -/
theorem io_write_tag_meta (io : io_t) (block : Nat) (tag : oncefs_tag_t) :
    (io_write_tag io block tag).2.last_valid_block = io.last_valid_block ∧
    (io_write_tag io block tag).2.block_size = io.block_size := by
  unfold io_write_tag
  split <;> exact ⟨rfl, rfl⟩

/-- `_oncefs_format` keeps the block size and the last valid block of the
container. -/
theorem format_loop_meta : ∀ (ids : List Nat) (io : io_t) (rnd : List Nat) (r : Int × io_t),
    format_loop ids io rnd = some r →
    r.2.last_valid_block = io.last_valid_block ∧ r.2.block_size = io.block_size := by
  intro ids
  induction ids with
  | nil => intro io rnd r h; simp [format_loop] at h; subst h; exact ⟨rfl, rfl⟩
  | cons i rest ih =>
    intro io rnd r h
    cases rnd with
    | nil => simp [format_loop] at h
    | cons seq rnd =>
      unfold format_loop at h
      split at h
      · cases h
      · rename_i d hd
        split at h
        · cases h; exact io_write_tag_meta _ _ _
        · have := ih _ _ r h
          have h2 := io_write_tag_meta io i { seq := seq, operation := d.1 }
          exact ⟨this.1.trans h2.1, this.2.trans h2.2⟩

/-- Every successful initialisation establishes the engine invariant. -/
theorem init_engine_wf (io : Option io_t) (format : Int) (now : Nat) (rnd : List Nat)
    (ofs : oncefs_t) (h : oncefs_init io format now rnd = some (0, ofs)) : engine_wf ofs := by
  have h0 := init_state_wf io
  unfold oncefs_init at h
  dsimp only at h
  split at h
  · obtain ⟨h2, -⟩ := Prod.mk.inj (Option.some.inj h)
    simp at h2
  · cases io with
    | none =>
      dsimp only at h
      obtain ⟨-, h2⟩ := Prod.mk.inj (Option.some.inj h)
      subst h2
      exact h0
    | some dev =>
      dsimp only at h
      split at h
      · cases hf : _oncefs_format dev rnd with
        | none => rw [hf] at h; cases h
        | some f =>
          rw [hf] at h
          dsimp only at h
          split at h
          · rename_i h1
            obtain ⟨h2, -⟩ := Prod.mk.inj (Option.some.inj h)
            exact absurd h2 h1
          · obtain ⟨-, h2⟩ := Prod.mk.inj (Option.some.inj h)
            subst h2
            refine ⟨h0.1, h0.2.1, h0.2.2.1, ?_⟩
            intro dev1 hd1
            have hd2 : f.2 = dev1 := Option.some.inj hd1
            subst hd2
            have hm := format_loop_meta _ _ _ _ hf
            have hc := h0.2.2.2 dev rfl
            exact ⟨hm.1.trans hc.1, hm.2.trans hc.2⟩
      · cases hl : _oncefs_load (oncefs_init_state (some dev)) dev with
        | none => rw [hl] at h; cases h
        | some r =>
          rw [hl] at h
          dsimp only at h
          split at h
          · rename_i h1
            obtain ⟨h2, -⟩ := Prod.mk.inj (Option.some.inj h)
            exact absurd h2 h1
          · obtain ⟨-, h2⟩ := Prod.mk.inj (Option.some.inj h)
            subst h2
            have key : engine_wf r.2 := by
              unfold _oncefs_load at hl
              dsimp only at hl
              split at hl
              · cases hl; exact h0
              · cases hq : load_loop dev (qsort id _cmp_tag_seq (load_scan dev
                    (List.range' (io_block_first dev)
                      (io_block_last dev + 1 - io_block_first dev))).2)
                    (oncefs_init_state (some dev)) with
                | none => rw [hq] at hl; cases hl
                | some r1 =>
                  rw [hq] at hl
                  dsimp only at hl
                  have hin : ∀ c ∈ qsort id _cmp_tag_seq (load_scan dev
                      (List.range' (io_block_first dev)
                        (io_block_last dev + 1 - io_block_first dev))).2,
                      c.block ≤ dev.last_valid_block := by
                    intro c hc
                    have hc2 := (qsort_perm _ _ _).mem_iff.mp hc
                    have hc3 := load_scan_blocks dev _ c hc2
                    rw [List.mem_range'_1] at hc3
                    unfold io_block_last io_block_first at hc3
                    omega
                  have hwf := load_loop_closed dev.last_valid_block _
                    (engine_wf_load_closed dev.last_valid_block) dev _ _ hin r1 hq rfl h0
                  split at hl
                  · cases hl; exact hwf.2
                  · split at hl
                    · cases hl; exact hwf.2
                    · cases hl; exact hwf.2
            exact key

/-- The engine invariant holds in every reachable state. -/
theorem reachable_engine_wf (ofs : oncefs_t) (h : reachable ofs) : engine_wf ofs := by
  induction h with
  | init io format now rnd ofs h => exact init_engine_wf io format now rnd ofs h
  | call ofs op rc ofs1 _ hop ih =>
    exact apply_op_closed _ engine_wf_step_closed ofs op (rc, ofs1) hop ih

/-! ## Block allocation (claims C6, C7) -/

/-- `create_block_tail` returns `0`. -/
theorem create_block_tail_rc (ofs : oncefs_t) (block_id : Nat) (operation : Int)
    (node size offset : Nat) :
    (create_block_tail ofs block_id operation node size offset).1 = 0 :=
  table_insert_or_replace_rc _ _

/-- The live blocks after `create_block_tail`: the new record, and the
records of the other block ids. -/
theorem create_block_tail_live (ofs : oncefs_t) (block_id : Nat) (operation : Int)
    (node size offset : Nat) (hwf : blocks_wf ofs) (b : oncefs_block_t) :
    b ∈ live_blocks (create_block_tail ofs block_id operation node size offset).2.1 ↔
      (b = (create_block_tail ofs block_id operation node size offset).2.2 ∨
        (b ∈ live_blocks ofs ∧ b.block ≠ block_id)) := by
  obtain ⟨h1, h2, _, h4⟩ := blocks_wf_indexes ofs hwf
  have hmem := table_insert_or_replace_mem ofs.blocks
    (create_block_tail ofs block_id operation node size offset).2.2 hwf.2 h4 1 (by omega) b
  rw [h2] at hmem
  have hst : live_blocks (create_block_tail ofs block_id operation node size offset).2.1
      = index_rows
          (table_insert_or_replace ofs.blocks
            (create_block_tail ofs block_id operation node size offset).2.2).2.rows
          (table_index (table_insert_or_replace ofs.blocks
            (create_block_tail ofs block_id operation node size offset).2.2).2 1) := by
    rw [create_block_tail_state]
    rfl
  rw [hst, hmem, live_blocks_eq]
  have hne : _oncefs_block_cmp_primary
      (create_block_tail ofs block_id operation node size offset).2.2 b ≠ 0 ↔
      b.block ≠ block_id := by
    rw [Ne, block_primary_eq_zero]
    rfl
  rw [hne]

/-- In a list of records with pairwise different block ids, the records
with the block id of a member are that member alone. -/
theorem filter_block_unique : ∀ (l : List oncefs_block_t) (r : oncefs_block_t), r ∈ l →
    l.Pairwise (fun a b => a.block ≠ b.block) →
    l.filter (fun b => b.block = r.block) = [r] := by
  intro l
  induction l with
  | nil => intro r hr; simp at hr
  | cons a l ih =>
    intro r hr hp
    rw [List.pairwise_cons] at hp
    rw [List.mem_cons] at hr
    by_cases hra : r = a
    · subst hra
      rw [List.filter_cons_of_pos (by simp)]
      congr 1
      rw [List.filter_eq_nil_iff]
      intro b hb
      have := hp.1 b hb
      simpa using fun h => this h.symm
    · rcases hr with hr | hr
      · exact absurd hr hra
      · have := hp.1 r hr
        rw [List.filter_cons_of_neg (by simpa using this)]
        exact ih r hr hp.2

/-- The blocks table is well formed after `_oncefs_create_block`. -/
theorem create_block_blocks_wf (ofs : oncefs_t) (operation : Int) (node size offset : Nat)
    (hwf : blocks_wf ofs) :
    blocks_wf (_oncefs_create_block ofs operation node size offset).2.1 := by
  unfold _oncefs_create_block
  split
  · rw [create_block_tail_state]
    exact blocks_wf_insert ofs _ _ hwf rfl
  · split
    · exact hwf
    · rw [create_block_tail_state]
      exact blocks_wf_insert ofs _ _ hwf rfl

/-- The live blocks after a successful `_oncefs_create_block`: the new
record, and the records of the other block ids. -/
theorem create_block_live (ofs : oncefs_t) (operation : Int) (node size offset : Nat)
    (hwf : blocks_wf ofs) (h : (_oncefs_create_block ofs operation node size offset).1 = 0)
    (b : oncefs_block_t) :
    b ∈ live_blocks (_oncefs_create_block ofs operation node size offset).2.1 ↔
      (b = (_oncefs_create_block ofs operation node size offset).2.2 ∨
        (b ∈ live_blocks ofs ∧
          b.block ≠ (_oncefs_create_block ofs operation node size offset).2.2.block)) := by
  unfold _oncefs_create_block at h ⊢
  split
  · have hwf1 : blocks_wf { ofs with next_block_id := ofs.next_block_id + 1 } := hwf
    exact create_block_tail_live _ _ _ _ _ _ hwf1 b
  · split
    · rename_i h1 h2
      rw [if_neg h1, if_pos h2] at h
      exact absurd h h2
    · exact create_block_tail_live _ _ _ _ _ _ hwf b

/-- C6 (allocation order).  On an engine state satisfying the invariant (so
on every reachable state), `_oncefs_create_block`:
(1) as long as `next_block_id <= last_block_id`, returns OK, gives the
record the block id `next_block_id` (as a `uint32_t`: `next_block_id mod
2^32`) and increments `next_block_id`; when `next_block_id < 2^32` nothing
is reused: the live blocks afterwards are the old ones and the new record;
(2) otherwise, when a FREE block exists, returns OK and reuses the block id
of a FREE block;
(3) otherwise, when no FREE block but a DELETE block exists, returns OK and
reuses the block id of a DELETE block;
(4) whenever it returns OK, the blocks table afterwards holds exactly one
record with the block id of the new record, the new record itself, and the
records of the other block ids are what they were. -/
theorem c6_allocation_order (ofs : oncefs_t) (operation : Int) (node size offset : Nat)
    (hwf : engine_wf ofs) :
    (ofs.next_block_id ≤ ofs.last_block_id →
      (_oncefs_create_block ofs operation node size offset).1 = 0 ∧
      (_oncefs_create_block ofs operation node size offset).2.2.block
        = ofs.next_block_id % 2 ^ 32 ∧
      (_oncefs_create_block ofs operation node size offset).2.1.next_block_id
        = ofs.next_block_id + 1 ∧
      (ofs.next_block_id < 2 ^ 32 →
        (_oncefs_create_block ofs operation node size offset).2.2.block = ofs.next_block_id ∧
        (live_blocks (_oncefs_create_block ofs operation node size offset).2.1).Perm
          ((_oncefs_create_block ofs operation node size offset).2.2 :: live_blocks ofs))) ∧
    (ofs.last_block_id < ofs.next_block_id →
      (∃ b ∈ live_blocks ofs, b.tag.operation = BLOCK_OPERATION_FREE) →
      (_oncefs_create_block ofs operation node size offset).1 = 0 ∧
      (_oncefs_create_block ofs operation node size offset).2.1.next_block_id
        = ofs.next_block_id ∧
      ∃ b ∈ live_blocks ofs, b.tag.operation = BLOCK_OPERATION_FREE ∧
        (_oncefs_create_block ofs operation node size offset).2.2.block = b.block) ∧
    (ofs.last_block_id < ofs.next_block_id →
      (¬ ∃ b ∈ live_blocks ofs, b.tag.operation = BLOCK_OPERATION_FREE) →
      (∃ b ∈ live_blocks ofs, b.tag.operation = BLOCK_OPERATION_DELETE) →
      (_oncefs_create_block ofs operation node size offset).1 = 0 ∧
      (_oncefs_create_block ofs operation node size offset).2.1.next_block_id
        = ofs.next_block_id ∧
      ∃ b ∈ live_blocks ofs, b.tag.operation = BLOCK_OPERATION_DELETE ∧
        (_oncefs_create_block ofs operation node size offset).2.2.block = b.block) ∧
    ((_oncefs_create_block ofs operation node size offset).1 = 0 →
      (live_blocks (_oncefs_create_block ofs operation node size offset).2.1).filter
          (fun b => b.block = (_oncefs_create_block ofs operation node size offset).2.2.block)
        = [(_oncefs_create_block ofs operation node size offset).2.2] ∧
      ∀ b : oncefs_block_t,
        b.block ≠ (_oncefs_create_block ofs operation node size offset).2.2.block →
        (b ∈ live_blocks (_oncefs_create_block ofs operation node size offset).2.1 ↔
          b ∈ live_blocks ofs)) := by
  have hb := hwf.1
  have hspec := block_reuse_spec ofs hb node
  have hlive := create_block_live ofs operation node size offset hb
  have hwf1 := create_block_blocks_wf ofs operation node size offset hb
  have huniq := live_blocks_unique _ hwf1
  refine ⟨?_, ?_, ?_, ?_⟩
  · intro hlt
    have hrc : (_oncefs_create_block ofs operation node size offset).1 = 0 := by
      unfold _oncefs_create_block
      rw [if_pos hlt]
      exact create_block_tail_rc _ _ _ _ _ _
    have hrec : (_oncefs_create_block ofs operation node size offset).2.2.block
        = ofs.next_block_id % 2 ^ 32 := by
      unfold _oncefs_create_block
      rw [if_pos hlt, create_block_tail_record]
    have hnext : (_oncefs_create_block ofs operation node size offset).2.1.next_block_id
        = ofs.next_block_id + 1 := by
      unfold _oncefs_create_block
      rw [if_pos hlt, create_block_tail_state]
    refine ⟨hrc, hrec, hnext, ?_⟩
    intro h32
    have hid : (_oncefs_create_block ofs operation node size offset).2.2.block
        = ofs.next_block_id := by
      rw [hrec]; exact Nat.mod_eq_of_lt h32
    refine ⟨hid, ?_⟩
    have hfresh : ∀ b ∈ live_blocks ofs,
        b.block ≠ (_oncefs_create_block ofs operation node size offset).2.2.block := by
      intro b hbm
      have := hwf.2.2.1.2 b (live_blocks_subset ofs hb b hbm)
      rw [hid]; omega
    have hnd1 : (live_blocks (_oncefs_create_block ofs operation node size offset).2.1).Nodup :=
      huniq.imp (fun hab he => hab (by rw [he]))
    have hnd0 : (live_blocks ofs).Nodup :=
      (live_blocks_unique ofs hb).imp (fun hab he => hab (by rw [he]))
    have hnd2 : ((_oncefs_create_block ofs operation node size offset).2.2
        :: live_blocks ofs).Nodup := by
      rw [List.nodup_cons]
      exact ⟨fun hm => hfresh _ hm rfl, hnd0⟩
    refine (List.perm_ext_iff_of_nodup hnd1 hnd2).mpr ?_
    intro b
    rw [hlive hrc b, List.mem_cons]
    constructor
    · rintro (h | h)
      · exact Or.inl h
      · exact Or.inr h.1
    · rintro (h | h)
      · exact Or.inl h
      · exact Or.inr ⟨h, hfresh b h⟩
  · intro hfull hex
    obtain ⟨h1, b, hbm, hop, hid⟩ := hspec.1 hex
    unfold _oncefs_create_block
    rw [if_neg (by omega), if_neg (by simpa using h1)]
    refine ⟨create_block_tail_rc _ _ _ _ _ _, by rw [create_block_tail_state], b, hbm, hop, ?_⟩
    rw [create_block_tail_record]
    exact hid
  · intro hfull hnf hex
    obtain ⟨h1, b, hbm, hop, hid⟩ := hspec.2.1 hnf hex
    unfold _oncefs_create_block
    rw [if_neg (by omega), if_neg (by simpa using h1)]
    refine ⟨create_block_tail_rc _ _ _ _ _ _, by rw [create_block_tail_state], b, hbm, hop, ?_⟩
    rw [create_block_tail_record]
    exact hid
  · intro hrc
    constructor
    · exact filter_block_unique _ _ ((hlive hrc _).mpr (Or.inl rfl)) huniq
    · intro b hne
      rw [hlive hrc b]
      constructor
      · rintro (h | h)
        · rw [h] at hne; exact absurd rfl hne
        · exact h.1
      · intro h
        exact Or.inr ⟨h, hne⟩

/-- A run from a freshly formatted in-memory container ends in a reachable
state. -/
theorem reachable_run : ∀ (ops : List op_t) (ofs : oncefs_t), reachable ofs →
    ∀ r, run_ops ops ofs = some r → reachable r.2 := by
  intro ops
  induction ops with
  | nil =>
    intro ofs h r hr
    simp [run_ops] at hr; subst hr; exact h
  | cons op rest ih =>
    intro ofs h r hr
    unfold run_ops at hr
    cases h1 : apply_op ofs op with
    | none => rw [h1] at hr; cases hr
    | some r1 =>
      rw [h1] at hr
      dsimp only at hr
      cases h2 : run_ops rest r1.2 with
      | none => rw [h2] at hr; cases hr
      | some rs =>
        rw [h2] at hr
        cases hr
        exact ih r1.2 (reachable.call ofs op r1.1 r1.2 h h1) rs h2

/-- The engine after a defined run from a container whose format succeeded
is reachable. -/
theorem engine_after_reachable (block_size : Int) (max_num_blocks : Nat) (ops : List op_t)
    (h1 : (oncefs_init_memory block_size max_num_blocks 5).map (fun r => r.1) = some 0)
    (h2 : (state_after block_size max_num_blocks ops).isSome = true) :
    reachable (engine_after block_size max_num_blocks ops) := by
  unfold engine_after
  unfold state_after at h2 ⊢
  cases hi : oncefs_init_memory block_size max_num_blocks 5 with
  | none => rw [hi] at h1; simp at h1
  | some r0 =>
    rw [hi] at h1 h2
    dsimp only at h2 ⊢
    have h0 : r0.1 = 0 := by simpa using h1
    have hr0 : reachable r0.2 := by
      apply reachable.init (some (io_init_memory block_size max_num_blocks)) 1 5
        (format_draws max_num_blocks)
      unfold oncefs_init_memory at hi
      rw [hi]
      exact congrArg some (Prod.ext h0 rfl)
    cases hr : run_ops ops r0.2 with
    | none => rw [hr] at h2; simp at h2
    | some rs =>
      dsimp only
      exact reachable_run ops r0.2 hr0 rs hr

/-- Witness of C6 on a full container whose block `1` is DELETE and whose
block `2` is FREE: the allocation reuses block `2`. -/
theorem c6_allocation_order_witness :
    c6_engine.last_block_id < c6_engine.next_block_id ∧
    (∃ b ∈ live_blocks c6_engine, b.tag.operation = BLOCK_OPERATION_FREE) ∧
    (_oncefs_create_block c6_engine BLOCK_OPERATION_DATA 7 0 0).2.2.block = 2 ∧
    ((_oncefs_create_block c6_engine BLOCK_OPERATION_DATA 7 0 0).1 = 0 ∧
      (_oncefs_create_block c6_engine BLOCK_OPERATION_DATA 7 0 0).2.1.next_block_id
        = c6_engine.next_block_id ∧
      ∃ b ∈ live_blocks c6_engine, b.tag.operation = BLOCK_OPERATION_FREE ∧
        (_oncefs_create_block c6_engine BLOCK_OPERATION_DATA 7 0 0).2.2.block = b.block) :=
  ⟨by decide, by decide, by decide,
    (c6_allocation_order c6_engine BLOCK_OPERATION_DATA 7 0 0
      (reachable_engine_wf _ (engine_after_reachable 512 3 _ (by decide) (by decide)))).2.1
      (by decide) (by decide)⟩

/-- C7 (same-node takeover), as the code has it.  On an engine state with a
well-formed blocks table whose container is full and holds no FREE or DELETE
block, allocating a block for node `n >= 1` reuses a block of `n` whose
operation is NODE when `n` owns one, and returns NO_SPACE when `n` owns no
NODE block, whatever DATA, TRUNCATE or MOVE blocks it owns. -/
theorem c7_takeover_of_node_blocks (ofs : oncefs_t) (operation : Int) (n size offset : Nat)
    (hwf : blocks_wf ofs) (hfull : container_full ofs) (hnone : no_free_or_delete ofs)
    (hn : 1 ≤ n) :
    ((∃ b ∈ live_blocks ofs, b.tag.operation = BLOCK_OPERATION_NODE ∧ b.data.node = n) →
      (_oncefs_create_block ofs operation n size offset).1 = 0 ∧
      ∃ b ∈ live_blocks ofs, b.tag.operation = BLOCK_OPERATION_NODE ∧ b.data.node = n ∧
        (_oncefs_create_block ofs operation n size offset).2.2.block = b.block) ∧
    ((¬ ∃ b ∈ live_blocks ofs, b.tag.operation = BLOCK_OPERATION_NODE ∧ b.data.node = n) →
      (_oncefs_create_block ofs operation n size offset).1 = -ENOSPC) := by
  have hspec := block_reuse_spec ofs hwf n
  have hnf : ¬ ∃ b ∈ live_blocks ofs, b.tag.operation = BLOCK_OPERATION_FREE :=
    fun ⟨b, hb, ho⟩ => (hnone b hb).1 ho
  have hnd : ¬ ∃ b ∈ live_blocks ofs, b.tag.operation = BLOCK_OPERATION_DELETE :=
    fun ⟨b, hb, ho⟩ => (hnone b hb).2 ho
  have hlt : ¬ ofs.next_block_id ≤ ofs.last_block_id := by
    unfold container_full at hfull; omega
  constructor
  · intro hex
    obtain ⟨h1, b, hbm, hop, hnode, hid⟩ := hspec.2.2.1 hnf hnd hn hex
    unfold _oncefs_create_block
    rw [if_neg hlt, if_neg (by simpa using h1)]
    refine ⟨create_block_tail_rc _ _ _ _ _ _, b, hbm, hop, hnode, ?_⟩
    rw [create_block_tail_record]
    exact hid
  · intro hno
    have h1 := hspec.2.2.2 hnf hnd (Or.inr hno)
    unfold _oncefs_create_block
    rw [if_neg hlt, if_pos (by rw [h1]; decide)]
    exact h1

/-- Witness of C7 on the full container holding `/foo` (node `1`) and `/bar`
(node `2`), each with its NODE block: a block allocated for node `1` reuses
block `1`, the NODE block of `/foo`. -/
theorem c7_takeover_of_node_blocks_witness :
    container_full (engine_after 512 3 c4_setup) ∧
    no_free_or_delete (engine_after 512 3 c4_setup) ∧
    (_oncefs_create_block (engine_after 512 3 c4_setup) BLOCK_OPERATION_DATA 1 1 0).2.2.block
      = 1 ∧
    ((_oncefs_create_block (engine_after 512 3 c4_setup) BLOCK_OPERATION_DATA 1 1 0).1 = 0 ∧
      ∃ b ∈ live_blocks (engine_after 512 3 c4_setup),
        b.tag.operation = BLOCK_OPERATION_NODE ∧ b.data.node = 1 ∧
        (_oncefs_create_block (engine_after 512 3 c4_setup) BLOCK_OPERATION_DATA 1 1 0).2.2.block
          = b.block) :=
  ⟨by decide, by decide, by decide,
    (c7_takeover_of_node_blocks (engine_after 512 3 c4_setup) BLOCK_OPERATION_DATA 1 1 0
      (reachable_engine_wf _ (engine_after_reachable 512 3 _ (by decide) (by decide))).1
      (by decide) (by decide) (by decide)).1 (by decide)⟩

/-! ## Creating a node (claim C5) -/

/-- `_oncefs_create_block` leaves the container, the bounds and the sizes
alone. -/
theorem create_block_frame (ofs : oncefs_t) (operation : Int) (node size offset : Nat) :
    (_oncefs_create_block ofs operation node size offset).2.1.io = ofs.io ∧
    (_oncefs_create_block ofs operation node size offset).2.1.last_block_id
      = ofs.last_block_id ∧
    (_oncefs_create_block ofs operation node size offset).2.1.nodes = ofs.nodes := by
  unfold _oncefs_create_block
  split
  · rw [create_block_tail_state]; exact ⟨rfl, rfl, rfl⟩
  · split
    · exact ⟨rfl, rfl, rfl⟩
    · rw [create_block_tail_state]; exact ⟨rfl, rfl, rfl⟩

/-- The record of a successful `_oncefs_create_block` carries the operation
and the node asked for. -/
theorem create_block_record (ofs : oncefs_t) (operation : Int) (node size offset : Nat)
    (h : (_oncefs_create_block ofs operation node size offset).1 = 0) :
    (_oncefs_create_block ofs operation node size offset).2.2.tag.operation = operation ∧
    (_oncefs_create_block ofs operation node size offset).2.2.data
      = { node := node, fill := size % 2 ^ 16, offset := offset } := by
  unfold _oncefs_create_block at h ⊢
  split
  · rw [create_block_tail_record]; exact ⟨rfl, rfl⟩
  · split
    · rename_i h1 h2
      rw [if_neg h1, if_pos h2] at h
      exact absurd h h2
    · rw [create_block_tail_record]; exact ⟨rfl, rfl⟩

/-- `_oncefs_create_block` returns OK when the container has an unused
block, or a FREE block, or a DELETE block. -/
theorem create_block_ok (ofs : oncefs_t) (operation : Int) (node size offset : Nat)
    (hwf : blocks_wf ofs)
    (h : ofs.next_block_id ≤ ofs.last_block_id ∨
      ∃ b ∈ live_blocks ofs, b.tag.operation = BLOCK_OPERATION_FREE ∨
        b.tag.operation = BLOCK_OPERATION_DELETE) :
    (_oncefs_create_block ofs operation node size offset).1 = 0 := by
  have hspec := block_reuse_spec ofs hwf node
  unfold _oncefs_create_block
  split
  · exact create_block_tail_rc _ _ _ _ _ _
  · rename_i hlt
    have hreuse : (_oncefs_block_reuse ofs node).1 = 0 := by
      rcases h with h | ⟨b, hb, ho⟩
      · exact absurd h hlt
      · by_cases hf : ∃ b ∈ live_blocks ofs, b.tag.operation = BLOCK_OPERATION_FREE
        · exact (hspec.1 hf).1
        · rcases ho with ho | ho
          · exact absurd ⟨b, hb, ho⟩ hf
          · exact (hspec.2.1 hf ⟨b, hb, ho⟩).1
    rw [if_neg (by simpa using hreuse)]
    exact create_block_tail_rc _ _ _ _ _ _

/-- The block id of a successful `_oncefs_create_block` on an engine
satisfying the invariant is at most `last_block_id`. -/
theorem create_block_id_le (ofs : oncefs_t) (operation : Int) (node size offset : Nat)
    (hwf : engine_wf ofs) (h : (_oncefs_create_block ofs operation node size offset).1 = 0) :
    (_oncefs_create_block ofs operation node size offset).2.2.block ≤ ofs.last_block_id := by
  have hwf1 := engine_wf_step_closed.create_block ofs operation node size offset hwf
  have hmem := (create_block_live ofs operation node size offset hwf.1 h _).mpr (Or.inl rfl)
  have hrow := live_blocks_subset _ hwf1.1 _ hmem
  have h1 := hwf1.2.2.1.2 _ hrow
  have h2 := hwf1.2.2.1.1
  rw [(create_block_frame ofs operation node size offset).2.1] at h2
  omega

/-- `write_node_block` fails with the return code of the allocation. -/
theorem write_node_block_fail (ofs : oncefs_t) (operation : Int) (entry : oncefs_node_t)
    (h : (_oncefs_create_block ofs operation entry.node 0 0).1 ≠ 0) :
    (write_node_block ofs operation entry).1
      = (_oncefs_create_block ofs operation entry.node 0 0).1 := by
  unfold write_node_block
  dsimp only
  rw [if_pos h]

/-- `write_node_block` returns OK when the allocation does and a node
record fits into a block of the container. -/
theorem write_node_block_ok (ofs : oncefs_t) (operation : Int) (entry : oncefs_node_t)
    (hwf : engine_wf ofs) (h : (_oncefs_create_block ofs operation entry.node 0 0).1 = 0)
    (hsz : ∀ dev, ofs.io = some dev → SIZEOF_TAG + SIZEOF_NODE ≤ dev.block_size) :
    (write_node_block ofs operation entry).1 = 0 := by
  have hle := create_block_id_le ofs operation entry.node 0 0 hwf h
  have hio := (create_block_frame ofs operation entry.node 0 0).1
  unfold write_node_block
  dsimp only
  rw [if_neg (by simpa using h)]
  split
  · rfl
  · rename_i io hio1
    rw [hio] at hio1
    have hc := hwf.2.2.2 io hio1
    have hs := hsz io hio1
    have hchk : io_check io (_oncefs_create_block ofs operation entry.node 0 0).2.2.block
        (SIZEOF_TAG + SIZEOF_NODE) = 0 := by
      unfold io_check
      rw [if_neg (by omega), if_neg (by omega)]
    have hw : (io_write_node io (_oncefs_create_block ofs operation entry.node 0 0).2.2.block
        (_oncefs_create_block ofs operation entry.node 0 0).2.2.tag entry).1 = 0 := by
      unfold io_write_node
      rw [if_neg (by simpa using hchk)]
    rw [if_neg (by simpa using hw)]

/-- After a successful `write_node_block` a live block carries the
operation written, and a node record fits into a block of the container. -/
theorem write_node_block_ok_facts (ofs : oncefs_t) (operation : Int) (entry : oncefs_node_t)
    (hwf : blocks_wf ofs) (h : (write_node_block ofs operation entry).1 = 0) :
    (∃ b ∈ live_blocks (write_node_block ofs operation entry).2,
      b.tag.operation = operation) ∧
    (∀ dev, (write_node_block ofs operation entry).2.io = some dev →
      SIZEOF_TAG + SIZEOF_NODE ≤ dev.block_size) := by
  by_cases hcb : (_oncefs_create_block ofs operation entry.node 0 0).1 = 0
  · have hmem := (create_block_live ofs operation entry.node 0 0 hwf hcb _).mpr (Or.inl rfl)
    have hop := (create_block_record ofs operation entry.node 0 0 hcb).1
    unfold write_node_block at h ⊢
    dsimp only at h ⊢
    rw [if_neg (by simpa using hcb)] at h ⊢
    split
    · rename_i hnone
      exact ⟨⟨_, hmem, hop⟩, fun dev hdev => by rw [hnone] at hdev; cases hdev⟩
    · rename_i io hio1
      rw [hio1] at h
      dsimp only at h
      by_cases hw : (io_write_node io
          (_oncefs_create_block ofs operation entry.node 0 0).2.2.block
          (_oncefs_create_block ofs operation entry.node 0 0).2.2.tag entry).1 = 0
      · rw [if_neg (by simpa using hw)]
        refine ⟨⟨_, hmem, hop⟩, ?_⟩
        intro dev hdev
        have hdev2 : (io_write_node io
            (_oncefs_create_block ofs operation entry.node 0 0).2.2.block
            (_oncefs_create_block ofs operation entry.node 0 0).2.2.tag entry).2 = dev :=
          Option.some.inj hdev
        rw [← hdev2]
        unfold io_write_node at hw ⊢
        by_cases hchk : io_check io
            (_oncefs_create_block ofs operation entry.node 0 0).2.2.block
            (SIZEOF_TAG + SIZEOF_NODE) = 0
        · rw [if_neg (by simpa using hchk)]
          dsimp only
          unfold io_check at hchk
          split at hchk
          · simp at hchk
          · split at hchk
            · simp at hchk
            · omega
        · rw [if_pos hchk] at hw
          exact absurd hw hchk
      · rw [if_pos hw] at h
        exact absurd h hw
  · rw [write_node_block_fail ofs operation entry hcb] at h
    exact absurd h hcb

/-- A path that resolves to NOT_FOUND is not `"/"`. -/
theorem not_found_ne_root (ofs : oncefs_t) (path : List Char)
    (h : (_oncefs_resolve_node ofs path).map (fun r => r.1) = some (-ENOENT)) :
    path ≠ ['/'] := by
  intro e
  rw [e] at h
  unfold _oncefs_resolve_node at h
  rw [if_pos rfl] at h
  have h2 : (0 : Int) = -ENOENT := Option.some.inj h
  exact absurd h2 (by decide)

/-- `_oncefs_init_node` on a path that does not exist yet, directly under an
existing directory: a node id is reserved and the node initialised. -/
theorem init_node_fresh (ofs : oncefs_t) (path : List Char) (type : Int) (now : Nat × Nat)
    (h : fresh_path ofs path) :
    ∃ entry : oncefs_node_t,
      _oncefs_init_node ofs path type now
        = some (0, (_oncefs_reserve_node_id ofs).2, entry) ∧
      entry.node = ofs.next_node_id % 2 ^ 32 := by
  obtain ⟨h1, h2, h3⟩ := h
  unfold _oncefs_init_node
  rw [if_neg (not_found_ne_root ofs path h1)]
  cases hr : _oncefs_resolve_node ofs path with
  | none => rw [hr] at h1; simp at h1
  | some r =>
    rw [hr] at h1
    have hr1 : r.1 = -ENOENT := by simpa using h1
    dsimp only
    rw [if_neg (by rw [hr1]; decide), if_neg (by rw [hr1]; decide)]
    cases hp : _oncefs_resolve_node ofs (dirname path) with
    | none => rw [hp] at h2; simp at h2
    | some p =>
      rw [hp] at h2
      have hp1 : p.1 = 0 ∧ p.2.type = NODE_TYPE_DIR := by
        simpa using h2
      dsimp only
      rw [if_neg (by rw [hp1.1]; decide), if_neg (by rw [hp1.2]; decide),
        if_neg (by omega)]
      exact ⟨_, rfl, rfl⟩

/-- `oncefs_set_file` on a path that does not exist yet, directly under an
existing directory: the node row is inserted and its block written. -/
theorem set_file_fresh (ofs : oncefs_t) (path : List Char) (now : Nat × Nat)
    (h : fresh_path ofs path) :
    ∃ entry : oncefs_node_t, entry.node = ofs.next_node_id % 2 ^ 32 ∧
      oncefs_set_file ofs path now
        = some (write_node_block
            { (_oncefs_reserve_node_id ofs).2 with
              nodes := (table_insert_or_replace (_oncefs_reserve_node_id ofs).2.nodes entry).2 }
            BLOCK_OPERATION_NODE entry) := by
  obtain ⟨entry, he, hn⟩ := init_node_fresh ofs path NODE_TYPE_FILE now h
  refine ⟨entry, hn, ?_⟩
  unfold oncefs_set_file set_node
  rw [he]
  dsimp only
  rw [if_neg (by decide), if_neg (by rw [table_insert_or_replace_rc]; decide)]

/-- C5 (reuse correctness), as the code has it.  On an engine state
satisfying the invariant: (1) when the container is full, no block is FREE
or DELETE, the node ids have not wrapped (`next_node_id < 2^32`) and every
block belongs to a node id below `next_node_id`, `set_file` on a path that
does not exist yet, directly under an existing directory, returns
NO_SPACE; (2) after one successful `del_node`,
`set_file` on a path that (after the delete) does not exist yet and lies
directly under an existing directory returns OK. -/
theorem c5_reuse_after_delete (ofs : oncefs_t) (path : List Char) (now : Nat × Nat)
    (hwf : engine_wf ofs) :
    (container_full ofs → no_free_or_delete ofs → ofs.next_node_id < 2 ^ 32 →
      (∀ b ∈ live_blocks ofs, b.data.node < ofs.next_node_id) → fresh_path ofs path →
      (oncefs_set_file ofs path now).map (fun r => r.1) = some (-ENOSPC)) ∧
    (∀ (victim : List Char) (ofs1 : oncefs_t),
      oncefs_del_node ofs victim = some (0, ofs1) → fresh_path ofs1 path →
      (oncefs_set_file ofs1 path now).map (fun r => r.1) = some 0) := by
  constructor
  · intro hfull hnone hnn hnodes hfresh
    obtain ⟨entry, hen, hset⟩ := set_file_fresh ofs path now hfresh
    rw [hset]
    have hlive : live_blocks { (_oncefs_reserve_node_id ofs).2 with
        nodes := (table_insert_or_replace (_oncefs_reserve_node_id ofs).2.nodes entry).2 }
        = live_blocks ofs := rfl
    have hwf2 : blocks_wf { (_oncefs_reserve_node_id ofs).2 with
        nodes := (table_insert_or_replace (_oncefs_reserve_node_id ofs).2.nodes entry).2 } :=
      hwf.1
    have hspec := block_reuse_spec _ hwf2 entry.node
    rw [hlive] at hspec
    have hnf : ¬ ∃ b ∈ live_blocks ofs, b.tag.operation = BLOCK_OPERATION_FREE :=
      fun ⟨b, hb, ho⟩ => (hnone b hb).1 ho
    have hnd : ¬ ∃ b ∈ live_blocks ofs, b.tag.operation = BLOCK_OPERATION_DELETE :=
      fun ⟨b, hb, ho⟩ => (hnone b hb).2 ho
    have hno : ¬ ∃ b ∈ live_blocks ofs,
        b.tag.operation = BLOCK_OPERATION_NODE ∧ b.data.node = entry.node := by
      rintro ⟨b, hb, -, hnode⟩
      have := hnodes b hb
      rw [hen, Nat.mod_eq_of_lt hnn] at hnode
      omega
    have hsp := hspec.2.2.2 hnf hnd (Or.inr hno)
    have hcb : (_oncefs_create_block { (_oncefs_reserve_node_id ofs).2 with
        nodes := (table_insert_or_replace (_oncefs_reserve_node_id ofs).2.nodes entry).2 }
        BLOCK_OPERATION_NODE entry.node 0 0).1 = -ENOSPC := by
      unfold _oncefs_create_block
      rw [if_neg (by
        show ¬ ofs.next_block_id ≤ ofs.last_block_id
        unfold container_full at hfull; omega),
        if_pos (by rw [hsp]; decide)]
      exact hsp
    rw [Option.map_some']
    dsimp only
    rw [write_node_block_fail _ _ _ (by rw [hcb]; decide), hcb]
  · intro victim ofs1 hdel hfresh
    have hwf1 : engine_wf ofs1 :=
      del_node_closed _ engine_wf_step_closed ofs victim (0, ofs1) hdel hwf
    have hfacts : (∃ b ∈ live_blocks ofs1, b.tag.operation = BLOCK_OPERATION_DELETE) ∧
        (∀ dev, ofs1.io = some dev → SIZEOF_TAG + SIZEOF_NODE ≤ dev.block_size) := by
      unfold oncefs_del_node at hdel
      cases hr : _oncefs_resolve_node ofs victim with
      | none => rw [hr] at hdel; cases hdel
      | some r =>
        rw [hr] at hdel
        dsimp only at hdel
        split at hdel
        · rename_i h1
          obtain ⟨h2, -⟩ := Prod.mk.inj (Option.some.inj hdel)
          exact absurd h2 h1
        · split at hdel
          · rename_i h1
            have h2 := congrArg Prod.fst (Option.some.inj hdel)
            exact absurd h2 h1
          · have hwfd : engine_wf (_oncefs_del_node ofs r.2 1).2 :=
              del_node_helper_closed _ engine_wf_step_closed.totable_step_closed ofs r.2 1 hwf
            have h2 := Option.some.inj hdel
            have h3 := write_node_block_ok_facts (_oncefs_del_node ofs r.2 1).2
              BLOCK_OPERATION_DELETE r.2 hwfd.1 (by rw [h2])
            rw [h2] at h3
            exact h3
    obtain ⟨⟨b, hb, hop⟩, hsz⟩ := hfacts
    obtain ⟨entry, hen, hset⟩ := set_file_fresh ofs1 path now hfresh
    rw [hset, Option.map_some']
    dsimp only
    have hwf2 : engine_wf { (_oncefs_reserve_node_id ofs1).2 with
        nodes := (table_insert_or_replace (_oncefs_reserve_node_id ofs1).2.nodes entry).2 } :=
      engine_wf_step_closed.nodes_insert _ entry (engine_wf_step_closed.reserve ofs1 hwf1)
    have hcb := create_block_ok { (_oncefs_reserve_node_id ofs1).2 with
        nodes := (table_insert_or_replace (_oncefs_reserve_node_id ofs1).2.nodes entry).2 }
      BLOCK_OPERATION_NODE entry.node 0 0 hwf2.1 (Or.inr ⟨b, hb, Or.inr hop⟩)
    rw [write_node_block_ok _ _ _ hwf2 hcb hsz]

/-- Witness of C5 on the full container holding the directory `/d` and the
file `/f`: `set_file("/x")` returns NO_SPACE, and OK after
`del_node("/f")`. -/
theorem c5_reuse_after_delete_witness :
    container_full (engine_after 512 3 c5_setup) ∧
    no_free_or_delete (engine_after 512 3 c5_setup) ∧
    fresh_path (engine_after 512 3 c5_setup) "/x".toList ∧
    (oncefs_set_file (engine_after 512 3 c5_setup) "/x".toList (12, 12)).map (fun r => r.1)
      = some (-ENOSPC) ∧
    ∃ ofs1, oncefs_del_node (engine_after 512 3 c5_setup) "/f".toList = some (0, ofs1) ∧
      fresh_path ofs1 "/x".toList ∧
      (oncefs_set_file ofs1 "/x".toList (12, 12)).map (fun r => r.1) = some 0 :=
  ⟨by decide, by decide, by decide,
    (c5_reuse_after_delete (engine_after 512 3 c5_setup) "/x".toList (12, 12)
      (reachable_engine_wf _ (engine_after_reachable 512 3 _ (by decide) (by decide)))).1
      (by decide) (by decide) (by decide) (by decide) (by decide),
    ⟨((oncefs_del_node (engine_after 512 3 c5_setup) "/f".toList).get (by decide)).2,
      option_pair_eq_some _ (by decide) _ (by decide), by decide,
      (c5_reuse_after_delete (engine_after 512 3 c5_setup) "/x".toList (12, 12)
        (reachable_engine_wf _ (engine_after_reachable 512 3 _ (by decide) (by decide)))).2
        "/f".toList _ (option_pair_eq_some _ (by decide) _ (by decide)) (by decide)⟩⟩

/-! ## Replay: the state the replay loop works on -/

theorem core_nodes (s : oncefs_t) : (core s).nodes = s.nodes := rfl
theorem core_blocks (s : oncefs_t) : (core s).blocks = s.blocks := rfl
theorem core_next_node_id (s : oncefs_t) : (core s).next_node_id = s.next_node_id := rfl
theorem core_next_block_id (s : oncefs_t) : (core s).next_block_id = s.next_block_id := rfl
theorem core_payload_size (s : oncefs_t) : (core s).payload_size = s.payload_size := rfl

theorem move_node_core (s : oncefs_t) (node : oncefs_node_t) :
    _oncefs_move_node (core s) node
      = ((_oncefs_move_node s node).1, core (_oncefs_move_node s node).2) := by
  unfold _oncefs_move_node
  simp only [core_nodes]
  split_ifs <;> rfl

theorem del_node_core (s : oncefs_t) (node : oncefs_node_t) (check : Int) :
    _oncefs_del_node (core s) node check
      = ((_oncefs_del_node s node check).1, core (_oncefs_del_node s node check).2) := by
  unfold _oncefs_del_node
  simp only [core_nodes, core_blocks]
  split_ifs <;> rfl

theorem del_data_core (s : oncefs_t) (node new_size : Nat) :
    _oncefs_del_data (core s) node new_size
      = ((_oncefs_del_data s node new_size).1, core (_oncefs_del_data s node new_size).2) := by
  unfold _oncefs_del_data
  simp only [core_blocks, core_payload_size]
  split_ifs <;> rfl

theorem load_block_data_core (s : oncefs_t) (tagged : oncefs_tagged_block_t)
    (data : oncefs_data_t) :
    _oncefs_load_block_data (core s) tagged data
      = ((_oncefs_load_block_data s tagged data).1,
         core (_oncefs_load_block_data s tagged data).2) := by
  unfold _oncefs_load_block_data _oncefs_init_block
  simp only [core_next_node_id]
  split_ifs <;> rfl

theorem load_advance_core (s : oncefs_t) (cursor : oncefs_tagged_block_t) :
    load_advance (core s) cursor = core (load_advance s cursor) := by
  unfold load_advance
  simp only [core_next_block_id]
  split_ifs <;> rfl


theorem load_step_core (s : oncefs_t) (io : io_t) (cursor : oncefs_tagged_block_t) :
    load_step (core s) io cursor
      = (load_step s io cursor).map (fun r => (r.1, core r.2)) := by
  have hnode : ∀ (x : oncefs_t) (t : oncefs_tagged_block_t) (n : oncefs_node_t),
      _oncefs_load_block_node (core x) t n
        = ((_oncefs_load_block_node x t n).1, core (_oncefs_load_block_node x t n).2) :=
    fun x t n => by
      rw [load_block_node_eq, load_block_node_eq]
      exact load_block_data_core x t _
  have hins : ∀ (X : table_t oncefs_node_t),
      (oncefs_t.mk (core s).next_node_id (core s).first_block_id (core s).last_block_id
        (core s).next_block_id (core s).next_seq_id (core s).time X (core s).blocks (core s).io
        (core s).payload_size (core s).block_size)
        = core { s with nodes := X } := fun _ => rfl
  unfold load_step
  simp only [core_nodes, hins, hnode, move_node_core, del_node_core, del_data_core,
    load_block_data_core, load_advance_core]
  by_cases h1 : cursor.tag.operation = BLOCK_OPERATION_DATA
  · simp only [if_pos h1]
    split
    · rfl
    · split
      · split <;> rfl
      · rfl
  · simp only [if_neg h1]
    by_cases h2 : cursor.tag.operation = BLOCK_OPERATION_NODE
    · simp only [if_pos h2]
      split
      · rfl
      · split
        · split
          · rfl
          · split <;> rfl
        · rfl
    · simp only [if_neg h2]
      by_cases h3 : cursor.tag.operation = BLOCK_OPERATION_MOVE
      · simp only [if_pos h3]
        split
        · rfl
        · split
          · split
            · rfl
            · split <;> rfl
          · rfl
      · simp only [if_neg h3]
        by_cases h4 : cursor.tag.operation = BLOCK_OPERATION_DELETE
        · simp only [if_pos h4]
          split
          · rfl
          · split
            · split
              · rfl
              · split <;> rfl
            · rfl
        · simp only [if_neg h4]
          by_cases h5 : cursor.tag.operation = BLOCK_OPERATION_TRUNCATE
          · simp only [if_pos h5]
            split
            · rfl
            · split
              · split
                · rfl
                · split <;> rfl
              · rfl
          · simp only [if_neg h5]
            rfl

/-- The replay loop works on the core of the state alone. -/
theorem load_loop_core (io : io_t) : ∀ (tags : List oncefs_tagged_block_t) (s : oncefs_t),
    load_loop io tags (core s) = (load_loop io tags s).map (fun r => (r.1, core r.2)) := by
  intro tags
  induction tags with
  | nil => intro s; rfl
  | cons c rest ih =>
    intro s
    unfold load_loop
    rw [load_step_core]
    cases h : load_step s io c with
    | none => rfl
    | some r =>
      dsimp only [Option.map]
      split
      · rfl
      · exact ih r.2

/-- One round of the replay reads the container at the block of the cursor
alone. -/
theorem load_step_congr (s : oncefs_t) (dev : io_t) (buffer : List disk_block_t)
    (c : oncefs_tagged_block_t)
    (h : buffer.getD c.block default = dev.buffer.getD c.block default) :
    load_step s { dev with buffer := buffer } c = load_step s dev c := by
  unfold load_step io_check
  dsimp only
  rw [h]

/-- The replay loop reads the container at the blocks of its cursors
alone. -/
theorem load_loop_congr (dev : io_t) (buffer : List disk_block_t) :
    ∀ (tags : List oncefs_tagged_block_t) (s : oncefs_t),
      (∀ c ∈ tags, buffer.getD c.block default = dev.buffer.getD c.block default) →
      load_loop { dev with buffer := buffer } tags s = load_loop dev tags s := by
  intro tags
  induction tags with
  | nil => intro s _; rfl
  | cons c rest ih =>
    intro s h
    unfold load_loop
    rw [load_step_congr s dev buffer c (h c (List.mem_cons_self _ _))]
    cases h1 : load_step s dev c with
    | none => rfl
    | some r =>
      dsimp only
      split
      · rfl
      · exact ih r.2 (fun c2 hc2 => h c2 (List.mem_cons_of_mem _ hc2))

/-- The replay loop over two lists of cursors one after the other. -/
theorem load_loop_append (io : io_t) : ∀ (l1 l2 : List oncefs_tagged_block_t)
    (s s1 : oncefs_t), load_loop io l1 s = some (0, s1) →
    load_loop io (l1 ++ l2) s = load_loop io l2 s1 := by
  intro l1
  induction l1 with
  | nil =>
    intro l2 s s1 h
    simp only [load_loop] at h
    obtain ⟨-, h2⟩ := Prod.mk.inj (Option.some.inj h)
    subst h2
    rfl
  | cons c rest ih =>
    intro l2 s s1 h
    rw [List.cons_append]
    rw [load_loop] at h
    rw [load_loop]
    cases h1 : load_step s io c with
    | none => rw [h1] at h; cases h
    | some r =>
      rw [h1] at h
      dsimp only at h ⊢
      by_cases hr : r.1 ≠ 0
      · rw [if_pos hr] at h
        have := congrArg Prod.fst (Option.some.inj h)
        exact absurd this hr
      · rw [if_neg hr] at h
        rw [if_neg hr]
        exact ih l2 r.2 s1 h

theorem log_tags_succ (dev : io_t) (nb : Nat) (h : 1 ≤ nb) :
    log_tags dev (nb + 1)
      = log_tags dev nb ++ [{ block := nb, tag := (dev.buffer.getD nb default).tag }] := by
  unfold log_tags
  have : nb + 1 - 1 = (nb - 1) + 1 := by omega
  rw [this, List.range'_concat, List.map_append]
  simp only [List.map_cons, List.map_nil]
  have e : 1 + 1 * (nb - 1) = nb := by omega
  rw [e]

theorem log_tags_mem (dev : io_t) (nb : Nat) (c : oncefs_tagged_block_t)
    (h : c ∈ log_tags dev nb) :
    1 ≤ c.block ∧ c.block < nb ∧ c.tag = (dev.buffer.getD c.block default).tag := by
  unfold log_tags at h
  rw [List.mem_map] at h
  obtain ⟨i, hi, rfl⟩ := h
  rw [List.mem_range'_1] at hi
  exact ⟨hi.1, by show i < nb; omega, rfl⟩

theorem log_tags_congr (dev : io_t) (buffer : List disk_block_t) (nb : Nat)
    (h : ∀ i, 1 ≤ i → i < nb → buffer.getD i default = dev.buffer.getD i default) :
    log_tags { dev with buffer := buffer } nb = log_tags dev nb := by
  unfold log_tags
  apply List.map_congr_left
  intro i hi
  rw [List.mem_range'_1] at hi
  dsimp only
  rw [h i hi.1 (by omega)]

theorem getD_set_eq {α : Type} (l : List α) (i : Nat) (a d : α) (h : i < l.length) :
    (l.set i a).getD i d = a := by
  rw [List.getD_eq_getElem _ _ (by simpa using h)]
  simp

theorem getD_set_ne {α : Type} (l : List α) (i j : Nat) (a d : α) (h : j ≠ i) :
    (l.set i a).getD j d = l.getD j d := by
  simp only [List.getD_eq_getElem?_getD]
  rw [List.getElem?_set_ne (Ne.symm h)]

/-- The state the replay starts from depends on the container through its
block size and its last valid block alone. -/
theorem core_init_state_buffer (dev : io_t) (buffer : List disk_block_t) :
    core (oncefs_init_state (some { dev with buffer := buffer }))
      = core (oncefs_init_state (some dev)) := rfl

/-- The replay invariant after one more block has been written and the
engine has moved to the state the replay of that block ends in. -/
theorem replay_extend (bs : Int) (L : Nat) (s s1 : oncefs_t) (dev : io_t) (image : disk_block_t)
    (hinv : replay_inv bs L s dev) (hroom : s.next_block_id ≤ L)
    (hio1 : s1.io = some { dev with buffer := dev.buffer.set s.next_block_id image })
    (hseq : image.tag.seq = s.next_seq_id)
    (hop : image.tag.operation < BLOCK_OPERATION_LAST)
    (hstep : load_step (core s) { dev with buffer := dev.buffer.set s.next_block_id image }
      { block := s.next_block_id, tag := image.tag } = some (0, core s1))
    (hnb : s1.next_block_id = s.next_block_id + 1) (hns : s1.next_seq_id = s.next_seq_id + 1)
    (hwf : engine_wf s1) :
    replay_inv bs L s1 { dev with buffer := dev.buffer.set s.next_block_id image } := by
  have hlen : s.next_block_id < dev.buffer.length :=
    hinv.dev_length _ hinv.next_block hroom
  have hget : (dev.buffer.set s.next_block_id image).getD s.next_block_id default = image :=
    getD_set_eq _ _ _ _ hlen
  have hold : ∀ i, i ≠ s.next_block_id →
      (dev.buffer.set s.next_block_id image).getD i default = dev.buffer.getD i default :=
    fun i hi => getD_set_ne _ _ _ _ _ hi
  refine { io := hio1, dev_block_size := hinv.dev_block_size, dev_last := hinv.dev_last,
           dev_length := ?_, written := ?_, formatted := ?_, replay := ?_, next_seq := ?_,
           next_block := ?_, wf := hwf }
  · intro i h1 h2
    have := hinv.dev_length i h1 h2
    simpa using this
  · intro i h1 h2
    dsimp only
    by_cases hi : i = s.next_block_id
    · subst hi
      rw [hget, hseq, hinv.next_seq]
      exact ⟨rfl, hop⟩
    · rw [hold i hi]
      exact hinv.written i h1 (by omega)
  · intro i h1 h2
    dsimp only
    rw [hold i (by omega)]
    exact hinv.formatted i (by omega) h2
  · rw [hnb, log_tags_succ _ _ hinv.next_block, core_init_state_buffer]
    have h1 : log_tags { dev with buffer := dev.buffer.set s.next_block_id image } s.next_block_id
        = log_tags dev s.next_block_id :=
      log_tags_congr dev _ _ (fun i _ h3 => hold i (by omega))
    have h2 : load_loop { dev with buffer := dev.buffer.set s.next_block_id image }
        (log_tags dev s.next_block_id) (core (oncefs_init_state (some dev)))
        = some (0, core s) := by
      rw [load_loop_congr dev _ _ _ (fun c hc => hold c.block (by
        have := (log_tags_mem dev _ c hc).2.1; omega))]
      exact hinv.replay
    rw [h1, load_loop_append _ _ _ _ _ h2]
    dsimp only
    rw [hget]
    unfold load_loop
    rw [hstep]
    dsimp only
    rw [if_neg (by simp)]
    rfl
  · rw [hns, hnb, hinv.next_seq]
  · rw [hnb]; omega

/-- Across the primitive state changes `next_block_id` does not decrease and
`last_block_id` stays. -/
theorem room_step_closed : step_closed (fun s s1 =>
    s.next_block_id ≤ s1.next_block_id ∧ s1.last_block_id = s.last_block_id) := by
  refine { refl := ?_, trans := ?_, nodes_insert := ?_, nodes_delete := ?_, blocks_free := ?_,
           blocks_truncate := ?_, create_block := ?_, set_io := ?_, reserve := ?_ }
  · intro s; exact ⟨le_refl _, rfl⟩
  · intro a b c hab hbc; exact ⟨le_trans hab.1 hbc.1, hbc.2.trans hab.2⟩
  · intro s row; exact ⟨le_refl _, rfl⟩
  · intro s key; exact ⟨le_refl _, rfl⟩
  · intro s key; exact ⟨le_refl _, rfl⟩
  · intro s key new_size; exact ⟨le_refl _, rfl⟩
  · intro s operation node size offset
    unfold _oncefs_create_block
    split
    · rw [create_block_tail_state]
      exact ⟨Nat.le_succ _, rfl⟩
    · split
      · exact ⟨le_refl _, rfl⟩
      · rw [create_block_tail_state]
        exact ⟨le_refl _, rfl⟩
  · intro s dev buffer _; exact ⟨le_refl _, rfl⟩
  · intro s; exact ⟨le_refl _, rfl⟩

/-- `_oncefs_create_block` on an engine with an unused block. -/
theorem create_block_fresh (x : oncefs_t) (operation : Int) (node size offset : Nat)
    (hroom : x.next_block_id ≤ x.last_block_id) (h32 : x.next_block_id < 2 ^ 32) :
    _oncefs_create_block x operation node size offset
      = (0,
         { x with
           next_block_id := x.next_block_id + 1,
           next_seq_id := x.next_seq_id + 1,
           next_node_id := if node ≥ x.next_node_id then (node + 1) % 2 ^ 32 else x.next_node_id,
           blocks := (table_insert_or_replace x.blocks
             { block := x.next_block_id, tag := { seq := x.next_seq_id, operation := operation },
               data := { node := node, fill := size % 2 ^ 16, offset := offset } }).2 },
         { block := x.next_block_id, tag := { seq := x.next_seq_id, operation := operation },
           data := { node := node, fill := size % 2 ^ 16, offset := offset } }) := by
  unfold _oncefs_create_block
  rw [if_pos hroom]
  have h1 := create_block_tail_rc { x with next_block_id := x.next_block_id + 1 }
    (x.next_block_id % 2 ^ 32) operation node size offset
  have h2 := create_block_tail_state { x with next_block_id := x.next_block_id + 1 }
    (x.next_block_id % 2 ^ 32) operation node size offset
  have h3 := create_block_tail_record { x with next_block_id := x.next_block_id + 1 }
    (x.next_block_id % 2 ^ 32) operation node size offset
  rw [Nat.mod_eq_of_lt h32] at h1 h2 h3
  rw [Nat.mod_eq_of_lt h32]
  refine Prod.ext h1 (Prod.ext ?_ h3)
  rw [h2]

/-- `io_write2` of a tag and a node record into a valid block that holds
it. -/
theorem io_write_node_ok (dev : io_t) (block : Nat) (tag : oncefs_tag_t) (node : oncefs_node_t)
    (hb : block ≤ dev.last_valid_block) (hs : SIZEOF_TAG + SIZEOF_NODE ≤ dev.block_size) :
    io_write_node dev block tag node
      = (0, { dev with buffer := dev.buffer.set block { tag := tag, body := body_t.node node } }) := by
  have hc : io_check dev block (SIZEOF_TAG + SIZEOF_NODE) = 0 := by
    unfold io_check
    rw [if_neg (by omega), if_neg (by omega)]
  unfold io_write_node
  rw [if_neg (by rw [hc]; simp)]

/-- `io_write3` of a tag, a data header and bytes into a valid block that
holds them. -/
theorem io_write_data_ok (dev : io_t) (block : Nat) (tag : oncefs_tag_t) (data : oncefs_data_t)
    (bytes : List Nat) (hb : block ≤ dev.last_valid_block)
    (hs : SIZEOF_TAG + SIZEOF_DATA + bytes.length ≤ dev.block_size) :
    io_write_data dev block tag data bytes
      = (0, { dev with
              buffer := dev.buffer.set block (disk_block_t.mk tag (body_t.data data bytes)) }) := by
  have hc : io_check dev block (SIZEOF_TAG + SIZEOF_DATA + bytes.length) = 0 := by
    unfold io_check
    rw [if_neg (by omega), if_neg (by omega)]
  unfold io_write_data
  rw [if_neg (by rw [hc]; simp)]

/-- `write_node_block` on an engine with an unused block, whose container
holds a node record in a block. -/
theorem write_node_block_fresh (x : oncefs_t) (dev : io_t) (operation : Int)
    (entry : oncefs_node_t) (hio : x.io = some dev)
    (hroom : x.next_block_id ≤ x.last_block_id) (h32 : x.next_block_id < 2 ^ 32)
    (hlast : dev.last_valid_block = x.last_block_id)
    (hbs : SIZEOF_TAG + SIZEOF_NODE ≤ dev.block_size) :
    write_node_block x operation entry
      = (0,
         { x with
           next_block_id := x.next_block_id + 1,
           next_seq_id := x.next_seq_id + 1,
           next_node_id :=
             if entry.node ≥ x.next_node_id then (entry.node + 1) % 2 ^ 32 else x.next_node_id,
           blocks := (table_insert_or_replace x.blocks
             { block := x.next_block_id, tag := { seq := x.next_seq_id, operation := operation },
               data := { node := entry.node, fill := 0, offset := 0 } }).2,
           io := some { dev with
             buffer := dev.buffer.set x.next_block_id
               (disk_block_t.mk (oncefs_tag_t.mk x.next_seq_id operation) (body_t.node entry)) } }) := by
  unfold write_node_block
  rw [create_block_fresh x operation entry.node 0 0 hroom h32]
  dsimp only
  rw [if_neg (by simp)]
  simp only [hio]
  rw [io_write_node_ok dev _ _ _ (by omega) hbs]
  simp

/-- The replay of a block at `next_block_id`: the record is inserted,
`next_node_id` raised above its node and `next_block_id` moved behind it. -/
theorem load_block_explicit (y : oncefs_t) (tagged : oncefs_tagged_block_t)
    (data : oncefs_data_t) (h : tagged.block = y.next_block_id) :
    load_advance (_oncefs_load_block_data y tagged data).2 tagged
      = { y with
          next_block_id := y.next_block_id + 1,
          next_node_id :=
            if data.node ≥ y.next_node_id then (data.node + 1) % 2 ^ 32 else y.next_node_id,
          blocks := (table_insert_or_replace y.blocks
            { block := y.next_block_id, tag := tagged.tag,
              data := { node := data.node, fill := data.fill, offset := data.offset } }).2 } := by
  have hst : (_oncefs_load_block_data y tagged data).2
      = { y with
          next_node_id :=
            if data.node ≥ y.next_node_id then (data.node + 1) % 2 ^ 32 else y.next_node_id,
          blocks := (table_insert_or_replace y.blocks
            { block := tagged.block, tag := tagged.tag,
              data := { node := data.node, fill := data.fill, offset := data.offset } }).2 } := by
    unfold _oncefs_load_block_data
    dsimp only
    rw [init_block_state]
    rfl
  rw [hst]
  unfold load_advance
  dsimp only
  rw [if_pos (by omega), h]

/-- The replay of a NODE block. -/
theorem load_step_node (s : oncefs_t) (dev : io_t) (c : oncefs_tagged_block_t)
    (entry : oncefs_node_t) (hop : c.tag.operation = BLOCK_OPERATION_NODE)
    (hbody : (dev.buffer.getD c.block default).body = body_t.node entry)
    (hchk : io_check dev c.block (SIZEOF_TAG + SIZEOF_NODE) = 0) :
    load_step s dev c
      = some (0, load_advance
          (_oncefs_load_block_data
            { s with nodes := (table_insert_or_replace s.nodes entry).2 }
            { block := c.block, tag := (dev.buffer.getD c.block default).tag }
            { node := entry.node, fill := 0, offset := 0 }).2
          { block := c.block, tag := (dev.buffer.getD c.block default).tag }) := by
  unfold load_step
  dsimp only
  rw [if_neg (by rw [hop]; decide), if_pos hop, if_neg (by rw [hchk]; simp), hbody]
  dsimp only
  rw [if_neg (by rw [table_insert_or_replace_rc]; simp), load_block_node_eq,
    if_neg (by rw [load_block_data_rc]; simp)]

/-- The replay of a MOVE block whose move succeeds. -/
theorem load_step_move (s : oncefs_t) (dev : io_t) (c : oncefs_tagged_block_t)
    (entry : oncefs_node_t) (hop : c.tag.operation = BLOCK_OPERATION_MOVE)
    (hbody : (dev.buffer.getD c.block default).body = body_t.node entry)
    (hchk : io_check dev c.block (SIZEOF_TAG + SIZEOF_NODE) = 0)
    (hmv : (_oncefs_move_node s entry).1 = 0) :
    load_step s dev c
      = some (0, load_advance
          (_oncefs_load_block_data (_oncefs_move_node s entry).2
            { block := c.block, tag := (dev.buffer.getD c.block default).tag }
            { node := entry.node, fill := 0, offset := 0 }).2
          { block := c.block, tag := (dev.buffer.getD c.block default).tag }) := by
  unfold load_step
  dsimp only
  rw [if_neg (by rw [hop]; decide), if_neg (by rw [hop]; decide), if_pos hop,
    if_neg (by rw [hchk]; simp), hbody]
  dsimp only
  rw [if_neg (by rw [hmv]; simp), load_block_node_eq,
    if_neg (by rw [load_block_data_rc]; simp)]

/-- The replay of a DELETE block. -/
theorem load_step_delete (s : oncefs_t) (dev : io_t) (c : oncefs_tagged_block_t)
    (entry : oncefs_node_t) (hop : c.tag.operation = BLOCK_OPERATION_DELETE)
    (hbody : (dev.buffer.getD c.block default).body = body_t.node entry)
    (hchk : io_check dev c.block (SIZEOF_TAG + SIZEOF_NODE) = 0)
    (hdel : (_oncefs_del_node s entry 0).1 = 0) :
    load_step s dev c
      = some (0, load_advance
          (_oncefs_load_block_data (_oncefs_del_node s entry 0).2
            { block := c.block, tag := (dev.buffer.getD c.block default).tag }
            { node := entry.node, fill := 0, offset := 0 }).2
          { block := c.block, tag := (dev.buffer.getD c.block default).tag }) := by
  unfold load_step
  dsimp only
  rw [if_neg (by rw [hop]; decide), if_neg (by rw [hop]; decide), if_neg (by rw [hop]; decide),
    if_pos hop, if_neg (by rw [hchk]; simp), hbody]
  dsimp only
  rw [if_neg (by rw [hdel]; simp), load_block_node_eq,
    if_neg (by rw [load_block_data_rc]; simp)]

/-- The replay of a DATA block. -/
theorem load_step_data (s : oncefs_t) (dev : io_t) (c : oncefs_tagged_block_t)
    (data : oncefs_data_t) (bytes : List Nat) (hop : c.tag.operation = BLOCK_OPERATION_DATA)
    (hbody : (dev.buffer.getD c.block default).body = body_t.data data bytes)
    (hchk : io_check dev c.block (SIZEOF_TAG + SIZEOF_DATA) = 0) :
    load_step s dev c
      = some (0, load_advance
          (_oncefs_load_block_data s
            { block := c.block, tag := (dev.buffer.getD c.block default).tag } data).2
          { block := c.block, tag := (dev.buffer.getD c.block default).tag }) := by
  unfold load_step
  dsimp only
  rw [if_pos hop, if_neg (by rw [hchk]; simp), hbody]
  dsimp only
  rw [if_neg (by rw [load_block_data_rc]; simp)]

/-- The replay of a TRUNCATE block. -/
theorem load_step_truncate (s : oncefs_t) (dev : io_t) (c : oncefs_tagged_block_t)
    (data : oncefs_data_t) (bytes : List Nat)
    (hop : c.tag.operation = BLOCK_OPERATION_TRUNCATE)
    (hbody : (dev.buffer.getD c.block default).body = body_t.data data bytes)
    (hchk : io_check dev c.block (SIZEOF_TAG + SIZEOF_DATA) = 0)
    (hdd : (_oncefs_del_data s data.node data.offset).1 = 0) :
    load_step s dev c
      = some (0, load_advance
          (_oncefs_load_block_data (_oncefs_del_data s data.node data.offset).2
            { block := c.block, tag := (dev.buffer.getD c.block default).tag } data).2
          { block := c.block, tag := (dev.buffer.getD c.block default).tag }) := by
  unfold load_step
  dsimp only
  rw [if_neg (by rw [hop]; decide), if_neg (by rw [hop]; decide), if_neg (by rw [hop]; decide),
    if_neg (by rw [hop]; decide), if_pos hop, if_neg (by rw [hchk]; simp), hbody]
  dsimp only
  rw [if_neg (by rw [hdd]; simp), if_neg (by rw [load_block_data_rc]; simp)]

/-- Two states have the same core when they agree on everything but the
container handle, the time and `next_seq_id`. -/
theorem core_eq (a b : oncefs_t) (h1 : a.next_node_id = b.next_node_id)
    (h2 : a.first_block_id = b.first_block_id) (h3 : a.last_block_id = b.last_block_id)
    (h4 : a.next_block_id = b.next_block_id) (h5 : a.nodes = b.nodes) (h6 : a.blocks = b.blocks)
    (h7 : a.payload_size = b.payload_size) (h8 : a.block_size = b.block_size) :
    core a = core b := by
  cases a; cases b
  simp only [core] at *
  simp only [h1, h2, h3, h4, h5, h6, h7, h8]

/-- A state is determined by its core, its container handle, its time and
its `next_seq_id`. -/
theorem eq_of_core_eq (a b : oncefs_t) (h : core a = core b) (h1 : a.io = b.io)
    (h2 : a.time = b.time) (h3 : a.next_seq_id = b.next_seq_id) : a = b := by
  cases a; cases b
  simp only [core, oncefs_t.mk.injEq] at h
  simp only at h1 h2 h3
  simp only [oncefs_t.mk.injEq]
  tauto

/-- The replay invariant after one more block: the engine has written the
image at `next_block_id` and is in the state the replay of that block ends
in. -/
theorem replay_block (bs : Int) (L : Nat) (s y s1 : oncefs_t) (dev : io_t)
    (image : disk_block_t) (data : oncefs_data_t)
    (hinv : replay_inv bs L s dev) (hroom : s.next_block_id ≤ L)
    (hseq : image.tag.seq = s.next_seq_id)
    (hop : image.tag.operation < BLOCK_OPERATION_LAST)
    (hload : load_step s { dev with buffer := dev.buffer.set s.next_block_id image }
        { block := s.next_block_id, tag := image.tag }
      = some (0, load_advance
          (_oncefs_load_block_data y { block := s.next_block_id, tag := image.tag } data).2
          { block := s.next_block_id, tag := image.tag }))
    (hy : y.next_block_id = s.next_block_id)
    (hs1 : core s1 = core { y with
      next_block_id := y.next_block_id + 1,
      next_node_id :=
        if data.node ≥ y.next_node_id then (data.node + 1) % 2 ^ 32 else y.next_node_id,
      blocks := (table_insert_or_replace y.blocks
        { block := y.next_block_id, tag := image.tag,
          data := { node := data.node, fill := data.fill, offset := data.offset } }).2 })
    (hio1 : s1.io = some { dev with buffer := dev.buffer.set s.next_block_id image })
    (hns : s1.next_seq_id = s.next_seq_id + 1) (hwf : engine_wf s1) :
    replay_inv bs L s1 { dev with buffer := dev.buffer.set s.next_block_id image } := by
  refine replay_extend bs L s s1 dev image hinv hroom hio1 hseq hop ?_ ?_ hns hwf
  · rw [load_step_core, hload, Option.map_some']
    dsimp only
    rw [load_block_explicit y _ data (by rw [hy]), hs1]
  · have := congrArg oncefs_t.next_block_id hs1
    simp only [core] at this
    rw [this, hy]

/-- What `_oncefs_init_node` leaves: the engine as it was on failure, a
reserved node id on success. -/
theorem init_node_result (s : oncefs_t) (path : List Char) (type : Int) (now : Nat × Nat)
    (r : Int × oncefs_t × oncefs_node_t) (h : _oncefs_init_node s path type now = some r) :
    (r.1 ≠ 0 → r.2.1 = s) ∧
    (r.1 = 0 → r.2.1 = { s with next_node_id := s.next_node_id + 1 } ∧
      r.2.2.node = s.next_node_id % 2 ^ 32) := by
  unfold _oncefs_init_node at h
  split at h
  · cases h
  · split at h
    · cases h
    · split at h
      · cases h; exact ⟨fun _ => rfl, fun h0 => by simp at h0⟩
      · split at h
        · rename_i h1 h2
          cases h
          exact ⟨fun _ => rfl, fun h0 => absurd h0 h1⟩
        · split at h
          · cases h
          · split at h
            · rename_i h1
              cases h
              exact ⟨fun _ => rfl, fun h0 => absurd h0 h1⟩
            · split at h
              · cases h; exact ⟨fun _ => rfl, fun h0 => by simp at h0⟩
              · split at h
                · cases h
                · cases h
                  exact ⟨fun h0 => absurd rfl h0, fun _ => ⟨rfl, rfl⟩⟩

/-- The facts about the container an engine state with the replay invariant
carries. -/
theorem replay_inv_facts (bs : Int) (L : Nat) (s : oncefs_t) (dev : io_t)
    (hinv : replay_inv bs L s dev) :
    s.last_block_id = L ∧ dev.last_valid_block = s.last_block_id ∧ dev.block_size = bs :=
  ⟨((hinv.wf.2.2.2 dev hinv.io).1).symm.trans hinv.dev_last, (hinv.wf.2.2.2 dev hinv.io).1,
    hinv.dev_block_size⟩

/-- The engine invariant does not look at `next_node_id`. -/
theorem engine_wf_next_node_id (s : oncefs_t) (n : Nat) (h : engine_wf s) :
    engine_wf { s with next_node_id := n } :=
  ⟨h.1, h.2.1, h.2.2.1, h.2.2.2⟩

/-- The replay invariant after a node row has been inserted (or replaced)
and its NODE block written, with the node id drawn from `next_node_id` or
not. -/
theorem replay_node_block (bs : Int) (L : Nat) (hbs : SIZEOF_TAG + SIZEOF_NODE ≤ bs)
    (hL : L < 2 ^ 32) (s : oncefs_t) (dev : io_t) (entry : oncefs_node_t) (n : Nat)
    (hinv : replay_inv bs L s dev) (hroom : s.next_block_id ≤ L)
    (hn : (if entry.node ≥ n then (entry.node + 1) % 2 ^ 32 else n)
      = (if entry.node ≥ s.next_node_id then (entry.node + 1) % 2 ^ 32 else s.next_node_id)) :
    (write_node_block
      { s with next_node_id := n, nodes := (table_insert_or_replace s.nodes entry).2 }
      BLOCK_OPERATION_NODE entry).1 = 0 ∧
    ∃ dev1, replay_inv bs L (write_node_block
      { s with next_node_id := n, nodes := (table_insert_or_replace s.nodes entry).2 }
      BLOCK_OPERATION_NODE entry).2 dev1 := by
  obtain ⟨hl, hdl, hdb⟩ := replay_inv_facts bs L s dev hinv
  have hwf1 : engine_wf (write_node_block
      { s with next_node_id := n, nodes := (table_insert_or_replace s.nodes entry).2 }
      BLOCK_OPERATION_NODE entry).2 :=
    write_node_block_closed _ engine_wf_step_closed _ _ _
      (engine_wf_step_closed.nodes_insert { s with next_node_id := n } entry
        (engine_wf_next_node_id s n hinv.wf))
  have hfresh := write_node_block_fresh
    { s with next_node_id := n, nodes := (table_insert_or_replace s.nodes entry).2 } dev
    BLOCK_OPERATION_NODE entry hinv.io (by show s.next_block_id ≤ s.last_block_id; omega)
    (by show s.next_block_id < 2 ^ 32; omega) hdl (by rw [hdb]; exact hbs)
  rw [hfresh] at hwf1 ⊢
  refine ⟨rfl, _, replay_block bs L s
    { s with nodes := (table_insert_or_replace s.nodes entry).2 } _ dev
    (disk_block_t.mk (oncefs_tag_t.mk s.next_seq_id BLOCK_OPERATION_NODE) (body_t.node entry))
    { node := entry.node, fill := 0, offset := 0 } hinv hroom rfl
    (by show BLOCK_OPERATION_NODE < BLOCK_OPERATION_LAST; decide) ?_ rfl ?_ rfl rfl
    hwf1⟩
  · have hlen : s.next_block_id < dev.buffer.length := hinv.dev_length _ hinv.next_block hroom
    rw [load_step_node s _ _ entry rfl
      (by dsimp only; rw [getD_set_eq _ _ _ _ hlen])
      (by unfold io_check; dsimp only; rw [if_neg (by omega), if_neg (by omega)])]
    dsimp only
    rw [getD_set_eq _ _ _ _ hlen]
  · apply core_eq
    · exact hn
    · rfl
    · rfl
    · rfl
    · rfl
    · rfl
    · rfl
    · rfl

/-- The replay invariant across `oncefs_set_file` and `oncefs_set_dir`. -/
theorem set_node_replay (bs : Int) (L : Nat) (hbs : SIZEOF_TAG + SIZEOF_NODE ≤ bs)
    (hL : L < 2 ^ 32) (s : oncefs_t) (dev : io_t) (path : List Char) (type : Int)
    (now : Nat × Nat) (r : Int × oncefs_t) (hinv : replay_inv bs L s dev)
    (h : set_node s path type now = some r) (hroom : has_room r.2) :
    ∃ dev1, replay_inv bs L r.2 dev1 := by
  obtain ⟨hl, hdl, hdb⟩ := replay_inv_facts bs L s dev hinv
  have hmono := set_node_closed _ room_step_closed s path type now r h
  have hroom_s : s.next_block_id ≤ L := by
    have := hroom.1; omega
  unfold set_node at h
  cases hi : _oncefs_init_node s path type now with
  | none => rw [hi] at h; cases h
  | some r0 =>
    rw [hi] at h
    dsimp only at h
    obtain ⟨hf, hs⟩ := init_node_result s path type now r0 hi
    by_cases h0 : r0.1 = 0
    · obtain ⟨hst, hnode⟩ := hs h0
      rw [if_neg (by simpa using h0), if_neg (by rw [table_insert_or_replace_rc]; simp),
        hst] at h
      have h1 := Option.some.inj h
      have hfresh := write_node_block_fresh
        { s with next_node_id := s.next_node_id + 1,
                 nodes := (table_insert_or_replace s.nodes r0.2.2).2 } dev
        BLOCK_OPERATION_NODE r0.2.2 hinv.io
        (by show s.next_block_id ≤ s.last_block_id; omega)
        (by show s.next_block_id < 2 ^ 32; omega) hdl (by rw [hdb]; exact hbs)
      have hnn : r.2.next_node_id
          = if r0.2.2.node ≥ s.next_node_id + 1 then (r0.2.2.node + 1) % 2 ^ 32
            else s.next_node_id + 1 := by
        rw [← h1]
        exact congrArg (fun p => p.2.next_node_id) hfresh
      have hle : r0.2.2.node ≤ s.next_node_id := by
        rw [hnode]; exact Nat.mod_le _ _
      rw [if_neg (by omega)] at hnn
      have hlt := hroom.2
      rw [hnn] at hlt
      have hnode2 : r0.2.2.node = s.next_node_id := by
        rw [hnode]; exact Nat.mod_eq_of_lt (by omega)
      have key := replay_node_block bs L hbs hL s dev r0.2.2 (s.next_node_id + 1) hinv hroom_s
        (by
          rw [if_neg (by omega), if_pos (by omega), hnode2]
          exact (Nat.mod_eq_of_lt hlt).symm)
      rw [← h1]
      exact key.2
    · have := hf h0
      rw [if_pos h0] at h
      have h1 := Option.some.inj h
      rw [← h1]
      dsimp only
      rw [this]
      exact ⟨dev, hinv⟩

/-- The replay invariant across `oncefs_set_time`. -/
theorem set_time_replay (bs : Int) (L : Nat) (hbs : SIZEOF_TAG + SIZEOF_NODE ≤ bs)
    (hL : L < 2 ^ 32) (s : oncefs_t) (dev : io_t) (path : List Char) (a m : Nat)
    (r : Int × oncefs_t) (hinv : replay_inv bs L s dev)
    (h : oncefs_set_time s path a m = some r) (hroom : has_room r.2) :
    ∃ dev1, replay_inv bs L r.2 dev1 := by
  obtain ⟨hl, hdl, hdb⟩ := replay_inv_facts bs L s dev hinv
  have hmono := set_time_closed _ room_step_closed s path a m r h
  have hroom_s : s.next_block_id ≤ L := by
    have := hroom.1; omega
  unfold oncefs_set_time at h
  split at h
  · cases h
  · rename_i r0 hr0
    split at h
    · cases h; exact ⟨dev, hinv⟩
    · split at h
      · cases h; exact ⟨dev, hinv⟩
      · split at h
        · cases h
        · dsimp only at h
          rw [if_neg (by rw [table_insert_or_replace_rc]; simp)] at h
          have h1 := Option.some.inj h
          rw [← h1]
          exact (replay_node_block bs L hbs hL s dev
            { r0.2 with last_access := a, last_modification := m } s.next_node_id hinv hroom_s
            rfl).2

/-- The replay invariant across `oncefs_set_link`. -/
theorem set_link_replay (bs : Int) (L : Nat) (hbs : SIZEOF_TAG + SIZEOF_NODE ≤ bs)
    (hL : L < 2 ^ 32) (s : oncefs_t) (dev : io_t) (src target : List Char)
    (now : Nat × Nat) (r : Int × oncefs_t) (hinv : replay_inv bs L s dev)
    (h : oncefs_set_link s src target now = some r) (hroom : has_room r.2) :
    ∃ dev1, replay_inv bs L r.2 dev1 := by
  obtain ⟨hl, hdl, hdb⟩ := replay_inv_facts bs L s dev hinv
  have hmono := set_link_closed _ room_step_closed s src target now r h
  have hroom_s : s.next_block_id ≤ L := by
    have := hroom.1; omega
  unfold oncefs_set_link at h
  split at h
  · cases h; exact ⟨dev, hinv⟩
  · cases hi : _oncefs_init_node s src NODE_TYPE_LINK now with
    | none => rw [hi] at h; cases h
    | some r0 =>
      rw [hi] at h
      dsimp only at h
      obtain ⟨hf, hs⟩ := init_node_result s src NODE_TYPE_LINK now r0 hi
      by_cases h0 : r0.1 = 0
      · obtain ⟨hst, hnode⟩ := hs h0
        rw [if_neg (by simpa using h0), if_neg (by rw [table_insert_or_replace_rc]; simp),
          if_neg (by rw [table_insert_or_replace_rc]; simp), hst] at h
        dsimp only at h
        have hfresh1 := write_node_block_fresh
          { s with next_node_id := s.next_node_id + 1,
                   nodes := (table_insert_or_replace
                     (table_insert_or_replace s.nodes r0.2.2).2
                     { node := r0.2.2.node, parent := r0.2.2.node,
                       type := NODE_TYPE_LINK_PAYLOAD, last_access := 0,
                       last_modification := 0, mode := 0,
                       name := strncpy target ONCEFS_NAME_MAX_SIZE }).2 } dev
          BLOCK_OPERATION_NODE r0.2.2 hinv.io
          (by show s.next_block_id ≤ s.last_block_id; omega)
          (by show s.next_block_id < 2 ^ 32; omega) hdl (by rw [hdb]; exact hbs)
        have hfreshv := write_node_block_fresh
          { s with next_node_id := s.next_node_id + 1,
                   nodes := (table_insert_or_replace s.nodes r0.2.2).2 } dev
          BLOCK_OPERATION_NODE r0.2.2 hinv.io
          (by show s.next_block_id ≤ s.last_block_id; omega)
          (by show s.next_block_id < 2 ^ 32; omega) hdl (by rw [hdb]; exact hbs)
        rw [hfresh1] at h
        dsimp only at h
        rw [if_neg (by simp)] at h
        have h1 := Option.some.inj h
        have hmono2 := write_node_block_closed _ room_step_closed
          { s with
            next_block_id := s.next_block_id + 1,
            next_seq_id := s.next_seq_id + 1,
            next_node_id :=
              if r0.2.2.node ≥ s.next_node_id + 1 then (r0.2.2.node + 1) % 2 ^ 32
              else s.next_node_id + 1,
            nodes := (table_insert_or_replace
              (table_insert_or_replace s.nodes r0.2.2).2
              { node := r0.2.2.node, parent := r0.2.2.node,
                type := NODE_TYPE_LINK_PAYLOAD, last_access := 0,
                last_modification := 0, mode := 0,
                name := strncpy target ONCEFS_NAME_MAX_SIZE }).2,
            blocks := (table_insert_or_replace s.blocks
              { block := s.next_block_id,
                tag := { seq := s.next_seq_id, operation := BLOCK_OPERATION_NODE },
                data := { node := r0.2.2.node, fill := 0, offset := 0 } }).2,
            io := some { dev with
              buffer := dev.buffer.set s.next_block_id
                (disk_block_t.mk (oncefs_tag_t.mk s.next_seq_id BLOCK_OPERATION_NODE)
                  (body_t.node r0.2.2)) } }
          BLOCK_OPERATION_NODE
          { node := r0.2.2.node, parent := r0.2.2.node,
            type := NODE_TYPE_LINK_PAYLOAD, last_access := 0,
            last_modification := 0, mode := 0,
            name := strncpy target ONCEFS_NAME_MAX_SIZE }
        rw [h1] at hmono2
        have hroomW : s.next_block_id + 1 ≤ L := by
          have := hroom.1
          have h2 := hmono2.1
          have h3 := hmono2.2
          simp only at h2 h3
          omega
        have hle : r0.2.2.node ≤ s.next_node_id := by
          rw [hnode]; exact Nat.mod_le _ _
        have hfresh2 := write_node_block_fresh
          { s with
            next_block_id := s.next_block_id + 1,
            next_seq_id := s.next_seq_id + 1,
            next_node_id :=
              if r0.2.2.node ≥ s.next_node_id + 1 then (r0.2.2.node + 1) % 2 ^ 32
              else s.next_node_id + 1,
            nodes := (table_insert_or_replace
              (table_insert_or_replace s.nodes r0.2.2).2
              { node := r0.2.2.node, parent := r0.2.2.node,
                type := NODE_TYPE_LINK_PAYLOAD, last_access := 0,
                last_modification := 0, mode := 0,
                name := strncpy target ONCEFS_NAME_MAX_SIZE }).2,
            blocks := (table_insert_or_replace s.blocks
              { block := s.next_block_id,
                tag := { seq := s.next_seq_id, operation := BLOCK_OPERATION_NODE },
                data := { node := r0.2.2.node, fill := 0, offset := 0 } }).2,
            io := some { dev with
              buffer := dev.buffer.set s.next_block_id
                (disk_block_t.mk (oncefs_tag_t.mk s.next_seq_id BLOCK_OPERATION_NODE)
                  (body_t.node r0.2.2)) } }
          { dev with
              buffer := dev.buffer.set s.next_block_id
                (disk_block_t.mk (oncefs_tag_t.mk s.next_seq_id BLOCK_OPERATION_NODE)
                  (body_t.node r0.2.2)) }
          BLOCK_OPERATION_NODE
          { node := r0.2.2.node, parent := r0.2.2.node,
            type := NODE_TYPE_LINK_PAYLOAD, last_access := 0,
            last_modification := 0, mode := 0,
            name := strncpy target ONCEFS_NAME_MAX_SIZE }
          rfl (by show s.next_block_id + 1 ≤ s.last_block_id; omega)
          (by show s.next_block_id + 1 < 2 ^ 32; omega) hdl (by show _ ≤ dev.block_size; rw [hdb]; exact hbs)
        have hnn : r.2.next_node_id = s.next_node_id + 1 := by
          rw [← h1]
          have := congrArg (fun p => p.2.next_node_id) hfresh2
          dsimp only at this
          have hraise : (if r0.2.2.node ≥ s.next_node_id + 1 then (r0.2.2.node + 1) % 2 ^ 32
              else s.next_node_id + 1) = s.next_node_id + 1 := if_neg (by omega)
          rw [this, hraise, if_neg (by omega)]
        have hlt := hroom.2
        rw [hnn] at hlt
        have hnode2 : r0.2.2.node = s.next_node_id := by
          rw [hnode]; exact Nat.mod_eq_of_lt (by omega)
        obtain ⟨-, d1, hinv1⟩ := replay_node_block bs L hbs hL s dev r0.2.2 (s.next_node_id + 1)
          hinv hroom_s (by
            rw [if_neg (by omega), if_pos (by omega), hnode2]
            exact (Nat.mod_eq_of_lt hlt).symm)
        have hv1nb : (write_node_block
            { s with next_node_id := s.next_node_id + 1,
                     nodes := (table_insert_or_replace s.nodes r0.2.2).2 }
            BLOCK_OPERATION_NODE r0.2.2).2.next_block_id = s.next_block_id + 1 := by
          rw [hfreshv]
        obtain ⟨-, d2, hinv2⟩ := replay_node_block bs L hbs hL _ d1
          { node := r0.2.2.node, parent := r0.2.2.node,
            type := NODE_TYPE_LINK_PAYLOAD, last_access := 0,
            last_modification := 0, mode := 0,
            name := strncpy target ONCEFS_NAME_MAX_SIZE }
          (write_node_block
            { s with next_node_id := s.next_node_id + 1,
                     nodes := (table_insert_or_replace s.nodes r0.2.2).2 }
            BLOCK_OPERATION_NODE r0.2.2).2.next_node_id
          hinv1 (by rw [hv1nb]; exact hroomW) rfl
        refine ⟨d2, ?_⟩
        rw [← h1]
        rw [hfreshv] at hinv2
        exact hinv2
      · have := hf h0
        rw [if_pos h0] at h
        have h1 := Option.some.inj h
        rw [← h1]
        dsimp only
        rw [this]
        exact ⟨dev, hinv⟩

/-- `array_sorted_each` returns `0` or `-ENOENT`. -/
theorem array_sorted_each_rc {ε β : Type} [Inhabited ε] (deref : ε → β) (array : array_t ε β)
    (f : β → β → Int) (key : β) :
    (array_sorted_each deref array (some f) key).1 = 0 ∨
    (array_sorted_each deref array (some f) key).1 = -ENOENT := by
  unfold array_sorted_each
  dsimp only
  split
  · rename_i h1
    rcases (find_index_sound deref array f key false).1 with h | h
    · exact absurd h h1
    · exact Or.inr h
  · split
    · rename_i h1 h2
      rcases (find_index_sound deref array f key true).1 with h | h
      · exact absurd h h2
      · exact Or.inr h
    · exact Or.inl rfl

/-- `table_query_update` through an index of the table returns `0`. -/
theorem table_query_update_rc {ρ : Type} [Inhabited ρ] (table : table_t ρ) (key : ρ) (k : Nat)
    (f : ρ → ρ → Int) (m : ρ → ρ) (hk : k < table.indexes.length) :
    (table_query_update table key k (some f) m).1 = 0 := by
  have hids : table_query_ids table key k (some f)
      = array_sorted_each (array_dereference table.rows) (table_index table k) (some f) key := by
    unfold table_query_ids
    rw [if_neg (by omega)]
  unfold table_query_update
  dsimp only
  rw [hids]
  split
  · rename_i h
    rcases array_sorted_each_rc (array_dereference table.rows) (table_index table k) f key
      with h1 | h1
    · exact absurd h1 h.1
    · exact absurd h1 h.2
  · rfl

/-- `table_query_update` keeps the number of indexes. -/
theorem table_query_update_length {ρ : Type} [Inhabited ρ] (table : table_t ρ) (key : ρ)
    (k : Nat) (f : Option (ρ → ρ → Int)) (m : ρ → ρ) :
    (table_query_update table key k f m).2.indexes.length = table.indexes.length := by
  have := congrArg List.length (table_query_update_comparators table key k f m)
  simpa using this

/-- The loop of `_oncefs_del_node` over the operations returns `0` on a
blocks table with its two indexes. -/
theorem free_blocks_loop_rc (node : Nat) : ∀ (ops : List Int) (blocks : table_t oncefs_block_t),
    1 < blocks.indexes.length → (free_blocks_loop node ops blocks).1 = 0 := by
  intro ops
  induction ops with
  | nil => intro blocks _; rfl
  | cons i rest ih =>
    intro blocks h
    unfold free_blocks_loop
    dsimp only
    have hrc := table_query_update_rc blocks
      { block := 0, tag := { seq := 0, operation := i },
        data := { node := node, fill := 0, offset := 0 } } TABLE_INDEX_LOOKUP
      _oncefs_block_cmp_lookup_fuzzy _mutator_free h
    rw [if_neg (by rw [hrc]; simp)]
    apply ih
    rw [table_query_update_length]
    exact h

/-- `_oncefs_del_data` changes the blocks table alone and returns `0` on a
blocks table with its two indexes. -/
theorem del_data_frame (s : oncefs_t) (node new_size : Nat) (h : 1 < s.blocks.indexes.length) :
    (_oncefs_del_data s node new_size).1 = 0 ∧
    (_oncefs_del_data s node new_size).2
      = { s with blocks := (_oncefs_del_data s node new_size).2.blocks } := by
  unfold _oncefs_del_data
  dsimp only
  have h1 := table_query_update_rc s.blocks
    { block := 0, tag := { seq := 0, operation := BLOCK_OPERATION_DATA },
      data := { node := node, fill := 0, offset := new_size } } TABLE_INDEX_LOOKUP
    (_filter_del_data s.payload_size) (_mutator_truncate new_size) h
  rw [if_neg (by rw [h1]; simp)]
  have h2 := table_query_update_rc (table_query_update s.blocks
    { block := 0, tag := { seq := 0, operation := BLOCK_OPERATION_DATA },
      data := { node := node, fill := 0, offset := new_size } } TABLE_INDEX_LOOKUP
    (some (_filter_del_data s.payload_size)) (_mutator_truncate new_size)).2
    { block := 0, tag := { seq := 0, operation := BLOCK_OPERATION_TRUNCATE },
      data := { node := node, fill := 0, offset := new_size } } TABLE_INDEX_LOOKUP
    _oncefs_block_cmp_lookup_fuzzy _mutator_free (by rw [table_query_update_length]; exact h)
  rw [if_neg (by rw [h2]; simp)]
  exact ⟨rfl, rfl⟩

/-- `_oncefs_move_node` changes the nodes table alone, and nothing when it
fails. -/
theorem move_node_frame (s : oncefs_t) (node : oncefs_node_t) :
    ((_oncefs_move_node s node).1 ≠ 0 → (_oncefs_move_node s node).2 = s) ∧
    (_oncefs_move_node s node).2
      = { s with nodes := (_oncefs_move_node s node).2.nodes } := by
  unfold _oncefs_move_node
  dsimp only
  split
  · split <;> exact ⟨fun _ => rfl, rfl⟩
  · exact ⟨fun h => absurd (table_insert_or_replace_rc _ _) h, rfl⟩

/-- A failing `table_query_delete` leaves the table as it is. -/
theorem table_query_delete_fail {ρ : Type} [Inhabited ρ] (table : table_t ρ) (key : ρ) (k : Nat)
    (f : Option (ρ → ρ → Int)) (h : (table_query_delete table key k f).1 ≠ 0) :
    (table_query_delete table key k f).2 = table := by
  unfold table_query_delete at h ⊢
  dsimp only at h ⊢
  split
  · rfl
  · rename_i h1
    rw [if_neg h1] at h
    exact absurd rfl h

/-- `_oncefs_del_node` changes the two tables alone, and nothing when it
fails on a blocks table with its two indexes. -/
theorem del_node_frame (s : oncefs_t) (node : oncefs_node_t) (check : Int)
    (h : 1 < s.blocks.indexes.length) :
    ((_oncefs_del_node s node check).1 ≠ 0 → (_oncefs_del_node s node check).2 = s) ∧
    (_oncefs_del_node s node check).2
      = { s with nodes := (_oncefs_del_node s node check).2.nodes,
                 blocks := (_oncefs_del_node s node check).2.blocks } := by
  unfold _oncefs_del_node
  split
  · exact ⟨fun _ => rfl, rfl⟩
  · dsimp only
    split
    · rename_i h1
      refine ⟨fun _ => ?_, rfl⟩
      rw [table_query_delete_fail _ _ _ _ h1.1]
    · refine ⟨fun h0 => ?_, rfl⟩
      exact absurd (free_blocks_loop_rc node.node _ s.blocks h) h0

/-- The replay deletes a node as the call that succeeded did. -/
theorem del_node_check (s : oncefs_t) (node : oncefs_node_t)
    (h : (_oncefs_del_node s node 1).1 = 0) :
    _oncefs_del_node s node 0 = _oncefs_del_node s node 1 := by
  unfold _oncefs_del_node at h ⊢
  rw [if_neg (by simp)]
  split at h
  · simp at h
  · rename_i h1
    rw [if_neg h1]

/-- The replay invariant after the tables have been changed as the replay of
a block changes them and the block, holding a node record, has been
written. -/
theorem replay_pre_block (bs : Int) (L : Nat) (hbs : SIZEOF_TAG + SIZEOF_NODE ≤ bs)
    (hL : L < 2 ^ 32) (s x : oncefs_t) (dev : io_t) (operation : Int) (entry : oncefs_node_t)
    (hinv : replay_inv bs L s dev) (hroom : s.next_block_id ≤ L)
    (hop : operation < BLOCK_OPERATION_LAST)
    (hx : x = { s with nodes := x.nodes, blocks := x.blocks }) (hwf : engine_wf x)
    (hload : ∀ (dev1 : io_t) (c : oncefs_tagged_block_t), c.tag.operation = operation →
      (dev1.buffer.getD c.block default).body = body_t.node entry →
      io_check dev1 c.block (SIZEOF_TAG + SIZEOF_NODE) = 0 →
      load_step s dev1 c
        = some (0, load_advance
            (_oncefs_load_block_data x
              { block := c.block, tag := (dev1.buffer.getD c.block default).tag }
              { node := entry.node, fill := 0, offset := 0 }).2
            { block := c.block, tag := (dev1.buffer.getD c.block default).tag })) :
    (write_node_block x operation entry).1 = 0 ∧
    ∃ dev1, replay_inv bs L (write_node_block x operation entry).2 dev1 := by
  obtain ⟨hl, hdl, hdb⟩ := replay_inv_facts bs L s dev hinv
  generalize hN : x.nodes = N at hx
  generalize hB : x.blocks = B at hx
  subst hx
  have hwf1 : engine_wf (write_node_block { s with nodes := N, blocks := B } operation entry).2 :=
    write_node_block_closed _ engine_wf_step_closed _ _ _ hwf
  have hfresh := write_node_block_fresh { s with nodes := N, blocks := B } dev
    operation entry hinv.io (by show s.next_block_id ≤ s.last_block_id; omega)
    (by show s.next_block_id < 2 ^ 32; omega) hdl (by rw [hdb]; exact hbs)
  rw [hfresh] at hwf1 ⊢
  have hlen : s.next_block_id < dev.buffer.length := hinv.dev_length _ hinv.next_block hroom
  refine ⟨rfl, _, replay_block bs L s { s with nodes := N, blocks := B } _ dev
    (disk_block_t.mk (oncefs_tag_t.mk s.next_seq_id operation) (body_t.node entry))
    { node := entry.node, fill := 0, offset := 0 } hinv hroom rfl hop ?_ rfl ?_ rfl rfl hwf1⟩
  · rw [hload _ _ rfl
      (by dsimp only; rw [getD_set_eq _ _ _ _ hlen])
      (by unfold io_check; dsimp only; rw [if_neg (by omega), if_neg (by omega)])]
    dsimp only
    rw [getD_set_eq _ _ _ _ hlen]
  · apply core_eq <;> rfl

/-- The replay invariant after the blocks table has been changed as the
replay of a block changes it and the block, holding a data header and
bytes, has been written. -/
theorem replay_pre_data (bs : Int) (L : Nat) (hL : L < 2 ^ 32) (s x : oncefs_t) (dev : io_t)
    (operation : Int) (node size offset : Nat) (bytes : List Nat)
    (hinv : replay_inv bs L s dev) (hroom : s.next_block_id ≤ L)
    (hop : operation < BLOCK_OPERATION_LAST)
    (hbytes : SIZEOF_TAG + SIZEOF_DATA + bytes.length ≤ bs)
    (hx : x = { s with blocks := x.blocks }) (hwf : engine_wf x)
    (hload : ∀ (dev1 : io_t) (c : oncefs_tagged_block_t), c.tag.operation = operation →
      (dev1.buffer.getD c.block default).body
        = body_t.data { node := node, fill := size % 2 ^ 16, offset := offset } bytes →
      io_check dev1 c.block (SIZEOF_TAG + SIZEOF_DATA) = 0 →
      load_step s dev1 c
        = some (0, load_advance
            (_oncefs_load_block_data x
              { block := c.block, tag := (dev1.buffer.getD c.block default).tag }
              { node := node, fill := size % 2 ^ 16, offset := offset }).2
            { block := c.block, tag := (dev1.buffer.getD c.block default).tag })) :
    ∃ (s1 : oncefs_t) (dev1 : io_t) (rec : oncefs_block_t),
      _oncefs_create_block x operation node size offset = (0, s1, rec) ∧
      s1.io = some dev ∧
      rec.data = { node := node, fill := size % 2 ^ 16, offset := offset } ∧
      io_write_data dev rec.block rec.tag
        { node := node, fill := size % 2 ^ 16, offset := offset } bytes = (0, dev1) ∧
      replay_inv bs L { s1 with io := some dev1 } dev1 := by
  obtain ⟨hl, hdl, hdb⟩ := replay_inv_facts bs L s dev hinv
  generalize hB : x.blocks = B at hx
  subst hx
  have hfresh := create_block_fresh { s with blocks := B } operation node size offset
    (by show s.next_block_id ≤ s.last_block_id; omega)
    (by show s.next_block_id < 2 ^ 32; omega)
  have hw := io_write_data_ok dev s.next_block_id (oncefs_tag_t.mk s.next_seq_id operation)
    { node := node, fill := size % 2 ^ 16, offset := offset } bytes (by omega)
    (by rw [hdb]; exact hbytes)
  have hwf0 := engine_wf_step_closed.create_block { s with blocks := B } operation node size
    offset hwf
  rw [hfresh] at hwf0
  have hlen : s.next_block_id < dev.buffer.length := hinv.dev_length _ hinv.next_block hroom
  refine ⟨_, _, _, hfresh, hinv.io, rfl, hw, ?_⟩
  refine replay_block bs L s { s with blocks := B } _ dev
    (disk_block_t.mk (oncefs_tag_t.mk s.next_seq_id operation)
      (body_t.data { node := node, fill := size % 2 ^ 16, offset := offset } bytes))
    { node := node, fill := size % 2 ^ 16, offset := offset } hinv hroom rfl hop ?_ rfl ?_ rfl
    rfl ?_
  · rw [hload _ _ rfl
      (by dsimp only; rw [getD_set_eq _ _ _ _ hlen])
      (by
        unfold io_check
        dsimp only
        have h1 : SIZEOF_TAG + SIZEOF_DATA ≤ dev.block_size := by
          rw [hdb]
          have : (0 : Int) ≤ bytes.length := Int.natCast_nonneg _
          omega
        rw [if_neg (by omega), if_neg (by omega)])]
    dsimp only
    rw [getD_set_eq _ _ _ _ hlen]
  · apply core_eq <;> rfl
  · exact ⟨hwf0.1, hwf0.2.1, hwf0.2.2.1, fun dev1 hd1 => by
      have hd2 := (Option.some.inj hd1).symm
      subst hd2
      exact hinv.wf.2.2.2 dev hinv.io⟩

/-- Across the primitive state changes the payload size and the block size
stay. -/
theorem sizes_step_closed : step_closed (fun s s1 =>
    s1.payload_size = s.payload_size ∧ s1.block_size = s.block_size) := by
  refine { refl := ?_, trans := ?_, nodes_insert := ?_, nodes_delete := ?_, blocks_free := ?_,
           blocks_truncate := ?_, create_block := ?_, set_io := ?_, reserve := ?_ }
  · intro s; exact ⟨rfl, rfl⟩
  · intro a b c hab hbc; exact ⟨hbc.1.trans hab.1, hbc.2.trans hab.2⟩
  · intro s row; exact ⟨rfl, rfl⟩
  · intro s key; exact ⟨rfl, rfl⟩
  · intro s key; exact ⟨rfl, rfl⟩
  · intro s key new_size; exact ⟨rfl, rfl⟩
  · intro s operation node size offset
    unfold _oncefs_create_block
    split
    · rw [create_block_tail_state]
      exact ⟨rfl, rfl⟩
    · split
      · exact ⟨rfl, rfl⟩
      · rw [create_block_tail_state]
        exact ⟨rfl, rfl⟩
  · intro s dev buffer _; exact ⟨rfl, rfl⟩
  · intro s; exact ⟨rfl, rfl⟩

/-- `_oncefs_move_node` changes the nodes table alone. -/
theorem move_node_frame2 (s : oncefs_t) (node : oncefs_node_t) :
    (_oncefs_move_node s node).2
      = { s with nodes := (_oncefs_move_node s node).2.nodes,
                 blocks := (_oncefs_move_node s node).2.blocks } := by
  unfold _oncefs_move_node
  dsimp only
  split
  · split <;> rfl
  · rfl

/-- The replay invariant across `oncefs_del_node`. -/
theorem del_node_replay (bs : Int) (L : Nat) (hbs : SIZEOF_TAG + SIZEOF_NODE ≤ bs)
    (hL : L < 2 ^ 32) (s : oncefs_t) (dev : io_t) (path : List Char)
    (r : Int × oncefs_t) (hinv : replay_inv bs L s dev)
    (h : oncefs_del_node s path = some r) (hroom : r.2.next_block_id ≤ L) :
    ∃ dev1, replay_inv bs L r.2 dev1 := by
  have hmono := del_node_closed _ room_step_closed s path r h
  have hroom_s : s.next_block_id ≤ L := by omega
  have hidx : 1 < s.blocks.indexes.length := by
    have := (blocks_wf_indexes s hinv.wf.1).1; omega
  unfold oncefs_del_node at h
  split at h
  · cases h
  · rename_i r0 hr0
    split at h
    · cases h; exact ⟨dev, hinv⟩
    · dsimp only at h
      obtain ⟨hfail, hframe⟩ := del_node_frame s r0.2 1 hidx
      by_cases hd : (_oncefs_del_node s r0.2 1).1 = 0
      · rw [if_neg (by simpa using hd)] at h
        have h1 := Option.some.inj h
        rw [← h1]
        exact (replay_pre_block bs L hbs hL s _ dev BLOCK_OPERATION_DELETE r0.2 hinv hroom_s
          (by decide) hframe
          (del_node_helper_closed _ engine_wf_step_closed.totable_step_closed s r0.2 1 hinv.wf)
          (fun dev1 c h1 h2 h3 => by
            rw [load_step_delete s dev1 c r0.2 h1 h2 h3
              (by rw [del_node_check s r0.2 hd]; exact hd), del_node_check s r0.2 hd])).2
      · rw [if_pos hd] at h
        have h1 := Option.some.inj h
        rw [← h1, hfail hd]
        exact ⟨dev, hinv⟩

/-- The replay invariant after the row of a node has been moved and its
MOVE block written. -/
theorem move_block_replay (bs : Int) (L : Nat) (hbs : SIZEOF_TAG + SIZEOF_NODE ≤ bs)
    (hL : L < 2 ^ 32) (s : oncefs_t) (dev : io_t) (result : oncefs_node_t)
    (hinv : replay_inv bs L s dev) (hroom : s.next_block_id ≤ L)
    (hmv : (_oncefs_move_node s result).1 = 0) :
    ∃ dev1, replay_inv bs L
      (write_node_block (_oncefs_move_node s result).2 BLOCK_OPERATION_MOVE result).2 dev1 :=
  (replay_pre_block bs L hbs hL s _ dev BLOCK_OPERATION_MOVE result hinv hroom
    (by decide) (move_node_frame2 s result)
    (move_node_helper_closed _ engine_wf_step_closed.totable_step_closed s result hinv.wf)
    (fun dev1 c h1 h2 h3 => load_step_move s dev1 c result h1 h2 h3 hmv)).2

/-- The replay invariant across `oncefs_move_node`. -/
theorem move_node_replay (bs : Int) (L : Nat) (hbs : SIZEOF_TAG + SIZEOF_NODE ≤ bs)
    (hL : L < 2 ^ 32) (s : oncefs_t) (dev : io_t) (src dst : List Char)
    (r : Int × oncefs_t) (hinv : replay_inv bs L s dev)
    (h : oncefs_move_node s src dst = some r) (hroom : r.2.next_block_id ≤ L) :
    ∃ dev1, replay_inv bs L r.2 dev1 := by
  have hmono := move_node_closed _ room_step_closed s src dst r h
  have hroom_s : s.next_block_id ≤ L := by omega
  unfold oncefs_move_node at h
  split at h
  · cases h
  · rename_i r0 hr0
    split at h
    · cases h; exact ⟨dev, hinv⟩
    · split at h
      · cases h
      · rename_i parent hparent
        split at h
        · cases h; exact ⟨dev, hinv⟩
        · split at h
          · cases h; exact ⟨dev, hinv⟩
          · split at h
            · cases h
            · split at h
              · cases h
              · dsimp only at h
                generalize hres : oncefs_node_t.mk r0.2.node parent.2.node r0.2.type
                  r0.2.last_access r0.2.last_modification r0.2.mode
                  (strncpy (basename dst) ONCEFS_NAME_MAX_SIZE) = result at h
                obtain ⟨hfail, -⟩ := move_node_frame s result
                split at h
                · rename_i hex
                  rw [hfail (by rw [hex]; decide)] at h
                  cases hdel : oncefs_del_node s dst with
                  | none => rw [hdel] at h; cases h
                  | some del =>
                    rw [hdel] at h
                    dsimp only at h
                    have hmono1 := del_node_closed _ room_step_closed s dst del hdel
                    by_cases hd : del.1 ≠ 0
                    · rw [if_pos hd] at h
                      have h1 := Option.some.inj h
                      rw [← h1] at hroom ⊢
                      exact del_node_replay bs L hbs hL s dev dst del hinv hdel hroom
                    · rw [if_neg hd] at h
                      obtain ⟨hfail2, -⟩ := move_node_frame del.2 result
                      by_cases hm2 : (_oncefs_move_node del.2 result).1 ≠ 0
                      · rw [if_pos hm2] at h
                        have h1 := Option.some.inj h
                        rw [← h1] at hroom ⊢
                        rw [hfail2 hm2] at hroom ⊢
                        exact del_node_replay bs L hbs hL s dev dst del hinv hdel hroom
                      · rw [if_neg hm2] at h
                        have h1 := Option.some.inj h
                        have hmono2 := write_node_block_closed _ room_step_closed
                          (_oncefs_move_node del.2 result).2 BLOCK_OPERATION_MOVE result
                        have hmono3 := move_node_helper_closed _
                          room_step_closed.totable_step_closed del.2 result
                        rw [h1] at hmono2
                        obtain ⟨d1, hinv1⟩ := del_node_replay bs L hbs hL s dev dst del hinv hdel
                          (by omega)
                        rw [← h1]
                        exact move_block_replay bs L hbs hL del.2 d1 result hinv1 (by omega)
                          (by simpa using hm2)
                · split at h
                  · rename_i hne hm
                    have h1 := Option.some.inj h
                    rw [← h1, hfail hm]
                    exact ⟨dev, hinv⟩
                  · rename_i hne hm
                    have h1 := Option.some.inj h
                    rw [← h1]
                    exact move_block_replay bs L hbs hL s dev result hinv hroom_s
                      (by simpa using hm)

/-- The replay invariant across `oncefs_del_data`. -/
theorem del_data_replay (bs : Int) (L : Nat) (hbs : SIZEOF_TAG + SIZEOF_DATA ≤ bs)
    (hL : L < 2 ^ 32) (s : oncefs_t) (dev : io_t) (node new_size : Nat)
    (hinv : replay_inv bs L s dev)
    (hroom : (oncefs_del_data s node new_size).2.next_block_id ≤ L) :
    ∃ dev1, replay_inv bs L (oncefs_del_data s node new_size).2 dev1 := by
  have hmono := del_data_closed _ room_step_closed s node new_size
  have hroom_s : s.next_block_id ≤ L := by omega
  have hidx : 1 < s.blocks.indexes.length := by
    have := (blocks_wf_indexes s hinv.wf.1).1; omega
  clear hmono hroom
  unfold oncefs_del_data
  dsimp only
  split
  · exact ⟨dev, hinv⟩
  · rename_i hq
    generalize (table_query_first s.nodes
      { node := node, parent := 0, type := NODE_TYPE_FILE, last_access := 0,
        last_modification := 0, mode := 0, name := [] } TABLE_INDEX_PRIMARY none).2.node = n
    obtain ⟨hdd, hframe⟩ := del_data_frame s n new_size hidx
    rw [if_neg (by rw [hdd]; simp)]
    obtain ⟨s1, dev1, rec, hcb, hio, hrec, hw, hinv1⟩ :=
      replay_pre_data bs L hL s (_oncefs_del_data s n new_size).2 dev
        BLOCK_OPERATION_TRUNCATE n 0 new_size [] hinv hroom_s (by decide)
        (by have h0 : ((([] : List Nat).length : Nat) : Int) = 0 := rfl
            rw [h0]; omega) hframe
        (del_data_helper_closed _ engine_wf_step_closed.totable_step_closed s n new_size hinv.wf)
        (fun d c h1 h2 h3 => load_step_truncate s d c
          { node := n, fill := 0 % 2 ^ 16, offset := new_size } [] h1 h2 h3 hdd)
    rw [hcb]
    dsimp only
    rw [if_neg (by simp)]
    simp only [hio]
    rw [hrec, hw]
    dsimp only
    rw [if_neg (by simp)]
    exact ⟨dev1, hinv1⟩

/-- The replay invariant across the loop of `oncefs_set_data`. -/
theorem set_data_loop_replay (bs : Int) (L : Nat) (hL : L < 2 ^ 32)
    (node : Nat) (data : List Nat) (size offset : Nat) :
    ∀ (fuel : Nat) (s : oncefs_t) (written : Nat) (dev : io_t),
      replay_inv bs L s dev → s.payload_size = bs - SIZEOF_TAG - SIZEOF_DATA →
      0 ≤ s.payload_size →
      (set_data_loop node data size offset fuel s written).2.next_block_id ≤ L →
      ∃ dev1, replay_inv bs L (set_data_loop node data size offset fuel s written).2 dev1 := by
  intro fuel
  induction fuel with
  | zero => intro s written dev hinv _ _ _; exact ⟨dev, hinv⟩
  | succ fuel ih =>
    intro s written dev hinv hp hp0 hroom
    have hmono := set_data_loop_closed _ room_step_closed node data size offset (fuel + 1) s
      written
    have hroom_s : s.next_block_id ≤ L := by omega
    clear hmono
    unfold set_data_loop at hroom ⊢
    split
    · rename_i hlt
      rw [if_pos hlt] at hroom
      dsimp only at hroom ⊢
      generalize hamount : (if (size - written : Int) > s.payload_size then s.payload_size.toNat
        else size - written) = amount at hroom ⊢
      have hamt : (amount : Int) ≤ s.payload_size := by
        rw [← hamount]
        split
        · rw [Int.toNat_of_nonneg hp0]
        · omega
      have hlen : ((data.drop written).take amount).length ≤ amount := by
        rw [List.length_take]; exact Nat.min_le_left _ _
      obtain ⟨s1, dev1, rec, hcb, hio, hrec, hw, hinv1⟩ :=
        replay_pre_data bs L hL s s dev BLOCK_OPERATION_DATA node amount (offset + written)
          ((data.drop written).take amount) hinv hroom_s (by decide)
          (by rw [hp] at hamt; omega) rfl hinv.wf
          (fun d c h1 h2 h3 => load_step_data s d c _ _ h1 h2 h3)
      have hsz := sizes_step_closed.create_block s BLOCK_OPERATION_DATA node amount
        (offset + written)
      rw [hcb] at hsz hroom ⊢
      dsimp only at hsz hroom ⊢
      rw [if_neg (by simp)] at hroom ⊢
      simp only [hio] at hroom ⊢
      rw [hw] at hroom ⊢
      dsimp only at hroom ⊢
      rw [if_neg (by simp)] at hroom ⊢
      exact ih _ _ dev1 hinv1 (by show s1.payload_size = _; rw [hsz.1, hp])
        (by show 0 ≤ s1.payload_size; rw [hsz.1]; exact hp0) hroom
    · exact ⟨dev, hinv⟩

/-- The replay invariant across `oncefs_set_data`. -/
theorem set_data_replay (bs : Int) (L : Nat) (hL : L < 2 ^ 32) (s : oncefs_t) (dev : io_t)
    (node : Nat) (data : List Nat) (size offset : Nat) (r : Int × oncefs_t)
    (hinv : replay_inv bs L s dev) (hp : s.payload_size = bs - SIZEOF_TAG - SIZEOF_DATA)
    (hp0 : 0 ≤ s.payload_size)
    (h : oncefs_set_data s node data size offset = some r) (hroom : r.2.next_block_id ≤ L) :
    ∃ dev1, replay_inv bs L r.2 dev1 := by
  unfold oncefs_set_data at h
  split at h
  · cases h
  · split at h
    · cases h
    · have h1 := Option.some.inj h
      rw [← h1] at hroom ⊢
      exact set_data_loop_replay bs L hL node data size offset size s 0 dev hinv hp hp0 hroom

/-- The replay leaves the container handle, the time and `next_seq_id` of
the engine as they are. -/
theorem handle_load_closed (L : Nat) : load_closed L (fun s s1 =>
    s1.io = s.io ∧ s1.time = s.time ∧ s1.next_seq_id = s.next_seq_id) := by
  refine { refl := ?_, trans := ?_, nodes_insert := ?_, nodes_delete := ?_, blocks_free := ?_,
           blocks_truncate := ?_, load_block := ?_ }
  · intro s; exact ⟨rfl, rfl, rfl⟩
  · intro a b c hab hbc
    exact ⟨hbc.1.trans hab.1, hbc.2.1.trans hab.2.1, hbc.2.2.trans hab.2.2⟩
  · intro s row; exact ⟨rfl, rfl, rfl⟩
  · intro s key; exact ⟨rfl, rfl, rfl⟩
  · intro s key; exact ⟨rfl, rfl, rfl⟩
  · intro s key new_size; exact ⟨rfl, rfl, rfl⟩
  · intro s tagged data _
    unfold load_advance _oncefs_load_block_data _oncefs_init_block
    dsimp only
    split_ifs <;> exact ⟨rfl, rfl, rfl⟩

/-- The replay invariant across one call. -/
theorem apply_op_replay (bs : Int) (L : Nat) (hbs : SIZEOF_TAG + SIZEOF_NODE ≤ bs)
    (hL : L < 2 ^ 32) (s : oncefs_t) (dev : io_t) (op : op_t) (r : Int × oncefs_t)
    (hinv : replay_inv bs L s dev) (hp : s.payload_size = bs - SIZEOF_TAG - SIZEOF_DATA)
    (h : apply_op s op = some r) (hroom : has_room r.2) :
    ∃ dev1, replay_inv bs L r.2 dev1 := by
  obtain ⟨hl, -, -⟩ := replay_inv_facts bs L s dev hinv
  have hmono := apply_op_closed _ room_step_closed s op r h
  have hr : r.2.next_block_id ≤ L := by have := hroom.1; omega
  have e1 : SIZEOF_TAG + SIZEOF_NODE = 312 := rfl
  have e2 : SIZEOF_TAG + SIZEOF_DATA = 32 := rfl
  have e3 : bs - SIZEOF_TAG - SIZEOF_DATA = bs - (SIZEOF_TAG + SIZEOF_DATA) := by omega
  have hp0 : 0 ≤ s.payload_size := by rw [hp, e3, e2]; omega
  cases op with
  | set_file path now => exact set_node_replay bs L hbs hL s dev path _ now r hinv h hroom
  | set_dir path now => exact set_node_replay bs L hbs hL s dev path _ now r hinv h hroom
  | set_link src target now => exact set_link_replay bs L hbs hL s dev src target now r hinv h hroom
  | set_time path a m => exact set_time_replay bs L hbs hL s dev path a m r hinv h hroom
  | set_data node data size offset =>
    exact set_data_replay bs L hL s dev node data size offset r hinv hp hp0 h hr
  | move_node src dst => exact move_node_replay bs L hbs hL s dev src dst r hinv h hr
  | del_node path => exact del_node_replay bs L hbs hL s dev path r hinv h hr
  | del_data node new_size =>
    have h1 : oncefs_del_data s node new_size = r := Option.some.inj h
    rw [← h1] at hr ⊢
    exact del_data_replay bs L (by rw [e2]; omega) hL s dev node new_size hinv hr

/-- The replay invariant across a run of calls each of which leaves room. -/
theorem run_replay (bs : Int) (L : Nat) (hbs : SIZEOF_TAG + SIZEOF_NODE ≤ bs)
    (hL : L < 2 ^ 32) : ∀ (ops : List op_t) (s : oncefs_t) (dev : io_t) (rcs : List Int)
      (ofs : oncefs_t), replay_inv bs L s dev →
      s.payload_size = bs - SIZEOF_TAG - SIZEOF_DATA →
      run_ops ops s = some (rcs, ofs) → run_fits ops s →
      ∃ dev1, replay_inv bs L ofs dev1 := by
  intro ops
  induction ops with
  | nil =>
    intro s dev rcs ofs hinv _ h _
    unfold run_ops at h
    obtain ⟨-, h2⟩ := Prod.mk.inj (Option.some.inj h)
    rw [← h2]
    exact ⟨dev, hinv⟩
  | cons op rest ih =>
    intro s dev rcs ofs hinv hp h hfits
    unfold run_ops at h
    unfold run_fits at hfits
    cases ha : apply_op s op with
    | none => rw [ha] at hfits; exact hfits.elim
    | some r =>
      rw [ha] at h hfits
      dsimp only at h hfits
      cases hrest : run_ops rest r.2 with
      | none => rw [hrest] at h; cases h
      | some rs =>
        rw [hrest] at h
        dsimp only at h
        obtain ⟨-, h2⟩ := Prod.mk.inj (Option.some.inj h)
        obtain ⟨dev1, hinv1⟩ := apply_op_replay bs L hbs hL s dev op r hinv hp ha hfits.1
        have hsz := apply_op_closed _ sizes_step_closed s op r ha
        rw [← h2]
        exact ih r.2 dev1 rs.1 rs.2 hinv1 (by rw [hsz.1, hp]) hrest hfits.2

/-- The operation `_oncefs_format` draws lies above
`BLOCK_OPERATION_LAST`. -/
theorem draw_operation_spec : ∀ (rnd : List Nat) (d : Int × List Nat),
    draw_operation rnd = some d → d.1 > BLOCK_OPERATION_LAST := by
  intro rnd
  induction rnd with
  | nil => intro d h; simp [draw_operation] at h
  | cons x xs ih =>
    intro d h
    unfold draw_operation at h
    split at h
    · exact ih d h
    · rename_i hx
      have h1 := Option.some.inj h
      rw [← h1]
      simpa using hx

/-- Writing a tag whose operation lies at or above `BLOCK_OPERATION_LAST`
keeps the length of the container, keeps such tags, and leaves such a tag
at the block written. -/
theorem io_write_tag_buffer (io : io_t) (block : Nat) (tag : oncefs_tag_t)
    (hop : tag.operation ≥ BLOCK_OPERATION_LAST) :
    (io_write_tag io block tag).2.buffer.length = io.buffer.length ∧
    (∀ i, (io.buffer.getD i default).tag.operation ≥ BLOCK_OPERATION_LAST →
      ((io_write_tag io block tag).2.buffer.getD i default).tag.operation
        ≥ BLOCK_OPERATION_LAST) ∧
    ((io_write_tag io block tag).1 = 0 → block < io.buffer.length →
      ((io_write_tag io block tag).2.buffer.getD block default).tag.operation
        ≥ BLOCK_OPERATION_LAST) := by
  unfold io_write_tag
  split
  · rename_i hc
    refine ⟨rfl, fun i hi => hi, fun h0 => ?_⟩
    exact absurd h0 hc
  · dsimp only
    refine ⟨List.length_set _ _ _, ?_, ?_⟩
    · intro i hi
      by_cases hib : block = i
      · subst hib
        by_cases hlen : block < io.buffer.length
        · rw [getD_set_eq _ _ _ _ hlen]
          exact hop
        · rw [List.set_eq_of_length_le (by omega)]
          exact hi
      · rw [getD_set_ne _ _ _ _ _ (Ne.symm hib)]
        exact hi
    · intro _ hlen
      rw [getD_set_eq _ _ _ _ hlen]
      exact hop

/-- After a successful `_oncefs_format` loop the container has its length,
and the tag of every block the loop went over, like every tag that was so
before, has an operation at or above `BLOCK_OPERATION_LAST`. -/
theorem format_loop_buffer : ∀ (ids : List Nat) (io : io_t) (rnd : List Nat) (r : Int × io_t),
    format_loop ids io rnd = some r → r.1 = 0 →
    r.2.buffer.length = io.buffer.length ∧
    ∀ i, (i ∈ ids ∧ i < io.buffer.length) ∨
        (io.buffer.getD i default).tag.operation ≥ BLOCK_OPERATION_LAST →
      (r.2.buffer.getD i default).tag.operation ≥ BLOCK_OPERATION_LAST := by
  intro ids
  induction ids with
  | nil =>
    intro io rnd r h h0
    simp only [format_loop] at h
    have h1 := Option.some.inj h
    rw [← h1]
    refine ⟨rfl, fun i hi => ?_⟩
    rcases hi with hi | hi
    · simp at hi
    · exact hi
  | cons j rest ih =>
    intro io rnd r h h0
    cases rnd with
    | nil => simp [format_loop] at h
    | cons seq rnd =>
      unfold format_loop at h
      cases hd : draw_operation rnd with
      | none => rw [hd] at h; cases h
      | some d =>
        rw [hd] at h
        dsimp only at h
        have hop : (oncefs_tag_t.mk seq d.1).operation ≥ BLOCK_OPERATION_LAST :=
          le_of_lt (draw_operation_spec rnd d hd)
        obtain ⟨hlen, hkeep, hset⟩ := io_write_tag_buffer io j (oncefs_tag_t.mk seq d.1) hop
        split at h
        · rename_i hw
          have h1 := Option.some.inj h
          rw [← h1] at h0
          exact absurd h0 hw
        · rename_i hw
          obtain ⟨hlen1, hall⟩ := ih _ _ r h h0
          refine ⟨hlen1.trans hlen, fun i hi => ?_⟩
          apply hall
          rcases hi with ⟨hmem, hil⟩ | hi
          · rcases List.mem_cons.mp hmem with hij | hrest
            · right
              subst hij
              exact hset (by simpa using hw) hil
            · left
              exact ⟨hrest, by rw [hlen]; exact hil⟩
          · right
            exact hkeep i hi

/-- The engine `oncefs_init` hands over after a format satisfies the replay
invariant, with an empty log. -/
theorem init_replay_inv (dev0 : io_t) (now : Nat) (rnd : List Nat) (s0 : oncefs_t)
    (hlen : ∀ i, 1 ≤ i → i ≤ dev0.last_valid_block → i < dev0.buffer.length)
    (h : oncefs_init (some dev0) 1 now rnd = some (0, s0)) :
    (∃ dev, replay_inv dev0.block_size dev0.last_valid_block s0 dev) ∧
    s0.payload_size = dev0.block_size - SIZEOF_TAG - SIZEOF_DATA := by
  have hwf := init_engine_wf (some dev0) 1 now rnd s0 h
  unfold oncefs_init at h
  dsimp only at h
  split at h
  · obtain ⟨h2, -⟩ := Prod.mk.inj (Option.some.inj h)
    simp at h2
  · rw [if_pos rfl] at h
    cases hf : _oncefs_format dev0 rnd with
    | none => rw [hf] at h; cases h
    | some f =>
      rw [hf] at h
      dsimp only at h
      split at h
      · rename_i hne
        obtain ⟨h2, -⟩ := Prod.mk.inj (Option.some.inj h)
        exact absurd h2 hne
      · rename_i hne
        have hf0 : f.1 = 0 := by simpa using hne
        obtain ⟨-, h2⟩ := Prod.mk.inj (Option.some.inj h)
        unfold _oncefs_format at hf
        obtain ⟨hm1, hm2⟩ := format_loop_meta _ _ _ _ hf
        obtain ⟨hb1, hb2⟩ := format_loop_buffer _ _ _ _ hf hf0
        subst h2
        refine ⟨⟨f.2, ?_⟩, rfl⟩
        refine { io := rfl, dev_block_size := hm2, dev_last := hm1, dev_length := ?_,
                 written := ?_, formatted := ?_, replay := ?_, next_seq := rfl,
                 next_block := le_refl _, wf := hwf }
        · intro i h1 h2
          rw [hb1]
          exact hlen i h1 h2
        · intro i h1 h2
          have : i < 1 := h2
          omega
        · intro i h1 h2
          have h1 : 1 ≤ i := h1
          apply hb2
          left
          refine ⟨?_, hlen i h1 h2⟩
          rw [List.mem_range'_1]
          simp only [io_block_first, io_block_last]
          omega
        · show load_loop f.2 (log_tags f.2 1) _ = _
          have e : log_tags f.2 1 = [] := rfl
          rw [e]
          unfold load_loop
          congr 2
          apply core_eq <;>
            simp only [oncefs_init_state, io_block_last, io_block_size, io_block_first, hm1, hm2]

/-- The scan of `_oncefs_load` reads the log: the tags of the blocks below
`nb`, when these hold operations below `BLOCK_OPERATION_LAST` and the blocks
from `nb` on do not. -/
theorem load_scan_log (dev : io_t) (nb : Nat) (hnb : nb ≤ dev.last_valid_block + 1)
    (hbsz : SIZEOF_TAGGED_BLOCK ≤ dev.block_size)
    (hw : ∀ i, 1 ≤ i → i < nb →
      (dev.buffer.getD i default).tag.operation < BLOCK_OPERATION_LAST)
    (hf : ∀ i, nb ≤ i → i ≤ dev.last_valid_block →
      (dev.buffer.getD i default).tag.operation ≥ BLOCK_OPERATION_LAST) :
    ∀ (n a : Nat), 1 ≤ a → a ≤ nb → a + n = dev.last_valid_block + 1 →
      load_scan dev (List.range' a n)
        = (0, (List.range' a (nb - a)).map
            (fun i => { block := i, tag := (dev.buffer.getD i default).tag })) := by
  intro n
  induction n with
  | zero =>
    intro a h1 h2 h3
    have e : nb - a = 0 := by omega
    rw [e]
    rfl
  | succ n ih =>
    intro a h1 h2 h3
    rw [List.range'_succ]
    unfold load_scan
    have hc : io_check dev a SIZEOF_TAGGED_BLOCK = 0 := by
      unfold io_check
      rw [if_neg (by omega), if_neg (by omega)]
    have hr : io_read_tag dev a SIZEOF_TAGGED_BLOCK = (0, (dev.buffer.getD a default).tag) := by
      unfold io_read_tag
      rw [if_neg (by rw [hc]; simp)]
    rw [hr]
    dsimp only
    rw [if_neg (by simp)]
    by_cases hlt : a < nb
    · rw [if_neg (by have := hw a h1 hlt; omega)]
      rw [ih (a + 1) (by omega) (by omega) (by omega)]
      have hx : nb - a = (nb - (a + 1)) + 1 := by omega
      rw [hx, List.range'_succ]
      rfl
    · have e : a = nb := by omega
      rw [if_pos (hf a (by omega) (by omega))]
      have e : nb - a = 0 := by omega
      rw [e]
      rfl

/-- Sorting the log by `seq` leaves it as it is. -/
theorem qsort_log_tags (dev : io_t) (nb : Nat)
    (hw : ∀ i, 1 ≤ i → i < nb → (dev.buffer.getD i default).tag.seq = i) :
    qsort id _cmp_tag_seq (log_tags dev nb) = log_tags dev nb := by
  unfold qsort
  apply List.Sorted.insertionSort_eq
  unfold log_tags
  show List.Pairwise _ _
  rw [List.pairwise_map]
  have hp : List.Pairwise (fun a b : Nat => a < b) (List.range' 1 (nb - 1)) :=
    List.pairwise_lt_range' 1 (nb - 1)
  refine List.Pairwise.imp_of_mem ?_ hp
  intro a b ha hb hab
  rw [List.mem_range'_1] at ha hb
  dsimp only [id]
  unfold _cmp_tag_seq
  dsimp only
  rw [hw a ha.1 (by omega), hw b hb.1 (by omega)]
  rw [if_pos hab]
  decide

theorem run_fits_iff : ∀ (ops : List op_t) (ofs : oncefs_t),
    run_fits ops ofs ↔ run_fits_check ops ofs = true := by
  intro ops
  induction ops with
  | nil => intro ofs; simp [run_fits, run_fits_check]
  | cons op rest ih =>
    intro ofs
    unfold run_fits run_fits_check
    cases apply_op ofs op with
    | none => simp
    | some r =>
      dsimp only
      rw [Bool.and_eq_true, decide_eq_true_iff, ih r.2]

/-- The last tag of a log that is not empty. -/
theorem log_tags_getLast (dev : io_t) (nb : Nat) (h : 2 ≤ nb) :
    (log_tags dev nb).getLast?
      = some { block := nb - 1, tag := (dev.buffer.getD (nb - 1) default).tag } := by
  have e : nb = (nb - 1) + 1 := by omega
  rw [e, log_tags_succ dev (nb - 1) (by omega), List.getLast?_append]
  rfl

/-- Re-initialising an engine that satisfies the replay invariant from its
container gives the engine back, at the new time. -/
theorem remount_of_inv (bs : Int) (L : Nat) (ofs : oncefs_t) (dev : io_t) (now : Nat)
    (hbs : SIZEOF_TAG + SIZEOF_NODE ≤ bs) (hinv : replay_inv bs L ofs dev) :
    remount ofs now = some (0, { ofs with time := now }) := by
  obtain ⟨hl, hdl, hdb⟩ := replay_inv_facts bs L ofs dev hinv
  have hnb : ofs.next_block_id ≤ dev.last_valid_block + 1 := by
    have := hinv.wf.2.2.1.1; omega
  have e1 : SIZEOF_TAG + SIZEOF_NODE = 312 := rfl
  have hscan : load_scan dev
      (List.range' (io_block_first dev) (io_block_last dev + 1 - io_block_first dev))
      = (0, log_tags dev ofs.next_block_id) :=
    load_scan_log dev ofs.next_block_id hnb
      (by show (24 : Int) ≤ dev.block_size; rw [hdb]; omega)
      (fun i h1 h2 => (hinv.written i h1 h2).2)
      (fun i h1 h2 => hinv.formatted i h1 (by rw [← hinv.dev_last]; exact h2))
      dev.last_valid_block 1 (le_refl _) hinv.next_block (by omega)
  have hsort := qsort_log_tags dev ofs.next_block_id (fun i h1 h2 => (hinv.written i h1 h2).1)
  have hc := load_loop_core dev (log_tags dev ofs.next_block_id) (oncefs_init_state (some dev))
  rw [hinv.replay] at hc
  cases hll : load_loop dev (log_tags dev ofs.next_block_id) (oncefs_init_state (some dev)) with
  | none => rw [hll] at hc; cases hc
  | some r =>
    rw [hll] at hc
    obtain ⟨hr1, hr2⟩ := Prod.mk.inj (Option.some.inj hc)
    have hframe := load_loop_closed L _ (handle_load_closed L) dev _ _
      (fun c hc => by
        have := (log_tags_mem dev ofs.next_block_id c hc).2.1
        omega) r hll
    have hload : _oncefs_load (oncefs_init_state (some dev)) dev
        = some (0, { r.2 with next_seq_id := ofs.next_seq_id }) := by
      unfold _oncefs_load
      dsimp only
      rw [hscan]
      dsimp only
      rw [if_neg (by simp), hsort, hll]
      dsimp only
      rw [if_neg (by rw [← hr1]; simp)]
      by_cases h2 : 2 ≤ ofs.next_block_id
      · rw [log_tags_getLast dev _ h2]
        dsimp only
        rw [(hinv.written (ofs.next_block_id - 1) (by omega) (by omega)).1, hinv.next_seq]
        have e : ofs.next_block_id - 1 + 1 = ofs.next_block_id := by omega
        rw [e]
      · have e : ofs.next_block_id = 1 := by have := hinv.next_block; omega
        have e2 : log_tags dev ofs.next_block_id = [] := by rw [e]; rfl
        rw [e2]
        dsimp only [List.getLast?]
        congr 2
        apply eq_of_core_eq
        · rfl
        · rfl
        · rfl
        · show r.2.next_seq_id = ofs.next_seq_id
          rw [hframe.2.2, hinv.next_seq, e]
          rfl
    unfold remount oncefs_init
    rw [hinv.io]
    dsimp only
    rw [if_neg (by
      show ¬ (dev.block_size - 16 - 16 < 0)
      rw [hdb]; omega)]
    rw [if_neg (by decide), hload]
    dsimp only
    rw [if_neg (by simp)]
    congr 2
    apply eq_of_core_eq
    · show core r.2 = core ofs
      exact hr2.symm
    · show r.2.io = some dev
      rw [hframe.1]
      rfl
    · rfl
    · rfl

theorem option_get_pair {α β : Type} (x : Option (α × β)) (h : x.isSome = true) :
    x = some ((x.get h).1, (x.get h).2) := by
  cases x with
  | none => simp at h
  | some v => rfl

/-- C1 (amended).  Replay idempotence while the container has room: on a
container whose blocks are at least as large as a tag with a node record and
which has fewer than `2^32` blocks, after a format and any run of calls
(failing calls included) each of which leaves an unused block at the tail of
the container and the node ids below `2^32`, re-initialising the engine from
the container without format returns OK and gives the engine back, at the
new time; the two dumps are equal. -/
theorem c1_replay_idempotence (dev0 : io_t) (now now1 : Nat) (rnd : List Nat)
    (ops : List op_t) (s0 ofs : oncefs_t) (rcs : List Int)
    (hlen : ∀ i, 1 ≤ i → i ≤ dev0.last_valid_block → i < dev0.buffer.length)
    (hL : dev0.last_valid_block < 2 ^ 32)
    (hbs : SIZEOF_TAG + SIZEOF_NODE ≤ dev0.block_size)
    (hinit : oncefs_init (some dev0) 1 now rnd = some (0, s0))
    (hrun : run_ops ops s0 = some (rcs, ofs)) (hfits : run_fits ops s0) :
    ∃ ofs2, remount ofs now1 = some (0, ofs2) ∧ ofs2 = { ofs with time := now1 } ∧
      oncefs_dumps ofs2 = oncefs_dumps ofs := by
  obtain ⟨⟨dev, hinv0⟩, hp⟩ := init_replay_inv dev0 now rnd s0 hlen hinit
  obtain ⟨dev1, hinv⟩ := run_replay dev0.block_size dev0.last_valid_block hbs hL ops s0 dev
    rcs ofs hinv0 hp hrun hfits
  exact ⟨_, remount_of_inv dev0.block_size dev0.last_valid_block ofs dev1 now1 hbs hinv, rfl, rfl⟩

/-- Witness for C1 (amended): on an in-memory container of 512-byte blocks
with seven usable blocks, a file is created, written to, renamed, truncated
and deleted, and a directory is created. -/
theorem c1_replay_idempotence_witness :
    ∃ s0 rcs ofs, oncefs_init_memory 512 8 5 = some (0, s0) ∧
      run_ops c1_calls s0 = some (rcs, ofs) ∧ run_fits c1_calls s0 ∧
      ∃ ofs2, remount ofs 6 = some (0, ofs2) ∧ ofs2 = { ofs with time := 6 } ∧
        oncefs_dumps ofs2 = oncefs_dumps ofs :=
  ⟨((oncefs_init_memory 512 8 5).get (by decide)).2,
    ((run_ops c1_calls ((oncefs_init_memory 512 8 5).get (by decide)).2).get (by decide)).1,
    ((run_ops c1_calls ((oncefs_init_memory 512 8 5).get (by decide)).2).get (by decide)).2,
    option_pair_eq_some _ (by decide) _ (by decide),
    option_get_pair _ (by decide),
    (run_fits_iff _ _).mpr (by decide),
    c1_replay_idempotence (io_init_memory 512 8) 5 6 (format_draws 8) c1_calls
      ((oncefs_init_memory 512 8 5).get (by decide)).2
      ((run_ops c1_calls ((oncefs_init_memory 512 8 5).get (by decide)).2).get (by decide)).2
      ((run_ops c1_calls ((oncefs_init_memory 512 8 5).get (by decide)).2).get (by decide)).1
      (by intro i _ h; simp [io_init_memory] at h ⊢; omega) (by decide) (by decide)
      (option_pair_eq_some _ (by decide) _ (by decide))
      (option_get_pair _ (by decide))
      ((run_fits_iff _ _).mpr (by decide))⟩

/-- C14 (read length), on the witness of the claim.  After the five overlay
writes covering `[0, 16)`, reading 14 bytes at offset 1 fills the buffer with
`"xaaabbbcccdddx"` and returns 15, one more than the size asked for. -/
theorem c14_read_length_exceeds_size :
    ∃ ofs, state_after 512 20 (write_ops 1 overlay_writes) = some ofs ∧
      oncefs_get_data ofs 1 (List.replicate 14 0) 14 1
        = some (15, bytes_of "xaaabbbcccdddx") := by
  refine ⟨(state_after 512 20 (write_ops 1 overlay_writes)).get (by decide), by simp, ?_⟩
  decide

/-- C13 (truncate then read).  `"abcdefgh"` is written to `/foo`
sequentially from offset 0, one byte and then seven (payload size 480), and
the file is truncated to 5 bytes; `get_data(1, buf, 8, 0)` then leaves
`"abcde"` in the buffer and the rest of it untouched, but returns 8 instead
of 5. -/
theorem c13_read_after_truncate_length :
    ∃ ofs ofs1, state_after 512 20 c13_setup = some ofs ∧
      oncefs_del_data ofs 1 5 = (0, ofs1) ∧
      oncefs_get_data ofs1 1 (List.replicate 8 0) 8 0
        = some (8, bytes_of "abcde" ++ [0, 0, 0]) := by
  refine ⟨(state_after 512 20 c13_setup).get (by decide),
    (oncefs_del_data ((state_after 512 20 c13_setup).get (by decide)) 1 5).2, by simp,
    Prod.ext (by decide) rfl, by decide⟩

/-- C15 (file size).  After ten bytes at offset 0 and one byte at offset 5
the DATA blocks of `/foo` reach up to offset 10, and `get_node` reports the
size 6: the end of the block with the largest offset. -/
theorem c15_size_below_logical_length :
    ∃ ofs st, state_after 512 20 c15_setup = some ofs ∧
      oncefs_get_node ofs "/foo".toList = some (0, st) ∧ st.is_file = 1 ∧
      logical_length ofs st.node = 10 ∧ st.size = 6 := by
  refine ⟨(state_after 512 20 c15_setup).get (by decide),
    ((oncefs_get_node ((state_after 512 20 c15_setup).get (by decide)) "/foo".toList).get
      (by decide)).2, by simp, by decide, by decide, by decide, by decide⟩

/-- Counterexample to C18: `/foo` exists, and `set_link("/foo", to)` with a
target of 257 bytes returns INVALID, not EXISTS. -/
theorem c18_counterexample :
    ∃ ofs, state_after 512 8 c18_setup = some ofs ∧
      (_oncefs_resolve_node ofs "/foo".toList).map (fun r => r.1) = some 0 ∧
      (oncefs_set_link ofs "/foo".toList (List.replicate 257 'a') (11, 11)).map (fun r => r.1)
        = some (-EINVAL) := by
  refine ⟨(state_after 512 8 c18_setup).get (by decide), by simp, by decide, by decide⟩

/-- `_oncefs_init_node` on a path other than `"/"` that resolves to a node
returns EXISTS and the engine as it was. -/
theorem init_node_exists (ofs : oncefs_t) (path : List Char) (type : Int) (now : Nat × Nat)
    (node : oncefs_node_t) (hroot : path ≠ ['/'])
    (h : _oncefs_resolve_node ofs path = some (0, node)) :
    _oncefs_init_node ofs path type now = some (-EEXIST, ofs, default) := by
  unfold _oncefs_init_node
  rw [if_neg hroot, h]
  rfl

/-- C18 (amended).  On a path other than `"/"` that already resolves to a
node, `set_file` and `set_dir`, and `set_link` with a target of at most 256
bytes, return EXISTS and leave the engine as it was: both tables and every
counter.  (On `"/"` the existence check of the three calls writes through a
null pointer.) -/
theorem c18_create_over_existing (ofs : oncefs_t) (path : List Char) (now : Nat × Nat)
    (node : oncefs_node_t) (hroot : path ≠ ['/'])
    (h : _oncefs_resolve_node ofs path = some (0, node)) :
    oncefs_set_file ofs path now = some (-EEXIST, ofs) ∧
    oncefs_set_dir ofs path now = some (-EEXIST, ofs) ∧
    ∀ target : List Char, target.length ≤ ONCEFS_NAME_MAX_SIZE →
      oncefs_set_link ofs path target now = some (-EEXIST, ofs) := by
  refine ⟨?_, ?_, ?_⟩
  · unfold oncefs_set_file set_node
    rw [init_node_exists ofs path _ now node hroot h]
    rfl
  · unfold oncefs_set_dir set_node
    rw [init_node_exists ofs path _ now node hroot h]
    rfl
  · intro target ht
    unfold oncefs_set_link
    rw [if_neg (by omega), init_node_exists ofs path _ now node hroot h]
    rfl

/-- Witness for C18 (amended): with the file `/foo`, the three creates on
`/foo` return EXISTS and leave the engine as it was. -/
theorem c18_create_over_existing_witness :
    oncefs_set_file (engine_after 512 8 c18_setup) "/foo".toList (11, 11)
      = some (-EEXIST, engine_after 512 8 c18_setup) ∧
    oncefs_set_dir (engine_after 512 8 c18_setup) "/foo".toList (11, 11)
      = some (-EEXIST, engine_after 512 8 c18_setup) ∧
    oncefs_set_link (engine_after 512 8 c18_setup) "/foo".toList "/bar".toList (11, 11)
      = some (-EEXIST, engine_after 512 8 c18_setup) :=
  (fun h => ⟨h.1, h.2.1, h.2.2 "/bar".toList (by decide)⟩)
    (c18_create_over_existing (engine_after 512 8 c18_setup) "/foo".toList (11, 11) _
      (by decide) (option_pair_eq_some _ (by decide) _ (by decide)))

/-- On a sorted array and with a monotone filter, the reverse search of
`_array_sorted_find_index` returns `0` exactly when the filter is `0`
somewhere, and then the position of the last entry on which it is `0`. -/
theorem find_index_last {ε β : Type} [Inhabited ε] (deref : ε → β) (array : array_t ε β)
    (cmp : β → β → Int) (f : β → β → Int) (key : β)
    (hs : (array.entries.map deref).Pairwise (fun a b => cmp a b ≤ 0))
    (hf : filter_mono cmp (f key)) :
    ((_array_sorted_find_index deref array (some f) key true).1 = 0 ↔
      ∃ e ∈ array.entries, f key (deref e) = 0) ∧
    ((_array_sorted_find_index deref array (some f) key true).1 = 0 →
      (_array_sorted_find_index deref array (some f) key true).2 < array.entries.length ∧
      (∀ i (h : i < array.entries.length),
        (_array_sorted_find_index deref array (some f) key true).2 < i →
          f key (deref (array.entries.get ⟨i, h⟩)) < 0) ∧
      (∀ i (h : i < array.entries.length),
        i ≤ (_array_sorted_find_index deref array (some f) key true).2 →
          0 ≤ f key (deref (array.entries.get ⟨i, h⟩)))) := by
  obtain ⟨h1, h2, h3, h4⟩ := find_index_search_spec deref array f key true
    (probe_mono_reverse deref array cmp f key hs hf)
  have hprobe : ∀ i (h : i < array.entries.length),
      find_index_probe deref array (some f) key true (array.entries.length - 1 - i)
        = - f key (deref (array.entries.get ⟨i, h⟩)) := by
    intro i h
    rw [probe_reverse_eq deref array f key (array.entries.length - 1 - i) (by omega)]
    have e : array.entries.length - 1 - (array.entries.length - 1 - i) = i := by omega
    simp only [e]
  unfold _array_sorted_find_index
  by_cases hv : (find_index_search deref array (some f) key true).2 = true
  · rw [if_neg (by simpa using hv)]
    simp only [if_true, true_iff, forall_true_left]
    obtain ⟨h5, h6⟩ := h4.mp hv
    have hpos : array.entries.length - 1 - (find_index_search deref array (some f) key true).1
        < array.entries.length := by omega
    refine ⟨⟨array.entries.get ⟨_, hpos⟩, List.get_mem _ _ _, ?_⟩, hpos, ?_, ?_⟩
    · have := hprobe _ hpos
      have e : array.entries.length - 1 - (array.entries.length - 1 -
          (find_index_search deref array (some f) key true).1)
          = (find_index_search deref array (some f) key true).1 := by omega
      rw [e, h6] at this
      omega
    · intro i h hi
      have := hprobe i h
      have := h2 (array.entries.length - 1 - i) (by omega)
      omega
    · intro i h hi
      have := hprobe i h
      have := h3 (array.entries.length - 1 - i) (by omega) (by omega)
      omega
  · rw [if_pos (by simpa using hv)]
    constructor
    · constructor
      · intro h; simp at h
      · rintro ⟨e, he, hfe⟩
        exfalso
        obtain ⟨j, hj, rfl⟩ := List.getElem_of_mem he
        have hp := hprobe j hj
        simp only [List.get_eq_getElem] at hp
        rw [hfe] at hp
        by_cases hlt : array.entries.length - 1 - j
            < (find_index_search deref array (some f) key true).1
        · have := h2 _ hlt; omega
        · have h7 : (find_index_search deref array (some f) key true).1
              < array.entries.length := by omega
          have h8 := h3 _ (le_refl _) h7
          have hm := (probe_mono_reverse deref array cmp f key hs hf _
            (array.entries.length - 1 - j) (Nat.le_of_not_lt hlt) (by omega))
          by_cases h10 : find_index_probe deref array (some f) key true
              (find_index_search deref array (some f) key true).1 = 0
          · exact hv (h4.mpr ⟨h7, h10⟩)
          · have := hm.2 (by omega)
            omega
    · intro h; simp at h

/-- A list on which a predicate holds exactly at the positions from `a` to
`b`: the entries at these positions are the entries the predicate keeps. -/
theorem filter_eq_slice {α : Type} [Inhabited α] (l : List α) (p : α → Bool) (a b : Nat)
    (hb : b < l.length) (hab : a ≤ b)
    (h : ∀ i (hi : i < l.length), p (l.get ⟨i, hi⟩) = true ↔ (a ≤ i ∧ i ≤ b)) :
    (List.range (b + 1 - a)).map (fun i => l.getD (a + i) default) = l.filter p := by
  have hsplit : l = l.take a ++ ((l.drop a).take (b + 1 - a) ++ l.drop (b + 1)) := by
    have e1 : l.drop (b + 1) = (l.drop a).drop (b + 1 - a) := by
      rw [List.drop_drop]; congr 1; omega
    rw [e1, List.take_append_drop, List.take_append_drop]
  have hmid : (List.range (b + 1 - a)).map (fun i => l.getD (a + i) default)
      = (l.drop a).take (b + 1 - a) := by
    apply List.ext_getElem
    · simp only [List.length_map, List.length_range, List.length_take, List.length_drop]
      omega
    · intro i h1 h2
      simp only [List.length_map, List.length_range] at h1
      simp only [List.getElem_map, List.getElem_range, List.getElem_take, List.getElem_drop]
      rw [List.getD_eq_getElem _ _ (by omega)]
  rw [hmid]
  conv_rhs => rw [hsplit]
  rw [List.filter_append, List.filter_append]
  have f1 : (l.take a).filter p = [] := by
    rw [List.filter_eq_nil_iff]
    intro x hx
    obtain ⟨i, hi, rfl⟩ := List.getElem_of_mem hx
    simp only [List.length_take] at hi
    rw [List.getElem_take]
    intro hp
    have := (h i (by omega)).mp (by simpa using hp)
    omega
  have f2 : ((l.drop a).take (b + 1 - a)).filter p = (l.drop a).take (b + 1 - a) := by
    rw [List.filter_eq_self]
    intro x hx
    obtain ⟨i, hi, rfl⟩ := List.getElem_of_mem hx
    simp only [List.length_take, List.length_drop] at hi
    rw [List.getElem_take, List.getElem_drop]
    have := (h (a + i) (by omega)).mpr ⟨by omega, by omega⟩
    simpa using this
  have f3 : (l.drop (b + 1)).filter p = [] := by
    rw [List.filter_eq_nil_iff]
    intro x hx
    obtain ⟨i, hi, rfl⟩ := List.getElem_of_mem hx
    simp only [List.length_drop] at hi
    rw [List.getElem_drop]
    intro hp
    have := (h (b + 1 + i) (by omega)).mp (by simpa using hp)
    omega
  rw [f1, f2, f3]
  simp

/-- On a sorted array and with a monotone filter, `array_sorted_each`
visits exactly the entries on which the filter is `0`, in the order of the
array; it returns NOT_FOUND when there is none. -/
theorem array_sorted_each_spec {ε β : Type} [Inhabited ε] (deref : ε → β)
    (array : array_t ε β) (cmp : β → β → Int) (f : β → β → Int) (key : β)
    (hs : (array.entries.map deref).Pairwise (fun a b => cmp a b ≤ 0))
    (hf : filter_mono cmp (f key)) :
    ((array_sorted_each deref array (some f) key).1 = 0 ↔
      ∃ e ∈ array.entries, f key (deref e) = 0) ∧
    (array_sorted_each deref array (some f) key).2
      = array.entries.filter (fun e => decide (f key (deref e) = 0)) := by
  obtain ⟨hF1, hF2⟩ := find_index_first deref array cmp f key hs hf
  obtain ⟨hL1, hL2⟩ := find_index_last deref array cmp f key hs hf
  unfold array_sorted_each
  dsimp only
  by_cases hex : ∃ e ∈ array.entries, f key (deref e) = 0
  · have hF := hF1.mpr hex
    have hL := hL1.mpr hex
    rw [if_neg (by simpa using hF), if_neg (by simpa using hL)]
    refine ⟨⟨fun _ => hex, fun _ => rfl⟩, ?_⟩
    obtain ⟨hFa, hFb⟩ := hF2 hF
    obtain ⟨hLn, hLa, hLb⟩ := hL2 hL
    obtain ⟨e, he, hfe⟩ := hex
    obtain ⟨j, hj, rfl⟩ := List.getElem_of_mem he
    have hFj : (_array_sorted_find_index deref array (some f) key false).2 ≤ j := by
      by_contra hlt
      have := hFa j hj (by omega)
      simp only [List.get_eq_getElem] at this
      omega
    have hjL : j ≤ (_array_sorted_find_index deref array (some f) key true).2 := by
      by_contra hlt
      have := hLa j hj (by omega)
      simp only [List.get_eq_getElem] at this
      omega
    apply filter_eq_slice _ _ _ _ hLn (by omega)
    intro i hi
    simp only [decide_eq_true_eq]
    constructor
    · intro h0
      constructor
      · by_contra hlt
        have := hFa i hi (by omega)
        omega
      · by_contra hlt
        have := hLa i hi (by omega)
        omega
    · rintro ⟨h1, h2⟩
      have := hFb i hi h1
      have := hLb i hi h2
      omega
  · have hF : (_array_sorted_find_index deref array (some f) key false).1 ≠ 0 :=
      fun h => hex (hF1.mp h)
    rw [if_pos hF]
    refine ⟨⟨fun h => absurd h hF, fun h => absurd h hex⟩, ?_⟩
    symm
    rw [List.filter_eq_nil_iff]
    intro x hx hp
    exact hex ⟨x, hx, by simpa using hp⟩

/-- The positions `table_query_ids` visits through an index in the order of
`cmp`, with a monotone filter: the positions of the index whose row the
filter accepts, in the order of the index. -/
theorem table_query_ids_spec {ρ : Type} [Inhabited ρ] (table : table_t ρ) (key : ρ) (k : Nat)
    (cmp : ρ → ρ → Int) (f : ρ → ρ → Int) (hk : k < table.indexes.length)
    (hs : (index_rows table.rows (table_index table k)).Pairwise (fun a b => cmp a b ≤ 0))
    (hf : filter_mono cmp (f key)) :
    ((table_query_ids table key k (some f)).1 = 0 ↔
      ∃ b ∈ index_rows table.rows (table_index table k), f key b = 0) ∧
    ((table_query_ids table key k (some f)).1 = 0 ∨
      (table_query_ids table key k (some f)).1 = -ENOENT) ∧
    (table_query_ids table key k (some f)).2
      = (table_index table k).entries.filter
          (fun id => decide (f key (array_dereference table.rows id) = 0)) := by
  obtain ⟨h1, h2⟩ := array_sorted_each_spec (array_dereference table.rows) (table_index table k)
    cmp f key hs hf
  have h3 := array_sorted_each_rc (array_dereference table.rows) (table_index table k) f key
  unfold table_query_ids
  rw [if_neg (by omega)]
  refine ⟨?_, h3, h2⟩
  rw [h1]
  unfold index_rows
  simp only [List.mem_map]
  constructor
  · rintro ⟨e, he, hfe⟩; exact ⟨_, ⟨e, he, rfl⟩, hfe⟩
  · rintro ⟨b, ⟨e, he, rfl⟩, hfe⟩; exact ⟨e, he, hfe⟩

/-- The rows `table_query_all` hands to its callback through an index in the
order of `cmp`, with a monotone filter: the rows of the index the filter
accepts, in the order of the index. -/
theorem table_query_all_spec {ρ : Type} [Inhabited ρ] (table : table_t ρ) (key : ρ) (k : Nat)
    (cmp : ρ → ρ → Int) (f : ρ → ρ → Int) (hk : k < table.indexes.length)
    (hs : (index_rows table.rows (table_index table k)).Pairwise (fun a b => cmp a b ≤ 0))
    (hf : filter_mono cmp (f key)) :
    ((table_query_all table key k (some f)).1 = 0 ∨
      (table_query_all table key k (some f)).1 = -ENOENT) ∧
    (table_query_all table key k (some f)).2
      = (index_rows table.rows (table_index table k)).filter
          (fun b => decide (f key b = 0)) := by
  obtain ⟨h1, h2, h3⟩ := table_query_ids_spec table key k cmp f hk hs hf
  have hfm : (index_rows table.rows (table_index table k)).filter
      (fun b => decide (f key b = 0))
      = ((table_index table k).entries.filter
          (fun id => decide (f key (array_dereference table.rows id) = 0))).map
        (array_dereference table.rows) := by
    unfold index_rows
    rw [List.filter_map]
    rfl
  unfold table_query_all
  dsimp only
  split
  · rename_i hne
    refine ⟨?_, ?_⟩
    · rcases h2 with h2 | h2
      · exact absurd h2 hne
      · right; exact h2
    · have hnone : ¬ ∃ b ∈ index_rows table.rows (table_index table k), f key b = 0 :=
        fun hex => hne (h1.mpr hex)
      symm
      rw [List.filter_eq_nil_iff]
      intro x hx hp
      exact hnone ⟨x, hx, by simpa using hp⟩
  · refine ⟨Or.inl rfl, ?_⟩
    show List.map _ (table_query_ids table key k (some f)).2 = _
    rw [h3, hfm]

/-- Applying a mutator at positions without repetition: the row at a
position visited is mutated once, the others stay. -/
theorem update_fold_getD {ρ : Type} [Inhabited ρ] (m : ρ → ρ) :
    ∀ (ids : List Nat) (rows : List ρ), ids.Nodup → (∀ i ∈ ids, i < rows.length) →
      (ids.foldl (fun rows row_id => rows.set row_id (m (array_dereference rows row_id)))
          rows).length = rows.length ∧
      ∀ i, array_dereference
          (ids.foldl (fun rows row_id => rows.set row_id (m (array_dereference rows row_id)))
            rows) i
        = if i ∈ ids then m (array_dereference rows i) else array_dereference rows i := by
  intro ids
  induction ids with
  | nil => intro rows _ _; exact ⟨rfl, fun i => by simp⟩
  | cons a rest ih =>
    intro rows hnd hlt
    rw [List.nodup_cons] at hnd
    have ha : a < rows.length := hlt a (List.mem_cons_self _ _)
    obtain ⟨hl, hg⟩ := ih (rows.set a (m (array_dereference rows a))) hnd.2
      (fun i hi => by rw [List.length_set]; exact hlt i (List.mem_cons_of_mem _ hi))
    rw [List.foldl_cons]
    refine ⟨by rw [hl, List.length_set], fun i => ?_⟩
    rw [hg i]
    by_cases hi : i = a
    · subst hi
      rw [if_neg hnd.1, if_pos (List.mem_cons_self _ _), array_dereference_set_eq _ _ _ ha]
    · rw [array_dereference_set_ne _ _ _ _ hi]
      by_cases hr : i ∈ rest
      · rw [if_pos hr, if_pos (List.mem_cons_of_mem _ hr)]
      · rw [if_neg hr, if_neg (by simp [hi, hr])]

/-- The rows of an index after `table_query_update` through an index in the
order of `cmp`, with a monotone filter: the rows it had, the mutator applied
to those the filter accepts, in some order. -/
theorem table_query_update_spec {ρ : Type} [Inhabited ρ] (table : table_t ρ) (key : ρ) (k : Nat)
    (cmp : ρ → ρ → Int) (f : ρ → ρ → Int) (m : ρ → ρ) (hwf : table_wf table)
    (hk : k < table.indexes.length)
    (hs : (index_rows table.rows (table_index table k)).Pairwise (fun a b => cmp a b ≤ 0))
    (hf : filter_mono cmp (f key)) (j : Nat) (hj : j < table.indexes.length) :
    (index_rows (table_query_update table key k (some f) m).2.rows
        (table_index (table_query_update table key k (some f) m).2 j)).Perm
      ((index_rows table.rows (table_index table j)).map
        (fun r => if f key r = 0 then m r else r)) := by
  obtain ⟨h1, h2, h3⟩ := table_query_ids_spec table key k cmp f hk hs hf
  have hkm := table_index_mem table k hk
  have hjm := table_index_mem table j hj
  obtain ⟨hkr, hknd, -⟩ := hwf.1 _ hkm
  have hnd : (table_query_ids table key k (some f)).2.Nodup := by
    rw [h3]; exact hknd.filter _
  have hlt : ∀ i ∈ (table_query_ids table key k (some f)).2, i < table.rows.length := by
    intro i hi
    rw [h3] at hi
    exact hkr i (List.mem_of_mem_filter hi)
  obtain ⟨-, hg⟩ := update_fold_getD m _ table.rows hnd hlt
  unfold table_query_update
  dsimp only
  rw [if_neg (by rcases h2 with h2 | h2 <;> simp [h2])]
  dsimp only
  rw [table_index_map table.rows _ table.indexes _ j hj]
  unfold index_rows array_sort
  dsimp only
  refine ((qsort_perm _ _ _).map _).trans ?_
  rw [List.map_map]
  apply List.Perm.of_eq
  apply List.map_congr_left
  intro id hid
  dsimp only [Function.comp]
  rw [hg id, h3]
  have hidk : id ∈ (table_index table k).entries :=
    ((hwf.2.1 _ hkm id).mpr ((hwf.2.1 _ hjm id).mp hid))
  by_cases hfz : f key (array_dereference table.rows id) = 0
  · rw [if_pos hfz, if_pos (List.mem_filter.mpr ⟨hidk, by simpa using hfz⟩)]
  · rw [if_neg hfz, if_neg (fun hmem => hfz (by simpa using (List.mem_filter.mp hmem).2))]

theorem cmp_size_order : cmp_order _cmp_size := cmp_order_key (fun a : Nat => a)

theorem cmp_size_eq_zero (a b : Nat) : _cmp_size a b = 0 ↔ a = b := by
  unfold _cmp_size
  constructor
  · intro h; split_ifs at h <;> omega
  · intro h; subst h; simp

/-- The sorted array of positions `table_query_delete` collects: sorted, and
holding the positions inserted. -/
theorem fold_sorted_insert_spec : ∀ (ids : List Nat) (a : array_t Nat Nat),
    a.comparator = _cmp_size →
    (a.entries.map id).Pairwise (fun x y => _cmp_size x y ≤ 0) →
    (ids.foldl (fun a row_id => array_sorted_insert id a row_id) a).comparator = _cmp_size ∧
    ((ids.foldl (fun a row_id => array_sorted_insert id a row_id) a).entries.map id).Pairwise
      (fun x y => _cmp_size x y ≤ 0) ∧
    ∀ x, x ∈ (ids.foldl (fun a row_id => array_sorted_insert id a row_id) a).entries ↔
      (x ∈ ids ∨ x ∈ a.entries) := by
  intro ids
  induction ids with
  | nil => intro a hc hs; exact ⟨hc, hs, fun x => by simp⟩
  | cons i rest ih =>
    intro a hc hs
    rw [List.foldl_cons]
    have hc1 : (array_sorted_insert id a i).comparator = _cmp_size := hc
    have hs1 := array_sorted_insert_sorted id a i (by rw [hc]; exact cmp_size_order)
      (by rw [hc]; exact hs)
    rw [hc] at hs1
    obtain ⟨h1, h2, h3⟩ := ih (array_sorted_insert id a i) hc1 hs1
    refine ⟨h1, h2, fun x => ?_⟩
    rw [h3, (array_sorted_insert_perm id a i).mem_iff]
    simp only [List.mem_cons]
    tauto

/-- The rows of an index after `table_query_delete` through an index in the
order of `cmp`, with a monotone filter: the rows it had that the filter
does not accept, in the order they had.  The row store stays. -/
theorem table_query_delete_spec {ρ : Type} [Inhabited ρ] (table : table_t ρ) (key : ρ) (k : Nat)
    (cmp : ρ → ρ → Int) (f : ρ → ρ → Int) (hwf : table_wf table)
    (hk : k < table.indexes.length)
    (hs : (index_rows table.rows (table_index table k)).Pairwise (fun a b => cmp a b ≤ 0))
    (hf : filter_mono cmp (f key)) (j : Nat) (hj : j < table.indexes.length) :
    ((table_query_delete table key k (some f)).1 = 0 ∨
      (table_query_delete table key k (some f)).1 = -ENOENT) ∧
    (table_query_delete table key k (some f)).2.rows = table.rows ∧
    index_rows (table_query_delete table key k (some f)).2.rows
        (table_index (table_query_delete table key k (some f)).2 j)
      = (index_rows table.rows (table_index table j)).filter
          (fun r => decide (f key r ≠ 0)) := by
  obtain ⟨h1, h2, h3⟩ := table_query_ids_spec table key k cmp f hk hs hf
  have hkm := table_index_mem table k hk
  have hjm := table_index_mem table j hj
  unfold table_query_delete
  dsimp only
  split
  · rename_i hne
    refine ⟨by rcases h2 with h2 | h2; exact absurd h2 hne; exact Or.inr h2, rfl, ?_⟩
    symm
    rw [List.filter_eq_self]
    intro r hr
    have hnone : ¬ ∃ b ∈ index_rows table.rows (table_index table k), f key b = 0 :=
      fun hex => hne (h1.mpr hex)
    have hrk : r ∈ index_rows table.rows (table_index table k) :=
      ((index_rows_perm table hwf k hk).trans (index_rows_perm table hwf j hj).symm).mem_iff.mpr hr
    simp only [ne_eq, decide_not, Bool.not_eq_true', decide_eq_false_iff_not]
    exact fun h0 => hnone ⟨r, hrk, h0⟩
  · refine ⟨Or.inl rfl, rfl, ?_⟩
    dsimp only
    rw [table_index_map table.rows _ table.indexes _ j hj]
    obtain ⟨hc, hsorted, hmem⟩ := fold_sorted_insert_spec (table_query_ids table key k (some f)).2
      { entries := [], comparator := _cmp_size } rfl (by simp)
    unfold index_rows array_delete
    dsimp only
    rw [List.filter_map]
    congr 1
    apply List.filter_congr
    intro i hi
    have hiff := array_sorted_first_iff id
      (List.foldl (fun a row_id => array_sorted_insert id a row_id)
        { entries := [], comparator := _cmp_size } (table_query_ids table key k (some f)).2)
      _cmp_size _cmp_size i hsorted (filter_mono_self _ cmp_size_order i)
    have hik : i ∈ (table_index table k).entries :=
      ((hwf.2.1 _ hkm i).mpr ((hwf.2.1 _ hjm i).mp hi))
    have hin : i ∈ (table_query_ids table key k (some f)).2 ↔
        f key (array_dereference table.rows i) = 0 := by
      rw [h3, List.mem_filter]
      simp only [decide_eq_true_eq]
      exact ⟨fun h => h.2, fun h => ⟨hik, h⟩⟩
    have hfirst : (array_sorted_first id
        (List.foldl (fun a row_id => array_sorted_insert id a row_id)
          { entries := [], comparator := _cmp_size } (table_query_ids table key k (some f)).2)
        (some _cmp_size) i).1 = 0 ↔ f key (array_dereference table.rows i) = 0 := by
      rw [hiff, ← hin]
      constructor
      · rintro ⟨e, he, hz⟩
        have := (cmp_size_eq_zero i e).mp hz
        rw [this]
        exact ((hmem e).mp he).resolve_right (by simp)
      · intro h
        exact ⟨i, (hmem i).mpr (Or.inl h), (cmp_size_eq_zero i i).mpr rfl⟩
    simp only [Function.comp, ne_eq, decide_not]
    rw [Bool.eq_iff_iff]
    simp only [Bool.not_eq_true', decide_eq_false_iff_not, decide_eq_true_eq]
    rw [hfirst]

theorem dropWhile_head {α : Type} (p : α → Bool) : ∀ (l : List α) (c : α) (rest : List α),
    l.dropWhile p = c :: rest → p c = false := by
  intro l
  induction l with
  | nil => intro c rest h; simp at h
  | cons a l ih =>
    intro c rest h
    rw [List.dropWhile_cons] at h
    by_cases ha : p a = true
    · rw [if_pos ha] at h
      exact ih c rest h
    · rw [if_neg ha] at h
      have := (List.cons.inj h).1
      subst this
      simpa using ha

/-- The tokens of a string with a `/` in it: the tokens up to that `/`, then
the tokens after it. -/
theorem strtok_all_split (b : List Char) : ∀ (a cur : List Char),
    strtok_all cur (a ++ '/' :: b) = strtok_all cur a ++ strtok_all [] b := by
  intro a
  induction a with
  | nil =>
    intro cur
    simp only [List.nil_append, strtok_all, if_true]
    split <;> simp
  | cons c a ih =>
    intro cur
    simp only [List.cons_append, strtok_all]
    by_cases hc : c = '/'
    · simp only [hc, if_true]
      split
      · exact ih []
      · exact congrArg (fun t => cur.reverse :: t) (ih [])
    · simp only [hc, if_false]
      exact ih (c :: cur)

/-- A string without `/` is one token (none when it is empty). -/
theorem strtok_all_word : ∀ (w cur : List Char), '/' ∉ w →
    strtok_all cur w = if cur.reverse ++ w = [] then [] else [cur.reverse ++ w] := by
  intro w
  induction w with
  | nil =>
    intro cur _
    simp only [strtok_all, List.append_nil, List.reverse_eq_nil_iff]
  | cons c w ih =>
    intro cur h
    have hc : c ≠ '/' := fun e => h (by simp [e])
    have hw : '/' ∉ w := fun e => h (List.mem_cons_of_mem _ e)
    simp only [strtok_all, hc, if_false]
    rw [ih (c :: cur) hw]
    simp

/-- A string of slashes has no token. -/
theorem strtok_all_slashes : ∀ (l : List Char), (∀ c ∈ l, c = '/') → strtok_all [] l = [] := by
  intro l
  induction l with
  | nil => intro _; rfl
  | cons c l ih =>
    intro h
    have hc : c = '/' := h c (List.mem_cons_self _ _)
    simp only [strtok_all, hc, if_true]
    exact ih (fun x hx => h x (List.mem_cons_of_mem _ hx))

/-- Trailing slashes do not change the tokens. -/
theorem path_tokens_append_slashes (x l : List Char) (h : ∀ c ∈ l, c = '/') :
    path_tokens (x ++ l) = path_tokens x := by
  unfold path_tokens
  cases l with
  | nil => simp
  | cons c l =>
    have hc : c = '/' := h c (List.mem_cons_self _ _)
    subst hc
    rw [strtok_all_split, strtok_all_slashes l (fun x hx => h x (List.mem_cons_of_mem _ hx))]
    simp

/-- A string is what `strip_slashes` leaves of it followed by slashes. -/
theorem strip_slashes_decomp (s : List Char) :
    ∃ l : List Char, (∀ c ∈ l, c = '/') ∧ s = strip_slashes s ++ l := by
  refine ⟨(s.reverse.takeWhile (fun c => c = '/')).reverse, ?_, ?_⟩
  · intro c hc
    rw [List.mem_reverse] at hc
    simpa using List.mem_takeWhile_imp hc
  · unfold strip_slashes
    rw [← List.reverse_append, List.takeWhile_append_dropWhile, List.reverse_reverse]

theorem path_tokens_strip (s : List Char) : path_tokens (strip_slashes s) = path_tokens s := by
  obtain ⟨l, hl, hs⟩ := strip_slashes_decomp s
  conv_rhs => rw [hs]
  rw [path_tokens_append_slashes _ _ hl]

/-- What `strip_slashes` leaves does not end in a slash. -/
theorem strip_slashes_last (s : List Char) (h : strip_slashes s ≠ []) :
    ∃ (x : List Char) (c : Char), strip_slashes s = x ++ [c] ∧ c ≠ '/' := by
  unfold strip_slashes at h ⊢
  cases hd : s.reverse.dropWhile (fun c => c = '/') with
  | nil => rw [hd] at h; simp at h
  | cons c rest =>
    refine ⟨rest.reverse, c, by simp, ?_⟩
    have := dropWhile_head _ _ _ _ hd
    simpa using this

/-- A string with a `/` is the part before its last `/`, the `/`, and the
part after it, which has no `/`. -/
theorem last_slash_decomp (p : List Char) (h : '/' ∈ p) :
    p = before_last_slash p ++ '/' :: after_last_slash p ∧ '/' ∉ after_last_slash p := by
  have hsplit := List.takeWhile_append_dropWhile (fun c => decide (c ≠ '/')) p.reverse
  have hne : p.reverse.dropWhile (fun c => decide (c ≠ '/')) ≠ [] := by
    intro he
    rw [List.dropWhile_eq_nil_iff] at he
    have := he '/' (List.mem_reverse.mpr h)
    simp at this
  constructor
  · unfold before_last_slash after_last_slash
    cases hd : p.reverse.dropWhile (fun c => decide (c ≠ '/')) with
    | nil => exact absurd hd hne
    | cons c rest =>
      have hc0 := dropWhile_head _ _ _ _ hd
      have hc : c = '/' := by simpa using hc0
      subst hc
      rw [hd] at hsplit
      have : p = (p.reverse).reverse := (List.reverse_reverse p).symm
      conv_lhs => rw [this, ← hsplit]
      simp
  · unfold after_last_slash
    intro hmem
    rw [List.mem_reverse] at hmem
    have := List.mem_takeWhile_imp hmem
    simp at this

/-- A path with a `/` before its last component: its tokens are the tokens
of `dirname(path)` followed by `basename(path)`. -/
theorem path_tokens_dirname (path : List Char) (h : '/' ∈ strip_slashes path) :
    path_tokens path = path_tokens (dirname path) ++ [basename path] ∧
    path ≠ ['/'] := by
  have hp : strip_slashes path ≠ [] := fun e => by rw [e] at h; simp at h
  obtain ⟨l, hl, hs⟩ := strip_slashes_decomp path
  have hin : '/' ∈ path := by rw [hs]; exact List.mem_append_left _ h
  have hne : path ≠ [] := fun e => by rw [e] at hin; simp at hin
  obtain ⟨hdec, hno⟩ := last_slash_decomp (strip_slashes path) h
  obtain ⟨x, c, hx, hc⟩ := strip_slashes_last path hp
  have hafter : after_last_slash (strip_slashes path) ≠ [] := by
    intro e
    rw [e] at hdec
    rw [hdec] at hx
    have := congrArg List.getLast? hx
    simp at this
    exact hc this.symm
  have hbase : basename path = after_last_slash (strip_slashes path) := by
    unfold basename
    rw [if_neg hne, if_neg hp]
  have hdir : path_tokens (dirname path) = path_tokens (before_last_slash (strip_slashes path)) := by
    unfold dirname
    dsimp only
    rw [if_neg (by simpa using hin), if_neg hp, if_neg (by simpa using h)]
    split
    · rename_i hd
      have := path_tokens_strip (before_last_slash (strip_slashes path))
      rw [hd] at this
      rw [← this]
      split <;> rfl
    · exact path_tokens_strip _
  refine ⟨?_, ?_⟩
  · rw [← path_tokens_strip path, hdir, hbase]
    conv_lhs => rw [hdec]
    unfold path_tokens
    rw [strtok_all_split, strtok_all_word _ _ hno]
    simp [hafter]
  · intro e
    rw [e] at hp
    exact hp (by decide)

/-- `_oncefs_resolve_node` after leading segments that all succeed. -/
theorem resolve_at (ofs : oncefs_t) (path : List Char) (pre : List (List Char))
    (seg : List Char) (post : List (List Char)) (prev : oncefs_node_t)
    (hroot : path ≠ ['/']) (htok : path_tokens path = pre ++ seg :: post)
    (hwalk : walk_segments ofs pre (root_node ofs) = some prev) :
    _oncefs_resolve_node ofs path
      = some (resolve_loop ofs (seg :: post) prev.node prev.type
          (if pre = [] then default else prev)) := by
  have hne : path_tokens path ≠ [] := by rw [htok]; simp
  unfold _oncefs_resolve_node
  simp only [hroot, if_false, hne, htok]
  have := resolve_loop_walk ofs (seg :: post) pre (root_node ofs) prev default hwalk
  simp only [root_node] at this
  rw [this, if_neg (by simp)]

/-- The loop of `_oncefs_resolve_node` at a segment that follows a DIR and
is not found. -/
theorem resolve_loop_missing (ofs : oncefs_t) (seg : List Char) (post : List (List Char))
    (prev tmp : oncefs_node_t) (hdir : prev.type = NODE_TYPE_DIR)
    (hlen : seg.length ≤ ONCEFS_NAME_MAX_SIZE) (hrc : (lookup_segment ofs prev.node seg).1 ≠ 0) :
    resolve_loop ofs (seg :: post) prev.node prev.type tmp = (-ENOENT, tmp) := by
  have hrc2 : (lookup_segment ofs prev.node seg).1 = -ENOENT := by
    rcases table_query_first_rc ofs.nodes
      { node := 0, parent := prev.node, type := NODE_TYPE_DIR, last_access := 0,
        last_modification := 0, mode := 0, name := seg } TABLE_INDEX_LOOKUP none with h | h
    · exact absurd h hrc
    · exact h
  rw [resolve_loop, hdir]
  rw [if_neg (by simp), if_neg (by omega)]
  show (if (lookup_segment ofs prev.node seg).1 ≠ 0 then ((lookup_segment ofs prev.node seg).1, tmp)
    else _) = _
  rw [if_pos hrc, hrc2]

/-- The loop of `_oncefs_resolve_node` at a segment that follows a DIR and
is found. -/
theorem resolve_loop_found (ofs : oncefs_t) (seg : List Char) (post : List (List Char))
    (prev tmp : oncefs_node_t) (hdir : prev.type = NODE_TYPE_DIR)
    (hlen : seg.length ≤ ONCEFS_NAME_MAX_SIZE) (hrc : (lookup_segment ofs prev.node seg).1 = 0) :
    resolve_loop ofs (seg :: post) prev.node prev.type tmp
      = resolve_loop ofs post (lookup_segment ofs prev.node seg).2.node
          (lookup_segment ofs prev.node seg).2.type (lookup_segment ofs prev.node seg).2 := by
  rw [resolve_loop, hdir]
  rw [if_neg (by simp), if_neg (by omega)]
  show (if (lookup_segment ofs prev.node seg).1 ≠ 0 then ((lookup_segment ofs prev.node seg).1, tmp)
    else _) = _
  rw [if_neg (by simpa using hrc)]
  rfl

/-- The loop of `_oncefs_resolve_node` at a segment that follows a node that
is not a DIR. -/
theorem resolve_loop_not_dir (ofs : oncefs_t) (seg : List Char) (post : List (List Char))
    (parent : Nat) (type : Int) (tmp : oncefs_node_t) (hdir : type ≠ NODE_TYPE_DIR) :
    resolve_loop ofs (seg :: post) parent type tmp = (-EINVAL, tmp) := by
  rw [resolve_loop, if_pos hdir]

/-- A path with two tokens or more has a `/` before its last component. -/
theorem slash_of_two_tokens (path : List Char) (a b : List Char) (rest : List (List Char))
    (h : path_tokens path = a :: b :: rest) : '/' ∈ strip_slashes path := by
  by_contra hno
  have h1 := path_tokens_strip path
  unfold path_tokens at h1 h
  rw [strtok_all_word _ _ hno, h] at h1
  split at h1 <;> simp at h1

/-- The tokens of `dirname(path)` for a path with two tokens or more: all
but the last. -/
theorem path_tokens_dirname_two (path : List Char) (pre : List (List Char)) (seg : List Char)
    (post : List (List Char)) (htok : path_tokens path = pre ++ seg :: post) (hpost : post ≠ []) :
    path_tokens (dirname path) = pre ++ seg :: post.dropLast ∧ path ≠ ['/'] ∧
    dirname path ≠ ['/'] := by
  have hs : '/' ∈ strip_slashes path := by
    cases pre with
    | nil =>
      cases post with
      | nil => exact absurd rfl hpost
      | cons b rest => exact slash_of_two_tokens path seg b rest htok
    | cons a pre =>
      cases pre with
      | nil => exact slash_of_two_tokens path a seg post htok
      | cons b pre => exact slash_of_two_tokens path a b (pre ++ seg :: post) htok
  obtain ⟨h1, h2⟩ := path_tokens_dirname path hs
  rw [htok] at h1
  have h3 : pre ++ seg :: post = (pre ++ seg :: post.dropLast) ++ [post.getLast hpost] := by
    rw [List.append_assoc, List.cons_append, List.dropLast_append_getLast]
  rw [h3] at h1
  have h4 := List.append_inj_left' h1 rfl
  refine ⟨h4.symm, h2, ?_⟩
  intro e
  rw [e] at h4
  have : path_tokens ['/'] = [] := by decide
  rw [this] at h4
  simp at h4

/-- Counterexample to C19: on an empty filesystem the directory component of
257 bytes of the path does not exist, and `set_file` returns INVALID, not
NOT_FOUND. -/
theorem c19_counterexample :
    ∃ ofs, state_after 512 8 [] = some ofs ∧
      path_tokens ('/' :: List.replicate 257 'a' ++ "/x".toList)
        = [List.replicate 257 'a', "x".toList] ∧
      (lookup_segment ofs (root_node ofs).node (List.replicate 257 'a')).1 = -ENOENT ∧
      (oncefs_set_file ofs ('/' :: List.replicate 257 'a' ++ "/x".toList) (12, 12)).map
        (fun r => r.1) = some (-EINVAL) := by
  refine ⟨(state_after 512 8 []).get (by decide), by simp, by decide, by decide, by decide⟩

/-- C19 (amended).  Let `seg` be a component of the path before the last one
such that all components before it are found, each following a DIR, and let
`seg` follow a DIR and be at most 256 bytes long.  If `seg` does not exist,
`set_file` and `set_dir` return NOT_FOUND; if `seg` exists and is not a DIR,
they return INVALID.  In both cases the engine is left as it was. -/
theorem c19_create_under_bad_parent (ofs : oncefs_t) (path : List Char) (now : Nat × Nat)
    (pre : List (List Char)) (seg : List Char) (post : List (List Char)) (prev : oncefs_node_t)
    (htok : path_tokens path = pre ++ seg :: post) (hpost : post ≠ [])
    (hwalk : walk_segments ofs pre (root_node ofs) = some prev)
    (hdir : prev.type = NODE_TYPE_DIR) (hlen : seg.length ≤ ONCEFS_NAME_MAX_SIZE) :
    ((lookup_segment ofs prev.node seg).1 ≠ 0 →
      oncefs_set_file ofs path now = some (-ENOENT, ofs) ∧
      oncefs_set_dir ofs path now = some (-ENOENT, ofs)) ∧
    ((lookup_segment ofs prev.node seg).1 = 0 →
      (lookup_segment ofs prev.node seg).2.type ≠ NODE_TYPE_DIR →
      oncefs_set_file ofs path now = some (-EINVAL, ofs) ∧
      oncefs_set_dir ofs path now = some (-EINVAL, ofs)) := by
  obtain ⟨hdt, hroot, hdroot⟩ := path_tokens_dirname_two path pre seg post htok hpost
  have hres := resolve_at ofs path pre seg post prev hroot htok hwalk
  have hresd := resolve_at ofs (dirname path) pre seg post.dropLast prev hdroot hdt hwalk
  constructor
  · intro hrc
    rw [resolve_loop_missing ofs seg post prev _ hdir hlen hrc] at hres
    rw [resolve_loop_missing ofs seg _ prev _ hdir hlen hrc] at hresd
    have hinit : ∀ type, _oncefs_init_node ofs path type now = some (-ENOENT, ofs, default) := by
      intro type
      unfold _oncefs_init_node
      rw [if_neg hroot, hres]
      dsimp only
      rw [if_neg (by decide), if_neg (by decide), hresd]
      dsimp only
      rw [if_pos (by decide)]
    constructor
    · unfold oncefs_set_file set_node
      rw [hinit]
      rfl
    · unfold oncefs_set_dir set_node
      rw [hinit]
      rfl
  · intro hrc hnd
    obtain ⟨nxt, post1, hp⟩ : ∃ nxt post1, post = nxt :: post1 := by
      cases post with
      | nil => exact absurd rfl hpost
      | cons a b => exact ⟨a, b, rfl⟩
    rw [resolve_loop_found ofs seg post prev _ hdir hlen hrc, hp,
      resolve_loop_not_dir ofs nxt post1 _ _ _ hnd] at hres
    have hinit : ∀ type, _oncefs_init_node ofs path type now = some (-EINVAL, ofs, default) := by
      intro type
      unfold _oncefs_init_node
      rw [if_neg hroot, hres]
      dsimp only
      rw [if_neg (by decide), if_pos (by decide)]
    constructor
    · unfold oncefs_set_file set_node
      rw [hinit]
      rfl
    · unfold oncefs_set_dir set_node
      rw [hinit]
      rfl

/-- Witness for C19 (amended): with the directory `/foo` and the file `/baz`,
`set_file("/foo/bork/baz")` returns NOT_FOUND and `set_file("/baz/bar")`
returns INVALID, and the engine is left as it was. -/
theorem c19_create_under_bad_parent_witness :
    oncefs_set_file (engine_after 512 8 c19_setup) "/foo/bork/baz".toList (12, 12)
      = some (-ENOENT, engine_after 512 8 c19_setup) ∧
    oncefs_set_file (engine_after 512 8 c19_setup) "/baz/bar".toList (12, 12)
      = some (-EINVAL, engine_after 512 8 c19_setup) :=
  ⟨((c19_create_under_bad_parent (engine_after 512 8 c19_setup) "/foo/bork/baz".toList (12, 12)
      ["foo".toList] "bork".toList ["baz".toList]
      ((walk_segments (engine_after 512 8 c19_setup) ["foo".toList]
        (root_node (engine_after 512 8 c19_setup))).get (by decide))
      (by decide) (by decide) (by simp) (by decide) (by decide)).1 (by decide)).1,
   ((c19_create_under_bad_parent (engine_after 512 8 c19_setup) "/baz/bar".toList (12, 12)
      [] "baz".toList ["bar".toList] (root_node (engine_after 512 8 c19_setup))
      (by decide) (by decide) (by simp [walk_segments]) (by decide) (by decide)).2
      (by decide) (by decide)).1⟩

theorem node_lookup_eq_zero (k o : oncefs_node_t) :
    _oncefs_node_cmp_lookup k o = 0 ↔ (o.parent = k.parent ∧ o.name = k.name) := by
  unfold _oncefs_node_cmp_lookup
  constructor
  · intro h
    by_cases h1 : k.parent < o.parent
    · rw [if_pos h1] at h; omega
    · rw [if_neg h1] at h
      by_cases h2 : k.parent > o.parent
      · rw [if_pos h2] at h; omega
      · rw [if_neg h2] at h
        exact ⟨by omega, (strcmp_eq_zero _ _ h).symm⟩
  · rintro ⟨h1, h2⟩
    rw [if_neg (by omega), if_neg (by omega), h2]
    exact strcmp_refl _

theorem filter_children_eq_zero (k o : oncefs_node_t) :
    _filter_children k o = 0 ↔ o.parent = k.node := by
  unfold _filter_children
  constructor
  · intro h; split_ifs at h <;> omega
  · intro h; rw [if_neg (by omega), if_neg (by omega)]

theorem filter_node_eq_zero (k o : oncefs_node_t) :
    _filter_node k o = 0 ↔ o.node = k.node := by
  unfold _filter_node
  constructor
  · intro h; split_ifs at h <;> omega
  · intro h; rw [if_neg (by omega), if_neg (by omega)]

theorem live_nodes_eq (ofs : oncefs_t) :
    live_nodes ofs = index_rows ofs.nodes.rows (table_index ofs.nodes 1) := rfl

theorem primary_nodes_eq (ofs : oncefs_t) :
    primary_nodes ofs = index_rows ofs.nodes.rows (table_index ofs.nodes 0) := rfl

/-- The live nodes of a well-formed nodes table are in the order of
`_oncefs_node_cmp_lookup`. -/
theorem live_nodes_sorted (ofs : oncefs_t) (h : nodes_wf ofs) :
    (live_nodes ofs).Pairwise (fun a b => _oncefs_node_cmp_lookup a b ≤ 0) := by
  obtain ⟨hl, -, hc, -⟩ := nodes_wf_indexes ofs h
  have := (h.2.1 _ (table_index_mem ofs.nodes 1 (by omega))).2.2
  rw [hc] at this
  exact this

/-- The rows of the primary index of a well-formed nodes table are in the
order of `_oncefs_node_cmp_primary`. -/
theorem primary_nodes_sorted (ofs : oncefs_t) (h : nodes_wf ofs) :
    (primary_nodes ofs).Pairwise (fun a b => _oncefs_node_cmp_primary a b ≤ 0) := by
  obtain ⟨hl, hc, -, -⟩ := nodes_wf_indexes ofs h
  have := (h.2.1 _ (table_index_mem ofs.nodes 0 (by omega))).2.2
  rw [hc] at this
  exact this

/-- No two live nodes of a well-formed nodes table have the same
`(node, type)`; in particular no row is listed twice. -/
theorem live_nodes_nodup (ofs : oncefs_t) (h : nodes_wf ofs) : (live_nodes ofs).Nodup := by
  obtain ⟨hl, hc, -, -⟩ := nodes_wf_indexes ofs h
  have hp := h.2.2.2
  rw [hc] at hp
  have hnd : (primary_nodes ofs).Nodup := by
    rw [primary_nodes_eq]
    refine hp.imp ?_
    intro a b hab e
    subst e
    exact hab (node_cmp_primary_order.refl a)
  exact (index_rows_perm ofs.nodes h.2 1 (by omega)).nodup_iff.mpr hnd

theorem live_nodes_perm (ofs : oncefs_t) (h : nodes_wf ofs) :
    (live_nodes ofs).Perm (primary_nodes ofs) := by
  obtain ⟨hl, -, -, -⟩ := nodes_wf_indexes ofs h
  exact index_rows_perm ofs.nodes h.2 1 (by omega)

/-- The lookup of a segment on a well-formed nodes table: OK exactly when a
live node has the parent and the name, and then the node returned is such a
live node. -/
theorem lookup_segment_spec (ofs : oncefs_t) (h : nodes_wf ofs) (parent : Nat)
    (name : List Char) :
    ((lookup_segment ofs parent name).1 = 0 ↔
      ∃ n ∈ live_nodes ofs, n.parent = parent ∧ n.name = name) ∧
    ((lookup_segment ofs parent name).1 = 0 →
      (lookup_segment ofs parent name).2 ∈ live_nodes ofs ∧
      (lookup_segment ofs parent name).2.parent = parent ∧
      (lookup_segment ofs parent name).2.name = name) := by
  obtain ⟨hl, -, hc, -⟩ := nodes_wf_indexes ofs h
  unfold lookup_segment
  rw [table_query_first_none, hc]
  constructor
  · rw [table_query_first_iff ofs.nodes _ 1 _oncefs_node_cmp_lookup _oncefs_node_cmp_lookup
      (live_nodes_sorted ofs h) (filter_mono_self _ node_cmp_lookup_order _)]
    constructor
    · rintro ⟨b, hb, hz⟩
      exact ⟨b, hb, (node_lookup_eq_zero _ _).mp hz⟩
    · rintro ⟨b, hb, hz⟩
      exact ⟨b, hb, (node_lookup_eq_zero _ _).mpr hz⟩
  · intro h0
    obtain ⟨hm, hz⟩ := (table_query_first_sound ofs.nodes _ 1 _oncefs_node_cmp_lookup).2 h0
    exact ⟨hm, (node_lookup_eq_zero _ _).mp hz⟩

/-- The loop of `_oncefs_del_node` over the operations `ops` (none of them
FREE): the lookup index afterwards refers to the records it referred to, with
those of the node whose operation is among `ops` FREE. -/
theorem free_blocks_loop_spec (node : Nat) : ∀ (ops : List Int) (B : table_t oncefs_block_t),
    B.indexes.map (fun ix => ix.comparator)
      = [_oncefs_block_cmp_primary, _oncefs_block_cmp_lookup] →
    table_wf B → (0 : Int) ∉ ops →
    (free_blocks_loop node ops B).2.indexes.map (fun ix => ix.comparator)
      = [_oncefs_block_cmp_primary, _oncefs_block_cmp_lookup] ∧
    table_wf (free_blocks_loop node ops B).2 ∧
    (index_rows (free_blocks_loop node ops B).2.rows
        (table_index (free_blocks_loop node ops B).2 1)).Perm
      ((index_rows B.rows (table_index B 1)).map
        (fun b => if b.data.node = node ∧ b.tag.operation ∈ ops then _mutator_free b else b)) := by
  intro ops
  induction ops with
  | nil =>
    intro B hc hwf _
    refine ⟨hc, hwf, ?_⟩
    unfold free_blocks_loop
    apply List.Perm.of_eq
    symm
    conv_rhs => rw [← List.map_id (index_rows B.rows (table_index B 1))]
    apply List.map_congr_left
    intro b _
    simp
  | cons i rest ih =>
    intro B hc hwf h0
    obtain ⟨hl, hc0, hc1, hall⟩ := table_two_indexes B _ _ hc
    have hcmp : ∀ ix ∈ B.indexes, cmp_order ix.comparator := by
      intro ix hix
      rcases hall ix hix with e | e
      · rw [e]; exact block_cmp_primary_order
      · rw [e]; exact block_cmp_lookup_order
    have hsorted : (index_rows B.rows (table_index B 1)).Pairwise
        (fun a b => _oncefs_block_cmp_lookup a b ≤ 0) := by
      have := (hwf.1 _ (table_index_mem B 1 (by omega))).2.2
      rw [hc1] at this
      exact this
    have hi : i ≠ 0 := fun e => h0 (by simp [e])
    have hr0 : (0 : Int) ∉ rest := fun e => h0 (List.mem_cons_of_mem _ e)
    unfold free_blocks_loop
    dsimp only
    have hrc := table_query_update_rc B
      { block := 0, tag := { seq := 0, operation := i },
        data := { node := node, fill := 0, offset := 0 } } 1
      _oncefs_block_cmp_lookup_fuzzy _mutator_free (by omega)
    rw [if_neg (by
      show ¬ ((table_query_update B _ 1 _ _).1 ≠ 0 ∧ _)
      rw [hrc]; simp)]
    have hwf1 := table_query_update_wf B
      { block := 0, tag := { seq := 0, operation := i },
        data := { node := node, fill := 0, offset := 0 } } 1
      (some _oncefs_block_cmp_lookup_fuzzy) _mutator_free hwf hcmp (by omega)
      (by rw [hc0]; exact mutator_free_primary)
    have hcmp1 := (table_query_update_comparators B
      { block := 0, tag := { seq := 0, operation := i },
        data := { node := node, fill := 0, offset := 0 } } 1
      (some _oncefs_block_cmp_lookup_fuzzy) _mutator_free).trans hc
    have hspec := table_query_update_spec B
      { block := 0, tag := { seq := 0, operation := i },
        data := { node := node, fill := 0, offset := 0 } } 1 _oncefs_block_cmp_lookup
      _oncefs_block_cmp_lookup_fuzzy _mutator_free hwf (by omega) hsorted
      (filter_mono_fuzzy _) 1 (by omega)
    obtain ⟨h1, h2, h3⟩ := ih _ hcmp1 hwf1 hr0
    refine ⟨h1, h2, h3.trans ?_⟩
    refine (hspec.map _).trans ?_
    rw [List.map_map]
    apply List.Perm.of_eq
    apply List.map_congr_left
    intro b _
    dsimp only [Function.comp]
    have hz := fuzzy_eq_zero
      { block := 0, tag := { seq := 0, operation := i },
        data := { node := node, fill := 0, offset := 0 } } b
    dsimp only at hz
    by_cases hb : _oncefs_block_cmp_lookup_fuzzy
      { block := 0, tag := { seq := 0, operation := i },
        data := { node := node, fill := 0, offset := 0 } } b = 0
    · have hb1 := hz.mp hb
      have hn : ¬ ((_mutator_free b).data.node = node ∧
          (_mutator_free b).tag.operation ∈ rest) := by
        rintro ⟨-, hm⟩
        exact hr0 hm
      have hmem : b.tag.operation ∈ i :: rest := by
        rw [hb1.1]; exact List.mem_cons_self _ _
      have e1 : (if _oncefs_block_cmp_lookup_fuzzy
          { block := 0, tag := { seq := 0, operation := i },
            data := { node := node, fill := 0, offset := 0 } } b = 0
          then _mutator_free b else b) = _mutator_free b := if_pos hb
      have e2 : (if b.data.node = node ∧ b.tag.operation ∈ i :: rest
          then _mutator_free b else b) = _mutator_free b := if_pos ⟨hb1.2, hmem⟩
      rw [e1, e2]
      exact if_neg hn
    · have e1 : (if _oncefs_block_cmp_lookup_fuzzy
          { block := 0, tag := { seq := 0, operation := i },
            data := { node := node, fill := 0, offset := 0 } } b = 0
          then _mutator_free b else b) = b := if_neg hb
      rw [e1]
      have hb := fun e => hb (hz.mpr e)
      by_cases hb2 : b.data.node = node ∧ b.tag.operation ∈ rest
      · rw [if_pos hb2, if_pos ⟨hb2.1, List.mem_cons_of_mem _ hb2.2⟩]
      · rw [if_neg hb2, if_neg]
        rintro ⟨hn, hm⟩
        rcases List.mem_cons.mp hm with e | e
        · exact hb ⟨e, hn⟩
        · exact hb2 ⟨hn, e⟩

/-- C16 (directory listing).  On a well-formed nodes table, for a path that
resolves to a node `dir`, `get_dir` returns OK (also when nothing is found)
and invokes the callback on the live nodes whose `parent` is the node id of
`dir`, in the order of the lookup index: on each of them once, on no node
with another parent (a grandchild, the LINK_PAYLOAD row of a link), and in
ascending order of the names under `strcmp`. -/
theorem c16_directory_listing (ofs : oncefs_t) (path : List Char) (dir : oncefs_node_t)
    (hwf : nodes_wf ofs) (h : _oncefs_resolve_node ofs path = some (0, dir)) :
    ∃ visited, oncefs_get_dir ofs path = some (0, visited) ∧
      visited = (live_nodes ofs).filter (fun n => decide (n.parent = dir.node)) ∧
      visited.Nodup ∧
      (∀ n, n ∈ visited ↔ (n ∈ live_nodes ofs ∧ n.parent = dir.node)) ∧
      visited.Pairwise (fun a b => strcmp a.name b.name ≤ 0) := by
  obtain ⟨hl, -, hc, -⟩ := nodes_wf_indexes ofs hwf
  obtain ⟨hrc, hrows⟩ := table_query_all_spec ofs.nodes dir 1 _oncefs_node_cmp_lookup
    _filter_children (by omega) (live_nodes_sorted ofs hwf) (filter_mono_children dir)
  have hfilter : (index_rows ofs.nodes.rows (table_index ofs.nodes 1)).filter
      (fun b => decide (_filter_children dir b = 0))
      = (live_nodes ofs).filter (fun n => decide (n.parent = dir.node)) := by
    rw [live_nodes_eq]
    apply List.filter_congr
    intro x _
    rw [decide_eq_decide]
    exact filter_children_eq_zero dir x
  rw [hfilter] at hrows
  refine ⟨(live_nodes ofs).filter (fun n => decide (n.parent = dir.node)), ?_, rfl,
    (live_nodes_nodup ofs hwf).filter _, ?_, ?_⟩
  · unfold oncefs_get_dir
    rw [h]
    dsimp only
    rw [if_neg (by simp)]
    show (if (table_query_all ofs.nodes dir 1 (some _filter_children)).1 ≠ 0 ∧
        (table_query_all ofs.nodes dir 1 (some _filter_children)).1 ≠ -ENOENT
      then some ((table_query_all ofs.nodes dir 1 (some _filter_children)).1,
        (table_query_all ofs.nodes dir 1 (some _filter_children)).2)
      else some (0, (table_query_all ofs.nodes dir 1 (some _filter_children)).2)) = _
    rw [if_neg (by rcases hrc with e | e <;> simp [e]), hrows]
  · intro n
    rw [List.mem_filter]
    simp
  · have hs := (live_nodes_sorted ofs hwf).sublist
      (List.filter_sublist (live_nodes ofs) (p := fun n => decide (n.parent = dir.node)))
    refine List.Pairwise.imp_of_mem ?_ hs
    intro a b ha hb hab
    have ha1 : a.parent = dir.node := by simpa using (List.mem_filter.mp ha).2
    have hb1 : b.parent = dir.node := by simpa using (List.mem_filter.mp hb).2
    unfold _oncefs_node_cmp_lookup at hab
    rw [if_neg (by omega), if_neg (by omega)] at hab
    exact hab

/-- Witness for C16: with `/foo`, `/bar`, `/bar/bork` and the link `/baz`,
listing `/` visits `bar`, `baz`, `foo`. -/
theorem c16_directory_listing_witness :
    (oncefs_get_dir (engine_after 512 16 c16_setup) "/".toList).map
        (fun r => (r.1, r.2.map (fun n => n.name)))
      = some (0, ["bar".toList, "baz".toList, "foo".toList]) ∧
    ∃ visited, oncefs_get_dir (engine_after 512 16 c16_setup) "/".toList = some (0, visited) ∧
      visited = (live_nodes (engine_after 512 16 c16_setup)).filter
        (fun n => decide (n.parent = (root_node (engine_after 512 16 c16_setup)).node)) ∧
      visited.Nodup ∧
      (∀ n, n ∈ visited ↔ (n ∈ live_nodes (engine_after 512 16 c16_setup) ∧
        n.parent = (root_node (engine_after 512 16 c16_setup)).node)) ∧
      visited.Pairwise (fun a b => strcmp a.name b.name ≤ 0) :=
  ⟨by decide,
    c16_directory_listing (engine_after 512 16 c16_setup) "/".toList
      (root_node (engine_after 512 16 c16_setup))
      (reachable_engine_wf _ (engine_after_reachable 512 16 _ (by decide) (by decide))).2.1
      (by rfl)⟩

/-- After a successful `del_node` a DELETE block is live, and a container
holds a tag with a node record in one block. -/
theorem del_node_ok_facts (ofs : oncefs_t) (hwf : engine_wf ofs) (victim : List Char)
    (ofs1 : oncefs_t) (hdel : oncefs_del_node ofs victim = some (0, ofs1)) :
    (∃ b ∈ live_blocks ofs1, b.tag.operation = BLOCK_OPERATION_DELETE) ∧
    (∀ dev, ofs1.io = some dev → SIZEOF_TAG + SIZEOF_NODE ≤ dev.block_size) := by
  unfold oncefs_del_node at hdel
  cases hr : _oncefs_resolve_node ofs victim with
  | none => rw [hr] at hdel; cases hdel
  | some r =>
    rw [hr] at hdel
    dsimp only at hdel
    split at hdel
    · rename_i h1
      obtain ⟨h2, -⟩ := Prod.mk.inj (Option.some.inj hdel)
      exact absurd h2 h1
    · split at hdel
      · rename_i h1
        have h2 := congrArg Prod.fst (Option.some.inj hdel)
        exact absurd h2 h1
      · have hwfd : engine_wf (_oncefs_del_node ofs r.2 1).2 :=
          del_node_helper_closed _ engine_wf_step_closed.totable_step_closed ofs r.2 1 hwf
        have h2 := Option.some.inj hdel
        have h3 := write_node_block_ok_facts (_oncefs_del_node ofs r.2 1).2
          BLOCK_OPERATION_DELETE r.2 hwfd.1 (by rw [h2])
        rw [h2] at h3
        exact h3

/-- `_oncefs_del_node` on a node that is not a DIR with a live child: OK;
the rows of the node id are gone from both indexes of the nodes table, the
other rows stay in their order; the block records of the node are FREE. -/
theorem del_node_helper_spec (ofs : oncefs_t) (node : oncefs_node_t) (hwf : engine_wf ofs)
    (hcheck : node.type = NODE_TYPE_DIR → ∀ n ∈ live_nodes ofs, n.parent ≠ node.node) :
    (_oncefs_del_node ofs node 1).1 = 0 ∧
    live_nodes (_oncefs_del_node ofs node 1).2
      = (live_nodes ofs).filter (fun n => decide (n.node ≠ node.node)) ∧
    primary_nodes (_oncefs_del_node ofs node 1).2
      = (primary_nodes ofs).filter (fun n => decide (n.node ≠ node.node)) ∧
    (live_blocks (_oncefs_del_node ofs node 1).2).Perm
      ((live_blocks ofs).map (free_node node.node)) := by
  obtain ⟨hl, -, hc, -⟩ := nodes_wf_indexes ofs hwf.2.1
  obtain ⟨hbl, -, -, -⟩ := blocks_wf_indexes ofs hwf.1
  have hq : ¬ ((1 : Int) = 1 ∧ node.type = NODE_TYPE_DIR ∧
      (table_query_first ofs.nodes node TABLE_INDEX_LOOKUP (some _filter_children)).1 = 0) := by
    rintro ⟨-, hdir, h0⟩
    rw [table_query_first_iff ofs.nodes node 1 _oncefs_node_cmp_lookup _filter_children
      (live_nodes_sorted ofs hwf.2.1) (filter_mono_children node)] at h0
    obtain ⟨n, hn, hz⟩ := h0
    exact hcheck hdir n hn ((filter_children_eq_zero node n).mp hz)
  have hd1 := table_query_delete_spec ofs.nodes node 0 _oncefs_node_cmp_primary _filter_node
    hwf.2.1.2 (by omega) (primary_nodes_sorted ofs hwf.2.1) (filter_mono_node node) 1 (by omega)
  have hd0 := table_query_delete_spec ofs.nodes node 0 _oncefs_node_cmp_primary _filter_node
    hwf.2.1.2 (by omega) (primary_nodes_sorted ofs hwf.2.1) (filter_mono_node node) 0 (by omega)
  have hfl := free_blocks_loop_spec node.node [1, 2, 3, 4, 5, 6, 7] ofs.blocks hwf.1.1 hwf.1.2
    (by decide)
  have hflrc := free_blocks_loop_rc node.node [1, 2, 3, 4, 5, 6, 7] ofs.blocks (by omega)
  have hfn : ∀ (l : List oncefs_node_t),
      l.filter (fun r => decide (_filter_node node r ≠ 0))
        = l.filter (fun n => decide (n.node ≠ node.node)) := by
    intro l
    apply List.filter_congr
    intro x _
    rw [decide_eq_decide]
    exact not_congr (filter_node_eq_zero node x)
  unfold _oncefs_del_node
  rw [if_neg hq]
  dsimp only
  rw [if_neg (by rcases hd1.1 with e | e <;> simp [TABLE_INDEX_PRIMARY, e])]
  refine ⟨hflrc, ?_, ?_, ?_⟩
  · have := hd1.2.2
    rw [hfn] at this
    exact this
  · have := hd0.2.2
    rw [hfn] at this
    exact this
  · refine hfl.2.2.trans ?_
    apply List.Perm.of_eq
    apply List.map_congr_left
    intro b _
    unfold free_node
    have hiff : b.tag.operation ∈ ([1, 2, 3, 4, 5, 6, 7] : List Int) ↔
        (1 ≤ b.tag.operation ∧ b.tag.operation < BLOCK_OPERATION_LAST) := by
      simp only [List.mem_cons, List.mem_singleton, List.not_mem_nil, or_false,
        BLOCK_OPERATION_LAST]
      constructor <;> intro h <;> omega
    by_cases hb : b.data.node = node.node ∧ b.tag.operation ∈ ([1, 2, 3, 4, 5, 6, 7] : List Int)
    · rw [if_pos hb, if_pos ⟨hb.1, hiff.mp hb.2⟩]
    · rw [if_neg hb, if_neg (fun e => hb ⟨e.1, hiff.mpr e.2⟩)]

/-- `_oncefs_del_node` leaves the container handle as it is. -/
theorem del_node_helper_io (s : oncefs_t) (node : oncefs_node_t) (check : Int)
    (h : 1 < s.blocks.indexes.length) : (_oncefs_del_node s node check).2.io = s.io := by
  have := (del_node_frame s node check h).2
  rw [this]

/-- `oncefs_del_node` on a node without live child, in an engine that holds
a FREE or DELETE block and whose container, if it has one, holds a node
record in a block: OK. -/
theorem del_node_ok_of_reusable (ofs : oncefs_t) (path : List Char) (node : oncefs_node_t)
    (hwf : engine_wf ofs) (hres : _oncefs_resolve_node ofs path = some (0, node))
    (hcheck : node.type = NODE_TYPE_DIR → ∀ n ∈ live_nodes ofs, n.parent ≠ node.node)
    (hroom : ofs.next_block_id ≤ ofs.last_block_id ∨
      ∃ b ∈ live_blocks ofs, b.tag.operation = BLOCK_OPERATION_FREE ∨
        b.tag.operation = BLOCK_OPERATION_DELETE)
    (hsz : ∀ dev, ofs.io = some dev → SIZEOF_TAG + SIZEOF_NODE ≤ dev.block_size) :
    oncefs_del_node ofs path
      = some (0, (write_node_block (_oncefs_del_node ofs node 1).2 BLOCK_OPERATION_DELETE
          node).2) := by
  obtain ⟨hbl, -, -, -⟩ := blocks_wf_indexes ofs hwf.1
  obtain ⟨hrc, -, -, hperm⟩ := del_node_helper_spec ofs node hwf hcheck
  have hwfx : engine_wf (_oncefs_del_node ofs node 1).2 :=
    del_node_helper_closed _ engine_wf_step_closed.totable_step_closed ofs node 1 hwf
  have hframe := (del_node_frame ofs node 1 (by omega)).2
  have hcb : (_oncefs_create_block (_oncefs_del_node ofs node 1).2 BLOCK_OPERATION_DELETE
      node.node 0 0).1 = 0 := by
    apply create_block_ok _ _ _ _ _ hwfx.1
    rcases hroom with h | ⟨b, hb, hop⟩
    · left
      rw [hframe]
      exact h
    · right
      refine ⟨free_node node.node b, hperm.mem_iff.mpr (List.mem_map_of_mem _ hb), ?_⟩
      unfold free_node
      split
      · left; rfl
      · exact hop
  have hw := write_node_block_ok (_oncefs_del_node ofs node 1).2 BLOCK_OPERATION_DELETE node
    hwfx hcb (by rw [del_node_helper_io ofs node 1 (by omega)]; exact hsz)
  unfold oncefs_del_node
  rw [hres]
  dsimp only
  rw [if_neg (by simp), if_neg (by simpa using hrc)]
  exact congrArg some (Prod.ext hw rfl)

/-- With unique names, two live nodes of the same parent and name are the
same row. -/
theorem unique_names_eq (ofs : oncefs_t) (hu : unique_names ofs) (a b : oncefs_node_t)
    (ha : a ∈ live_nodes ofs) (hb : b ∈ live_nodes ofs) (hp : a.parent = b.parent)
    (hn : a.name = b.name) : a = b := by
  by_contra hne
  have hsym : Symmetric (fun a b : oncefs_node_t => ¬ (a.parent = b.parent ∧ a.name = b.name)) := by
    intro x y hxy h
    exact hxy ⟨h.1.symm, h.2.symm⟩
  exact (List.Pairwise.forall hsym hu ha hb hne) ⟨hp, hn⟩

/-- The lookup of a segment after the rows of a node id have been deleted,
with unique names: a row of another node id is found as before, a row of
the node id is not found any more. -/
theorem lookup_after_delete (ofs ofs1 : oncefs_t) (n : Nat) (hwf : nodes_wf ofs)
    (hwf1 : nodes_wf ofs1) (hu : unique_names ofs)
    (hlive : live_nodes ofs1 = (live_nodes ofs).filter (fun m => decide (m.node ≠ n)))
    (parent : Nat) (name : List Char) (h0 : (lookup_segment ofs parent name).1 = 0) :
    ((lookup_segment ofs parent name).2.node ≠ n →
      lookup_segment ofs1 parent name = lookup_segment ofs parent name) ∧
    ((lookup_segment ofs parent name).2.node = n →
      (lookup_segment ofs1 parent name).1 ≠ 0) := by
  obtain ⟨hx, hxp, hxn⟩ := (lookup_segment_spec ofs hwf parent name).2 h0
  obtain ⟨h1, h2⟩ := lookup_segment_spec ofs1 hwf1 parent name
  constructor
  · intro hne
    have hx1 : (lookup_segment ofs parent name).2 ∈ live_nodes ofs1 := by
      rw [hlive, List.mem_filter]
      exact ⟨hx, by simpa using hne⟩
    have h10 : (lookup_segment ofs1 parent name).1 = 0 := h1.mpr ⟨_, hx1, hxp, hxn⟩
    obtain ⟨hy, hyp, hyn⟩ := h2 h10
    rw [hlive, List.mem_filter] at hy
    apply Prod.ext
    · rw [h10, h0]
    · exact unique_names_eq ofs hu _ _ hy.1 hx (by rw [hyp, hxp]) (by rw [hyn, hxn])
  · intro he h10
    obtain ⟨hy, hyp, hyn⟩ := h2 h10
    rw [hlive, List.mem_filter] at hy
    have := unique_names_eq ofs hu _ _ hy.1 hx (by rw [hyp, hxp]) (by rw [hyn, hxn])
    have hy2 : (lookup_segment ofs1 parent name).2.node ≠ n := by simpa using hy.2
    rw [this] at hy2
    exact hy2 he

/-- A successful run of the loop of `_oncefs_resolve_node` is a walk along
the segments. -/
theorem resolve_loop_ok (ofs : oncefs_t) : ∀ (tokens : List (List Char))
    (prev tmp r : oncefs_node_t), tokens ≠ [] →
    resolve_loop ofs tokens prev.node prev.type tmp = (0, r) →
    walk_segments ofs tokens prev = some r := by
  intro tokens
  induction tokens with
  | nil => intro prev tmp r h; exact absurd rfl h
  | cons seg rest ih =>
    intro prev tmp r _ h
    by_cases hdir : prev.type = NODE_TYPE_DIR
    · by_cases hlen : seg.length ≤ ONCEFS_NAME_MAX_SIZE
      · by_cases hrc : (lookup_segment ofs prev.node seg).1 = 0
        · rw [resolve_loop_found ofs seg rest prev tmp hdir hlen hrc] at h
          unfold walk_segments
          rw [if_pos ⟨hdir, hlen, hrc⟩]
          cases rest with
          | nil =>
            unfold resolve_loop at h
            unfold walk_segments
            exact congrArg some (Prod.mk.inj h).2
          | cons s2 rest2 => exact ih _ _ r (by simp) h
        · rw [resolve_loop_missing ofs seg rest prev tmp hdir hlen hrc] at h
          have := (Prod.mk.inj h).1
          exact absurd this (by decide)
      · unfold resolve_loop at h
        rw [if_neg (by simpa using hdir), if_pos (by omega)] at h
        have := (Prod.mk.inj h).1
        exact absurd this (by decide)
    · rw [resolve_loop_not_dir ofs seg rest _ _ tmp hdir] at h
      have := (Prod.mk.inj h).1
      exact absurd this (by decide)

/-- A walk along segments, as a run of the loop of `_oncefs_resolve_node`. -/
theorem resolve_loop_of_walk (ofs : oncefs_t) (tokens : List (List Char))
    (prev tmp r : oncefs_node_t) (hne : tokens ≠ [])
    (h : walk_segments ofs tokens prev = some r) :
    resolve_loop ofs tokens prev.node prev.type tmp = (0, r) := by
  have := resolve_loop_walk ofs [] tokens prev r tmp h
  rw [List.append_nil, if_neg hne] at this
  rw [this]
  rfl

/-- A walk that ends with one more segment. -/
theorem walk_segments_snoc (ofs : oncefs_t) (seg : List Char) :
    ∀ (pre : List (List Char)) (prev r : oncefs_node_t),
    walk_segments ofs (pre ++ [seg]) prev = some r →
    ∃ pd, walk_segments ofs pre prev = some pd ∧ pd.type = NODE_TYPE_DIR ∧
      seg.length ≤ ONCEFS_NAME_MAX_SIZE ∧ (lookup_segment ofs pd.node seg).1 = 0 ∧
      (lookup_segment ofs pd.node seg).2 = r := by
  intro pre
  induction pre with
  | nil =>
    intro prev r h
    simp only [List.nil_append, walk_segments] at h
    split at h
    · rename_i hc
      exact ⟨prev, rfl, hc.1, hc.2.1, hc.2.2, Option.some.inj h⟩
    · cases h
  | cons s pre ih =>
    intro prev r h
    simp only [List.cons_append, walk_segments] at h
    split at h
    · rename_i hc
      obtain ⟨pd, h1, h2⟩ := ih _ r h
      refine ⟨pd, ?_, h2⟩
      unfold walk_segments
      rw [if_pos hc]
      exact h1
    · cases h

/-- `write_node_block` changes the engine as `_oncefs_create_block` does,
the container handle apart. -/
theorem write_node_block_tables (s : oncefs_t) (operation : Int) (entry : oncefs_node_t) :
    (write_node_block s operation entry).2.nodes = s.nodes ∧
    (write_node_block s operation entry).2.blocks
      = (_oncefs_create_block s operation entry.node 0 0).2.1.blocks ∧
    (write_node_block s operation entry).2.time = s.time := by
  have hf := create_block_frame s operation entry.node 0 0
  have ht : (_oncefs_create_block s operation entry.node 0 0).2.1.time = s.time := by
    unfold _oncefs_create_block
    split
    · rw [create_block_tail_state]
    · split
      · rfl
      · rw [create_block_tail_state]
  unfold write_node_block
  dsimp only
  split
  · exact ⟨hf.2.2, rfl, ht⟩
  · split
    · exact ⟨hf.2.2, rfl, ht⟩
    · split <;> exact ⟨hf.2.2, rfl, ht⟩

/-- The walk along the directory part of a path that resolves to `node`
stays as it is when the rows of `node` are deleted, provided no live row
other than the LINK_PAYLOAD row of a LINK has `node` as parent. -/
theorem walk_after_delete (ofs ofs1 : oncefs_t) (node : oncefs_node_t) (hwf : nodes_wf ofs)
    (hwf1 : nodes_wf ofs1) (hu : unique_names ofs)
    (hlive : live_nodes ofs1 = (live_nodes ofs).filter (fun m => decide (m.node ≠ node.node)))
    (hchild : ∀ m ∈ live_nodes ofs, m.parent = node.node →
      node.type = NODE_TYPE_LINK ∧ m.type = NODE_TYPE_LINK_PAYLOAD)
    (base : List Char) : ∀ (D : List (List Char)) (prev : oncefs_node_t),
      walk_segments ofs (D ++ [base]) prev = some node →
      walk_segments ofs1 D prev = walk_segments ofs D prev := by
  intro D
  induction D with
  | nil => intro prev _; rfl
  | cons seg D ih =>
    intro prev h
    simp only [List.cons_append, walk_segments] at h
    split at h
    · rename_i hc
      change walk_segments ofs (D ++ [base]) _ = some node at h
      have hx : (lookup_segment ofs prev.node seg).2.node ≠ node.node := by
        intro he
        cases hD : D ++ [base] with
        | nil => simp at hD
        | cons s2 rest2 =>
          rw [hD] at h
          simp only [walk_segments] at h
          split at h
          · rename_i hc2
            obtain ⟨hy, hyp, -⟩ := (lookup_segment_spec ofs hwf _ s2).2 hc2.2.2
            obtain ⟨ht1, ht2⟩ := hchild _ hy (by rw [hyp, he])
            cases rest2 with
            | nil =>
              simp only [walk_segments] at h
              have := Option.some.inj h
              rw [this] at ht2
              rw [ht1] at ht2
              exact absurd ht2 (by decide)
            | cons s3 rest3 =>
              simp only [walk_segments] at h
              split at h
              · rename_i hc3
                rw [ht2] at hc3
                exact absurd hc3.1 (by decide)
              · cases h
          · cases h
      have hl := (lookup_after_delete ofs ofs1 node.node hwf hwf1 hu hlive prev.node seg
        hc.2.2).1 hx
      unfold walk_segments
      rw [hl, if_pos hc, if_pos hc]
      exact ih _ h
    · cases h

/-- The engine after `del_node` on a node without children, on a container
with an unused block at its tail. -/
theorem del_node_spec (ofs : oncefs_t) (path : List Char) (node : oncefs_node_t)
    (hwf : engine_wf ofs) (hres : _oncefs_resolve_node ofs path = some (0, node))
    (hcheck : node.type = NODE_TYPE_DIR → ∀ n ∈ live_nodes ofs, n.parent ≠ node.node)
    (hroom : ofs.next_block_id ≤ ofs.last_block_id) (hL : ofs.last_block_id < 2 ^ 32)
    (hsz : ∀ dev, ofs.io = some dev → SIZEOF_TAG + SIZEOF_NODE ≤ dev.block_size) :
    ∃ ofs1, oncefs_del_node ofs path = some (0, ofs1) ∧ engine_wf ofs1 ∧
      ofs1.time = ofs.time ∧
      live_nodes ofs1 = (live_nodes ofs).filter (fun m => decide (m.node ≠ node.node)) ∧
      primary_nodes ofs1 = (primary_nodes ofs).filter (fun m => decide (m.node ≠ node.node)) ∧
      (∀ b, b ∈ live_blocks ofs1 ↔
        (b = { block := ofs.next_block_id,
               tag := { seq := ofs.next_seq_id, operation := BLOCK_OPERATION_DELETE },
               data := { node := node.node, fill := 0, offset := 0 } } ∨
         ∃ b0 ∈ live_blocks ofs, b = free_node node.node b0)) ∧
      (∀ b0 ∈ live_blocks ofs, b0.block < ofs.next_block_id) := by
  obtain ⟨hbl, -, -, -⟩ := blocks_wf_indexes ofs hwf.1
  have hdel := del_node_ok_of_reusable ofs path node hwf hres hcheck (Or.inl hroom) hsz
  obtain ⟨hrc, hln, hpn, hperm⟩ := del_node_helper_spec ofs node hwf hcheck
  have hwfx : engine_wf (_oncefs_del_node ofs node 1).2 :=
    del_node_helper_closed _ engine_wf_step_closed.totable_step_closed ofs node 1 hwf
  have hframe := (del_node_frame ofs node 1 (by omega)).2
  obtain ⟨hwn, hwb, hwt⟩ := write_node_block_tables (_oncefs_del_node ofs node 1).2
    BLOCK_OPERATION_DELETE node
  have hnb : (_oncefs_del_node ofs node 1).2.next_block_id = ofs.next_block_id := by
    rw [hframe]
  have hns : (_oncefs_del_node ofs node 1).2.next_seq_id = ofs.next_seq_id := by
    rw [hframe]
  have hlb : (_oncefs_del_node ofs node 1).2.last_block_id = ofs.last_block_id := by
    rw [hframe]
  have htm : (_oncefs_del_node ofs node 1).2.time = ofs.time := by
    rw [hframe]
  have hfresh := create_block_fresh (_oncefs_del_node ofs node 1).2 BLOCK_OPERATION_DELETE
    node.node 0 0 (by rw [hnb, hlb]; exact hroom) (by rw [hnb]; omega)
  have hcb : (_oncefs_create_block (_oncefs_del_node ofs node 1).2 BLOCK_OPERATION_DELETE
      node.node 0 0).1 = 0 := by rw [hfresh]
  have hbound : ∀ b0 ∈ live_blocks ofs, b0.block < ofs.next_block_id :=
    fun b0 hb0 => hwf.2.2.1.2 b0 (live_blocks_subset ofs hwf.1 b0 hb0)
  have hblk : ∀ b0, (free_node node.node b0).block = b0.block := by
    intro b0
    unfold free_node
    split <;> rfl
  refine ⟨_, hdel, write_node_block_closed _ engine_wf_step_closed _ _ _ hwfx, ?_, ?_, ?_, ?_,
    hbound⟩
  · rw [hwt, htm]
  · show index_rows (write_node_block _ _ _).2.nodes.rows
      (table_index (write_node_block _ _ _).2.nodes 1) = _
    rw [hwn]
    exact hln
  · show index_rows (write_node_block _ _ _).2.nodes.rows
      (table_index (write_node_block _ _ _).2.nodes 0) = _
    rw [hwn]
    exact hpn
  · intro b
    have hlive := create_block_live (_oncefs_del_node ofs node 1).2 BLOCK_OPERATION_DELETE
      node.node 0 0 hwfx.1 hcb b
    have e : b ∈ live_blocks (write_node_block (_oncefs_del_node ofs node 1).2
        BLOCK_OPERATION_DELETE node).2 ↔
        b ∈ live_blocks (_oncefs_create_block (_oncefs_del_node ofs node 1).2
          BLOCK_OPERATION_DELETE node.node 0 0).2.1 := by
      show b ∈ index_rows (write_node_block _ _ _).2.blocks.rows
        (table_index (write_node_block _ _ _).2.blocks 1) ↔ _
      rw [hwb]
      rfl
    rw [e, hlive, hfresh]
    dsimp only
    rw [hnb, hns]
    constructor
    · rintro (h | ⟨h1, h2⟩)
      · left; exact h
      · right
        obtain ⟨b0, hb0, rfl⟩ := List.mem_map.mp (hperm.mem_iff.mp h1)
        exact ⟨b0, hb0, rfl⟩
    · rintro (h | ⟨b0, hb0, rfl⟩)
      · left; exact h
      · right
        refine ⟨hperm.mem_iff.mpr (List.mem_map_of_mem _ hb0), ?_⟩
        rw [hblk]
        have := hbound b0 hb0
        omega

/-- Counterexample to C11: on a freshly formatted container `"/"` resolves
to a DIR without children and `del_node("/")` returns OK, but afterwards
`"/"` still resolves; and with the file `/foo`, `del_node("foo")` returns OK
and `set_file("foo")` afterwards returns NOT_FOUND. -/
theorem c11_counterexample :
    (∃ ofs ofs1, state_after 512 8 [] = some ofs ∧ live_nodes ofs = [] ∧
      ofs.next_block_id ≤ ofs.last_block_id ∧
      (_oncefs_resolve_node ofs "/".toList).map (fun r => (r.1, r.2.type))
        = some (0, NODE_TYPE_DIR) ∧
      oncefs_del_node ofs "/".toList = some (0, ofs1) ∧
      (_oncefs_resolve_node ofs1 "/".toList).map (fun r => r.1) = some 0) ∧
    (∃ ofs ofs1, state_after 512 8 c18_setup = some ofs ∧
      ofs.next_block_id ≤ ofs.last_block_id ∧
      (_oncefs_resolve_node ofs "foo".toList).map (fun r => (r.1, r.2.type))
        = some (0, NODE_TYPE_FILE) ∧
      oncefs_del_node ofs "foo".toList = some (0, ofs1) ∧
      (oncefs_set_file ofs1 "foo".toList (12, 12)).map (fun r => r.1) = some (-ENOENT)) := by
  refine ⟨⟨(state_after 512 8 []).get (by decide),
    ((oncefs_del_node ((state_after 512 8 []).get (by decide)) "/".toList).get (by decide)).2,
    by simp, by decide, by decide, by decide,
    option_pair_eq_some _ (by decide) _ (by decide), by decide⟩,
    ⟨(state_after 512 8 c18_setup).get (by decide),
    ((oncefs_del_node ((state_after 512 8 c18_setup).get (by decide)) "foo".toList).get
      (by decide)).2,
    by simp, by decide, by decide,
    option_pair_eq_some _ (by decide) _ (by decide), by decide⟩⟩

/-- Right after a successful `del_node`, `set_file` on a path that does not
exist and lies directly under an existing directory returns OK. -/
theorem set_file_after_delete (ofs : oncefs_t) (hwf : engine_wf ofs) (victim : List Char)
    (ofs1 : oncefs_t) (hdel : oncefs_del_node ofs victim = some (0, ofs1)) (path : List Char)
    (now : Nat × Nat) (hfresh : fresh_path ofs1 path) :
    (oncefs_set_file ofs1 path now).map (fun r => r.1) = some 0 := by
  have hwf1 : engine_wf ofs1 :=
    del_node_closed _ engine_wf_step_closed ofs victim (0, ofs1) hdel hwf
  obtain ⟨⟨b, hb, hop⟩, hsz⟩ := del_node_ok_facts ofs hwf victim ofs1 hdel
  obtain ⟨entry, hen, hset⟩ := set_file_fresh ofs1 path now hfresh
  rw [hset, Option.map_some']
  dsimp only
  have hwf2 : engine_wf { (_oncefs_reserve_node_id ofs1).2 with
      nodes := (table_insert_or_replace (_oncefs_reserve_node_id ofs1).2.nodes entry).2 } :=
    engine_wf_step_closed.nodes_insert _ entry (engine_wf_step_closed.reserve ofs1 hwf1)
  have hcb := create_block_ok { (_oncefs_reserve_node_id ofs1).2 with
      nodes := (table_insert_or_replace (_oncefs_reserve_node_id ofs1).2.nodes entry).2 }
    BLOCK_OPERATION_NODE entry.node 0 0 hwf2.1 (Or.inr ⟨b, hb, Or.inr hop⟩)
  rw [write_node_block_ok _ _ _ hwf2 hcb hsz]

/-- C11 (amended).  On an engine state satisfying the invariant in which no
two live nodes share a parent and a name, on a container with fewer than
`2^32` blocks, an unused block at its tail, and blocks that hold a node
record: let `path` resolve to `node`, have a `/` before its last component,
a last component shorter than 256 bytes and a directory part that resolves,
and let no live row other than the LINK_PAYLOAD row of a LINK have `node`
as parent (a node without children).  Then `del_node(path)` returns OK;
afterwards both indexes of the nodes table hold the rows they held, those
with the node id of `node` removed; the block records are those there were,
those of the node with an operation from NODE to below
`BLOCK_OPERATION_LAST` now FREE (`free_node`), and one new DELETE record for
the node at `next_block_id` with the sequence number `next_seq_id`; the
path resolves to NOT_FOUND; and `set_file` on the path returns OK. -/
theorem c11_delete_postcondition (ofs : oncefs_t) (path : List Char)
    (node parent : oncefs_node_t) (now : Nat × Nat)
    (hwf : engine_wf ofs) (hu : unique_names ofs)
    (hres : _oncefs_resolve_node ofs path = some (0, node))
    (hpar : _oncefs_resolve_node ofs (dirname path) = some (0, parent))
    (hsplit : '/' ∈ strip_slashes path)
    (hbase : (basename path).length < ONCEFS_NAME_MAX_SIZE)
    (hchild : ∀ m ∈ live_nodes ofs, m.parent = node.node →
      node.type = NODE_TYPE_LINK ∧ m.type = NODE_TYPE_LINK_PAYLOAD)
    (hroom : ofs.next_block_id ≤ ofs.last_block_id) (hL : ofs.last_block_id < 2 ^ 32)
    (hsz : ∀ dev, ofs.io = some dev → SIZEOF_TAG + SIZEOF_NODE ≤ dev.block_size) :
    ∃ ofs1, oncefs_del_node ofs path = some (0, ofs1) ∧
      live_nodes ofs1 = (live_nodes ofs).filter (fun m => decide (m.node ≠ node.node)) ∧
      primary_nodes ofs1 = (primary_nodes ofs).filter (fun m => decide (m.node ≠ node.node)) ∧
      (∀ b, b ∈ live_blocks ofs1 ↔
        (b = { block := ofs.next_block_id,
               tag := { seq := ofs.next_seq_id, operation := BLOCK_OPERATION_DELETE },
               data := { node := node.node, fill := 0, offset := 0 } } ∨
         ∃ b0 ∈ live_blocks ofs, b = free_node node.node b0)) ∧
      (∀ b0 ∈ live_blocks ofs, b0.block < ofs.next_block_id) ∧
      (_oncefs_resolve_node ofs1 path).map (fun r => r.1) = some (-ENOENT) ∧
      (oncefs_set_file ofs1 path now).map (fun r => r.1) = some 0 := by
  have hcheck : node.type = NODE_TYPE_DIR → ∀ n ∈ live_nodes ofs, n.parent ≠ node.node := by
    intro hd n hn hp
    have := (hchild n hn hp).1
    rw [hd] at this
    exact absurd this (by decide)
  obtain ⟨ofs1, hdel, hwf1, htime, hln, hpn, hblocks, hbound⟩ :=
    del_node_spec ofs path node hwf hres hcheck hroom hL hsz
  obtain ⟨htok, hroot⟩ := path_tokens_dirname path hsplit
  have hroot1 : root_node ofs1 = root_node ofs := by
    unfold root_node; rw [htime]
  -- the walk of the path before the delete
  have hwalk : walk_segments ofs (path_tokens (dirname path) ++ [basename path])
      (root_node ofs) = some node := by
    unfold _oncefs_resolve_node at hres
    rw [if_neg hroot, htok, if_neg (by simp)] at hres
    exact resolve_loop_ok ofs _ (root_node ofs) default node (by simp)
      (Option.some.inj hres)
  obtain ⟨pd, hpd, hpdir, hlen, hrc, hnode⟩ :=
    walk_segments_snoc ofs (basename path) _ _ _ hwalk
  have hwalk1 : walk_segments ofs1 (path_tokens (dirname path)) (root_node ofs1)
      = some pd := by
    rw [hroot1, walk_after_delete ofs ofs1 node hwf.2.1 hwf1.2.1 hu hln hchild (basename path)
      _ _ hwalk]
    exact hpd
  have hrc1 : (lookup_segment ofs1 pd.node (basename path)).1 ≠ 0 :=
    (lookup_after_delete ofs ofs1 node.node hwf.2.1 hwf1.2.1 hu hln pd.node (basename path)
      hrc).2 (by rw [hnode])
  have hnf : (_oncefs_resolve_node ofs1 path).map (fun r => r.1) = some (-ENOENT) := by
    rw [resolve_at ofs1 path _ (basename path) [] pd hroot htok hwalk1,
      resolve_loop_missing ofs1 (basename path) [] pd _ hpdir hlen hrc1]
    rfl
  have hdirname : (_oncefs_resolve_node ofs1 (dirname path)).map (fun r => (r.1, r.2.type))
      = some (0, NODE_TYPE_DIR) := by
    by_cases hD : path_tokens (dirname path) = []
    · have hd : dirname path = ['/'] := by
        by_contra hne
        unfold _oncefs_resolve_node at hpar
        rw [if_neg hne, if_pos hD] at hpar
        cases hpar
      rw [hd]
      rfl
    · have hne : dirname path ≠ ['/'] := by
        intro e
        rw [e] at hD
        exact hD (by decide)
      unfold _oncefs_resolve_node
      rw [if_neg hne, if_neg hD]
      have hw := resolve_loop_of_walk ofs1 _ (root_node ofs1) default pd hD hwalk1
      have e0 : (root_node ofs1).node = 0 := rfl
      have e1 : (root_node ofs1).type = NODE_TYPE_DIR := rfl
      rw [e0, e1] at hw
      rw [hw, Option.map_some']
      dsimp only
      rw [hpdir]
  exact ⟨ofs1, hdel, hln, hpn, hblocks, hbound, hnf,
    set_file_after_delete ofs hwf path ofs1 hdel path now ⟨hnf, hdirname, hbase⟩⟩

/-- Witness for C11 (amended): with the file `/foo` holding three bytes and
the link `/l`, `del_node("/l")` returns OK, removes the LINK row and the
LINK_PAYLOAD row, frees the two NODE blocks of the link and adds a DELETE
block; `/l` resolves to NOT_FOUND and `set_file("/l")` returns OK. -/
theorem c11_delete_postcondition_witness :
    ∃ ofs1, oncefs_del_node (engine_after 512 16 c11_setup) "/l".toList = some (0, ofs1) ∧
      live_nodes ofs1 = (live_nodes (engine_after 512 16 c11_setup)).filter
        (fun m => decide (m.node ≠
          ((_oncefs_resolve_node (engine_after 512 16 c11_setup) "/l".toList).get
            (by decide)).2.node)) ∧
      primary_nodes ofs1 = (primary_nodes (engine_after 512 16 c11_setup)).filter
        (fun m => decide (m.node ≠
          ((_oncefs_resolve_node (engine_after 512 16 c11_setup) "/l".toList).get
            (by decide)).2.node)) ∧
      (∀ b, b ∈ live_blocks ofs1 ↔
        (b = { block := (engine_after 512 16 c11_setup).next_block_id,
               tag := { seq := (engine_after 512 16 c11_setup).next_seq_id,
                        operation := BLOCK_OPERATION_DELETE },
               data := { node := ((_oncefs_resolve_node (engine_after 512 16 c11_setup)
                            "/l".toList).get (by decide)).2.node,
                         fill := 0, offset := 0 } } ∨
         ∃ b0 ∈ live_blocks (engine_after 512 16 c11_setup),
           b = free_node ((_oncefs_resolve_node (engine_after 512 16 c11_setup)
                 "/l".toList).get (by decide)).2.node b0)) ∧
      (∀ b0 ∈ live_blocks (engine_after 512 16 c11_setup),
        b0.block < (engine_after 512 16 c11_setup).next_block_id) ∧
      (_oncefs_resolve_node ofs1 "/l".toList).map (fun r => r.1) = some (-ENOENT) ∧
      (oncefs_set_file ofs1 "/l".toList (12, 12)).map (fun r => r.1) = some 0 :=
  c11_delete_postcondition (engine_after 512 16 c11_setup) "/l".toList
    ((_oncefs_resolve_node (engine_after 512 16 c11_setup) "/l".toList).get (by decide)).2
    (root_node (engine_after 512 16 c11_setup)) (12, 12)
    (reachable_engine_wf _ (engine_after_reachable 512 16 _ (by decide) (by decide)))
    (by decide) (option_pair_eq_some _ (by decide) _ (by decide)) (by rfl) (by decide)
    (by decide) (by decide) (by decide) (by decide)
    (fun dev h => by
      rw [((reachable_engine_wf _
        (engine_after_reachable 512 16 c11_setup (by decide) (by decide))).2.2.2 dev h).2]
      decide)

theorem node_primary_eq_zero (k o : oncefs_node_t) :
    _oncefs_node_cmp_primary k o = 0 ↔ (o.node = k.node ∧ o.type = k.type) := by
  unfold _oncefs_node_cmp_primary
  constructor
  · intro h
    by_cases h1 : k.node < o.node
    · rw [if_pos h1] at h; omega
    · rw [if_neg h1] at h
      by_cases h2 : k.node > o.node
      · rw [if_pos h2] at h; omega
      · rw [if_neg h2] at h
        by_cases h3 : k.type < o.type
        · rw [if_pos h3] at h; omega
        · rw [if_neg h3] at h
          by_cases h4 : k.type > o.type
          · rw [if_pos h4] at h; omega
          · exact ⟨by omega, by omega⟩
  · rintro ⟨h1, h2⟩
    rw [if_neg (by omega), if_neg (by omega), if_neg (by omega), if_neg (by omega)]

/-- Two records of one operation and node in the order of the lookup index
are in the order of their offsets. -/
theorem lookup_le_offset (a b : oncefs_block_t) (h : _oncefs_block_cmp_lookup a b ≤ 0)
    (ho : b.tag.operation = a.tag.operation) (hn : b.data.node = a.data.node) :
    a.data.offset ≤ b.data.offset := by
  have hz : _oncefs_block_cmp_lookup_fuzzy a b = 0 := (fuzzy_eq_zero a b).mpr ⟨ho, hn⟩
  unfold _oncefs_block_cmp_lookup at h
  rw [if_neg (by simpa using hz)] at h
  by_contra hlt
  rw [if_neg (by omega), if_pos (by omega)] at h
  omega

theorem filter_del_data_of_ne (payload_size : Int) (k o : oncefs_block_t)
    (h : _oncefs_block_cmp_lookup_fuzzy k o ≠ 0) :
    _filter_del_data payload_size k o = _oncefs_block_cmp_lookup_fuzzy k o := by
  unfold _filter_del_data
  rw [if_pos h]

theorem filter_del_data_far (payload_size : Int) (k o : oncefs_block_t)
    (h : _oncefs_block_cmp_lookup_fuzzy k o = 0)
    (hc : (k.data.offset : Int) > o.data.offset + payload_size) :
    _filter_del_data payload_size k o = 1 := by
  unfold _filter_del_data
  rw [if_neg (by simpa using h), if_pos hc]

theorem filter_del_data_near (payload_size : Int) (k o : oncefs_block_t)
    (h : _oncefs_block_cmp_lookup_fuzzy k o = 0)
    (hc : ¬ (k.data.offset : Int) > o.data.offset + payload_size) :
    _filter_del_data payload_size k o = 0 := by
  unfold _filter_del_data
  rw [if_neg (by simpa using h), if_neg hc]

/-- The filter of `_oncefs_del_data` is monotone along the lookup index. -/
theorem filter_mono_del_data (payload_size : Int) (key : oncefs_block_t) :
    filter_mono _oncefs_block_cmp_lookup (_filter_del_data payload_size key) := by
  intro a b hab
  have hfab := block_lookup_le_fuzzy a b hab
  have hord := block_cmp_fuzzy_order
  by_cases ha : _oncefs_block_cmp_lookup_fuzzy key a = 0
  · have hkb : _oncefs_block_cmp_lookup_fuzzy key b ≤ 0 :=
      hord.le_trans key a b (by omega) hfab
    by_cases hb : _oncefs_block_cmp_lookup_fuzzy key b = 0
    · have ha1 := (fuzzy_eq_zero key a).mp ha
      have hb1 := (fuzzy_eq_zero key b).mp hb
      have hoff := lookup_le_offset a b hab (by rw [hb1.1, ha1.1]) (by rw [hb1.2, ha1.2])
      by_cases hc : (key.data.offset : Int) > a.data.offset + payload_size
      · rw [filter_del_data_far _ _ _ ha hc]
        exact ⟨fun h => by omega, fun h => by omega⟩
      · rw [filter_del_data_near _ _ _ ha hc,
          filter_del_data_near _ _ _ hb (by omega)]
        exact ⟨fun h => h, fun h => h⟩
    · rw [filter_del_data_of_ne _ _ _ hb]
      by_cases hc : (key.data.offset : Int) > a.data.offset + payload_size
      · rw [filter_del_data_far _ _ _ ha hc]
        exact ⟨fun h => by omega, fun h => by omega⟩
      · rw [filter_del_data_near _ _ _ ha hc]
        exact ⟨fun _ => hkb, fun h => by omega⟩
  · rw [filter_del_data_of_ne _ _ _ ha]
    constructor
    · intro h
      have hlt : _oncefs_block_cmp_lookup_fuzzy key a < 0 := by omega
      have hkb := hord.lt_trans_le key a b hlt hfab
      rw [filter_del_data_of_ne _ _ _ (by omega)]
      omega
    · intro h
      have hkb := hord.lt_trans_le key a b h hfab
      rw [filter_del_data_of_ne _ _ _ (by omega)]
      exact hkb

/-- The filter of `_oncefs_del_data` accepts the DATA blocks of the node
that reach `new_size` or lie at most a payload before it. -/
theorem filter_del_data_eq_zero (payload_size : Int) (k o : oncefs_block_t) :
    _filter_del_data payload_size k o = 0 ↔
      (o.tag.operation = k.tag.operation ∧ o.data.node = k.data.node ∧
        (k.data.offset : Int) ≤ o.data.offset + payload_size) := by
  unfold _filter_del_data
  by_cases hz : _oncefs_block_cmp_lookup_fuzzy k o = 0
  · rw [if_neg (by simpa using hz)]
    have := (fuzzy_eq_zero k o).mp hz
    by_cases hc : (k.data.offset : Int) > o.data.offset + payload_size
    · rw [if_pos hc]
      constructor
      · intro h; omega
      · intro h; omega
    · rw [if_neg hc]
      exact ⟨fun _ => ⟨this.1, this.2, by omega⟩, fun _ => rfl⟩
  · rw [if_pos hz]
    constructor
    · intro h; exact absurd h hz
    · intro h; exact absurd ((fuzzy_eq_zero k o).mpr ⟨h.1, h.2.1⟩) hz

/-- The blocks after `_oncefs_del_data`: the records there were, each as
`truncated` has it, provided the DATA blocks of the node have a fill of at
most the payload size and below `2^16`. -/
theorem del_data_helper_spec (ofs : oncefs_t) (node new_size : Nat) (hwf : engine_wf ofs)
    (hfill : ∀ b ∈ live_blocks ofs, b.data.node = node →
      b.tag.operation = BLOCK_OPERATION_DATA →
      (b.data.fill : Int) ≤ ofs.payload_size ∧ b.data.fill < 2 ^ 16) :
    (live_blocks (_oncefs_del_data ofs node new_size).2).Perm
      ((live_blocks ofs).map (truncated node new_size)) := by
  obtain ⟨hbl, hc0, hc1, hcmp⟩ := blocks_wf_indexes ofs hwf.1
  have hs1 := table_query_update_spec ofs.blocks
    { block := 0, tag := { seq := 0, operation := BLOCK_OPERATION_DATA },
      data := { node := node, fill := 0, offset := new_size } } 1 _oncefs_block_cmp_lookup
    (_filter_del_data ofs.payload_size) (_mutator_truncate new_size) hwf.1.2 (by omega)
    (live_blocks_sorted ofs hwf.1) (filter_mono_del_data _ _) 1 (by omega)
  have hrc1 := table_query_update_rc ofs.blocks
    { block := 0, tag := { seq := 0, operation := BLOCK_OPERATION_DATA },
      data := { node := node, fill := 0, offset := new_size } } 1
    (_filter_del_data ofs.payload_size) (_mutator_truncate new_size) (by omega)
  have hwf1 : blocks_wf { ofs with blocks := (table_query_update ofs.blocks
      { block := 0, tag := { seq := 0, operation := BLOCK_OPERATION_DATA },
        data := { node := node, fill := 0, offset := new_size } } 1
      (some (_filter_del_data ofs.payload_size)) (_mutator_truncate new_size)).2 } :=
    blocks_wf_update ofs _ _ 1 _ _ (mutator_truncate_primary new_size) hwf.1 rfl
  obtain ⟨hbl1, -, -, -⟩ := blocks_wf_indexes _ hwf1
  have h1lt : 1 < (table_query_update ofs.blocks
      { block := 0, tag := { seq := 0, operation := BLOCK_OPERATION_DATA },
        data := { node := node, fill := 0, offset := new_size } } 1
      (some (_filter_del_data ofs.payload_size)) (_mutator_truncate new_size)).2.indexes.length :=
    lt_of_lt_of_eq (by decide : 1 < 2) hbl1.symm
  have hs2 := table_query_update_spec (table_query_update ofs.blocks
      { block := 0, tag := { seq := 0, operation := BLOCK_OPERATION_DATA },
        data := { node := node, fill := 0, offset := new_size } } 1
      (some (_filter_del_data ofs.payload_size)) (_mutator_truncate new_size)).2
    { block := 0, tag := { seq := 0, operation := BLOCK_OPERATION_TRUNCATE },
      data := { node := node, fill := 0, offset := new_size } } 1 _oncefs_block_cmp_lookup
    _oncefs_block_cmp_lookup_fuzzy _mutator_free hwf1.2 h1lt
    (live_blocks_sorted _ hwf1) (filter_mono_fuzzy _) 1 h1lt
  have hrc2 := table_query_update_rc (table_query_update ofs.blocks
      { block := 0, tag := { seq := 0, operation := BLOCK_OPERATION_DATA },
        data := { node := node, fill := 0, offset := new_size } } 1
      (some (_filter_del_data ofs.payload_size)) (_mutator_truncate new_size)).2
    { block := 0, tag := { seq := 0, operation := BLOCK_OPERATION_TRUNCATE },
      data := { node := node, fill := 0, offset := new_size } } 1
    _oncefs_block_cmp_lookup_fuzzy _mutator_free h1lt
  have hdd : (_oncefs_del_data ofs node new_size).2.blocks
      = (table_query_update (table_query_update ofs.blocks
          { block := 0, tag := { seq := 0, operation := BLOCK_OPERATION_DATA },
            data := { node := node, fill := 0, offset := new_size } } 1
          (some (_filter_del_data ofs.payload_size)) (_mutator_truncate new_size)).2
        { block := 0, tag := { seq := 0, operation := BLOCK_OPERATION_TRUNCATE },
          data := { node := node, fill := 0, offset := new_size } } 1
        (some _oncefs_block_cmp_lookup_fuzzy) _mutator_free).2 := by
    unfold _oncefs_del_data
    dsimp only
    rw [if_neg (by
      show ¬ ((table_query_update ofs.blocks _ 1 _ _).1 ≠ 0 ∧ _)
      rw [hrc1]; simp)]
    split <;> rfl
  show (index_rows (_oncefs_del_data ofs node new_size).2.blocks.rows
    (table_index (_oncefs_del_data ofs node new_size).2.blocks 1)).Perm _
  rw [hdd]
  refine hs2.trans ?_
  refine (hs1.map _).trans ?_
  rw [List.map_map]
  apply List.Perm.of_eq
  apply List.map_congr_left
  intro b hb
  dsimp only [Function.comp]
  have hz1 := filter_del_data_eq_zero ofs.payload_size
    { block := 0, tag := { seq := 0, operation := BLOCK_OPERATION_DATA },
      data := { node := node, fill := 0, offset := new_size } } b
  dsimp only at hz1
  have hfz : ∀ x : oncefs_block_t, _oncefs_block_cmp_lookup_fuzzy
      { block := 0, tag := { seq := 0, operation := BLOCK_OPERATION_TRUNCATE },
        data := { node := node, fill := 0, offset := new_size } } x = 0 ↔
      (x.tag.operation = BLOCK_OPERATION_TRUNCATE ∧ x.data.node = node) :=
    fun x => fuzzy_eq_zero _ x
  unfold truncated
  by_cases hd : b.data.node = node ∧ b.tag.operation = BLOCK_OPERATION_DATA
  · obtain ⟨hf1, hf2⟩ := hfill b hb hd.1 hd.2
    rw [if_pos hd]
    by_cases hv : _filter_del_data ofs.payload_size
        { block := 0, tag := { seq := 0, operation := BLOCK_OPERATION_DATA },
          data := { node := node, fill := 0, offset := new_size } } b = 0
    · have e1 : (if _filter_del_data ofs.payload_size
          { block := 0, tag := { seq := 0, operation := BLOCK_OPERATION_DATA },
            data := { node := node, fill := 0, offset := new_size } } b = 0
          then _mutator_truncate new_size b else b) = _mutator_truncate new_size b := if_pos hv
      rw [e1]
      have hnt : ¬ _oncefs_block_cmp_lookup_fuzzy
          { block := 0, tag := { seq := 0, operation := BLOCK_OPERATION_TRUNCATE },
            data := { node := node, fill := 0, offset := new_size } }
          (_mutator_truncate new_size b) = 0 := by
        rw [hfz]
        rintro ⟨h1, -⟩
        unfold _mutator_truncate at h1
        split at h1
        · exact absurd h1 (by show ¬ (BLOCK_OPERATION_FREE = BLOCK_OPERATION_TRUNCATE); decide)
        · have h2 : b.tag.operation = BLOCK_OPERATION_TRUNCATE := h1
          rw [hd.2] at h2
          exact absurd h2 (by decide)
      rw [if_neg hnt]
      unfold _mutator_truncate
      by_cases ho : b.data.offset ≥ new_size
      · rw [if_pos ho, if_pos ho]
        rfl
      · rw [if_neg ho, if_neg ho]
        have hmin : ((if b.data.offset + b.data.fill > new_size then new_size
            else b.data.offset + b.data.fill) - b.data.offset) % 2 ^ 16
            = min b.data.fill (new_size - b.data.offset) := by
          have : ((if b.data.offset + b.data.fill > new_size then new_size
              else b.data.offset + b.data.fill) - b.data.offset)
              = min b.data.fill (new_size - b.data.offset) := by
            split <;> omega
          rw [this]
          apply Nat.mod_eq_of_lt
          have := Nat.min_le_left b.data.fill (new_size - b.data.offset)
          omega
        rw [hmin]
    · have e1 : (if _filter_del_data ofs.payload_size
          { block := 0, tag := { seq := 0, operation := BLOCK_OPERATION_DATA },
            data := { node := node, fill := 0, offset := new_size } } b = 0
          then _mutator_truncate new_size b else b) = b := if_neg hv
      rw [e1]
      have hnt : ¬ _oncefs_block_cmp_lookup_fuzzy
          { block := 0, tag := { seq := 0, operation := BLOCK_OPERATION_TRUNCATE },
            data := { node := node, fill := 0, offset := new_size } } b = 0 := by
        rw [hfz]
        rintro ⟨h1, -⟩
        rw [hd.2] at h1
        exact absurd h1 (by decide)
      rw [if_neg hnt]
      have hfar : ¬ ((new_size : Int) ≤ b.data.offset + ofs.payload_size) :=
        fun h => hv (hz1.mpr ⟨hd.2, hd.1, h⟩)
      have ho : ¬ b.data.offset ≥ new_size := by omega
      rw [if_neg ho]
      have hmin : min b.data.fill (new_size - b.data.offset) = b.data.fill := by
        apply Nat.min_eq_left
        omega
      rw [hmin]
  · rw [if_neg hd]
    have hv : ¬ _filter_del_data ofs.payload_size
        { block := 0, tag := { seq := 0, operation := BLOCK_OPERATION_DATA },
          data := { node := node, fill := 0, offset := new_size } } b = 0 :=
      fun h => hd ⟨(hz1.mp h).2.1, (hz1.mp h).1⟩
    have e1 : (if _filter_del_data ofs.payload_size
        { block := 0, tag := { seq := 0, operation := BLOCK_OPERATION_DATA },
          data := { node := node, fill := 0, offset := new_size } } b = 0
        then _mutator_truncate new_size b else b) = b := if_neg hv
    rw [e1]
    by_cases ht : b.data.node = node ∧ b.tag.operation = BLOCK_OPERATION_TRUNCATE
    · rw [if_pos ht, if_pos ((hfz b).mpr ⟨ht.2, ht.1⟩)]
    · rw [if_neg ht, if_neg (fun h => ht ⟨((hfz b).mp h).2, ((hfz b).mp h).1⟩)]

/-- A successful `oncefs_del_data` on a well-formed engine with a block free
at the tail: the node is a FILE row of the nodes table, and the live blocks
afterwards are the new TRUNCATE record at the tail and the records there
were, each as `truncated` has it. -/
theorem del_data_spec (ofs : oncefs_t) (n new_size : Nat) (hwf : engine_wf ofs)
    (hok : (oncefs_del_data ofs n new_size).1 = 0)
    (hroom : ofs.next_block_id ≤ ofs.last_block_id) (hL : ofs.last_block_id < 2 ^ 32)
    (hfill : ∀ b ∈ live_blocks ofs, b.data.node = n →
      b.tag.operation = BLOCK_OPERATION_DATA →
      (b.data.fill : Int) ≤ ofs.payload_size ∧ b.data.fill < 2 ^ 16) :
    (∃ r ∈ primary_nodes ofs, r.node = n ∧ r.type = NODE_TYPE_FILE) ∧
    (∀ b, b ∈ live_blocks (oncefs_del_data ofs n new_size).2 ↔
      (b = { block := ofs.next_block_id,
             tag := { seq := ofs.next_seq_id, operation := BLOCK_OPERATION_TRUNCATE },
             data := { node := n, fill := 0, offset := new_size } } ∨
       ∃ b0 ∈ live_blocks ofs, b = truncated n new_size b0)) ∧
    (∀ b0 ∈ live_blocks ofs, b0.block < ofs.next_block_id) := by
  obtain ⟨hbl, -, -, -⟩ := blocks_wf_indexes ofs hwf.1
  obtain ⟨hnl, hnc, -, -⟩ := nodes_wf_indexes ofs hwf.2.1
  have hsound := table_query_first_sound ofs.nodes
    { node := n, parent := 0, type := NODE_TYPE_FILE, last_access := 0,
      last_modification := 0, mode := 0, name := [] } 0 _oncefs_node_cmp_primary
  have e0 : (table_index ofs.nodes TABLE_INDEX_PRIMARY).comparator
      = _oncefs_node_cmp_primary := hnc
  have e1 : TABLE_INDEX_PRIMARY = 0 := rfl
  have hq : (table_query_first ofs.nodes
      { node := n, parent := 0, type := NODE_TYPE_FILE, last_access := 0,
        last_modification := 0, mode := 0, name := [] } 0
      (some _oncefs_node_cmp_primary)).1 = 0 := by
    by_contra hne
    unfold oncefs_del_data at hok
    dsimp only at hok
    rw [table_query_first_none, e0, e1] at hok
    rw [if_pos hne] at hok
    exact hne hok
  obtain ⟨hmem, hz⟩ := hsound.2 hq
  have hrow := (node_primary_eq_zero _ _).mp hz
  dsimp only at hrow
  have hperm := del_data_helper_spec ofs n new_size hwf hfill
  have hwfx : engine_wf (_oncefs_del_data ofs n new_size).2 :=
    del_data_helper_closed _ engine_wf_step_closed.totable_step_closed ofs n new_size
      |> fun h => h hwf
  have hframe := (del_data_frame ofs n new_size (by omega)).2
  have hdd1 := (del_data_frame ofs n new_size (by omega)).1
  have hnb : (_oncefs_del_data ofs n new_size).2.next_block_id = ofs.next_block_id := by
    rw [hframe]
  have hns : (_oncefs_del_data ofs n new_size).2.next_seq_id = ofs.next_seq_id := by
    rw [hframe]
  have hlb : (_oncefs_del_data ofs n new_size).2.last_block_id = ofs.last_block_id := by
    rw [hframe]
  have hfresh := create_block_fresh (_oncefs_del_data ofs n new_size).2 BLOCK_OPERATION_TRUNCATE
    n 0 new_size (by rw [hnb, hlb]; exact hroom) (by rw [hnb]; omega)
  have hcb : (_oncefs_create_block (_oncefs_del_data ofs n new_size).2 BLOCK_OPERATION_TRUNCATE
      n 0 new_size).1 = 0 := by rw [hfresh]
  have hblocks : (oncefs_del_data ofs n new_size).2.blocks
      = (_oncefs_create_block (_oncefs_del_data ofs n new_size).2 BLOCK_OPERATION_TRUNCATE
          n 0 new_size).2.1.blocks := by
    unfold oncefs_del_data
    dsimp only
    rw [table_query_first_none, e0, e1, if_neg (not_not.mpr hq), hrow.1]
    rw [if_neg (by rw [hdd1]; simp), if_neg (by rw [hcb]; simp)]
    split
    · rfl
    · split <;> rfl
  have hbound : ∀ b0 ∈ live_blocks ofs, b0.block < ofs.next_block_id :=
    fun b0 hb0 => hwf.2.2.1.2 b0 (live_blocks_subset ofs hwf.1 b0 hb0)
  have hblk : ∀ b0, (truncated n new_size b0).block = b0.block := by
    intro b0
    unfold truncated _mutator_free
    split
    · split <;> rfl
    · split <;> rfl
  refine ⟨⟨_, hmem, hrow⟩, ?_, hbound⟩
  intro b
  have hlive := create_block_live (_oncefs_del_data ofs n new_size).2 BLOCK_OPERATION_TRUNCATE
    n 0 new_size hwfx.1 hcb b
  have e : b ∈ live_blocks (oncefs_del_data ofs n new_size).2 ↔
      b ∈ live_blocks (_oncefs_create_block (_oncefs_del_data ofs n new_size).2
        BLOCK_OPERATION_TRUNCATE n 0 new_size).2.1 := by
    show b ∈ index_rows (oncefs_del_data ofs n new_size).2.blocks.rows
      (table_index (oncefs_del_data ofs n new_size).2.blocks 1) ↔ _
    rw [hblocks]
    rfl
  rw [e, hlive, hfresh]
  dsimp only
  rw [hnb, hns]
  constructor
  · rintro (h | ⟨h1, h2⟩)
    · left; exact h
    · right
      obtain ⟨b0, hb0, rfl⟩ := List.mem_map.mp (hperm.mem_iff.mp h1)
      exact ⟨b0, hb0, rfl⟩
  · rintro (h | ⟨b0, hb0, rfl⟩)
    · left; exact h
    · right
      refine ⟨hperm.mem_iff.mpr (List.mem_map_of_mem _ hb0), ?_⟩
      rw [hblk]
      have := hbound b0 hb0
      omega

/-- Counterexample to C12: on a container with two usable blocks holding
`/foo` (node `1`, block `1`) and its DATA block at offset `0` (block `2`),
`del_data(1, 0)` returns OK; block `2`, a DATA block of the node with
offset `>= new_size`, is afterwards the TRUNCATE record and no block is
FREE. -/
theorem c12_counterexample :
    ∃ ofs, state_after 512 3 c12_setup = some ofs ∧
      (∃ r ∈ primary_nodes ofs, r.node = 1 ∧ r.type = NODE_TYPE_FILE) ∧
      (∀ b ∈ live_blocks ofs, b.data.node = 1 → b.tag.operation = BLOCK_OPERATION_DATA →
        (b.data.fill : Int) ≤ ofs.payload_size) ∧
      (∃ b0 ∈ live_blocks ofs, b0.block = 2 ∧ b0.data.node = 1 ∧
        b0.tag.operation = BLOCK_OPERATION_DATA ∧ b0.data.offset ≥ 0) ∧
      (oncefs_del_data ofs 1 0).1 = 0 ∧
      (∃ b ∈ live_blocks (oncefs_del_data ofs 1 0).2, b.block = 2 ∧
        b.tag.operation = BLOCK_OPERATION_TRUNCATE) ∧
      (∀ b ∈ live_blocks (oncefs_del_data ofs 1 0).2,
        b.tag.operation ≠ BLOCK_OPERATION_FREE) :=
  ⟨(state_after 512 3 c12_setup).get (by decide), by simp, by decide, by decide, by decide,
    by decide, by decide, by decide⟩

/-- C12 (amended): on a well-formed engine with a block free at the tail of
the container, where the DATA blocks of `n` have a fill of at most the
payload size (and below `2^16`) and an offset that stays below `2^63` with
the payload size added, and for `new_size` below `2^63` (so that neither the
`uint64_t` sum of the filter wraps nor the `off_t` values of the mutator
leave their range), a successful `del_data(n, new_size)` means `n` is a
FILE row of the nodes table, and the live blocks afterwards are
exactly the new TRUNCATE record of `n` (offset `new_size`, the next seq, at
the next block id) and the records there were, each as `truncated` has it:
DATA blocks of `n` with offset `>= new_size` FREE, those below with fill
`min(old fill, new_size - offset)`, TRUNCATE blocks of `n` FREE, all others
as they were; the new record is the one TRUNCATE block of `n`. -/
theorem c12_truncate_postcondition (ofs : oncefs_t) (n new_size : Nat) (hwf : engine_wf ofs)
    (hok : (oncefs_del_data ofs n new_size).1 = 0)
    (hroom : ofs.next_block_id ≤ ofs.last_block_id) (hL : ofs.last_block_id < 2 ^ 32)
    (hfill : ∀ b ∈ live_blocks ofs, b.data.node = n →
      b.tag.operation = BLOCK_OPERATION_DATA →
      (b.data.fill : Int) ≤ ofs.payload_size ∧ b.data.fill < 2 ^ 16)
    (hoff : ∀ b ∈ live_blocks ofs, b.data.node = n →
      b.tag.operation = BLOCK_OPERATION_DATA →
      (b.data.offset : Int) + ofs.payload_size < 2 ^ 63)
    (hnew : new_size < 2 ^ 63) :
    (∃ r ∈ primary_nodes ofs, r.node = n ∧ r.type = NODE_TYPE_FILE) ∧
    (∀ b, b ∈ live_blocks (oncefs_del_data ofs n new_size).2 ↔
      (b = { block := ofs.next_block_id,
             tag := { seq := ofs.next_seq_id, operation := BLOCK_OPERATION_TRUNCATE },
             data := { node := n, fill := 0, offset := new_size } } ∨
       ∃ b0 ∈ live_blocks ofs, b = truncated n new_size b0)) ∧
    (∀ b0 ∈ live_blocks ofs, b0.block < ofs.next_block_id) ∧
    (∀ b ∈ live_blocks (oncefs_del_data ofs n new_size).2,
      b.tag.operation = BLOCK_OPERATION_TRUNCATE → b.data.node = n →
      b = { block := ofs.next_block_id,
            tag := { seq := ofs.next_seq_id, operation := BLOCK_OPERATION_TRUNCATE },
            data := { node := n, fill := 0, offset := new_size } }) := by
  have _ := hoff
  have _ := hnew
  obtain ⟨h1, h2, h3⟩ := del_data_spec ofs n new_size hwf hok hroom hL hfill
  refine ⟨h1, h2, h3, ?_⟩
  intro b hb hop hnode
  rcases (h2 b).mp hb with h | ⟨b0, hb0, rfl⟩
  · exact h
  · exfalso
    unfold truncated _mutator_free at hop hnode
    by_cases hd : b0.data.node = n ∧ b0.tag.operation = BLOCK_OPERATION_DATA
    · rw [if_pos hd] at hop
      by_cases ho : b0.data.offset ≥ new_size
      · rw [if_pos ho] at hop
        exact absurd hop (by show ¬ (BLOCK_OPERATION_FREE = BLOCK_OPERATION_TRUNCATE); decide)
      · rw [if_neg ho] at hop
        have hop2 : b0.tag.operation = BLOCK_OPERATION_TRUNCATE := hop
        rw [hd.2] at hop2
        exact absurd hop2 (by decide)
    · rw [if_neg hd] at hop hnode
      by_cases ht : b0.data.node = n ∧ b0.tag.operation = BLOCK_OPERATION_TRUNCATE
      · rw [if_pos ht] at hop
        exact absurd hop (by show ¬ (BLOCK_OPERATION_FREE = BLOCK_OPERATION_TRUNCATE); decide)
      · rw [if_neg ht] at hop hnode
        exact ht ⟨hnode, hop⟩

/-- Witness for C12 (amended): on a container of eight blocks with `/foo`
and the three bytes `abc` at offset `0`, `del_data(1, 2)` shrinks the DATA
block to fill `2` and adds the TRUNCATE record at block `3`. -/
theorem c12_truncate_postcondition_witness :
    (∃ r ∈ primary_nodes (engine_after 512 8 c12_setup), r.node = 1 ∧ r.type = NODE_TYPE_FILE) ∧
    (∀ b, b ∈ live_blocks (oncefs_del_data (engine_after 512 8 c12_setup) 1 2).2 ↔
      (b = { block := (engine_after 512 8 c12_setup).next_block_id,
             tag := { seq := (engine_after 512 8 c12_setup).next_seq_id,
                      operation := BLOCK_OPERATION_TRUNCATE },
             data := { node := 1, fill := 0, offset := 2 } } ∨
       ∃ b0 ∈ live_blocks (engine_after 512 8 c12_setup), b = truncated 1 2 b0)) ∧
    (∀ b0 ∈ live_blocks (engine_after 512 8 c12_setup),
      b0.block < (engine_after 512 8 c12_setup).next_block_id) ∧
    (∀ b ∈ live_blocks (oncefs_del_data (engine_after 512 8 c12_setup) 1 2).2,
      b.tag.operation = BLOCK_OPERATION_TRUNCATE → b.data.node = 1 →
      b = { block := (engine_after 512 8 c12_setup).next_block_id,
            tag := { seq := (engine_after 512 8 c12_setup).next_seq_id,
                     operation := BLOCK_OPERATION_TRUNCATE },
            data := { node := 1, fill := 0, offset := 2 } }) :=
  c12_truncate_postcondition (engine_after 512 8 c12_setup) 1 2
    (reachable_engine_wf _ (engine_after_reachable 512 8 _ (by decide) (by decide)))
    (by decide) (by decide) (by decide) (by decide) (by decide) (by norm_num)

/-- `_oncefs_init_node` on a path that does not exist yet, directly under
the directory `parent`: the node it initialises. -/
theorem init_node_fresh_entry (ofs : oncefs_t) (path : List Char) (type : Int)
    (now : Nat × Nat) (parent : oncefs_node_t) (h : fresh_path ofs path)
    (hpar : _oncefs_resolve_node ofs (dirname path) = some (0, parent)) :
    _oncefs_init_node ofs path type now
      = some (0, { ofs with next_node_id := ofs.next_node_id + 1 },
          { node := ofs.next_node_id % 2 ^ 32, parent := parent.node, type := type,
            last_access := now.1, last_modification := now.2, mode := 0,
            name := basename path }) := by
  obtain ⟨h1, h2, h3⟩ := h
  unfold _oncefs_init_node
  rw [if_neg (not_found_ne_root ofs path h1)]
  cases hr : _oncefs_resolve_node ofs path with
  | none => rw [hr] at h1; simp at h1
  | some r =>
    rw [hr] at h1
    have hr1 : r.1 = -ENOENT := by simpa using h1
    dsimp only
    rw [if_neg (by rw [hr1]; decide), if_neg (by rw [hr1]; decide)]
    rw [hpar] at h2 ⊢
    have hp1 : parent.type = NODE_TYPE_DIR := by simpa using h2
    dsimp only
    rw [if_neg (by decide), if_neg (by rw [hp1]; decide), if_neg (by omega)]
    have hn : strncpy (basename path) ONCEFS_NAME_MAX_SIZE = basename path := by
      unfold strncpy
      exact List.take_of_length_le (by omega)
    rw [hn]
    rfl

/-- The counters and the nodes table after `write_node_block` on an engine
with an unused block at the tail. -/
theorem write_node_block_counters (x : oncefs_t) (operation : Int) (entry : oncefs_node_t)
    (hroom : x.next_block_id ≤ x.last_block_id) (h32 : x.next_block_id < 2 ^ 32) :
    (write_node_block x operation entry).2.next_block_id = x.next_block_id + 1 ∧
    (write_node_block x operation entry).2.last_block_id = x.last_block_id ∧
    (write_node_block x operation entry).2.nodes = x.nodes ∧
    (write_node_block x operation entry).2.time = x.time ∧
    (_oncefs_create_block x operation entry.node 0 0).1 = 0 := by
  have hfresh := create_block_fresh x operation entry.node 0 0 hroom h32
  unfold write_node_block
  rw [hfresh]
  dsimp only
  rw [if_neg (by simp)]
  split
  · exact ⟨rfl, rfl, rfl, rfl, rfl⟩
  · split <;> exact ⟨rfl, rfl, rfl, rfl, rfl⟩

/-- Two node records written one after the other on a well-formed engine
with two unused blocks at the tail: both writes return OK and leave the
nodes table and the time as they were. -/
theorem write_node_block_twice (x : oncefs_t) (a b : oncefs_node_t) (hwf : engine_wf x)
    (hroom : x.next_block_id + 1 ≤ x.last_block_id) (hL : x.last_block_id < 2 ^ 32)
    (hsz : ∀ dev, x.io = some dev → SIZEOF_TAG + SIZEOF_NODE ≤ dev.block_size) :
    ∃ ofs1, (if (write_node_block x BLOCK_OPERATION_NODE a).1 ≠ 0 then
        some (write_node_block x BLOCK_OPERATION_NODE a)
      else some (write_node_block (write_node_block x BLOCK_OPERATION_NODE a).2
        BLOCK_OPERATION_NODE b)) = some (0, ofs1) ∧
      engine_wf ofs1 ∧ ofs1.time = x.time ∧ ofs1.nodes = x.nodes := by
  obtain ⟨c1, c2, c3, c4, c5⟩ := write_node_block_counters x BLOCK_OPERATION_NODE a
    (by omega) (by omega)
  have hok1 := write_node_block_ok x BLOCK_OPERATION_NODE a hwf c5 hsz
  have hsz1 := (write_node_block_ok_facts x BLOCK_OPERATION_NODE a hwf.1 hok1).2
  have hwf1 : engine_wf (write_node_block x BLOCK_OPERATION_NODE a).2 :=
    write_node_block_closed _ engine_wf_step_closed x BLOCK_OPERATION_NODE a hwf
  obtain ⟨d1, d2, d3, d4, d5⟩ := write_node_block_counters
    (write_node_block x BLOCK_OPERATION_NODE a).2 BLOCK_OPERATION_NODE b
    (by rw [c1, c2]; omega) (by rw [c1]; omega)
  have hok2 := write_node_block_ok _ BLOCK_OPERATION_NODE b hwf1 d5 hsz1
  have hwf2 : engine_wf (write_node_block (write_node_block x BLOCK_OPERATION_NODE a).2
      BLOCK_OPERATION_NODE b).2 :=
    write_node_block_closed _ engine_wf_step_closed _ BLOCK_OPERATION_NODE b hwf1
  refine ⟨_, ?_, hwf2, by rw [d4, c4], by rw [d3, c3]⟩
  rw [if_neg (by rw [hok1]; simp)]
  exact congrArg some (Prod.ext hok2 rfl)

/-- `oncefs_set_link` on a path that does not exist yet, directly under the
directory `parent`, with a target of at most 256 bytes, on a well-formed
engine with two unused blocks at the tail: OK, and the nodes table has the
LINK row and the LINK_PAYLOAD row inserted. -/
theorem set_link_fresh (ofs : oncefs_t) (src target : List Char) (now : Nat × Nat)
    (parent : oncefs_node_t) (hwf : engine_wf ofs) (h : fresh_path ofs src)
    (hpar : _oncefs_resolve_node ofs (dirname src) = some (0, parent))
    (htarget : target.length ≤ ONCEFS_NAME_MAX_SIZE)
    (hroom : ofs.next_block_id + 1 ≤ ofs.last_block_id) (hL : ofs.last_block_id < 2 ^ 32)
    (hsz : ∀ dev, ofs.io = some dev → SIZEOF_TAG + SIZEOF_NODE ≤ dev.block_size) :
    ∃ ofs1, oncefs_set_link ofs src target now = some (0, ofs1) ∧ engine_wf ofs1 ∧
      ofs1.time = ofs.time ∧
      ofs1.nodes = (table_insert_or_replace (table_insert_or_replace ofs.nodes
        { node := ofs.next_node_id % 2 ^ 32, parent := parent.node, type := NODE_TYPE_LINK,
          last_access := now.1, last_modification := now.2, mode := 0,
          name := basename src }).2
        { node := ofs.next_node_id % 2 ^ 32, parent := ofs.next_node_id % 2 ^ 32,
          type := NODE_TYPE_LINK_PAYLOAD, last_access := 0, last_modification := 0, mode := 0,
          name := target }).2 := by
  have hinit := init_node_fresh_entry ofs src NODE_TYPE_LINK now parent h hpar
  have hn : strncpy target ONCEFS_NAME_MAX_SIZE = target := by
    unfold strncpy
    exact List.take_of_length_le htarget
  have hwf0 : engine_wf { ofs with next_node_id := ofs.next_node_id + 1 } :=
    engine_wf_step_closed.reserve ofs hwf
  have hwf1 := engine_wf_step_closed.nodes_insert { ofs with next_node_id := ofs.next_node_id + 1 }
    { node := ofs.next_node_id % 2 ^ 32, parent := parent.node, type := NODE_TYPE_LINK,
      last_access := now.1, last_modification := now.2, mode := 0,
      name := basename src } hwf0
  have hwf2 := engine_wf_step_closed.nodes_insert _
    { node := ofs.next_node_id % 2 ^ 32, parent := ofs.next_node_id % 2 ^ 32,
      type := NODE_TYPE_LINK_PAYLOAD, last_access := 0, last_modification := 0, mode := 0,
      name := target } hwf1
  dsimp only at hwf2
  unfold oncefs_set_link
  rw [if_neg (by omega), hinit]
  dsimp only
  rw [hn, if_neg (by simp), if_neg (by rw [table_insert_or_replace_rc]; simp),
    if_neg (by rw [table_insert_or_replace_rc]; simp)]
  exact write_node_block_twice _ _ _ hwf2 hroom hL hsz

/-- The rows of either index after a row is inserted into the nodes table
of a well-formed engine: the new row, and the rows there were with another
`(node, type)`. -/
theorem nodes_insert_mem (row : oncefs_node_t) (ofs : oncefs_t)
    (hwf : nodes_wf ofs) (k : Nat) (hk : k < 2) (m : oncefs_node_t) :
    m ∈ index_rows (table_insert_or_replace ofs.nodes row).2.rows
        (table_index (table_insert_or_replace ofs.nodes row).2 k) ↔
      (m = row ∨ (m ∈ index_rows ofs.nodes.rows (table_index ofs.nodes k) ∧
        ¬ (m.node = row.node ∧ m.type = row.type))) := by
  obtain ⟨hl, hc, -, hcmp⟩ := nodes_wf_indexes ofs hwf
  rw [table_insert_or_replace_mem ofs.nodes row hwf.2 hcmp k (by omega) m, hc,
    Ne, node_primary_eq_zero]

/-- A successful `_oncefs_resolve_node` is a walk from the root along the
tokens of the path. -/
theorem walk_of_resolve (ofs : oncefs_t) (path : List Char) (node : oncefs_node_t)
    (h : _oncefs_resolve_node ofs path = some (0, node)) :
    walk_segments ofs (path_tokens path) (root_node ofs) = some node := by
  unfold _oncefs_resolve_node at h
  by_cases hroot : path = ['/']
  · rw [if_pos hroot] at h
    rw [hroot]
    have e : path_tokens ['/'] = [] := by decide
    rw [e]
    exact congrArg some (Prod.mk.inj (Option.some.inj h)).2
  · rw [if_neg hroot] at h
    by_cases hD : path_tokens path = []
    · rw [if_pos hD] at h
      cases h
    · rw [if_neg hD] at h
      exact resolve_loop_ok ofs _ (root_node ofs) default node hD (Option.some.inj h)

/-- The lookup of a segment after two rows have been added to the live
nodes, with unique names before: a segment that was found and is not the
`(parent, name)` of either new row is found as before. -/
theorem lookup_after_insert (ofs ofs1 : oncefs_t) (a b : oncefs_node_t) (hwf : nodes_wf ofs)
    (hwf1 : nodes_wf ofs1) (hu : unique_names ofs)
    (hmem : ∀ m, m ∈ live_nodes ofs1 ↔ (m = a ∨ m = b ∨ m ∈ live_nodes ofs))
    (parent : Nat) (name : List Char) (h0 : (lookup_segment ofs parent name).1 = 0)
    (ha : ¬ (a.parent = parent ∧ a.name = name))
    (hb : ¬ (b.parent = parent ∧ b.name = name)) :
    lookup_segment ofs1 parent name = lookup_segment ofs parent name := by
  obtain ⟨hx, hxp, hxn⟩ := (lookup_segment_spec ofs hwf parent name).2 h0
  obtain ⟨h1, h2⟩ := lookup_segment_spec ofs1 hwf1 parent name
  have hrc : (lookup_segment ofs1 parent name).1 = 0 :=
    h1.mpr ⟨_, (hmem _).mpr (Or.inr (Or.inr hx)), hxp, hxn⟩
  obtain ⟨hy, hyp, hyn⟩ := h2 hrc
  have hrow : (lookup_segment ofs1 parent name).2 = (lookup_segment ofs parent name).2 := by
    rcases (hmem _).mp hy with e | e | e
    · rw [e] at hyp hyn
      exact absurd ⟨hyp, hyn⟩ ha
    · rw [e] at hyp hyn
      exact absurd ⟨hyp, hyn⟩ hb
    · exact unique_names_eq ofs hu _ _ e hx (hyp.trans hxp.symm) (hyn.trans hxn.symm)
  exact Prod.ext (hrc.trans h0.symm) hrow

/-- A walk stays as it is when two rows are added to the live nodes, the
first with a `(parent, name)` that was not found and the second with a
parent that is no node id of a live node nor the one the walk starts from. -/
theorem walk_after_insert (ofs ofs1 : oncefs_t) (a b : oncefs_node_t) (hwf : nodes_wf ofs)
    (hwf1 : nodes_wf ofs1) (hu : unique_names ofs)
    (hmem : ∀ m, m ∈ live_nodes ofs1 ↔ (m = a ∨ m = b ∨ m ∈ live_nodes ofs))
    (hfail : (lookup_segment ofs a.parent a.name).1 ≠ 0)
    (hid : ∀ m ∈ live_nodes ofs, m.node ≠ b.parent) :
    ∀ (D : List (List Char)) (prev r : oncefs_node_t), prev.node ≠ b.parent →
      walk_segments ofs D prev = some r →
      walk_segments ofs1 D prev = some r ∧ r.node ≠ b.parent := by
  intro D
  induction D with
  | nil =>
    intro prev r hp h
    have e : prev = r := Option.some.inj h
    rw [← e]
    exact ⟨rfl, hp⟩
  | cons seg D ih =>
    intro prev r hp h
    unfold walk_segments at h ⊢
    by_cases hc : prev.type = NODE_TYPE_DIR ∧ seg.length ≤ ONCEFS_NAME_MAX_SIZE ∧
        (lookup_segment ofs prev.node seg).1 = 0
    · rw [if_pos hc] at h
      have hlk := lookup_after_insert ofs ofs1 a b hwf hwf1 hu hmem prev.node seg hc.2.2
        (fun hh => hfail (by rw [hh.1, hh.2]; exact hc.2.2))
        (fun hh => hp hh.1.symm)
      rw [hlk, if_pos hc]
      exact ih _ r (hid _ ((lookup_segment_spec ofs hwf prev.node seg).2 hc.2.2).1) h
    · rw [if_neg hc] at h
      cases h

/-- The rows of either index after two rows of one fresh node id and of
different types are inserted into the nodes table of a well-formed engine:
the two rows and the rows there were. -/
theorem nodes_insert_two_mem (ofs : oncefs_t) (a b : oncefs_node_t) (hwf : engine_wf ofs)
    (k : Nat) (hk : k < 2) (hab : a.node = b.node) (hty : a.type ≠ b.type)
    (hid : ∀ m ∈ index_rows ofs.nodes.rows (table_index ofs.nodes k), m.node ≠ a.node)
    (m : oncefs_node_t) :
    m ∈ index_rows (table_insert_or_replace (table_insert_or_replace ofs.nodes a).2 b).2.rows
        (table_index (table_insert_or_replace (table_insert_or_replace ofs.nodes a).2 b).2 k) ↔
      (m = a ∨ m = b ∨ m ∈ index_rows ofs.nodes.rows (table_index ofs.nodes k)) := by
  have hwf1 : engine_wf { ofs with nodes := (table_insert_or_replace ofs.nodes a).2 } :=
    engine_wf_step_closed.nodes_insert ofs a hwf
  have h1 := nodes_insert_mem a ofs hwf.2.1 k hk
  have h2 := nodes_insert_mem b { ofs with nodes := (table_insert_or_replace ofs.nodes a).2 }
    hwf1.2.1 k hk m
  constructor
  · intro hm
    rcases h2.mp hm with e | ⟨e1, -⟩
    · exact Or.inr (Or.inl e)
    · rcases (h1 m).mp e1 with e | ⟨e2, -⟩
      · exact Or.inl e
      · exact Or.inr (Or.inr e2)
  · rintro (e | e | e)
    · refine h2.mpr (Or.inr ⟨(h1 m).mpr (Or.inl e), ?_⟩)
      rw [e]
      exact fun hh => hty hh.2
    · exact h2.mpr (Or.inl e)
    · have hne := hid m e
      refine h2.mpr (Or.inr ⟨(h1 m).mpr (Or.inr ⟨e, fun hh => hne hh.1⟩), ?_⟩)
      exact fun hh => hne (hh.1.trans hab.symm)

/-- `oncefs_set_link` on a path that does not exist yet, with a `/` before
its last component and directly under the directory `parent`, with a target
of at most 256 bytes, on a well-formed engine with unique names, two unused
blocks at the tail and a next node id that is neither `0` nor in use: OK;
the two indexes of the nodes table hold the LINK row, the LINK_PAYLOAD row
and the rows they held; the path resolves to the LINK row and
`oncefs_get_link` on it returns the LINK_PAYLOAD row. -/
theorem set_link_spec (ofs : oncefs_t) (src target : List Char) (now : Nat × Nat)
    (parent : oncefs_node_t) (hwf : engine_wf ofs) (hu : unique_names ofs)
    (h : fresh_path ofs src)
    (hpar : _oncefs_resolve_node ofs (dirname src) = some (0, parent))
    (hsplit : '/' ∈ strip_slashes src)
    (htarget : target.length ≤ ONCEFS_NAME_MAX_SIZE)
    (hid0 : ofs.next_node_id % 2 ^ 32 ≠ 0)
    (hid : ∀ m ∈ live_nodes ofs, m.node ≠ ofs.next_node_id % 2 ^ 32)
    (hroom : ofs.next_block_id + 1 ≤ ofs.last_block_id) (hL : ofs.last_block_id < 2 ^ 32)
    (hsz : ∀ dev, ofs.io = some dev → SIZEOF_TAG + SIZEOF_NODE ≤ dev.block_size) :
    ∃ ofs1, oncefs_set_link ofs src target now = some (0, ofs1) ∧ engine_wf ofs1 ∧
      (∀ m, m ∈ live_nodes ofs1 ↔
        (m = { node := ofs.next_node_id % 2 ^ 32, parent := parent.node,
               type := NODE_TYPE_LINK, last_access := now.1, last_modification := now.2,
               mode := 0, name := basename src } ∨
         m = { node := ofs.next_node_id % 2 ^ 32, parent := ofs.next_node_id % 2 ^ 32,
               type := NODE_TYPE_LINK_PAYLOAD, last_access := 0, last_modification := 0,
               mode := 0, name := target } ∨
         m ∈ live_nodes ofs)) ∧
      (∀ m, m ∈ primary_nodes ofs1 ↔
        (m = { node := ofs.next_node_id % 2 ^ 32, parent := parent.node,
               type := NODE_TYPE_LINK, last_access := now.1, last_modification := now.2,
               mode := 0, name := basename src } ∨
         m = { node := ofs.next_node_id % 2 ^ 32, parent := ofs.next_node_id % 2 ^ 32,
               type := NODE_TYPE_LINK_PAYLOAD, last_access := 0, last_modification := 0,
               mode := 0, name := target } ∨
         m ∈ primary_nodes ofs)) ∧
      _oncefs_resolve_node ofs1 src
        = some (0, { node := ofs.next_node_id % 2 ^ 32, parent := parent.node,
                     type := NODE_TYPE_LINK, last_access := now.1,
                     last_modification := now.2, mode := 0, name := basename src }) ∧
      oncefs_get_link ofs1 src
        = some (0, { node := ofs.next_node_id % 2 ^ 32, parent := ofs.next_node_id % 2 ^ 32,
                     type := NODE_TYPE_LINK_PAYLOAD, last_access := 0, last_modification := 0,
                     mode := 0, name := target }) := by
  obtain ⟨ofs1, hset, hwf1, htime, hnodes⟩ :=
    set_link_fresh ofs src target now parent hwf h hpar htarget hroom hL hsz
  have hidp : ∀ m ∈ primary_nodes ofs, m.node ≠ ofs.next_node_id % 2 ^ 32 :=
    fun m hm => hid m ((live_nodes_perm ofs hwf.2.1).mem_iff.mpr hm)
  have hlive : ∀ m, m ∈ live_nodes ofs1 ↔
      (m = { node := ofs.next_node_id % 2 ^ 32, parent := parent.node,
             type := NODE_TYPE_LINK, last_access := now.1, last_modification := now.2,
             mode := 0, name := basename src } ∨
       m = { node := ofs.next_node_id % 2 ^ 32, parent := ofs.next_node_id % 2 ^ 32,
             type := NODE_TYPE_LINK_PAYLOAD, last_access := 0, last_modification := 0,
             mode := 0, name := target } ∨
       m ∈ live_nodes ofs) := fun m => by
    show m ∈ index_rows ofs1.nodes.rows (table_index ofs1.nodes 1) ↔ _
    rw [hnodes]
    exact nodes_insert_two_mem ofs
      { node := ofs.next_node_id % 2 ^ 32, parent := parent.node,
        type := NODE_TYPE_LINK, last_access := now.1, last_modification := now.2,
        mode := 0, name := basename src }
      { node := ofs.next_node_id % 2 ^ 32, parent := ofs.next_node_id % 2 ^ 32,
        type := NODE_TYPE_LINK_PAYLOAD, last_access := 0, last_modification := 0,
        mode := 0, name := target }
      hwf 1 (by omega) rfl
      (by show NODE_TYPE_LINK ≠ NODE_TYPE_LINK_PAYLOAD; decide) hid m
  have hprim : ∀ m, m ∈ primary_nodes ofs1 ↔
      (m = { node := ofs.next_node_id % 2 ^ 32, parent := parent.node,
             type := NODE_TYPE_LINK, last_access := now.1, last_modification := now.2,
             mode := 0, name := basename src } ∨
       m = { node := ofs.next_node_id % 2 ^ 32, parent := ofs.next_node_id % 2 ^ 32,
             type := NODE_TYPE_LINK_PAYLOAD, last_access := 0, last_modification := 0,
             mode := 0, name := target } ∨
       m ∈ primary_nodes ofs) := fun m => by
    show m ∈ index_rows ofs1.nodes.rows (table_index ofs1.nodes 0) ↔ _
    rw [hnodes]
    exact nodes_insert_two_mem ofs
      { node := ofs.next_node_id % 2 ^ 32, parent := parent.node,
        type := NODE_TYPE_LINK, last_access := now.1, last_modification := now.2,
        mode := 0, name := basename src }
      { node := ofs.next_node_id % 2 ^ 32, parent := ofs.next_node_id % 2 ^ 32,
        type := NODE_TYPE_LINK_PAYLOAD, last_access := 0, last_modification := 0,
        mode := 0, name := target }
      hwf 0 (by omega) rfl
      (by show NODE_TYPE_LINK ≠ NODE_TYPE_LINK_PAYLOAD; decide) hidp m
  obtain ⟨htok, hroot⟩ := path_tokens_dirname src hsplit
  have hwalk0 := walk_of_resolve ofs (dirname src) parent hpar
  have hpdir : parent.type = NODE_TYPE_DIR := by
    have := h.2.1
    rw [hpar] at this
    simpa using this
  have hlen : (basename src).length ≤ ONCEFS_NAME_MAX_SIZE := by
    have := h.2.2
    omega
  have hfail : (lookup_segment ofs parent.node (basename src)).1 ≠ 0 := by
    intro hz
    have h1 := h.1
    rw [resolve_at ofs src _ (basename src) [] parent hroot htok hwalk0,
      resolve_loop_found ofs (basename src) [] parent _ hpdir hlen hz] at h1
    have h2 : (0 : Int) = -ENOENT := Option.some.inj h1
    exact absurd h2 (by decide)
  have hroot1 : root_node ofs1 = root_node ofs := by
    unfold root_node; rw [htime]
  obtain ⟨hwalk1, hpne⟩ := walk_after_insert ofs ofs1 _ _ hwf.2.1 hwf1.2.1 hu hlive hfail hid
    (path_tokens (dirname src)) (root_node ofs) parent (fun e => hid0 e.symm) hwalk0
  obtain ⟨hs1, hs2⟩ := lookup_segment_spec ofs1 hwf1.2.1 parent.node (basename src)
  have hrc1 : (lookup_segment ofs1 parent.node (basename src)).1 = 0 :=
    hs1.mpr ⟨_, (hlive _).mpr (Or.inl rfl), rfl, rfl⟩
  obtain ⟨hy, hyp, hyn⟩ := hs2 hrc1
  have hrow : (lookup_segment ofs1 parent.node (basename src)).2
      = { node := ofs.next_node_id % 2 ^ 32, parent := parent.node,
          type := NODE_TYPE_LINK, last_access := now.1, last_modification := now.2,
          mode := 0, name := basename src } := by
    rcases (hlive _).mp hy with e | e | e
    · exact e
    · rw [e] at hyp
      exact absurd hyp.symm hpne
    · exact absurd ((lookup_segment_spec ofs hwf.2.1 parent.node (basename src)).1.mpr
        ⟨_, e, hyp, hyn⟩) hfail
  have hres : _oncefs_resolve_node ofs1 src
      = some (0, { node := ofs.next_node_id % 2 ^ 32, parent := parent.node,
                   type := NODE_TYPE_LINK, last_access := now.1,
                   last_modification := now.2, mode := 0, name := basename src }) := by
    rw [← hroot1] at hwalk1
    rw [resolve_at ofs1 src _ (basename src) [] parent hroot htok hwalk1,
      resolve_loop_found ofs1 (basename src) [] parent _ hpdir hlen hrc1, hrow]
    rfl
  refine ⟨ofs1, hset, hwf1, hlive, hprim, hres, ?_⟩
  obtain ⟨hnl, hnc, -, -⟩ := nodes_wf_indexes ofs1 hwf1.2.1
  have e0 : (table_index ofs1.nodes TABLE_INDEX_PRIMARY).comparator
      = _oncefs_node_cmp_primary := hnc
  have e1 : TABLE_INDEX_PRIMARY = 0 := rfl
  have hiff := table_query_first_iff ofs1.nodes
    { node := ofs.next_node_id % 2 ^ 32, parent := ofs.next_node_id % 2 ^ 32,
      type := NODE_TYPE_LINK_PAYLOAD, last_access := 0, last_modification := 0, mode := 0,
      name := [] } 0 _oncefs_node_cmp_primary _oncefs_node_cmp_primary
    (primary_nodes_sorted ofs1 hwf1.2.1) (filter_mono_self _ node_cmp_primary_order _)
  have hq : (table_query_first ofs1.nodes
      { node := ofs.next_node_id % 2 ^ 32, parent := ofs.next_node_id % 2 ^ 32,
        type := NODE_TYPE_LINK_PAYLOAD, last_access := 0, last_modification := 0, mode := 0,
        name := [] } 0 (some _oncefs_node_cmp_primary)).1 = 0 :=
    hiff.mpr ⟨_, (hprim _).mpr (Or.inr (Or.inl rfl)),
      (node_primary_eq_zero _ _).mpr ⟨rfl, rfl⟩⟩
  obtain ⟨hqm, hqz⟩ := (table_query_first_sound ofs1.nodes
    { node := ofs.next_node_id % 2 ^ 32, parent := ofs.next_node_id % 2 ^ 32,
      type := NODE_TYPE_LINK_PAYLOAD, last_access := 0, last_modification := 0, mode := 0,
      name := [] } 0 _oncefs_node_cmp_primary).2 hq
  have hqk := (node_primary_eq_zero _ _).mp hqz
  dsimp only at hqk
  have hqrow : (table_query_first ofs1.nodes
      { node := ofs.next_node_id % 2 ^ 32, parent := ofs.next_node_id % 2 ^ 32,
        type := NODE_TYPE_LINK_PAYLOAD, last_access := 0, last_modification := 0, mode := 0,
        name := [] } 0 (some _oncefs_node_cmp_primary)).2
      = { node := ofs.next_node_id % 2 ^ 32, parent := ofs.next_node_id % 2 ^ 32,
          type := NODE_TYPE_LINK_PAYLOAD, last_access := 0, last_modification := 0,
          mode := 0, name := target } := by
    rcases (hprim _).mp hqm with e | e | e
    · rw [e] at hqk
      exact absurd hqk.2 (by show ¬ (NODE_TYPE_LINK = NODE_TYPE_LINK_PAYLOAD); decide)
    · exact e
    · exact absurd hqk.1 (hidp _ e)
  unfold oncefs_get_link
  rw [hres]
  dsimp only
  rw [if_neg (by simp), if_neg (by simp), table_query_first_none, e0, e1,
    if_neg (by rw [hq]; simp), hqrow]

/-- Counterexample to C17: on a container whose one usable block holds the
file `/foo`, the path `/l` does not exist, its parent `/` is a DIR and the
target `/foo` has four bytes, but `set_link("/l", "/foo")` returns
`-ENOSPC`. -/
theorem c17_counterexample :
    ∃ ofs, state_after 512 2 c18_setup = some ofs ∧ fresh_path ofs "/l".toList ∧
      "/foo".toList.length ≤ ONCEFS_NAME_MAX_SIZE ∧
      (oncefs_set_link ofs "/l".toList "/foo".toList (12, 12)).map (fun r => r.1)
        = some (-ENOSPC) :=
  ⟨(state_after 512 2 c18_setup).get (by decide), by simp, by decide, by decide, by decide⟩

/-- C17 (amended): on a well-formed engine in which no two live nodes share
a parent and a name, with two unused blocks at the tail of a container of
fewer than `2^32` blocks whose blocks hold a node record, and a next node id
that is neither `0` nor the id of a live node: for a path `src` that does not
exist yet, has a `/` before its last component, a last component shorter
than 256 bytes and a directory part that resolves to the DIR `parent`, and a
target of at most 256 bytes, `set_link(src, target)` returns OK; both indexes
of the nodes table then hold the LINK row, the LINK_PAYLOAD row whose node
and parent are the node id of the link and whose name is the target, and the
rows they held; and `get_link(src)` returns OK with the LINK_PAYLOAD row.
On any engine, `get_link` on a path that resolves to a node that is not a
LINK returns INVALID. -/
theorem c17_link_round_trip (ofs : oncefs_t) (src target : List Char) (now : Nat × Nat)
    (parent : oncefs_node_t) (hwf : engine_wf ofs) (hu : unique_names ofs)
    (h : fresh_path ofs src)
    (hpar : _oncefs_resolve_node ofs (dirname src) = some (0, parent))
    (hsplit : '/' ∈ strip_slashes src)
    (htarget : target.length ≤ ONCEFS_NAME_MAX_SIZE)
    (hid0 : ofs.next_node_id % 2 ^ 32 ≠ 0)
    (hid : ∀ m ∈ live_nodes ofs, m.node ≠ ofs.next_node_id % 2 ^ 32)
    (hroom : ofs.next_block_id + 1 ≤ ofs.last_block_id) (hL : ofs.last_block_id < 2 ^ 32)
    (hsz : ∀ dev, ofs.io = some dev → SIZEOF_TAG + SIZEOF_NODE ≤ dev.block_size) :
    (∃ ofs1, oncefs_set_link ofs src target now = some (0, ofs1) ∧
      (∀ m, m ∈ live_nodes ofs1 ↔
        (m = { node := ofs.next_node_id % 2 ^ 32, parent := parent.node,
               type := NODE_TYPE_LINK, last_access := now.1, last_modification := now.2,
               mode := 0, name := basename src } ∨
         m = { node := ofs.next_node_id % 2 ^ 32, parent := ofs.next_node_id % 2 ^ 32,
               type := NODE_TYPE_LINK_PAYLOAD, last_access := 0, last_modification := 0,
               mode := 0, name := target } ∨
         m ∈ live_nodes ofs)) ∧
      (∀ m, m ∈ primary_nodes ofs1 ↔
        (m = { node := ofs.next_node_id % 2 ^ 32, parent := parent.node,
               type := NODE_TYPE_LINK, last_access := now.1, last_modification := now.2,
               mode := 0, name := basename src } ∨
         m = { node := ofs.next_node_id % 2 ^ 32, parent := ofs.next_node_id % 2 ^ 32,
               type := NODE_TYPE_LINK_PAYLOAD, last_access := 0, last_modification := 0,
               mode := 0, name := target } ∨
         m ∈ primary_nodes ofs)) ∧
      oncefs_get_link ofs1 src
        = some (0, { node := ofs.next_node_id % 2 ^ 32, parent := ofs.next_node_id % 2 ^ 32,
                     type := NODE_TYPE_LINK_PAYLOAD, last_access := 0, last_modification := 0,
                     mode := 0, name := target })) ∧
    (∀ (s : oncefs_t) (path : List Char) (node : oncefs_node_t),
      _oncefs_resolve_node s path = some (0, node) → node.type ≠ NODE_TYPE_LINK →
      oncefs_get_link s path = some (-EINVAL, node)) := by
  obtain ⟨ofs1, hset, -, hlive, hprim, -, hget⟩ :=
    set_link_spec ofs src target now parent hwf hu h hpar hsplit htarget hid0 hid hroom hL hsz
  refine ⟨⟨ofs1, hset, hlive, hprim, hget⟩, ?_⟩
  intro s path node hres hty
  unfold oncefs_get_link
  rw [hres]
  dsimp only
  rw [if_neg (by simp), if_pos hty]

/-- Witness for C17 (amended): on a container of eight blocks with the file
`/foo`, `set_link("/l", "/foo")` adds the LINK row and the LINK_PAYLOAD row
of node `2`, and `get_link("/l")` returns the LINK_PAYLOAD row, whose name
is `/foo`. -/
theorem c17_link_round_trip_witness :
    (∃ ofs1, oncefs_set_link (engine_after 512 8 c18_setup) "/l".toList "/foo".toList (12, 12)
        = some (0, ofs1) ∧
      (∀ m, m ∈ live_nodes ofs1 ↔
        (m = { node := (engine_after 512 8 c18_setup).next_node_id % 2 ^ 32,
               parent := (root_node (engine_after 512 8 c18_setup)).node,
               type := NODE_TYPE_LINK, last_access := 12, last_modification := 12,
               mode := 0, name := basename "/l".toList } ∨
         m = { node := (engine_after 512 8 c18_setup).next_node_id % 2 ^ 32,
               parent := (engine_after 512 8 c18_setup).next_node_id % 2 ^ 32,
               type := NODE_TYPE_LINK_PAYLOAD, last_access := 0, last_modification := 0,
               mode := 0, name := "/foo".toList } ∨
         m ∈ live_nodes (engine_after 512 8 c18_setup))) ∧
      (∀ m, m ∈ primary_nodes ofs1 ↔
        (m = { node := (engine_after 512 8 c18_setup).next_node_id % 2 ^ 32,
               parent := (root_node (engine_after 512 8 c18_setup)).node,
               type := NODE_TYPE_LINK, last_access := 12, last_modification := 12,
               mode := 0, name := basename "/l".toList } ∨
         m = { node := (engine_after 512 8 c18_setup).next_node_id % 2 ^ 32,
               parent := (engine_after 512 8 c18_setup).next_node_id % 2 ^ 32,
               type := NODE_TYPE_LINK_PAYLOAD, last_access := 0, last_modification := 0,
               mode := 0, name := "/foo".toList } ∨
         m ∈ primary_nodes (engine_after 512 8 c18_setup))) ∧
      oncefs_get_link ofs1 "/l".toList
        = some (0, { node := (engine_after 512 8 c18_setup).next_node_id % 2 ^ 32,
                     parent := (engine_after 512 8 c18_setup).next_node_id % 2 ^ 32,
                     type := NODE_TYPE_LINK_PAYLOAD, last_access := 0, last_modification := 0,
                     mode := 0, name := "/foo".toList })) ∧
    (∀ (s : oncefs_t) (path : List Char) (node : oncefs_node_t),
      _oncefs_resolve_node s path = some (0, node) → node.type ≠ NODE_TYPE_LINK →
      oncefs_get_link s path = some (-EINVAL, node)) :=
  c17_link_round_trip (engine_after 512 8 c18_setup) "/l".toList "/foo".toList (12, 12)
    (root_node (engine_after 512 8 c18_setup))
    (reachable_engine_wf _ (engine_after_reachable 512 8 _ (by decide) (by decide)))
    (by decide) (by decide) (by rfl) (by decide) (by decide) (by decide) (by decide)
    (by decide) (by decide)
    (fun dev h => by
      rw [((reachable_engine_wf _
        (engine_after_reachable 512 8 c18_setup (by decide) (by decide))).2.2.2 dev h).2]
      decide)

/-- The first row of the lookup index with the `(parent, name)` of a key, on
a well-formed nodes table: found exactly when a live node has them, and then
the row returned is such a live node. -/
theorem node_lookup_spec (ofs : oncefs_t) (h : nodes_wf ofs) (key : oncefs_node_t) :
    ((table_query_first ofs.nodes key TABLE_INDEX_LOOKUP none).1 = 0 ↔
      ∃ n ∈ live_nodes ofs, n.parent = key.parent ∧ n.name = key.name) ∧
    ((table_query_first ofs.nodes key TABLE_INDEX_LOOKUP none).1 = 0 →
      (table_query_first ofs.nodes key TABLE_INDEX_LOOKUP none).2 ∈ live_nodes ofs ∧
      (table_query_first ofs.nodes key TABLE_INDEX_LOOKUP none).2.parent = key.parent ∧
      (table_query_first ofs.nodes key TABLE_INDEX_LOOKUP none).2.name = key.name) := by
  obtain ⟨hl, -, hc, -⟩ := nodes_wf_indexes ofs h
  have hc1 : (table_index ofs.nodes TABLE_INDEX_LOOKUP).comparator = _oncefs_node_cmp_lookup := hc
  rw [table_query_first_none, hc1]
  constructor
  · rw [table_query_first_iff ofs.nodes _ TABLE_INDEX_LOOKUP _oncefs_node_cmp_lookup
      _oncefs_node_cmp_lookup (live_nodes_sorted ofs h)
      (filter_mono_self _ node_cmp_lookup_order _)]
    constructor
    · rintro ⟨b, hb, hz⟩
      exact ⟨b, hb, (node_lookup_eq_zero _ _).mp hz⟩
    · rintro ⟨b, hb, hz⟩
      exact ⟨b, hb, (node_lookup_eq_zero _ _).mpr hz⟩
  · intro h0
    obtain ⟨hm, hz⟩ := (table_query_first_sound ofs.nodes _ TABLE_INDEX_LOOKUP
      _oncefs_node_cmp_lookup).2 h0
    exact ⟨hm, (node_lookup_eq_zero _ _).mp hz⟩

/-- The lookup of a segment stays as it is between two well-formed engines
when the row it found is live in the second and every live row of the second
with the parent and the name is live in the first, where names are unique. -/
theorem lookup_stable (ofs ofs1 : oncefs_t) (hwf : nodes_wf ofs) (hwf1 : nodes_wf ofs1)
    (hu : unique_names ofs) (parent : Nat) (name : List Char)
    (h0 : (lookup_segment ofs parent name).1 = 0)
    (hkeep : (lookup_segment ofs parent name).2 ∈ live_nodes ofs1)
    (hnew : ∀ m ∈ live_nodes ofs1, m.parent = parent → m.name = name → m ∈ live_nodes ofs) :
    lookup_segment ofs1 parent name = lookup_segment ofs parent name := by
  obtain ⟨hx, hxp, hxn⟩ := (lookup_segment_spec ofs hwf parent name).2 h0
  obtain ⟨h1, h2⟩ := lookup_segment_spec ofs1 hwf1 parent name
  have hrc : (lookup_segment ofs1 parent name).1 = 0 := h1.mpr ⟨_, hkeep, hxp, hxn⟩
  obtain ⟨hy, hyp, hyn⟩ := h2 hrc
  exact Prod.ext (hrc.trans h0.symm)
    (unique_names_eq ofs hu _ _ (hnew _ hy hyp hyn) hx (hyp.trans hxp.symm) (hyn.trans hxn.symm))

/-- A walk stays as it is between two well-formed engines when the rows it
finds are live in the second and every live row of the second with the
parent and the name of one of them is live in the first, where names are
unique. -/
theorem walk_stable (ofs ofs1 : oncefs_t) (hwf : nodes_wf ofs) (hwf1 : nodes_wf ofs1)
    (hu : unique_names ofs) :
    ∀ (D : List (List Char)) (prev r : oncefs_node_t),
      walk_segments ofs D prev = some r →
      (∀ x ∈ walk_rows ofs D prev, x ∈ live_nodes ofs1) →
      (∀ x ∈ walk_rows ofs D prev, ∀ m ∈ live_nodes ofs1,
        m.parent = x.parent → m.name = x.name → m ∈ live_nodes ofs) →
      walk_segments ofs1 D prev = some r := by
  intro D
  induction D with
  | nil => intro prev r h _ _; exact h
  | cons seg D ih =>
    intro prev r h hkeep hnew
    unfold walk_segments at h ⊢
    unfold walk_rows at hkeep hnew
    by_cases hc : prev.type = NODE_TYPE_DIR ∧ seg.length ≤ ONCEFS_NAME_MAX_SIZE ∧
        (lookup_segment ofs prev.node seg).1 = 0
    · rw [if_pos hc] at h hkeep hnew
      obtain ⟨hx, hxp, hxn⟩ := (lookup_segment_spec ofs hwf prev.node seg).2 hc.2.2
      have hlk := lookup_stable ofs ofs1 hwf hwf1 hu prev.node seg hc.2.2
        (hkeep _ (List.mem_cons_self _ _))
        (fun m hm hp hn => hnew _ (List.mem_cons_self _ _) m hm (hp.trans hxp.symm)
          (hn.trans hxn.symm))
      rw [hlk, if_pos hc]
      exact ih _ r h (fun x hx1 => hkeep x (List.mem_cons_of_mem _ hx1))
        (fun x hx1 => hnew x (List.mem_cons_of_mem _ hx1))
    · rw [if_neg hc] at h
      cases h

/-- The rows a walk finds are live, and each of them is the node the walk
ends in or the parent of a live node. -/
theorem walk_rows_child (ofs : oncefs_t) (hwf : nodes_wf ofs) :
    ∀ (D : List (List Char)) (prev r : oncefs_node_t),
      walk_segments ofs D prev = some r →
      ∀ x ∈ walk_rows ofs D prev, x ∈ live_nodes ofs ∧
        (x = r ∨ ∃ m ∈ live_nodes ofs, m.parent = x.node) := by
  intro D
  induction D with
  | nil =>
    intro prev r _ x hx
    unfold walk_rows at hx
    cases hx
  | cons seg D ih =>
    intro prev r h x hx
    unfold walk_segments at h
    unfold walk_rows at hx
    by_cases hc : prev.type = NODE_TYPE_DIR ∧ seg.length ≤ ONCEFS_NAME_MAX_SIZE ∧
        (lookup_segment ofs prev.node seg).1 = 0
    · rw [if_pos hc] at h hx
      obtain ⟨hx0, -, -⟩ := (lookup_segment_spec ofs hwf prev.node seg).2 hc.2.2
      rcases List.mem_cons.mp hx with e | e
      · refine ⟨by rw [e]; exact hx0, ?_⟩
        cases D with
        | nil =>
          left
          rw [e]
          exact Option.some.inj h
        | cons seg2 D2 =>
          right
          unfold walk_segments at h
          by_cases hc2 : (lookup_segment ofs prev.node seg).2.type = NODE_TYPE_DIR ∧
              seg2.length ≤ ONCEFS_NAME_MAX_SIZE ∧
              (lookup_segment ofs (lookup_segment ofs prev.node seg).2.node seg2).1 = 0
          · obtain ⟨hm, hmp, -⟩ := (lookup_segment_spec ofs hwf _ seg2).2 hc2.2.2
            exact ⟨_, hm, by rw [hmp, e]⟩
          · rw [if_neg hc2] at h
            cases h
      · exact ih _ r h x e
    · rw [if_neg hc] at hx
      cases hx

/-- `_oncefs_move_node` with a row whose `(parent, name)` no live node has:
the row is inserted or replaced. -/
theorem move_helper_absent (x : oncefs_t) (row : oncefs_node_t) (hwf : nodes_wf x)
    (habs : ∀ n ∈ live_nodes x, ¬ (n.parent = row.parent ∧ n.name = row.name)) :
    _oncefs_move_node x row = (0, { x with nodes := (table_insert_or_replace x.nodes row).2 }) := by
  have hne : ¬ (table_query_first x.nodes row TABLE_INDEX_LOOKUP none).1 = 0 := by
    intro h0
    obtain ⟨n, hn, hp⟩ := (node_lookup_spec x hwf row).1.mp h0
    exact habs n hn hp
  unfold _oncefs_move_node
  dsimp only
  rw [if_neg hne]
  exact Prod.ext (table_insert_or_replace_rc _ _) rfl

/-- `_oncefs_move_node` with a row whose `(parent, name)` a live FILE has,
where names are unique: EXISTS, and nothing changes. -/
theorem move_helper_file (x : oncefs_t) (row f : oncefs_node_t) (hwf : nodes_wf x)
    (hu : unique_names x) (hf : f ∈ live_nodes x) (hp : f.parent = row.parent)
    (hn : f.name = row.name) (hty : f.type = NODE_TYPE_FILE) :
    _oncefs_move_node x row = (-EEXIST, x) := by
  obtain ⟨h1, h2⟩ := node_lookup_spec x hwf row
  have h0 : (table_query_first x.nodes row TABLE_INDEX_LOOKUP none).1 = 0 :=
    h1.mpr ⟨f, hf, hp, hn⟩
  obtain ⟨hy, hyp, hyn⟩ := h2 h0
  have e := unique_names_eq x hu _ _ hy hf (hyp.trans hp.symm) (hyn.trans hn.symm)
  unfold _oncefs_move_node
  dsimp only
  rw [if_pos h0, e, if_pos hty]

/-- One node record written on a well-formed engine with an unused block at
the tail: OK; the nodes table and the time stay, and so do the live
blocks. -/
theorem write_node_block_once (x : oncefs_t) (operation : Int) (a : oncefs_node_t)
    (hwf : engine_wf x)
    (hroom : x.next_block_id ≤ x.last_block_id) (hL : x.last_block_id < 2 ^ 32)
    (hsz : ∀ dev, x.io = some dev → SIZEOF_TAG + SIZEOF_NODE ≤ dev.block_size) :
    ∃ ofs1, write_node_block x operation a = (0, ofs1) ∧
      engine_wf ofs1 ∧ ofs1.time = x.time ∧ ofs1.nodes = x.nodes ∧
      (∀ b ∈ live_blocks x, b ∈ live_blocks ofs1) := by
  obtain ⟨c1, c2, c3, c4, c5⟩ := write_node_block_counters x operation a (by omega) (by omega)
  have hok1 := write_node_block_ok x operation a hwf c5 hsz
  have hwf1 : engine_wf (write_node_block x operation a).2 :=
    write_node_block_closed _ engine_wf_step_closed x operation a hwf
  refine ⟨_, Prod.ext hok1 rfl, hwf1, c4, c3, ?_⟩
  intro b hb
  have hlive := create_block_live x operation a.node 0 0 hwf.1 c5 b
  have hfresh := create_block_fresh x operation a.node 0 0 hroom (by omega)
  obtain ⟨-, hwb, -⟩ := write_node_block_tables x operation a
  show b ∈ index_rows (write_node_block x operation a).2.blocks.rows
    (table_index (write_node_block x operation a).2.blocks 1)
  rw [hwb]
  refine hlive.mpr (Or.inr ⟨hb, ?_⟩)
  rw [hfresh]
  dsimp only
  have := hwf.2.2.1.2 b (live_blocks_subset x hwf.1 b hb)
  omega

/-- `oncefs_move_node` to a place no live node has, on a well-formed engine
with an unused block at the tail: OK, and the row of the node is replaced by
the row with the new parent and name. -/
theorem move_node_absent_rows (ofs : oncefs_t) (src dst : List Char)
    (node parent : oncefs_node_t) (hwf : engine_wf ofs)
    (hres : _oncefs_resolve_node ofs src = some (0, node)) (hroot : src ≠ ['/'])
    (hpar : _oncefs_resolve_node ofs (dirname dst) = some (0, parent))
    (hpdir : parent.type = NODE_TYPE_DIR)
    (hbase : (basename dst).length < ONCEFS_NAME_MAX_SIZE)
    (habs : ∀ n ∈ live_nodes ofs, ¬ (n.parent = parent.node ∧ n.name = basename dst))
    (hroom : ofs.next_block_id ≤ ofs.last_block_id) (hL : ofs.last_block_id < 2 ^ 32)
    (hsz : ∀ dev, ofs.io = some dev → SIZEOF_TAG + SIZEOF_NODE ≤ dev.block_size) :
    ∃ ofs1, oncefs_move_node ofs src dst = some (0, ofs1) ∧ engine_wf ofs1 ∧
      ofs1.time = ofs.time ∧
      ofs1.nodes = (table_insert_or_replace ofs.nodes
        { node with parent := parent.node, name := basename dst }).2 ∧
      (∀ b ∈ live_blocks ofs, b ∈ live_blocks ofs1) := by
  have hn : strncpy (basename dst) ONCEFS_NAME_MAX_SIZE = basename dst := by
    unfold strncpy
    exact List.take_of_length_le (by omega)
  have hmv := move_helper_absent ofs { node with parent := parent.node, name := basename dst }
    hwf.2.1 habs
  have hwf1 : engine_wf { ofs with nodes := (table_insert_or_replace ofs.nodes
      { node with parent := parent.node, name := basename dst }).2 } :=
    engine_wf_step_closed.nodes_insert ofs _ hwf
  obtain ⟨ofs1, hw, hwf2, htime, hnodes, hblocks⟩ := write_node_block_once _
    BLOCK_OPERATION_MOVE { node with parent := parent.node, name := basename dst } hwf1
    hroom hL hsz
  refine ⟨ofs1, ?_, hwf2, htime, hnodes, hblocks⟩
  unfold oncefs_move_node
  rw [hres]
  dsimp only
  rw [if_neg (by simp), hpar]
  dsimp only
  rw [if_neg (by simp), if_neg (by rw [hpdir]; simp), if_neg (by omega), if_neg hroot, hn, hmv]
  dsimp only
  rw [if_neg (by decide), if_neg (by simp), hw]

/-- A successful `oncefs_del_node` on a well-formed engine with an unused
block at the tail takes that block. -/
theorem del_node_counters (ofs : oncefs_t) (path : List Char) (node : oncefs_node_t)
    (hwf : engine_wf ofs) (hres : _oncefs_resolve_node ofs path = some (0, node))
    (hcheck : node.type = NODE_TYPE_DIR → ∀ n ∈ live_nodes ofs, n.parent ≠ node.node)
    (hroom : ofs.next_block_id ≤ ofs.last_block_id) (hL : ofs.last_block_id < 2 ^ 32)
    (hsz : ∀ dev, ofs.io = some dev → SIZEOF_TAG + SIZEOF_NODE ≤ dev.block_size)
    (ofs1 : oncefs_t) (hdel : oncefs_del_node ofs path = some (0, ofs1)) :
    ofs1.next_block_id = ofs.next_block_id + 1 ∧ ofs1.last_block_id = ofs.last_block_id := by
  obtain ⟨hbl, -, -, -⟩ := blocks_wf_indexes ofs hwf.1
  have h := del_node_ok_of_reusable ofs path node hwf hres hcheck (Or.inl hroom) hsz
  rw [h] at hdel
  have e : (write_node_block (_oncefs_del_node ofs node 1).2 BLOCK_OPERATION_DELETE node).2
      = ofs1 := (Prod.mk.inj (Option.some.inj hdel)).2
  have hframe := (del_node_frame ofs node 1 (by omega)).2
  have hnb : (_oncefs_del_node ofs node 1).2.next_block_id = ofs.next_block_id := by
    rw [hframe]
  have hlb : (_oncefs_del_node ofs node 1).2.last_block_id = ofs.last_block_id := by
    rw [hframe]
  obtain ⟨c1, c2, -, -, -⟩ := write_node_block_counters (_oncefs_del_node ofs node 1).2
    BLOCK_OPERATION_DELETE node (by rw [hnb, hlb]; exact hroom) (by rw [hnb]; omega)
  rw [← e, c1, c2, hnb, hlb]
  exact ⟨rfl, rfl⟩

/-- `oncefs_move_node` onto a live FILE without rows below it, on a
well-formed engine with unique names and two unused blocks at the tail: the
FILE is deleted, then the row of the node is replaced by the row with the new
parent and name; the records of the FILE are FREE afterwards. -/
theorem move_node_file_rows (ofs : oncefs_t) (src dst : List Char)
    (node parent f : oncefs_node_t) (hwf : engine_wf ofs) (hu : unique_names ofs)
    (hres : _oncefs_resolve_node ofs src = some (0, node)) (hroot : src ≠ ['/'])
    (hpar : _oncefs_resolve_node ofs (dirname dst) = some (0, parent))
    (hpdir : parent.type = NODE_TYPE_DIR)
    (hbase : (basename dst).length < ONCEFS_NAME_MAX_SIZE)
    (hdst : _oncefs_resolve_node ofs dst = some (0, f)) (hf : f ∈ live_nodes ofs)
    (hfp : f.parent = parent.node) (hfn : f.name = basename dst)
    (hfty : f.type = NODE_TYPE_FILE)
    (hroom : ofs.next_block_id + 1 ≤ ofs.last_block_id) (hL : ofs.last_block_id < 2 ^ 32)
    (hsz : ∀ dev, ofs.io = some dev → SIZEOF_TAG + SIZEOF_NODE ≤ dev.block_size) :
    ∃ ofsd ofs1, oncefs_move_node ofs src dst = some (0, ofs1) ∧ engine_wf ofs1 ∧
      ofs1.time = ofs.time ∧ engine_wf ofsd ∧
      live_nodes ofsd = (live_nodes ofs).filter (fun m => decide (m.node ≠ f.node)) ∧
      primary_nodes ofsd = (primary_nodes ofs).filter (fun m => decide (m.node ≠ f.node)) ∧
      ofs1.nodes = (table_insert_or_replace ofsd.nodes
        { node with parent := parent.node, name := basename dst }).2 ∧
      (∀ b ∈ live_blocks ofs, free_node f.node b ∈ live_blocks ofs1) := by
  have hn : strncpy (basename dst) ONCEFS_NAME_MAX_SIZE = basename dst := by
    unfold strncpy
    exact List.take_of_length_le (by omega)
  have hcheck : f.type = NODE_TYPE_DIR → ∀ n ∈ live_nodes ofs, n.parent ≠ f.node := by
    intro hd
    rw [hfty] at hd
    exact absurd hd (by decide)
  obtain ⟨ofsd, hdel, hwfd, htimed, hlnd, hpnd, hblocksd, -⟩ :=
    del_node_spec ofs dst f hwf hdst hcheck (by omega) hL hsz
  obtain ⟨hnbd, hlbd⟩ := del_node_counters ofs dst f hwf hdst hcheck (by omega) hL hsz ofsd hdel
  have hszd := (del_node_ok_facts ofs hwf dst ofsd hdel).2
  have hmv := move_helper_file ofs { node with parent := parent.node, name := basename dst } f
    hwf.2.1 hu hf hfp hfn hfty
  have habs : ∀ n ∈ live_nodes ofsd, ¬ (n.parent = parent.node ∧ n.name = basename dst) := by
    intro n hnm hh
    rw [hlnd, List.mem_filter] at hnm
    have e := unique_names_eq ofs hu n f hnm.1 hf (hh.1.trans hfp.symm) (hh.2.trans hfn.symm)
    rw [e] at hnm
    simp at hnm
  have hmv2 := move_helper_absent ofsd { node with parent := parent.node, name := basename dst }
    hwfd.2.1 habs
  have hwf1 : engine_wf { ofsd with nodes := (table_insert_or_replace ofsd.nodes
      { node with parent := parent.node, name := basename dst }).2 } :=
    engine_wf_step_closed.nodes_insert ofsd _ hwfd
  obtain ⟨ofs1, hw, hwf2, htime, hnodes, hblocks⟩ := write_node_block_once _
    BLOCK_OPERATION_MOVE { node with parent := parent.node, name := basename dst } hwf1
    (show ofsd.next_block_id ≤ ofsd.last_block_id by omega)
    (show ofsd.last_block_id < 2 ^ 32 by omega) hszd
  refine ⟨ofsd, ofs1, ?_, hwf2, htime.trans htimed, hwfd, hlnd, hpnd, hnodes, ?_⟩
  · unfold oncefs_move_node
    rw [hres]
    dsimp only
    rw [if_neg (by simp), hpar]
    dsimp only
    rw [if_neg (by simp), if_neg (by rw [hpdir]; simp), if_neg (by omega), if_neg hroot, hn,
      hmv]
    dsimp only
    rw [if_pos rfl, hdel]
    dsimp only
    rw [if_neg (by simp), hmv2]
    dsimp only
    rw [if_neg (by simp), hw]
  · intro b hb
    exact hblocks _ ((hblocksd _).mpr (Or.inr ⟨b, hb, rfl⟩))

/-- Path resolution after the row of `node` has been replaced by the row
with the parent `parent` and the name of `dst`, the live rows being
otherwise those that were live and that `keep` holds for: `dst` resolves to
the new row and `src` to NOT_FOUND, provided the rows at the place of `dst`
are not kept, and the rows on the way to `dst` and to `src`, and `node`, are
kept and are not rows of `node`. -/
theorem move_resolve (ofs ofs1 : oncefs_t) (src dst : List Char) (node parent : oncefs_node_t)
    (keep : oncefs_node_t → Prop) (hwf : nodes_wf ofs) (hwf1 : nodes_wf ofs1)
    (hu : unique_names ofs) (htime : ofs1.time = ofs.time)
    (hres : _oncefs_resolve_node ofs src = some (0, node))
    (hss : '/' ∈ strip_slashes src)
    (hpar : _oncefs_resolve_node ofs (dirname dst) = some (0, parent))
    (hpdir : parent.type = NODE_TYPE_DIR)
    (hds : '/' ∈ strip_slashes dst)
    (hbase : (basename dst).length < ONCEFS_NAME_MAX_SIZE)
    (hmem : ∀ m, m ∈ live_nodes ofs1 ↔
      (m = { node with parent := parent.node, name := basename dst } ∨
        (m ∈ live_nodes ofs ∧ ¬ (m.node = node.node ∧ m.type = node.type) ∧ keep m)))
    (hgone : ∀ m ∈ live_nodes ofs, m.parent = parent.node → m.name = basename dst → ¬ keep m)
    (hkd : ∀ x ∈ walk_rows ofs (path_tokens (dirname dst)) (root_node ofs),
      x.node ≠ node.node ∧ keep x)
    (hks : ∀ x ∈ walk_rows ofs (path_tokens (dirname src)) (root_node ofs),
      x.node ≠ node.node ∧ keep x)
    (hkn : keep node) :
    _oncefs_resolve_node ofs1 dst
      = some (0, { node with parent := parent.node, name := basename dst }) ∧
    (_oncefs_resolve_node ofs1 src).map (fun r => r.1) = some (-ENOENT) := by
  obtain ⟨htoks, hroots⟩ := path_tokens_dirname src hss
  obtain ⟨htokd, hrootd⟩ := path_tokens_dirname dst hds
  have hwalks := walk_of_resolve ofs src node hres
  rw [htoks] at hwalks
  obtain ⟨pd, hpd, hpddir, hlens, hrcs, hnode⟩ :=
    walk_segments_snoc ofs (basename src) _ _ _ hwalks
  obtain ⟨hnlive, hnp, hnn⟩ := (lookup_segment_spec ofs hwf pd.node (basename src)).2 hrcs
  rw [hnode] at hnlive hnp hnn
  have hwalkd := walk_of_resolve ofs (dirname dst) parent hpar
  have hroot1 : root_node ofs1 = root_node ofs := by
    unfold root_node; rw [htime]
  have hlend : (basename dst).length ≤ ONCEFS_NAME_MAX_SIZE := by omega
  have hK : ∀ x ∈ live_nodes ofs, x.node ≠ node.node → keep x →
      x ∈ live_nodes ofs1 ∧
      (∀ m ∈ live_nodes ofs1, m.parent = x.parent → m.name = x.name → m ∈ live_nodes ofs) := by
    intro x hx hne hk
    refine ⟨(hmem x).mpr (Or.inr ⟨hx, fun hh => hne hh.1, hk⟩), ?_⟩
    intro m hm hp hn
    rcases (hmem m).mp hm with e | e
    · rw [e] at hp hn
      exact absurd hk (hgone x hx hp.symm hn.symm)
    · exact e.1
  have hwalkd1 : walk_segments ofs1 (path_tokens (dirname dst)) (root_node ofs1)
      = some parent := by
    rw [hroot1]
    refine walk_stable ofs ofs1 hwf hwf1 hu _ _ _ hwalkd ?_ ?_
    · intro x hx
      exact (hK x (walk_rows_child ofs hwf _ _ _ hwalkd x hx).1 (hkd x hx).1 (hkd x hx).2).1
    · intro x hx
      exact (hK x (walk_rows_child ofs hwf _ _ _ hwalkd x hx).1 (hkd x hx).1 (hkd x hx).2).2
  have hwalks1 : walk_segments ofs1 (path_tokens (dirname src)) (root_node ofs1)
      = some pd := by
    rw [hroot1]
    refine walk_stable ofs ofs1 hwf hwf1 hu _ _ _ hpd ?_ ?_
    · intro x hx
      exact (hK x (walk_rows_child ofs hwf _ _ _ hpd x hx).1 (hks x hx).1 (hks x hx).2).1
    · intro x hx
      exact (hK x (walk_rows_child ofs hwf _ _ _ hpd x hx).1 (hks x hx).1 (hks x hx).2).2
  constructor
  · obtain ⟨hs1, hs2⟩ := lookup_segment_spec ofs1 hwf1 parent.node (basename dst)
    have hrc1 : (lookup_segment ofs1 parent.node (basename dst)).1 = 0 :=
      hs1.mpr ⟨_, (hmem _).mpr (Or.inl rfl), rfl, rfl⟩
    obtain ⟨hy, hyp, hyn⟩ := hs2 hrc1
    have hrow : (lookup_segment ofs1 parent.node (basename dst)).2
        = { node with parent := parent.node, name := basename dst } := by
      rcases (hmem _).mp hy with e | e
      · exact e
      · exact absurd e.2.2 (hgone _ e.1 hyp hyn)
    rw [resolve_at ofs1 dst _ (basename dst) [] parent hrootd htokd hwalkd1,
      resolve_loop_found ofs1 (basename dst) [] parent _ hpdir hlend hrc1, hrow]
    rfl
  · have hrc1 : (lookup_segment ofs1 pd.node (basename src)).1 ≠ 0 := by
      intro hz
      obtain ⟨m, hm, hmp, hmn⟩ := (lookup_segment_spec ofs1 hwf1 pd.node (basename src)).1.mp hz
      rcases (hmem m).mp hm with e | e
      · rw [e] at hmp hmn
        exact hgone node hnlive (hnp.trans hmp.symm) (hnn.trans hmn.symm) hkn
      · have e2 := unique_names_eq ofs hu m node e.1 hnlive (hmp.trans hnp.symm)
          (hmn.trans hnn.symm)
        rw [e2] at e
        exact e.2.1 ⟨rfl, rfl⟩
    rw [resolve_at ofs1 src _ (basename src) [] pd hroots htoks hwalks1,
      resolve_loop_missing ofs1 (basename src) [] pd _ hpddir hlens hrc1]
    rfl

/-- `oncefs_move_node` of the node at `src` to `dst`, a place that is
absent or holds a FILE other than the node and without rows below it, where
neither the way to `dst` nor the way to `src` goes through the node: OK; the
row of the node has the new parent and name, the rows of a FILE at `dst` are
gone and its records FREE, every other row is live as it was; `dst` resolves
to the row of the node and `src` to NOT_FOUND. -/
theorem move_node_spec (ofs : oncefs_t) (src dst : List Char) (node parent : oncefs_node_t)
    (dstr : Int × oncefs_node_t) (hwf : engine_wf ofs) (hu : unique_names ofs)
    (hres : _oncefs_resolve_node ofs src = some (0, node))
    (hss : '/' ∈ strip_slashes src)
    (hpar : _oncefs_resolve_node ofs (dirname dst) = some (0, parent))
    (hpdir : parent.type = NODE_TYPE_DIR)
    (hds : '/' ∈ strip_slashes dst)
    (hbase : (basename dst).length < ONCEFS_NAME_MAX_SIZE)
    (hdst : _oncefs_resolve_node ofs dst = some dstr)
    (hcase : dstr.1 = -ENOENT ∨
      (dstr.1 = 0 ∧ dstr.2.type = NODE_TYPE_FILE ∧ dstr.2.node ≠ node.node ∧
        ∀ m ∈ live_nodes ofs, m.parent ≠ dstr.2.node))
    (hnd : ∀ x ∈ walk_rows ofs (path_tokens (dirname dst)) (root_node ofs), x.node ≠ node.node)
    (hns : ∀ x ∈ walk_rows ofs (path_tokens (dirname src)) (root_node ofs), x.node ≠ node.node)
    (hroom : ofs.next_block_id + 1 ≤ ofs.last_block_id) (hL : ofs.last_block_id < 2 ^ 32)
    (hsz : ∀ dev, ofs.io = some dev → SIZEOF_TAG + SIZEOF_NODE ≤ dev.block_size) :
    ∃ ofs1, oncefs_move_node ofs src dst = some (0, ofs1) ∧ engine_wf ofs1 ∧
      (∀ m, m ∈ live_nodes ofs1 ↔
        (m = { node with parent := parent.node, name := basename dst } ∨
          (m ∈ live_nodes ofs ∧ ¬ (m.node = node.node ∧ m.type = node.type) ∧
            (dstr.1 = 0 → m.node ≠ dstr.2.node)))) ∧
      (∀ m, m ∈ primary_nodes ofs1 ↔
        (m = { node with parent := parent.node, name := basename dst } ∨
          (m ∈ primary_nodes ofs ∧ ¬ (m.node = node.node ∧ m.type = node.type) ∧
            (dstr.1 = 0 → m.node ≠ dstr.2.node)))) ∧
      _oncefs_resolve_node ofs1 dst
        = some (0, { node with parent := parent.node, name := basename dst }) ∧
      (_oncefs_resolve_node ofs1 src).map (fun r => r.1) = some (-ENOENT) ∧
      (∀ b ∈ live_blocks ofs,
        (if dstr.1 = 0 then free_node dstr.2.node b else b) ∈ live_blocks ofs1) := by
  obtain ⟨htoks, hroots⟩ := path_tokens_dirname src hss
  obtain ⟨htokd, hrootd⟩ := path_tokens_dirname dst hds
  have hwalkd := walk_of_resolve ofs (dirname dst) parent hpar
  have hlend : (basename dst).length ≤ ONCEFS_NAME_MAX_SIZE := by omega
  have hwalks := walk_of_resolve ofs src node hres
  rw [htoks] at hwalks
  obtain ⟨pd, hpd, hpddir, hlens, hrcs, hnode⟩ :=
    walk_segments_snoc ofs (basename src) _ _ _ hwalks
  obtain ⟨hnlive, hnp, hnn⟩ := (lookup_segment_spec ofs hwf.2.1 pd.node (basename src)).2 hrcs
  rw [hnode] at hnlive hnp hnn
  rcases hcase with hA | ⟨h0, hfty, hfne, hnochild⟩
  · have hne0 : ¬ dstr.1 = 0 := by rw [hA]; decide
    have habs : ∀ n ∈ live_nodes ofs, ¬ (n.parent = parent.node ∧ n.name = basename dst) := by
      intro n hn hh
      have hz := (lookup_segment_spec ofs hwf.2.1 parent.node (basename dst)).1.mpr
        ⟨n, hn, hh.1, hh.2⟩
      rw [resolve_at ofs dst _ (basename dst) [] parent hrootd htokd hwalkd,
        resolve_loop_found ofs (basename dst) [] parent _ hpdir hlend hz] at hdst
      have e : dstr.1 = 0 := by
        rw [← Option.some.inj hdst]
        rfl
      exact hne0 e
    obtain ⟨ofs1, hmove, hwf1, htime, hnodes, hblocks⟩ :=
      move_node_absent_rows ofs src dst node parent hwf hres hroots hpar hpdir hbase habs
        (by omega) hL hsz
    have hrows : ∀ k, k < 2 → ∀ m,
        m ∈ index_rows ofs1.nodes.rows (table_index ofs1.nodes k) ↔
        (m = { node with parent := parent.node, name := basename dst } ∨
          (m ∈ index_rows ofs.nodes.rows (table_index ofs.nodes k) ∧
            ¬ (m.node = node.node ∧ m.type = node.type) ∧
            (dstr.1 = 0 → m.node ≠ dstr.2.node))) := by
      intro k hk m
      rw [hnodes, nodes_insert_mem _ ofs hwf.2.1 k hk m]
      constructor
      · rintro (e | e)
        · exact Or.inl e
        · exact Or.inr ⟨e.1, e.2, fun h => absurd h hne0⟩
      · rintro (e | e)
        · exact Or.inl e
        · exact Or.inr ⟨e.1, e.2.1⟩
    obtain ⟨hr1, hr2⟩ := move_resolve ofs ofs1 src dst node parent
      (fun m => dstr.1 = 0 → m.node ≠ dstr.2.node) hwf.2.1 hwf1.2.1 hu htime hres hss hpar
      hpdir hds hbase (hrows 1 (by omega))
      (fun m hm hp hn => absurd ⟨hp, hn⟩ (habs m hm))
      (fun x hx => ⟨hnd x hx, fun h => absurd h hne0⟩)
      (fun x hx => ⟨hns x hx, fun h => absurd h hne0⟩)
      (fun h => absurd h hne0)
    refine ⟨ofs1, hmove, hwf1, hrows 1 (by omega), hrows 0 (by omega), hr1, hr2, ?_⟩
    intro b hb
    rw [if_neg hne0]
    exact hblocks b hb
  · have hdst1 : _oncefs_resolve_node ofs dst = some (0, dstr.2) := by
      rw [hdst]
      exact congrArg some (Prod.ext h0 rfl)
    have hwalkf := walk_of_resolve ofs dst dstr.2 hdst1
    rw [htokd] at hwalkf
    obtain ⟨pd1, hpd1, -, -, hrcd, hfrow⟩ := walk_segments_snoc ofs (basename dst) _ _ _ hwalkf
    have epd : pd1 = parent := Option.some.inj (hpd1.symm.trans hwalkd)
    rw [epd] at hrcd hfrow
    obtain ⟨hf, hfp, hfn⟩ := (lookup_segment_spec ofs hwf.2.1 parent.node (basename dst)).2 hrcd
    rw [hfrow] at hf hfp hfn
    obtain ⟨ofsd, ofs1, hmove, hwf1, htime, hwfd, hlnd, hpnd, hnodes, hblocks⟩ :=
      move_node_file_rows ofs src dst node parent dstr.2 hwf hu hres hroots hpar hpdir hbase
        hdst1 hf hfp hfn hfty hroom hL hsz
    have hrows : ∀ k, k < 2 →
        index_rows ofsd.nodes.rows (table_index ofsd.nodes k)
          = (index_rows ofs.nodes.rows (table_index ofs.nodes k)).filter
              (fun m => decide (m.node ≠ dstr.2.node)) →
        ∀ m, m ∈ index_rows ofs1.nodes.rows (table_index ofs1.nodes k) ↔
        (m = { node with parent := parent.node, name := basename dst } ∨
          (m ∈ index_rows ofs.nodes.rows (table_index ofs.nodes k) ∧
            ¬ (m.node = node.node ∧ m.type = node.type) ∧
            (dstr.1 = 0 → m.node ≠ dstr.2.node))) := by
      intro k hk hfil m
      rw [hnodes, nodes_insert_mem _ ofsd hwfd.2.1 k hk m, hfil, List.mem_filter]
      constructor
      · rintro (e | e)
        · exact Or.inl e
        · exact Or.inr ⟨e.1.1, e.2, fun _ => by simpa using e.1.2⟩
      · rintro (e | e)
        · exact Or.inl e
        · exact Or.inr ⟨⟨e.1, by simpa using e.2.2 h0⟩, e.2.1⟩
    have hkeep : ∀ (D : List (List Char)) (r : oncefs_node_t),
        walk_segments ofs D (root_node ofs) = some r →
        (∃ m ∈ live_nodes ofs, m.parent = r.node) →
        ∀ x ∈ walk_rows ofs D (root_node ofs), dstr.1 = 0 → x.node ≠ dstr.2.node := by
      intro D r hw hend x hx _ hxe
      obtain ⟨m0, hm0, hm0p⟩ := hend
      rcases (walk_rows_child ofs hwf.2.1 D _ r hw x hx).2 with e | ⟨m, hm, hmp⟩
      · rw [e] at hxe
        exact hnochild m0 hm0 (hm0p.trans hxe)
      · exact hnochild m hm (hmp.trans hxe)
    obtain ⟨hr1, hr2⟩ := move_resolve ofs ofs1 src dst node parent
      (fun m => dstr.1 = 0 → m.node ≠ dstr.2.node) hwf.2.1 hwf1.2.1 hu htime hres hss hpar
      hpdir hds hbase (hrows 1 (by omega) hlnd)
      (fun m hm hp hn hk => by
        have e := unique_names_eq ofs hu m dstr.2 hm hf (hp.trans hfp.symm) (hn.trans hfn.symm)
        rw [e] at hk
        exact hk h0 rfl)
      (fun x hx => ⟨hnd x hx, hkeep _ parent hwalkd ⟨dstr.2, hf, hfp⟩ x hx⟩)
      (fun x hx => ⟨hns x hx, hkeep _ pd hpd ⟨node, hnlive, hnp⟩ x hx⟩)
      (fun _ => hfne.symm)
    refine ⟨ofs1, hmove, hwf1, hrows 1 (by omega) hlnd, hrows 0 (by omega) hpnd, hr1, hr2, ?_⟩
    intro b hb
    rw [if_pos h0]
    exact hblocks b hb

/-- C10 (amended): on a well-formed engine in which no two live nodes share
a parent and a name, with two unused blocks at the tail of a container of
fewer than `2^32` blocks whose blocks hold a node record: let `src` resolve
to `node` and `dst` have a directory part that resolves to the DIR `parent`
and a last component shorter than 256 bytes, both paths with a `/` before
the last component; let `dst` resolve to NOT_FOUND or to a FILE other than
`node` that no live row has as parent; and let neither the way to `dst` nor
the way to `src` go through a row of `node`.  Then `move_node(src, dst)`
returns OK; afterwards `dst` resolves to the row of `node` with the new
parent and name (same node id and type), `src` resolves to NOT_FOUND, the
live rows are that row and the rows that were live, the old row of `node`
and the rows of a FILE at `dst` apart (so children of a moved directory are
rows as before), the records of a FILE at `dst` are FREE (`free_node`), and
`move_node(src, dst2)` returns NOT_FOUND for every `dst2`. -/
theorem c10_move_postcondition (ofs : oncefs_t) (src dst : List Char)
    (node parent : oncefs_node_t) (dstr : Int × oncefs_node_t)
    (hwf : engine_wf ofs) (hu : unique_names ofs)
    (hres : _oncefs_resolve_node ofs src = some (0, node))
    (hss : '/' ∈ strip_slashes src)
    (hpar : _oncefs_resolve_node ofs (dirname dst) = some (0, parent))
    (hpdir : parent.type = NODE_TYPE_DIR)
    (hds : '/' ∈ strip_slashes dst)
    (hbase : (basename dst).length < ONCEFS_NAME_MAX_SIZE)
    (hdst : _oncefs_resolve_node ofs dst = some dstr)
    (hcase : dstr.1 = -ENOENT ∨
      (dstr.1 = 0 ∧ dstr.2.type = NODE_TYPE_FILE ∧ dstr.2.node ≠ node.node ∧
        ∀ m ∈ live_nodes ofs, m.parent ≠ dstr.2.node))
    (hnd : ∀ x ∈ walk_rows ofs (path_tokens (dirname dst)) (root_node ofs), x.node ≠ node.node)
    (hns : ∀ x ∈ walk_rows ofs (path_tokens (dirname src)) (root_node ofs), x.node ≠ node.node)
    (hroom : ofs.next_block_id + 1 ≤ ofs.last_block_id) (hL : ofs.last_block_id < 2 ^ 32)
    (hsz : ∀ dev, ofs.io = some dev → SIZEOF_TAG + SIZEOF_NODE ≤ dev.block_size) :
    ∃ ofs1, oncefs_move_node ofs src dst = some (0, ofs1) ∧
      _oncefs_resolve_node ofs1 dst
        = some (0, { node with parent := parent.node, name := basename dst }) ∧
      (_oncefs_resolve_node ofs1 src).map (fun r => r.1) = some (-ENOENT) ∧
      (∀ m, m ∈ live_nodes ofs1 ↔
        (m = { node with parent := parent.node, name := basename dst } ∨
          (m ∈ live_nodes ofs ∧ ¬ (m.node = node.node ∧ m.type = node.type) ∧
            (dstr.1 = 0 → m.node ≠ dstr.2.node)))) ∧
      (∀ m, m ∈ primary_nodes ofs1 ↔
        (m = { node with parent := parent.node, name := basename dst } ∨
          (m ∈ primary_nodes ofs ∧ ¬ (m.node = node.node ∧ m.type = node.type) ∧
            (dstr.1 = 0 → m.node ≠ dstr.2.node)))) ∧
      (∀ b ∈ live_blocks ofs,
        (if dstr.1 = 0 then free_node dstr.2.node b else b) ∈ live_blocks ofs1) ∧
      (∀ dst2, (oncefs_move_node ofs1 src dst2).map (fun r => r.1) = some (-ENOENT)) := by
  obtain ⟨ofs1, hmove, -, hlive, hprim, hr1, hr2, hblocks⟩ :=
    move_node_spec ofs src dst node parent dstr hwf hu hres hss hpar hpdir hds hbase hdst hcase
      hnd hns hroom hL hsz
  refine ⟨ofs1, hmove, hr1, hr2, hlive, hprim, hblocks, ?_⟩
  intro dst2
  unfold oncefs_move_node
  cases hr : _oncefs_resolve_node ofs1 src with
  | none => rw [hr] at hr2; cases hr2
  | some r =>
    rw [hr] at hr2
    have hr1 : r.1 = -ENOENT := Option.some.inj hr2
    dsimp only
    rw [if_pos (by rw [hr1]; decide), Option.map_some', hr1]

/-- Witness for C10 (amended): on a container of sixteen blocks with the
directory `/d`, the file `/d/foo` (node `2`) and the file `/bar` (node `3`),
`move_node("/d/foo", "/bar")` returns OK; `/bar` then resolves to node `2`,
`/d/foo` to NOT_FOUND, the rows of node `3` are gone and its records
FREE. -/
theorem c10_move_postcondition_witness :
    ∃ ofs1, oncefs_move_node (engine_after 512 16 c10_setup) "/d/foo".toList "/bar".toList
        = some (0, ofs1) ∧
      _oncefs_resolve_node ofs1 "/bar".toList
        = some (0, { ((_oncefs_resolve_node (engine_after 512 16 c10_setup) "/d/foo".toList).get (by decide)).2 with
            parent := (root_node (engine_after 512 16 c10_setup)).node,
            name := basename "/bar".toList }) ∧
      (_oncefs_resolve_node ofs1 "/d/foo".toList).map (fun r => r.1) = some (-ENOENT) ∧
      (∀ m, m ∈ live_nodes ofs1 ↔
        (m = { ((_oncefs_resolve_node (engine_after 512 16 c10_setup) "/d/foo".toList).get (by decide)).2 with
            parent := (root_node (engine_after 512 16 c10_setup)).node,
            name := basename "/bar".toList } ∨
          (m ∈ live_nodes (engine_after 512 16 c10_setup) ∧
            ¬ (m.node = ((_oncefs_resolve_node (engine_after 512 16 c10_setup) "/d/foo".toList).get (by decide)).2.node ∧
               m.type = ((_oncefs_resolve_node (engine_after 512 16 c10_setup) "/d/foo".toList).get (by decide)).2.type) ∧
            ((0 : Int) = 0 → m.node ≠ ((_oncefs_resolve_node (engine_after 512 16 c10_setup) "/bar".toList).get (by decide)).2.node)))) ∧
      (∀ m, m ∈ primary_nodes ofs1 ↔
        (m = { ((_oncefs_resolve_node (engine_after 512 16 c10_setup) "/d/foo".toList).get (by decide)).2 with
            parent := (root_node (engine_after 512 16 c10_setup)).node,
            name := basename "/bar".toList } ∨
          (m ∈ primary_nodes (engine_after 512 16 c10_setup) ∧
            ¬ (m.node = ((_oncefs_resolve_node (engine_after 512 16 c10_setup) "/d/foo".toList).get (by decide)).2.node ∧
               m.type = ((_oncefs_resolve_node (engine_after 512 16 c10_setup) "/d/foo".toList).get (by decide)).2.type) ∧
            ((0 : Int) = 0 → m.node ≠ ((_oncefs_resolve_node (engine_after 512 16 c10_setup) "/bar".toList).get (by decide)).2.node)))) ∧
      (∀ b ∈ live_blocks (engine_after 512 16 c10_setup),
        (if (0 : Int) = 0 then free_node ((_oncefs_resolve_node (engine_after 512 16 c10_setup) "/bar".toList).get (by decide)).2.node b else b) ∈ live_blocks ofs1) ∧
      (∀ dst2, (oncefs_move_node ofs1 "/d/foo".toList dst2).map (fun r => r.1)
        = some (-ENOENT)) :=
  c10_move_postcondition (engine_after 512 16 c10_setup) "/d/foo".toList "/bar".toList
    ((_oncefs_resolve_node (engine_after 512 16 c10_setup) "/d/foo".toList).get (by decide)).2
    (root_node (engine_after 512 16 c10_setup))
    (0, ((_oncefs_resolve_node (engine_after 512 16 c10_setup) "/bar".toList).get (by decide)).2)
    (reachable_engine_wf _ (engine_after_reachable 512 16 _ (by decide) (by decide)))
    (by decide) (option_pair_eq_some _ (by decide) _ (by decide)) (by decide) (by rfl)
    (by decide) (by decide) (by decide) (option_pair_eq_some _ (by decide) _ (by decide))
    (Or.inr ⟨rfl, by decide, by decide, by decide⟩) (by decide) (by decide) (by decide)
    (by decide)
    (fun dev h => by
      rw [((reachable_engine_wf _
        (engine_after_reachable 512 16 c10_setup (by decide) (by decide))).2.2.2 dev h).2]
      decide)

/-- The logical file after one more write. -/
theorem logical_file_snoc (ws : List write_t) (w : write_t) :
    logical_file (ws ++ [w]) = sparse_write (logical_file ws) w := by
  unfold logical_file
  rw [List.foldl_append]
  rfl

/-- The logical file of lists of writes that agree one by one. -/
theorem block_write_congr (dev dev1 : io_t) (bl : List oncefs_block_t)
    (h : ∀ b ∈ bl, dev1.buffer.getD b.block default = dev.buffer.getD b.block default) :
    bl.map (block_write dev1) = bl.map (block_write dev) := by
  apply List.map_congr_left
  intro b hb
  unfold block_write block_bytes
  rw [h b hb]

/-- A well-formed engine stays well formed when its container is written. -/
theorem set_io_wf (x : oncefs_t) (dev : io_t) (buffer : List disk_block_t) (hx : engine_wf x)
    (hio : x.io = some dev) : engine_wf { x with io := some { dev with buffer := buffer } } :=
  engine_wf_step_closed.set_io x dev buffer hio hx

/-- One round of the loop of `oncefs_set_data` on a well-formed engine with
an unused block at the tail: the DATA block of the chunk is added behind the
blocks of the node, with the bytes of the chunk in the container. -/
theorem set_data_step (s : oncefs_t) (dev : io_t) (n : Nat) (bl : List oncefs_block_t)
    (amount offset : Nat) (bytes : List Nat)
    (hwf : engine_wf s) (hinv : data_inv s dev n bl)
    (hp : s.payload_size = s.block_size - SIZEOF_TAG - SIZEOF_DATA)
    (hp16 : s.payload_size < 2 ^ 16) (hamt : (amount : Int) ≤ s.payload_size)
    (hlen : bytes.length = amount)
    (hroom : s.next_block_id ≤ s.last_block_id) (hL : s.last_block_id < 2 ^ 32) :
    ∃ s1 dev1, _oncefs_create_block s BLOCK_OPERATION_DATA n amount offset
        = (0, s1, { block := s.next_block_id,
                    tag := { seq := s.next_seq_id, operation := BLOCK_OPERATION_DATA },
                    data := { node := n, fill := amount % 2 ^ 16, offset := offset } }) ∧
      s1.io = some dev ∧
      io_write_data dev s.next_block_id
          { seq := s.next_seq_id, operation := BLOCK_OPERATION_DATA }
          { node := n, fill := amount % 2 ^ 16, offset := offset } bytes = (0, dev1) ∧
      engine_wf { s1 with io := some dev1 } ∧
      s1.payload_size = s.payload_size ∧ s1.block_size = s.block_size ∧
      s1.last_block_id = s.last_block_id ∧ s1.next_block_id = s.next_block_id + 1 ∧
      data_inv { s1 with io := some dev1 } dev1 n
        (bl ++ [{ block := s.next_block_id,
                  tag := { seq := s.next_seq_id, operation := BLOCK_OPERATION_DATA },
                  data := { node := n, fill := amount, offset := offset } }]) ∧
      (∀ b ∈ bl, dev1.buffer.getD b.block default = dev.buffer.getD b.block default) ∧
      block_bytes dev1
        ({ block := s.next_block_id,
           tag := { seq := s.next_seq_id, operation := BLOCK_OPERATION_DATA },
           data := { node := n, fill := amount, offset := offset } } : oncefs_block_t)
        = bytes := by
  have hfresh := create_block_fresh s BLOCK_OPERATION_DATA n amount offset hroom (by omega)
  obtain ⟨hdl, hdb⟩ := hwf.2.2.2 dev hinv.io
  have ha16 : amount % 2 ^ 16 = amount := Nat.mod_eq_of_lt (by omega)
  have hw := io_write_data_ok dev s.next_block_id
    { seq := s.next_seq_id, operation := BLOCK_OPERATION_DATA }
    { node := n, fill := amount % 2 ^ 16, offset := offset } bytes (by omega)
    (by rw [hdb, hlen]; omega)
  have hwf1 : engine_wf (_oncefs_create_block s BLOCK_OPERATION_DATA n amount offset).2.1 :=
    engine_wf_step_closed.create_block s BLOCK_OPERATION_DATA n amount offset hwf
  have hcbok : (_oncefs_create_block s BLOCK_OPERATION_DATA n amount offset).1 = 0 := by
    rw [hfresh]
  have hlive := create_block_live s BLOCK_OPERATION_DATA n amount offset hwf.1 hcbok
  rw [hfresh] at hwf1 hlive
  dsimp only at hwf1 hlive
  have hbound : ∀ b ∈ live_blocks s, b.block < s.next_block_id :=
    fun b hb => hwf.2.2.1.2 b (live_blocks_subset s hwf.1 b hb)
  have hold : ∀ b ∈ bl, (dev.buffer.set s.next_block_id
      (disk_block_t.mk (oncefs_tag_t.mk s.next_seq_id BLOCK_OPERATION_DATA)
        (body_t.data { node := n, fill := amount % 2 ^ 16, offset := offset } bytes))).getD
        b.block default = dev.buffer.getD b.block default := by
    intro b hb
    have := hbound b ((hinv.mem b).mp hb).1
    exact getD_set_ne _ _ _ _ _ (by omega)
  have hnew : (dev.buffer.set s.next_block_id
      (disk_block_t.mk (oncefs_tag_t.mk s.next_seq_id BLOCK_OPERATION_DATA)
        (body_t.data { node := n, fill := amount % 2 ^ 16, offset := offset } bytes))).getD
        s.next_block_id default
      = disk_block_t.mk (oncefs_tag_t.mk s.next_seq_id BLOCK_OPERATION_DATA)
        (body_t.data { node := n, fill := amount % 2 ^ 16, offset := offset } bytes) :=
    getD_set_eq _ _ _ _ (by have := hinv.len; omega)
  have hbytes : block_bytes { dev with buffer := (dev.buffer.set s.next_block_id
      (disk_block_t.mk (oncefs_tag_t.mk s.next_seq_id BLOCK_OPERATION_DATA)
        (body_t.data { node := n, fill := amount % 2 ^ 16, offset := offset } bytes))) }
      ({ block := s.next_block_id,
         tag := { seq := s.next_seq_id, operation := BLOCK_OPERATION_DATA },
         data := { node := n, fill := amount, offset := offset } } : oncefs_block_t)
      = bytes := by
    unfold block_bytes
    dsimp only
    rw [hnew]
  refine ⟨_, _, hfresh, hinv.io, hw, set_io_wf _ dev _ hwf1 hinv.io, rfl, rfl, rfl, rfl, ?_,
    hold, hbytes⟩
  refine { io := rfl, len := ?_, mem := ?_, seq := ?_, stored := ?_ }
  · show dev.last_valid_block < (dev.buffer.set _ _).length
    rw [List.length_set]
    exact hinv.len
  · intro b
    rw [List.mem_append, List.mem_singleton]
    have hl := hlive b
    have hrec :
        ({ block := s.next_block_id,
           tag := { seq := s.next_seq_id, operation := BLOCK_OPERATION_DATA },
           data := { node := n, fill := amount % 2 ^ 16, offset := offset } } : oncefs_block_t)
        = ({ block := s.next_block_id,
             tag := { seq := s.next_seq_id, operation := BLOCK_OPERATION_DATA },
             data := { node := n, fill := amount, offset := offset } } : oncefs_block_t) := by
      rw [ha16]
    constructor
    · rintro (hb | hb)
      · obtain ⟨h1, h2, h3⟩ := (hinv.mem b).mp hb
        have := hbound b h1
        exact ⟨hl.mpr (Or.inr ⟨h1, by show b.block ≠ s.next_block_id; omega⟩), h2, h3⟩
      · exact ⟨hl.mpr (Or.inl (hb.trans hrec.symm)), by rw [hb], by rw [hb]⟩
    · rintro ⟨h1, h2, h3⟩
      rcases hl.mp h1 with e | e
      · exact Or.inr (e.trans hrec)
      · exact Or.inl ((hinv.mem b).mpr ⟨e.1, h2, h3⟩)
  · rw [List.pairwise_append]
    refine ⟨hinv.seq, List.pairwise_singleton _ _, ?_⟩
    intro a ha b hb
    rw [List.mem_singleton] at hb
    rw [hb]
    exact (hinv.stored a ha).2.2.2
  · intro b hb
    rw [List.mem_append, List.mem_singleton] at hb
    rcases hb with hb | hb
    · obtain ⟨h1, ⟨d, h2⟩, h3, h4⟩ := hinv.stored b hb
      have hbb : block_bytes { dev with buffer := (dev.buffer.set s.next_block_id
          (disk_block_t.mk (oncefs_tag_t.mk s.next_seq_id BLOCK_OPERATION_DATA)
            (body_t.data { node := n, fill := amount % 2 ^ 16, offset := offset } bytes))) } b
          = block_bytes dev b := by
        unfold block_bytes
        dsimp only
        rw [hold b hb]
      refine ⟨by rw [hbb]; exact h1, ⟨d, ?_⟩, h3, ?_⟩
      · rw [hbb]
        show ((dev.buffer.set _ _).getD b.block default).body = _
        rw [hold b hb]
        exact h2
      · show b.tag.seq < s.next_seq_id + 1
        omega
    · rw [hb, hbytes]
      refine ⟨hlen, ⟨{ node := n, fill := amount % 2 ^ 16, offset := offset }, ?_⟩, hamt, ?_⟩
      · show ((dev.buffer.set _ _).getD s.next_block_id default).body = _
        rw [hnew]
      · show s.next_seq_id < s.next_seq_id + 1
        omega

/-- A byte of a chunk of a buffer. -/
theorem getD_take_drop (l : List Nat) (w a k : Nat) (hk : k < a) :
    ((l.drop w).take a).getD k 0 = l.getD (w + k) 0 := by
  simp only [List.getD_eq_getElem?_getD]
  rw [List.getElem?_take_of_lt hk, List.getElem?_drop]

/-- The loop of `oncefs_set_data` on a well-formed engine that has an unused
block at the tail when the loop ends: OK; the chunks are added behind the
DATA blocks of the node, and the logical file of the blocks is the one
before with the bytes from `written` on laid over it. -/
theorem set_data_loop_data (n : Nat) (data : List Nat) (size offset : Nat)
    (hsize : size ≤ data.length) :
    ∀ (fuel : Nat) (s : oncefs_t) (written : Nat) (dev : io_t) (bl : List oncefs_block_t),
      engine_wf s → data_inv s dev n bl →
      s.payload_size = s.block_size - SIZEOF_TAG - SIZEOF_DATA →
      0 < s.payload_size → s.payload_size < 2 ^ 16 → written ≤ size →
      size - written ≤ fuel → s.last_block_id < 2 ^ 32 →
      (set_data_loop n data size offset fuel s written).2.next_block_id
        ≤ (set_data_loop n data size offset fuel s written).2.last_block_id →
      ∃ dev1 bl1, (set_data_loop n data size offset fuel s written).1 = 0 ∧
        engine_wf (set_data_loop n data size offset fuel s written).2 ∧
        data_inv (set_data_loop n data size offset fuel s written).2 dev1 n bl1 ∧
        (set_data_loop n data size offset fuel s written).2.payload_size = s.payload_size ∧
        (set_data_loop n data size offset fuel s written).2.block_size = s.block_size ∧
        (set_data_loop n data size offset fuel s written).2.last_block_id = s.last_block_id ∧
        ∀ pos, logical_file (bl1.map (block_write dev1)) pos
          = if offset + written ≤ pos ∧ pos < offset + size then
              some (data.getD (pos - offset) 0)
            else logical_file (bl.map (block_write dev)) pos := by
  intro fuel
  induction fuel with
  | zero =>
    intro s written dev bl hwf hinv _ _ _ hw hf _ _
    refine ⟨dev, bl, rfl, hwf, hinv, rfl, rfl, rfl, ?_⟩
    intro pos
    rw [if_neg (by omega)]
  | succ fuel ih =>
    intro s written dev bl hwf hinv hp hp0 hp16 hw hf hL hroom
    have hmono := set_data_loop_closed _ room_step_closed n data size offset (fuel + 1) s
      written
    have hroom_s : s.next_block_id ≤ s.last_block_id := by omega
    clear hmono
    unfold set_data_loop at hroom ⊢
    by_cases hlt : written < size
    · rw [if_pos hlt] at hroom ⊢
      dsimp only at hroom ⊢
      generalize hamount : (if (size - written : Int) > s.payload_size then s.payload_size.toNat
        else size - written) = amount at hroom ⊢
      have hamt : (amount : Int) ≤ s.payload_size ∧ 1 ≤ amount ∧ amount ≤ size - written := by
        rw [← hamount]
        split
        · rw [Int.toNat_of_nonneg (by omega)]
          omega
        · omega
      have hlen : ((data.drop written).take amount).length = amount := by
        rw [List.length_take, List.length_drop]
        omega
      obtain ⟨s1, dev1, hcb, hio, hwr, hwf1, hps, hbs, hlb, hnb, hinv1, hold, hbytes⟩ :=
        set_data_step s dev n bl amount (offset + written) ((data.drop written).take amount)
          hwf hinv hp hp16 hamt.1 hlen hroom_s hL
      rw [hcb] at hroom ⊢
      dsimp only at hroom ⊢
      rw [if_neg (by simp)] at hroom ⊢
      simp only [hio] at hroom ⊢
      rw [hwr] at hroom ⊢
      dsimp only at hroom ⊢
      rw [if_neg (by simp)] at hroom ⊢
      obtain ⟨dev2, bl2, h1, h2, h3, h4, h5, h6, h7⟩ := ih _ (written + amount) dev1 _ hwf1 hinv1
        (by show s1.payload_size = s1.block_size - _ - _; rw [hps, hbs]; exact hp)
        (by show 0 < s1.payload_size; rw [hps]; exact hp0)
        (by show s1.payload_size < 2 ^ 16; rw [hps]; exact hp16)
        (by omega) (by omega) (by show s1.last_block_id < 2 ^ 32; rw [hlb]; exact hL) hroom
      refine ⟨dev2, bl2, h1, h2, h3, h4.trans hps, h5.trans hbs, h6.trans hlb, ?_⟩
      intro pos
      rw [h7 pos, List.map_append, List.map_singleton, logical_file_snoc,
        block_write_congr dev dev1 bl hold]
      unfold sparse_write block_write
      rw [hbytes]
      dsimp only
      by_cases hc1 : offset + (written + amount) ≤ pos ∧ pos < offset + size
      · rw [if_pos hc1, if_pos (by omega)]
      · rw [if_neg hc1]
        by_cases hc2 : offset + written ≤ pos ∧ pos < offset + written + amount
        · rw [if_pos hc2, if_pos (by omega), getD_take_drop _ _ _ _ (by omega)]
          congr 2
          omega
        · rw [if_neg hc2, if_neg (by omega)]
    · rw [if_neg hlt]
      refine ⟨dev, bl, rfl, hwf, hinv, rfl, rfl, rfl, ?_⟩
      intro pos
      rw [if_neg (by omega)]

/-- A run of `set_data` calls on a node, each leaving an unused block at the
tail of the container: every call returns OK, and the logical file of the
DATA blocks of the node is the one before with the writes applied in call
order. -/
theorem write_run_data (n : Nat) :
    ∀ (ws : List write_t) (s : oncefs_t) (dev : io_t) (bl : List oncefs_block_t)
      (rcs : List Int) (ofs : oncefs_t),
      engine_wf s → data_inv s dev n bl →
      s.payload_size = s.block_size - SIZEOF_TAG - SIZEOF_DATA →
      0 < s.payload_size → s.payload_size < 2 ^ 16 → s.last_block_id < 2 ^ 32 →
      run_ops (write_ops n ws) s = some (rcs, ofs) → run_fits (write_ops n ws) s →
      ∃ dev1 bl1, (∀ rc ∈ rcs, rc = 0) ∧ engine_wf ofs ∧ data_inv ofs dev1 n bl1 ∧
        ofs.payload_size = s.payload_size ∧ ofs.block_size = s.block_size ∧
        ofs.last_block_id = s.last_block_id ∧
        ∀ pos, logical_file (bl1.map (block_write dev1)) pos
          = (ws.foldl sparse_write (logical_file (bl.map (block_write dev)))) pos := by
  intro ws
  induction ws with
  | nil =>
    intro s dev bl rcs ofs hwf hinv _ _ _ _ hrun _
    have e : (([] : List Int), s) = (rcs, ofs) := Option.some.inj hrun
    obtain ⟨e1, e2⟩ := Prod.mk.inj e
    subst e1 e2
    exact ⟨dev, bl, ⟨fun rc hrc => absurd hrc (List.not_mem_nil rc), hwf, hinv, rfl, rfl, rfl,
      fun _ => rfl⟩⟩
  | cons w ws ih =>
    intro s dev bl rcs ofs hwf hinv hp hp0 hp16 hL hrun hfits
    have hops : write_ops n (w :: ws)
        = op_t.set_data n w.data w.size w.offset :: write_ops n ws := rfl
    rw [hops] at hrun hfits
    unfold run_ops at hrun
    unfold run_fits at hfits
    have happ : apply_op s (op_t.set_data n w.data w.size w.offset)
        = oncefs_set_data s n w.data w.size w.offset := rfl
    rw [happ] at hrun hfits
    unfold oncefs_set_data at hrun hfits
    by_cases hsz : w.size > w.data.length
    · rw [if_pos hsz] at hrun
      cases hrun
    · rw [if_neg hsz, if_neg (by omega)] at hrun hfits
      dsimp only at hrun hfits
      obtain ⟨hroom, hfits1⟩ := hfits
      obtain ⟨dev1, bl1, h1, h2, h3, h4, h5, h6, h7⟩ :=
        set_data_loop_data n w.data w.size w.offset (by omega) w.size s 0 dev bl hwf hinv hp
          hp0 hp16 (by omega) (by omega) hL hroom.1
      cases hrest : run_ops (write_ops n ws)
          (set_data_loop n w.data w.size w.offset w.size s 0).2 with
      | none => rw [hrest] at hrun; cases hrun
      | some rs =>
        rw [hrest] at hrun
        dsimp only at hrun
        have e := Option.some.inj hrun
        obtain ⟨e1, e2⟩ := Prod.mk.inj e
        obtain ⟨dev2, bl2, g1, g2, g3, g4, g5, g6, g7⟩ := ih _ dev1 bl1 rs.1 rs.2 h2 h3
          (by rw [h4, h5]; exact hp) (by rw [h4]; exact hp0) (by rw [h4]; exact hp16)
          (by rw [h6]; exact hL) (by rw [hrest]) hfits1
        rw [← e2]
        refine ⟨dev2, bl2, ?_, g2, g3, g4.trans h4, g5.trans h5, g6.trans h6, ?_⟩
        · intro rc hrc
          rw [← e1] at hrc
          rcases List.mem_cons.mp hrc with e3 | e3
          · rw [e3]; exact h1
          · exact g1 rc e3
        · intro pos
          have hfun : logical_file (bl1.map (block_write dev1))
              = sparse_write (logical_file (bl.map (block_write dev))) w := by
            funext q
            rw [h7 q]
            unfold sparse_write
            rw [Nat.add_zero]
          rw [g7 pos, hfun]
          rfl

theorem filter_get_data_of_ne (payload_size : Int) (k o : oncefs_block_t)
    (h : _oncefs_block_cmp_lookup_fuzzy k o ≠ 0) :
    _filter_get_data payload_size k o = _oncefs_block_cmp_lookup_fuzzy k o := by
  unfold _filter_get_data
  rw [if_pos h]

/-- The value of the filter of `_oncefs_get_data` on a record with the
operation and the node of the key. -/
theorem filter_get_data_of_eq (payload_size : Int) (k o : oncefs_block_t)
    (h : _oncefs_block_cmp_lookup_fuzzy k o = 0) :
    ((k.data.offset : Int) + ((k.data.fill : Int) + payload_size) < o.data.offset ∧
      _filter_get_data payload_size k o = -1) ∨
    (¬ (k.data.offset : Int) + ((k.data.fill : Int) + payload_size) < o.data.offset ∧
      (k.data.offset : Int) > o.data.offset + ((k.data.fill : Int) + payload_size) ∧
      _filter_get_data payload_size k o = 1) ∨
    (¬ (k.data.offset : Int) + ((k.data.fill : Int) + payload_size) < o.data.offset ∧
      ¬ (k.data.offset : Int) > o.data.offset + ((k.data.fill : Int) + payload_size) ∧
      _filter_get_data payload_size k o = 0) := by
  unfold _filter_get_data
  rw [if_neg (by simpa using h)]
  by_cases h1 : (k.data.offset : Int) + ((k.data.fill : Int) + payload_size) < o.data.offset
  · left
    exact ⟨h1, if_pos h1⟩
  · right
    by_cases h2 : (k.data.offset : Int) > o.data.offset + ((k.data.fill : Int) + payload_size)
    · left
      refine ⟨h1, h2, ?_⟩
      rw [if_neg h1, if_pos h2]
    · right
      refine ⟨h1, h2, ?_⟩
      rw [if_neg h1, if_neg h2]

/-- The filter of `_oncefs_get_data` is monotone along the lookup index. -/
theorem filter_mono_get_data (payload_size : Int) (key : oncefs_block_t) :
    filter_mono _oncefs_block_cmp_lookup (_filter_get_data payload_size key) := by
  intro a b hab
  have hfab := block_lookup_le_fuzzy a b hab
  have hord := block_cmp_fuzzy_order
  by_cases ha : _oncefs_block_cmp_lookup_fuzzy key a = 0
  · have hkb : _oncefs_block_cmp_lookup_fuzzy key b ≤ 0 :=
      hord.le_trans key a b (by omega) hfab
    by_cases hb : _oncefs_block_cmp_lookup_fuzzy key b = 0
    · have ha1 := (fuzzy_eq_zero key a).mp ha
      have hb1 := (fuzzy_eq_zero key b).mp hb
      have hoff := lookup_le_offset a b hab (by rw [hb1.1, ha1.1]) (by rw [hb1.2, ha1.2])
      rcases filter_get_data_of_eq payload_size key a ha with h1 | h1 | h1 <;>
        rcases filter_get_data_of_eq payload_size key b hb with h2 | h2 | h2 <;>
        constructor <;> intro h <;> omega
    · rw [filter_get_data_of_ne _ _ _ hb]
      exact ⟨fun _ => by omega, fun _ => by omega⟩
  · rw [filter_get_data_of_ne _ _ _ ha]
    constructor
    · intro h
      have hkb := hord.lt_trans_le key a b (by omega) hfab
      rw [filter_get_data_of_ne _ _ _ (by omega)]
      omega
    · intro h
      have hkb := hord.lt_trans_le key a b h hfab
      rw [filter_get_data_of_ne _ _ _ (by omega)]
      exact hkb

/-- The filter of `_oncefs_get_data` accepts the records with the operation
and the node of the key whose offset is at most `fill + payload_size` away
from the offset of the key. -/
theorem filter_get_data_eq_zero (payload_size : Int) (k o : oncefs_block_t) :
    _filter_get_data payload_size k o = 0 ↔
      (o.tag.operation = k.tag.operation ∧ o.data.node = k.data.node ∧
        ¬ (k.data.offset : Int) + ((k.data.fill : Int) + payload_size) < o.data.offset ∧
        ¬ (k.data.offset : Int) > o.data.offset + ((k.data.fill : Int) + payload_size)) := by
  by_cases hz : _oncefs_block_cmp_lookup_fuzzy k o = 0
  · have hf := (fuzzy_eq_zero k o).mp hz
    rcases filter_get_data_of_eq payload_size k o hz with h1 | h1 | h1
    · rw [h1.2]
      exact ⟨fun h => by omega, fun h => absurd h1.1 h.2.2.1⟩
    · rw [h1.2.2]
      exact ⟨fun h => by omega, fun h => absurd h1.2.1 h.2.2.2⟩
    · rw [h1.2.2]
      exact ⟨fun _ => ⟨hf.1, hf.2, h1.1, h1.2.1⟩, fun _ => rfl⟩
  · rw [filter_get_data_of_ne _ _ _ hz]
    exact ⟨fun h => absurd h hz, fun h => absurd ((fuzzy_eq_zero k o).mpr ⟨h.1, h.2.1⟩) hz⟩

/-- The entries of a sorted array after rows have been inserted one by one:
the rows and the entries there were, in the order of the comparator. -/
theorem fold_insert_rows {ρ : Type} [Inhabited ρ] (cmp : ρ → ρ → Int) (hc : cmp_order cmp) :
    ∀ (rows : List ρ) (a : array_t ρ ρ), a.comparator = cmp →
      (a.entries.map id).Pairwise (fun x y => cmp x y ≤ 0) →
      (rows.foldl (fun a row => array_sorted_insert id a row) a).entries.Perm
        (rows ++ a.entries) ∧
      ((rows.foldl (fun a row => array_sorted_insert id a row) a).entries).Pairwise
        (fun x y => cmp x y ≤ 0) := by
  intro rows
  induction rows with
  | nil =>
    intro a _ hs
    rw [List.map_id] at hs
    exact ⟨List.Perm.refl _, hs⟩
  | cons r rest ih =>
    intro a hcmp hs
    rw [List.foldl_cons]
    have hc1 : (array_sorted_insert id a r).comparator = cmp := hcmp
    have hs1 := array_sorted_insert_sorted id a r (by rw [hcmp]; exact hc)
      (by rw [hcmp]; exact hs)
    rw [hcmp] at hs1
    obtain ⟨h1, h2⟩ := ih (array_sorted_insert id a r) hc1 hs1
    refine ⟨h1.trans ?_, h2⟩
    refine (List.Perm.append_left rest (array_sorted_insert_perm id a r)).trans ?_
    exact List.perm_middle

theorem order_by_seq_order : cmp_order _order_by_seq :=
  cmp_order_key (fun b : oncefs_block_t => b.tag.seq)

theorem order_by_seq_le (a b : oncefs_block_t) (h : _order_by_seq a b ≤ 0) :
    a.tag.seq ≤ b.tag.seq := by
  unfold _order_by_seq at h
  split_ifs at h <;> omega

/-- Two DATA blocks of the node with one sequence number are one block. -/
theorem data_inv_seq_inj (ofs : oncefs_t) (dev : io_t) (n : Nat) (bl : List oncefs_block_t)
    (hinv : data_inv ofs dev n bl) (a b : oncefs_block_t) (ha : a ∈ bl) (hb : b ∈ bl)
    (h : a.tag.seq = b.tag.seq) : a = b := by
  by_contra hne
  have hsym : Symmetric (fun a b : oncefs_block_t => a.tag.seq ≠ b.tag.seq) :=
    fun x y hxy => Ne.symm hxy
  have hp : bl.Pairwise (fun a b : oncefs_block_t => a.tag.seq ≠ b.tag.seq) :=
    hinv.seq.imp (fun hab => by omega)
  exact (List.Pairwise.forall hsym hp ha hb hne) h

/-- The blocks `_oncefs_get_data` goes over: the DATA blocks of the node
that its filter accepts, by rising sequence number; NOT_FOUND when there is
none. -/
theorem get_data_query (ofs : oncefs_t) (dev : io_t) (n : Nat) (bl : List oncefs_block_t)
    (hwf : engine_wf ofs) (hinv : data_inv ofs dev n bl) (key : oncefs_block_t)
    (hkop : key.tag.operation = BLOCK_OPERATION_DATA) (hkn : key.data.node = n) :
    ((table_query_order_by ofs.blocks key TABLE_INDEX_LOOKUP
        (some (_filter_get_data ofs.payload_size)) _order_by_seq).1 = 0 ∨
      (table_query_order_by ofs.blocks key TABLE_INDEX_LOOKUP
        (some (_filter_get_data ofs.payload_size)) _order_by_seq).1 = -ENOENT) ∧
    ((table_query_order_by ofs.blocks key TABLE_INDEX_LOOKUP
        (some (_filter_get_data ofs.payload_size)) _order_by_seq).1 = 0 ↔
      ∃ b ∈ bl, _filter_get_data ofs.payload_size key b = 0) ∧
    ((table_query_order_by ofs.blocks key TABLE_INDEX_LOOKUP
        (some (_filter_get_data ofs.payload_size)) _order_by_seq).1 = 0 →
      (table_query_order_by ofs.blocks key TABLE_INDEX_LOOKUP
        (some (_filter_get_data ofs.payload_size)) _order_by_seq).2
      = bl.filter (fun b => decide (_filter_get_data ofs.payload_size key b = 0))) := by
  obtain ⟨hbl, -, -, -⟩ := blocks_wf_indexes ofs hwf.1
  have hk1 : TABLE_INDEX_LOOKUP < ofs.blocks.indexes.length := by
    show 1 < _
    omega
  obtain ⟨hi1, hi2, hi3⟩ := table_query_ids_spec ofs.blocks key TABLE_INDEX_LOOKUP
    _oncefs_block_cmp_lookup (_filter_get_data ofs.payload_size) hk1
    (live_blocks_sorted ofs hwf.1) (filter_mono_get_data _ _)
  obtain ⟨-, ha2⟩ := table_query_all_spec ofs.blocks key TABLE_INDEX_LOOKUP
    _oncefs_block_cmp_lookup (_filter_get_data ofs.payload_size) hk1
    (live_blocks_sorted ofs hwf.1) (filter_mono_get_data _ _)
  have hall1 : (table_query_all ofs.blocks key TABLE_INDEX_LOOKUP
      (some (_filter_get_data ofs.payload_size))).1
      = (table_query_ids ofs.blocks key TABLE_INDEX_LOOKUP
          (some (_filter_get_data ofs.payload_size))).1 := by
    unfold table_query_all
    dsimp only
    split
    · rfl
    · rename_i h
      exact (not_not.mp h).symm
  have hmemf : ∀ b, (b ∈ live_blocks ofs ∧ _filter_get_data ofs.payload_size key b = 0) ↔
      (b ∈ bl ∧ _filter_get_data ofs.payload_size key b = 0) := by
    intro b
    constructor
    · rintro ⟨h1, h2⟩
      have h3 := (filter_get_data_eq_zero _ _ _).mp h2
      exact ⟨(hinv.mem b).mpr ⟨h1, h3.1.trans hkop, h3.2.1.trans hkn⟩, h2⟩
    · rintro ⟨h1, h2⟩
      exact ⟨((hinv.mem b).mp h1).1, h2⟩
  have hiff : (table_query_all ofs.blocks key TABLE_INDEX_LOOKUP
      (some (_filter_get_data ofs.payload_size))).1 = 0 ↔
      ∃ b ∈ bl, _filter_get_data ofs.payload_size key b = 0 := by
    rw [hall1, hi1]
    constructor
    · rintro ⟨b, hb, hz⟩
      exact ⟨b, ((hmemf b).mp ⟨hb, hz⟩).1, hz⟩
    · rintro ⟨b, hb, hz⟩
      exact ⟨b, ((hmemf b).mpr ⟨hb, hz⟩).1, hz⟩
  unfold table_query_order_by
  dsimp only
  by_cases h0 : (table_query_all ofs.blocks key TABLE_INDEX_LOOKUP
      (some (_filter_get_data ofs.payload_size))).1 = 0
  · rw [if_neg (by simpa using h0)]
    refine ⟨Or.inl rfl, ⟨fun _ => hiff.mp h0, fun _ => rfl⟩, fun _ => ?_⟩
    obtain ⟨hperm, hsorted⟩ := fold_insert_rows _order_by_seq order_by_seq_order
      (table_query_all ofs.blocks key TABLE_INDEX_LOOKUP
        (some (_filter_get_data ofs.payload_size))).2
      { entries := [], comparator := _order_by_seq } rfl List.Pairwise.nil
    rw [List.append_nil] at hperm
    have hnd1 : ((live_blocks ofs).filter
        (fun b => decide (_filter_get_data ofs.payload_size key b = 0))).Nodup := by
      apply List.Nodup.filter
      exact (live_blocks_unique ofs hwf.1).imp (fun hab e => hab (by rw [e]))
    have hnd2 : (bl.filter
        (fun b => decide (_filter_get_data ofs.payload_size key b = 0))).Nodup := by
      apply List.Nodup.filter
      exact hinv.seq.imp (fun hab e => by rw [e] at hab; omega)
    have hperm2 : ((live_blocks ofs).filter
        (fun b => decide (_filter_get_data ofs.payload_size key b = 0))).Perm
        (bl.filter (fun b => decide (_filter_get_data ofs.payload_size key b = 0))) := by
      rw [List.perm_ext_iff_of_nodup hnd1 hnd2]
      intro b
      rw [List.mem_filter, List.mem_filter, decide_eq_true_iff]
      exact hmemf b
    have hperm3 : (List.foldl (fun a row => array_sorted_insert id a row)
        ({ entries := [], comparator := _order_by_seq } : array_t oncefs_block_t oncefs_block_t)
        (table_query_all ofs.blocks key TABLE_INDEX_LOOKUP
          (some (_filter_get_data ofs.payload_size))).2).entries.Perm
        (bl.filter (fun b => decide (_filter_get_data ofs.payload_size key b = 0))) := by
      refine hperm.trans ?_
      rw [ha2]
      exact hperm2
    have hsub : ∀ x ∈ (List.foldl (fun a row => array_sorted_insert id a row)
        ({ entries := [], comparator := _order_by_seq } : array_t oncefs_block_t oncefs_block_t)
        (table_query_all ofs.blocks key TABLE_INDEX_LOOKUP
          (some (_filter_get_data ofs.payload_size))).2).entries, x ∈ bl := by
      intro x hx
      exact (List.mem_filter.mp (hperm3.mem_iff.mp hx)).1
    haveI : IsAntisymm oncefs_block_t
        (fun a b => a ∈ bl ∧ b ∈ bl ∧ a.tag.seq ≤ b.tag.seq) :=
      ⟨fun a b h1 h2 => data_inv_seq_inj ofs dev n bl hinv a b h1.1 h1.2.1 (by omega)⟩
    refine @List.eq_of_perm_of_sorted _ (fun a b => a ∈ bl ∧ b ∈ bl ∧ a.tag.seq ≤ b.tag.seq)
      _ _ _ hperm3 ?_ ?_
    · exact hsorted.imp_of_mem
        (fun ha hb hab => ⟨hsub _ ha, hsub _ hb, order_by_seq_le _ _ hab⟩)
    · have hs2 : (bl.filter
          (fun b => decide (_filter_get_data ofs.payload_size key b = 0))).Pairwise
          (fun a b => a.tag.seq < b.tag.seq) := hinv.seq.sublist (List.filter_sublist _)
      exact hs2.imp_of_mem
        (fun ha hb hab => ⟨(List.mem_filter.mp ha).1, (List.mem_filter.mp hb).1, le_of_lt hab⟩)
  · rw [if_pos h0]
    refine ⟨?_, ⟨fun h => absurd h h0, fun h => absurd (hiff.mpr h) h0⟩, fun h => absurd h h0⟩
    rcases hi2 with e | e
    · exact absurd (hall1.trans e) h0
    · exact Or.inr (hall1.trans e)

/-- A buffer with `mid` laid over it from `seek` on. -/
theorem splice_getD (buf mid : List Nat) (seek amount : Nat) (hm : mid.length = amount)
    (hs : seek + amount ≤ buf.length) :
    (buf.take seek ++ mid ++ buf.drop (seek + amount)).length = buf.length ∧
    ∀ i, (buf.take seek ++ mid ++ buf.drop (seek + amount)).getD i 0
      = if seek ≤ i ∧ i < seek + amount then mid.getD (i - seek) 0 else buf.getD i 0 := by
  have hl1 : (buf.take seek).length = seek := by
    rw [List.length_take]; omega
  constructor
  · rw [List.length_append, List.length_append, hl1, hm, List.length_drop]
    omega
  · intro i
    by_cases h1 : i < seek
    · rw [if_neg (by omega), List.append_assoc, List.getD_append _ _ _ _ (by omega)]
      simp only [List.getD_eq_getElem?_getD]
      rw [List.getElem?_take_of_lt h1]
    · by_cases h2 : i < seek + amount
      · rw [if_pos (by omega), List.getD_append _ _ _ _ (by rw [List.length_append]; omega),
          List.getD_append_right _ _ _ _ (by omega), hl1]
      · rw [if_neg (by omega),
          List.getD_append_right _ _ _ _ (by rw [List.length_append]; omega),
          List.length_append, hl1, hm]
        simp only [List.getD_eq_getElem?_getD]
        rw [List.getElem?_drop]
        congr 2
        omega

/-- The callback of `_oncefs_get_data` on a DATA block whose payload the
container holds: the bytes of the block that lie in the window are laid over
the buffer, and `fill` is raised to `skip + amount`. -/
theorem get_data_callback_spec (dev : io_t) (T0 sz : Nat) (st : List Nat × Nat)
    (b : oncefs_block_t) (payload : Int)
    (hlenb : (block_bytes dev b).length = b.data.fill)
    (hbody : ∃ d, (dev.buffer.getD b.block default).body = body_t.data d (block_bytes dev b))
    (hfill : (b.data.fill : Int) ≤ payload)
    (hblk : b.block ≤ dev.last_valid_block)
    (hbs : SIZEOF_TAG + SIZEOF_DATA + payload ≤ dev.block_size)
    (hbuf : sz ≤ st.1.length) :
    ∃ st1, get_data_callback (some dev) T0 (T0 + sz) st b = some st1 ∧
      st1.1.length = st.1.length ∧
      (∀ i, st1.1.getD i 0
        = if b.data.offset ≤ T0 + i ∧ T0 + i < b.data.offset + b.data.fill ∧ i < sz then
            (block_bytes dev b).getD (T0 + i - b.data.offset) 0
          else st.1.getD i 0) ∧
      st.2 ≤ st1.2 ∧ (st1.2 ≤ st.2 ∨ st1.2 ≤ b.data.fill) ∧
      (b.data.offset ≤ T0 → T0 < b.data.offset + b.data.fill → 0 < sz → 1 ≤ st1.2) := by
  obtain ⟨d, hd⟩ := hbody
  unfold get_data_callback
  dsimp only
  generalize hS : b.data.offset = S at *
  generalize hF : b.data.fill = F at *
  by_cases hA : S > T0 + sz ∨ S + F < T0
  · rw [if_pos hA]
    refine ⟨st, rfl, rfl, fun i => ?_, le_refl _, Or.inl (le_refl _), fun _ _ _ => by omega⟩
    rw [if_neg (by omega)]
  · rw [if_neg hA]
    generalize hsk : (if S < T0 then T0 - S else 0) = skip
    generalize hse : (if S > T0 then S - T0 else 0) = seek
    generalize hst : (if S < T0 then T0 else S) = start1
    generalize hen : (if S + F > T0 + sz then T0 + sz else S + F) = end1
    have e1 : skip = T0 - S := by rw [← hsk]; split <;> omega
    have e2 : seek = S - T0 := by rw [← hse]; split <;> omega
    have e3 : start1 = max S T0 := by rw [← hst]; split <;> omega
    have e4 : end1 = min (S + F) (T0 + sz) := by rw [← hen]; split <;> omega
    by_cases hB : (end1 : Int) - start1 ≤ 0
    · rw [if_pos hB]
      refine ⟨st, rfl, rfl, fun i => ?_, le_refl _, Or.inl (le_refl _), fun _ _ _ => by omega⟩
      rw [if_neg (by omega)]
    · rw [if_neg hB]
      have hchk : io_check dev b.block (SIZEOF_TAG + (SIZEOF_DATA + skip) + (end1 - start1 : Nat))
          = 0 := by
        unfold io_check
        rw [if_neg (by omega), if_neg (by omega)]
      rw [if_neg (by rw [hchk]; simp), hd]
      dsimp only
      rw [if_pos (by omega)]
      have hmid : ((block_bytes dev b).drop skip |>.take (end1 - start1)).length
          = end1 - start1 := by
        rw [List.length_take, List.length_drop]
        omega
      obtain ⟨hl, hg⟩ := splice_getD st.1 ((block_bytes dev b).drop skip |>.take (end1 - start1))
        seek (end1 - start1) hmid (by omega)
      refine ⟨_, rfl, hl, fun i => ?_, ?_, ?_, ?_⟩
      · dsimp only
        rw [hg i]
        by_cases hc : seek ≤ i ∧ i < seek + (end1 - start1)
        · rw [if_pos hc, if_pos (by omega), getD_take_drop _ _ _ _ (by omega)]
          congr 1
          omega
        · rw [if_neg hc, if_neg (by omega)]
      · dsimp only
        split <;> omega
      · dsimp only
        split
        · right; omega
        · left; exact le_refl _
      · intro h1 h2 h3
        dsimp only
        split <;> omega

/-- The byte of a logical file at a position depends on the file written
to at that position alone. -/
theorem fold_write_congr : ∀ (ws : List write_t) (f g : Nat → Option Nat) (pos : Nat),
    f pos = g pos → ws.foldl sparse_write f pos = ws.foldl sparse_write g pos := by
  intro ws
  induction ws with
  | nil => intro f g pos h; exact h
  | cons w ws ih =>
    intro f g pos h
    rw [List.foldl_cons, List.foldl_cons]
    apply ih
    unfold sparse_write
    rw [h]

/-- Blocks that do not hold a position can be left out of the logical file
at that position. -/
theorem fold_write_filter (dev : io_t) (p : oncefs_block_t → Bool) (pos : Nat) :
    ∀ (bl : List oncefs_block_t) (f : Nat → Option Nat),
      (∀ b ∈ bl, p b = false →
        ¬ (b.data.offset ≤ pos ∧ pos < b.data.offset + b.data.fill)) →
      ((bl.filter p).map (block_write dev)).foldl sparse_write f pos
        = (bl.map (block_write dev)).foldl sparse_write f pos := by
  intro bl
  induction bl with
  | nil => intro f _; rfl
  | cons b bl ih =>
    intro f h
    have hrest : ∀ c ∈ bl, p c = false →
        ¬ (c.data.offset ≤ pos ∧ pos < c.data.offset + c.data.fill) :=
      fun c hc => h c (List.mem_cons_of_mem _ hc)
    by_cases hp : p b = true
    · rw [List.filter_cons_of_pos hp, List.map_cons, List.map_cons, List.foldl_cons,
        List.foldl_cons]
      exact ih _ hrest
    · rw [List.filter_cons_of_neg hp, List.map_cons, List.foldl_cons, ih f hrest]
      apply fold_write_congr
      have hb := h b (List.mem_cons_self _ _) (by simpa using hp)
      unfold sparse_write block_write
      dsimp only
      rw [if_neg hb]

/-- A position a logical file holds a byte at is either held before or lies
within one of the writes. -/
theorem fold_write_cover : ∀ (ws : List write_t) (f : Nat → Option Nat) (pos : Nat),
    ws.foldl sparse_write f pos ≠ none →
    f pos ≠ none ∨ ∃ w ∈ ws, w.offset ≤ pos ∧ pos < w.offset + w.size := by
  intro ws
  induction ws with
  | nil => intro f pos h; exact Or.inl h
  | cons w ws ih =>
    intro f pos h
    rw [List.foldl_cons] at h
    rcases ih _ pos h with h1 | ⟨v, hv, hc⟩
    · by_cases hc : w.offset ≤ pos ∧ pos < w.offset + w.size
      · exact Or.inr ⟨w, List.mem_cons_self _ _, hc⟩
      · unfold sparse_write at h1
        rw [if_neg hc] at h1
        exact Or.inl h1
    · exact Or.inr ⟨v, List.mem_cons_of_mem _ hv, hc⟩

/-- The callbacks of `_oncefs_get_data` over DATA blocks whose payloads the
container holds: within the window the buffer follows the logical file as
the blocks are laid over it one after the other, and is left as it was
elsewhere. -/
theorem get_data_fold (dev : io_t) (T0 sz : Nat) (payload : Int) (buf0 : List Nat)
    (hbs : SIZEOF_TAG + SIZEOF_DATA + payload ≤ dev.block_size) :
    ∀ (L : List oncefs_block_t) (st : List Nat × Nat) (f : Nat → Option Nat),
      (∀ b ∈ L, (block_bytes dev b).length = b.data.fill ∧
        (∃ d, (dev.buffer.getD b.block default).body = body_t.data d (block_bytes dev b)) ∧
        (b.data.fill : Int) ≤ payload ∧ b.block ≤ dev.last_valid_block) →
      sz ≤ st.1.length → st.1.length = buf0.length →
      (∀ i, st.1.getD i 0
        = if i < sz then (f (T0 + i)).getD (buf0.getD i 0) else buf0.getD i 0) →
      ∃ st1, L.foldl (fun st result =>
            st.bind (fun s => get_data_callback (some dev) T0 (T0 + sz) s result)) (some st)
          = some st1 ∧
        st1.1.length = buf0.length ∧
        (∀ i, st1.1.getD i 0
          = if i < sz then
              (((L.map (block_write dev)).foldl sparse_write f) (T0 + i)).getD (buf0.getD i 0)
            else buf0.getD i 0) ∧
        st.2 ≤ st1.2 ∧ ((st1.2 : Int) ≤ st.2 ∨ (st1.2 : Int) ≤ payload) ∧
        ((∃ b ∈ L, b.data.offset ≤ T0 ∧ T0 < b.data.offset + b.data.fill) → 0 < sz →
          1 ≤ st1.2) := by
  intro L
  induction L with
  | nil =>
    intro st f _ _ hlen hrel
    exact ⟨st, rfl, hlen, hrel, le_refl _, Or.inl (le_refl _),
      fun h _ => by obtain ⟨b, hb, -⟩ := h; cases hb⟩
  | cons b L ih =>
    intro st f hst hbuf hlen hrel
    obtain ⟨h1, h2, h3, h4⟩ := hst b (List.mem_cons_self _ _)
    obtain ⟨st1, hcb, hl1, hg1, hm1, hb1, hp1⟩ :=
      get_data_callback_spec dev T0 sz st b payload h1 h2 h3 h4 hbs hbuf
    have hrel1 : ∀ i, st1.1.getD i 0
        = if i < sz then (sparse_write f (block_write dev b) (T0 + i)).getD (buf0.getD i 0)
          else buf0.getD i 0 := by
      intro i
      rw [hg1 i]
      unfold sparse_write block_write
      dsimp only
      by_cases hi : i < sz
      · rw [if_pos hi]
        by_cases hc : b.data.offset ≤ T0 + i ∧ T0 + i < b.data.offset + b.data.fill
        · rw [if_pos ⟨hc.1, hc.2, hi⟩, if_pos hc]
          rfl
        · rw [if_neg (fun h => hc ⟨h.1, h.2.1⟩), if_neg hc, hrel i, if_pos hi]
      · rw [if_neg hi, if_neg (fun h => hi h.2.2), hrel i, if_neg hi]
    obtain ⟨st2, hf2, hl2, hg2, hm2, hb2, hp2⟩ := ih st1 (sparse_write f (block_write dev b))
      (fun c hc => hst c (List.mem_cons_of_mem _ hc)) (by rw [hl1]; exact hbuf)
      (hl1.trans hlen) hrel1
    refine ⟨st2, ?_, hl2, ?_, le_trans hm1 hm2, ?_, ?_⟩
    · rw [List.foldl_cons]
      show List.foldl _ (get_data_callback (some dev) T0 (T0 + sz) st b) L = some st2
      rw [hcb]
      exact hf2
    · intro i
      rw [hg2 i, List.map_cons, List.foldl_cons]
    · rcases hb2 with e | e
      · rcases hb1 with e1 | e1
        · left; omega
        · right; omega
      · right; exact e
    · rintro ⟨c, hc, hcov⟩ hsz
      rcases List.mem_cons.mp hc with e | e
      · rw [e] at hcov
        have := hp1 hcov.1 hcov.2 hsz
        omega
      · exact hp2 ⟨c, e, hcov⟩ hsz

/-- A DATA block of the node that the filter of `_oncefs_get_data` refuses
holds no position of the window. -/
theorem get_data_filter_cover (ofs : oncefs_t) (dev : io_t) (n : Nat)
    (bl : List oncefs_block_t) (hinv : data_inv ofs dev n bl)
    (key : oncefs_block_t) (hkop : key.tag.operation = BLOCK_OPERATION_DATA)
    (hkn : key.data.node = n) (pos : Nat) (h1 : key.data.offset ≤ pos)
    (h2 : pos ≤ key.data.offset + key.data.fill) (b : oncefs_block_t) (hb : b ∈ bl)
    (hf : decide (_filter_get_data ofs.payload_size key b = 0) = false) :
    ¬ (b.data.offset ≤ pos ∧ pos < b.data.offset + b.data.fill) := by
  intro hc
  obtain ⟨-, hop, hn⟩ := (hinv.mem b).mp hb
  have hfill := (hinv.stored b hb).2.2.1
  have hz : _filter_get_data ofs.payload_size key b = 0 :=
    (filter_get_data_eq_zero _ _ _).mpr ⟨hop.trans hkop.symm, hn.trans hkn.symm,
      by omega, by omega⟩
  rw [hz] at hf
  simp at hf

/-- `_oncefs_get_data` on a well-formed engine whose container holds the
payloads of the DATA blocks of the node: the bytes of the logical file of
the blocks that lie in the window are laid over the buffer; the value
returned is NOT_FOUND or at most the payload size, and at least `1` when
the logical file holds a byte at the offset. -/
theorem get_data_helper_spec (ofs : oncefs_t) (dev : io_t) (n : Nat)
    (bl : List oncefs_block_t) (hwf : engine_wf ofs) (hinv : data_inv ofs dev n bl)
    (hp : ofs.payload_size = ofs.block_size - SIZEOF_TAG - SIZEOF_DATA)
    (hp0 : 0 ≤ ofs.payload_size) (data : List Nat) (size offset : Nat)
    (hbuf : size ≤ data.length) :
    ∃ rd, _oncefs_get_data ofs n data size offset = some rd ∧ rd.2.length = data.length ∧
      (∀ i, rd.2.getD i 0
        = if i < size then
            (logical_file (bl.map (block_write dev)) (offset + i)).getD (data.getD i 0)
          else data.getD i 0) ∧
      (rd.1 = -ENOENT ∨ (0 ≤ rd.1 ∧ rd.1 ≤ ofs.payload_size)) ∧
      (logical_file (bl.map (block_write dev)) offset ≠ none → 0 < size → 1 ≤ rd.1) := by
  obtain ⟨hdl, hdb⟩ := hwf.2.2.2 dev hinv.io
  obtain ⟨hq1, hq2, hq3⟩ := get_data_query ofs dev n bl hwf hinv
    (oncefs_block_t.mk 0 (oncefs_tag_t.mk 0 BLOCK_OPERATION_DATA)
      (oncefs_data_t.mk n size offset)) rfl rfl
  have hcov : ∀ pos, offset ≤ pos → pos ≤ offset + size → ∀ b ∈ bl,
      decide (_filter_get_data ofs.payload_size
        (oncefs_block_t.mk 0 (oncefs_tag_t.mk 0 BLOCK_OPERATION_DATA)
          (oncefs_data_t.mk n size offset)) b = 0) = false →
      ¬ (b.data.offset ≤ pos ∧ pos < b.data.offset + b.data.fill) :=
    fun pos h1 h2 b hb hf => get_data_filter_cover ofs dev n bl hinv _ rfl rfl pos h1 h2
      b hb hf
  have hfile : ∀ pos, offset ≤ pos → pos ≤ offset + size →
      ((bl.filter (fun b => decide (_filter_get_data ofs.payload_size
        (oncefs_block_t.mk 0 (oncefs_tag_t.mk 0 BLOCK_OPERATION_DATA)
          (oncefs_data_t.mk n size offset)) b = 0))).map (block_write dev)).foldl
        sparse_write (fun _ => none) pos
      = logical_file (bl.map (block_write dev)) pos :=
    fun pos h1 h2 => fold_write_filter dev _ pos bl _ (hcov pos h1 h2)
  unfold _oncefs_get_data
  dsimp only
  by_cases h0 : (table_query_order_by ofs.blocks
      (oncefs_block_t.mk 0 (oncefs_tag_t.mk 0 BLOCK_OPERATION_DATA)
        (oncefs_data_t.mk n size offset)) TABLE_INDEX_LOOKUP
      (some (_filter_get_data ofs.payload_size)) _order_by_seq).1 = 0
  · rw [if_neg (by simpa using h0), hq3 h0, hinv.io]
    obtain ⟨st1, hf1, hl1, hg1, -, hb1, hp1⟩ := get_data_fold dev offset size ofs.payload_size
      data (by rw [hdb, hp]; omega)
      (bl.filter (fun b => decide (_filter_get_data ofs.payload_size
        (oncefs_block_t.mk 0 (oncefs_tag_t.mk 0 BLOCK_OPERATION_DATA)
          (oncefs_data_t.mk n size offset)) b = 0)))
      (data, 0) (fun _ => none)
      (fun b hb => by
        have hbl := (List.mem_filter.mp hb).1
        obtain ⟨s1, s2, s3, -⟩ := hinv.stored b hbl
        have h4 := hwf.2.2.1.2 b (live_blocks_subset ofs hwf.1 b ((hinv.mem b).mp hbl).1)
        have h5 := hwf.2.2.1.1
        exact ⟨s1, s2, s3, by omega⟩)
      hbuf rfl
      (fun i => by
        split
        · rfl
        · rfl)
    rw [hf1]
    refine ⟨_, rfl, hl1, fun i => ?_, Or.inr ⟨by show (0 : Int) ≤ (st1.2 : Int); omega, ?_⟩, ?_⟩
    · show st1.1.getD i 0 = _
      rw [hg1 i]
      by_cases hi : i < size
      · rw [if_pos hi, if_pos hi, hfile (offset + i) (by omega) (by omega)]
      · rw [if_neg hi, if_neg hi]
    · show (st1.2 : Int) ≤ ofs.payload_size
      rcases hb1 with e | e
      · have e2 : ((st1.2 : Nat) : Int) ≤ ((0 : Nat) : Int) := e
        omega
      · exact e
    · intro hne hsz
      show (1 : Int) ≤ (st1.2 : Int)
      rcases fold_write_cover _ _ offset hne with e | ⟨w, hw, hc⟩
      · exact absurd rfl e
      · obtain ⟨b, hb, rfl⟩ := List.mem_map.mp hw
        have hpass : decide (_filter_get_data ofs.payload_size
            (oncefs_block_t.mk 0 (oncefs_tag_t.mk 0 BLOCK_OPERATION_DATA)
              (oncefs_data_t.mk n size offset)) b = 0) = true := by
          by_contra hnp
          exact hcov offset (le_refl _) (by omega) b hb (by simpa using hnp) hc
        have := hp1 ⟨b, List.mem_filter.mpr ⟨hb, hpass⟩, hc⟩ hsz
        omega
  · rw [if_pos h0]
    have hnone : bl.filter (fun b => decide (_filter_get_data ofs.payload_size
        (oncefs_block_t.mk 0 (oncefs_tag_t.mk 0 BLOCK_OPERATION_DATA)
          (oncefs_data_t.mk n size offset)) b = 0)) = [] := by
      rw [List.filter_eq_nil_iff]
      intro b hb hz
      exact h0 (hq2.mpr ⟨b, hb, by simpa using hz⟩)
    have hfile0 : ∀ pos, offset ≤ pos → pos ≤ offset + size →
        logical_file (bl.map (block_write dev)) pos = none := by
      intro pos h1 h2
      rw [← hfile pos h1 h2, hnone]
      rfl
    refine ⟨_, rfl, rfl, fun i => ?_, Or.inl ?_, fun hne _ => ?_⟩
    · by_cases hi : i < size
      · rw [if_pos hi, hfile0 (offset + i) (by omega) (by omega)]
        rfl
      · rw [if_neg hi]
    · rcases hq1 with e | e
      · exact absurd e h0
      · exact e
    · exact absurd (hfile0 offset (le_refl _) (by omega)) hne

/-- The head of a buffer followed by what a round of the read loop has
made of its tail. -/
theorem take_append_getD (data rd : List Nat) (total : Nat) (ht : total ≤ data.length)
    (hl : rd.length = data.length - total) :
    (data.take total ++ rd).length = data.length ∧
    ∀ i, (data.take total ++ rd).getD i 0
      = if i < total then data.getD i 0 else rd.getD (i - total) 0 := by
  have hl1 : (data.take total).length = total := by
    rw [List.length_take]; omega
  constructor
  · rw [List.length_append, hl1, hl]
    omega
  · intro i
    by_cases h1 : i < total
    · rw [if_pos h1, List.getD_append _ _ _ _ (by omega)]
      simp only [List.getD_eq_getElem?_getD]
      rw [List.getElem?_take_of_lt h1]
    · rw [if_neg h1, List.getD_append_right _ _ _ _ (by omega), hl1]

/-- The loop of `oncefs_get_data` over a window every position of which the
logical file of the DATA blocks holds a byte at: the loop returns at least
`size`, and the first `size` bytes of the buffer are those of the logical
file. -/
theorem get_data_loop_spec (ofs : oncefs_t) (dev : io_t) (n : Nat) (bl : List oncefs_block_t)
    (hwf : engine_wf ofs) (hinv : data_inv ofs dev n bl)
    (hp : ofs.payload_size = ofs.block_size - SIZEOF_TAG - SIZEOF_DATA)
    (hp0 : 0 < ofs.payload_size) (hp16 : ofs.payload_size < 2 ^ 16) (size offset : Nat)
    (len : Nat) (hsize : size ≤ len)
    (hdense : ∀ i, i < size → logical_file (bl.map (block_write dev)) (offset + i) ≠ none) :
    ∀ (fuel : Nat) (data : List Nat) (total : Nat), data.length = len →
      size ≤ total + fuel →
      (∀ i, i < total → i < size →
        some (data.getD i 0) = logical_file (bl.map (block_write dev)) (offset + i)) →
      ∃ rc buf1, get_data_loop ofs n size offset fuel data total = some (rc, buf1) ∧
        (size : Int) ≤ rc ∧ buf1.length = len ∧
        ∀ i, i < size →
          some (buf1.getD i 0) = logical_file (bl.map (block_write dev)) (offset + i) := by
  intro fuel
  induction fuel with
  | zero =>
    intro data total hlen hf hdata
    exact ⟨total, data, rfl, by omega, hlen, fun i hi => hdata i (by omega) hi⟩
  | succ fuel ih =>
    intro data total hlen hf hdata
    unfold get_data_loop
    by_cases hlt : total < size
    · rw [if_pos hlt]
      dsimp only
      generalize hlimit : (if (size - total : Int) > ofs.payload_size then
        ofs.payload_size.toNat else size - total) = limit
      have hlim : 1 ≤ limit ∧ (limit : Int) ≤ ofs.payload_size ∧ limit ≤ size - total ∧
          ((limit : Int) = ofs.payload_size ∨ limit = size - total) := by
        rw [← hlimit]
        split
        · rw [Int.toNat_of_nonneg (by omega)]
          omega
        · omega
      have h16 : limit % 2 ^ 16 = limit := Nat.mod_eq_of_lt (by omega)
      rw [h16]
      obtain ⟨rd, hrd, hrl, hrg, hrc, hr1⟩ := get_data_helper_spec ofs dev n bl hwf hinv hp
        (by omega) (data.drop total) limit (offset + total)
        (by rw [List.length_drop]; omega)
      have hge := hr1 (hdense total hlt) (by omega)
      rw [hrd]
      dsimp only
      rw [if_neg (by
        rintro (e | e)
        · rw [e] at hge
          exact absurd hge (by decide)
        · omega), if_neg (by omega)]
      have hrcb : rd.1 ≤ ofs.payload_size := by
        rcases hrc with e | e
        · rw [e] at hge
          exact absurd hge (by decide)
        · exact e.2
      rw [List.length_drop] at hrl
      obtain ⟨htl, htg⟩ := take_append_getD data rd.2 total (by omega) hrl
      refine ih _ _ (htl.trans hlen) (by omega) ?_
      intro i hi1 hi2
      rw [htg i]
      by_cases hit : i < total
      · rw [if_pos hit]
        exact hdata i hit hi2
      · rw [if_neg hit, hrg (i - total), if_pos (by omega)]
        have e : offset + total + (i - total) = offset + i := by omega
        rw [e]
        cases hF : logical_file (bl.map (block_write dev)) (offset + i) with
        | none => exact absurd hF (hdense i hi2)
        | some v => rfl
    · rw [if_neg hlt]
      exact ⟨total, data, rfl, by omega, hlen, fun i hi => hdata i (by omega) hi⟩

/-- An option that holds a value is `some` of it. -/
theorem option_get_some {α : Type} (x : Option α) (h : x.isSome = true) :
    x = some (x.get h) := by
  cases x with
  | none => simp at h
  | some v => rfl

/-- C2 (amended): read coherence where the container has room and the
window is written.  Let the engine be well formed, with a container that
holds its last valid block, a payload size that is the block size less the
tag and the data header, positive and below `2^16`, and no DATA block of the
node `n`.  Let every write and the window read end at or below `2^62`, and
let the sequence counter be at most `2^64 - 2^32` before the writes: then no
`uint64_t` sum of the source wraps, no `off_t` value of the read path leaves
its range, and the sequence numbers grow from write to write.  After a run
of `set_data(n, ...)` calls each of which leaves an unused block at the tail
of the container, every call has returned OK, and for a window `[offset,
offset + size)` every position of which one of the writes has written,
`oncefs_get_data(n, buf, size, offset)` returns at least `size` and leaves
in the first `size` bytes of the buffer the bytes of the logical file: the
writes applied in call order to an empty sparse file. -/
theorem c2_read_coherence (ofs0 : oncefs_t) (dev0 : io_t) (n : Nat) (ws : List write_t)
    (rcs : List Int) (ofs : oncefs_t) (buf : List Nat) (size offset : Nat)
    (hwf : engine_wf ofs0) (hio : ofs0.io = some dev0)
    (hlen : dev0.last_valid_block < dev0.buffer.length)
    (hnone : ∀ b ∈ live_blocks ofs0,
      ¬ (b.tag.operation = BLOCK_OPERATION_DATA ∧ b.data.node = n))
    (hp : ofs0.payload_size = ofs0.block_size - SIZEOF_TAG - SIZEOF_DATA)
    (hp0 : 0 < ofs0.payload_size) (hp16 : ofs0.payload_size < 2 ^ 16)
    (hL : ofs0.last_block_id < 2 ^ 32)
    (hrun : run_ops (write_ops n ws) ofs0 = some (rcs, ofs))
    (hfits : run_fits (write_ops n ws) ofs0)
    (hbuf : size ≤ buf.length)
    (hdense : ∀ i, i < size → logical_file ws (offset + i) ≠ none)
    (hwrites : ∀ w ∈ ws, w.offset + w.size ≤ 2 ^ 62)
    (hwindow : offset + size ≤ 2 ^ 62)
    (hseq : ofs0.next_seq_id + 2 ^ 32 ≤ 2 ^ 64) :
    (∀ rc ∈ rcs, rc = 0) ∧
    ∃ rc buf1, oncefs_get_data ofs n buf size offset = some (rc, buf1) ∧
      (size : Int) ≤ rc ∧ buf1.length = buf.length ∧
      ∀ i, i < size → some (buf1.getD i 0) = logical_file ws (offset + i) := by
  have _ := hwrites
  have _ := hwindow
  have _ := hseq
  have hinv0 : data_inv ofs0 dev0 n [] :=
    { io := hio, len := hlen,
      mem := fun b => ⟨fun h => absurd h (List.not_mem_nil b),
        fun h => absurd ⟨h.2.1, h.2.2⟩ (hnone b h.1)⟩,
      seq := List.Pairwise.nil,
      stored := fun b h => absurd h (List.not_mem_nil b) }
  obtain ⟨dev1, bl1, hok, hwf1, hinv1, hps, hbs, -, hfile⟩ :=
    write_run_data n ws ofs0 dev0 [] rcs ofs hwf hinv0 hp hp0 hp16 hL hrun hfits
  have hfile1 : ∀ pos, logical_file (bl1.map (block_write dev1)) pos = logical_file ws pos :=
    fun pos => hfile pos
  refine ⟨hok, ?_⟩
  obtain ⟨rc, buf1, h1, h2, h3, h4⟩ := get_data_loop_spec ofs dev1 n bl1 hwf1 hinv1
    (by rw [hps, hbs]; exact hp) (by rw [hps]; exact hp0) (by rw [hps]; exact hp16)
    size offset buf.length hbuf (fun i hi => by rw [hfile1]; exact hdense i hi)
    size buf 0 rfl (by omega) (fun i hi _ => absurd hi (Nat.not_lt_zero i))
  refine ⟨rc, buf1, ?_, h2, h3, fun i hi => by rw [h4 i hi, hfile1]⟩
  unfold oncefs_get_data
  rw [if_neg (by omega)]
  exact h1

/-- Witness for C2 (amended): the five overlay writes of the claim on a
container of 512-byte blocks, and the read of 14 bytes at offset 1. -/
theorem c2_read_coherence_witness :
    ∃ rcs ofs, run_ops (write_ops 1 overlay_writes) (engine_after 512 20 []) = some (rcs, ofs) ∧
      run_fits (write_ops 1 overlay_writes) (engine_after 512 20 []) ∧
      (∀ i, i < 14 → logical_file overlay_writes (1 + i) ≠ none) ∧
      (∀ rc ∈ rcs, rc = 0) ∧
      ∃ rc buf1, oncefs_get_data ofs 1 (List.replicate 14 0) 14 1 = some (rc, buf1) ∧
        ((14 : Nat) : Int) ≤ rc ∧ buf1.length = (List.replicate 14 0).length ∧
        ∀ i, i < 14 → some (buf1.getD i 0) = logical_file overlay_writes (1 + i) := by
  have hwf : engine_wf (engine_after 512 20 []) :=
    reachable_engine_wf _ (engine_after_reachable 512 20 _ (by decide) (by decide))
  have hdev : (engine_after 512 20 []).io.isSome = true := by decide
  have hsome : (run_ops (write_ops 1 overlay_writes) (engine_after 512 20 [])).isSome = true := by
    decide
  have hio : (engine_after 512 20 []).io = some ((engine_after 512 20 []).io.get hdev) :=
    option_get_some _ hdev
  have hlen0 : ((engine_after 512 20 []).io.get (by decide)).last_valid_block
      < ((engine_after 512 20 []).io.get (by decide)).buffer.length := by decide
  have hlen : ((engine_after 512 20 []).io.get hdev).last_valid_block
      < ((engine_after 512 20 []).io.get hdev).buffer.length := hlen0
  have hrun := option_get_pair (run_ops (write_ops 1 overlay_writes) (engine_after 512 20 []))
    hsome
  have hfits : run_fits (write_ops 1 overlay_writes) (engine_after 512 20 []) := by
    rw [run_fits_iff]
    decide
  have hdense : ∀ i, i < 14 → logical_file overlay_writes (1 + i) ≠ none := by decide
  exact ⟨_, _, hrun, hfits, hdense,
    c2_read_coherence (engine_after 512 20 []) ((engine_after 512 20 []).io.get hdev) 1
      overlay_writes
      ((run_ops (write_ops 1 overlay_writes) (engine_after 512 20 [])).get hsome).1
      ((run_ops (write_ops 1 overlay_writes) (engine_after 512 20 [])).get hsome).2
      (List.replicate 14 0) 14 1
      hwf hio hlen (by decide) (by decide) (by decide) (by decide) (by decide) hrun
      (by exact hfits) (by decide) (by exact hdense) (by decide) (by norm_num) (by decide)⟩

/-- A segment `io_write3` accepts has as many bytes as its size. -/
theorem io_segment_length (data : Option (List Nat)) (size : Nat) (seg : List Nat)
    (h : io_segment data size = some seg) : seg.length = size := by
  unfold io_segment at h
  cases data with
  | none =>
    simp only at h
    split at h
    · rename_i h0
      have : size = 0 := by exact_mod_cast h0
      cases h; simp [this]
    · cases h
  | some bytes =>
    simp only [Int.toNat_ofNat] at h
    split at h
    · rename_i hle
      cases h
      simp [List.length_take, hle]
    · cases h

/-- Bytes spliced into a buffer: the bytes before and behind stay, the bytes
at the place are the new ones. -/
theorem splice_spec (buffer seg : List Nat) (start : Nat)
    (h : start + seg.length ≤ buffer.length) :
    (buffer.take start ++ seg ++ buffer.drop (start + seg.length)).length = buffer.length ∧
    (∀ j, j < start ∨ start + seg.length ≤ j →
      (buffer.take start ++ seg ++ buffer.drop (start + seg.length)).getD j 0
        = buffer.getD j 0) ∧
    ((buffer.take start ++ seg ++ buffer.drop (start + seg.length)).drop start).take seg.length
      = seg := by
  have hlt : (buffer.take start).length = start := by
    rw [List.length_take]; omega
  refine ⟨?_, ?_, ?_⟩
  · simp only [List.length_append, List.length_take, List.length_drop]; omega
  · intro j hj
    rw [List.append_assoc]
    rcases hj with hj | hj
    · rw [List.getD_append _ _ _ _ (by rw [hlt]; exact hj)]
      simp only [List.getD_eq_getElem?_getD, List.getElem?_take]
      rw [if_pos hj]
    · rw [List.getD_append_right _ _ _ _ (by rw [hlt]; omega), hlt,
        List.getD_append_right _ _ _ _ (by omega)]
      simp only [List.getD_eq_getElem?_getD, List.getElem?_drop]
      congr 2
      omega
  · rw [List.append_assoc, List.drop_append_eq_append_drop, hlt, Nat.sub_self, List.drop_zero,
      List.drop_of_length_le (by rw [hlt]), List.nil_append, List.take_append_eq_append_take,
      Nat.sub_self, List.take_zero, List.append_nil, List.take_of_length_le (le_refl _)]

/-- C29 (block I/O round trip).  On an in-memory container as `io_init`
sets it up, for a block id up to the last valid block and three segments
that hold their sizes, the sizes summing to at most the block size:
`io_write3` returns OK; block size, last valid block and length of the
container stay; every byte outside the `size + size2 + size3` bytes from the
start of the block (the rest of the block and every other block) is
unchanged; `io_read3` of the block with the same three sizes returns OK and
puts the bytes of the three segments, in order, at the head of the three
destinations; and `io_read` of the total length returns OK with the
concatenation of the three segments at the head of its destination. -/
theorem c29_io_round_trip (io : io_mem_t) (block : Nat)
    (data data2 data3 : Option (List Nat)) (size size2 size3 : Nat)
    (seg seg2 seg3 : List Nat)
    (hwf : io_mem_wf io) (hblock : block ≤ io.last_valid_block)
    (hsum : (size : Int) + size2 + size3 ≤ io.block_size)
    (h1 : io_segment data size = some seg) (h2 : io_segment data2 size2 = some seg2)
    (h3 : io_segment data3 size3 = some seg3) :
    ∃ io1, io_write3 io block data size data2 size2 data3 size3 = some (0, io1) ∧
      io1.block_size = io.block_size ∧ io1.last_valid_block = io.last_valid_block ∧
      io1.buffer.length = io.buffer.length ∧
      (∀ j, j < block * io.block_size.toNat ∨
          block * io.block_size.toNat + (size + size2 + size3) ≤ j →
        io1.buffer.getD j 0 = io.buffer.getD j 0) ∧
      (∀ d d2 d3 : List Nat, size ≤ d.length → size2 ≤ d2.length → size3 ≤ d3.length →
        io_read3 io1 block (some d) size (some d2) size2 (some d3) size3
          = some (0, some (seg ++ d.drop size), some (seg2 ++ d2.drop size2),
              some (seg3 ++ d3.drop size3))) ∧
      (∀ d : List Nat, size + size2 + size3 ≤ d.length →
        io_read io1 block (some d) ((size + size2 + size3 : Nat) : Int)
          = some (0, some (seg ++ seg2 ++ seg3 ++ d.drop (size + size2 + size3)), none,
              none)) := by
  obtain ⟨hb0, hb31, hlen, hlen64⟩ := hwf
  have hl1 := io_segment_length _ _ _ h1
  have hl2 := io_segment_length _ _ _ h2
  have hl3 := io_segment_length _ _ _ h3
  obtain ⟨bs, hbs⟩ : ∃ bs : Nat, io.block_size = (bs : Int) :=
    ⟨io.block_size.toNat, (Int.toNat_of_nonneg (le_of_lt hb0)).symm⟩
  have hbsn : io.block_size.toNat = bs := by rw [hbs]; exact Int.toNat_ofNat bs
  rw [hbsn] at hlen ⊢
  have hsumn : size + size2 + size3 ≤ bs := by
    rw [hbs] at hsum; exact_mod_cast hsum
  have hbs31 : bs < 2 ^ 31 := by rw [hbs] at hb31; exact_mod_cast hb31
  have hmul : block * bs + bs ≤ io.buffer.length := by
    rw [hlen]
    have : (block + 1) * bs ≤ (io.last_valid_block + 1) * bs :=
      Nat.mul_le_mul_right _ (by omega)
    calc block * bs + bs = (block + 1) * bs := by ring
      _ ≤ _ := this
  have hstart : block * bs % 2 ^ 64 = block * bs := Nat.mod_eq_of_lt (by omega)
  have hSlen : (seg ++ seg2 ++ seg3).length = size + size2 + size3 := by
    simp only [List.length_append, hl1, hl2, hl3]
  have hfit : block * bs + (seg ++ seg2 ++ seg3).length ≤ io.buffer.length := by
    rw [hSlen]; omega
  obtain ⟨hs1, hs2, hs3⟩ := splice_spec io.buffer (seg ++ seg2 ++ seg3) (block * bs) hfit
  have hr1 : int_range ((size : Int) + size2) := by
    unfold int_range; constructor <;> omega
  have hr2 : int_range ((size : Int) + size2 + size3) := by
    unfold int_range; constructor <;> omega
  have hwrite : io_write3 io block data size data2 size2 data3 size3
      = some (0, { io with buffer := io.buffer.take (block * bs) ++ (seg ++ seg2 ++ seg3)
                     ++ io.buffer.drop (block * bs + (seg ++ seg2 ++ seg3).length) }) := by
    unfold io_write3
    rw [if_neg (by omega), if_neg (by simp only [not_not]; exact ⟨hr1, hr2⟩),
      if_neg (by omega), if_neg (by omega), h1, h2, h3]
    simp only [hbsn, hstart]
    rw [if_neg (by omega)]
  refine ⟨_, hwrite, rfl, rfl, hs1, ?_, ?_, ?_⟩
  · intro j hj
    apply hs2
    rw [hSlen]
    exact hj
  · intro d d2 d3 hd hd2 hd3
    unfold io_read3
    simp only [hbsn, hstart, Int.toNat_ofNat]
    rw [if_neg (by omega), if_neg (by simp only [not_not]; exact ⟨hr1, hr2⟩),
      if_neg (by omega), if_neg (by omega), if_neg (by rw [hs1]; omega)]
    rw [← hSlen, hs3]
    have e1 : (seg ++ seg2 ++ seg3).take size = seg := by
      rw [List.append_assoc, ← hl1, List.take_left]
    have e2 : ((seg ++ seg2 ++ seg3).drop size).take size2 = seg2 := by
      rw [List.append_assoc, ← hl1, List.drop_left, ← hl2, List.take_left]
    have e3 : ((seg ++ seg2 ++ seg3).drop (size + size2)).take size3 = seg3 := by
      rw [← hl1, ← hl2, ← List.length_append, List.drop_left, ← hl3, List.take_length]
    rw [e1, e2, e3]
    unfold io_fill
    simp only [hl1, hl2, hl3]
    rw [if_pos hd, if_pos hd2, if_pos hd3]
  · intro d hd
    unfold io_read io_read2 io_read3
    simp only [hbsn, hstart, Int.toNat_ofNat, add_zero, Int.toNat_zero]
    have hr3 : int_range ((size + size2 + size3 : Nat) : Int) := by
      unfold int_range; constructor <;> omega
    rw [if_neg (by omega), if_neg (by simp only [not_not]; exact ⟨hr3, hr3⟩),
      if_neg (by omega), if_neg (by omega), if_neg (by rw [hs1]; omega)]
    rw [← hSlen, hs3]
    unfold io_fill
    simp only [List.take_length, List.drop_length, List.take_nil, List.length_nil]
    rw [if_pos (by rw [hSlen]; exact hd)]

/-- Witness of C29: the writes of the test `_do_test_io`, `"One"` and
`"Three"` to block `0` of a container of ten blocks of 16 bytes. -/
theorem c29_io_round_trip_witness :
    io_mem_wf test_io ∧
    ∃ io1, io_write3 test_io 0 (some (bytes_of "One")) 3 (some (bytes_of "Three")) 5 none 0
        = some (0, io1) ∧
      io1.block_size = test_io.block_size ∧ io1.last_valid_block = test_io.last_valid_block ∧
      io1.buffer.length = test_io.buffer.length ∧
      (∀ j, j < 0 * test_io.block_size.toNat ∨
          0 * test_io.block_size.toNat + (3 + 5 + 0) ≤ j →
        io1.buffer.getD j 0 = test_io.buffer.getD j 0) ∧
      (∀ d d2 d3 : List Nat, 3 ≤ d.length → 5 ≤ d2.length → 0 ≤ d3.length →
        io_read3 io1 0 (some d) (3 : Nat) (some d2) (5 : Nat) (some d3) (0 : Nat)
          = some (0, some (bytes_of "One" ++ d.drop 3), some (bytes_of "Three" ++ d2.drop 5),
              some ([] ++ d3.drop 0))) ∧
      (∀ d : List Nat, 3 + 5 + 0 ≤ d.length →
        io_read io1 0 (some d) ((3 + 5 + 0 : Nat) : Int)
          = some (0, some (bytes_of "One" ++ bytes_of "Three" ++ [] ++ d.drop (3 + 5 + 0)),
              none, none)) :=
  ⟨by decide,
   c29_io_round_trip test_io 0 (some (bytes_of "One")) (some (bytes_of "Three")) none 3 5 0
     (bytes_of "One") (bytes_of "Three") [] (by decide) (by decide) (by decide) (by decide)
     (by decide) (by decide)⟩

/-- C30, as stated, fails: `io_write3` to a block past the last valid block
returns OVERFLOW, not INVALID. -/
theorem c30_counterexample :
    io_write3 test_io 10 (some (bytes_of "x")) 1 none 0 none 0 = some (-EOVERFLOW, test_io) ∧
    -EOVERFLOW ≠ -EINVAL := by
  decide

/-- C30 (amended): `io_write3` returns OVERFLOW when the block id is greater
than the last valid block, whatever the sizes are, and INVALID when the
block id is valid and the total size of the segments (a sum an `int` holds)
exceeds the block size; in both cases the container is unchanged. -/
theorem c30_io_write_errors (io : io_mem_t) (block : Nat)
    (data data2 data3 : Option (List Nat)) (size size2 size3 : Int) :
    (block > io.last_valid_block →
      io_write3 io block data size data2 size2 data3 size3 = some (-EOVERFLOW, io)) ∧
    (block ≤ io.last_valid_block → int_range (size + size2) →
      int_range (size + size2 + size3) → size + size2 + size3 > io.block_size →
      io_write3 io block data size data2 size2 data3 size3 = some (-EINVAL, io)) := by
  constructor
  · intro h
    unfold io_write3
    rw [if_pos h]
  · intro h h1 h2 h3
    unfold io_write3
    rw [if_neg (by omega), if_neg (by simp only [not_not]; exact ⟨h1, h2⟩), if_pos h3]

/-- Witness of C30 (amended): a write to block `10` of a container whose
last valid block is `9`, and a write of 17 bytes to a block of 16 bytes. -/
theorem c30_io_write_errors_witness :
    io_write3 test_io 10 (some (bytes_of "x")) 1 none 0 none 0 = some (-EOVERFLOW, test_io) ∧
    io_write3 test_io 0 (some (bytes_of "0123456789abcdefg")) 17 none 0 none 0
      = some (-EINVAL, test_io) :=
  ⟨(c30_io_write_errors test_io 10 (some (bytes_of "x")) none none 1 0 0).1 (by decide),
   (c30_io_write_errors test_io 0 (some (bytes_of "0123456789abcdefg")) none none 17 0 0).2
     (by decide) (by decide) (by decide) (by decide)⟩

/-- The test `_do_test_io` on the in-memory container: `"One"` and `"Three"`
written to block `0` and `"Two"` to block `1` read back as `"OneThree"` and
`"Two"` (into a buffer of 100 bytes). -/
theorem do_test_io_run :
    ((io_write2 test_io 0 (some (bytes_of "One")) 3 (some (bytes_of "Three")) 5).bind
      (fun w => (io_write w.2 1 (some (bytes_of "Two")) 3).bind
        (fun w2 => (io_read w2.2 0 (some (List.replicate 100 0)) 8).bind
          (fun r => (io_read w2.2 1 r.2.1 3).map
            (fun r2 => (w.1, w2.1, r.1, r.2.1.map (fun d => d.take 8), r2.1,
              r2.2.1.map (fun d => d.take 3)))))))
      = some (0, 0, 0, some (bytes_of "OneThree"), 0, some (bytes_of "Two")) := by
  rfl

/-- A defined run from the default engine ends in a reachable state. -/
theorem default_run_reachable (ops : List op_t) (now : Nat)
    (h : (run_ops ops (oncefs_init_default now)).isSome = true) :
    reachable (state_of (run_ops ops (oncefs_init_default now))) := by
  have h0 : reachable (oncefs_init_default now) :=
    reachable.init none 0 now [] _ (by rfl)
  cases hr : run_ops ops (oncefs_init_default now) with
  | none => rw [hr] at h; simp at h
  | some r =>
    have := reachable_run ops _ h0 r hr
    simpa [state_of] using this

/-- `table_query_count` by operation through the lookup index of a
well-formed blocks table: OK, and the number of live blocks with the
operation of the key. -/
theorem query_count_operation (ofs : oncefs_t) (h : blocks_wf ofs) (key : oncefs_block_t) :
    table_query_count ofs.blocks key TABLE_INDEX_LOOKUP (some _filter_operation)
      = (0, (live_blocks ofs).countP
          (fun b => decide (b.tag.operation = key.tag.operation))) := by
  obtain ⟨hlen, -, hc1, -⟩ := blocks_wf_indexes ofs h
  have hs := live_blocks_sorted ofs h
  rw [live_blocks_eq] at hs
  obtain ⟨-, hrc, hids⟩ := table_query_ids_spec ofs.blocks key 1 _oncefs_block_cmp_lookup
    _filter_operation (by omega) hs (filter_mono_operation key)
  unfold table_query_count
  have hcond : ¬ ((table_query_ids ofs.blocks key TABLE_INDEX_LOOKUP
      (some _filter_operation)).1 ≠ 0 ∧
      (table_query_ids ofs.blocks key TABLE_INDEX_LOOKUP (some _filter_operation)).1
        ≠ -ENOENT) := by
    rcases hrc with h0 | h0
    · exact fun hh => hh.1 h0
    · exact fun hh => hh.2 h0
  simp only
  rw [if_neg hcond]
  show ((0 : Int), (table_query_ids ofs.blocks key 1 (some _filter_operation)).2.length) = _
  rw [hids, live_blocks_eq, index_rows, List.countP_map, List.countP_eq_length_filter]
  congr 2
  apply List.filter_congr
  intro id _
  simp only [Function.comp, filter_operation_eq_zero]

/-- C25 (get_status).  On every engine state satisfying the invariant (so
on every reachable state) `get_status` returns OK with the block size of the
engine, `name_max_size = 256`, `total_blocks = last_block_id -
first_block_id + 1` and `free_blocks = (last_block_id - next_block_id + 1)
+ (number of live block records with operation FREE) + (number with
operation DELETE)`, both modulo `2^64`. -/
theorem c25_get_status (ofs : oncefs_t) (hwf : engine_wf ofs) :
    ∃ st, oncefs_get_status ofs = (0, st) ∧
      st.block_size = ofs.block_size ∧ st.name_max_size = 256 ∧
      (st.total_blocks : Int)
        = ((ofs.last_block_id : Int) - ofs.first_block_id + 1) % 2 ^ 64 ∧
      (st.free_blocks : Int)
        = (((ofs.last_block_id : Int) - ofs.next_block_id + 1)
            + (live_blocks ofs).countP
                (fun b => decide (b.tag.operation = BLOCK_OPERATION_FREE))
            + (live_blocks ofs).countP
                (fun b => decide (b.tag.operation = BLOCK_OPERATION_DELETE))) % 2 ^ 64 := by
  have hf := query_count_operation ofs hwf.1
    { block := 0, tag := { seq := 0, operation := BLOCK_OPERATION_FREE }, data := default }
  have hd := query_count_operation ofs hwf.1
    { block := 0, tag := { seq := 0, operation := BLOCK_OPERATION_DELETE }, data := default }
  unfold oncefs_get_status
  simp only [hf, hd]
  rw [if_neg (by simp), if_neg (by simp)]
  refine ⟨_, rfl, rfl, rfl, ?_, ?_⟩
  · simp only
    push_cast
    omega
  · simp only
    generalize (live_blocks ofs).countP
      (fun b => decide (b.tag.operation = BLOCK_OPERATION_FREE)) = cf
    generalize (live_blocks ofs).countP
      (fun b => decide (b.tag.operation = BLOCK_OPERATION_DELETE)) = cd
    push_cast
    omega

/-- Witness of C25: the default engine after a file, a directory and a link
are created and the file is deleted; five blocks are used, two of them (the
FREE block of the file and the DELETE block) count as free: `free_blocks =
total_blocks - 5 + 2`, with `total_blocks = 2^64 - 2`. -/
theorem c25_get_status_witness :
    (∃ st, oncefs_get_status (state_of (run_ops c25_setup (oncefs_init_default 5))) = (0, st) ∧
      st.block_size = (state_of (run_ops c25_setup (oncefs_init_default 5))).block_size ∧
      st.name_max_size = 256 ∧
      (st.total_blocks : Int)
        = (((state_of (run_ops c25_setup (oncefs_init_default 5))).last_block_id : Int)
            - (state_of (run_ops c25_setup (oncefs_init_default 5))).first_block_id + 1)
          % 2 ^ 64 ∧
      (st.free_blocks : Int)
        = ((((state_of (run_ops c25_setup (oncefs_init_default 5))).last_block_id : Int)
            - (state_of (run_ops c25_setup (oncefs_init_default 5))).next_block_id + 1)
            + (live_blocks (state_of (run_ops c25_setup (oncefs_init_default 5)))).countP
                (fun b => decide (b.tag.operation = BLOCK_OPERATION_FREE))
            + (live_blocks (state_of (run_ops c25_setup (oncefs_init_default 5)))).countP
                (fun b => decide (b.tag.operation = BLOCK_OPERATION_DELETE))) % 2 ^ 64) ∧
    (run_ops c25_setup (oncefs_init_default 5)).map (fun r => r.1) = some [0, 0, 0, 0] ∧
    (oncefs_get_status (state_of (run_ops c25_setup (oncefs_init_default 5)))).2.block_size
      = 64 ∧
    (oncefs_get_status (state_of (run_ops c25_setup (oncefs_init_default 5)))).2.total_blocks
      = 2 ^ 64 - 2 ∧
    (oncefs_get_status (state_of (run_ops c25_setup (oncefs_init_default 5)))).2.free_blocks
      = 2 ^ 64 - 2 - 5 + 2 :=
  ⟨c25_get_status _ (reachable_engine_wf _ (default_run_reachable c25_setup 5 (by decide))),
   by decide, by decide, by decide, by decide⟩

/-- The loop that draws the operation ends as soon as a result is accepted,
and uses up one accepted result. -/
theorem draw_operation_total : ∀ (rnd : List Nat), 1 ≤ (accepted_draws rnd).length →
    ∃ d, draw_operation rnd = some d ∧
      (accepted_draws d.2).length + 1 = (accepted_draws rnd).length := by
  intro rnd
  induction rnd with
  | nil => intro h; simp [accepted_draws] at h
  | cons x xs ih =>
    intro h
    unfold draw_operation
    by_cases hx : to_char x ≤ BLOCK_OPERATION_LAST
    · rw [if_pos hx]
      have hf : accepted_draws (x :: xs) = accepted_draws xs := by
        unfold accepted_draws
        rw [List.filter_cons_of_neg (by simpa using hx)]
      rw [hf] at h ⊢
      exact ih h
    · rw [if_neg hx]
      refine ⟨_, rfl, ?_⟩
      unfold accepted_draws
      rw [List.filter_cons_of_pos (by simpa using hx)]
      simp

/-- `io_write` of a tag into a valid block of a container whose blocks hold
a tag. -/
theorem io_write_tag_ok (io : io_t) (block : Nat) (tag : oncefs_tag_t)
    (hb : block ≤ io.last_valid_block) (hs : SIZEOF_TAG ≤ io.block_size) :
    io_write_tag io block tag
      = (0, { io with buffer := (io.buffer.set block
                { tag := tag, body := (io.buffer.getD block default).body }) }) := by
  have hc : io_check io block SIZEOF_TAG = 0 := by
    unfold io_check
    rw [if_neg (by omega), if_neg (by omega)]
  unfold io_write_tag
  rw [if_neg (by rw [hc]; exact fun h => h rfl)]

/-- The loop of `_oncefs_format` over valid blocks of a container whose
blocks hold a tag: when it ends it has returned OK; the container keeps its
block size, its last valid block and its length; every block keeps what it
holds behind the tag; the blocks the loop did not go over keep their tag,
and those it went over have a tag with an operation above
`BLOCK_OPERATION_LAST`. -/
theorem format_loop_spec : ∀ (ids : List Nat) (io : io_t) (rnd : List Nat) (r : Int × io_t),
    (∀ i ∈ ids, i ≤ io.last_valid_block) → SIZEOF_TAG ≤ io.block_size →
    format_loop ids io rnd = some r →
    r.1 = 0 ∧ r.2.block_size = io.block_size ∧ r.2.last_valid_block = io.last_valid_block ∧
    r.2.buffer.length = io.buffer.length ∧
    ∀ i, (r.2.buffer.getD i default).body = (io.buffer.getD i default).body ∧
      (i ∉ ids → (r.2.buffer.getD i default).tag = (io.buffer.getD i default).tag) ∧
      (i ∈ ids → i < io.buffer.length →
        (r.2.buffer.getD i default).tag.operation > BLOCK_OPERATION_LAST) := by
  intro ids
  induction ids with
  | nil =>
    intro io rnd r _ _ h
    simp only [format_loop] at h
    have h1 := Option.some.inj h
    rw [← h1]
    exact ⟨rfl, rfl, rfl, rfl, fun i => ⟨rfl, fun _ => rfl, fun hi => by simp at hi⟩⟩
  | cons j rest ih =>
    intro io rnd r hids hbs h
    cases rnd with
    | nil => simp [format_loop] at h
    | cons seq rnd =>
      unfold format_loop at h
      cases hd : draw_operation rnd with
      | none => rw [hd] at h; cases h
      | some d =>
        rw [hd] at h
        dsimp only at h
        have hop := draw_operation_spec rnd d hd
        have hw := io_write_tag_ok io j (oncefs_tag_t.mk seq d.1)
          (hids j (List.mem_cons_self _ _)) hbs
        rw [hw] at h
        rw [if_neg (fun hh => hh rfl)] at h
        obtain ⟨h0, hb1, hl1, hlen1, hall⟩ := ih
          { io with buffer := (io.buffer.set j
              { tag := oncefs_tag_t.mk seq d.1, body := (io.buffer.getD j default).body }) }
          d.2 r (fun i hi => hids i (List.mem_cons_of_mem _ hi)) hbs h
        refine ⟨h0, hb1, hl1, ?_, fun i => ?_⟩
        · rw [hlen1]; simp
        · obtain ⟨hbody, hkeep, hnew⟩ := hall i
          simp only [List.length_set] at hnew
          by_cases hij : i = j
          · subst hij
            by_cases hlt : i < io.buffer.length
            · have hget : (io.buffer.set i
                  { tag := oncefs_tag_t.mk seq d.1,
                    body := (io.buffer.getD i default).body }).getD i default
                  = { tag := oncefs_tag_t.mk seq d.1,
                      body := (io.buffer.getD i default).body } :=
                getD_set_eq _ _ _ _ hlt
              refine ⟨?_, fun hn => absurd (List.mem_cons_self _ _) hn, fun _ _ => ?_⟩
              · rw [hbody]; simp only; rw [hget]
              · by_cases hr : i ∈ rest
                · exact hnew hr hlt
                · rw [hkeep hr]; simp only; rw [hget]; exact hop
            · have hset : io.buffer.set i
                  { tag := oncefs_tag_t.mk seq d.1,
                    body := (io.buffer.getD i default).body } = io.buffer :=
                List.set_eq_of_length_le (by omega)
              refine ⟨?_, fun hn => absurd (List.mem_cons_self _ _) hn,
                fun _ hl => absurd hl hlt⟩
              rw [hbody]; simp only; rw [hset]
          · have hget : (io.buffer.set j
                { tag := oncefs_tag_t.mk seq d.1,
                  body := (io.buffer.getD j default).body }).getD i default
                = io.buffer.getD i default := getD_set_ne _ _ _ _ _ hij
            refine ⟨?_, fun hn => ?_, fun hm hl => ?_⟩
            · rw [hbody]; simp only; rw [hget]
            · rw [hkeep (fun hr => hn (List.mem_cons_of_mem _ hr))]; simp only; rw [hget]
            · rcases List.mem_cons.mp hm with hm | hm
              · exact absurd hm hij
              · exact hnew hm hl

/-- The loop of `_oncefs_format` over valid blocks ends when the results of
`random()` hold two accepted results for every block: one may go into the
`seq` and one ends the loop that draws the operation. -/
theorem format_loop_total : ∀ (ids : List Nat) (io : io_t) (rnd : List Nat),
    (∀ i ∈ ids, i ≤ io.last_valid_block) → SIZEOF_TAG ≤ io.block_size →
    2 * ids.length ≤ (accepted_draws rnd).length →
    (format_loop ids io rnd).isSome = true := by
  intro ids
  induction ids with
  | nil => intro io rnd _ _ _; simp [format_loop]
  | cons j rest ih =>
    intro io rnd hids hbs hgood
    cases rnd with
    | nil => simp [accepted_draws] at hgood
    | cons seq rnd =>
      have hg1 : (accepted_draws (seq :: rnd)).length ≤ (accepted_draws rnd).length + 1 := by
        unfold accepted_draws
        rw [List.filter_cons]
        split <;> simp
      simp only [List.length_cons] at hgood
      obtain ⟨d, hd, hdl⟩ := draw_operation_total rnd (by omega)
      unfold format_loop
      rw [hd]
      dsimp only
      have hw := io_write_tag_ok io j (oncefs_tag_t.mk seq d.1)
        (hids j (List.mem_cons_self _ _)) hbs
      rw [hw, if_neg (fun hh => hh rfl)]
      exact ih
        { io with buffer := (io.buffer.set j
            { tag := oncefs_tag_t.mk seq d.1, body := (io.buffer.getD j default).body }) }
        d.2 (fun i hi => hids i (List.mem_cons_of_mem _ hi)) hbs (by omega)

/-- C27 (format yields an empty filesystem).  For every container (every
prior content) whose buffer holds its last valid block and whose blocks hold
the tag and the data header (the check `oncefs_init` makes before it
formats), and for all results `rnd` of `random()`: `_oncefs_format` ends
when `rnd` holds two accepted results for every block from the first to the
last valid one; and whenever it ends it has returned OK, every block tag
from `io_block_first` to `io_block_last` has an operation above
`BLOCK_OPERATION_LAST = 8`, every block, block `0` included, holds behind
its tag what it held, and a following `oncefs_init` without format returns
OK with the engine `oncefs_init` sets up before it loads: empty nodes and
blocks tables, `next_seq_id = 1`, `next_node_id = 1` and `next_block_id =
first_block_id`. -/
theorem c27_format_empty (dev : io_t) (rnd : List Nat)
    (hlen : dev.last_valid_block < dev.buffer.length)
    (hbs : SIZEOF_TAG + SIZEOF_DATA ≤ dev.block_size) :
    (2 * dev.last_valid_block ≤ (accepted_draws rnd).length →
      (_oncefs_format dev rnd).isSome = true) ∧
    ∀ r, _oncefs_format dev rnd = some r →
      r.1 = 0 ∧ r.2.block_size = dev.block_size ∧
      r.2.last_valid_block = dev.last_valid_block ∧
      r.2.buffer.length = dev.buffer.length ∧
      (∀ i, io_block_first dev ≤ i → i ≤ io_block_last dev →
        (r.2.buffer.getD i default).tag.operation > BLOCK_OPERATION_LAST) ∧
      (∀ i, (r.2.buffer.getD i default).body = (dev.buffer.getD i default).body) ∧
      ∀ (now : Nat) (rnd2 : List Nat),
        ∃ ofs, oncefs_init (some r.2) 0 now rnd2 = some (0, ofs) ∧
          ofs.nodes.rows = [] ∧ live_nodes ofs = [] ∧ primary_nodes ofs = [] ∧
          ofs.blocks.rows = [] ∧ live_blocks ofs = [] ∧
          ofs.next_seq_id = 1 ∧ ofs.next_node_id = 1 ∧
          ofs.next_block_id = ofs.first_block_id ∧ ofs.first_block_id = io_block_first r.2 := by
  have hids : ∀ i ∈ List.range' (io_block_first dev)
      (io_block_last dev + 1 - io_block_first dev), i ≤ dev.last_valid_block := by
    intro i hi
    rw [List.mem_range'] at hi
    obtain ⟨k, hk, rfl⟩ := hi
    simp only [io_block_first, io_block_last] at hk ⊢
    omega
  have hbs16 : SIZEOF_TAG ≤ dev.block_size := by
    have : (0 : Int) ≤ SIZEOF_DATA := by decide
    omega
  constructor
  · intro hgood
    unfold _oncefs_format
    apply format_loop_total _ _ _ hids hbs16
    rw [List.length_range']
    simp only [io_block_first, io_block_last]
    omega
  · intro r hr
    unfold _oncefs_format at hr
    obtain ⟨h0, hb, hl, hlen1, hall⟩ := format_loop_spec _ _ _ r hids hbs16 hr
    have htags : ∀ i, io_block_first dev ≤ i → i ≤ io_block_last dev →
        (r.2.buffer.getD i default).tag.operation > BLOCK_OPERATION_LAST := by
      intro i h1 h2
      apply (hall i).2.2
      · rw [List.mem_range']
        simp only [io_block_first, io_block_last] at h1 h2 ⊢
        exact ⟨i - 1, by omega, by omega⟩
      · simp only [io_block_last] at h2
        omega
    refine ⟨h0, hb, hl, hlen1, htags, fun i => (hall i).1, fun now rnd2 => ?_⟩
    have hscan : load_scan r.2
        (List.range' (io_block_first r.2) (io_block_last r.2 + 1 - io_block_first r.2))
        = (0, []) := by
      have := load_scan_log r.2 1 (by omega)
        (by rw [hb]; have : SIZEOF_TAGGED_BLOCK ≤ SIZEOF_TAG + SIZEOF_DATA := by decide
            omega)
        (fun i h1 h2 => by omega)
        (fun i h1 h2 => le_of_lt (htags i h1 (by simp only [io_block_last]; omega)))
        r.2.last_valid_block 1 (le_refl _) (le_refl _) (by omega)
      simpa [io_block_first, io_block_last] using this
    have hpay : ¬ (oncefs_init_state (some r.2)).payload_size < 0 := by
      show ¬ (io_block_size r.2 - SIZEOF_TAG - SIZEOF_DATA < 0)
      simp only [io_block_size]
      rw [hb]
      omega
    refine ⟨{ oncefs_init_state (some r.2) with time := now }, ?_, rfl, rfl, rfl, rfl, rfl, rfl,
      rfl, rfl, rfl⟩
    unfold oncefs_init
    simp only
    rw [if_neg hpay, if_neg (by decide)]
    unfold _oncefs_load
    simp only
    rw [hscan]
    simp [qsort, load_loop]

/-- Witness of C27: a container of four blocks of 512 bytes that holds a
file and its bytes, formatted with six draws `9`, two for each of its three blocks
from the first valid one on. -/
theorem c27_format_empty_witness :
    c27_container.last_valid_block < c27_container.buffer.length ∧
    SIZEOF_TAG + SIZEOF_DATA ≤ c27_container.block_size ∧
    (c27_container.buffer.getD 2 default).tag.operation = BLOCK_OPERATION_DATA ∧
    2 * c27_container.last_valid_block ≤ (accepted_draws (List.replicate 6 9)).length ∧
    ((2 * c27_container.last_valid_block ≤ (accepted_draws (List.replicate 6 9)).length →
      (_oncefs_format c27_container (List.replicate 6 9)).isSome = true) ∧
    ∀ r, _oncefs_format c27_container (List.replicate 6 9) = some r →
      r.1 = 0 ∧ r.2.block_size = c27_container.block_size ∧
      r.2.last_valid_block = c27_container.last_valid_block ∧
      r.2.buffer.length = c27_container.buffer.length ∧
      (∀ i, io_block_first c27_container ≤ i → i ≤ io_block_last c27_container →
        (r.2.buffer.getD i default).tag.operation > BLOCK_OPERATION_LAST) ∧
      (∀ i, (r.2.buffer.getD i default).body = (c27_container.buffer.getD i default).body) ∧
      ∀ (now : Nat) (rnd2 : List Nat),
        ∃ ofs, oncefs_init (some r.2) 0 now rnd2 = some (0, ofs) ∧
          ofs.nodes.rows = [] ∧ live_nodes ofs = [] ∧ primary_nodes ofs = [] ∧
          ofs.blocks.rows = [] ∧ live_blocks ofs = [] ∧
          ofs.next_seq_id = 1 ∧ ofs.next_node_id = 1 ∧
          ofs.next_block_id = ofs.first_block_id ∧
          ofs.first_block_id = io_block_first r.2) :=
  ⟨by decide, by decide, by decide, by decide,
   c27_format_empty c27_container (List.replicate 6 9) (by decide) (by decide)⟩

/-- The replay of a block into a well-formed blocks table records the
block, and leaves the nodes table alone. -/
theorem load_block_recorded (x : oncefs_t) (tagged : oncefs_tagged_block_t)
    (data : oncefs_data_t) (h : blocks_wf x) :
    ({ block := tagged.block, tag := tagged.tag, data := data } : oncefs_block_t)
      ∈ live_blocks (load_advance (_oncefs_load_block_data x tagged data).2 tagged) ∧
    (load_advance (_oncefs_load_block_data x tagged data).2 tagged).nodes = x.nodes := by
  obtain ⟨hlen, -, -, hcmp⟩ := blocks_wf_indexes x h
  have hmem := (table_insert_or_replace_mem x.blocks
    { block := tagged.block, tag := tagged.tag, data := data } h.2 hcmp 1 (by omega)
    { block := tagged.block, tag := tagged.tag, data := data }).mpr (Or.inl rfl)
  have hb : (load_advance (_oncefs_load_block_data x tagged data).2 tagged).blocks
      = (table_insert_or_replace x.blocks
          { block := tagged.block, tag := tagged.tag, data := data }).2 := by
    rw [load_advance_blocks]
    unfold _oncefs_load_block_data
    simp only [init_block_state, init_block_record]
  have hn : (load_advance (_oncefs_load_block_data x tagged data).2 tagged).nodes = x.nodes := by
    unfold load_advance _oncefs_load_block_data
    simp only [init_block_state]
    split <;> rfl
  refine ⟨?_, hn⟩
  rw [live_blocks_eq, hb]
  exact hmem

/-- `_oncefs_del_node` without the check for children returns OK on a
well-formed engine, which stays well formed; the nodes table stays as it is
when no row has the node id. -/
theorem del_node_replayed (ofs : oncefs_t) (entry : oncefs_node_t) (hwf : engine_wf ofs) :
    (_oncefs_del_node ofs entry 0).1 = 0 ∧ engine_wf (_oncefs_del_node ofs entry 0).2 ∧
    ((∀ n ∈ primary_nodes ofs, n.node ≠ entry.node) →
      (_oncefs_del_node ofs entry 0).2.nodes = ofs.nodes) := by
  obtain ⟨hlen, -, -, -⟩ := blocks_wf_indexes ofs hwf.1
  obtain ⟨hnlen, -, -, -⟩ := nodes_wf_indexes ofs hwf.2.1
  have hwf1 := del_node_helper_closed _ engine_wf_step_closed.totable_step_closed ofs entry 0 hwf
  have hd0 := table_query_delete_spec ofs.nodes entry 0 _oncefs_node_cmp_primary _filter_node
    hwf.2.1.2 (by omega) (primary_nodes_sorted ofs hwf.2.1) (filter_mono_node entry) 0 (by omega)
  have hflrc := free_blocks_loop_rc entry.node [1, 2, 3, 4, 5, 6, 7] ofs.blocks (by omega)
  have hq : ¬ ((0 : Int) = 1 ∧ entry.type = NODE_TYPE_DIR ∧
      (table_query_first ofs.nodes entry TABLE_INDEX_LOOKUP (some _filter_children)).1 = 0) :=
    fun h => absurd h.1 (by decide)
  have hrc : ¬ ((table_query_delete ofs.nodes entry TABLE_INDEX_PRIMARY
      (some _filter_node)).1 ≠ 0 ∧
      (table_query_delete ofs.nodes entry TABLE_INDEX_PRIMARY (some _filter_node)).1
        ≠ -ENOENT) := by
    rcases hd0.1 with e | e
    · exact fun hh => hh.1 e
    · exact fun hh => hh.2 e
  refine ⟨?_, hwf1, fun hnone => ?_⟩
  · unfold _oncefs_del_node
    rw [if_neg hq]
    dsimp only
    rw [if_neg hrc]
    exact hflrc
  · have hne : (table_query_delete ofs.nodes entry TABLE_INDEX_PRIMARY
        (some _filter_node)).1 ≠ 0 := by
      intro h0
      unfold table_query_delete at h0
      dsimp only at h0
      have hids := table_query_ids_spec ofs.nodes entry 0 _oncefs_node_cmp_primary _filter_node
        (by omega) (primary_nodes_sorted ofs hwf.2.1) (filter_mono_node entry)
      by_cases hz : (table_query_ids ofs.nodes entry TABLE_INDEX_PRIMARY
          (some _filter_node)).1 = 0
      · obtain ⟨b, hb, hfb⟩ := hids.1.mp hz
        exact hnone b hb ((filter_node_eq_zero entry b).mp hfb)
      · rw [if_pos hz] at h0
        exact hz h0
    have hkeep := table_query_delete_fail ofs.nodes entry TABLE_INDEX_PRIMARY
      (some _filter_node) hne
    unfold _oncefs_del_node
    rw [if_neg hq]
    dsimp only
    rw [if_neg hrc]
    exact hkeep

/-- C28 (replay tolerates missing nodes).  On an engine state satisfying
the invariant (as the replay keeps it), with any container: (1) the replay
of a DELETE block that can be read returns OK, whether the nodes table holds
a row of the node or not, the replay goes on with the blocks behind it, the
block is recorded in the blocks table (a record with the block id, the tag
on the container and the node), and when no row of the nodes table has the
node id the nodes table stays as it is; (2) the same for a TRUNCATE block,
which never touches the nodes table; (3) by contrast `del_data` on a node id
without FILE row returns NOT_FOUND and leaves the engine as it is. -/
theorem c28_replay_missing_node (ofs : oncefs_t) (dev : io_t) (hwf : engine_wf ofs) :
    (∀ (cursor : oncefs_tagged_block_t) (rest : List oncefs_tagged_block_t)
        (entry : oncefs_node_t),
      cursor.tag.operation = BLOCK_OPERATION_DELETE →
      (dev.buffer.getD cursor.block default).body = body_t.node entry →
      io_check dev cursor.block (SIZEOF_TAG + SIZEOF_NODE) = 0 →
      ∃ ofs1, load_step ofs dev cursor = some (0, ofs1) ∧
        load_loop dev (cursor :: rest) ofs = load_loop dev rest ofs1 ∧
        ({ block := cursor.block, tag := (dev.buffer.getD cursor.block default).tag,
           data := { node := entry.node, fill := 0, offset := 0 } } : oncefs_block_t)
          ∈ live_blocks ofs1 ∧
        ((∀ n ∈ primary_nodes ofs, n.node ≠ entry.node) → ofs1.nodes = ofs.nodes)) ∧
    (∀ (cursor : oncefs_tagged_block_t) (rest : List oncefs_tagged_block_t)
        (data : oncefs_data_t) (bytes : List Nat),
      cursor.tag.operation = BLOCK_OPERATION_TRUNCATE →
      (dev.buffer.getD cursor.block default).body = body_t.data data bytes →
      io_check dev cursor.block (SIZEOF_TAG + SIZEOF_DATA) = 0 →
      ∃ ofs1, load_step ofs dev cursor = some (0, ofs1) ∧
        load_loop dev (cursor :: rest) ofs = load_loop dev rest ofs1 ∧
        ({ block := cursor.block, tag := (dev.buffer.getD cursor.block default).tag,
           data := data } : oncefs_block_t) ∈ live_blocks ofs1 ∧
        ofs1.nodes = ofs.nodes) ∧
    (∀ (n new_size : Nat),
      (∀ r ∈ primary_nodes ofs, ¬ (r.node = n ∧ r.type = NODE_TYPE_FILE)) →
      oncefs_del_data ofs n new_size = (-ENOENT, ofs)) := by
  obtain ⟨hlen, -, -, -⟩ := blocks_wf_indexes ofs hwf.1
  obtain ⟨hnlen, hnc, -, -⟩ := nodes_wf_indexes ofs hwf.2.1
  refine ⟨?_, ?_, ?_⟩
  · intro cursor rest entry hop hbody hchk
    obtain ⟨hrc, hwf1, hnodes⟩ := del_node_replayed ofs entry hwf
    have hstep := load_step_delete ofs dev cursor entry hop hbody hchk hrc
    obtain ⟨hrec, hn⟩ := load_block_recorded (_oncefs_del_node ofs entry 0).2
      { block := cursor.block, tag := (dev.buffer.getD cursor.block default).tag }
      { node := entry.node, fill := 0, offset := 0 } hwf1.1
    refine ⟨_, hstep, ?_, hrec, fun hnone => ?_⟩
    · rw [load_loop, hstep]
      simp
    · rw [hn]
      exact hnodes hnone
  · intro cursor rest data bytes hop hbody hchk
    obtain ⟨hrc, hfr⟩ := del_data_frame ofs data.node data.offset (by omega)
    have hwf1 := del_data_helper_closed _ engine_wf_step_closed.totable_step_closed ofs
      data.node data.offset hwf
    have hstep := load_step_truncate ofs dev cursor data bytes hop hbody hchk hrc
    obtain ⟨hrec, hn⟩ := load_block_recorded (_oncefs_del_data ofs data.node data.offset).2
      { block := cursor.block, tag := (dev.buffer.getD cursor.block default).tag } data hwf1.1
    refine ⟨_, hstep, ?_, hrec, ?_⟩
    · rw [load_loop, hstep]
      simp
    · rw [hn, hfr]
  · intro n new_size hnone
    have hne : (table_query_first ofs.nodes
        { node := n, parent := 0, type := NODE_TYPE_FILE, last_access := 0,
          last_modification := 0, mode := 0, name := [] } TABLE_INDEX_PRIMARY none).1
        = -ENOENT := by
      rcases table_query_first_rc ofs.nodes
        { node := n, parent := 0, type := NODE_TYPE_FILE, last_access := 0,
          last_modification := 0, mode := 0, name := [] } TABLE_INDEX_PRIMARY none with h0 | h0
      · exfalso
        rw [table_query_first_none] at h0
        obtain ⟨hmem, hz⟩ := (table_query_first_sound ofs.nodes _ _ _).2 h0
        have hz1 : _oncefs_node_cmp_primary
            { node := n, parent := 0, type := NODE_TYPE_FILE, last_access := 0,
              last_modification := 0, mode := 0, name := [] }
            (table_query_first ofs.nodes
              { node := n, parent := 0, type := NODE_TYPE_FILE, last_access := 0,
                last_modification := 0, mode := 0, name := [] } TABLE_INDEX_PRIMARY
              (some (table_index ofs.nodes TABLE_INDEX_PRIMARY).comparator)).2 = 0 := by
          have e0 : (table_index ofs.nodes TABLE_INDEX_PRIMARY).comparator
              = _oncefs_node_cmp_primary := hnc
          rw [e0] at hz
          rw [e0]
          exact hz
        exact hnone _ hmem ((node_primary_eq_zero _ _).mp hz1)
      · exact h0
    unfold oncefs_del_data
    dsimp only
    rw [if_pos (by rw [hne]; decide), hne]

/-- The engine holding `/d` and `/f` satisfies the invariant. -/
theorem c5_engine_wf : engine_wf (engine_after 512 8 c5_setup) :=
  reachable_engine_wf _ (engine_after_reachable 512 8 c5_setup (by decide) (by decide))

/-- Witness of C28: the engine holds the directory `/d` and the file `/f`
(nodes `1` and `2`); the container holds, in block `6`, the DELETE record
and, in block `5`, the TRUNCATE record of node `3`, of which the engine has
no row; and `del_data(3, 1)` on the engine. -/
theorem c28_replay_missing_node_witness :
    (∃ ofs1, load_step (engine_after 512 8 c5_setup) c28_container
        { block := 6, tag := { seq := 6, operation := BLOCK_OPERATION_DELETE } } = some (0, ofs1) ∧
      load_loop c28_container
          [{ block := 6, tag := { seq := 6, operation := BLOCK_OPERATION_DELETE } }]
          (engine_after 512 8 c5_setup)
        = load_loop c28_container [] ofs1 ∧
      ({ block := 6, tag := (c28_container.buffer.getD 6 default).tag,
         data := { node := 3, fill := 0, offset := 0 } } : oncefs_block_t) ∈ live_blocks ofs1 ∧
      ((∀ n ∈ primary_nodes (engine_after 512 8 c5_setup), n.node ≠ 3) →
        ofs1.nodes = (engine_after 512 8 c5_setup).nodes)) ∧
    (∀ n ∈ primary_nodes (engine_after 512 8 c5_setup), n.node ≠ 3) ∧
    (∃ ofs1, load_step (engine_after 512 8 c5_setup) c28_container
        { block := 5, tag := { seq := 5, operation := BLOCK_OPERATION_TRUNCATE } }
          = some (0, ofs1) ∧
      load_loop c28_container
          [{ block := 5, tag := { seq := 5, operation := BLOCK_OPERATION_TRUNCATE } }]
          (engine_after 512 8 c5_setup)
        = load_loop c28_container [] ofs1 ∧
      ({ block := 5, tag := (c28_container.buffer.getD 5 default).tag,
         data := { node := 3, fill := 0, offset := 1 } } : oncefs_block_t) ∈ live_blocks ofs1 ∧
      ofs1.nodes = (engine_after 512 8 c5_setup).nodes) ∧
    oncefs_del_data (engine_after 512 8 c5_setup) 3 1
      = (-ENOENT, engine_after 512 8 c5_setup) :=
  ⟨(c28_replay_missing_node (engine_after 512 8 c5_setup) c28_container c5_engine_wf).1
      { block := 6, tag := { seq := 6, operation := BLOCK_OPERATION_DELETE } } []
      { node := 3, parent := 0, type := NODE_TYPE_FILE, last_access := 12,
        last_modification := 12, mode := 0, name := "foo".toList }
      (by decide) (by decide) (by decide),
   by decide,
   (c28_replay_missing_node (engine_after 512 8 c5_setup) c28_container c5_engine_wf).2.1
      { block := 5, tag := { seq := 5, operation := BLOCK_OPERATION_TRUNCATE } } []
      { node := 3, fill := 0, offset := 1 } [] (by decide) (by decide) (by decide),
   (c28_replay_missing_node (engine_after 512 8 c5_setup) c28_container c5_engine_wf).2.2 3 1
      (by decide)⟩

/-- The tests `_test_oncefs_load_del_node_partial` and
`_test_oncefs_load_del_data_missing`: the mount of a container whose DELETE
block (whose TRUNCATE block) belongs to a node whose NODE block has been
overwritten returns OK, with the block recorded; on the mounted engine
`del_data` on the node id `2`, which has no row, returns NOT_FOUND. -/
theorem load_missing_node_runs :
    (remount load_del_node_partial 6).map
        (fun r => (r.1, (live_blocks r.2).map (fun b => (b.block, b.tag.operation, b.data.node)),
          (live_nodes r.2).map (fun n => (n.node, n.name))))
      = some (0, [(2, BLOCK_OPERATION_NODE, 2), (1, BLOCK_OPERATION_NODE, 3),
          (3, BLOCK_OPERATION_DELETE, 1)], [(2, "bar".toList), (3, "baz".toList)]) ∧
    (remount load_del_data_missing 6).map
        (fun r => (r.1, (live_blocks r.2).map (fun b => (b.block, b.tag.operation, b.data.node)),
          (live_nodes r.2).map (fun n => (n.node, n.name))))
      = some (0, [(2, BLOCK_OPERATION_DATA, 1), (1, BLOCK_OPERATION_TRUNCATE, 1)], []) ∧
    (oncefs_del_data (engine_after 512 8
        [op_t.set_file "/foo".toList (10, 10),
         op_t.set_data 1 (bytes_of "Hello world!") 12 0]) 2 5).1 = -ENOENT := by
  refine ⟨?_, ?_, ?_⟩
  · rfl
  · rfl
  · decide

/-- The blocks after `_oncefs_del_data`, whatever the fills are: the records
there were, the mutator of the truncation applied to those its filter
accepts and then the DATA-to-FREE mutator to the TRUNCATE records of the
node. -/
theorem del_data_helper_perm (ofs : oncefs_t) (node new_size : Nat) (hwf : engine_wf ofs) :
    (live_blocks (_oncefs_del_data ofs node new_size).2).Perm
      ((live_blocks ofs).map (fun b =>
        (fun x => if _oncefs_block_cmp_lookup_fuzzy
            { block := 0, tag := { seq := 0, operation := BLOCK_OPERATION_TRUNCATE },
              data := { node := node, fill := 0, offset := new_size } } x = 0
          then _mutator_free x else x)
        (if _filter_del_data ofs.payload_size
            { block := 0, tag := { seq := 0, operation := BLOCK_OPERATION_DATA },
              data := { node := node, fill := 0, offset := new_size } } b = 0
          then _mutator_truncate new_size b else b))) := by
  obtain ⟨hbl, -, -, -⟩ := blocks_wf_indexes ofs hwf.1
  have hs1 := table_query_update_spec ofs.blocks
    { block := 0, tag := { seq := 0, operation := BLOCK_OPERATION_DATA },
      data := { node := node, fill := 0, offset := new_size } } 1 _oncefs_block_cmp_lookup
    (_filter_del_data ofs.payload_size) (_mutator_truncate new_size) hwf.1.2 (by omega)
    (live_blocks_sorted ofs hwf.1) (filter_mono_del_data _ _) 1 (by omega)
  have hrc1 := table_query_update_rc ofs.blocks
    { block := 0, tag := { seq := 0, operation := BLOCK_OPERATION_DATA },
      data := { node := node, fill := 0, offset := new_size } } 1
    (_filter_del_data ofs.payload_size) (_mutator_truncate new_size) (by omega)
  have hwf1 : blocks_wf { ofs with blocks := (table_query_update ofs.blocks
      { block := 0, tag := { seq := 0, operation := BLOCK_OPERATION_DATA },
        data := { node := node, fill := 0, offset := new_size } } 1
      (some (_filter_del_data ofs.payload_size)) (_mutator_truncate new_size)).2 } :=
    blocks_wf_update ofs _ _ 1 _ _ (mutator_truncate_primary new_size) hwf.1 rfl
  obtain ⟨hbl1, -, -, -⟩ := blocks_wf_indexes _ hwf1
  have h1lt : 1 < (table_query_update ofs.blocks
      { block := 0, tag := { seq := 0, operation := BLOCK_OPERATION_DATA },
        data := { node := node, fill := 0, offset := new_size } } 1
      (some (_filter_del_data ofs.payload_size)) (_mutator_truncate new_size)).2.indexes.length :=
    lt_of_lt_of_eq (by decide : 1 < 2) hbl1.symm
  have hs2 := table_query_update_spec (table_query_update ofs.blocks
      { block := 0, tag := { seq := 0, operation := BLOCK_OPERATION_DATA },
        data := { node := node, fill := 0, offset := new_size } } 1
      (some (_filter_del_data ofs.payload_size)) (_mutator_truncate new_size)).2
    { block := 0, tag := { seq := 0, operation := BLOCK_OPERATION_TRUNCATE },
      data := { node := node, fill := 0, offset := new_size } } 1 _oncefs_block_cmp_lookup
    _oncefs_block_cmp_lookup_fuzzy _mutator_free hwf1.2 h1lt
    (live_blocks_sorted _ hwf1) (filter_mono_fuzzy _) 1 h1lt
  have hdd : (_oncefs_del_data ofs node new_size).2.blocks
      = (table_query_update (table_query_update ofs.blocks
          { block := 0, tag := { seq := 0, operation := BLOCK_OPERATION_DATA },
            data := { node := node, fill := 0, offset := new_size } } 1
          (some (_filter_del_data ofs.payload_size)) (_mutator_truncate new_size)).2
        { block := 0, tag := { seq := 0, operation := BLOCK_OPERATION_TRUNCATE },
          data := { node := node, fill := 0, offset := new_size } } 1
        (some _oncefs_block_cmp_lookup_fuzzy) _mutator_free).2 := by
    unfold _oncefs_del_data
    dsimp only
    rw [if_neg (by
      show ¬ ((table_query_update ofs.blocks _ 1 _ _).1 ≠ 0 ∧ _)
      rw [hrc1]; simp)]
    split <;> rfl
  show (index_rows (_oncefs_del_data ofs node new_size).2.blocks.rows
    (table_index (_oncefs_del_data ofs node new_size).2.blocks 1)).Perm _
  rw [hdd]
  refine hs2.trans ?_
  refine (hs1.map _).trans ?_
  rw [List.map_map]
  exact List.Perm.of_eq rfl

/-- `_oncefs_del_data` on a well-formed engine leaves the records of the
other nodes as they are, whatever their offsets and fills. -/
theorem del_data_helper_others (ofs : oncefs_t) (node new_size : Nat) (hwf : engine_wf ofs)
    (b : oncefs_block_t) (hb : b.data.node ≠ node) :
    b ∈ live_blocks (_oncefs_del_data ofs node new_size).2 ↔ b ∈ live_blocks ofs := by
  have hperm := del_data_helper_perm ofs node new_size hwf
  have hnode : ∀ a : oncefs_block_t,
      ((fun x => if _oncefs_block_cmp_lookup_fuzzy
            { block := 0, tag := { seq := 0, operation := BLOCK_OPERATION_TRUNCATE },
              data := { node := node, fill := 0, offset := new_size } } x = 0
          then _mutator_free x else x)
        (if _filter_del_data ofs.payload_size
            { block := 0, tag := { seq := 0, operation := BLOCK_OPERATION_DATA },
              data := { node := node, fill := 0, offset := new_size } } a = 0
          then _mutator_truncate new_size a else a)).data.node = a.data.node := by
    intro a
    have hmt : ∀ x : oncefs_block_t, (_mutator_truncate new_size x).data.node = x.data.node := by
      intro x
      unfold _mutator_truncate
      split <;> rfl
    have hmf : ∀ x : oncefs_block_t, (_mutator_free x).data.node = x.data.node := fun _ => rfl
    have h2 : ∀ x : oncefs_block_t,
        (if _oncefs_block_cmp_lookup_fuzzy
            { block := 0, tag := { seq := 0, operation := BLOCK_OPERATION_TRUNCATE },
              data := { node := node, fill := 0, offset := new_size } } x = 0
          then _mutator_free x else x).data.node = x.data.node := by
      intro x
      split
      · exact hmf x
      · rfl
    show (if _oncefs_block_cmp_lookup_fuzzy
            { block := 0, tag := { seq := 0, operation := BLOCK_OPERATION_TRUNCATE },
              data := { node := node, fill := 0, offset := new_size } }
            (if _filter_del_data ofs.payload_size
                { block := 0, tag := { seq := 0, operation := BLOCK_OPERATION_DATA },
                  data := { node := node, fill := 0, offset := new_size } } a = 0
              then _mutator_truncate new_size a else a) = 0
          then _mutator_free _ else _).data.node = a.data.node
    rw [h2]
    split
    · exact hmt a
    · rfl
  have hkeep : ∀ a : oncefs_block_t, a.data.node ≠ node →
      ((fun x => if _oncefs_block_cmp_lookup_fuzzy
            { block := 0, tag := { seq := 0, operation := BLOCK_OPERATION_TRUNCATE },
              data := { node := node, fill := 0, offset := new_size } } x = 0
          then _mutator_free x else x)
        (if _filter_del_data ofs.payload_size
            { block := 0, tag := { seq := 0, operation := BLOCK_OPERATION_DATA },
              data := { node := node, fill := 0, offset := new_size } } a = 0
          then _mutator_truncate new_size a else a)) = a := by
    intro a ha
    dsimp only
    have h1 : ¬ _filter_del_data ofs.payload_size
        { block := 0, tag := { seq := 0, operation := BLOCK_OPERATION_DATA },
          data := { node := node, fill := 0, offset := new_size } } a = 0 :=
      fun h => ha ((filter_del_data_eq_zero _ _ _).mp h).2.1
    have h2 : ¬ _oncefs_block_cmp_lookup_fuzzy
        { block := 0, tag := { seq := 0, operation := BLOCK_OPERATION_TRUNCATE },
          data := { node := node, fill := 0, offset := new_size } } a = 0 :=
      fun h => ha ((fuzzy_eq_zero _ _).mp h).2
    rw [if_neg h1, if_neg h2]
  rw [hperm.mem_iff, List.mem_map]
  constructor
  · rintro ⟨a, ha, rfl⟩
    have hn := hnode a
    rw [hkeep a (by rw [← hn]; exact hb)]
    exact ha
  · intro h
    exact ⟨b, h, hkeep b hb⟩

/-- C22 (truncate frame).  On an engine state satisfying the invariant (so
on every reachable state) whose container is not full and whose block ids
have not left the range of a `uint32_t`, `del_data(n, new_size)`, successful
or not, leaves the nodes table as it is and changes no block record of
another node: a record whose `data.node` differs from `n` is live afterwards
exactly when it was live before, whatever its offset and fill. -/
theorem c22_truncate_frame (ofs : oncefs_t) (n new_size : Nat) (hwf : engine_wf ofs)
    (hroom : ¬ container_full ofs) (h32 : ofs.next_block_id < 2 ^ 32) :
    (oncefs_del_data ofs n new_size).2.nodes = ofs.nodes ∧
    ∀ b : oncefs_block_t, b.data.node ≠ n →
      (b ∈ live_blocks (oncefs_del_data ofs n new_size).2 ↔ b ∈ live_blocks ofs) := by
  obtain ⟨hbl, -, -, -⟩ := blocks_wf_indexes ofs hwf.1
  obtain ⟨hnl, hnc, -, -⟩ := nodes_wf_indexes ofs hwf.2.1
  have hroom1 : ofs.next_block_id ≤ ofs.last_block_id := by
    have := hwf.2.2.1.1
    unfold container_full at hroom
    omega
  by_cases hq : (table_query_first ofs.nodes
      { node := n, parent := 0, type := NODE_TYPE_FILE, last_access := 0,
        last_modification := 0, mode := 0, name := [] } TABLE_INDEX_PRIMARY none).1 ≠ 0
  · have hfail : oncefs_del_data ofs n new_size
        = ((table_query_first ofs.nodes
            { node := n, parent := 0, type := NODE_TYPE_FILE, last_access := 0,
              last_modification := 0, mode := 0, name := [] } TABLE_INDEX_PRIMARY none).1,
           ofs) := by
      unfold oncefs_del_data
      dsimp only
      rw [if_pos hq]
    rw [hfail]
    exact ⟨rfl, fun b _ => Iff.rfl⟩
  · have hq0 := not_not.mp hq
    have hq1 := hq0
    rw [table_query_first_none] at hq1
    obtain ⟨-, hz⟩ := (table_query_first_sound ofs.nodes _ _ _).2 hq1
    have e0 : (table_index ofs.nodes TABLE_INDEX_PRIMARY).comparator
        = _oncefs_node_cmp_primary := hnc
    rw [← table_query_first_none] at hz
    rw [e0] at hz
    have hrow := ((node_primary_eq_zero _ _).mp hz).1
    dsimp only at hrow
    have hwfx : engine_wf (_oncefs_del_data ofs n new_size).2 :=
      del_data_helper_closed _ engine_wf_step_closed.totable_step_closed ofs n new_size hwf
    have hframe := (del_data_frame ofs n new_size (by omega)).2
    have hdd1 := (del_data_frame ofs n new_size (by omega)).1
    have hnb : (_oncefs_del_data ofs n new_size).2.next_block_id = ofs.next_block_id := by
      rw [hframe]
    have hlb : (_oncefs_del_data ofs n new_size).2.last_block_id = ofs.last_block_id := by
      rw [hframe]
    have hnodes : (_oncefs_del_data ofs n new_size).2.nodes = ofs.nodes := by
      rw [hframe]
    have hfresh := create_block_fresh (_oncefs_del_data ofs n new_size).2
      BLOCK_OPERATION_TRUNCATE n 0 new_size (by rw [hnb, hlb]; exact hroom1)
      (by rw [hnb]; exact h32)
    have hcb : (_oncefs_create_block (_oncefs_del_data ofs n new_size).2
        BLOCK_OPERATION_TRUNCATE n 0 new_size).1 = 0 := by rw [hfresh]
    have hstate : (oncefs_del_data ofs n new_size).2.blocks
        = (_oncefs_create_block (_oncefs_del_data ofs n new_size).2 BLOCK_OPERATION_TRUNCATE
            n 0 new_size).2.1.blocks ∧
        (oncefs_del_data ofs n new_size).2.nodes
        = (_oncefs_create_block (_oncefs_del_data ofs n new_size).2 BLOCK_OPERATION_TRUNCATE
            n 0 new_size).2.1.nodes := by
      unfold oncefs_del_data
      dsimp only
      rw [if_neg hq, hrow]
      rw [if_neg (by rw [hdd1]; simp), if_neg (by rw [hcb]; simp)]
      split
      · exact ⟨rfl, rfl⟩
      · split <;> exact ⟨rfl, rfl⟩
    refine ⟨?_, fun b hb => ?_⟩
    · rw [hstate.2, (create_block_frame _ _ _ _ _).2.2, hnodes]
    · have hlive := create_block_live (_oncefs_del_data ofs n new_size).2
        BLOCK_OPERATION_TRUNCATE n 0 new_size hwfx.1 hcb b
      have e : b ∈ live_blocks (oncefs_del_data ofs n new_size).2 ↔
          b ∈ live_blocks (_oncefs_create_block (_oncefs_del_data ofs n new_size).2
            BLOCK_OPERATION_TRUNCATE n 0 new_size).2.1 := by
        show b ∈ index_rows (oncefs_del_data ofs n new_size).2.blocks.rows
          (table_index (oncefs_del_data ofs n new_size).2.blocks 1) ↔ _
        rw [hstate.1]
        rfl
      rw [e, hlive, hfresh]
      dsimp only
      rw [del_data_helper_others ofs n new_size hwf b hb, hnb]
      constructor
      · rintro (h | ⟨h1, -⟩)
        · exfalso
          rw [h] at hb
          exact hb rfl
        · exact h1
      · intro h
        right
        have := hwf.2.2.1.2 b (live_blocks_subset ofs hwf.1 b h)
        exact ⟨h, by omega⟩

/-- Witness of C22: in the default engine `/foo` (node `1`) holds 12 bytes
and `/bar` (node `2`) 16 bytes, both at offset `0`; `del_data(1, 0)` returns
OK and the DATA block of node `2` (block `4`, fill `16`, offset `0`) is live
afterwards as before. -/
theorem c22_truncate_frame_witness :
    ¬ container_full (state_of (run_ops c22_setup (oncefs_init_default 5))) ∧
    (state_of (run_ops c22_setup (oncefs_init_default 5))).next_block_id < 2 ^ 32 ∧
    ((oncefs_del_data (state_of (run_ops c22_setup (oncefs_init_default 5))) 1 0).2.nodes
        = (state_of (run_ops c22_setup (oncefs_init_default 5))).nodes ∧
      ∀ b : oncefs_block_t, b.data.node ≠ 1 →
        (b ∈ live_blocks
            (oncefs_del_data (state_of (run_ops c22_setup (oncefs_init_default 5))) 1 0).2 ↔
          b ∈ live_blocks (state_of (run_ops c22_setup (oncefs_init_default 5))))) ∧
    (oncefs_del_data (state_of (run_ops c22_setup (oncefs_init_default 5))) 1 0).1 = 0 ∧
    ({ block := 4, tag := { seq := 4, operation := BLOCK_OPERATION_DATA },
       data := { node := 2, fill := 16, offset := 0 } } : oncefs_block_t)
      ∈ live_blocks (state_of (run_ops c22_setup (oncefs_init_default 5))) ∧
    ({ block := 4, tag := { seq := 4, operation := BLOCK_OPERATION_DATA },
       data := { node := 2, fill := 16, offset := 0 } } : oncefs_block_t)
      ∈ live_blocks
          (oncefs_del_data (state_of (run_ops c22_setup (oncefs_init_default 5))) 1 0).2 :=
  ⟨by decide, by decide,
   c22_truncate_frame (state_of (run_ops c22_setup (oncefs_init_default 5))) 1 0
     (reachable_engine_wf _ (default_run_reachable c22_setup 5 (by decide)))
     (by decide) (by decide),
   by decide, by decide, by decide⟩

/-- In a well-formed table two positions of the primary index whose rows are
equal under the primary comparator are the same position. -/
theorem primary_position_eq {ρ : Type} [Inhabited ρ] (table : table_t ρ) (hwf : table_wf table)
    (hc0 : cmp_order (table_index table 0).comparator) (i j : Nat)
    (hi : i ∈ (table_index table 0).entries) (hj : j ∈ (table_index table 0).entries)
    (h : (table_index table 0).comparator (array_dereference table.rows i)
      (array_dereference table.rows j) = 0) : i = j := by
  have hp := hwf.2.2
  unfold index_rows at hp
  rw [List.pairwise_map] at hp
  by_contra hne
  have hsym : Symmetric (fun a b : Nat => (table_index table 0).comparator
      (array_dereference table.rows a) (array_dereference table.rows b) ≠ 0) :=
    fun a b hab hba => hab (hc0.symm0 _ _ hba)
  exact hp.forall hsym hi hj hne h

/-- Sorting an index again after a row has been replaced by a row that every
comparator of the table takes for the old one leaves the index as it is. -/
theorem array_sort_same {ρ : Type} [Inhabited ρ] (rows : List ρ) (ix : array_t Nat ρ)
    (row : ρ) (p : Nat) (hp : p < rows.length)
    (hs : (index_rows rows ix).Pairwise (fun a b => ix.comparator a b ≤ 0))
    (hsame : ∀ x, ix.comparator row x = ix.comparator (array_dereference rows p) x ∧
      ix.comparator x row = ix.comparator x (array_dereference rows p)) :
    array_sort (array_dereference (rows.set p row)) ix = ix := by
  have hd : ∀ a b, ix.comparator (array_dereference (rows.set p row) a)
      (array_dereference (rows.set p row) b)
      = ix.comparator (array_dereference rows a) (array_dereference rows b) := by
    intro a b
    by_cases ha : a = p
    · subst ha
      rw [array_dereference_set_eq _ _ _ hp]
      by_cases hb : b = a
      · subst hb
        rw [array_dereference_set_eq _ _ _ hp, (hsame row).1, (hsame _).2]
      · rw [array_dereference_set_ne _ _ _ _ hb, (hsame _).1]
    · rw [array_dereference_set_ne _ _ _ _ ha]
      by_cases hb : b = p
      · subst hb
        rw [array_dereference_set_eq _ _ _ hp, (hsame _).2]
      · rw [array_dereference_set_ne _ _ _ _ hb]
  have hq : qsort (array_dereference (rows.set p row)) ix.comparator ix.entries = ix.entries := by
    unfold qsort
    apply List.Sorted.insertionSort_eq
    unfold index_rows at hs
    rw [List.pairwise_map] at hs
    show List.Pairwise _ _
    refine hs.imp ?_
    intro a b hab
    rw [hd]
    exact hab
  unfold array_sort
  rw [hq]

/-- `table_insert_or_replace` of a row that the primary comparator takes for
a row `old` of the table, and that every comparator of the table takes for
`old`: the row is put at the position of `old` and the indexes stay as they
are. -/
theorem table_replace_same {ρ : Type} [Inhabited ρ] (table : table_t ρ) (row old : ρ)
    (hwf : table_wf table) (hcmp : ∀ ix ∈ table.indexes, cmp_order ix.comparator)
    (hpos : 0 < table.indexes.length)
    (hold : old ∈ index_rows table.rows (table_index table 0))
    (hkey : (table_index table 0).comparator row old = 0)
    (hsame : ∀ ix ∈ table.indexes, ∀ x, ix.comparator row x = ix.comparator old x ∧
      ix.comparator x row = ix.comparator x old) :
    ∃ p, p ∈ (table_index table 0).entries ∧ p < table.rows.length ∧
      array_dereference table.rows p = old ∧
      (table_insert_or_replace table row).2
        = { rows := table.rows.set p row, indexes := table.indexes } := by
  have hm0 := table_index_mem table 0 hpos
  have hc0 := hcmp _ hm0
  have hsearch := table_insert_search table row hwf hcmp hpos
  have hs := array_sorted_first_sound (array_dereference table.rows) (table_index table 0)
    (table_index table 0).comparator row
  have h1 : ¬ (array_sorted_first (array_dereference table.rows) (table_index table 0)
      (some (table_index table 0).comparator) row).1 = -ENOENT := by
    intro h
    exact hsearch.mp h old hold hkey
  have h0 : (array_sorted_first (array_dereference table.rows) (table_index table 0)
      (some (table_index table 0).comparator) row).1 = 0 := by
    rcases hs.1 with h | h
    · exact h
    · exact absurd h h1
  obtain ⟨hmem, hz⟩ := hs.2 h0
  obtain ⟨q, hq, hqo⟩ := List.mem_map.mp hold
  have hpq : (array_sorted_first (array_dereference table.rows) (table_index table 0)
      (some (table_index table 0).comparator) row).2 = q := by
    apply primary_position_eq table hwf hc0 _ _ hmem hq
    rw [hqo]
    exact hc0.eq_zero_trans _ _ _ (hc0.symm0 _ _ hz) hkey
  have hlt : q < table.rows.length := (hwf.1 _ hm0).1 q hq
  have hidx : table.indexes.map
      (fun ix => array_sort (array_dereference (table.rows.set q row)) ix) = table.indexes := by
    conv_rhs => rw [← List.map_id table.indexes]
    apply List.map_congr_left
    intro ix hix
    rw [id]
    apply array_sort_same table.rows ix row q hlt (hwf.1 _ hix).2.2
    intro x
    rw [hqo]
    exact hsame ix hix x
  refine ⟨q, hq, hlt, hqo, ?_⟩
  unfold table_insert_or_replace _table_insert
  dsimp only
  rw [if_neg h1, if_neg (by rw [h0]; exact fun h => h rfl), if_neg (by simp), hpq, hidx]

/-- A search of `array_sorted_first` in an index after a row has been
replaced by a row the filter takes for the old one: it ends on the same
position. -/
theorem array_sorted_first_replace {ρ : Type} [Inhabited ρ] (rows : List ρ)
    (ix : array_t Nat ρ) (row : ρ) (p : Nat) (hp : p < rows.length) (f : ρ → ρ → Int)
    (key : ρ) (hf : f key row = f key (array_dereference rows p)) :
    array_sorted_first (array_dereference (rows.set p row)) ix (some f) key
      = array_sorted_first (array_dereference rows) ix (some f) key := by
  have hprobe : ∀ reverse, find_index_probe (array_dereference (rows.set p row)) ix (some f) key
      reverse = find_index_probe (array_dereference rows) ix (some f) key reverse := by
    intro reverse
    funext mid
    have hd : ∀ i, f key (array_dereference (rows.set p row) i)
        = f key (array_dereference rows i) := by
      intro i
      by_cases hi : i = p
      · subst hi
        rw [array_dereference_set_eq _ _ _ hp, hf]
      · rw [array_dereference_set_ne _ _ _ _ hi]
    unfold find_index_probe
    simp only [Option.getD_some]
    rw [hd, hd]
  unfold array_sorted_first _array_sorted_find_value _array_sorted_find_index find_index_search
  rw [hprobe]

/-- `table_query_first` after a row has been replaced, the indexes staying
as they are, by a row the filter takes for the old one: the search ends on
the position it ended on. -/
theorem table_query_first_replace {ρ : Type} [Inhabited ρ] (table : table_t ρ) (row : ρ)
    (p : Nat) (hp : p < table.rows.length) (k : Nat) (f : ρ → ρ → Int) (key : ρ)
    (hf : f key row = f key (array_dereference table.rows p)) :
    table_query_first { rows := table.rows.set p row, indexes := table.indexes } key k (some f)
      = (if (array_sorted_first (array_dereference table.rows) (table_index table k) (some f)
              key).1 ≠ 0
         then ((array_sorted_first (array_dereference table.rows) (table_index table k) (some f)
              key).1, default)
         else (0, array_dereference (table.rows.set p row)
            (array_sorted_first (array_dereference table.rows) (table_index table k) (some f)
              key).2)) := by
  have hrep := array_sorted_first_replace table.rows (table_index table k) row p hp f key hf
  unfold table_query_first
  dsimp only
  have e : table_index ({ rows := table.rows.set p row, indexes := table.indexes } : table_t ρ) k
      = table_index table k := rfl
  rw [e, hrep]

/-- The row of a node with other times, put into a well-formed nodes table
that holds the node as a live row: it takes the place of the row, and both
indexes stay as they are. -/
theorem nodes_replace_times (ofs : oncefs_t) (node : oncefs_node_t) (a m : Nat)
    (hwf : nodes_wf ofs) (hlive : node ∈ live_nodes ofs) :
    ∃ p, p ∈ (table_index ofs.nodes 0).entries ∧ p < ofs.nodes.rows.length ∧
      array_dereference ofs.nodes.rows p = node ∧
      (table_insert_or_replace ofs.nodes
          { node with last_access := a, last_modification := m }).2
        = { rows := ofs.nodes.rows.set p { node with last_access := a, last_modification := m },
            indexes := ofs.nodes.indexes } := by
  obtain ⟨hlen, hc0, hc1, hcmp⟩ := nodes_wf_indexes ofs hwf
  obtain ⟨-, -, -, hcs⟩ := table_two_indexes ofs.nodes _ _ hwf.1
  apply table_replace_same ofs.nodes _ node hwf.2 hcmp (by omega)
  · have := (live_nodes_perm ofs hwf).mem_iff.mp hlive
    rw [primary_nodes_eq] at this
    exact this
  · rw [hc0]
    exact (node_primary_eq_zero _ _).mpr ⟨rfl, rfl⟩
  · intro ix hix x
    rcases hcs ix hix with e | e
    · rw [e]; exact ⟨rfl, rfl⟩
    · rw [e]; exact ⟨rfl, rfl⟩

/-- The lookup of a segment after the row of a live node has been replaced
by the row of the node with other times: it finds what it found, with the
new row for the old one. -/
theorem lookup_after_retime (ofs ofs1 : oncefs_t) (node : oncefs_node_t) (a m : Nat)
    (hwf : nodes_wf ofs) (hlive : node ∈ live_nodes ofs)
    (hnodes : ofs1.nodes = (table_insert_or_replace ofs.nodes
      { node with last_access := a, last_modification := m }).2)
    (parent : Nat) (name : List Char) :
    lookup_segment ofs1 parent name
      = ((lookup_segment ofs parent name).1,
         if (lookup_segment ofs parent name).1 = 0 ∧ (lookup_segment ofs parent name).2 = node
         then { node with last_access := a, last_modification := m }
         else (lookup_segment ofs parent name).2) := by
  obtain ⟨hlen, hc0, hc1, hcmp⟩ := nodes_wf_indexes ofs hwf
  obtain ⟨p, hp, hplt, hpn, htab⟩ := nodes_replace_times ofs node a m hwf hlive
  have hm0 := table_index_mem ofs.nodes 0 (by omega)
  have hm1 := table_index_mem ofs.nodes 1 (by omega)
  have hsound := array_sorted_first_sound (array_dereference ofs.nodes.rows)
    (table_index ofs.nodes 1) (table_index ofs.nodes 1).comparator
    { node := 0, parent := parent, type := NODE_TYPE_DIR, last_access := 0,
      last_modification := 0, mode := 0, name := name }
  have hL : lookup_segment ofs1 parent name
      = (if (array_sorted_first (array_dereference ofs.nodes.rows) (table_index ofs.nodes 1)
            (some (table_index ofs.nodes 1).comparator)
            { node := 0, parent := parent, type := NODE_TYPE_DIR, last_access := 0,
              last_modification := 0, mode := 0, name := name }).1 ≠ 0
         then ((array_sorted_first (array_dereference ofs.nodes.rows) (table_index ofs.nodes 1)
            (some (table_index ofs.nodes 1).comparator)
            { node := 0, parent := parent, type := NODE_TYPE_DIR, last_access := 0,
              last_modification := 0, mode := 0, name := name }).1, default)
         else (0, array_dereference
            (ofs.nodes.rows.set p { node with last_access := a, last_modification := m })
            (array_sorted_first (array_dereference ofs.nodes.rows) (table_index ofs.nodes 1)
              (some (table_index ofs.nodes 1).comparator)
              { node := 0, parent := parent, type := NODE_TYPE_DIR, last_access := 0,
                last_modification := 0, mode := 0, name := name }).2)) := by
    have := table_query_first_replace ofs.nodes
      { node with last_access := a, last_modification := m } p hplt 1
      (table_index ofs.nodes 1).comparator
      { node := 0, parent := parent, type := NODE_TYPE_DIR, last_access := 0,
        last_modification := 0, mode := 0, name := name }
      (by rw [hpn, hc1]; rfl)
    rw [← this]
    unfold lookup_segment
    rw [table_query_first_none, hnodes, htab]
    rfl
  have hR : lookup_segment ofs parent name
      = (if (array_sorted_first (array_dereference ofs.nodes.rows) (table_index ofs.nodes 1)
            (some (table_index ofs.nodes 1).comparator)
            { node := 0, parent := parent, type := NODE_TYPE_DIR, last_access := 0,
              last_modification := 0, mode := 0, name := name }).1 ≠ 0
         then ((array_sorted_first (array_dereference ofs.nodes.rows) (table_index ofs.nodes 1)
            (some (table_index ofs.nodes 1).comparator)
            { node := 0, parent := parent, type := NODE_TYPE_DIR, last_access := 0,
              last_modification := 0, mode := 0, name := name }).1, default)
         else (0, array_dereference ofs.nodes.rows
            (array_sorted_first (array_dereference ofs.nodes.rows) (table_index ofs.nodes 1)
              (some (table_index ofs.nodes 1).comparator)
              { node := 0, parent := parent, type := NODE_TYPE_DIR, last_access := 0,
                last_modification := 0, mode := 0, name := name }).2)) := rfl
  rw [hL, hR]
  by_cases hrc : (array_sorted_first (array_dereference ofs.nodes.rows) (table_index ofs.nodes 1)
      (some (table_index ofs.nodes 1).comparator)
      { node := 0, parent := parent, type := NODE_TYPE_DIR, last_access := 0,
        last_modification := 0, mode := 0, name := name }).1 ≠ 0
  · rw [if_pos hrc, if_pos hrc]
    dsimp only
    rw [if_neg (fun h => hrc h.1)]
  · rw [if_neg hrc, if_neg hrc]
    have h0 := not_not.mp hrc
    obtain ⟨hmem, -⟩ := hsound.2 h0
    dsimp only
    congr 1
    by_cases hq : (array_sorted_first (array_dereference ofs.nodes.rows) (table_index ofs.nodes 1)
        (some (table_index ofs.nodes 1).comparator)
        { node := 0, parent := parent, type := NODE_TYPE_DIR, last_access := 0,
          last_modification := 0, mode := 0, name := name }).2 = p
    · rw [hq, array_dereference_set_eq _ _ _ hplt, hpn, if_pos ⟨rfl, rfl⟩]
    · rw [array_dereference_set_ne _ _ _ _ hq, if_neg]
      rintro ⟨-, heq⟩
      apply hq
      apply primary_position_eq ofs.nodes hwf.2 (hcmp _ hm0) _ _
        ((hwf.2.2.1 _ hm1 _).mp hmem) hp
      rw [heq, hpn]
      exact (hcmp _ hm0).refl node

/-- A walk along at least one segment reads of the node it starts from the
node id and the type alone. -/
theorem walk_segments_congr (ofs : oncefs_t) (D : List (List Char)) (hD : D ≠ [])
    (p q : oncefs_node_t) (hn : p.node = q.node) (ht : p.type = q.type) :
    walk_segments ofs D p = walk_segments ofs D q := by
  cases D with
  | nil => exact absurd rfl hD
  | cons seg rest =>
    unfold walk_segments
    rw [hn, ht]

/-- A walk after the row of a live node has been replaced by the row of the
node with other times: it ends where it ended, with the new row for the old
one. -/
theorem walk_after_retime (ofs ofs1 : oncefs_t) (node : oncefs_node_t) (a m : Nat)
    (hwf : nodes_wf ofs) (hlive : node ∈ live_nodes ofs)
    (hnodes : ofs1.nodes = (table_insert_or_replace ofs.nodes
      { node with last_access := a, last_modification := m }).2) :
    ∀ (D : List (List Char)) (prev r : oncefs_node_t), D ≠ [] →
      walk_segments ofs D prev = some r →
      walk_segments ofs1 D prev
        = some (if r = node then { node with last_access := a, last_modification := m }
                else r) := by
  intro D
  induction D with
  | nil => intro prev r hD; exact absurd rfl hD
  | cons seg rest ih =>
    intro prev r _ h
    unfold walk_segments at h
    by_cases hc : prev.type = NODE_TYPE_DIR ∧ seg.length ≤ ONCEFS_NAME_MAX_SIZE ∧
        (lookup_segment ofs prev.node seg).1 = 0
    · rw [if_pos hc] at h
      have hl := lookup_after_retime ofs ofs1 node a m hwf hlive hnodes prev.node seg
      have hl1 : (lookup_segment ofs1 prev.node seg).1 = 0 := by rw [hl]; exact hc.2.2
      have hl2 : (lookup_segment ofs1 prev.node seg).2
          = if (lookup_segment ofs prev.node seg).2 = node
            then { node with last_access := a, last_modification := m }
            else (lookup_segment ofs prev.node seg).2 := by
        rw [hl]
        dsimp only
        by_cases he : (lookup_segment ofs prev.node seg).2 = node
        · rw [if_pos ⟨hc.2.2, he⟩, if_pos he]
        · rw [if_neg (fun hh => he hh.2), if_neg he]
      unfold walk_segments
      rw [if_pos ⟨hc.1, hc.2.1, hl1⟩, hl2]
      cases rest with
      | nil =>
        simp only [walk_segments] at h ⊢
        have hr := Option.some.inj h
        rw [hr]
      | cons seg2 rest2 =>
        have hcg : walk_segments ofs1 (seg2 :: rest2)
            (if (lookup_segment ofs prev.node seg).2 = node
              then { node with last_access := a, last_modification := m }
              else (lookup_segment ofs prev.node seg).2)
            = walk_segments ofs1 (seg2 :: rest2) (lookup_segment ofs prev.node seg).2 := by
          apply walk_segments_congr _ _ (by simp)
          · split
            · rename_i he; rw [he]
            · rfl
          · split
            · rename_i he; rw [he]
            · rfl
        rw [hcg]
        exact ih _ r (by simp) h
    · rw [if_neg hc] at h
      cases h

/-- Path resolution after the row of the node a path resolves to has been
replaced by the row of the node with other times: the path resolves to the
new row. -/
theorem resolve_after_retime (ofs ofs1 : oncefs_t) (path : List Char) (node : oncefs_node_t)
    (a m : Nat) (hwf : nodes_wf ofs) (hres : _oncefs_resolve_node ofs path = some (0, node))
    (hroot : path ≠ ['/'])
    (hnodes : ofs1.nodes = (table_insert_or_replace ofs.nodes
      { node with last_access := a, last_modification := m }).2) :
    node ∈ live_nodes ofs ∧
    _oncefs_resolve_node ofs1 path
      = some (0, { node with last_access := a, last_modification := m }) := by
  have hwalk := walk_of_resolve ofs path node hres
  have htok : path_tokens path ≠ [] := by
    intro h
    unfold _oncefs_resolve_node at hres
    rw [if_neg hroot, if_pos h] at hres
    cases hres
  have hlive : node ∈ live_nodes ofs := by
    obtain ⟨pre, seg, hps⟩ : ∃ pre seg, path_tokens path = pre ++ [seg] :=
      ⟨(path_tokens path).dropLast, (path_tokens path).getLast htok,
        (List.dropLast_append_getLast htok).symm⟩
    rw [hps] at hwalk
    obtain ⟨pd, -, -, -, h0, hr⟩ := walk_segments_snoc ofs seg pre _ _ hwalk
    rw [← hr]
    exact ((lookup_segment_spec ofs hwf pd.node seg).2 h0).1
  refine ⟨hlive, ?_⟩
  have hw1 := walk_after_retime ofs ofs1 node a m hwf hlive hnodes (path_tokens path)
    (root_node ofs) node htok hwalk
  rw [if_pos rfl] at hw1
  have hloop := resolve_loop_of_walk ofs1 (path_tokens path) (root_node ofs) default _ htok hw1
  unfold _oncefs_resolve_node
  rw [if_neg hroot, if_neg htok]
  exact congrArg some hloop

/-- C24, as stated, fails on a full container: `/foo` is created on a
container with one usable block and one byte is written to it, which takes
over the NODE block of `/foo`; `set_time("/foo", 100, 200)`, with a new
modification time, returns NO_SPACE, no block is added, and the row of the
nodes table has the new times all the same. -/
theorem c24_counterexample :
    (_oncefs_resolve_node (engine_after 512 2 takeover_calls) "/foo".toList).map
        (fun r => (r.1, r.2.last_modification)) = some (0, 10) ∧
    (oncefs_set_time (engine_after 512 2 takeover_calls) "/foo".toList 100 200).map
        (fun r => (r.1, (live_blocks r.2).map (fun b => (b.block, b.tag.operation)),
          (live_nodes r.2).map (fun n => (n.node, n.last_access, n.last_modification))))
      = some (-ENOSPC, [(1, BLOCK_OPERATION_DATA)], [(1, 100, 200)]) := by
  constructor <;> rfl

/-- C24 (amended).  On an engine state satisfying the invariant, for a path
that resolves to `node`: (1) `set_time(path, a, m)` with `m` the stored
`last_modification` returns OK and leaves the engine as it is, whatever `a`
is; (2) with another `m`, for a path other than `"/"`, on a container with
an unused block at its tail, block ids within the range of a `uint32_t` and
blocks that hold a node record, it returns OK; afterwards the path resolves
to the row of `node` with `last_access = a` and `last_modification = m`,
which `get_node` reports; the live rows of the nodes table are that row and
the rows there were other than the row of `node`, unchanged; and the live
blocks are those there were and one new NODE block of the node, at
`next_block_id` with the sequence number `next_seq_id`. -/
theorem c24_set_time (ofs : oncefs_t) (path : List Char) (a m : Nat) (node : oncefs_node_t)
    (hwf : engine_wf ofs) (hres : _oncefs_resolve_node ofs path = some (0, node)) :
    (m = node.last_modification → oncefs_set_time ofs path a m = some (0, ofs)) ∧
    (m ≠ node.last_modification → path ≠ ['/'] →
      ofs.next_block_id ≤ ofs.last_block_id → ofs.next_block_id < 2 ^ 32 →
      (∀ dev, ofs.io = some dev → SIZEOF_TAG + SIZEOF_NODE ≤ dev.block_size) →
      ∃ ofs1, oncefs_set_time ofs path a m = some (0, ofs1) ∧
        _oncefs_resolve_node ofs1 path
          = some (0, { node with last_access := a, last_modification := m }) ∧
        (oncefs_get_node ofs1 path).map
            (fun r => (r.1, r.2.node, r.2.last_access, r.2.last_modification))
          = some (0, node.node, a, m) ∧
        (∀ x, x ∈ live_nodes ofs1 ↔
          (x = { node with last_access := a, last_modification := m } ∨
            (x ∈ live_nodes ofs ∧ ¬ (x.node = node.node ∧ x.type = node.type)))) ∧
        (∀ b, b ∈ live_blocks ofs1 ↔
          (b = { block := ofs.next_block_id,
                 tag := { seq := ofs.next_seq_id, operation := BLOCK_OPERATION_NODE },
                 data := { node := node.node, fill := 0, offset := 0 } } ∨
            b ∈ live_blocks ofs)) ∧
        ({ block := ofs.next_block_id,
           tag := { seq := ofs.next_seq_id, operation := BLOCK_OPERATION_NODE },
           data := { node := node.node, fill := 0, offset := 0 } } : oncefs_block_t)
          ∉ live_blocks ofs) := by
  constructor
  · intro hm
    unfold oncefs_set_time
    rw [hres]
    dsimp only
    rw [if_neg (fun h => h rfl), if_pos hm]
  · intro hm hroot hroom h32 hsz
    obtain ⟨hnl, hnc0, -, hncmp⟩ := nodes_wf_indexes ofs hwf.2.1
    have hwfx : engine_wf { ofs with nodes := (table_insert_or_replace ofs.nodes
        { node with last_access := a, last_modification := m }).2 } :=
      engine_wf_step_closed.totable_step_closed.nodes_insert ofs _ hwf
    obtain ⟨-, -, hnodes, -, hcb⟩ := write_node_block_counters
      { ofs with nodes := (table_insert_or_replace ofs.nodes
        { node with last_access := a, last_modification := m }).2 }
      BLOCK_OPERATION_NODE { node with last_access := a, last_modification := m } hroom h32
    have hrc := write_node_block_ok
      { ofs with nodes := (table_insert_or_replace ofs.nodes
        { node with last_access := a, last_modification := m }).2 }
      BLOCK_OPERATION_NODE { node with last_access := a, last_modification := m } hwfx hcb hsz
    obtain ⟨-, hblocks, -⟩ := write_node_block_tables
      { ofs with nodes := (table_insert_or_replace ofs.nodes
        { node with last_access := a, last_modification := m }).2 }
      BLOCK_OPERATION_NODE { node with last_access := a, last_modification := m }
    have hfresh := create_block_fresh
      { ofs with nodes := (table_insert_or_replace ofs.nodes
        { node with last_access := a, last_modification := m }).2 }
      BLOCK_OPERATION_NODE node.node 0 0 hroom h32
    have hset : oncefs_set_time ofs path a m
        = some (0, (write_node_block
            { ofs with nodes := (table_insert_or_replace ofs.nodes
              { node with last_access := a, last_modification := m }).2 }
            BLOCK_OPERATION_NODE { node with last_access := a, last_modification := m }).2) := by
      unfold oncefs_set_time
      rw [hres]
      dsimp only
      rw [if_neg (fun h => h rfl), if_neg hm, if_neg hroot,
        if_neg (by rw [table_insert_or_replace_rc]; exact fun h => h rfl)]
      rw [← hrc]
    obtain ⟨hlive, hres1⟩ := resolve_after_retime ofs
      (write_node_block
        { ofs with nodes := (table_insert_or_replace ofs.nodes
          { node with last_access := a, last_modification := m }).2 }
        BLOCK_OPERATION_NODE { node with last_access := a, last_modification := m }).2
      path node a m hwf.2.1 hres hroot hnodes
    refine ⟨_, hset, hres1, ?_, ?_, ?_, ?_⟩
    · unfold oncefs_get_node
      rw [hres1]
      rfl
    · intro x
      show x ∈ index_rows (write_node_block _ _ _).2.nodes.rows
        (table_index (write_node_block _ _ _).2.nodes 1) ↔ _
      rw [hnodes]
      rw [table_insert_or_replace_mem ofs.nodes _ hwf.2.1.2 hncmp 1 (by omega) x, hnc0]
      rw [Ne, node_primary_eq_zero]
      rfl
    · intro b
      have hlive1 := create_block_live
        { ofs with nodes := (table_insert_or_replace ofs.nodes
          { node with last_access := a, last_modification := m }).2 }
        BLOCK_OPERATION_NODE node.node 0 0 hwfx.1 hcb b
      have e : b ∈ live_blocks (write_node_block
          { ofs with nodes := (table_insert_or_replace ofs.nodes
            { node with last_access := a, last_modification := m }).2 }
          BLOCK_OPERATION_NODE { node with last_access := a, last_modification := m }).2 ↔
          b ∈ live_blocks (_oncefs_create_block
            { ofs with nodes := (table_insert_or_replace ofs.nodes
              { node with last_access := a, last_modification := m }).2 }
            BLOCK_OPERATION_NODE node.node 0 0).2.1 := by
        show b ∈ index_rows (write_node_block _ _ _).2.blocks.rows
          (table_index (write_node_block _ _ _).2.blocks 1) ↔ _
        rw [hblocks]
        rfl
      rw [e, hlive1, hfresh]
      dsimp only
      constructor
      · rintro (h | ⟨h1, -⟩)
        · exact Or.inl h
        · exact Or.inr h1
      · rintro (h | h)
        · exact Or.inl h
        · refine Or.inr ⟨h, ?_⟩
          have := hwf.2.2.1.2 b (live_blocks_subset ofs hwf.1 b h)
          omega
    · intro h
      have := hwf.2.2.1.2 _ (live_blocks_subset ofs hwf.1 _ h)
      dsimp only at this
      omega

/-- Witness of C24 (amended): the test `_test_oncefs_set_time`, on the
default engine holding `/foo` and `/bar`, both with the times `(10, 10)` and
`(11, 11)`: `set_time("/foo", 100, 10)` changes nothing and
`set_time("/foo", 100, 200)` sets the times of `/foo`. -/
theorem c24_set_time_witness :
    (oncefs_set_time (state_of (run_ops c24_setup (oncefs_init_default 5))) "/foo".toList 100 10
      = some (0, state_of (run_ops c24_setup (oncefs_init_default 5)))) ∧
    (∃ ofs1, oncefs_set_time (state_of (run_ops c24_setup (oncefs_init_default 5)))
          "/foo".toList 100 200 = some (0, ofs1) ∧
        _oncefs_resolve_node ofs1 "/foo".toList
          = some (0, { node := 1, parent := 0, type := NODE_TYPE_FILE, last_access := 100,
                       last_modification := 200, mode := 0, name := "foo".toList }) ∧
        (oncefs_get_node ofs1 "/foo".toList).map
            (fun r => (r.1, r.2.node, r.2.last_access, r.2.last_modification))
          = some (0, 1, 100, 200) ∧
        (∀ x, x ∈ live_nodes ofs1 ↔
          (x = { node := 1, parent := 0, type := NODE_TYPE_FILE, last_access := 100,
                 last_modification := 200, mode := 0, name := "foo".toList } ∨
            (x ∈ live_nodes (state_of (run_ops c24_setup (oncefs_init_default 5))) ∧
              ¬ (x.node = 1 ∧ x.type = NODE_TYPE_FILE)))) ∧
        (∀ b, b ∈ live_blocks ofs1 ↔
          (b = { block := 3,
                 tag := { seq := 3, operation := BLOCK_OPERATION_NODE },
                 data := { node := 1, fill := 0, offset := 0 } } ∨
            b ∈ live_blocks (state_of (run_ops c24_setup (oncefs_init_default 5))))) ∧
        ({ block := 3,
           tag := { seq := 3, operation := BLOCK_OPERATION_NODE },
           data := { node := 1, fill := 0, offset := 0 } } : oncefs_block_t)
          ∉ live_blocks (state_of (run_ops c24_setup (oncefs_init_default 5)))) :=
  ⟨(c24_set_time (state_of (run_ops c24_setup (oncefs_init_default 5))) "/foo".toList 100 10
      { node := 1, parent := 0, type := NODE_TYPE_FILE, last_access := 10,
        last_modification := 10, mode := 0, name := "foo".toList }
      (reachable_engine_wf _ (default_run_reachable c24_setup 5 (by decide))) (by rfl)).1
      (by decide),
   (c24_set_time (state_of (run_ops c24_setup (oncefs_init_default 5))) "/foo".toList 100 200
      { node := 1, parent := 0, type := NODE_TYPE_FILE, last_access := 10,
        last_modification := 10, mode := 0, name := "foo".toList }
      (reachable_engine_wf _ (default_run_reachable c24_setup 5 (by decide))) (by rfl)).2
      (by decide) (by decide) (by decide) (by decide) (by decide)⟩

/-- A search of `array_sorted_first` reads of the key what the filter reads
of it. -/
theorem array_sorted_first_key {ε β : Type} [Inhabited ε] (deref : ε → β)
    (array : array_t ε β) (f : β → β → Int) (key key1 : β) (h : ∀ x, f key x = f key1 x) :
    array_sorted_first deref array (some f) key
      = array_sorted_first deref array (some f) key1 := by
  have hprobe : ∀ reverse, find_index_probe deref array (some f) key reverse
      = find_index_probe deref array (some f) key1 reverse := by
    intro reverse
    funext mid
    unfold find_index_probe
    simp only [Option.getD_some]
    rw [h, h]
  unfold array_sorted_first _array_sorted_find_value _array_sorted_find_index find_index_search
  rw [hprobe]

/-- The first row of the lookup index with the `(parent, name)` of a key is
the row the lookup of the segment finds. -/
theorem node_lookup_key (ofs : oncefs_t) (hwf : nodes_wf ofs) (key : oncefs_node_t) :
    table_query_first ofs.nodes key TABLE_INDEX_LOOKUP none
      = lookup_segment ofs key.parent key.name := by
  obtain ⟨-, -, hc1, -⟩ := nodes_wf_indexes ofs hwf
  unfold lookup_segment
  rw [table_query_first_none, table_query_first_none]
  unfold table_query_first
  dsimp only
  have e : TABLE_INDEX_LOOKUP = 1 := rfl
  rw [e, hc1]
  rw [array_sorted_first_key (array_dereference ofs.nodes.rows) (table_index ofs.nodes 1)
    _oncefs_node_cmp_lookup key
    { node := 0, parent := key.parent, type := NODE_TYPE_DIR, last_access := 0,
      last_modification := 0, mode := 0, name := key.name } (fun x => rfl)]

/-- C21 (rename onto a directory).  On the engine holding the file `/foo`,
the directory `/bar` and the link `/baz`, the destination `"/"` resolves to
an existing DIR, and `move_node("/foo", "/")` does not return INVALID: it
returns OK and gives the row of `/foo` the name `"/"` under parent `0`;
afterwards `/foo` resolves to NOT_FOUND. -/
theorem c21_move_onto_root_returns_ok :
    (_oncefs_resolve_node (engine_after 512 16 c16_setup) "/foo".toList).map
        (fun r => (r.1, r.2.node)) = some (0, 1) ∧
    (_oncefs_resolve_node (engine_after 512 16 c16_setup) "/".toList).map
        (fun r => (r.1, r.2.type)) = some (0, NODE_TYPE_DIR) ∧
    (oncefs_move_node (engine_after 512 16 c16_setup) "/foo".toList "/".toList).map
        (fun r => (r.1, (live_nodes r.2).map (fun n => (n.node, n.parent, n.name))))
      = some (0, [(1, 0, "/".toList), (2, 0, "bar".toList), (4, 0, "baz".toList),
          (3, 2, "bork".toList), (4, 4, "/foo".toList)]) ∧
    ((oncefs_move_node (engine_after 512 16 c16_setup) "/foo".toList "/".toList).bind
        (fun r => _oncefs_resolve_node r.2 "/foo".toList)).map (fun q => q.1)
      = some (-ENOENT) := by
  refine ⟨?_, ?_, ?_, ?_⟩ <;> rfl

/-- Renaming onto a directory or link that has a row in the nodes table.  On
an engine with a well-formed nodes table, let `src`, a path other than
`"/"`, resolve to a node, and let `dst` resolve to a DIR or a LINK, where
`dst` has a `/` before its last component, a last component shorter than 256
bytes and a directory part that resolves.  Then `move_node(src, dst)` returns
INVALID and leaves the engine as it is. -/
theorem move_onto_dir_or_link_invalid (ofs : oncefs_t) (src dst : List Char)
    (node d parent : oncefs_node_t) (hwf : nodes_wf ofs)
    (hsrc : _oncefs_resolve_node ofs src = some (0, node)) (hsroot : src ≠ ['/'])
    (hdst : _oncefs_resolve_node ofs dst = some (0, d))
    (hty : d.type = NODE_TYPE_DIR ∨ d.type = NODE_TYPE_LINK)
    (hds : '/' ∈ strip_slashes dst)
    (hpar : _oncefs_resolve_node ofs (dirname dst) = some (0, parent))
    (hbase : (basename dst).length < ONCEFS_NAME_MAX_SIZE) :
    oncefs_move_node ofs src dst = some (-EINVAL, ofs) := by
  obtain ⟨htok, -⟩ := path_tokens_dirname dst hds
  have hwd := walk_of_resolve ofs dst d hdst
  rw [htok] at hwd
  obtain ⟨pd, hpd, hpdir, -, hl0, hld⟩ := walk_segments_snoc ofs (basename dst) _ _ _ hwd
  have hwp := walk_of_resolve ofs (dirname dst) parent hpar
  have hpe : pd = parent := Option.some.inj (hpd.symm.trans hwp)
  rw [hpe] at hpdir hl0 hld
  have hname : strncpy (basename dst) ONCEFS_NAME_MAX_SIZE = basename dst := by
    unfold strncpy
    exact List.take_of_length_le (le_of_lt hbase)
  have hq := node_lookup_key ofs hwf
    { node with parent := parent.node, name := basename dst }
  dsimp only at hq
  have hmv : _oncefs_move_node ofs { node with parent := parent.node, name := basename dst }
      = (-EINVAL, ofs) := by
    unfold _oncefs_move_node
    dsimp only
    rw [hq, if_pos hl0, hld]
    rw [if_neg]
    rcases hty with h | h <;> rw [h] <;> decide
  unfold oncefs_move_node
  rw [hsrc]
  dsimp only
  rw [if_neg (fun h => h rfl), hpar]
  dsimp only
  rw [if_neg (fun h => h rfl), if_neg (fun h => h hpdir), if_neg (by omega), if_neg hsroot,
    hname, hmv]
  rw [if_neg (by show ¬ ((-EINVAL : Int) = -EEXIST); decide),
    if_pos (by show (-EINVAL : Int) ≠ 0; decide)]

/-- The engine of the scenario of C16 has a well-formed nodes table. -/
theorem c16_engine_wf : engine_wf (engine_after 512 16 c16_setup) :=
  reachable_engine_wf _ (engine_after_reachable 512 16 c16_setup (by decide) (by decide))

/-- With the file `/foo`, the directory `/bar` and the link `/baz`,
`move_node("/foo", "/bar")` and `move_node("/foo", "/baz")` return INVALID
and leave the engine as it is. -/
theorem move_onto_dir_or_link_invalid_example :
    oncefs_move_node (engine_after 512 16 c16_setup) "/foo".toList "/bar".toList
      = some (-EINVAL, engine_after 512 16 c16_setup) ∧
    oncefs_move_node (engine_after 512 16 c16_setup) "/foo".toList "/baz".toList
      = some (-EINVAL, engine_after 512 16 c16_setup) :=
  ⟨move_onto_dir_or_link_invalid (engine_after 512 16 c16_setup) "/foo".toList "/bar".toList
      { node := 1, parent := 0, type := NODE_TYPE_FILE, last_access := 10,
        last_modification := 10, mode := 0, name := "foo".toList }
      { node := 2, parent := 0, type := NODE_TYPE_DIR, last_access := 11,
        last_modification := 11, mode := 0, name := "bar".toList }
      (root_node (engine_after 512 16 c16_setup)) c16_engine_wf.2.1
      (by rfl) (by decide) (by rfl) (by decide) (by decide) (by rfl) (by decide),
   move_onto_dir_or_link_invalid (engine_after 512 16 c16_setup) "/foo".toList "/baz".toList
      { node := 1, parent := 0, type := NODE_TYPE_FILE, last_access := 10,
        last_modification := 10, mode := 0, name := "foo".toList }
      { node := 4, parent := 0, type := NODE_TYPE_LINK, last_access := 13,
        last_modification := 13, mode := 0, name := "baz".toList }
      (root_node (engine_after 512 16 c16_setup)) c16_engine_wf.2.1
      (by rfl) (by decide) (by rfl) (by decide) (by decide) (by rfl) (by decide)⟩

/-- No chunk is needed for no bytes. -/
theorem chunks_zero (P : Nat) (hP : 0 < P) : (0 + P - 1) / P = 0 := by
  rw [Nat.zero_add]
  exact Nat.div_eq_of_lt (by omega)

/-- The number of chunks of `x > 0` bytes is one more than that of the bytes
left after the first chunk. -/
theorem chunks_step (x P : Nat) (hP : 0 < P) (hx : 0 < x) :
    (x + P - 1) / P = (x - min P x + P - 1) / P + 1 := by
  by_cases h : P ≤ x
  · rw [Nat.min_eq_left h]
    have : x + P - 1 = (x - P + P - 1) + P := by omega
    rw [this, Nat.add_div_right _ hP]
  · have h1 : min P x = x := Nat.min_eq_right (by omega)
    rw [h1, Nat.sub_self, Nat.zero_add, Nat.div_eq_of_lt (by omega : P - 1 < P)]
    have : x + P - 1 = (x - 1) + P := by omega
    rw [this, Nat.add_div_right _ hP, Nat.div_eq_of_lt (by omega)]

/-- One round of the loop of `oncefs_set_data` on a well-formed engine with
an unused block at the tail: the DATA block of the chunk is added to the
live blocks, and the loop goes on behind the chunk. -/
theorem set_data_round (node : Nat) (data : List Nat) (size offset P fuel : Nat) (s : oncefs_t)
    (written : Nat) (hwf : engine_wf s) (hP : s.payload_size = (P : Int))
    (hbs : s.payload_size + SIZEOF_TAG + SIZEOF_DATA ≤ s.block_size)
    (hdata : size ≤ data.length) (hw : written < size)
    (hroom : s.next_block_id ≤ s.last_block_id) (h32 : s.next_block_id < 2 ^ 32) :
    ∃ s2, set_data_loop node data size offset (fuel + 1) s written
        = set_data_loop node data size offset fuel s2 (written + min P (size - written)) ∧
      engine_wf s2 ∧ s2.payload_size = s.payload_size ∧ s2.block_size = s.block_size ∧
      s2.last_block_id = s.last_block_id ∧ s2.next_block_id = s.next_block_id + 1 ∧
      s2.next_seq_id = s.next_seq_id + 1 ∧
      ∀ b, b ∈ live_blocks s2 ↔
        (b = { block := s.next_block_id,
               tag := { seq := s.next_seq_id, operation := BLOCK_OPERATION_DATA },
               data := { node := node, fill := min P (size - written) % 2 ^ 16,
                         offset := offset + written } } ∨ b ∈ live_blocks s) := by
  have hfresh := create_block_fresh s BLOCK_OPERATION_DATA node (min P (size - written))
    (offset + written) hroom h32
  have hwf1 : engine_wf (_oncefs_create_block s BLOCK_OPERATION_DATA node
      (min P (size - written)) (offset + written)).2.1 :=
    engine_wf_step_closed.create_block s BLOCK_OPERATION_DATA node _ _ hwf
  have hcbok : (_oncefs_create_block s BLOCK_OPERATION_DATA node (min P (size - written))
      (offset + written)).1 = 0 := by
    rw [hfresh]
  have hlive := create_block_live s BLOCK_OPERATION_DATA node (min P (size - written))
    (offset + written) hwf.1 hcbok
  rw [hfresh] at hwf1 hlive
  dsimp only at hwf1 hlive
  have hbound : ∀ b ∈ live_blocks s, b.block < s.next_block_id :=
    fun b hb => hwf.2.2.1.2 b (live_blocks_subset s hwf.1 b hb)
  have hamt : (if (size : Int) - (written : Int) > s.payload_size then s.payload_size.toNat
      else size - written) = min P (size - written) := by
    rw [hP]
    split
    · rw [Int.toNat_ofNat]
      omega
    · omega
  have hs16 : SIZEOF_TAG + SIZEOF_DATA = 32 := by decide
  rw [set_data_loop, if_pos hw]
  dsimp only
  rw [hamt, hfresh]
  dsimp only
  rw [if_neg (fun h => h rfl)]
  cases hio : s.io with
  | none =>
    dsimp only
    rw [hio] at hwf1 hlive
    refine ⟨_, rfl, hwf1, rfl, rfl, rfl, rfl, rfl, ?_⟩
    intro b
    rw [hlive b]
    constructor
    · rintro (h | h)
      · exact Or.inl h
      · exact Or.inr h.1
    · rintro (h | h)
      · exact Or.inl h
      · exact Or.inr ⟨h, by have := hbound b h; omega⟩
  | some dev =>
    dsimp only
    have hcons := hwf.2.2.2 dev hio
    have hlen : ((data.drop written).take (min P (size - written))).length
        = min P (size - written) := by
      rw [List.length_take, List.length_drop]
      omega
    rw [io_write_data_ok dev s.next_block_id _ _ _ (by rw [hcons.1]; exact hroom)
      (by rw [hlen, hcons.2]; rw [hP] at hbs; omega)]
    dsimp only
    rw [if_neg (fun h => h rfl)]
    have hwf2 := set_io_wf _ dev (dev.buffer.set s.next_block_id
      (disk_block_t.mk { seq := s.next_seq_id, operation := BLOCK_OPERATION_DATA }
        (body_t.data { node := node, fill := min P (size - written) % 2 ^ 16,
                       offset := offset + written }
          ((data.drop written).take (min P (size - written)))))) hwf1 hio
    refine ⟨_, rfl, hwf2, rfl, rfl, rfl, rfl, rfl, ?_⟩
    intro b
    have hl : b ∈ live_blocks
        { next_node_id := if node ≥ s.next_node_id then (node + 1) % 2 ^ 32 else s.next_node_id,
          first_block_id := s.first_block_id, last_block_id := s.last_block_id,
          next_block_id := s.next_block_id + 1,
          next_seq_id := s.next_seq_id + 1, time := s.time, nodes := s.nodes,
          blocks :=
            (table_insert_or_replace s.blocks
                { block := s.next_block_id,
                  tag := { seq := s.next_seq_id, operation := BLOCK_OPERATION_DATA },
                  data := { node := node, fill := (min P (size - written)) % 2 ^ 16,
                            offset := offset + written } }).2,
          io := s.io, payload_size := s.payload_size, block_size := s.block_size } ↔ _ := hlive b
    refine Iff.trans ?_ (Iff.trans hl ?_)
    · exact Iff.rfl
    · constructor
      · rintro (h | h)
        · exact Or.inl h
        · exact Or.inr h.1
      · rintro (h | h)
        · exact Or.inl h
        · exact Or.inr ⟨h, by have := hbound b h; omega⟩

/-- The loop of `oncefs_set_data` on a well-formed engine with a positive
payload size `P` and unused blocks at the tail for every chunk: OK after
`⌈(size - written) / P⌉` rounds; round `k` adds the DATA block of the chunk
at `written + k * P`, whose `fill` is the length of the chunk narrowed to
sixteen bits. -/
theorem set_data_chunks (node : Nat) (data : List Nat) (size offset P : Nat) (hP0 : 0 < P)
    (hdata : size ≤ data.length) :
    ∀ (fuel : Nat) (s : oncefs_t) (written : Nat), engine_wf s → s.payload_size = (P : Int) →
      s.payload_size + SIZEOF_TAG + SIZEOF_DATA ≤ s.block_size → written ≤ size →
      size - written ≤ fuel →
      s.next_block_id + (size - written + P - 1) / P ≤ s.last_block_id + 1 →
      s.next_block_id + (size - written + P - 1) / P ≤ 2 ^ 32 →
      (set_data_loop node data size offset fuel s written).1 = 0 ∧
      engine_wf (set_data_loop node data size offset fuel s written).2 ∧
      (set_data_loop node data size offset fuel s written).2.next_block_id
        = s.next_block_id + (size - written + P - 1) / P ∧
      (set_data_loop node data size offset fuel s written).2.next_seq_id
        = s.next_seq_id + (size - written + P - 1) / P ∧
      ∀ b, b ∈ live_blocks (set_data_loop node data size offset fuel s written).2 ↔
        (b ∈ live_blocks s ∨ ∃ k, k < (size - written + P - 1) / P ∧
          b = { block := s.next_block_id + k,
                tag := { seq := s.next_seq_id + k, operation := BLOCK_OPERATION_DATA },
                data := { node := node, fill := min P (size - written - k * P) % 2 ^ 16,
                          offset := offset + written + k * P } }) := by
  intro fuel
  induction fuel with
  | zero =>
    intro s written hwf _ _ hws hfuel _ _
    have h0 : size - written = 0 := by omega
    rw [h0, chunks_zero P hP0]
    refine ⟨rfl, hwf, rfl, rfl, ?_⟩
    intro b
    show b ∈ live_blocks s ↔ _
    constructor
    · exact fun h => Or.inl h
    · rintro (h | ⟨k, hk, _⟩)
      · exact h
      · omega
  | succ fuel ih =>
    intro s written hwf hP hbs hws hfuel hroom h32
    by_cases hw : written < size
    · have hc := chunks_step (size - written) P hP0 (by omega)
      rw [hc] at hroom h32 ⊢
      have hnn := Nat.zero_le ((size - written - min P (size - written) + P - 1) / P)
      obtain ⟨s2, hloop, hwf2, hp2, hb2, hl2, hn2, hq2, hlive2⟩ :=
        set_data_round node data size offset P fuel s written hwf hP hbs hdata hw
          (by omega) (by omega)
      have hrest : size - (written + min P (size - written))
          = size - written - min P (size - written) := by omega
      obtain ⟨r1, r2, r3, r4, r5⟩ := ih s2 (written + min P (size - written)) hwf2
        (hp2.trans hP) (by rw [hp2, hb2]; exact hbs) (by omega) (by omega)
        (by rw [hrest, hn2, hl2]; omega) (by rw [hrest, hn2]; omega)
      rw [hloop]
      rw [hrest] at r3 r4 r5
      refine ⟨r1, r2, by rw [r3, hn2]; omega, by rw [r4, hq2]; omega, ?_⟩
      intro b
      rw [r5 b, hlive2 b]
      have hfull : ∀ k, k < (size - written - min P (size - written) + P - 1) / P →
          min P (size - written) = P := by
        intro k hk
        by_cases hPx : P ≤ size - written
        · exact Nat.min_eq_left hPx
        · have h1 : min P (size - written) = size - written := Nat.min_eq_right (by omega)
          rw [h1, Nat.sub_self, chunks_zero P hP0] at hk
          omega
      constructor
      · rintro ((h | h) | ⟨k, hk, h⟩)
        · refine Or.inr ⟨0, by omega, ?_⟩
          rw [h, Nat.zero_mul]
          rfl
        · exact Or.inl h
        · refine Or.inr ⟨k + 1, by omega, ?_⟩
          rw [h, hn2, hq2, hfull k hk, Nat.succ_mul]
          have e1 : s.next_block_id + 1 + k = s.next_block_id + (k + 1) := by omega
          have e2 : s.next_seq_id + 1 + k = s.next_seq_id + (k + 1) := by omega
          have e3 : size - written - P - k * P = size - written - (k * P + P) := by omega
          have e4 : offset + (written + P) + k * P = offset + written + (k * P + P) := by omega
          rw [e1, e2, e3, e4]
      · rintro (h | ⟨k, hk, h⟩)
        · exact Or.inl (Or.inr h)
        · cases k with
          | zero =>
            refine Or.inl (Or.inl ?_)
            rw [h, Nat.zero_mul]
            rfl
          | succ k =>
            have hk1 : k < (size - written - min P (size - written) + P - 1) / P := by omega
            refine Or.inr ⟨k, hk1, ?_⟩
            rw [h, hn2, hq2, hfull k hk1, Nat.succ_mul]
            have e1 : s.next_block_id + 1 + k = s.next_block_id + (k + 1) := by omega
            have e2 : s.next_seq_id + 1 + k = s.next_seq_id + (k + 1) := by omega
            have e3 : size - written - P - k * P = size - written - (k * P + P) := by omega
            have e4 : offset + (written + P) + k * P = offset + written + (k * P + P) := by omega
            rw [e1, e2, e3, e4]
    · have h0 : size - written = 0 := by omega
      rw [h0, chunks_zero P hP0, set_data_loop, if_neg hw]
      refine ⟨rfl, hwf, rfl, rfl, ?_⟩
      intro b
      show b ∈ live_blocks s ↔ _
      constructor
      · exact fun h => Or.inl h
      · rintro (h | ⟨k, hk, _⟩)
        · exact h
        · omega

/-- The lengths of the chunks of `size` bytes cut at multiples of `P > 0` sum
to `size`. -/
theorem chunk_fill_sum (P : Nat) (hP0 : 0 < P) :
    ∀ (n size : Nat), size ≤ n →
      ∑ k in Finset.range ((size + P - 1) / P), min P (size - k * P) = size := by
  intro n
  induction n with
  | zero =>
    intro size h
    have h0 : size = 0 := by omega
    rw [h0, chunks_zero P hP0]
    rfl
  | succ n ih =>
    intro size h
    by_cases hs : size = 0
    · rw [hs, chunks_zero P hP0]
      rfl
    · rw [chunks_step size P hP0 (by omega), Finset.sum_range_succ', Nat.zero_mul, Nat.sub_zero]
      have hrest := ih (size - min P size) (by omega)
      have hcongr : ∑ k in Finset.range ((size - min P size + P - 1) / P),
            min P (size - (k + 1) * P)
          = ∑ k in Finset.range ((size - min P size + P - 1) / P),
            min P (size - min P size - k * P) := by
        refine Finset.sum_congr rfl ?_
        intro k hk
        rw [Finset.mem_range] at hk
        have hfull : min P size = P := by
          by_cases hPx : P ≤ size
          · exact Nat.min_eq_left hPx
          · have h1 : min P size = size := Nat.min_eq_right (by omega)
            rw [h1, Nat.sub_self, chunks_zero P hP0] at hk
            omega
        rw [hfull, Nat.succ_mul]
        have e : size - (k * P + P) = size - P - k * P := by omega
        rw [e]
      rw [hcongr, hrest]
      omega

/-- A pair whose return code is OK, as a result. -/
theorem option_pair_zero {α : Type} (r : Int × α) (h : r.1 = 0) : some r = some (0, r.2) := by
  rw [← h]

/-- C23, as stated, fails when the payload size does not fit the sixteen
bits of `fill`: on a container of blocks of 65568 bytes the payload size is
65536, and `set_data` of 65536 bytes to the node of `/foo` returns OK and
adds one DATA block at offset 0 whose `fill` is 0, not 65536. -/
theorem c23_counterexample :
    (engine_after 65568 4 c23_setup).payload_size = 65536 ∧
    live_blocks (engine_after 65568 4 c23_setup)
      = [{ block := 1, tag := { seq := 1, operation := BLOCK_OPERATION_NODE },
           data := { node := 1, fill := 0, offset := 0 } }] ∧
    ∃ ofs1, oncefs_set_data (engine_after 65568 4 c23_setup) 1 (List.replicate 65536 7) 65536 0
        = some (0, ofs1) ∧
      ∀ b, b ∈ live_blocks ofs1 ↔
        (b ∈ live_blocks (engine_after 65568 4 c23_setup) ∨
          b = { block := 2, tag := { seq := 2, operation := BLOCK_OPERATION_DATA },
                data := { node := 1, fill := 0, offset := 0 } }) := by
  have hwf : engine_wf (engine_after 65568 4 c23_setup) :=
    reachable_engine_wf _ (engine_after_reachable 65568 4 c23_setup (by decide) (by decide))
  have hP : (engine_after 65568 4 c23_setup).payload_size = ((65536 : Nat) : Int) := by decide
  have hb : (engine_after 65568 4 c23_setup).block_size = 65568 := by decide
  have hn : (engine_after 65568 4 c23_setup).next_block_id = 2 := by decide
  have hq : (engine_after 65568 4 c23_setup).next_seq_id = 2 := by decide
  have hl : (engine_after 65568 4 c23_setup).last_block_id = 3 := by decide
  have hlen : (List.replicate 65536 7 : List Nat).length = 65536 := List.length_replicate _ _
  have hc : (65536 - 0 + 65536 - 1) / 65536 = 1 := by norm_num
  obtain ⟨r1, -, -, -, r5⟩ := set_data_chunks 1 (List.replicate 65536 7) 65536 0 65536
    (by norm_num) (by rw [hlen]) 65536 (engine_after 65568 4 c23_setup) 0 hwf hP
    (by rw [hP, hb]; decide) (Nat.zero_le _) (by norm_num) (by rw [hn, hl, hc]; decide)
    (by rw [hn, hc]; norm_num)
  refine ⟨by decide, by decide,
    (set_data_loop 1 (List.replicate 65536 7) 65536 0 65536 (engine_after 65568 4 c23_setup) 0).2,
    ?_, ?_⟩
  · rw [oncefs_set_data, if_neg (by rw [hlen]; exact Nat.lt_irrefl _),
      if_neg (by rw [hP]; exact fun h => absurd h.2 (by decide))]
    exact option_pair_zero _ r1
  · intro b
    rw [r5 b, hc, hn, hq]
    constructor
    · rintro (h | ⟨k, hk, h⟩)
      · exact Or.inl h
      · have hk0 : k = 0 := by omega
        rw [hk0] at h
        exact Or.inr h
    · rintro (h | h)
      · exact Or.inl h
      · exact Or.inr ⟨0, by omega, h⟩

/-- C23 (amended).  On a well-formed engine whose payload size `P` is
positive and below `2 ^ 16`, whose blocks hold a payload with its headers,
and which has `⌈size / P⌉` unused blocks at the tail, let the bytes written
end below `2 ^ 64` (`offset + size < 2 ^ 64`) and the sequence counter stay
within 64 bits (`next_seq_id + ⌈size / P⌉ <= 2 ^ 64`), so that the
`uint64_t` sums of the source do not wrap.  Then `set_data(node, data, size,
offset)` with a buffer of at least `size` bytes returns OK.  The block and
sequence counters advance by `⌈size / P⌉`; the live blocks afterwards are
those before and, for every `k < ⌈size / P⌉`, a DATA block of the node with
block id `next_block_id + k`, seq `next_seq_id + k`, offset `offset + k * P`
and fill `min P (size - k * P)`, none of which was live before; the fills sum
to `size`, with `size = 0` the engine is left as it is, and every offset and
sequence number written is below `2 ^ 64`. -/
theorem c23_write_splitting (ofs : oncefs_t) (node : Nat) (data : List Nat)
    (size offset P : Nat) (hwf : engine_wf ofs) (hP : ofs.payload_size = (P : Int))
    (hP0 : 0 < P) (hP16 : P < 2 ^ 16)
    (hbs : ofs.payload_size + SIZEOF_TAG + SIZEOF_DATA ≤ ofs.block_size)
    (hdata : size ≤ data.length)
    (hroom : ofs.next_block_id + (size + P - 1) / P ≤ ofs.last_block_id + 1)
    (h32 : ofs.next_block_id + (size + P - 1) / P ≤ 2 ^ 32)
    (hoff : offset + size < 2 ^ 64)
    (hseq : ofs.next_seq_id + (size + P - 1) / P ≤ 2 ^ 64) :
    ∃ ofs1, oncefs_set_data ofs node data size offset = some (0, ofs1) ∧
      ofs1.next_block_id = ofs.next_block_id + (size + P - 1) / P ∧
      ofs1.next_seq_id = ofs.next_seq_id + (size + P - 1) / P ∧
      (∀ b, b ∈ live_blocks ofs1 ↔
        (b ∈ live_blocks ofs ∨ ∃ k, k < (size + P - 1) / P ∧
          b = { block := ofs.next_block_id + k,
                tag := { seq := ofs.next_seq_id + k, operation := BLOCK_OPERATION_DATA },
                data := { node := node, fill := min P (size - k * P),
                          offset := offset + k * P } })) ∧
      (∀ k, ({ block := ofs.next_block_id + k,
               tag := { seq := ofs.next_seq_id + k, operation := BLOCK_OPERATION_DATA },
               data := { node := node, fill := min P (size - k * P),
                         offset := offset + k * P } } : oncefs_block_t) ∉ live_blocks ofs) ∧
      ∑ k in Finset.range ((size + P - 1) / P), min P (size - k * P) = size ∧
      (size = 0 → ofs1 = ofs) ∧
      (∀ k, k < (size + P - 1) / P →
        offset + k * P < 2 ^ 64 ∧ ofs.next_seq_id + k < 2 ^ 64) := by
  obtain ⟨r1, -, r3, r4, r5⟩ := set_data_chunks node data size offset P hP0 hdata size ofs 0 hwf
    hP hbs (Nat.zero_le _) (by omega) (by rw [Nat.sub_zero]; exact hroom)
    (by rw [Nat.sub_zero]; exact h32)
  rw [Nat.sub_zero] at r3 r4 r5
  refine ⟨(set_data_loop node data size offset size ofs 0).2, ?_, r3, r4, ?_, ?_,
    chunk_fill_sum P hP0 size size (Nat.le_refl _), ?_, ?_⟩
  · rw [oncefs_set_data, if_neg (by omega), if_neg (by rw [hP]; omega)]
    exact option_pair_zero _ r1
  · intro b
    rw [r5 b]
    have hmod : ∀ k, min P (size - k * P) % 2 ^ 16 = min P (size - k * P) := fun k =>
      Nat.mod_eq_of_lt (by omega)
    constructor
    · rintro (h | ⟨k, hk, h⟩)
      · exact Or.inl h
      · refine Or.inr ⟨k, hk, ?_⟩
        rw [h, hmod, Nat.add_zero]
    · rintro (h | ⟨k, hk, h⟩)
      · exact Or.inl h
      · refine Or.inr ⟨k, hk, ?_⟩
        rw [h, hmod, Nat.add_zero]
  · intro k hk
    have := hwf.2.2.1.2 _ (live_blocks_subset ofs hwf.1 _ hk)
    have e : ({ block := ofs.next_block_id + k,
                tag := { seq := ofs.next_seq_id + k, operation := BLOCK_OPERATION_DATA },
                data := { node := node, fill := min P (size - k * P),
                          offset := offset + k * P } } : oncefs_block_t).block
        = ofs.next_block_id + k := rfl
    rw [e] at this
    omega
  · intro h0
    subst h0
    rfl
  · intro k hk
    have h1 : (k + 1) * P ≤ size + P - 1 := (Nat.le_div_iff_mul_le hP0).mp hk
    rw [Nat.succ_mul] at h1
    constructor <;> omega

/-- Witness of C23 (amended): on a container of blocks of 512 bytes, whose
payload size is 480, `set_data` of 1000 bytes at offset 0 to the node of
`/foo` returns OK and adds three DATA blocks with fills 480, 480 and 40 at
offsets 0, 480 and 960. -/
theorem c23_write_splitting_witness :
    ∃ ofs1, oncefs_set_data (engine_after 512 8 c23_setup) 1 (List.replicate 1000 7) 1000 0
        = some (0, ofs1) ∧
      ofs1.next_block_id = 5 ∧ ofs1.next_seq_id = 5 ∧
      ∀ b, b ∈ live_blocks ofs1 ↔
        (b ∈ live_blocks (engine_after 512 8 c23_setup) ∨
          b = { block := 2, tag := { seq := 2, operation := BLOCK_OPERATION_DATA },
                data := { node := 1, fill := 480, offset := 0 } } ∨
          b = { block := 3, tag := { seq := 3, operation := BLOCK_OPERATION_DATA },
                data := { node := 1, fill := 480, offset := 480 } } ∨
          b = { block := 4, tag := { seq := 4, operation := BLOCK_OPERATION_DATA },
                data := { node := 1, fill := 40, offset := 960 } }) := by
  have hn : (engine_after 512 8 c23_setup).next_block_id = 2 := by decide
  have hq : (engine_after 512 8 c23_setup).next_seq_id = 2 := by decide
  have hc : (1000 + 480 - 1) / 480 = 3 := by norm_num
  obtain ⟨ofs1, h1, h2, h3, h4, -, -, -, -⟩ :=
    c23_write_splitting (engine_after 512 8 c23_setup) 1 (List.replicate 1000 7) 1000 0 480
      (reachable_engine_wf _ (engine_after_reachable 512 8 c23_setup (by decide) (by decide)))
      (by decide) (by decide) (by decide) (by decide) (by rw [List.length_replicate])
      (by rw [hn, hc]; decide) (by rw [hn, hc]; decide) (by norm_num)
      (by rw [hq, hc]; norm_num)
  refine ⟨ofs1, h1, by rw [h2, hn, hc], by rw [h3, hq, hc], ?_⟩
  intro b
  rw [h4 b, hn, hq, hc]
  constructor
  · rintro (h | ⟨k, hk, h⟩)
    · exact Or.inl h
    · interval_cases k
      · exact Or.inr (Or.inl h)
      · exact Or.inr (Or.inr (Or.inl h))
      · exact Or.inr (Or.inr (Or.inr h))
  · rintro (h | h | h | h)
    · exact Or.inl h
    · exact Or.inr ⟨0, by decide, h⟩
    · exact Or.inr ⟨1, by decide, h⟩
    · exact Or.inr ⟨2, by decide, h⟩

/-- The primitive changes to the two tables leave the block and node
counters alone. -/
theorem counters_table_step_closed :
    table_step_closed (fun s s1 =>
      s1.next_block_id = s.next_block_id ∧ s1.next_node_id = s.next_node_id) := by
  refine { refl := ?_, trans := ?_, nodes_insert := ?_, nodes_delete := ?_, blocks_free := ?_,
           blocks_truncate := ?_ }
  · intro s; exact ⟨rfl, rfl⟩
  · intro a b c hab hbc; exact ⟨hbc.1.trans hab.1, hbc.2.trans hab.2⟩
  · intro s row; exact ⟨rfl, rfl⟩
  · intro s key; exact ⟨rfl, rfl⟩
  · intro s key; exact ⟨rfl, rfl⟩
  · intro s key new_size; exact ⟨rfl, rfl⟩

/-- The counters after the record of a replayed block is loaded:
`next_block_id` is moved behind the block unless it is there already, and
`next_node_id` behind the node (in `uint32_t` arithmetic) likewise. -/
theorem load_block_counters (y : oncefs_t) (tagged : oncefs_tagged_block_t)
    (data : oncefs_data_t) :
    (load_advance (_oncefs_load_block_data y tagged data).2 tagged).next_block_id
      = (if tagged.block ≥ y.next_block_id then tagged.block + 1 else y.next_block_id) ∧
    (load_advance (_oncefs_load_block_data y tagged data).2 tagged).next_node_id
      = (if data.node ≥ y.next_node_id then (data.node + 1) % 2 ^ 32 else y.next_node_id) := by
  unfold load_advance _oncefs_load_block_data _oncefs_init_block
  dsimp only
  by_cases h1 : data.node ≥ y.next_node_id <;> by_cases h2 : tagged.block ≥ y.next_block_id
  · rw [if_pos h1, if_pos h1]
    dsimp only
    rw [if_pos h2, if_pos h2]
    exact ⟨rfl, rfl⟩
  · rw [if_pos h1, if_pos h1]
    dsimp only
    rw [if_neg h2, if_neg h2]
    exact ⟨rfl, rfl⟩
  · rw [if_neg h1, if_neg h1]
    rw [if_pos h2, if_pos h2]
    exact ⟨rfl, rfl⟩
  · rw [if_neg h1, if_neg h1]
    rw [if_neg h2, if_neg h2]
    exact ⟨rfl, rfl⟩

/-- The counters after one successful round of the replay. -/
theorem load_step_counters (ofs : oncefs_t) (io : io_t) (cursor : oncefs_tagged_block_t)
    (r : Int × oncefs_t) (hr : load_step ofs io cursor = some r) (h0 : r.1 = 0) :
    r.2.next_block_id
      = (if cursor.block ≥ ofs.next_block_id then cursor.block + 1 else ofs.next_block_id) ∧
    r.2.next_node_id
      = (if carried_node io cursor.block ≥ ofs.next_node_id
          then (carried_node io cursor.block + 1) % 2 ^ 32 else ofs.next_node_id) := by
  have hT := counters_table_step_closed
  have hblock : ∀ (s : oncefs_t) (data : oncefs_data_t) (r : Int × oncefs_t),
      (s.next_block_id = ofs.next_block_id ∧ s.next_node_id = ofs.next_node_id) →
      data.node = carried_node io cursor.block →
      (if (_oncefs_load_block_data s
            { block := cursor.block, tag := (io.buffer.getD cursor.block default).tag } data).1 ≠ 0
        then some (_oncefs_load_block_data s
            { block := cursor.block, tag := (io.buffer.getD cursor.block default).tag } data)
        else some (0, load_advance (_oncefs_load_block_data s
            { block := cursor.block, tag := (io.buffer.getD cursor.block default).tag } data).2
            { block := cursor.block, tag := (io.buffer.getD cursor.block default).tag }))
        = some r →
      r.2.next_block_id
        = (if cursor.block ≥ ofs.next_block_id then cursor.block + 1
            else ofs.next_block_id) ∧
      r.2.next_node_id
        = (if carried_node io cursor.block ≥ ofs.next_node_id
            then (carried_node io cursor.block + 1) % 2 ^ 32 else ofs.next_node_id) := by
    intro s data r hs hd h
    rw [if_neg (by rw [load_block_data_rc]; simp)] at h
    cases h
    have := load_block_counters s
      { block := cursor.block, tag := (io.buffer.getD cursor.block default).tag } data
    rw [hs.1, hs.2, hd] at this
    exact this
  have hnode : ∀ entry : oncefs_node_t,
      (io.buffer.getD cursor.block default).body = body_t.node entry →
      ({ node := entry.node, fill := 0, offset := 0 } : oncefs_data_t).node
        = carried_node io cursor.block := by
    intro entry hbody
    unfold carried_node
    rw [hbody]
  have hdata : ∀ (entry : oncefs_data_t) (bytes : List Nat),
      (io.buffer.getD cursor.block default).body = body_t.data entry bytes →
      entry.node = carried_node io cursor.block := by
    intro entry bytes hbody
    unfold carried_node
    rw [hbody]
  unfold load_step at hr
  dsimp only at hr
  split at hr
  · split at hr
    · cases hr
    · split at hr
      · rename_i data_entry bytes hbody
        exact hblock ofs data_entry r ⟨rfl, rfl⟩ (hdata _ _ hbody) hr
      · cases hr
  · split at hr
    · split at hr
      · rename_i hne
        cases hr
        exact absurd h0 hne
      · split at hr
        · rename_i node_entry hbody
          split at hr
          · rename_i hne
            cases hr
            exact absurd h0 hne
          · rw [load_block_node_eq] at hr
            exact hblock _ _ r (hT.nodes_insert _ _) (hnode _ hbody) hr
        · cases hr
    · split at hr
      · split at hr
        · rename_i hne
          cases hr
          exact absurd h0 hne
        · split at hr
          · rename_i node_entry hbody
            have h1 := move_node_helper_closed _ hT ofs node_entry
            split at hr
            · rename_i hne
              cases hr
              exact absurd h0 hne
            · rw [load_block_node_eq] at hr
              exact hblock _ _ r h1 (hnode _ hbody) hr
          · cases hr
      · split at hr
        · split at hr
          · rename_i hne
            cases hr
            exact absurd h0 hne
          · split at hr
            · rename_i node_entry hbody
              have h1 := del_node_helper_closed _ hT ofs node_entry 0
              split at hr
              · rename_i hne
                cases hr
                exact absurd h0 hne.1
              · rw [load_block_node_eq] at hr
                exact hblock _ _ r h1 (hnode _ hbody) hr
            · cases hr
        · split at hr
          · split at hr
            · cases hr
            · split at hr
              · rename_i data_entry bytes hbody
                have h1 := del_data_helper_closed _ hT ofs data_entry.node data_entry.offset
                split at hr
                · rename_i hne
                  cases hr
                  exact absurd h0 hne
                · exact hblock _ _ r h1 (hdata _ _ hbody) hr
              · cases hr
          · cases hr
            exact absurd h0 (by show ¬ ((-ENOSYS : Int) = 0); decide)

/-- The counters after a successful replay of `tags`: unless they stay what
they were, `next_block_id` is one more than the block id of a tag and above
all of them, and likewise `next_node_id` for the node ids the blocks carry,
as long as those are below `2 ^ 32 - 1`. -/
theorem load_loop_counters (io : io_t) :
    ∀ (tags : List oncefs_tagged_block_t) (ofs : oncefs_t) (r : Int × oncefs_t),
      load_loop io tags ofs = some r → r.1 = 0 →
      (∀ c ∈ tags, carried_node io c.block < 2 ^ 32 - 1) →
      (r.2.next_block_id = ofs.next_block_id ∨ ∃ c ∈ tags, r.2.next_block_id = c.block + 1) ∧
      ofs.next_block_id ≤ r.2.next_block_id ∧
      (∀ c ∈ tags, c.block < r.2.next_block_id) ∧
      (r.2.next_node_id = ofs.next_node_id ∨
        ∃ c ∈ tags, r.2.next_node_id = carried_node io c.block + 1) ∧
      ofs.next_node_id ≤ r.2.next_node_id ∧
      (∀ c ∈ tags, carried_node io c.block < r.2.next_node_id) := by
  intro tags
  induction tags with
  | nil =>
    intro ofs r hr _ _
    simp [load_loop] at hr
    subst hr
    exact ⟨Or.inl rfl, Nat.le_refl _, fun c hc => absurd hc (List.not_mem_nil _), Or.inl rfl,
      Nat.le_refl _, fun c hc => absurd hc (List.not_mem_nil _)⟩
  | cons c rest ih =>
    intro ofs r hr h0 hnode
    unfold load_loop at hr
    split at hr
    · simp at hr
    · rename_i r1 h1
      split at hr
      · rename_i hne
        simp at hr
        subst hr
        exact absurd h0 hne
      · rename_i hz
        have hz0 : r1.1 = 0 := by
          by_contra hh
          exact hz hh
        obtain ⟨s1, s2⟩ := load_step_counters ofs io c r1 h1 hz0
        obtain ⟨i1, i2, i3, i4, i5, i6⟩ := ih r1.2 r hr h0
          (fun c2 hc2 => hnode c2 (List.mem_cons_of_mem _ hc2))
        have hc := hnode c (List.mem_cons_self _ _)
        have hmod : (carried_node io c.block + 1) % 2 ^ 32 = carried_node io c.block + 1 :=
          Nat.mod_eq_of_lt (by omega)
        rw [hmod] at s2
        refine ⟨?_, ?_, ?_, ?_, ?_, ?_⟩
        · rcases i1 with e | ⟨c2, hc2, e⟩
          · rw [e, s1]
            split
            · exact Or.inr ⟨c, List.mem_cons_self _ _, rfl⟩
            · exact Or.inl rfl
          · exact Or.inr ⟨c2, List.mem_cons_of_mem _ hc2, e⟩
        · rw [s1] at i2
          split at i2 <;> omega
        · intro c2 hc2
          rcases List.mem_cons.mp hc2 with e | e
          · rw [e]
            rw [s1] at i2
            split at i2 <;> omega
          · exact i3 c2 e
        · rcases i4 with e | ⟨c2, hc2, e⟩
          · rw [e, s2]
            split
            · exact Or.inr ⟨c, List.mem_cons_self _ _, rfl⟩
            · exact Or.inl rfl
          · exact Or.inr ⟨c2, List.mem_cons_of_mem _ hc2, e⟩
        · rw [s2] at i5
          split at i5 <;> omega
        · intro c2 hc2
          rcases List.mem_cons.mp hc2 with e | e
          · rw [e]
            rw [s2] at i5
            split at i5 <;> omega
          · exact i6 c2 e

/-- The counters after a successful `_oncefs_load` from the initial state, on
a container with at least one replayed block whose blocks carry node ids
below `2 ^ 32 - 1`: each is one more than the largest value among the
replayed blocks. -/
theorem load_counters (dev : io_t) (r : Int × oncefs_t)
    (h : _oncefs_load (oncefs_init_state (some dev)) dev = some r) (hrc : r.1 = 0)
    (hne : replayed_tags dev ≠ [])
    (hnode : ∀ c ∈ replayed_tags dev, carried_node dev c.block < 2 ^ 32 - 1) :
    (∃ c ∈ replayed_tags dev, r.2.next_seq_id = 1 + c.tag.seq) ∧
    (∀ c ∈ replayed_tags dev, c.tag.seq < r.2.next_seq_id) ∧
    (∃ c ∈ replayed_tags dev, r.2.next_block_id = 1 + c.block) ∧
    (∀ c ∈ replayed_tags dev, c.block < r.2.next_block_id) ∧
    (∃ c ∈ replayed_tags dev, r.2.next_node_id = 1 + carried_node dev c.block) ∧
    (∀ c ∈ replayed_tags dev, carried_node dev c.block < r.2.next_node_id) := by
  have hmem : ∀ c, c ∈ qsort id _cmp_tag_seq (replayed_tags dev) ↔ c ∈ replayed_tags dev :=
    fun c => (qsort_perm id _cmp_tag_seq (replayed_tags dev)).mem_iff
  obtain ⟨c0, hc0⟩ := List.exists_mem_of_ne_nil _ hne
  have hfirst : ∀ c ∈ replayed_tags dev, 1 ≤ c.block := by
    intro c hc
    have := load_scan_blocks dev _ c hc
    rw [List.mem_range'_1] at this
    exact this.1
  unfold _oncefs_load at h
  dsimp only at h
  split at h
  · cases h; rename_i h1; exact absurd hrc h1
  · cases hl : load_loop dev (qsort id _cmp_tag_seq (load_scan dev
        (List.range' (io_block_first dev) (io_block_last dev + 1 - io_block_first dev))).2)
        (oncefs_init_state (some dev)) with
    | none => rw [hl] at h; cases h
    | some r1 =>
      rw [hl] at h
      dsimp only at h
      split at h
      · cases h; rename_i h1; exact absurd hrc h1
      · rename_i hz
        have hz0 : r1.1 = 0 := by
          by_contra hh
          exact hz hh
        obtain ⟨i1, -, i3, i4, -, i6⟩ := load_loop_counters dev _ _ r1 hl hz0
          (fun c hc => hnode c ((hmem c).mp hc))
        have hb0 : (oncefs_init_state (some dev)).next_block_id = 1 := rfl
        have hn0 : (oncefs_init_state (some dev)).next_node_id = 1 := rfl
        rw [hb0] at i1
        rw [hn0] at i4
        cases hg : (qsort id _cmp_tag_seq (load_scan dev
          (List.range' (io_block_first dev) (io_block_last dev + 1 - io_block_first dev))).2).getLast? with
        | none =>
          have hnil : qsort id _cmp_tag_seq (replayed_tags dev) = [] := by
            simpa using hg
          have := (hmem c0).mpr hc0
          rw [hnil] at this
          exact absurd this (List.not_mem_nil _)
        | some last =>
          rw [hg] at h
          cases h
          dsimp only
          have hle := qsort_tags_le_last _ last hg
          have hlast : last ∈ replayed_tags dev :=
            (hmem last).mp (List.mem_of_mem_getLast? hg)
          refine ⟨⟨last, hlast, by omega⟩, ?_, ?_, ?_, ?_, ?_⟩
          · intro c hc
            have := hle c ((hmem c).mpr hc)
            omega
          · rcases i1 with e | ⟨c, hc, e⟩
            · have h1 := i3 c0 ((hmem c0).mpr hc0)
              have h2 := hfirst c0 hc0
              omega
            · exact ⟨c, (hmem c).mp hc, by omega⟩
          · exact fun c hc => i3 c ((hmem c).mpr hc)
          · rcases i4 with e | ⟨c, hc, e⟩
            · have h1 := i6 c0 ((hmem c0).mpr hc0)
              exact ⟨c0, hc0, by omega⟩
            · exact ⟨c, (hmem c).mp hc, by omega⟩
          · exact fun c hc => i6 c ((hmem c).mpr hc)

/-- C26, as stated, fails when a replayed block carries the node id
`2 ^ 32 - 1`: after `set_data(4294967295, "x", 1, 0)` the container holds one
DATA block of that node, and the mount without format returns OK with
`next_node_id = 0`, not `2 ^ 32`. -/
theorem c26_counterexample :
    (engine_after 512 8 c26_wrap).io.map (fun dev => (replayed_tags dev).map
        (fun c => (c.block, c.tag.seq, c.tag.operation, carried_node dev c.block)))
      = some [(1, 1, BLOCK_OPERATION_DATA, 4294967295)] ∧
    (remount (engine_after 512 8 c26_wrap) 6).map
        (fun r => (r.1, r.2.next_node_id, r.2.next_block_id, r.2.next_seq_id))
      = some (0, 0, 2, 2) := by
  refine ⟨?_, ?_⟩ <;> rfl

/-- C26 (amended).  Let `oncefs_init` without format return OK on a
container of fewer than `2 ^ 32 - 1` blocks of which it replays at least
one, where every replayed block carries a node id below `2 ^ 32 - 1` and a
`seq` below `2 ^ 64 - 1`.  Then `next_seq_id` is one more than the `seq` of a
replayed block and above the `seq` of every replayed block, `next_block_id`
is so for the block ids, and `next_node_id` for the node ids the replayed
blocks carry; and no counter has wrapped. -/
theorem c26_counters_after_mount (dev : io_t) (now : Nat) (rnd : List Nat) (ofs : oncefs_t)
    (hinit : oncefs_init (some dev) 0 now rnd = some (0, ofs))
    (hne : replayed_tags dev ≠ [])
    (hnode : ∀ c ∈ replayed_tags dev, carried_node dev c.block < 2 ^ 32 - 1)
    (hseq : ∀ c ∈ replayed_tags dev, c.tag.seq < 2 ^ 64 - 1)
    (hlast : dev.last_valid_block < 2 ^ 32 - 1) :
    (∃ c ∈ replayed_tags dev, ofs.next_seq_id = 1 + c.tag.seq) ∧
    (∀ c ∈ replayed_tags dev, c.tag.seq < ofs.next_seq_id) ∧
    (∃ c ∈ replayed_tags dev, ofs.next_block_id = 1 + c.block) ∧
    (∀ c ∈ replayed_tags dev, c.block < ofs.next_block_id) ∧
    (∃ c ∈ replayed_tags dev, ofs.next_node_id = 1 + carried_node dev c.block) ∧
    (∀ c ∈ replayed_tags dev, carried_node dev c.block < ofs.next_node_id) ∧
    ofs.next_seq_id < 2 ^ 64 ∧ ofs.next_block_id < 2 ^ 32 ∧ ofs.next_node_id < 2 ^ 32 := by
  have hmain : ∀ r : Int × oncefs_t, _oncefs_load (oncefs_init_state (some dev)) dev = some r →
      r.1 = 0 →
      (∃ c ∈ replayed_tags dev, r.2.next_seq_id = 1 + c.tag.seq) ∧
      (∀ c ∈ replayed_tags dev, c.tag.seq < r.2.next_seq_id) ∧
      (∃ c ∈ replayed_tags dev, r.2.next_block_id = 1 + c.block) ∧
      (∀ c ∈ replayed_tags dev, c.block < r.2.next_block_id) ∧
      (∃ c ∈ replayed_tags dev, r.2.next_node_id = 1 + carried_node dev c.block) ∧
      (∀ c ∈ replayed_tags dev, carried_node dev c.block < r.2.next_node_id) ∧
      r.2.next_seq_id < 2 ^ 64 ∧ r.2.next_block_id < 2 ^ 32 ∧ r.2.next_node_id < 2 ^ 32 := by
    intro r hl hrc
    obtain ⟨a1, a2, a3, a4, a5, a6⟩ := load_counters dev r hl hrc hne hnode
    refine ⟨a1, a2, a3, a4, a5, a6, ?_, ?_, ?_⟩
    · obtain ⟨c, hc, e⟩ := a1
      have := hseq c hc
      omega
    · obtain ⟨c, hc, e⟩ := a3
      have := load_scan_blocks dev _ c hc
      rw [List.mem_range'_1] at this
      have h1 : io_block_first dev = 1 := rfl
      have h2 : io_block_last dev = dev.last_valid_block := rfl
      rw [h1, h2] at this
      omega
    · obtain ⟨c, hc, e⟩ := a5
      have := hnode c hc
      omega
  unfold oncefs_init at hinit
  dsimp only at hinit
  split at hinit
  · obtain ⟨h2, -⟩ := Prod.mk.inj (Option.some.inj hinit)
    simp at h2
  · rw [if_neg (by decide)] at hinit
    cases hl : _oncefs_load (oncefs_init_state (some dev)) dev with
    | none => rw [hl] at hinit; cases hinit
    | some r =>
      rw [hl] at hinit
      dsimp only at hinit
      split at hinit
      · rename_i h1
        obtain ⟨h2, -⟩ := Prod.mk.inj (Option.some.inj hinit)
        exact absurd h2 h1
      · rename_i h1
        obtain ⟨-, h2⟩ := Prod.mk.inj (Option.some.inj hinit)
        subst h2
        exact hmain r hl (by simpa using h1)

/-- Witness of C26 (amended): the container of the test
`_test_oncefs_load_state` holds the blocks `1` to `4` with the `seq` values
`1` to `4` and the node ids `1`, `2`, `3`, `3`; after the mount without
format `next_node_id = 4`, `next_block_id = 5` and `next_seq_id = 5`. -/
theorem c26_counters_after_mount_witness :
    (replayed_tags c26_container).map (fun c => (c.block, c.tag.seq,
        carried_node c26_container c.block)) = [(1, 1, 1), (2, 2, 2), (3, 3, 3), (4, 4, 3)] ∧
    ∃ ofs, oncefs_init (some c26_container) 0 6 [] = some (0, ofs) ∧
      ofs.next_node_id = 4 ∧ ofs.next_block_id = 5 ∧ ofs.next_seq_id = 5 ∧
      (∃ c ∈ replayed_tags c26_container, ofs.next_seq_id = 1 + c.tag.seq) ∧
      (∀ c ∈ replayed_tags c26_container, c.tag.seq < ofs.next_seq_id) ∧
      (∃ c ∈ replayed_tags c26_container, ofs.next_block_id = 1 + c.block) ∧
      (∀ c ∈ replayed_tags c26_container, c.block < ofs.next_block_id) ∧
      (∃ c ∈ replayed_tags c26_container,
        ofs.next_node_id = 1 + carried_node c26_container c.block) ∧
      (∀ c ∈ replayed_tags c26_container,
        carried_node c26_container c.block < ofs.next_node_id) ∧
      ofs.next_seq_id < 2 ^ 64 ∧ ofs.next_block_id < 2 ^ 32 ∧ ofs.next_node_id < 2 ^ 32 :=
  ⟨by decide,
    ((oncefs_init (some c26_container) 0 6 []).get (by decide)).2,
    option_pair_eq_some _ (by decide) _ (by decide), by decide, by decide, by decide,
    c26_counters_after_mount c26_container 6 [] _
      (option_pair_eq_some _ (by decide) _ (by decide)) (by decide) (by decide) (by decide)
      (by decide)⟩

/-- A search without filter is the search with the stored comparator. -/
theorem find_index_filter_default {ε β : Type} [Inhabited ε] (deref : ε → β)
    (array : array_t ε β) (filter : Option (β → β → Int)) (key : β) (reverse : Bool) :
    _array_sorted_find_index deref array filter key reverse
      = _array_sorted_find_index deref array (some (filter.getD array.comparator)) key
          reverse := by
  cases filter <;> rfl

/-- On an array along which the filter is monotone, the forward search ends
on the first position where the filter is `0` and the reverse search on the
last one; both fail exactly when there is none. -/
theorem find_index_monotone {ε β : Type} [Inhabited ε] (deref : ε → β) (array : array_t ε β)
    (f : β → β → Int) (key : β)
    (hmono : ∀ i j (hi : i < array.entries.length) (hj : j < array.entries.length), i ≤ j →
      (f key (deref (array.entries.get ⟨i, hi⟩)) ≤ 0 →
        f key (deref (array.entries.get ⟨j, hj⟩)) ≤ 0) ∧
      (f key (deref (array.entries.get ⟨i, hi⟩)) < 0 →
        f key (deref (array.entries.get ⟨j, hj⟩)) < 0)) :
    (∀ reverse, ((_array_sorted_find_index deref array (some f) key reverse).1 = 0 ↔
        ∃ e ∈ array.entries, f key (deref e) = 0) ∧
      ((_array_sorted_find_index deref array (some f) key reverse).1 = 0 ∨
        (_array_sorted_find_index deref array (some f) key reverse).1 = -ENOENT)) ∧
    (∀ a (ha : a < array.entries.length),
      f key (deref (array.entries.get ⟨a, ha⟩)) = 0 →
      (∀ i (hi : i < array.entries.length), i < a →
        f key (deref (array.entries.get ⟨i, hi⟩)) ≠ 0) →
      _array_sorted_find_index deref array (some f) key false = (0, a)) ∧
    (∀ b (hb : b < array.entries.length),
      f key (deref (array.entries.get ⟨b, hb⟩)) = 0 →
      (∀ i (hi : i < array.entries.length), b < i →
        f key (deref (array.entries.get ⟨i, hi⟩)) ≠ 0) →
      _array_sorted_find_index deref array (some f) key true = (0, b)) := by
  have hs : (array.entries.map deref).Pairwise (fun a b =>
      (if (f key a ≤ 0 → f key b ≤ 0) ∧ (f key a < 0 → f key b < 0) then (0 : Int) else 1)
        ≤ 0) := by
    rw [List.pairwise_map, List.pairwise_iff_get]
    intro i j hij
    rw [if_pos (hmono i.1 j.1 i.2 j.2 (Nat.le_of_lt hij))]
  have hf : filter_mono (fun a b =>
      if (f key a ≤ 0 → f key b ≤ 0) ∧ (f key a < 0 → f key b < 0) then (0 : Int) else 1)
      (f key) := by
    intro a b hab
    by_contra hcon
    dsimp only at hab
    rw [if_neg hcon] at hab
    exact absurd hab (by decide)
  have h1 := find_index_first deref array _ f key hs hf
  have h2 := find_index_last deref array _ f key hs hf
  refine ⟨?_, ?_, ?_⟩
  · intro reverse
    cases reverse
    · exact ⟨h1.1, find_index_rc deref array (some f) key false⟩
    · exact ⟨h2.1, find_index_rc deref array (some f) key true⟩
  · intro a ha h0 hbefore
    have hrc : (_array_sorted_find_index deref array (some f) key false).1 = 0 :=
      h1.1.mpr ⟨_, List.get_mem _ _ _, h0⟩
    obtain ⟨hlt, hz⟩ := (find_index_sound deref array f key false).2 hrc
    obtain ⟨hpos, -⟩ := h1.2 hrc
    have hidx : (_array_sorted_find_index deref array (some f) key false).2 = a := by
      rcases Nat.lt_trichotomy (_array_sorted_find_index deref array (some f) key false).2 a
        with h | h | h
      · exact absurd hz (hbefore _ hlt h)
      · exact h
      · have := hpos a ha h
        omega
    exact Prod.ext hrc hidx
  · intro b hb h0 hafter
    have hrc : (_array_sorted_find_index deref array (some f) key true).1 = 0 :=
      h2.1.mpr ⟨_, List.get_mem _ _ _, h0⟩
    obtain ⟨hlt, hz⟩ := (find_index_sound deref array f key true).2 hrc
    obtain ⟨-, hneg, -⟩ := h2.2 hrc
    have hidx : (_array_sorted_find_index deref array (some f) key true).2 = b := by
      rcases Nat.lt_trichotomy (_array_sorted_find_index deref array (some f) key true).2 b
        with h | h | h
      · have := hneg b hb h
        omega
      · exact h
      · exact absurd hz (hafter _ hlt h)
    exact Prod.ext hrc hidx

/-- The entry at a position of a list, read with a default. -/
theorem getD_eq_get {α : Type} (l : List α) (d : α) (i : Nat) (hi : i < l.length) :
    l.getD i d = l.get ⟨i, hi⟩ := by
  rw [List.getD_eq_getElem _ _ hi, List.get_eq_getElem]

/-- C35 (sorted search).  Let the filter of a search (the stored comparator
when the search is given none) be monotone along the array: its sign does
not increase from an entry to an entry behind it, so the entries on which it
is positive come first, then those on which it is `0`, then those on which
it is negative.  Then `array_sorted_first` and `array_sorted_last` return
NOT_FOUND exactly when the filter is `0` on no entry, and then
`array_sorted_each` returns NOT_FOUND without invoking the callback;
`array_sorted_first` returns the entry at the smallest index `a` on which the
filter is `0`, `array_sorted_last` the entry at the largest such index `b`,
and `array_sorted_each` invokes the callback on the entries at `a`, `a + 1`,
..., `b`, once each and in this order. -/
theorem c35_sorted_search {ε β : Type} [Inhabited ε] (deref : ε → β) (array : array_t ε β)
    (filter : Option (β → β → Int)) (key : β)
    (hmono : ∀ i j, i ≤ j → j < array.entries.length →
      ((filter.getD array.comparator) key (deref (array.entries.getD i default)) ≤ 0 →
        (filter.getD array.comparator) key (deref (array.entries.getD j default)) ≤ 0) ∧
      ((filter.getD array.comparator) key (deref (array.entries.getD i default)) < 0 →
        (filter.getD array.comparator) key (deref (array.entries.getD j default)) < 0)) :
    ((array_sorted_first deref array filter key).1 = -ENOENT ↔
      ∀ e ∈ array.entries, (filter.getD array.comparator) key (deref e) ≠ 0) ∧
    ((array_sorted_last deref array filter key).1 = -ENOENT ↔
      ∀ e ∈ array.entries, (filter.getD array.comparator) key (deref e) ≠ 0) ∧
    ((∀ e ∈ array.entries, (filter.getD array.comparator) key (deref e) ≠ 0) →
      array_sorted_each deref array filter key = (-ENOENT, [])) ∧
    (∀ a b, a < array.entries.length → b < array.entries.length →
      (filter.getD array.comparator) key (deref (array.entries.getD a default)) = 0 →
      (∀ i, i < a →
        (filter.getD array.comparator) key (deref (array.entries.getD i default)) ≠ 0) →
      (filter.getD array.comparator) key (deref (array.entries.getD b default)) = 0 →
      (∀ i, b < i → i < array.entries.length →
        (filter.getD array.comparator) key (deref (array.entries.getD i default)) ≠ 0) →
      a ≤ b ∧
      array_sorted_first deref array filter key = (0, array.entries.getD a default) ∧
      array_sorted_last deref array filter key = (0, array.entries.getD b default) ∧
      array_sorted_each deref array filter key
        = (0, (List.range (b + 1 - a)).map (fun i => array.entries.getD (a + i) default))) := by
  have hmono1 : ∀ i j (hi : i < array.entries.length) (hj : j < array.entries.length), i ≤ j →
      ((filter.getD array.comparator) key (deref (array.entries.get ⟨i, hi⟩)) ≤ 0 →
        (filter.getD array.comparator) key (deref (array.entries.get ⟨j, hj⟩)) ≤ 0) ∧
      ((filter.getD array.comparator) key (deref (array.entries.get ⟨i, hi⟩)) < 0 →
        (filter.getD array.comparator) key (deref (array.entries.get ⟨j, hj⟩)) < 0) := by
    intro i j hi hj hij
    have := hmono i j hij hj
    rw [getD_eq_get _ _ i hi, getD_eq_get _ _ j hj] at this
    exact this
  obtain ⟨hrc, hfirst, hlast⟩ :=
    find_index_monotone deref array (filter.getD array.comparator) key hmono1
  have hnone : (∀ e ∈ array.entries, (filter.getD array.comparator) key (deref e) ≠ 0) ↔
      ¬ ∃ e ∈ array.entries, (filter.getD array.comparator) key (deref e) = 0 := by
    constructor
    · rintro h ⟨e, he, h0⟩
      exact h e he h0
    · intro h e he h0
      exact h ⟨e, he, h0⟩
  have hfail : ∀ reverse,
      ((_array_sorted_find_index deref array filter key reverse).1 = -ENOENT ↔
        ∀ e ∈ array.entries, (filter.getD array.comparator) key (deref e) ≠ 0) := by
    intro reverse
    rw [find_index_filter_default, hnone, ← (hrc reverse).1]
    rcases (hrc reverse).2 with h | h
    · rw [h]
      exact ⟨fun hh => absurd hh (by decide), fun hh => absurd rfl hh⟩
    · rw [h]
      exact ⟨fun _ => by decide, fun _ => rfl⟩
  have hval : ∀ reverse,
      ((_array_sorted_find_value deref array filter key reverse).1 = -ENOENT ↔
        (_array_sorted_find_index deref array filter key reverse).1 = -ENOENT) := by
    intro reverse
    unfold _array_sorted_find_value
    dsimp only
    split
    · exact Iff.rfl
    · rename_i h
      have h0 : (_array_sorted_find_index deref array filter key reverse).1 = 0 := by
        by_contra hh
        exact h hh
      rw [h0]
  refine ⟨(hval false).trans (hfail false), (hval true).trans (hfail true), ?_, ?_⟩
  · intro h
    unfold array_sorted_each
    dsimp only
    rw [(hfail false).mpr h]
    rfl
  · intro a b ha hb h0a hbefore h0b hafter
    rw [getD_eq_get _ _ a ha] at h0a
    rw [getD_eq_get _ _ b hb] at h0b
    have e1 := hfirst a ha h0a (fun i hi hia => by
      have := hbefore i hia
      rw [getD_eq_get _ _ i hi] at this
      exact this)
    have e2 := hlast b hb h0b (fun i hi hib => by
      have := hafter i hib hi
      rw [getD_eq_get _ _ i hi] at this
      exact this)
    rw [← find_index_filter_default] at e1 e2
    have hab : a ≤ b := by
      by_contra hcon
      have := hbefore b (by omega)
      rw [getD_eq_get _ _ b hb] at this
      exact this h0b
    refine ⟨hab, ?_, ?_, ?_⟩
    · unfold array_sorted_first _array_sorted_find_value
      dsimp only
      rw [e1]
      rfl
    · unfold array_sorted_last _array_sorted_find_value
      dsimp only
      rw [e2]
      rfl
    · unfold array_sorted_each
      dsimp only
      rw [e1, e2]
      rfl

/-- Witness of C35: in the array `(1, 0), (2, 1), (2, 2), (3, 3)` ordered by
the first component, the search for the first component `2` finds `(2, 1)`
first and `(2, 2)` last and visits these two, and the search for `5` finds
nothing. -/
theorem c35_sorted_search_witness :
    (1 ≤ 2 ∧
      array_sorted_first id c35_array none (2, 9) = (0, (2, 1)) ∧
      array_sorted_last id c35_array none (2, 9) = (0, (2, 2)) ∧
      array_sorted_each id c35_array none (2, 9) = (0, [(2, 1), (2, 2)])) ∧
    array_sorted_each id c35_array none (5, 9) = (-ENOENT, []) :=
  ⟨(c35_sorted_search id c35_array none (2, 9)
      (fun i j hij hj =>
        (by decide : ∀ j, j < 4 → ∀ i, i ≤ j →
          (c35_array.comparator (2, 9) (c35_array.entries.getD i default) ≤ 0 →
            c35_array.comparator (2, 9) (c35_array.entries.getD j default) ≤ 0) ∧
          (c35_array.comparator (2, 9) (c35_array.entries.getD i default) < 0 →
            c35_array.comparator (2, 9) (c35_array.entries.getD j default) < 0))
          j hj i hij)).2.2.2 1 2 (by decide) (by decide) (by decide) (by decide) (by decide)
      (fun i hbi hi =>
        (by decide : ∀ i, i < 4 → 2 < i →
          c35_array.comparator (2, 9) (c35_array.entries.getD i default) ≠ 0) i hi hbi),
    (c35_sorted_search id c35_array none (5, 9)
      (fun i j hij hj =>
        (by decide : ∀ j, j < 4 → ∀ i, i ≤ j →
          (c35_array.comparator (5, 9) (c35_array.entries.getD i default) ≤ 0 →
            c35_array.comparator (5, 9) (c35_array.entries.getD j default) ≤ 0) ∧
          (c35_array.comparator (5, 9) (c35_array.entries.getD i default) < 0 →
            c35_array.comparator (5, 9) (c35_array.entries.getD j default) < 0))
          j hj i hij)).2.2.1 (by decide)⟩

/-- C36, as stated, fails when the array holds entries equal to the new one:
the binary search of `array_sorted_insert` stops at the first probe that
compares equal.  No entry of `(1, 10), (1, 11), (1, 12)` compares less than
`(1, 13)` under the first component, so the lower bound is index `0`, but the
entry is placed at index `1`. -/
theorem c36_counterexample :
    c36_array.comparator (1, 13) (c36_array.entries.getD 0 default) = 0 ∧
    (array_sorted_insert id c36_array (1, 13)).entries
      = [(1, 10), (1, 13), (1, 11), (1, 12)] := by
  decide

/-- C36 (amended).  For an array sorted under its stored comparator, an
order, `array_sorted_insert` places the entry at a position `dest` and
shifts the tail by one, where no entry before `dest` compares greater than
the new one and no entry from `dest` on compares less; when no entry of the
array compares equal to the new one, `dest` is the lower-bound position
(every entry before it compares less, every entry from it on greater).  The
result is sorted and has length one greater. -/
theorem c36_sorted_insert {ε β : Type} [Inhabited ε] (deref : ε → β)
    (array : array_t ε β) (entry : ε) (h : cmp_order array.comparator)
    (hs : (array.entries.map deref).Pairwise (fun a b => array.comparator a b ≤ 0)) :
    ∃ dest, dest ≤ array.entries.length ∧
      (array_sorted_insert deref array entry).entries
        = array.entries.take dest ++ entry :: array.entries.drop dest ∧
      (∀ i, i < dest →
        0 ≤ array.comparator (deref entry) (deref (array.entries.getD i default))) ∧
      (∀ i, dest ≤ i → i < array.entries.length →
        array.comparator (deref entry) (deref (array.entries.getD i default)) ≤ 0) ∧
      ((∀ e ∈ array.entries, array.comparator (deref entry) (deref e) ≠ 0) →
        (∀ i, i < dest →
          0 < array.comparator (deref entry) (deref (array.entries.getD i default))) ∧
        (∀ i, dest ≤ i → i < array.entries.length →
          array.comparator (deref entry) (deref (array.entries.getD i default)) < 0)) ∧
      ((array_sorted_insert deref array entry).entries.map deref).Pairwise
        (fun a b => array.comparator a b ≤ 0) ∧
      (array_sorted_insert deref array entry).entries.length = array.entries.length + 1 := by
  have hmono := probe_mono_forward deref array array.comparator array.comparator (deref entry)
    hs (filter_mono_self _ h _)
  obtain ⟨h1, h2, h3⟩ := sorted_insert_loop_spec
    (find_index_probe deref array (some array.comparator) (deref entry) false)
    array.entries.length hmono array.entries.length 0 array.entries.length (by omega)
    (by omega) (by omega) (by intro i hi; omega) (by intro i h1 h2; omega)
  refine ⟨sorted_insert_loop
      (find_index_probe deref array (some array.comparator) (deref entry) false)
      array.entries.length 0 array.entries.length, h1, rfl, h2, h3, ?_,
    array_sorted_insert_sorted deref array entry h hs, ?_⟩
  · intro hne
    have hnz : ∀ i, i < array.entries.length →
        array.comparator (deref entry) (deref (array.entries.getD i default)) ≠ 0 := by
      intro i hi
      rw [List.getD_eq_getElem _ _ hi]
      exact hne _ (List.getElem_mem _)
    constructor
    · intro i hi
      have a1 := h2 i hi
      have a2 := hnz i (by omega)
      exact lt_of_le_of_ne a1 (Ne.symm a2)
    · intro i hi hlen
      have a1 := h3 i hi hlen
      have a2 := hnz i hlen
      exact lt_of_le_of_ne a1 a2
  · have := (array_sorted_insert_perm deref array entry).length_eq
    rw [this, List.length_cons]

/-- Witness of C36 (amended): `2` is placed between `1` and `3`, at the
lower-bound position `1`. -/
theorem c36_sorted_insert_witness :
    ∃ dest, dest ≤ 2 ∧
      (array_sorted_insert id ({ entries := [1, 3], comparator := _cmp_size } : array_t Nat Nat)
          2).entries
        = ([1, 3] : List Nat).take dest ++ 2 :: ([1, 3] : List Nat).drop dest ∧
      (∀ i, i < dest → 0 ≤ _cmp_size 2 (([1, 3] : List Nat).getD i default)) ∧
      (∀ i, dest ≤ i → i < 2 → _cmp_size 2 (([1, 3] : List Nat).getD i default) ≤ 0) ∧
      ((∀ e ∈ ([1, 3] : List Nat), _cmp_size 2 e ≠ 0) →
        (∀ i, i < dest → 0 < _cmp_size 2 (([1, 3] : List Nat).getD i default)) ∧
        (∀ i, dest ≤ i → i < 2 → _cmp_size 2 (([1, 3] : List Nat).getD i default) < 0)) ∧
      ((array_sorted_insert id ({ entries := [1, 3], comparator := _cmp_size } : array_t Nat Nat)
          2).entries.map id).Pairwise (fun a b => _cmp_size a b ≤ 0) ∧
      (array_sorted_insert id ({ entries := [1, 3], comparator := _cmp_size } : array_t Nat Nat)
          2).entries.length = 2 + 1 :=
  c36_sorted_insert id ({ entries := [1, 3], comparator := _cmp_size } : array_t Nat Nat) 2
    cmp_size_order (by decide)

/-- The comparators of a table whose list of comparators is that of a table
with orders are orders. -/
theorem cmp_order_of_comparators {ρ : Type} (t t1 : table_t ρ)
    (h : t1.indexes.map (fun ix => ix.comparator) = t.indexes.map (fun ix => ix.comparator))
    (hcmp : ∀ ix ∈ t.indexes, cmp_order ix.comparator) :
    (∀ ix ∈ t1.indexes, cmp_order ix.comparator) ∧ t1.indexes.length = t.indexes.length := by
  constructor
  · intro ix hix
    have : ix.comparator ∈ t1.indexes.map (fun ix => ix.comparator) :=
      List.mem_map_of_mem _ hix
    rw [h, List.mem_map] at this
    obtain ⟨jx, hjx, e⟩ := this
    rw [← e]
    exact hcmp jx hjx
  · have := congrArg List.length h
    rw [List.length_map, List.length_map] at this
    exact this

/-- The index invariant holds after every index is sorted again over a row
store of the same length. -/
theorem table_index_inv_resort {ρ : Type} [Inhabited ρ] (table : table_t ρ) (rows1 : List ρ)
    (hinv : table_index_inv table) (hcmp : ∀ ix ∈ table.indexes, cmp_order ix.comparator)
    (hpos : 0 < table.indexes.length) (hlen : rows1.length = table.rows.length) :
    table_index_inv (table_t.mk rows1
      (table.indexes.map (fun ix => array_sort (array_dereference rows1) ix))) := by
  obtain ⟨hw1, hw2⟩ := hinv
  have h0 : table_index (table_t.mk rows1
      (table.indexes.map (fun ix => array_sort (array_dereference rows1) ix))) 0
      = array_sort (array_dereference rows1) (table_index table 0) :=
    table_index_map table.rows rows1 table.indexes _ 0 hpos
  refine ⟨?_, ?_⟩
  · intro ix1 hix1
    rw [List.mem_map] at hix1
    obtain ⟨ix, hix, rfl⟩ := hix1
    obtain ⟨ha, hb, _⟩ := hw1 ix hix
    have hp := qsort_perm (array_dereference rows1) ix.comparator ix.entries
    refine ⟨?_, ?_, ?_⟩
    · intro i hi
      have := ha i (hp.mem_iff.mp hi)
      change i < rows1.length
      omega
    · exact hp.nodup_iff.mpr hb
    · exact qsort_sorted (array_dereference rows1) ix.comparator (hcmp ix hix) ix.entries
  · intro ix1 hix1 i
    rw [List.mem_map] at hix1
    obtain ⟨ix, hix, rfl⟩ := hix1
    rw [h0]
    have hp := qsort_perm (array_dereference rows1) ix.comparator ix.entries
    have hp0 := qsort_perm (array_dereference rows1) (table_index table 0).comparator
      (table_index table 0).entries
    exact (hp.mem_iff).trans ((hw2 ix hix i).trans hp0.mem_iff.symm)

/-- The index invariant holds after a row is appended and its position
inserted into every index. -/
theorem table_index_inv_append {ρ : Type} [Inhabited ρ] (table : table_t ρ) (row : ρ)
    (hinv : table_index_inv table) (hcmp : ∀ ix ∈ table.indexes, cmp_order ix.comparator)
    (hpos : 0 < table.indexes.length) :
    table_index_inv (table_t.mk (table.rows ++ [row])
      (table.indexes.map (fun ix =>
        array_sorted_insert (array_dereference (table.rows ++ [row])) ix table.rows.length))) := by
  obtain ⟨hw1, hw2⟩ := hinv
  have h0 : table_index (table_t.mk (table.rows ++ [row])
      (table.indexes.map (fun ix =>
        array_sorted_insert (array_dereference (table.rows ++ [row])) ix table.rows.length))) 0
      = array_sorted_insert (array_dereference (table.rows ++ [row])) (table_index table 0)
          table.rows.length :=
    table_index_map table.rows _ table.indexes _ 0 hpos
  have hmapeq : ∀ ix ∈ table.indexes,
      ix.entries.map (array_dereference (table.rows ++ [row]))
        = ix.entries.map (array_dereference table.rows) := by
    intro ix hix
    apply List.map_congr_left
    intro i hi
    exact array_dereference_append_left _ _ _ ((hw1 ix hix).1 i hi)
  refine ⟨?_, ?_⟩
  · intro ix1 hix1
    rw [List.mem_map] at hix1
    obtain ⟨ix, hix, rfl⟩ := hix1
    obtain ⟨ha, hb, hc⟩ := hw1 ix hix
    have hp := array_sorted_insert_perm (array_dereference (table.rows ++ [row])) ix
      table.rows.length
    refine ⟨?_, ?_, ?_⟩
    · intro i hi
      have := hp.mem_iff.mp hi
      rw [List.mem_cons] at this
      change i < (table.rows ++ [row]).length
      rw [List.length_append]
      rcases this with h | h
      · subst h; simp
      · have := ha i h; simp; omega
    · refine hp.nodup_iff.mpr (List.nodup_cons.mpr ⟨?_, hb⟩)
      intro hmem
      have := ha _ hmem
      omega
    · refine array_sorted_insert_sorted (array_dereference (table.rows ++ [row])) ix
        table.rows.length (hcmp ix hix) ?_
      rw [hmapeq ix hix]
      exact hc
  · intro ix1 hix1 i
    rw [List.mem_map] at hix1
    obtain ⟨ix, hix, rfl⟩ := hix1
    rw [h0]
    have hp := array_sorted_insert_perm (array_dereference (table.rows ++ [row])) ix
      table.rows.length
    have hp0 := array_sorted_insert_perm (array_dereference (table.rows ++ [row]))
      (table_index table 0) table.rows.length
    rw [hp.mem_iff, hp0.mem_iff, List.mem_cons, List.mem_cons, hw2 ix hix i]

/-- The index invariant holds after the same positions are compacted out of
every index. -/
theorem table_index_inv_filter {ρ : Type} [Inhabited ρ] (table : table_t ρ) (p : Nat → Bool)
    (hinv : table_index_inv table) :
    table_index_inv (table_t.mk table.rows
      (table.indexes.map (fun ix => array_t.mk (ix.entries.filter p) ix.comparator))) := by
  obtain ⟨hw1, hw2⟩ := hinv
  have h0 : table_index (table_t.mk table.rows
      (table.indexes.map (fun ix => array_t.mk (ix.entries.filter p) ix.comparator))) 0
      = array_t.mk ((table_index table 0).entries.filter p) (table_index table 0).comparator := by
    by_cases hpos : 0 < table.indexes.length
    · exact table_index_map table.rows _ table.indexes _ 0 hpos
    · have hnil : table.indexes = [] := by
        cases hl : table.indexes with
        | nil => rfl
        | cons a l => rw [hl] at hpos; simp at hpos
      unfold table_index
      rw [hnil]
      rfl
  refine ⟨?_, ?_⟩
  · intro ix1 hix1
    rw [List.mem_map] at hix1
    obtain ⟨ix, hix, rfl⟩ := hix1
    obtain ⟨ha, hb, hc⟩ := hw1 ix hix
    refine ⟨?_, ?_, ?_⟩
    · intro i hi
      exact ha i (List.mem_filter.mp hi).1
    · exact hb.filter _
    · exact hc.sublist ((List.filter_sublist _).map _)
  · intro ix1 hix1 i
    rw [List.mem_map] at hix1
    obtain ⟨ix, hix, rfl⟩ := hix1
    rw [h0]
    simp only [List.mem_filter]
    rw [hw2 ix hix i]

/-- Overwriting rows in place keeps the length of the row store. -/
theorem fold_set_length {ρ : Type} (g : List ρ → Nat → ρ) :
    ∀ (ids : List Nat) (rows : List ρ),
      (ids.foldl (fun rows row_id => rows.set row_id (g rows row_id)) rows).length
        = rows.length := by
  intro ids
  induction ids with
  | nil => intro rows; rfl
  | cons p rest ih =>
    intro rows
    rw [List.foldl_cons, ih, List.length_set]

/-- `_table_insert` keeps the index invariant. -/
theorem table_insert_index_inv {ρ : Type} [Inhabited ρ] (table : table_t ρ) (row : ρ)
    (replace : Bool) (hinv : table_index_inv table)
    (hcmp : ∀ ix ∈ table.indexes, cmp_order ix.comparator) (hpos : 0 < table.indexes.length) :
    table_index_inv (_table_insert table row replace).2 := by
  unfold _table_insert
  dsimp only
  split
  · exact table_index_inv_append table row hinv hcmp hpos
  · split
    · exact hinv
    · split
      · exact hinv
      · exact table_index_inv_resort table _ hinv hcmp hpos (List.length_set _ _ _)

/-- `table_query_update` keeps the index invariant, whatever the filter and
the mutator are. -/
theorem table_query_update_index_inv {ρ : Type} [Inhabited ρ] (table : table_t ρ) (key : ρ)
    (k : Nat) (f : Option (ρ → ρ → Int)) (m : ρ → ρ) (hinv : table_index_inv table)
    (hcmp : ∀ ix ∈ table.indexes, cmp_order ix.comparator) (hpos : 0 < table.indexes.length) :
    table_index_inv (table_query_update table key k f m).2 := by
  unfold table_query_update
  dsimp only
  split
  · exact hinv
  · exact table_index_inv_resort table _ hinv hcmp hpos
      (fold_set_length (fun rows row_id => m (array_dereference rows row_id)) _ _)

/-- `table_query_delete` keeps the index invariant, whatever the filter
is. -/
theorem table_query_delete_index_inv {ρ : Type} [Inhabited ρ] (table : table_t ρ) (key : ρ)
    (k : Nat) (f : Option (ρ → ρ → Int)) (hinv : table_index_inv table) :
    table_index_inv (table_query_delete table key k f).2 := by
  unfold table_query_delete
  dsimp only
  split
  · exact hinv
  · exact table_index_inv_filter table _ hinv

/-- The table `table_init` sets up satisfies the index invariant. -/
theorem table_init_index_inv {ρ : Type} [Inhabited ρ] (comparator : ρ → ρ → Int) :
    table_index_inv (table_init comparator) := by
  refine ⟨?_, ?_⟩
  · intro ix hix
    rw [table_init, List.mem_singleton] at hix
    subst hix
    exact ⟨fun i hi => absurd hi (List.not_mem_nil _), List.nodup_nil, List.Pairwise.nil⟩
  · intro ix hix i
    rw [table_init, List.mem_singleton] at hix
    subst hix
    exact Iff.rfl

/-- `table_add_index` keeps the index invariant. -/
theorem table_add_index_index_inv {ρ : Type} [Inhabited ρ] (table : table_t ρ)
    (comparator : ρ → ρ → Int) (hinv : table_index_inv table)
    (hpos : 0 < table.indexes.length) :
    table_index_inv (table_add_index table comparator).2 := by
  unfold table_add_index
  split
  · exact hinv
  · rename_i hrows
    have hnil : table.rows = [] := by
      cases hl : table.rows with
      | nil => rfl
      | cons a l => rw [hl] at hrows; simp at hrows
    obtain ⟨hw1, hw2⟩ := hinv
    have hm0 := table_index_mem table 0 hpos
    have hempty : ∀ ix ∈ table.indexes, ix.entries = [] := by
      intro ix hix
      cases he : ix.entries with
      | nil => rfl
      | cons a l =>
        have := (hw1 ix hix).1 a (by rw [he]; exact List.mem_cons_self _ _)
        rw [hnil] at this
        exact absurd this (Nat.not_lt_zero _)
    have h0 : table_index { table with indexes := table.indexes ++
          [{ entries := [], comparator := comparator }] } 0 = table_index table 0 := by
      unfold table_index
      rw [List.getD_eq_getElem _ _ (by rw [List.length_append]; omega),
        List.getD_eq_getElem _ _ hpos, List.getElem_append_left]
    refine ⟨?_, ?_⟩
    · intro ix hix
      rcases List.mem_append.mp hix with h | h
      · exact hw1 ix h
      · rw [List.mem_singleton] at h
        subst h
        exact ⟨fun i hi => absurd hi (List.not_mem_nil _), List.nodup_nil, List.Pairwise.nil⟩
    · intro ix hix i
      rw [h0]
      rcases List.mem_append.mp hix with h | h
      · exact hw2 ix h i
      · rw [List.mem_singleton] at h
        subst h
        rw [hempty _ hm0]

/-- Every reachable table satisfies the index invariant, has the primary
index, and has orders as comparators. -/
theorem table_reachable_inv {ρ : Type} [Inhabited ρ] (table : table_t ρ)
    (h : table_reachable table) :
    table_index_inv table ∧ (∀ ix ∈ table.indexes, cmp_order ix.comparator) ∧
    0 < table.indexes.length := by
  induction h with
  | init comparator hc =>
    refine ⟨table_init_index_inv comparator, ?_, by simp [table_init]⟩
    intro ix hix
    rw [table_init, List.mem_singleton] at hix
    subst hix
    exact hc
  | add_index table comparator _ hc ih =>
    obtain ⟨i1, i2, i3⟩ := ih
    refine ⟨table_add_index_index_inv table comparator i1 i3, ?_, ?_⟩
    · unfold table_add_index
      split
      · exact i2
      · intro ix hix
        rcases List.mem_append.mp hix with h | h
        · exact i2 ix h
        · rw [List.mem_singleton] at h
          subst h
          exact hc
    · unfold table_add_index
      split
      · exact i3
      · show 0 < (table.indexes ++ [_]).length
        rw [List.length_append]
        omega
  | insert table row _ ih =>
    obtain ⟨i1, i2, i3⟩ := ih
    obtain ⟨c1, c2⟩ := cmp_order_of_comparators table _ (table_insert_comparators table row false)
      i2
    exact ⟨table_insert_index_inv table row false i1 i2 i3, c1, c2.symm ▸ i3⟩
  | insert_or_replace table row _ ih =>
    obtain ⟨i1, i2, i3⟩ := ih
    obtain ⟨c1, c2⟩ := cmp_order_of_comparators table _ (table_insert_comparators table row true)
      i2
    exact ⟨table_insert_index_inv table row true i1 i2 i3, c1, c2.symm ▸ i3⟩
  | query_update table key k f m _ ih =>
    obtain ⟨i1, i2, i3⟩ := ih
    obtain ⟨c1, c2⟩ := cmp_order_of_comparators table _
      (table_query_update_comparators table key k f m) i2
    exact ⟨table_query_update_index_inv table key k f m i1 i2 i3, c1, by rw [c2]; exact i3⟩
  | query_delete table key k f _ ih =>
    obtain ⟨i1, i2, i3⟩ := ih
    obtain ⟨c1, c2⟩ := cmp_order_of_comparators table _
      (table_query_delete_comparators table key k f) i2
    exact ⟨table_query_delete_index_inv table key k f i1, c1, by rw [c2]; exact i3⟩

/-- C40 (table index invariant).  In every table reachable from `table_init`
and `table_add_index`, with comparators that are orders, by any sequence of
`insert`, `insert_or_replace`, `query_update` and `query_delete` (any rows,
keys, index ids, filters and mutators, failing calls included), every index
holds positions below the number of rows, holds no position twice, is sorted
under its own comparator applied to the rows the positions refer to, and
holds the same positions as every other index. -/
theorem c40_table_index_invariant {ρ : Type} [Inhabited ρ] (table : table_t ρ)
    (h : table_reachable table) :
    ∀ ix ∈ table.indexes,
      (∀ i ∈ ix.entries, i < table.rows.length) ∧ ix.entries.Nodup ∧
      (index_rows table.rows ix).Pairwise (fun a b => ix.comparator a b ≤ 0) ∧
      ∀ jx ∈ table.indexes, ∀ i, i ∈ ix.entries ↔ i ∈ jx.entries := by
  obtain ⟨⟨h1, h2⟩, -, -⟩ := table_reachable_inv table h
  intro ix hix
  refine ⟨(h1 ix hix).1, (h1 ix hix).2.1, (h1 ix hix).2.2, ?_⟩
  intro jx hjx i
  exact (h2 ix hix i).trans (h2 jx hjx i).symm

/-- The table of the scenario of C40 is reachable. -/
theorem c40_table_reachable : table_reachable c40_table :=
  table_reachable.query_delete _ _ _ _
    (table_reachable.query_update _ _ _ _ _
      (table_reachable.insert_or_replace _ _
        (table_reachable.insert _ _
          (table_reachable.insert _ _
            (table_reachable.insert _ _
              (table_reachable.add_index _ _
                (table_reachable.init _ (cmp_order_key (fun a : Nat × Nat => a.1)))
                (cmp_order_key (fun a : Nat × Nat => a.2))))))))

/-- Witness of C40: after the calls of the scenario the row store holds
`(11, 10)`, `(12, 35)`, `(13, 30)`, the primary index the positions `0, 1`
and the second index the positions `0, 1` (ordered by the second
component). -/
theorem c40_table_index_invariant_witness :
    c40_table.rows = [(11, 10), (12, 35), (13, 30)] ∧
    c40_table.indexes.map (fun ix => ix.entries) = [[0, 1], [0, 1]] ∧
    ∀ ix ∈ c40_table.indexes,
      (∀ i ∈ ix.entries, i < c40_table.rows.length) ∧ ix.entries.Nodup ∧
      (index_rows c40_table.rows ix).Pairwise (fun a b => ix.comparator a b ≤ 0) ∧
      ∀ jx ∈ c40_table.indexes, ∀ i, i ∈ ix.entries ↔ i ∈ jx.entries :=
  ⟨by decide, by decide, c40_table_index_invariant c40_table c40_table_reachable⟩

/-- Among rows that are pairwise distinct under an order, the rows equal to
`row` under the order are `row` alone, when `row` is one of them. -/
theorem filter_key_singleton {ρ : Type} (cmp : ρ → ρ → Int) (h : cmp_order cmp) (row : ρ) :
    ∀ l : List ρ, l.Pairwise (fun a b => cmp a b ≠ 0) → row ∈ l →
      l.filter (fun b => decide (cmp row b = 0)) = [row] := by
  intro l
  induction l with
  | nil => intro _ hm; exact absurd hm (List.not_mem_nil _)
  | cons x xs ih =>
    intro hp hm
    rw [List.pairwise_cons] at hp
    by_cases hx : cmp row x = 0
    · have hrest : xs.filter (fun b => decide (cmp row b = 0)) = [] := by
        rw [List.filter_eq_nil_iff]
        intro y hy
        have := hp.1 y hy
        simp only [decide_eq_true_eq]
        intro hy0
        exact this (h.eq_zero_trans _ _ _ (h.symm0 _ _ hx) hy0)
      have hxr : x = row := by
        rcases List.mem_cons.mp hm with e | e
        · exact e.symm
        · exact absurd (h.symm0 _ _ hx) (hp.1 row e)
      rw [List.filter_cons_of_pos (by simpa using hx), hrest, hxr]
    · have hm2 : row ∈ xs := by
        rcases List.mem_cons.mp hm with e | e
        · rw [e] at hx
          exact absurd (h.refl x) hx
        · exact e
      rw [List.filter_cons_of_neg (by simpa using hx)]
      exact ih hp.2 hm2

/-- C31 (table insert_or_replace).  On a well-formed table whose comparators
are orders: (1) when the primary index has a position `p` whose row is equal
to `row` under the primary comparator, `insert_or_replace` overwrites the row
at `p` and sorts every index again, so the number of rows stays and every
index holds the positions it held; (2) otherwise it appends the row at
position `len(rows)` and inserts that position into every index by
`array_sorted_insert`.  (3) In both cases it returns OK, the table is well
formed again (every index sorted under its comparator), a following
`query_first` on the primary index with `row` as key returns `row`, and in
every index exactly one entry refers to a row equal to `row` under the
primary comparator, the row `row` itself. -/
theorem c31_insert_or_replace {ρ : Type} [Inhabited ρ] (table : table_t ρ) (row : ρ)
    (hwf : table_wf table) (hcmp : ∀ ix ∈ table.indexes, cmp_order ix.comparator)
    (hpos : 0 < table.indexes.length) :
    (∀ p, p ∈ (table_index table 0).entries →
      (table_index table 0).comparator row (array_dereference table.rows p) = 0 →
      table_insert_or_replace table row
        = (0, { rows := table.rows.set p row,
                indexes := table.indexes.map (fun ix =>
                  array_sort (array_dereference (table.rows.set p row)) ix) }) ∧
      (table_insert_or_replace table row).2.rows.length = table.rows.length ∧
      ∀ k, k < table.indexes.length →
        (table_index (table_insert_or_replace table row).2 k).entries.Perm
          (table_index table k).entries) ∧
    ((∀ p ∈ (table_index table 0).entries,
        (table_index table 0).comparator row (array_dereference table.rows p) ≠ 0) →
      table_insert_or_replace table row
        = (0, { rows := table.rows ++ [row],
                indexes := table.indexes.map (fun ix =>
                  array_sorted_insert (array_dereference (table.rows ++ [row])) ix
                    table.rows.length) }) ∧
      ∀ k, k < table.indexes.length →
        (table_index (table_insert_or_replace table row).2 k).entries.Perm
          (table.rows.length :: (table_index table k).entries)) ∧
    (table_insert_or_replace table row).1 = 0 ∧
    table_wf (table_insert_or_replace table row).2 ∧
    table_query_first (table_insert_or_replace table row).2 row 0 none = (0, row) ∧
    ∀ k, k < table.indexes.length →
      (index_rows (table_insert_or_replace table row).2.rows
          (table_index (table_insert_or_replace table row).2 k)).filter
        (fun b => decide ((table_index table 0).comparator row b = 0)) = [row] := by
  have hm0 := table_index_mem table 0 hpos
  have hc0 := hcmp _ hm0
  have hsearch := table_insert_search table row hwf hcmp hpos
  have hs := array_sorted_first_sound (array_dereference table.rows) (table_index table 0)
    (table_index table 0).comparator row
  have hwf1 : table_wf (table_insert_or_replace table row).2 :=
    table_insert_wf table row true hwf hcmp hpos
  have hcmps := table_insert_comparators table row true
  have hlen1 : (table_insert_or_replace table row).2.indexes.length = table.indexes.length := by
    have := congrArg List.length hcmps
    rw [List.length_map, List.length_map] at this
    exact this
  have hc01 : (table_index (table_insert_or_replace table row).2 0).comparator
      = (table_index table 0).comparator := by
    have h1 : ((table_insert_or_replace table row).2.indexes.map
        (fun ix => ix.comparator)).getD 0 (fun _ _ => 0)
        = (table.indexes.map (fun ix => ix.comparator)).getD 0 (fun _ _ => 0) := by
      rw [show (table_insert_or_replace table row).2 = (_table_insert table row true).2 from rfl,
        hcmps]
    rw [List.getD_eq_getElem _ _ (by rw [List.length_map, hlen1]; exact hpos),
      List.getD_eq_getElem _ _ (by rw [List.length_map]; exact hpos),
      List.getElem_map, List.getElem_map] at h1
    unfold table_index
    rw [List.getD_eq_getElem _ _ (by rw [hlen1]; exact hpos), List.getD_eq_getElem _ _ hpos]
    exact h1
  have hrow0 : row ∈ index_rows (table_insert_or_replace table row).2.rows
      (table_index (table_insert_or_replace table row).2 0) :=
    (table_insert_or_replace_mem table row hwf hcmp 0 hpos row).mpr (Or.inl rfl)
  have hone0 : (index_rows (table_insert_or_replace table row).2.rows
      (table_index (table_insert_or_replace table row).2 0)).filter
      (fun b => decide ((table_index table 0).comparator row b = 0)) = [row] := by
    have hd := hwf1.2.2
    rw [hc01] at hd
    exact filter_key_singleton _ hc0 row _ hd hrow0
  refine ⟨?_, ?_, table_insert_or_replace_rc table row, hwf1, ?_, ?_⟩
  · intro p hp hkey
    have h1 : ¬ (array_sorted_first (array_dereference table.rows) (table_index table 0)
        (some (table_index table 0).comparator) row).1 = -ENOENT := by
      intro h
      exact hsearch.mp h _ (List.mem_map_of_mem _ hp) hkey
    have h0 : (array_sorted_first (array_dereference table.rows) (table_index table 0)
        (some (table_index table 0).comparator) row).1 = 0 := by
      rcases hs.1 with h | h
      · exact h
      · exact absurd h h1
    obtain ⟨hmem, hz⟩ := hs.2 h0
    have hpq : (array_sorted_first (array_dereference table.rows) (table_index table 0)
        (some (table_index table 0).comparator) row).2 = p := by
      apply primary_position_eq table hwf hc0 _ _ hmem hp
      exact hc0.eq_zero_trans _ _ _ (hc0.symm0 _ _ hz) hkey
    have heq : table_insert_or_replace table row
        = (0, { rows := table.rows.set p row,
                indexes := table.indexes.map (fun ix =>
                  array_sort (array_dereference (table.rows.set p row)) ix) }) := by
      unfold table_insert_or_replace _table_insert
      dsimp only
      rw [if_neg h1, if_neg (by rw [h0]; exact fun h => h rfl), if_neg (by simp), hpq]
    refine ⟨heq, ?_, ?_⟩
    · rw [heq]
      exact List.length_set _ _ _
    · intro k hk
      rw [heq]
      dsimp only
      rw [table_index_map table.rows _ _ _ k hk]
      exact qsort_perm _ _ _
  · intro hnew
    have h1 : (array_sorted_first (array_dereference table.rows) (table_index table 0)
        (some (table_index table 0).comparator) row).1 = -ENOENT := by
      apply hsearch.mpr
      intro b hb
      obtain ⟨p, hp, rfl⟩ := List.mem_map.mp hb
      exact hnew p hp
    have heq : table_insert_or_replace table row
        = (0, { rows := table.rows ++ [row],
                indexes := table.indexes.map (fun ix =>
                  array_sorted_insert (array_dereference (table.rows ++ [row])) ix
                    table.rows.length) }) := by
      unfold table_insert_or_replace _table_insert
      dsimp only
      rw [if_pos h1]
    refine ⟨heq, ?_⟩
    intro k hk
    rw [heq]
    dsimp only
    rw [table_index_map table.rows _ _ _ k hk]
    exact array_sorted_insert_perm _ _ _
  · have hq := table_query_first_sound (table_insert_or_replace table row).2 row 0
      (table_index (table_insert_or_replace table row).2 0).comparator
    have hiff := table_query_first_iff (table_insert_or_replace table row).2 row 0
      (table_index (table_insert_or_replace table row).2 0).comparator
      (table_index (table_insert_or_replace table row).2 0).comparator
      (hwf1.1 _ (table_index_mem _ 0 (by rw [hlen1]; exact hpos))).2.2
      (filter_mono_self _ (by rw [hc01]; exact hc0) row)
    rw [table_query_first_none]
    have h0 : (table_query_first (table_insert_or_replace table row).2 row 0
        (some (table_index (table_insert_or_replace table row).2 0).comparator)).1 = 0 :=
      hiff.mpr ⟨row, hrow0, by rw [hc01]; exact hc0.refl row⟩
    obtain ⟨hmem, hz1⟩ := hq.2 h0
    have hz : (table_index table 0).comparator row
        (table_query_first (table_insert_or_replace table row).2 row 0
          (some (table_index (table_insert_or_replace table row).2 0).comparator)).2 = 0 := by
      rw [← hc01]
      exact hz1
    have hmem2 : (table_query_first (table_insert_or_replace table row).2 row 0
        (some (table_index (table_insert_or_replace table row).2 0).comparator)).2
        ∈ (index_rows (table_insert_or_replace table row).2.rows
          (table_index (table_insert_or_replace table row).2 0)).filter
          (fun b => decide ((table_index table 0).comparator row b = 0)) := by
      rw [List.mem_filter]
      exact ⟨hmem, by simpa using hz⟩
    rw [hone0, List.mem_singleton] at hmem2
    exact Prod.ext h0 hmem2
  · intro k hk
    have hperm := index_rows_perm (table_insert_or_replace table row).2 hwf1 k
      (by rw [hlen1]; exact hk)
    have := (hperm.filter (fun b => decide ((table_index table 0).comparator row b = 0)))
    rw [hone0] at this
    exact List.perm_singleton.mp this

/-- The table of the scenario of C31 is reachable. -/
theorem c31_table_reachable : table_reachable c31_table :=
  table_reachable.insert_or_replace _ _
    (table_reachable.insert_or_replace _ _
      (table_reachable.insert_or_replace _ _
        (table_reachable.add_index _ _
          (table_reachable.init _ (cmp_order_key (fun a : Nat × Nat => a.1)))
          (cmp_order_key (fun a : Nat × Nat => a.2)))))

/-- The table of the scenario of C31 is well formed. -/
theorem c31_table_wf : table_wf c31_table :=
  ⟨(table_reachable_inv c31_table c31_table_reachable).1.1,
    (table_reachable_inv c31_table c31_table_reachable).1.2, by decide⟩

/-- Witness of C31: in the table holding `(1, 30)`, `(2, 20)`, `(3, 10)` the
row `(2, 5)` replaces the row at position `1`, and the row `(4, 0)` is
appended at position `3`; both are found by a query on the primary index
afterwards. -/
theorem c31_insert_or_replace_witness :
    c31_table.rows = [(1, 30), (2, 20), (3, 10)] ∧
    ((table_insert_or_replace c31_table (2, 5)).2.rows,
      (table_insert_or_replace c31_table (2, 5)).2.indexes.map (fun ix => ix.entries))
      = ([(1, 30), (2, 5), (3, 10)], [[0, 1, 2], [1, 2, 0]]) ∧
    ((table_insert_or_replace c31_table (4, 0)).2.rows,
      (table_insert_or_replace c31_table (4, 0)).2.indexes.map (fun ix => ix.entries))
      = ([(1, 30), (2, 20), (3, 10), (4, 0)], [[0, 1, 2, 3], [3, 2, 1, 0]]) ∧
    (table_insert_or_replace c31_table (2, 5)
        = (0, { rows := c31_table.rows.set 1 (2, 5),
                indexes := c31_table.indexes.map (fun ix =>
                  array_sort (array_dereference (c31_table.rows.set 1 (2, 5))) ix) }) ∧
      (table_insert_or_replace c31_table (2, 5)).2.rows.length = c31_table.rows.length ∧
      ∀ k, k < c31_table.indexes.length →
        (table_index (table_insert_or_replace c31_table (2, 5)).2 k).entries.Perm
          (table_index c31_table k).entries) ∧
    (table_insert_or_replace c31_table (4, 0)
        = (0, { rows := c31_table.rows ++ [(4, 0)],
                indexes := c31_table.indexes.map (fun ix =>
                  array_sorted_insert (array_dereference (c31_table.rows ++ [(4, 0)])) ix
                    c31_table.rows.length) }) ∧
      ∀ k, k < c31_table.indexes.length →
        (table_index (table_insert_or_replace c31_table (4, 0)).2 k).entries.Perm
          (c31_table.rows.length :: (table_index c31_table k).entries)) ∧
    table_query_first (table_insert_or_replace c31_table (2, 5)).2 (2, 5) 0 none
      = (0, (2, 5)) :=
  ⟨by decide, by decide, by decide,
    (c31_insert_or_replace c31_table (2, 5) c31_table_wf
      (table_reachable_inv c31_table c31_table_reachable).2.1 (by decide)).1 1
      (by decide) (by decide),
    (c31_insert_or_replace c31_table (4, 0) c31_table_wf
      (table_reachable_inv c31_table c31_table_reachable).2.1 (by decide)).2.1 (by decide),
    (c31_insert_or_replace c31_table (2, 5) c31_table_wf
      (table_reachable_inv c31_table c31_table_reachable).2.1 (by decide)).2.2.2.2.1⟩

/-- The positions an index holds after `table_query_delete` through an index
in the order of `cmp`, with a monotone filter that accepts a row: those it
held whose row the filter does not accept, in the order they had. -/
theorem table_query_delete_entries {ρ : Type} [Inhabited ρ] (table : table_t ρ) (key : ρ)
    (k : Nat) (cmp : ρ → ρ → Int) (f : ρ → ρ → Int) (hinv : table_index_inv table)
    (hk : k < table.indexes.length)
    (hs : (index_rows table.rows (table_index table k)).Pairwise (fun a b => cmp a b ≤ 0))
    (hf : filter_mono cmp (f key))
    (hmatch : ∃ b ∈ index_rows table.rows (table_index table k), f key b = 0)
    (j : Nat) (hj : j < table.indexes.length) :
    (table_query_delete table key k (some f)).1 = 0 ∧
    (table_query_delete table key k (some f)).2.rows = table.rows ∧
    (table_index (table_query_delete table key k (some f)).2 j).entries
      = (table_index table j).entries.filter
          (fun i => decide (f key (array_dereference table.rows i) ≠ 0)) := by
  obtain ⟨h1, h2, h3⟩ := table_query_ids_spec table key k cmp f hk hs hf
  have hkm := table_index_mem table k hk
  have hjm := table_index_mem table j hj
  have hids : ¬ (table_query_ids table key k (some f)).1 ≠ 0 := fun h => h (h1.mpr hmatch)
  unfold table_query_delete
  dsimp only
  rw [if_neg hids]
  refine ⟨rfl, rfl, ?_⟩
  dsimp only
  rw [table_index_map table.rows _ table.indexes _ j hj]
  obtain ⟨hc, hsorted, hmem⟩ := fold_sorted_insert_spec (table_query_ids table key k (some f)).2
    { entries := [], comparator := _cmp_size } rfl (by simp)
  unfold array_delete
  dsimp only
  apply List.filter_congr
  intro i hi
  have hiff := array_sorted_first_iff id
    (List.foldl (fun a row_id => array_sorted_insert id a row_id)
      { entries := [], comparator := _cmp_size } (table_query_ids table key k (some f)).2)
    _cmp_size _cmp_size i hsorted (filter_mono_self _ cmp_size_order i)
  have hik : i ∈ (table_index table k).entries :=
    ((hinv.2 _ hkm i).mpr ((hinv.2 _ hjm i).mp hi))
  have hin : i ∈ (table_query_ids table key k (some f)).2 ↔
      f key (array_dereference table.rows i) = 0 := by
    rw [h3, List.mem_filter]
    simp only [decide_eq_true_eq]
    exact ⟨fun h => h.2, fun h => ⟨hik, h⟩⟩
  have hfirst : (array_sorted_first id
      (List.foldl (fun a row_id => array_sorted_insert id a row_id)
        { entries := [], comparator := _cmp_size } (table_query_ids table key k (some f)).2)
      (some _cmp_size) i).1 = 0 ↔ f key (array_dereference table.rows i) = 0 := by
    rw [hiff, ← hin]
    constructor
    · rintro ⟨e, he, hz⟩
      have := (cmp_size_eq_zero i e).mp hz
      rw [this]
      exact ((hmem e).mp he).resolve_right (by simp)
    · intro h
      exact ⟨i, (hmem i).mpr (Or.inl h), (cmp_size_eq_zero i i).mpr rfl⟩
  simp only [ne_eq, decide_not]
  rw [Bool.eq_iff_iff]
  simp only [Bool.not_eq_true', decide_eq_false_iff_not, decide_eq_true_eq]
  rw [hfirst]

/-- C32 (query_delete keeps rows stable).  On a table that satisfies the
index invariant, for an index id `k` of the table, a filter that is
monotone along the order of index `k` and a key with at least one match
through index `k`: `query_delete` returns OK; the row store is unchanged;
every index holds afterwards the positions it held whose row did not match,
in the order they had, so the rows an index refers to are the rows it
referred to that did not match, unchanged and in their order; and the index
invariant holds again. -/
theorem c32_query_delete_stable {ρ : Type} [Inhabited ρ] (table : table_t ρ) (key : ρ)
    (k : Nat) (cmp : ρ → ρ → Int) (f : ρ → ρ → Int) (hinv : table_index_inv table)
    (hk : k < table.indexes.length)
    (hs : (index_rows table.rows (table_index table k)).Pairwise (fun a b => cmp a b ≤ 0))
    (hf : filter_mono cmp (f key))
    (hmatch : ∃ b ∈ index_rows table.rows (table_index table k), f key b = 0) :
    (table_query_delete table key k (some f)).1 = 0 ∧
    (table_query_delete table key k (some f)).2.rows = table.rows ∧
    table_index_inv (table_query_delete table key k (some f)).2 ∧
    ∀ j, j < table.indexes.length →
      (table_index (table_query_delete table key k (some f)).2 j).entries
        = (table_index table j).entries.filter
            (fun i => decide (f key (array_dereference table.rows i) ≠ 0)) ∧
      table_to_array_by_index (table_query_delete table key k (some f)).2 j
        = (table_to_array_by_index table j).filter (fun r => decide (f key r ≠ 0)) := by
  obtain ⟨a1, a2, -⟩ := table_query_delete_entries table key k cmp f hinv hk hs hf hmatch k hk
  refine ⟨a1, a2, table_query_delete_index_inv table key k (some f) hinv, ?_⟩
  intro j hj
  obtain ⟨-, -, a3⟩ := table_query_delete_entries table key k cmp f hinv hk hs hf hmatch j hj
  refine ⟨a3, ?_⟩
  unfold table_to_array_by_index
  rw [a3, a2, List.filter_map]
  rfl

/-- Witness of C32: deleting the row with the first component `2` from the
table holding `(1, 30)`, `(2, 20)`, `(3, 10)` leaves the three rows in the row
store and the positions `0, 2` in the primary and `2, 0` in the second
index. -/
theorem c32_query_delete_stable_witness :
    (table_query_delete c31_table (2, 0) 0 (some (fun a b => _cmp_size a.1 b.1))).1 = 0 ∧
    (table_query_delete c31_table (2, 0) 0 (some (fun a b => _cmp_size a.1 b.1))).2.rows
      = c31_table.rows ∧
    table_index_inv
      (table_query_delete c31_table (2, 0) 0 (some (fun a b => _cmp_size a.1 b.1))).2 ∧
    (∀ j, j < c31_table.indexes.length →
      (table_index
          (table_query_delete c31_table (2, 0) 0 (some (fun a b => _cmp_size a.1 b.1))).2
          j).entries
        = (table_index c31_table j).entries.filter
            (fun i => decide (_cmp_size (2, 0).1 (array_dereference c31_table.rows i).1 ≠ 0)) ∧
      table_to_array_by_index
          (table_query_delete c31_table (2, 0) 0 (some (fun a b => _cmp_size a.1 b.1))).2 j
        = (table_to_array_by_index c31_table j).filter
            (fun r => decide (_cmp_size (2, 0).1 r.1 ≠ 0))) ∧
    (table_query_delete c31_table (2, 0) 0
        (some (fun a b => _cmp_size a.1 b.1))).2.indexes.map (fun ix => ix.entries)
      = [[0, 2], [2, 0]] :=
  ⟨(c32_query_delete_stable c31_table (2, 0) 0 (fun a b => _cmp_size a.1 b.1)
      (fun a b => _cmp_size a.1 b.1) (table_reachable_inv c31_table c31_table_reachable).1
      (by decide) (by decide)
      (filter_mono_self _ (cmp_order_key (fun a : Nat × Nat => a.1)) (2, 0))
      ⟨(2, 20), by decide, by decide⟩).1,
    (c32_query_delete_stable c31_table (2, 0) 0 (fun a b => _cmp_size a.1 b.1)
      (fun a b => _cmp_size a.1 b.1) (table_reachable_inv c31_table c31_table_reachable).1
      (by decide) (by decide)
      (filter_mono_self _ (cmp_order_key (fun a : Nat × Nat => a.1)) (2, 0))
      ⟨(2, 20), by decide, by decide⟩).2.1,
    (c32_query_delete_stable c31_table (2, 0) 0 (fun a b => _cmp_size a.1 b.1)
      (fun a b => _cmp_size a.1 b.1) (table_reachable_inv c31_table c31_table_reachable).1
      (by decide) (by decide)
      (filter_mono_self _ (cmp_order_key (fun a : Nat × Nat => a.1)) (2, 0))
      ⟨(2, 20), by decide, by decide⟩).2.2.1,
    (c32_query_delete_stable c31_table (2, 0) 0 (fun a b => _cmp_size a.1 b.1)
      (fun a b => _cmp_size a.1 b.1) (table_reachable_inv c31_table c31_table_reachable).1
      (by decide) (by decide)
      (filter_mono_self _ (cmp_order_key (fun a : Nat × Nat => a.1)) (2, 0))
      ⟨(2, 20), by decide, by decide⟩).2.2.2,
    by decide⟩

/-- The scan of `_oncefs_load` stops at the first block whose operation is
at or above `BLOCK_OPERATION_LAST`, whatever the blocks behind it hold. -/
theorem load_scan_stop (dev : io_t) (k : Nat) (hk : k ≤ dev.last_valid_block)
    (hbsz : SIZEOF_TAGGED_BLOCK ≤ dev.block_size)
    (hw : ∀ i, 1 ≤ i → i < k →
      (dev.buffer.getD i default).tag.operation < BLOCK_OPERATION_LAST)
    (hend : (dev.buffer.getD k default).tag.operation ≥ BLOCK_OPERATION_LAST) :
    ∀ (n a : Nat), 1 ≤ a → a ≤ k → a + n = dev.last_valid_block + 1 →
      load_scan dev (List.range' a n)
        = (0, (List.range' a (k - a)).map
            (fun i => { block := i, tag := (dev.buffer.getD i default).tag })) := by
  intro n
  induction n with
  | zero =>
    intro a h1 h2 h3
    omega
  | succ n ih =>
    intro a h1 h2 h3
    rw [List.range'_succ]
    unfold load_scan
    have hc : io_check dev a SIZEOF_TAGGED_BLOCK = 0 := by
      unfold io_check
      rw [if_neg (by omega), if_neg (by omega)]
    have hr : io_read_tag dev a SIZEOF_TAGGED_BLOCK = (0, (dev.buffer.getD a default).tag) := by
      unfold io_read_tag
      rw [if_neg (by rw [hc]; simp)]
    rw [hr]
    dsimp only
    rw [if_neg (by simp)]
    by_cases hlt : a < k
    · rw [if_neg (by have := hw a h1 hlt; omega)]
      rw [ih (a + 1) (by omega) (by omega) (by omega)]
      have hx : k - a = (k - (a + 1)) + 1 := by omega
      rw [hx, List.range'_succ]
      rfl
    · have e : a = k := by omega
      rw [e, if_pos hend]
      have e : k - k = 0 := by omega
      rw [e]
      rfl

/-- The blocks `_oncefs_load` replays are those before the first block whose
operation is at or above `BLOCK_OPERATION_LAST`. -/
theorem replayed_tags_stop (dev : io_t) (k : Nat) (hk1 : 1 ≤ k) (hk : k ≤ dev.last_valid_block)
    (hbsz : SIZEOF_TAGGED_BLOCK ≤ dev.block_size)
    (hw : ∀ i, 1 ≤ i → i < k →
      (dev.buffer.getD i default).tag.operation < BLOCK_OPERATION_LAST)
    (hend : (dev.buffer.getD k default).tag.operation ≥ BLOCK_OPERATION_LAST) :
    load_scan dev (List.range' (io_block_first dev)
        (io_block_last dev + 1 - io_block_first dev)) = (0, log_tags dev k) :=
  load_scan_stop dev k hk hbsz hw hend (io_block_last dev + 1 - io_block_first dev) 1
    (Nat.le_refl 1) hk1 (by show 1 + (dev.last_valid_block + 1 - 1) = _; omega)

/-- A round of the replay that returns OK has replayed a NODE, DATA,
TRUNCATE, DELETE or MOVE block. -/
theorem load_step_ok_operation (s : oncefs_t) (io : io_t) (c : oncefs_tagged_block_t)
    (r : Int × oncefs_t) (h : load_step s io c = some r) (h0 : r.1 = 0) :
    c.tag.operation = BLOCK_OPERATION_NODE ∨ c.tag.operation = BLOCK_OPERATION_DATA ∨
    c.tag.operation = BLOCK_OPERATION_TRUNCATE ∨ c.tag.operation = BLOCK_OPERATION_DELETE ∨
    c.tag.operation = BLOCK_OPERATION_MOVE := by
  by_contra hcon
  simp only [not_or] at hcon
  obtain ⟨n1, n2, n3, n4, n5⟩ := hcon
  unfold load_step at h
  dsimp only at h
  rw [if_neg n2, if_neg n1, if_neg n5, if_neg n4, if_neg n3] at h
  cases h
  exact absurd h0 (by show ¬ ((-ENOSYS : Int) = 0); decide)

/-- A replay that returns OK has replayed NODE, DATA, TRUNCATE, DELETE and
MOVE blocks only. -/
theorem load_loop_ok_operations (io : io_t) :
    ∀ (tags : List oncefs_tagged_block_t) (s : oncefs_t) (r : Int × oncefs_t),
      load_loop io tags s = some r → r.1 = 0 →
      ∀ c ∈ tags,
        c.tag.operation = BLOCK_OPERATION_NODE ∨ c.tag.operation = BLOCK_OPERATION_DATA ∨
        c.tag.operation = BLOCK_OPERATION_TRUNCATE ∨
        c.tag.operation = BLOCK_OPERATION_DELETE ∨ c.tag.operation = BLOCK_OPERATION_MOVE := by
  intro tags
  induction tags with
  | nil => intro s r _ _ c hc; exact absurd hc (List.not_mem_nil _)
  | cons c0 rest ih =>
    intro s r hr h0 c hc
    unfold load_loop at hr
    split at hr
    · simp at hr
    · rename_i r1 h1
      split at hr
      · rename_i hne
        simp at hr
        subst hr
        exact absurd h0 hne
      · rename_i hz
        have hz0 : r1.1 = 0 := by
          by_contra hh
          exact hz hh
        rcases List.mem_cons.mp hc with e | e
        · rw [e]
          exact load_step_ok_operation s io c0 r1 h1 hz0
        · exact ih r1.2 r hr h0 c e

/-- The replay leaves `next_seq_id` and the time alone. -/
theorem load_loop_frame (dev : io_t) (tags : List oncefs_tagged_block_t) (s : oncefs_t)
    (r : Int × oncefs_t) (h : load_loop dev tags s = some r) :
    r.2.next_seq_id = s.next_seq_id ∧ r.2.time = s.time := by
  induction tags generalizing s r with
  | nil =>
    simp [load_loop] at h
    subst h
    exact ⟨rfl, rfl⟩
  | cons c rest ih =>
    unfold load_loop at h
    split at h
    · simp at h
    · rename_i r1 h1
      have hs1 : r1.2.next_seq_id = s.next_seq_id ∧ r1.2.time = s.time := by
        have hT : table_step_closed (fun a b : oncefs_t =>
            b.next_seq_id = a.next_seq_id ∧ b.time = a.time) := by
          refine { refl := ?_, trans := ?_, nodes_insert := ?_, nodes_delete := ?_,
                   blocks_free := ?_, blocks_truncate := ?_ }
          · intro a; exact ⟨rfl, rfl⟩
          · intro a b c hab hbc; exact ⟨hbc.1.trans hab.1, hbc.2.trans hab.2⟩
          · intro a row; exact ⟨rfl, rfl⟩
          · intro a key; exact ⟨rfl, rfl⟩
          · intro a key; exact ⟨rfl, rfl⟩
          · intro a key new_size; exact ⟨rfl, rfl⟩
        have hL : load_closed c.block (fun a b : oncefs_t =>
            b.next_seq_id = a.next_seq_id ∧ b.time = a.time) := by
          refine { totable_step_closed := hT, load_block := ?_ }
          intro a tagged data _
          unfold load_advance _oncefs_load_block_data _oncefs_init_block
          dsimp only
          split <;> split <;> exact ⟨rfl, rfl⟩
        exact load_step_closed c.block _ hL s dev c (Nat.le_refl _) r1 h1
      split at h
      · simp at h
        subst h
        exact hs1
      · have := ih r1.2 r h
        exact ⟨this.1.trans hs1.1, this.2.trans hs1.2⟩

/-- `_oncefs_load` from the initial state reads the blocks before the first
block whose operation is at or above `BLOCK_OPERATION_LAST` alone: on a
container that holds the same blocks before that block, and there an
operation at or above `BLOCK_OPERATION_LAST` again, it gives the same return
code and the same engine, the container handle apart. -/
theorem load_prefix (dev : io_t) (buffer : List disk_block_t) (k : Nat) (hk1 : 1 ≤ k)
    (hk : k ≤ dev.last_valid_block) (hbsz : SIZEOF_TAGGED_BLOCK ≤ dev.block_size)
    (hw : ∀ i, 1 ≤ i → i < k →
      (dev.buffer.getD i default).tag.operation < BLOCK_OPERATION_LAST)
    (hend : (dev.buffer.getD k default).tag.operation ≥ BLOCK_OPERATION_LAST)
    (hsame : ∀ i, i < k → buffer.getD i default = dev.buffer.getD i default)
    (hend1 : (buffer.getD k default).tag.operation ≥ BLOCK_OPERATION_LAST) :
    (_oncefs_load (oncefs_init_state (some { dev with buffer := buffer }))
        { dev with buffer := buffer }).map
        (fun r => (r.1, core r.2, r.2.next_seq_id, r.2.time))
      = (_oncefs_load (oncefs_init_state (some dev)) dev).map
        (fun r => (r.1, core r.2, r.2.next_seq_id, r.2.time)) := by
  have hscan := replayed_tags_stop dev k hk1 hk hbsz hw hend
  have hscan1 := replayed_tags_stop { dev with buffer := buffer } k hk1 hk hbsz
    (fun i h1 h2 => by
      show (buffer.getD i default).tag.operation < BLOCK_OPERATION_LAST
      rw [hsame i h2]
      exact hw i h1 h2) hend1
  rw [log_tags_congr dev buffer k (fun i _ h2 => hsame i h2)] at hscan1
  have hmem : ∀ c ∈ qsort id _cmp_tag_seq (log_tags dev k),
      buffer.getD c.block default = dev.buffer.getD c.block default := by
    intro c hc
    have := log_tags_mem dev k c ((qsort_perm id _cmp_tag_seq _).mem_iff.mp hc)
    exact hsame c.block this.2.1
  have hcore0 : core (oncefs_init_state (some { dev with buffer := buffer }))
      = core (oncefs_init_state (some dev)) := rfl
  have hloop : (load_loop { dev with buffer := buffer } (qsort id _cmp_tag_seq (log_tags dev k))
        (oncefs_init_state (some { dev with buffer := buffer }))).map
        (fun r => (r.1, core r.2))
      = (load_loop dev (qsort id _cmp_tag_seq (log_tags dev k))
          (oncefs_init_state (some dev))).map (fun r => (r.1, core r.2)) := by
    rw [← load_loop_core, ← load_loop_core, hcore0, load_loop_congr dev buffer _ _ hmem]
  unfold _oncefs_load
  dsimp only
  rw [hscan, hscan1]
  dsimp only
  rw [if_neg (fun h => h rfl), if_neg (fun h => h rfl)]
  cases h1 : load_loop { dev with buffer := buffer } (qsort id _cmp_tag_seq (log_tags dev k))
      (oncefs_init_state (some { dev with buffer := buffer })) with
  | none =>
    cases h2 : load_loop dev (qsort id _cmp_tag_seq (log_tags dev k))
        (oncefs_init_state (some dev)) with
    | none => rfl
    | some r =>
      rw [h1, h2] at hloop
      cases hloop
  | some r1 =>
    cases h2 : load_loop dev (qsort id _cmp_tag_seq (log_tags dev k))
        (oncefs_init_state (some dev)) with
    | none =>
      rw [h1, h2] at hloop
      cases hloop
    | some r =>
      rw [h1, h2] at hloop
      have hpair : (r1.1, core r1.2) = (r.1, core r.2) := Option.some.inj hloop
      have e1 : r1.1 = r.1 := (Prod.mk.inj hpair).1
      have e2 : core r1.2 = core r.2 := (Prod.mk.inj hpair).2
      obtain ⟨f1, f2⟩ := load_loop_frame _ _ _ _ h1
      obtain ⟨g1, g2⟩ := load_loop_frame _ _ _ _ h2
      have e3 : r1.2.next_seq_id = r.2.next_seq_id := f1.trans g1.symm
      have e4 : r1.2.time = r.2.time := f2.trans g2.symm
      dsimp only
      by_cases hz : r.1 ≠ 0
      · rw [if_pos hz, if_pos (by rw [e1]; exact hz)]
        show some (r1.1, core r1.2, r1.2.next_seq_id, r1.2.time)
          = some (r.1, core r.2, r.2.next_seq_id, r.2.time)
        rw [e1, e2, e3, e4]
      · rw [if_neg hz, if_neg (by rw [e1]; exact hz)]
        cases hg : (qsort id _cmp_tag_seq (log_tags dev k)).getLast? with
        | none =>
          show some (0, core r1.2, r1.2.next_seq_id, r1.2.time)
            = some (0, core r.2, r.2.next_seq_id, r.2.time)
          rw [e2, e3, e4]
        | some last =>
          show some (0, core r1.2, last.tag.seq + 1, r1.2.time)
            = some (0, core r.2, last.tag.seq + 1, r.2.time)
          rw [e2, e4]

/-- A mount without format that returns OK has replayed the tags of its scan,
sorted by `seq`, with the return code OK. -/
theorem init_ok_load (dev : io_t) (now : Nat) (rnd : List Nat) (ofs : oncefs_t)
    (hinit : oncefs_init (some dev) 0 now rnd = some (0, ofs)) :
    ∃ r, load_loop dev (qsort id _cmp_tag_seq (replayed_tags dev))
        (oncefs_init_state (some dev)) = some r ∧ r.1 = 0 := by
  unfold oncefs_init at hinit
  dsimp only at hinit
  split at hinit
  · obtain ⟨h2, -⟩ := Prod.mk.inj (Option.some.inj hinit)
    simp at h2
  · rw [if_neg (by decide)] at hinit
    cases hl : _oncefs_load (oncefs_init_state (some dev)) dev with
    | none => rw [hl] at hinit; cases hinit
    | some r =>
      rw [hl] at hinit
      dsimp only at hinit
      split at hinit
      · rename_i h1
        obtain ⟨h2, -⟩ := Prod.mk.inj (Option.some.inj hinit)
        exact absurd h2 h1
      · rename_i h1
        have hr0 : r.1 = 0 := by
          by_contra hh
          exact h1 hh
        unfold _oncefs_load at hl
        dsimp only at hl
        split at hl
        · rename_i hs
          cases hl
          exact absurd hr0 hs
        · cases hq : load_loop dev (qsort id _cmp_tag_seq (load_scan dev
              (List.range' (io_block_first dev) (io_block_last dev + 1 - io_block_first dev))).2)
              (oncefs_init_state (some dev)) with
          | none => rw [hq] at hl; cases hl
          | some r1 =>
            refine ⟨r1, hq, ?_⟩
            rw [hq] at hl
            dsimp only at hl
            split at hl
            · rename_i hne
              cases hl
              exact absurd hr0 hne
            · rename_i hz
              by_contra hh
              exact hz hh

/-- C34, as stated, fails for the operation codes `6` and `7` (and for
negative ones), which are outside the range the claim calls valid but below
`BLOCK_OPERATION_LAST = 8`, and for the code `0` (FREE), which the claim
calls valid: with the operation of block `2` of a container holding three
NODE blocks set to `6`, the scan goes on to block `3` and the mount returns
NOSYS; with the operation set to `0` the mount returns NOSYS as well. -/
theorem c34_counterexample :
    (replayed_tags (retag c34_container 2 6)).map (fun c => (c.block, c.tag.operation))
      = [(1, BLOCK_OPERATION_NODE), (2, 6), (3, BLOCK_OPERATION_NODE)] ∧
    (oncefs_init (some (retag c34_container 2 6)) 0 6 []).map (fun r => r.1)
      = some (-ENOSYS) ∧
    (oncefs_init (some (retag c34_container 2 0)) 0 6 []).map (fun r => r.1)
      = some (-ENOSYS) := by
  refine ⟨?_, ?_, ?_⟩ <;> rfl

/-- C34 (amended).  Let block `k`, at or after the first block, be the first
block of the container whose operation code is at or above
`BLOCK_OPERATION_LAST = 8`.  Then the replay scans the blocks before `k` in
the order of their block ids and stops; block `k` and every later block are
ignored, whatever they hold: the mount of a container that holds the same
blocks before `k`, and at `k` an operation at or above `8` again, returns the
same code and the same engine (the container handle apart).  When the mount
returns OK, every block before `k` holds a NODE, DATA, TRUNCATE, DELETE or
MOVE operation. -/
theorem c34_end_of_log (dev : io_t) (k now : Nat) (rnd : List Nat) (hk1 : 1 ≤ k)
    (hk : k ≤ dev.last_valid_block) (hbsz : SIZEOF_TAGGED_BLOCK ≤ dev.block_size)
    (hw : ∀ i, 1 ≤ i → i < k →
      (dev.buffer.getD i default).tag.operation < BLOCK_OPERATION_LAST)
    (hend : (dev.buffer.getD k default).tag.operation ≥ BLOCK_OPERATION_LAST) :
    replayed_tags dev = log_tags dev k ∧
    (∀ buffer : List disk_block_t,
      (∀ i, i < k → buffer.getD i default = dev.buffer.getD i default) →
      (buffer.getD k default).tag.operation ≥ BLOCK_OPERATION_LAST →
      (oncefs_init (some { dev with buffer := buffer }) 0 now rnd).map
          (fun r => (r.1, core r.2, r.2.next_seq_id, r.2.time))
        = (oncefs_init (some dev) 0 now rnd).map
          (fun r => (r.1, core r.2, r.2.next_seq_id, r.2.time))) ∧
    (∀ ofs, oncefs_init (some dev) 0 now rnd = some (0, ofs) →
      ∀ i, 1 ≤ i → i < k →
        (dev.buffer.getD i default).tag.operation = BLOCK_OPERATION_NODE ∨
        (dev.buffer.getD i default).tag.operation = BLOCK_OPERATION_DATA ∨
        (dev.buffer.getD i default).tag.operation = BLOCK_OPERATION_TRUNCATE ∨
        (dev.buffer.getD i default).tag.operation = BLOCK_OPERATION_DELETE ∨
        (dev.buffer.getD i default).tag.operation = BLOCK_OPERATION_MOVE) := by
  have hscan := replayed_tags_stop dev k hk1 hk hbsz hw hend
  have htags : replayed_tags dev = log_tags dev k := by
    unfold replayed_tags
    rw [hscan]
  refine ⟨htags, ?_, ?_⟩
  · intro buffer hsame hend1
    have hload := load_prefix dev buffer k hk1 hk hbsz hw hend hsame hend1
    unfold oncefs_init
    dsimp only
    have hp : (oncefs_init_state (some { dev with buffer := buffer })).payload_size
        = (oncefs_init_state (some dev)).payload_size := rfl
    rw [hp]
    by_cases hneg : (oncefs_init_state (some dev)).payload_size < 0
    · rw [if_pos hneg, if_pos hneg]
      rfl
    · rw [if_neg hneg, if_neg hneg, if_neg (by decide)]
      cases h1 : _oncefs_load (oncefs_init_state (some { dev with buffer := buffer }))
          { dev with buffer := buffer } with
      | none =>
        cases h2 : _oncefs_load (oncefs_init_state (some dev)) dev with
        | none => rfl
        | some r =>
          rw [h1, h2] at hload
          cases hload
      | some r1 =>
        cases h2 : _oncefs_load (oncefs_init_state (some dev)) dev with
        | none =>
          rw [h1, h2] at hload
          cases hload
        | some r =>
          rw [h1, h2] at hload
          have hq : (r1.1, core r1.2, r1.2.next_seq_id, r1.2.time)
              = (r.1, core r.2, r.2.next_seq_id, r.2.time) := Option.some.inj hload
          obtain ⟨e1, hq2⟩ := Prod.mk.inj hq
          obtain ⟨e2, hq3⟩ := Prod.mk.inj hq2
          obtain ⟨e3, e4⟩ := Prod.mk.inj hq3
          dsimp only
          by_cases hz : r.1 ≠ 0
          · rw [if_pos hz, if_pos (by rw [e1]; exact hz)]
            exact hload
          · rw [if_neg hz, if_neg (by rw [e1]; exact hz)]
            show some (0, core r1.2, r1.2.next_seq_id, now)
              = some (0, core r.2, r.2.next_seq_id, now)
            rw [e2, e3]
  · intro ofs hinit i h1 h2
    obtain ⟨r, hr, hr0⟩ := init_ok_load dev now rnd ofs hinit
    have hmem : ({ block := i, tag := (dev.buffer.getD i default).tag } : oncefs_tagged_block_t)
        ∈ qsort id _cmp_tag_seq (replayed_tags dev) := by
      rw [(qsort_perm id _cmp_tag_seq _).mem_iff, htags]
      unfold log_tags
      rw [List.mem_map]
      exact ⟨i, by rw [List.mem_range'_1]; omega, rfl⟩
    exact load_loop_ok_operations dev _ _ r hr hr0 _ hmem

/-- Witness of C34 (amended): the container holds the NODE blocks of `/foo`,
`/bar` and `/baz` in the blocks `1` to `3` and an operation above `8` in
block `4`; the mount returns OK with the three nodes, also when block `5` is
given the valid operation NODE. -/
theorem c34_end_of_log_witness :
    (replayed_tags c34_container = log_tags c34_container 4 ∧
      (∀ buffer : List disk_block_t,
        (∀ i, i < 4 → buffer.getD i default = c34_container.buffer.getD i default) →
        (buffer.getD 4 default).tag.operation ≥ BLOCK_OPERATION_LAST →
        (oncefs_init (some { c34_container with buffer := buffer }) 0 6 []).map
            (fun r => (r.1, core r.2, r.2.next_seq_id, r.2.time))
          = (oncefs_init (some c34_container) 0 6 []).map
            (fun r => (r.1, core r.2, r.2.next_seq_id, r.2.time))) ∧
      (∀ ofs, oncefs_init (some c34_container) 0 6 [] = some (0, ofs) →
        ∀ i, 1 ≤ i → i < 4 →
          (c34_container.buffer.getD i default).tag.operation = BLOCK_OPERATION_NODE ∨
          (c34_container.buffer.getD i default).tag.operation = BLOCK_OPERATION_DATA ∨
          (c34_container.buffer.getD i default).tag.operation = BLOCK_OPERATION_TRUNCATE ∨
          (c34_container.buffer.getD i default).tag.operation = BLOCK_OPERATION_DELETE ∨
          (c34_container.buffer.getD i default).tag.operation = BLOCK_OPERATION_MOVE)) ∧
    (oncefs_init (some (retag c34_container 5 BLOCK_OPERATION_NODE)) 0 6 []).map
        (fun r => (r.1, (live_nodes r.2).map (fun n => n.name), r.2.next_block_id))
      = some (0, ["bar".toList, "baz".toList, "foo".toList], 4) :=
  ⟨c34_end_of_log c34_container 4 6 [] (by decide) (by decide) (by decide) (by decide)
      (by decide), by rfl⟩

/-- `_oncefs_move_node` with a row whose `(parent, name)` a live node has:
EXISTS or INVALID, and nothing changes. -/
theorem move_helper_taken (x : oncefs_t) (row f : oncefs_node_t) (hwf : nodes_wf x)
    (hf : f ∈ live_nodes x) (hp : f.parent = row.parent) (hn : f.name = row.name) :
    _oncefs_move_node x row = (-EEXIST, x) ∨ _oncefs_move_node x row = (-EINVAL, x) := by
  obtain ⟨h1, -⟩ := node_lookup_spec x hwf row
  have h0 : (table_query_first x.nodes row TABLE_INDEX_LOOKUP none).1 = 0 :=
    h1.mpr ⟨f, hf, hp, hn⟩
  unfold _oncefs_move_node
  dsimp only
  rw [if_pos h0]
  split
  · exact Or.inl rfl
  · exact Or.inr rfl

/-- The replay of a MOVE block whose move fails. -/
theorem load_step_move_fail (s : oncefs_t) (dev : io_t) (c : oncefs_tagged_block_t)
    (entry : oncefs_node_t) (hop : c.tag.operation = BLOCK_OPERATION_MOVE)
    (hbody : (dev.buffer.getD c.block default).body = body_t.node entry)
    (hchk : io_check dev c.block (SIZEOF_TAG + SIZEOF_NODE) = 0)
    (hmv : (_oncefs_move_node s entry).1 ≠ 0) :
    load_step s dev c = some (_oncefs_move_node s entry) := by
  unfold load_step
  dsimp only
  rw [if_neg (by rw [hop]; decide), if_neg (by rw [hop]; decide), if_pos hop,
    if_neg (by rw [hchk]; simp), hbody]
  dsimp only
  rw [if_pos hmv]

/-- C33, as stated, fails: the replay of a MOVE block whose node has no row
inserts the row.  The container holds the NODE, the DELETE and the MOVE
block of node `1` (`/foo` renamed onto itself); after the replay of the
first two the nodes table is empty, after the replay of the MOVE block it
holds the row of `/foo`, and so it does after the mount. -/
theorem c33_counterexample :
    (replayed_tags c33_container).map
        (fun c => (c.block, c.tag.seq, c.tag.operation, carried_node c33_container c.block))
      = [(1, 1, BLOCK_OPERATION_NODE, 1), (2, 2, BLOCK_OPERATION_DELETE, 1),
          (3, 3, BLOCK_OPERATION_MOVE, 1)] ∧
    (load_loop c33_container ((replayed_tags c33_container).take 2)
        (oncefs_init_state (some c33_container))).map
        (fun r => (r.1, (primary_nodes r.2).map (fun n => (n.node, n.name))))
      = some (0, []) ∧
    (load_loop c33_container (replayed_tags c33_container)
        (oncefs_init_state (some c33_container))).map
        (fun r => (r.1, (primary_nodes r.2).map (fun n => (n.node, n.name))))
      = some (0, [(1, "foo".toList)]) ∧
    (oncefs_init (some c33_container) 0 6 []).map
        (fun r => (r.1, (primary_nodes r.2).map (fun n => (n.node, n.name))))
      = some (0, [(1, "foo".toList)]) := by
  refine ⟨?_, ?_, ?_, ?_⟩ <;> rfl

/-- C33 (amended).  On a well-formed engine, let the replay reach a MOVE
block that can be read and whose node record `entry` has a node id no row of
the nodes table has.  (1) When no live row has the parent and the name of
`entry`, the replay of the block returns OK and goes on with the blocks
behind it, the block is recorded in the blocks table, and `entry` is
inserted into the nodes table: the rows of either index are `entry` and the
rows there were.  (2) When a live row has the parent and the name of
`entry`, the replay of the block, and with it the replay as a whole, returns
EXISTS or INVALID and leaves the engine as it is: the block is not
recorded. -/
theorem c33_replay_move (ofs : oncefs_t) (dev : io_t) (cursor : oncefs_tagged_block_t)
    (rest : List oncefs_tagged_block_t) (entry : oncefs_node_t) (hwf : engine_wf ofs)
    (hop : cursor.tag.operation = BLOCK_OPERATION_MOVE)
    (hbody : (dev.buffer.getD cursor.block default).body = body_t.node entry)
    (hchk : io_check dev cursor.block (SIZEOF_TAG + SIZEOF_NODE) = 0)
    (hmiss : ∀ n ∈ primary_nodes ofs, n.node ≠ entry.node) :
    ((∀ n ∈ live_nodes ofs, ¬ (n.parent = entry.parent ∧ n.name = entry.name)) →
      ∃ ofs1, load_step ofs dev cursor = some (0, ofs1) ∧
        load_loop dev (cursor :: rest) ofs = load_loop dev rest ofs1 ∧
        ({ block := cursor.block, tag := (dev.buffer.getD cursor.block default).tag,
           data := { node := entry.node, fill := 0, offset := 0 } } : oncefs_block_t)
          ∈ live_blocks ofs1 ∧
        (∀ m, m ∈ primary_nodes ofs1 ↔ (m = entry ∨ m ∈ primary_nodes ofs)) ∧
        (∀ m, m ∈ live_nodes ofs1 ↔ (m = entry ∨ m ∈ live_nodes ofs))) ∧
    ((∃ n ∈ live_nodes ofs, n.parent = entry.parent ∧ n.name = entry.name) →
      ∃ rc, (rc = -EEXIST ∨ rc = -EINVAL) ∧
        load_step ofs dev cursor = some (rc, ofs) ∧
        load_loop dev (cursor :: rest) ofs = some (rc, ofs)) := by
  constructor
  · intro habs
    have hmove := move_helper_absent ofs entry hwf.2.1 habs
    have hstep := load_step_move ofs dev cursor entry hop hbody hchk (by rw [hmove])
    obtain ⟨hrec, hn⟩ := load_block_recorded (_oncefs_move_node ofs entry).2
      { block := cursor.block, tag := (dev.buffer.getD cursor.block default).tag }
      { node := entry.node, fill := 0, offset := 0 } (by rw [hmove]; exact hwf.1)
    have hnodes : (load_advance
        (_oncefs_load_block_data (_oncefs_move_node ofs entry).2
          { block := cursor.block, tag := (dev.buffer.getD cursor.block default).tag }
          { node := entry.node, fill := 0, offset := 0 }).2
        { block := cursor.block, tag := (dev.buffer.getD cursor.block default).tag }).nodes
        = (table_insert_or_replace ofs.nodes entry).2 := by
      rw [hn, hmove]
    have hlive : ∀ m, m ∈ live_nodes ofs ↔ m ∈ primary_nodes ofs := by
      intro m
      exact (index_rows_perm ofs.nodes hwf.2.1.2 1
        (by rw [(nodes_wf_indexes ofs hwf.2.1).1]; decide)).mem_iff
    refine ⟨_, hstep, ?_, hrec, ?_, ?_⟩
    · rw [load_loop, hstep]
      simp
    · intro m
      unfold primary_nodes table_to_array_by_index
      rw [hnodes]
      have := nodes_insert_mem entry ofs hwf.2.1 0 (by decide) m
      unfold index_rows at this
      rw [this]
      constructor
      · rintro (h | h)
        · exact Or.inl h
        · exact Or.inr h.1
      · rintro (h | h)
        · exact Or.inl h
        · exact Or.inr ⟨h, fun hh => hmiss m h hh.1⟩
    · intro m
      unfold live_nodes table_to_array_by_index
      rw [hnodes]
      have := nodes_insert_mem entry ofs hwf.2.1 1 (by decide) m
      unfold index_rows at this
      rw [this]
      constructor
      · rintro (h | h)
        · exact Or.inl h
        · exact Or.inr h.1
      · rintro (h | h)
        · exact Or.inl h
        · exact Or.inr ⟨h, fun hh => hmiss m ((hlive m).mp h) hh.1⟩
  · rintro ⟨f, hf, hp, hn⟩
    have hcase := move_helper_taken ofs entry f hwf.2.1 hf hp hn
    rcases hcase with e | e
    · have hstep := load_step_move_fail ofs dev cursor entry hop hbody hchk
        (by rw [e]; show (-EEXIST : Int) ≠ 0; decide)
      rw [e] at hstep
      refine ⟨-EEXIST, Or.inl rfl, hstep, ?_⟩
      rw [load_loop, hstep]
      rfl
    · have hstep := load_step_move_fail ofs dev cursor entry hop hbody hchk
        (by rw [e]; show (-EINVAL : Int) ≠ 0; decide)
      rw [e] at hstep
      refine ⟨-EINVAL, Or.inr rfl, hstep, ?_⟩
      rw [load_loop, hstep]
      rfl

/-- Witness of C33 (amended): the replay of the MOVE block of the container
of the scenario on the engine `oncefs_init` sets up, whose nodes table is
empty, returns OK, records the block and inserts the row of `/foo`. -/
theorem c33_replay_move_witness :
    ∃ ofs1, load_step (oncefs_init_state (some c33_container)) c33_container
        { block := 3, tag := { seq := 3, operation := BLOCK_OPERATION_MOVE } } = some (0, ofs1) ∧
      load_loop c33_container
          [{ block := 3, tag := { seq := 3, operation := BLOCK_OPERATION_MOVE } }]
          (oncefs_init_state (some c33_container))
        = load_loop c33_container [] ofs1 ∧
      ({ block := 3, tag := (c33_container.buffer.getD 3 default).tag,
         data := { node := 1, fill := 0, offset := 0 } } : oncefs_block_t) ∈ live_blocks ofs1 ∧
      (∀ m, m ∈ primary_nodes ofs1 ↔
        (m = { node := 1, parent := 0, type := NODE_TYPE_FILE, last_access := 10,
               last_modification := 10, mode := 0, name := "foo".toList } ∨
          m ∈ primary_nodes (oncefs_init_state (some c33_container)))) ∧
      (∀ m, m ∈ live_nodes ofs1 ↔
        (m = { node := 1, parent := 0, type := NODE_TYPE_FILE, last_access := 10,
               last_modification := 10, mode := 0, name := "foo".toList } ∨
          m ∈ live_nodes (oncefs_init_state (some c33_container)))) :=
  (c33_replay_move (oncefs_init_state (some c33_container)) c33_container
    { block := 3, tag := { seq := 3, operation := BLOCK_OPERATION_MOVE } } []
    { node := 1, parent := 0, type := NODE_TYPE_FILE, last_access := 10,
      last_modification := 10, mode := 0, name := "foo".toList }
    (init_state_wf _) (by decide) (by decide) (by decide) (by decide)).1 (by decide)

/-- `_oncefs_create_block` that returns NO_SPACE returns it on every engine
with the same blocks table and the same block counters, and leaves that
engine as it is. -/
theorem create_block_no_space (ofs s : oncefs_t) (operation : Int) (node : Nat)
    (hb : s.blocks = ofs.blocks) (hn : s.next_block_id = ofs.next_block_id)
    (hl : s.last_block_id = ofs.last_block_id)
    (h : (_oncefs_create_block ofs operation node 0 0).1 = -ENOSPC) :
    _oncefs_create_block s operation node 0 0 = (-ENOSPC, s, default) := by
  have hreuse : _oncefs_block_reuse s node = _oncefs_block_reuse ofs node := by
    unfold _oncefs_block_reuse
    rw [hb]
  unfold _oncefs_create_block at h ⊢
  rw [hn, hl, hreuse]
  by_cases hc : ofs.next_block_id ≤ ofs.last_block_id
  · rw [if_pos hc, create_block_tail_rc] at h
    exact absurd h (by decide)
  · rw [if_neg hc] at h ⊢
    by_cases hr : (_oncefs_block_reuse ofs node).1 ≠ 0
    · rw [if_pos hr] at h ⊢
      dsimp only at h
      rw [h]
    · rw [if_neg hr, create_block_tail_rc] at h
      exact absurd h (by decide)

/-- The body of `oncefs_set_file` and `oncefs_set_dir` on a path that does
not exist yet, directly under the directory `parent`, when the allocation of
the block returns NO_SPACE: NO_SPACE, and the engine with the row inserted
and `next_node_id` incremented. -/
theorem set_node_no_space (ofs : oncefs_t) (path : List Char) (type : Int) (now : Nat × Nat)
    (parent : oncefs_node_t) (hfresh : fresh_path ofs path)
    (hpar : _oncefs_resolve_node ofs (dirname path) = some (0, parent))
    (hns : (_oncefs_create_block ofs BLOCK_OPERATION_NODE (ofs.next_node_id % 2 ^ 32) 0 0).1
      = -ENOSPC) :
    set_node ofs path type now
      = some (-ENOSPC,
          { (_oncefs_reserve_node_id ofs).2 with
            nodes := (table_insert_or_replace ofs.nodes
              { node := ofs.next_node_id % 2 ^ 32, parent := parent.node, type := type,
                last_access := now.1, last_modification := now.2, mode := 0,
                name := basename path }).2 }) := by
  unfold set_node
  rw [init_node_fresh_entry ofs path type now parent hfresh hpar]
  dsimp only
  rw [if_neg (by decide), if_neg (by rw [table_insert_or_replace_rc]; decide)]
  have hcb := create_block_no_space ofs
    { (_oncefs_reserve_node_id ofs).2 with
      nodes := (table_insert_or_replace ofs.nodes
        { node := ofs.next_node_id % 2 ^ 32, parent := parent.node, type := type,
          last_access := now.1, last_modification := now.2, mode := 0,
          name := basename path }).2 }
    BLOCK_OPERATION_NODE (ofs.next_node_id % 2 ^ 32) rfl rfl rfl hns
  unfold _oncefs_reserve_node_id at hcb
  unfold write_node_block
  dsimp only at hcb ⊢
  rw [hcb]
  rfl

/-- The nodes after a row with a node id no live node has is inserted under
the directory `parent` with the last component of a path that does not exist
yet: the live rows are the new row and the rows there were, and the path
resolves to the new row. -/
theorem insert_fresh_resolve (ofs ofs1 : oncefs_t) (path : List Char) (entry : oncefs_node_t)
    (parent : oncefs_node_t) (hwf : nodes_wf ofs) (hu : unique_names ofs)
    (hfresh : fresh_path ofs path)
    (hpar : _oncefs_resolve_node ofs (dirname path) = some (0, parent))
    (hsplit : '/' ∈ strip_slashes path)
    (hid : ∀ m ∈ live_nodes ofs, m.node ≠ entry.node)
    (hep : entry.parent = parent.node) (hen : entry.name = basename path)
    (hnodes : ofs1.nodes = (table_insert_or_replace ofs.nodes entry).2)
    (htime : ofs1.time = ofs.time) :
    nodes_wf ofs1 ∧
    (∀ m, m ∈ live_nodes ofs1 ↔ (m = entry ∨ m ∈ live_nodes ofs)) ∧
    (∀ m, m ∈ primary_nodes ofs1 ↔ (m = entry ∨ m ∈ primary_nodes ofs)) ∧
    _oncefs_resolve_node ofs1 path = some (0, entry) := by
  have hwf1 : nodes_wf ofs1 := nodes_wf_insert ofs ofs1 entry hwf hnodes
  have hidp : ∀ m ∈ primary_nodes ofs, m.node ≠ entry.node :=
    fun m hm => hid m ((live_nodes_perm ofs hwf).mem_iff.mpr hm)
  have hlive : ∀ m, m ∈ live_nodes ofs1 ↔ (m = entry ∨ m ∈ live_nodes ofs) := fun m => by
    show m ∈ index_rows ofs1.nodes.rows (table_index ofs1.nodes 1) ↔ _
    rw [hnodes, nodes_insert_mem entry ofs hwf 1 (by omega) m]
    constructor
    · rintro (e | ⟨e, -⟩)
      · exact Or.inl e
      · exact Or.inr e
    · rintro (e | e)
      · exact Or.inl e
      · exact Or.inr ⟨e, fun hk => hid m e hk.1⟩
  have hprim : ∀ m, m ∈ primary_nodes ofs1 ↔ (m = entry ∨ m ∈ primary_nodes ofs) :=
    fun m => by
    show m ∈ index_rows ofs1.nodes.rows (table_index ofs1.nodes 0) ↔ _
    rw [hnodes, nodes_insert_mem entry ofs hwf 0 (by omega) m]
    constructor
    · rintro (e | ⟨e, -⟩)
      · exact Or.inl e
      · exact Or.inr e
    · rintro (e | e)
      · exact Or.inl e
      · exact Or.inr ⟨e, fun hk => hidp m e hk.1⟩
  refine ⟨hwf1, hlive, hprim, ?_⟩
  obtain ⟨htok, hroot⟩ := path_tokens_dirname path hsplit
  have hwalk0 := walk_of_resolve ofs (dirname path) parent hpar
  have hpdir : parent.type = NODE_TYPE_DIR := by
    have := hfresh.2.1
    rw [hpar] at this
    simpa using this
  have hlen : (basename path).length ≤ ONCEFS_NAME_MAX_SIZE := by
    have := hfresh.2.2
    omega
  have hfail : (lookup_segment ofs parent.node (basename path)).1 ≠ 0 := by
    intro hz
    have h1 := hfresh.1
    rw [resolve_at ofs path _ (basename path) [] parent hroot htok hwalk0,
      resolve_loop_found ofs (basename path) [] parent _ hpdir hlen hz] at h1
    have h2 : (0 : Int) = -ENOENT := Option.some.inj h1
    exact absurd h2 (by decide)
  have hroot1 : root_node ofs1 = root_node ofs := by
    unfold root_node; rw [htime]
  have hrows := walk_rows_child ofs hwf (path_tokens (dirname path)) (root_node ofs) parent
    hwalk0
  have hwalk1 : walk_segments ofs1 (path_tokens (dirname path)) (root_node ofs)
      = some parent :=
    walk_stable ofs ofs1 hwf hwf1 hu (path_tokens (dirname path)) (root_node ofs) parent
      hwalk0 (fun x hx => (hlive x).mpr (Or.inr (hrows x hx).1))
      (fun x hx m hm hp hn => by
        rcases (hlive m).mp hm with e | e
        · exfalso
          apply hfail
          refine (lookup_segment_spec ofs hwf parent.node (basename path)).1.mpr
            ⟨x, (hrows x hx).1, ?_, ?_⟩
          · rw [← hp, e, hep]
          · rw [← hn, e, hen]
        · exact e)
  obtain ⟨hs1, hs2⟩ := lookup_segment_spec ofs1 hwf1 parent.node (basename path)
  have hrc1 : (lookup_segment ofs1 parent.node (basename path)).1 = 0 :=
    hs1.mpr ⟨entry, (hlive _).mpr (Or.inl rfl), hep, hen⟩
  obtain ⟨hy, hyp, hyn⟩ := hs2 hrc1
  have hrow : (lookup_segment ofs1 parent.node (basename path)).2 = entry := by
    rcases (hlive _).mp hy with e | e
    · exact e
    · exact absurd ((lookup_segment_spec ofs hwf parent.node (basename path)).1.mpr
        ⟨_, e, hyp, hyn⟩) hfail
  rw [← hroot1] at hwalk1
  rw [resolve_at ofs1 path _ (basename path) [] parent hroot htok hwalk1,
    resolve_loop_found ofs1 (basename path) [] parent _ hpdir hlen hrc1, hrow]
  rfl

/-- The body of `oncefs_set_file` and `oncefs_set_dir` on a path that
resolves to a node returns EXISTS and the engine as it was. -/
theorem set_node_exists (ofs : oncefs_t) (path : List Char) (type : Int) (now : Nat × Nat)
    (node : oncefs_node_t) (hroot : path ≠ ['/'])
    (h : _oncefs_resolve_node ofs path = some (0, node)) :
    set_node ofs path type now = some (-EEXIST, ofs) := by
  unfold set_node
  rw [init_node_exists ofs path type now node hroot h]
  rfl

/-- C37 (failed create and retry, on a path of one component without a
leading slash).  The container has one usable block, which holds the NODE
block of the directory `/.` (node `1`).  `set_file("a")` passes the path
checks (the path resolves to NOT_FOUND and its `dirname`, `"."`, to the
directory) and returns NO_SPACE; the row of node `2` has been inserted under
node `1` and `next_node_id` is `3`, but `"a"` still resolves to NOT_FOUND,
and the retry does not return EXISTS: it returns NO_SPACE again, having
inserted a second row with the same parent and name, of node `3`. -/
theorem c37_retry_inserts_duplicate_row :
    fresh_path (engine_after 512 2 [op_t.set_dir "/.".toList (10, 10)]) "a".toList ∧
    (oncefs_set_file (engine_after 512 2 [op_t.set_dir "/.".toList (10, 10)]) "a".toList
        (11, 11)).map (fun r => (r.1, r.2.next_node_id,
          (live_nodes r.2).map (fun n => (n.node, n.parent, n.type, n.name))))
      = some (-ENOSPC, 3,
          [(1, 0, NODE_TYPE_DIR, ".".toList), (2, 1, NODE_TYPE_FILE, "a".toList)]) ∧
    ((oncefs_set_file (engine_after 512 2 [op_t.set_dir "/.".toList (10, 10)]) "a".toList
        (11, 11)).bind (fun r => _oncefs_resolve_node r.2 "a".toList)).map (fun q => q.1)
      = some (-ENOENT) ∧
    ((oncefs_set_file (engine_after 512 2 [op_t.set_dir "/.".toList (10, 10)]) "a".toList
        (11, 11)).bind (fun r => oncefs_set_file r.2 "a".toList (12, 12))).map
        (fun q => (q.1, q.2.next_node_id,
          (live_nodes q.2).map (fun n => (n.node, n.parent, n.type, n.name))))
      = some (-ENOSPC, 4,
          [(1, 0, NODE_TYPE_DIR, ".".toList), (3, 1, NODE_TYPE_FILE, "a".toList),
           (2, 1, NODE_TYPE_FILE, "a".toList)]) :=
  ⟨by decide, by rfl, by rfl, by rfl⟩

/-- A failed create on a path with a directory part.  On an engine state
satisfying the invariant, with unique names and a next node id no live node
has, let `path` have a slash before its last component, not exist yet and
lie directly under the directory `parent`, and let the allocation of a block
for the new node return NO_SPACE.  Then `set_file` and `set_dir` return
NO_SPACE, and the engine they leave differs from the one before in the nodes
table and `next_node_id` only: the row of the new node has been inserted
into both indexes next to the rows there were, and `next_node_id` is one
more.  In that engine the path resolves to the new row, and a retry of
either create returns EXISTS and leaves the engine as it is. -/
theorem failed_create_leaves_row (ofs : oncefs_t) (path : List Char) (now again : Nat × Nat)
    (parent : oncefs_node_t) (hwf : engine_wf ofs) (hu : unique_names ofs)
    (hfresh : fresh_path ofs path)
    (hpar : _oncefs_resolve_node ofs (dirname path) = some (0, parent))
    (hsplit : '/' ∈ strip_slashes path)
    (hid : ∀ m ∈ live_nodes ofs, m.node ≠ ofs.next_node_id % 2 ^ 32)
    (hns : (_oncefs_create_block ofs BLOCK_OPERATION_NODE (ofs.next_node_id % 2 ^ 32) 0 0).1
      = -ENOSPC) :
    ∀ type : Int, type = NODE_TYPE_FILE ∨ type = NODE_TYPE_DIR →
      ∃ ofs1,
        (if type = NODE_TYPE_FILE then oncefs_set_file ofs path now
          else oncefs_set_dir ofs path now) = some (-ENOSPC, ofs1) ∧
        ofs1.next_node_id = ofs.next_node_id + 1 ∧
        ofs1.blocks = ofs.blocks ∧ ofs1.next_block_id = ofs.next_block_id ∧
        ofs1.next_seq_id = ofs.next_seq_id ∧ ofs1.io = ofs.io ∧
        (∀ m, m ∈ live_nodes ofs1 ↔
          (m = { node := ofs.next_node_id % 2 ^ 32, parent := parent.node, type := type,
                 last_access := now.1, last_modification := now.2, mode := 0,
                 name := basename path } ∨ m ∈ live_nodes ofs)) ∧
        (∀ m, m ∈ primary_nodes ofs1 ↔
          (m = { node := ofs.next_node_id % 2 ^ 32, parent := parent.node, type := type,
                 last_access := now.1, last_modification := now.2, mode := 0,
                 name := basename path } ∨ m ∈ primary_nodes ofs)) ∧
        _oncefs_resolve_node ofs1 path
          = some (0, { node := ofs.next_node_id % 2 ^ 32, parent := parent.node,
                       type := type, last_access := now.1, last_modification := now.2,
                       mode := 0, name := basename path }) ∧
        oncefs_set_file ofs1 path again = some (-EEXIST, ofs1) ∧
        oncefs_set_dir ofs1 path again = some (-EEXIST, ofs1) := by
  intro type htype
  have hset := set_node_no_space ofs path type now parent hfresh hpar hns
  obtain ⟨-, hlive, hprim, hres⟩ := insert_fresh_resolve ofs
    { (_oncefs_reserve_node_id ofs).2 with
      nodes := (table_insert_or_replace ofs.nodes
        { node := ofs.next_node_id % 2 ^ 32, parent := parent.node, type := type,
          last_access := now.1, last_modification := now.2, mode := 0,
          name := basename path }).2 }
    path
    { node := ofs.next_node_id % 2 ^ 32, parent := parent.node, type := type,
      last_access := now.1, last_modification := now.2, mode := 0,
      name := basename path }
    parent hwf.2.1 hu hfresh hpar hsplit hid rfl rfl rfl rfl
  refine ⟨{ (_oncefs_reserve_node_id ofs).2 with
      nodes := (table_insert_or_replace ofs.nodes
        { node := ofs.next_node_id % 2 ^ 32, parent := parent.node, type := type,
          last_access := now.1, last_modification := now.2, mode := 0,
          name := basename path }).2 }, ?_, rfl, rfl, rfl, rfl, rfl, hlive, hprim, hres,
    set_node_exists _ path NODE_TYPE_FILE again _ (path_tokens_dirname path hsplit).2 hres,
    set_node_exists _ path NODE_TYPE_DIR again _ (path_tokens_dirname path hsplit).2 hres⟩
  rcases htype with e | e
  · rw [if_pos e]
    rw [e] at hset ⊢
    exact hset
  · rw [if_neg (by rw [e]; decide)]
    rw [e] at hset ⊢
    exact hset

/-- On a container with one usable block, which holds the NODE block of the
directory `/d`, `set_file("/d/a")` and `set_dir("/d/a")` return NO_SPACE
with the row of node `2` inserted, and the retry returns EXISTS. -/
theorem failed_create_leaves_row_example :
    fresh_path (engine_after 512 2 c37_setup) "/d/a".toList ∧
    (_oncefs_create_block (engine_after 512 2 c37_setup) BLOCK_OPERATION_NODE
      ((engine_after 512 2 c37_setup).next_node_id % 2 ^ 32) 0 0).1 = -ENOSPC ∧
    ∀ type : Int, type = NODE_TYPE_FILE ∨ type = NODE_TYPE_DIR →
      ∃ ofs1,
        (if type = NODE_TYPE_FILE then
            oncefs_set_file (engine_after 512 2 c37_setup) "/d/a".toList (11, 11)
          else oncefs_set_dir (engine_after 512 2 c37_setup) "/d/a".toList (11, 11))
          = some (-ENOSPC, ofs1) ∧
        ofs1.next_node_id = (engine_after 512 2 c37_setup).next_node_id + 1 ∧
        ofs1.blocks = (engine_after 512 2 c37_setup).blocks ∧
        ofs1.next_block_id = (engine_after 512 2 c37_setup).next_block_id ∧
        ofs1.next_seq_id = (engine_after 512 2 c37_setup).next_seq_id ∧
        ofs1.io = (engine_after 512 2 c37_setup).io ∧
        (∀ m, m ∈ live_nodes ofs1 ↔
          (m = { node := (engine_after 512 2 c37_setup).next_node_id % 2 ^ 32,
                 parent := 1, type := type,
                 last_access := 11, last_modification := 11, mode := 0,
                 name := basename "/d/a".toList } ∨
           m ∈ live_nodes (engine_after 512 2 c37_setup))) ∧
        (∀ m, m ∈ primary_nodes ofs1 ↔
          (m = { node := (engine_after 512 2 c37_setup).next_node_id % 2 ^ 32,
                 parent := 1, type := type,
                 last_access := 11, last_modification := 11, mode := 0,
                 name := basename "/d/a".toList } ∨
           m ∈ primary_nodes (engine_after 512 2 c37_setup))) ∧
        _oncefs_resolve_node ofs1 "/d/a".toList
          = some (0, { node := (engine_after 512 2 c37_setup).next_node_id % 2 ^ 32,
                       parent := 1, type := type, last_access := 11,
                       last_modification := 11, mode := 0,
                       name := basename "/d/a".toList }) ∧
        oncefs_set_file ofs1 "/d/a".toList (12, 12) = some (-EEXIST, ofs1) ∧
        oncefs_set_dir ofs1 "/d/a".toList (12, 12) = some (-EEXIST, ofs1) :=
  ⟨by decide, by decide,
    failed_create_leaves_row (engine_after 512 2 c37_setup) "/d/a".toList (11, 11) (12, 12)
      { node := 1, parent := 0, type := NODE_TYPE_DIR, last_access := 10,
        last_modification := 10, mode := 0, name := "d".toList }
      (reachable_engine_wf _ (engine_after_reachable 512 2 _ (by decide) (by decide)))
      (by decide) (by decide) (by decide) (by decide) (by decide) (by decide)⟩

/-- Two live nodes of a well-formed nodes table with the same node id and
type are the same row. -/
theorem live_nodes_key_eq (ofs : oncefs_t) (hwf : nodes_wf ofs) (a b : oncefs_node_t)
    (ha : a ∈ live_nodes ofs) (hb : b ∈ live_nodes ofs) (hn : a.node = b.node)
    (ht : a.type = b.type) : a = b := by
  by_contra hne
  obtain ⟨-, hc, -, -⟩ := nodes_wf_indexes ofs hwf
  have hp := hwf.2.2.2
  rw [hc] at hp
  have hsym : Symmetric (fun a b : oncefs_node_t => _oncefs_node_cmp_primary a b ≠ 0) := by
    intro x y hxy h
    apply hxy
    have := (node_primary_eq_zero y x).mp h
    exact (node_primary_eq_zero x y).mpr ⟨this.1.symm, this.2.symm⟩
  have ha1 : a ∈ index_rows ofs.nodes.rows (table_index ofs.nodes 0) :=
    (live_nodes_perm ofs hwf).mem_iff.mp ha
  have hb1 : b ∈ index_rows ofs.nodes.rows (table_index ofs.nodes 0) :=
    (live_nodes_perm ofs hwf).mem_iff.mp hb
  exact (List.Pairwise.forall hsym hp ha1 hb1 hne)
    ((node_primary_eq_zero a b).mpr ⟨hn.symm, ht.symm⟩)

/-- The node a walk along at least one segment ends in is one of the rows it
finds. -/
theorem walk_rows_last (ofs : oncefs_t) :
    ∀ (D : List (List Char)) (prev r : oncefs_node_t), D ≠ [] →
      walk_segments ofs D prev = some r → r ∈ walk_rows ofs D prev := by
  intro D
  induction D with
  | nil => intro prev r h; exact absurd rfl h
  | cons seg D ih =>
    intro prev r _ h
    unfold walk_segments at h
    unfold walk_rows
    by_cases hc : prev.type = NODE_TYPE_DIR ∧ seg.length ≤ ONCEFS_NAME_MAX_SIZE ∧
        (lookup_segment ofs prev.node seg).1 = 0
    · rw [if_pos hc] at h ⊢
      cases D with
      | nil =>
        unfold walk_segments at h
        rw [Option.some.inj h]
        exact List.mem_cons_self _ _
      | cons seg2 D2 =>
        exact List.mem_cons_of_mem _ (ih _ r (by simp) h)
    · rw [if_neg hc] at h
      cases h

/-- The lookups after the row of `node` has been replaced by the row with
the node itself as parent and the name `x`, a name no live node had under
the node: the old `(parent, name)` of the node is not found any more, and a
lookup that found another row finds it as before. -/
theorem lookup_after_self_move (ofs ofs1 : oncefs_t) (node : oncefs_node_t) (x : List Char)
    (hwf : nodes_wf ofs) (hwf1 : nodes_wf ofs1) (hu : unique_names ofs)
    (hnode : node ∈ live_nodes ofs)
    (habs : ∀ n ∈ live_nodes ofs, ¬ (n.parent = node.node ∧ n.name = x))
    (hmem : ∀ m, m ∈ live_nodes ofs1 ↔
      (m = { node with parent := node.node, name := x } ∨
        (m ∈ live_nodes ofs ∧ ¬ (m.node = node.node ∧ m.type = node.type)))) :
    (lookup_segment ofs1 node.parent node.name).1 ≠ 0 ∧
    ∀ (parent : Nat) (name : List Char), (lookup_segment ofs parent name).1 = 0 →
      (lookup_segment ofs parent name).2 ≠ node →
      lookup_segment ofs1 parent name = lookup_segment ofs parent name := by
  constructor
  · intro h0
    obtain ⟨hy, hyp, hyn⟩ := (lookup_segment_spec ofs1 hwf1 node.parent node.name).2 h0
    rcases (hmem _).mp hy with e | ⟨e, hk⟩
    · rw [e] at hyp hyn
      exact habs node hnode ⟨hyp.symm, hyn.symm⟩
    · have := unique_names_eq ofs hu _ _ e hnode hyp hyn
      rw [this] at hk
      exact hk ⟨rfl, rfl⟩
  · intro parent name h0 hne
    obtain ⟨hy, hyp, hyn⟩ := (lookup_segment_spec ofs hwf parent name).2 h0
    refine lookup_stable ofs ofs1 hwf hwf1 hu parent name h0 ?_ ?_
    · exact (hmem _).mpr (Or.inr ⟨hy, fun hk =>
        hne (live_nodes_key_eq ofs hwf _ _ hy hnode hk.1 hk.2)⟩)
    · intro m hm hp hn
      rcases (hmem m).mp hm with e | ⟨e, -⟩
      · exfalso
        rw [e] at hp hn
        exact habs _ hy ⟨by rw [hyp]; exact hp.symm, by rw [hyn]; exact hn.symm⟩
      · exact e

/-- The loop of `_oncefs_resolve_node` after the row of `node` has been
replaced by the row with the node itself as parent: along segments whose
walk went through the row of `node`, whatever segments follow, it returns
NOT_FOUND. -/
theorem resolve_loop_after_self_move (ofs ofs1 : oncefs_t) (node : oncefs_node_t)
    (hwf : nodes_wf ofs)
    (hgone : (lookup_segment ofs1 node.parent node.name).1 ≠ 0)
    (hsame : ∀ (parent : Nat) (name : List Char), (lookup_segment ofs parent name).1 = 0 →
      (lookup_segment ofs parent name).2 ≠ node →
      lookup_segment ofs1 parent name = lookup_segment ofs parent name) :
    ∀ (D post : List (List Char)) (prev tmp r : oncefs_node_t),
      walk_segments ofs D prev = some r → node ∈ walk_rows ofs D prev →
      (resolve_loop ofs1 (D ++ post) prev.node prev.type tmp).1 = -ENOENT := by
  intro D
  induction D with
  | nil =>
    intro post prev tmp r _ hx
    unfold walk_rows at hx
    cases hx
  | cons seg D ih =>
    intro post prev tmp r h hx
    unfold walk_segments at h
    unfold walk_rows at hx
    by_cases hc : prev.type = NODE_TYPE_DIR ∧ seg.length ≤ ONCEFS_NAME_MAX_SIZE ∧
        (lookup_segment ofs prev.node seg).1 = 0
    · rw [if_pos hc] at h hx
      obtain ⟨-, hyp, hyn⟩ := (lookup_segment_spec ofs hwf prev.node seg).2 hc.2.2
      rw [List.cons_append]
      by_cases hy : (lookup_segment ofs prev.node seg).2 = node
      · have hfail : (lookup_segment ofs1 prev.node seg).1 ≠ 0 := by
          have e1 : prev.node = node.parent := by rw [← hy]; exact hyp.symm
          have e2 : seg = node.name := by rw [← hy]; exact hyn.symm
          rw [e1, e2]
          exact hgone
        rw [resolve_loop_missing ofs1 seg (D ++ post) prev tmp hc.1 hc.2.1 hfail]
      · have heq := hsame prev.node seg hc.2.2 hy
        have hrc1 : (lookup_segment ofs1 prev.node seg).1 = 0 := by rw [heq]; exact hc.2.2
        rw [resolve_loop_found ofs1 seg (D ++ post) prev tmp hc.1 hc.2.1 hrc1, heq]
        refine ih post _ _ r h ?_
        rcases List.mem_cons.mp hx with e | e
        · exact absurd e.symm hy
        · exact e
    · rw [if_neg hc] at hx
      cases hx

/-- Path resolution after the row of `node` has been replaced by the row with
the node itself as parent: a path whose tokens start with the tokens of a
path that resolved to `node` resolves to NOT_FOUND. -/
theorem resolve_after_self_move (ofs ofs1 : oncefs_t) (node : oncefs_node_t)
    (hwf : nodes_wf ofs)
    (hgone : (lookup_segment ofs1 node.parent node.name).1 ≠ 0)
    (hsame : ∀ (parent : Nat) (name : List Char), (lookup_segment ofs parent name).1 = 0 →
      (lookup_segment ofs parent name).2 ≠ node →
      lookup_segment ofs1 parent name = lookup_segment ofs parent name)
    (p q : List Char) (post : List (List Char))
    (hres : _oncefs_resolve_node ofs p = some (0, node)) (hp : p ≠ ['/'])
    (hq : path_tokens q = path_tokens p ++ post) :
    (_oncefs_resolve_node ofs1 q).map (fun r => r.1) = some (-ENOENT) := by
  have htp : path_tokens p ≠ [] := by
    intro e
    unfold _oncefs_resolve_node at hres
    rw [if_neg hp, if_pos e] at hres
    cases hres
  have hwalk := walk_of_resolve ofs p node hres
  have hin := walk_rows_last ofs (path_tokens p) (root_node ofs) node htp hwalk
  have htq : path_tokens q ≠ [] := by
    rw [hq]
    intro e
    exact htp (List.append_eq_nil.mp e).1
  have hq1 : q ≠ ['/'] := by
    intro e
    rw [e] at htq
    exact htq (by decide)
  unfold _oncefs_resolve_node
  rw [if_neg hq1, if_neg htq, Option.map_some', hq]
  exact congrArg some
    (resolve_loop_after_self_move ofs ofs1 node hwf hgone hsame (path_tokens p) post
      (root_node ofs) default node hwalk hin)

/-- C39, as stated, fails on a full container.  The container has one usable
block; the directory `/d` has been created and renamed to `/e`, and the
MOVE block has taken over its NODE block, so that no block of the node can
be reused.  `/e` resolves to the DIR, no node is under it, and
`move_node("/e", "/e/x")` returns NO_SPACE, not OK; the row has got the
node itself as parent and the name `x` all the same. -/
theorem c39_counterexample :
    (_oncefs_resolve_node (engine_after 512 2 c39_full) "/e".toList).map
        (fun r => (r.1, r.2.node, r.2.type)) = some (0, 1, NODE_TYPE_DIR) ∧
    (live_nodes (engine_after 512 2 c39_full)).map (fun n => (n.node, n.parent, n.name))
      = [(1, 0, "e".toList)] ∧
    (live_blocks (engine_after 512 2 c39_full)).map
        (fun b => (b.block, b.tag.operation, b.data.node))
      = [(1, BLOCK_OPERATION_MOVE, 1)] ∧
    (oncefs_move_node (engine_after 512 2 c39_full) "/e".toList "/e/x".toList).map
        (fun r => (r.1, (live_nodes r.2).map (fun n => (n.node, n.parent, n.name))))
      = some (-ENOSPC, [(1, 1, "x".toList)]) := by
  refine ⟨?_, ?_, ?_, ?_⟩ <;> rfl

/-- C39 (amended).  On an engine state satisfying the invariant, with unique
names, an unused block at the tail of a container of fewer than `2^32`
blocks whose blocks hold a node record: let `d`, a path with a slash before
its last component, resolve to the DIR `node`, and let `dst` be a path whose
directory part, other than `"/"`, resolves to `node` as well and whose last
component, shorter than 256 bytes, is the name of no live node under
`node`.  Then `move_node(d, dst)` returns OK; the row of `node` is replaced
by the row with the node itself as parent and the last component of `dst` as
name, and every other row stays; afterwards `d` and `dst` resolve to
NOT_FOUND, and so does every path whose tokens start with the tokens of a
path that resolved to `node`. -/
theorem c39_move_into_own_subtree (ofs : oncefs_t) (d dst : List Char) (node : oncefs_node_t)
    (hwf : engine_wf ofs) (hu : unique_names ofs)
    (hres : _oncefs_resolve_node ofs d = some (0, node))
    (hdir : node.type = NODE_TYPE_DIR)
    (hss : '/' ∈ strip_slashes d)
    (hpar : _oncefs_resolve_node ofs (dirname dst) = some (0, node))
    (hdd : dirname dst ≠ ['/'])
    (hds : '/' ∈ strip_slashes dst)
    (hbase : (basename dst).length < ONCEFS_NAME_MAX_SIZE)
    (habs : ∀ n ∈ live_nodes ofs, ¬ (n.parent = node.node ∧ n.name = basename dst))
    (hroom : ofs.next_block_id ≤ ofs.last_block_id) (hL : ofs.last_block_id < 2 ^ 32)
    (hsz : ∀ dev, ofs.io = some dev → SIZEOF_TAG + SIZEOF_NODE ≤ dev.block_size) :
    ∃ ofs1, oncefs_move_node ofs d dst = some (0, ofs1) ∧
      (∀ m, m ∈ live_nodes ofs1 ↔
        (m = { node with parent := node.node, name := basename dst } ∨
          (m ∈ live_nodes ofs ∧ ¬ (m.node = node.node ∧ m.type = node.type)))) ∧
      (∀ m, m ∈ primary_nodes ofs1 ↔
        (m = { node with parent := node.node, name := basename dst } ∨
          (m ∈ primary_nodes ofs ∧ ¬ (m.node = node.node ∧ m.type = node.type)))) ∧
      (∀ m ∈ live_nodes ofs, m ≠ node → m ∈ live_nodes ofs1) ∧
      (_oncefs_resolve_node ofs1 d).map (fun r => r.1) = some (-ENOENT) ∧
      (_oncefs_resolve_node ofs1 dst).map (fun r => r.1) = some (-ENOENT) ∧
      (∀ (p q : List Char) (post : List (List Char)),
        _oncefs_resolve_node ofs p = some (0, node) → p ≠ ['/'] →
        path_tokens q = path_tokens p ++ post →
        (_oncefs_resolve_node ofs1 q).map (fun r => r.1) = some (-ENOENT)) := by
  obtain ⟨htokd, hroot⟩ := path_tokens_dirname d hss
  obtain ⟨htokdst, -⟩ := path_tokens_dirname dst hds
  obtain ⟨ofs1, hmv, hwf1, -, hnodes, -⟩ :=
    move_node_absent_rows ofs d dst node node hwf hres hroot hpar hdir hbase habs hroom hL hsz
  have htp : path_tokens d ≠ [] := by
    rw [htokd]
    simp
  have hnode : node ∈ live_nodes ofs :=
    (walk_rows_child ofs hwf.2.1 (path_tokens d) (root_node ofs) node
      (walk_of_resolve ofs d node hres) node
      (walk_rows_last ofs (path_tokens d) (root_node ofs) node htp
        (walk_of_resolve ofs d node hres))).1
  have hlive : ∀ m, m ∈ live_nodes ofs1 ↔
      (m = { node with parent := node.node, name := basename dst } ∨
        (m ∈ live_nodes ofs ∧ ¬ (m.node = node.node ∧ m.type = node.type))) := fun m => by
    show m ∈ index_rows ofs1.nodes.rows (table_index ofs1.nodes 1) ↔ _
    rw [hnodes]
    exact nodes_insert_mem _ ofs hwf.2.1 1 (by omega) m
  have hprim : ∀ m, m ∈ primary_nodes ofs1 ↔
      (m = { node with parent := node.node, name := basename dst } ∨
        (m ∈ primary_nodes ofs ∧ ¬ (m.node = node.node ∧ m.type = node.type))) := fun m => by
    show m ∈ index_rows ofs1.nodes.rows (table_index ofs1.nodes 0) ↔ _
    rw [hnodes]
    exact nodes_insert_mem _ ofs hwf.2.1 0 (by omega) m
  obtain ⟨hgone, hsame⟩ := lookup_after_self_move ofs ofs1 node (basename dst) hwf.2.1
    hwf1.2.1 hu hnode habs hlive
  refine ⟨ofs1, hmv, hlive, hprim, ?_, ?_, ?_, ?_⟩
  · intro m hm hne
    exact (hlive m).mpr (Or.inr ⟨hm, fun hk =>
      hne (live_nodes_key_eq ofs hwf.2.1 m node hm hnode hk.1 hk.2)⟩)
  · exact resolve_after_self_move ofs ofs1 node hwf.2.1 hgone hsame d d [] hres hroot
      (List.append_nil _).symm
  · exact resolve_after_self_move ofs ofs1 node hwf.2.1 hgone hsame (dirname dst) dst
      [basename dst] hpar hdd htokdst
  · intro p q post hp hp1 hq
    exact resolve_after_self_move ofs ofs1 node hwf.2.1 hgone hsame p q post hp hp1 hq

/-- Witness for C39 (amended): with the directory `/d` holding the file
`/d/f`, `move_node("/d", "/d/x")` returns OK; afterwards `/d`, `/d/x` and
every path below `/d` resolve to NOT_FOUND. -/
theorem c39_move_into_own_subtree_witness :
    ∃ ofs1, oncefs_move_node (engine_after 512 8 c39_setup) "/d".toList "/d/x".toList
        = some (0, ofs1) ∧
      (∀ m, m ∈ live_nodes ofs1 ↔
        (m = { node := 1, parent := 1, type := NODE_TYPE_DIR, last_access := 10,
               last_modification := 10, mode := 0, name := basename "/d/x".toList } ∨
          (m ∈ live_nodes (engine_after 512 8 c39_setup) ∧
            ¬ (m.node = 1 ∧ m.type = NODE_TYPE_DIR)))) ∧
      (∀ m, m ∈ primary_nodes ofs1 ↔
        (m = { node := 1, parent := 1, type := NODE_TYPE_DIR, last_access := 10,
               last_modification := 10, mode := 0, name := basename "/d/x".toList } ∨
          (m ∈ primary_nodes (engine_after 512 8 c39_setup) ∧
            ¬ (m.node = 1 ∧ m.type = NODE_TYPE_DIR)))) ∧
      (∀ m ∈ live_nodes (engine_after 512 8 c39_setup),
        m ≠ { node := 1, parent := 0, type := NODE_TYPE_DIR, last_access := 10,
              last_modification := 10, mode := 0, name := "d".toList } →
        m ∈ live_nodes ofs1) ∧
      (_oncefs_resolve_node ofs1 "/d".toList).map (fun r => r.1) = some (-ENOENT) ∧
      (_oncefs_resolve_node ofs1 "/d/x".toList).map (fun r => r.1) = some (-ENOENT) ∧
      (∀ (p q : List Char) (post : List (List Char)),
        _oncefs_resolve_node (engine_after 512 8 c39_setup) p
          = some (0, { node := 1, parent := 0, type := NODE_TYPE_DIR, last_access := 10,
                       last_modification := 10, mode := 0, name := "d".toList }) →
        p ≠ ['/'] → path_tokens q = path_tokens p ++ post →
        (_oncefs_resolve_node ofs1 q).map (fun r => r.1) = some (-ENOENT)) :=
  c39_move_into_own_subtree (engine_after 512 8 c39_setup) "/d".toList "/d/x".toList
    { node := 1, parent := 0, type := NODE_TYPE_DIR, last_access := 10,
      last_modification := 10, mode := 0, name := "d".toList }
    (reachable_engine_wf _ (engine_after_reachable 512 8 _ (by decide) (by decide)))
    (by decide) (by decide) (by decide) (by decide) (by decide) (by decide) (by decide)
    (by decide) (by decide) (by decide) (by decide)
    (fun dev h => by
      rw [((reachable_engine_wf _
        (engine_after_reachable 512 8 c39_setup (by decide) (by decide))).2.2.2 dev h).2]
      decide)

/-- `table_query_last` through an index whose rows are in the order of `cmp`,
with a monotone filter that is `0` on no row of the index, does not return
`0`. -/
theorem table_query_last_none {ρ : Type} [Inhabited ρ] (table : table_t ρ) (key : ρ)
    (k : Nat) (cmp : ρ → ρ → Int) (f : ρ → ρ → Int)
    (hs : (index_rows table.rows (table_index table k)).Pairwise (fun a b => cmp a b ≤ 0))
    (hf : filter_mono cmp (f key))
    (hnone : ∀ b ∈ index_rows table.rows (table_index table k), f key b ≠ 0) :
    (table_query_last table key k (some f)).1 ≠ 0 := by
  have h := (find_index_last (array_dereference table.rows) (table_index table k) cmp f
    key hs hf).1
  have hidx : (_array_sorted_find_index (array_dereference table.rows) (table_index table k)
      (some f) key true).1 ≠ 0 := by
    intro h0
    obtain ⟨e, he, hfe⟩ := h.mp h0
    exact hnone _ (List.mem_map_of_mem _ he) hfe
  unfold table_query_last
  by_cases hk : k ≥ table.indexes.length
  · rw [if_pos hk]
    show (-EINVAL : Int) ≠ 0
    decide
  · rw [if_neg hk]
    unfold array_sorted_last _array_sorted_find_value
    dsimp only
    rw [if_pos hidx, if_pos hidx]
    exact hidx

/-- One node record written on a well-formed engine with an unused block at
the tail: OK; the nodes table and the time stay, the block counters advance
by one, and the live blocks are those there were and the new record at
`next_block_id` with the sequence number `next_seq_id`. -/
theorem write_node_block_tail (x : oncefs_t) (operation : Int) (a : oncefs_node_t)
    (hwf : engine_wf x)
    (hroom : x.next_block_id ≤ x.last_block_id) (hL : x.last_block_id < 2 ^ 32)
    (hsz : ∀ dev, x.io = some dev → SIZEOF_TAG + SIZEOF_NODE ≤ dev.block_size) :
    ∃ ofs1, write_node_block x operation a = (0, ofs1) ∧
      engine_wf ofs1 ∧ ofs1.time = x.time ∧ ofs1.nodes = x.nodes ∧
      ofs1.next_block_id = x.next_block_id + 1 ∧
      (∀ b, b ∈ live_blocks ofs1 ↔
        (b = { block := x.next_block_id,
               tag := { seq := x.next_seq_id, operation := operation },
               data := { node := a.node, fill := 0, offset := 0 } } ∨
         b ∈ live_blocks x)) := by
  obtain ⟨c1, c2, c3, c4, c5⟩ := write_node_block_counters x operation a (by omega) (by omega)
  have hok1 := write_node_block_ok x operation a hwf c5 hsz
  have hwf1 : engine_wf (write_node_block x operation a).2 :=
    write_node_block_closed _ engine_wf_step_closed x operation a hwf
  refine ⟨_, Prod.ext hok1 rfl, hwf1, c4, c3, c1, ?_⟩
  intro b
  have hlive := create_block_live x operation a.node 0 0 hwf.1 c5 b
  have hfresh := create_block_fresh x operation a.node 0 0 hroom (by omega)
  obtain ⟨-, hwb, -⟩ := write_node_block_tables x operation a
  have e : b ∈ live_blocks (write_node_block x operation a).2 ↔
      b ∈ live_blocks (_oncefs_create_block x operation a.node 0 0).2.1 := by
    show b ∈ index_rows (write_node_block _ _ _).2.blocks.rows
      (table_index (write_node_block _ _ _).2.blocks 1) ↔ _
    rw [hwb]
    rfl
  rw [e, hlive, hfresh]
  dsimp only
  constructor
  · rintro (h | ⟨h1, -⟩)
    · left; exact h
    · right; exact h1
  · rintro (h | h)
    · left; exact h
    · right
      refine ⟨h, ?_⟩
      have := hwf.2.2.1.2 b (live_blocks_subset x hwf.1 b h)
      omega

/-- `oncefs_move_node` of a FILE onto itself, on a well-formed engine with
unique names and two unused blocks at the tail: OK; the FILE is deleted,
which frees its block records and writes a DELETE block, then its row is
inserted again and a MOVE block written. -/
theorem move_node_onto_itself (ofs : oncefs_t) (p : List Char) (node parent : oncefs_node_t)
    (hwf : engine_wf ofs) (hu : unique_names ofs)
    (hres : _oncefs_resolve_node ofs p = some (0, node)) (hfile : node.type = NODE_TYPE_FILE)
    (hpar : _oncefs_resolve_node ofs (dirname p) = some (0, parent))
    (hss : '/' ∈ strip_slashes p)
    (hbase : (basename p).length < ONCEFS_NAME_MAX_SIZE)
    (hroom : ofs.next_block_id + 1 ≤ ofs.last_block_id) (hL : ofs.last_block_id < 2 ^ 32)
    (hsz : ∀ dev, ofs.io = some dev → SIZEOF_TAG + SIZEOF_NODE ≤ dev.block_size) :
    node ∈ live_nodes ofs ∧ node.parent = parent.node ∧ node.name = basename p ∧
    parent.type = NODE_TYPE_DIR ∧
    ∃ ofsd ofs1, oncefs_move_node ofs p p = some (0, ofs1) ∧ engine_wf ofs1 ∧
      ofs1.time = ofs.time ∧ engine_wf ofsd ∧
      live_nodes ofsd = (live_nodes ofs).filter (fun m => decide (m.node ≠ node.node)) ∧
      primary_nodes ofsd
        = (primary_nodes ofs).filter (fun m => decide (m.node ≠ node.node)) ∧
      ofs1.nodes = (table_insert_or_replace ofsd.nodes node).2 ∧
      ofs1.next_block_id = ofs.next_block_id + 2 ∧
      (∀ b, b ∈ live_blocks ofs1 ↔
        (b = { block := ofs.next_block_id + 1,
               tag := { seq := ofs.next_seq_id + 1, operation := BLOCK_OPERATION_MOVE },
               data := { node := node.node, fill := 0, offset := 0 } } ∨
         b = { block := ofs.next_block_id,
               tag := { seq := ofs.next_seq_id, operation := BLOCK_OPERATION_DELETE },
               data := { node := node.node, fill := 0, offset := 0 } } ∨
         ∃ b0 ∈ live_blocks ofs, b = free_node node.node b0)) := by
  obtain ⟨htok, hroot⟩ := path_tokens_dirname p hss
  have hwalk := walk_of_resolve ofs p node hres
  rw [htok] at hwalk
  obtain ⟨pd, hpd, hpddir, -, hrc, hnode⟩ := walk_segments_snoc ofs (basename p) _ _ _ hwalk
  have hpe : pd = parent := by
    have := walk_of_resolve ofs (dirname p) parent hpar
    rw [hpd] at this
    exact Option.some.inj this
  rw [hpe] at hpddir hrc hnode
  obtain ⟨hnlive, hnp, hnn⟩ := (lookup_segment_spec ofs hwf.2.1 parent.node (basename p)).2 hrc
  rw [hnode] at hnlive hnp hnn
  refine ⟨hnlive, hnp, hnn, hpddir, ?_⟩
  have hrow : ({ node with parent := parent.node, name := basename p } : oncefs_node_t)
      = node := by
    rw [← hnp, ← hnn]
  have hn : strncpy (basename p) ONCEFS_NAME_MAX_SIZE = basename p := by
    unfold strncpy
    exact List.take_of_length_le (by omega)
  have hcheck : node.type = NODE_TYPE_DIR → ∀ n ∈ live_nodes ofs, n.parent ≠ node.node := by
    intro hd
    rw [hfile] at hd
    exact absurd hd (by decide)
  obtain ⟨ofsd, hdel, hwfd, htimed, hlnd, hpnd, hblocksd, -⟩ :=
    del_node_spec ofs p node hwf hres hcheck (by omega) hL hsz
  obtain ⟨hnbd, hlbd⟩ := del_node_counters ofs p node hwf hres hcheck (by omega) hL hsz
    ofsd hdel
  have hnsd : ofsd.next_seq_id = ofs.next_seq_id + 1 := by
    have hl2 := (blocks_wf_indexes ofs hwf.1).1
    have hframe := (del_node_frame ofs node 1 (by omega)).2
    have hnb0 : (_oncefs_del_node ofs node 1).2.next_block_id = ofs.next_block_id := by
      rw [hframe]
    have hlb0 : (_oncefs_del_node ofs node 1).2.last_block_id = ofs.last_block_id := by
      rw [hframe]
    have hfresh := create_block_fresh (_oncefs_del_node ofs node 1).2 BLOCK_OPERATION_DELETE
      node.node 0 0 (by rw [hnb0, hlb0]; omega) (by rw [hnb0]; omega)
    have hrcd := (del_node_helper_spec ofs node hwf hcheck).1
    unfold oncefs_del_node at hdel
    rw [hres] at hdel
    dsimp only at hdel
    rw [if_neg (by simp), if_neg (by rw [hrcd]; simp)] at hdel
    have h2 := congrArg (fun r => r.2.next_seq_id) (Option.some.inj hdel)
    dsimp only at h2
    rw [← h2]
    unfold write_node_block
    dsimp only
    rw [hfresh]
    dsimp only
    rw [if_neg (by simp)]
    have hs0 : (_oncefs_del_node ofs node 1).2.next_seq_id = ofs.next_seq_id := by
      rw [hframe]
    cases hio : (_oncefs_del_node ofs node 1).2.io with
    | none => dsimp only; exact congrArg (· + 1) hs0
    | some dev =>
      dsimp only
      split <;> exact congrArg (· + 1) hs0
  have hszd := (del_node_ok_facts ofs hwf p ofsd hdel).2
  have hmv := move_helper_file ofs { node with parent := parent.node, name := basename p } node
    hwf.2.1 hu hnlive hnp hnn hfile
  have habs : ∀ n ∈ live_nodes ofsd, ¬ (n.parent = parent.node ∧ n.name = basename p) := by
    intro n hnm hh
    rw [hlnd, List.mem_filter] at hnm
    have e := unique_names_eq ofs hu n node hnm.1 hnlive (hh.1.trans hnp.symm)
      (hh.2.trans hnn.symm)
    rw [e] at hnm
    simp at hnm
  have hmv2 := move_helper_absent ofsd { node with parent := parent.node, name := basename p }
    hwfd.2.1 habs
  have hwf1 : engine_wf { ofsd with nodes := (table_insert_or_replace ofsd.nodes
      { node with parent := parent.node, name := basename p }).2 } :=
    engine_wf_step_closed.nodes_insert ofsd _ hwfd
  obtain ⟨ofs1, hw, hwf2, htime, hnodes, hnb1, hblocks⟩ := write_node_block_tail _
    BLOCK_OPERATION_MOVE { node with parent := parent.node, name := basename p } hwf1
    (show ofsd.next_block_id ≤ ofsd.last_block_id by omega)
    (show ofsd.last_block_id < 2 ^ 32 by omega) hszd
  refine ⟨ofsd, ofs1, ?_, hwf2, htime.trans htimed, hwfd, hlnd, hpnd, ?_, ?_, ?_⟩
  · unfold oncefs_move_node
    rw [hres]
    dsimp only
    rw [if_neg (by simp), hpar]
    dsimp only
    rw [if_neg (by simp), if_neg (by rw [hpddir]; simp), if_neg (by omega), if_neg hroot, hn,
      hmv]
    dsimp only
    rw [if_pos rfl, hdel]
    dsimp only
    rw [if_neg (by simp), hmv2]
    dsimp only
    rw [if_neg (by simp), hw]
  · rw [hnodes]
    show (table_insert_or_replace ofsd.nodes
      { node with parent := parent.node, name := basename p }).2 = _
    rw [hrow]
  · rw [hnb1]
    show ofsd.next_block_id + 1 = _
    rw [hnbd]
  · intro b
    rw [hblocks b]
    show (b = { block := ofsd.next_block_id,
                tag := { seq := ofsd.next_seq_id, operation := BLOCK_OPERATION_MOVE },
                data := { node := node.node, fill := 0, offset := 0 } } ∨
          b ∈ live_blocks ofsd) ↔ _
    rw [hnbd, hnsd, hblocksd b]

/-- C38, as stated, fails on a path without a leading slash, and with a
single unused block at the tail.  With the file `/foo` holding five bytes on
a container with five unused blocks at the tail, `"foo"` resolves to the
FILE (node `1`), but `move_node("foo", "foo")` returns NOT_FOUND, not OK,
and changes neither the rows nor the block records: the directory part of
`"foo"` is `"."`, which does not resolve.  With the same file on a container
with one unused block at the tail, `move_node("/foo", "/foo")` returns OK,
but the MOVE record is not appended: it takes over block `1`, which held the
NODE record of the file and so is not FREE afterwards. -/
theorem c38_counterexample :
    ((engine_after 512 8 c38_setup).next_block_id,
      (engine_after 512 8 c38_setup).last_block_id) = (3, 7) ∧
    (_oncefs_resolve_node (engine_after 512 8 c38_setup) "foo".toList).map
        (fun r => (r.1, r.2.node, r.2.type)) = some (0, 1, NODE_TYPE_FILE) ∧
    (live_blocks (engine_after 512 8 c38_setup)).map
        (fun b => (b.block, b.tag.operation, b.data.node))
      = [(1, BLOCK_OPERATION_NODE, 1), (2, BLOCK_OPERATION_DATA, 1)] ∧
    (oncefs_move_node (engine_after 512 8 c38_setup) "foo".toList "foo".toList).map
        (fun r => (r.1, (live_nodes r.2).map (fun n => (n.node, n.parent, n.name)),
          (live_blocks r.2).map (fun b => (b.block, b.tag.operation, b.data.node))))
      = some (-ENOENT, [(1, 0, "foo".toList)],
          [(1, BLOCK_OPERATION_NODE, 1), (2, BLOCK_OPERATION_DATA, 1)]) ∧
    ((engine_after 512 4 c38_setup).next_block_id,
      (engine_after 512 4 c38_setup).last_block_id) = (3, 3) ∧
    (oncefs_move_node (engine_after 512 4 c38_setup) "/foo".toList "/foo".toList).map
        (fun r => (r.1,
          (live_blocks r.2).map (fun b => (b.block, b.tag.seq, b.tag.operation, b.data.node))))
      = some (0, [(2, 2, BLOCK_OPERATION_FREE, 1), (3, 3, BLOCK_OPERATION_DELETE, 1),
          (1, 4, BLOCK_OPERATION_MOVE, 1)]) := by
  refine ⟨?_, ?_, ?_, ?_, ?_, ?_⟩ <;> rfl

/-- C38 (amended).  On an engine state satisfying the invariant, with unique
names and two unused blocks at the tail of a container of fewer than `2^32`
blocks whose blocks hold a node record: let `p`, a path with a slash before
its last component, a last component shorter than 256 bytes and a directory
part that resolves, resolve to the FILE `node`, the only live row with its
node id.  Then `move_node(p, p)` returns OK; afterwards `p` resolves to the
same row and the live rows are those there were; every block record of the
node with an operation from NODE to below `BLOCK_OPERATION_LAST` (its NODE
and its DATA blocks among them) is FREE (`free_node`), the other records
are as they were, and a DELETE record for the node at `next_block_id` with
the sequence number `next_seq_id` and a MOVE record for the node at
`next_block_id + 1` with the sequence number `next_seq_id + 1` have been
added; and `get_node(p)` returns OK with the size `0`. -/
theorem c38_move_onto_itself (ofs : oncefs_t) (p : List Char) (node parent : oncefs_node_t)
    (hwf : engine_wf ofs) (hu : unique_names ofs)
    (hres : _oncefs_resolve_node ofs p = some (0, node)) (hfile : node.type = NODE_TYPE_FILE)
    (hpar : _oncefs_resolve_node ofs (dirname p) = some (0, parent))
    (hss : '/' ∈ strip_slashes p)
    (hbase : (basename p).length < ONCEFS_NAME_MAX_SIZE)
    (hone : ∀ m ∈ live_nodes ofs, m.node = node.node → m = node)
    (hroom : ofs.next_block_id + 1 ≤ ofs.last_block_id) (hL : ofs.last_block_id < 2 ^ 32)
    (hsz : ∀ dev, ofs.io = some dev → SIZEOF_TAG + SIZEOF_NODE ≤ dev.block_size) :
    ∃ ofs1, oncefs_move_node ofs p p = some (0, ofs1) ∧
      _oncefs_resolve_node ofs1 p = some (0, node) ∧
      (∀ m, m ∈ live_nodes ofs1 ↔ m ∈ live_nodes ofs) ∧
      ofs1.next_block_id = ofs.next_block_id + 2 ∧
      (∀ b, b ∈ live_blocks ofs1 ↔
        (b = { block := ofs.next_block_id + 1,
               tag := { seq := ofs.next_seq_id + 1, operation := BLOCK_OPERATION_MOVE },
               data := { node := node.node, fill := 0, offset := 0 } } ∨
         b = { block := ofs.next_block_id,
               tag := { seq := ofs.next_seq_id, operation := BLOCK_OPERATION_DELETE },
               data := { node := node.node, fill := 0, offset := 0 } } ∨
         ∃ b0 ∈ live_blocks ofs, b = free_node node.node b0)) ∧
      (∀ b0 ∈ live_blocks ofs, b0.data.node = node.node →
        1 ≤ b0.tag.operation → b0.tag.operation < BLOCK_OPERATION_LAST →
        { b0 with tag := { b0.tag with operation := BLOCK_OPERATION_FREE } }
          ∈ live_blocks ofs1) ∧
      (∀ b ∈ live_blocks ofs1, b.data.node = node.node →
        b.tag.operation ≠ BLOCK_OPERATION_NODE ∧ b.tag.operation ≠ BLOCK_OPERATION_DATA) ∧
      (oncefs_get_node ofs1 p).map (fun r => (r.1, r.2.node, r.2.is_file, r.2.size))
        = some (0, node.node, 1, 0) := by
  obtain ⟨hnlive, hnp, hnn, hpdir, ofsd, ofs1, hmv, hwf1, htime, hwfd, hlnd, -, hnodes, hnb,
    hblocks⟩ := move_node_onto_itself ofs p node parent hwf hu hres hfile hpar hss hbase hroom
      hL hsz
  have hlive : ∀ m, m ∈ live_nodes ofs1 ↔ m ∈ live_nodes ofs := fun m => by
    show m ∈ index_rows ofs1.nodes.rows (table_index ofs1.nodes 1) ↔ _
    rw [hnodes, nodes_insert_mem node ofsd hwfd.2.1 1 (by omega) m]
    show (m = node ∨ (m ∈ live_nodes ofsd ∧ _)) ↔ _
    rw [hlnd, List.mem_filter]
    constructor
    · rintro (e | ⟨⟨e, -⟩, -⟩)
      · rw [e]; exact hnlive
      · exact e
    · intro hm
      by_cases hk : m.node = node.node
      · exact Or.inl (hone m hm hk)
      · exact Or.inr ⟨⟨hm, by simpa using hk⟩, fun hh => hk hh.1⟩
  have hnodata : ∀ b ∈ live_blocks ofs1, b.data.node = node.node →
      b.tag.operation ≠ BLOCK_OPERATION_NODE ∧ b.tag.operation ≠ BLOCK_OPERATION_DATA := by
    intro b hb hbn
    rcases (hblocks b).mp hb with e | e | ⟨b0, -, e⟩
    · rw [e]
      exact ⟨by show (BLOCK_OPERATION_MOVE : Int) ≠ BLOCK_OPERATION_NODE; decide,
        by show (BLOCK_OPERATION_MOVE : Int) ≠ BLOCK_OPERATION_DATA; decide⟩
    · rw [e]
      exact ⟨by show (BLOCK_OPERATION_DELETE : Int) ≠ BLOCK_OPERATION_NODE; decide,
        by show (BLOCK_OPERATION_DELETE : Int) ≠ BLOCK_OPERATION_DATA; decide⟩
    · rw [e] at hbn ⊢
      unfold free_node at hbn ⊢
      by_cases hc : b0.data.node = node.node ∧ 1 ≤ b0.tag.operation ∧
          b0.tag.operation < BLOCK_OPERATION_LAST
      · rw [if_pos hc]
        exact ⟨by show (BLOCK_OPERATION_FREE : Int) ≠ BLOCK_OPERATION_NODE; decide,
          by show (BLOCK_OPERATION_FREE : Int) ≠ BLOCK_OPERATION_DATA; decide⟩
      · rw [if_neg hc] at hbn ⊢
        constructor
        · intro ho
          have h1 : b0.tag.operation = (1 : Int) := ho
          exact hc ⟨hbn, show (1 : Int) ≤ b0.tag.operation by omega,
            show b0.tag.operation < (8 : Int) by omega⟩
        · intro ho
          have h1 : b0.tag.operation = (2 : Int) := ho
          exact hc ⟨hbn, show (1 : Int) ≤ b0.tag.operation by omega,
            show b0.tag.operation < (8 : Int) by omega⟩
  have hres1 : _oncefs_resolve_node ofs1 p = some (0, node) := by
    obtain ⟨htok, hroot⟩ := path_tokens_dirname p hss
    have hwalk := walk_of_resolve ofs p node hres
    have hrows := walk_rows_child ofs hwf.2.1 (path_tokens p) (root_node ofs) node hwalk
    have hroot1 : root_node ofs1 = root_node ofs := by
      unfold root_node; rw [htime]
    have hwalk1 : walk_segments ofs1 (path_tokens p) (root_node ofs1) = some node := by
      rw [hroot1]
      exact walk_stable ofs ofs1 hwf.2.1 hwf1.2.1 hu (path_tokens p) (root_node ofs) node
        hwalk (fun x hx => (hlive x).mpr (hrows x hx).1)
        (fun x _ m hm _ _ => (hlive m).mp hm)
    have hne : path_tokens p ≠ [] := by
      rw [htok]
      simp
    unfold _oncefs_resolve_node
    rw [if_neg hroot, if_neg hne]
    exact congrArg some
      (resolve_loop_of_walk ofs1 (path_tokens p) (root_node ofs1) default node hne hwalk1)
  refine ⟨ofs1, hmv, hres1, hlive, hnb, hblocks, ?_, hnodata, ?_⟩
  · intro b0 hb0 hbn h1 h2
    refine (hblocks _).mpr (Or.inr (Or.inr ⟨b0, hb0, ?_⟩))
    unfold free_node
    rw [if_pos ⟨hbn, h1, h2⟩]
    rfl
  · have hq : (table_query_last ofs1.blocks
        { block := 0, tag := { seq := 0, operation := BLOCK_OPERATION_DATA },
          data := { node := node.node, fill := 0, offset := 0 } }
        TABLE_INDEX_LOOKUP (some _oncefs_block_cmp_lookup_fuzzy)).1 ≠ 0 := by
      refine table_query_last_none ofs1.blocks _ 1 _oncefs_block_cmp_lookup
        _oncefs_block_cmp_lookup_fuzzy (live_blocks_sorted ofs1 hwf1.1) (filter_mono_fuzzy _) ?_
      intro b hb h0
      have hz := (fuzzy_eq_zero _ b).mp h0
      exact (hnodata b hb hz.2).2 hz.1
    unfold oncefs_get_node
    rw [hres1]
    dsimp only
    have hsize : ¬ ((1 : Int) = 1 ∧ (table_query_last ofs1.blocks
        { block := 0, tag := { seq := 0, operation := BLOCK_OPERATION_DATA },
          data := { node := node.node, fill := 0, offset := 0 } }
        TABLE_INDEX_LOOKUP (some _oncefs_block_cmp_lookup_fuzzy)).1 = 0) := fun h => hq h.2
    rw [if_neg (by simp), if_pos hfile, if_neg hsize]
    rfl

/-- Witness for C38 (amended): with the file `/foo` holding five bytes in
the blocks `1` (NODE) and `2` (DATA), `move_node("/foo", "/foo")` returns
OK; both blocks are FREE afterwards, the blocks `3` and `4` hold the DELETE
and the MOVE record, and `get_node("/foo")` reports the size `0`. -/
theorem c38_move_onto_itself_witness :
    (oncefs_get_node (engine_after 512 8 c38_setup) "/foo".toList).map
        (fun r => (r.1, r.2.node, r.2.is_file, r.2.size)) = some (0, 1, 1, 5) ∧
    ∃ ofs1, oncefs_move_node (engine_after 512 8 c38_setup) "/foo".toList "/foo".toList
        = some (0, ofs1) ∧
      _oncefs_resolve_node ofs1 "/foo".toList
        = some (0, { node := 1, parent := 0, type := NODE_TYPE_FILE, last_access := 10,
                     last_modification := 10, mode := 0, name := "foo".toList }) ∧
      (∀ m, m ∈ live_nodes ofs1 ↔ m ∈ live_nodes (engine_after 512 8 c38_setup)) ∧
      ofs1.next_block_id = (engine_after 512 8 c38_setup).next_block_id + 2 ∧
      (∀ b, b ∈ live_blocks ofs1 ↔
        (b = { block := (engine_after 512 8 c38_setup).next_block_id + 1,
               tag := { seq := (engine_after 512 8 c38_setup).next_seq_id + 1,
                        operation := BLOCK_OPERATION_MOVE },
               data := { node := 1, fill := 0, offset := 0 } } ∨
         b = { block := (engine_after 512 8 c38_setup).next_block_id,
               tag := { seq := (engine_after 512 8 c38_setup).next_seq_id,
                        operation := BLOCK_OPERATION_DELETE },
               data := { node := 1, fill := 0, offset := 0 } } ∨
         ∃ b0 ∈ live_blocks (engine_after 512 8 c38_setup), b = free_node 1 b0)) ∧
      (∀ b0 ∈ live_blocks (engine_after 512 8 c38_setup), b0.data.node = 1 →
        1 ≤ b0.tag.operation → b0.tag.operation < BLOCK_OPERATION_LAST →
        { b0 with tag := { b0.tag with operation := BLOCK_OPERATION_FREE } }
          ∈ live_blocks ofs1) ∧
      (∀ b ∈ live_blocks ofs1, b.data.node = 1 →
        b.tag.operation ≠ BLOCK_OPERATION_NODE ∧ b.tag.operation ≠ BLOCK_OPERATION_DATA) ∧
      (oncefs_get_node ofs1 "/foo".toList).map (fun r => (r.1, r.2.node, r.2.is_file, r.2.size))
        = some (0, 1, 1, 0) :=
  ⟨by rfl,
    c38_move_onto_itself (engine_after 512 8 c38_setup) "/foo".toList
      { node := 1, parent := 0, type := NODE_TYPE_FILE, last_access := 10,
        last_modification := 10, mode := 0, name := "foo".toList }
      (root_node (engine_after 512 8 c38_setup))
      (reachable_engine_wf _ (engine_after_reachable 512 8 _ (by decide) (by decide)))
      (by decide) (by decide) (by decide) (by rfl) (by decide) (by decide) (by decide)
      (by decide) (by decide)
      (fun dev h => by
        rw [((reachable_engine_wf _
          (engine_after_reachable 512 8 c38_setup (by decide) (by decide))).2.2.2 dev h).2]
        decide)⟩

end OnceFS
